import Mathlib

/-! TalisMan: terms, polynomial algebra, gate constraints and guess verification.

A shallow embedding of the term and polynomial layer of TalisMan (`term.cpp`,
`monomial.h`, `polynomial.cpp`, `reductionmethods.cpp`), of the gate
constraint generation (`gate.cpp`) and of the SAT based guess verification
(`subcircuit.cpp`), followed by theorems about them.

Conventions of the embedding.

* Pointers to hash-consed objects are values: a `Term*` is the list of its
  variables (`[]` is the null pointer, i.e. the constant term), so pointer
  equality of terms is equality of lists. The hash table that makes this so is
  modelled on its own, as a state machine over term objects with addresses
  (section "The term table").
* The variable stack `vstack` is empty between the calls of the term functions;
  each function is modelled from the empty stack.
* A `Polynomial*` is an `Option Polynomial`; `none` is the null pointer, which
  is how the program represents the zero polynomial (`build_poly` returns 0 on
  an empty stack).
* `mpz_t` coefficients are `Int`.
* A run that dereferences a null pointer or calls `die` yields `Except.error`.
* Reference counters of monomials and polynomials, the proof-log index `idx`
  and printing are not modelled; the functions are modelled with proof logging
  switched off.
-/

namespace Talisman

/-! ## Variables and terms (`variable.h`, `term.h`, `term.cpp`) -/

/-- Class `Var`: `num` links the variable to its gate, `level` orders the
variables, `d` tells whether it is a dual variable. Two `Var` objects are the
same object when all three agree. -/
structure Var where
  num : Int
  level : Int
  d : Bool
deriving DecidableEq, Repr

/-- Member `Var::get_dual`. The constructor of `Gate` and `Gate::set_var_level`
keep the dual of a primary variable at `level + 1` with the same `num`. -/
def Var.get_dual (v : Var) : Var :=
  if v.d then { num := v.num, level := v.level - 1, d := false }
  else { num := v.num, level := v.level + 1, d := true }

/-- A `Term*`: the linked list of variables, head first; `[]` is the null
pointer that stands for the constant term. -/
abbrev Term := List Var

/-- Function `new_term(variable, rest)`: hash-consing returns the unique term
with this head and rest. -/
def new_term (v : Var) (rest : Term) : Term := v :: rest

/-- Member `Term::degree`. -/
def Term.degree (t : Term) : Nat := t.length

/-- Member `Term::contains`. -/
def Term.contains (t : Term) (v : Var) : Bool :=
  match t with
  | [] => false
  | x :: rest => if x = v then true else Term.contains rest v

/-- Member `Term::contains_subterm`: every variable of `t` occurs in `self`. -/
def Term.contains_subterm (self t : Term) : Bool :=
  match t with
  | [] => true
  | x :: rest => if !(Term.contains self x) then false else Term.contains_subterm self rest

/-- The loop of `cmp_term`, run on two different non-null terms. -/
def cmp_term_loop : Term → Term → Int
  | a :: t1, b :: t2 =>
    if a.level > b.level then 1
    else if a.level < b.level then -1
    else cmp_term_loop t1 t2
  | _ :: _, [] => 1
  | [], _ :: _ => -1
  | [], [] => 0

/-- Function `cmp_term(t1, t2)`. -/
def cmp_term (t1 t2 : Term) : Int :=
  if t1 = [] then -1
  else if t2 = [] then 1
  else if t1 ≠ t2 then cmp_term_loop t1 t2
  else 0

/-- Function `build_term_from_stack()` with `sort = 0`: the variable stack is
popped from the back, each popped variable becoming the new head. The stack is
given front first. -/
def build_term_from_stack (vstack : List Var) : Term :=
  vstack.reverse.foldl (fun res v => new_term v res) []

/-- The three loops of `multiply_term`, pushing variables on the variable
stack `vs`. -/
def multiply_term_loop : Term → Term → List Var → List Var
  | a :: r1, b :: r2, vs =>
    if a.level > b.level then multiply_term_loop r1 (b :: r2) (vs ++ [a])
    else if a.level < b.level then multiply_term_loop (a :: r1) r2 (vs ++ [b])
    else multiply_term_loop r1 r2 (vs ++ [a])
  | a :: r1, [], vs => multiply_term_loop r1 [] (vs ++ [a])
  | [], b :: r2, vs => multiply_term_loop [] r2 (vs ++ [b])
  | [], [], vs => vs
termination_by t1 t2 _ => t1.length + t2.length

/-- Function `multiply_term(t1, t2)`. -/
def multiply_term (t1 t2 : Term) : Term :=
  if t1 = [] ∨ t2 = [] then []
  else if t1 = t2 then t1
  else build_term_from_stack (multiply_term_loop t1 t2 [])

/-- Function `new_quadratic_term(v1, v2)`. -/
def new_quadratic_term (v1 v2 : Var) : Term :=
  multiply_term (new_term v1 []) (new_term v2 [])

/-- Function `divide_by_var(t, v)` on terms. -/
def divide_by_var (t : Term) (v : Var) : Term :=
  build_term_from_stack (t.foldl (fun vs x => if x ≠ v then vs ++ [x] else vs) [])

/-- The first loop of `divide_by_term`: returns the rest of `t`, the rest of
`t1` and the variable stack. -/
def divide_by_term_loop : Term → Term → List Var → Term × Term × List Var
  | x :: tmp, y :: t1, vs =>
    if x ≠ y then divide_by_term_loop tmp (y :: t1) (vs ++ [x])
    else divide_by_term_loop tmp t1 vs
  | tmp, t1, vs => (tmp, t1, vs)

/-- The ways a run can stop without returning: a null pointer is dereferenced,
a division by zero, `die(code, msg)`, a C++ exception that nothing catches, or
an access to a `std::vector` outside its bounds. -/
inductive Fault where
  | nullDeref
  | divByZero
  | die (code : Nat) (msg : String)
  | exception (what : String)
  | outOfBounds
deriving DecidableEq, Repr

/-- Function `clear_vstack`. -/
def clear_vstack (_vstack : List Var) : List Var := []

/-- Function `divide_by_term(t, t1)`, entered with the empty variable stack: the
returned term and the variable stack as the call leaves it. When `t1` is not
used up the stack is cleared and `t->copy()` is returned, which dereferences
`t`; otherwise `build_term_from_stack` pops the whole stack. -/
def divide_by_term (t t1 : Term) : Except Fault (Term × List Var) :=
  match divide_by_term_loop t t1 [] with
  | (tmp, rest1, vs) =>
    if rest1 ≠ [] then
      if t = [] then .error .nullDeref else .ok (t, clear_vstack vs)
    else .ok (build_term_from_stack (tmp.foldl (fun s x => s ++ [x]) vs), [])

/-! ## The term table (`term.h`, `term.cpp`) -/

/-- What `compute_hash_term` reads from `hash_val.h` and from the variables: the
two nonces and the hash of each variable as the 64-bit value that is added.
Their values are taken as given. -/
structure HashParams where
  nonce0 : Nat
  nonce1 : Nat
  var_hash : Var → Nat

/-- A `Term` object in memory: its address, the head variable `var` (member
`variable`), the address of
the rest (`none` for the null pointer), the reference counter and the hash. The
member `next` is the position in the collision chain of its bucket. -/
structure TermObj where
  addr : Nat
  var : Var
  rest : Option Nat
  ref : Nat
  hash : Nat
deriving DecidableEq, Repr

/-- The global state of the term table: `size_terms`, `current_terms`, and
`term_table` as the list of its buckets, each bucket being its collision chain
from `term_table[h]` along `next`. `next_addr` is the address the next `new
Term` returns: allocation is modelled by fresh addresses. The counters are
natural numbers; in the states reached from the empty table no decrement meets
a zero. -/
structure TermTable where
  size_terms : Nat
  current_terms : Nat
  term_table : List (List TermObj)
  next_addr : Nat
deriving DecidableEq, Repr

/-- Function `compute_hash_term(variable, rest)` in 64-bit arithmetic;
`rest_hash` is `rest->get_hash()`, or `none` for a null `rest`. -/
def compute_hash_term (hp : HashParams) (v : Var) (rest_hash : Option Nat) : Nat :=
  let res := match rest_hash with
    | some h => h
    | none => 0
  let res1 := (res * hp.nonce0) % 2 ^ 64
  let res2 := (res1 + hp.var_hash v) % 2 ^ 64
  (res2 * hp.nonce1) % 2 ^ 64

/-- The term objects that are in the table, bucket after bucket. -/
def TermTable.live (s : TermTable) : List TermObj := s.term_table.flatten

/-- Reading through a `Term*`: the object at that address, a fault when no
term of the table lives there. -/
def TermTable.deref (s : TermTable) (t : Nat) : Except Fault TermObj :=
  match s.live.find? (fun m => m.addr == t) with
  | some m => .ok m
  | none => .error .nullDeref

/-- The bucket of a hash value: `hash & (size_terms - 1)`. -/
def bucket_index (hash size_terms : Nat) : Nat := hash &&& (size_terms - 1)

/-- The assignments `m->set_next(table[h]); table[h] = m`: `m` becomes the head
of the chain of bucket `h`. -/
def insert_head (tbl : List (List TermObj)) (h : Nat) (m : TermObj) : List (List TermObj) :=
  match tbl[h]? with
  | some bucket => tbl.set h (m :: bucket)
  | none => tbl

/-- Function `enlarge_terms`. -/
def TermTable.enlarge_terms (s : TermTable) : TermTable :=
  let new_size_terms := if s.size_terms ≠ 0 then 2 * s.size_terms else 1
  { size_terms := new_size_terms
    current_terms := s.current_terms
    term_table :=
      s.term_table.foldl
        (fun tbl bucket =>
          bucket.foldl (fun tbl2 m => insert_head tbl2 (bucket_index m.hash new_size_terms) m) tbl)
        (List.replicate new_size_terms [])
    next_addr := s.next_addr }

/-- Member `Term::inc_ref` (and `Term::copy`) applied to the object at address
`a`. -/
def inc_ref (tbl : List (List TermObj)) (a : Nat) : List (List TermObj) :=
  tbl.map (List.map (fun m => if m.addr = a then { m with ref := m.ref + 1 } else m))

/-- Member `Term::dec_ref` applied to the object at address `a`. -/
def dec_ref (tbl : List (List TermObj)) (a : Nat) : List (List TermObj) :=
  tbl.map (List.map (fun m => if m.addr = a then { m with ref := m.ref - 1 } else m))

/-- The initialiser `rest(_r ? _r->copy() : 0)` of the constructor of `Term`:
the reference counter of the rest is incremented. -/
def copy_rest (tbl : List (List TermObj)) (rest : Option Nat) : List (List TermObj) :=
  match rest with
  | none => tbl
  | some r => inc_ref tbl r

/-- The operand `rest ? rest->get_hash() : 0` of `compute_hash_term`: the hash
stored in the object `rest` points to. -/
def TermTable.rest_hash (s : TermTable) (rest : Option Nat) : Except Fault (Option Nat) :=
  match rest with
  | none => .ok none
  | some r =>
    match s.deref r with
    | .ok ro => .ok (some ro.hash)
    | .error e => .error e

/-- The part of `new_term(variable, rest)` that follows the check of the table
size: the search in the collision chain, and the increment of the counter of
the term found or the allocation of a new term at the head of the chain. -/
def TermTable.new_term_search (hp : HashParams) (s : TermTable) (v : Var)
    (rest : Option Nat) : Except Fault (TermTable × Nat) :=
  match s.rest_hash rest with
  | .error e => .error e
  | .ok rest_hash =>
    match s.term_table[bucket_index (compute_hash_term hp v rest_hash) s.size_terms]? with
    | none => .error .nullDeref
    | some bucket =>
      match bucket.find? (fun res => !(res.var != v || res.rest != rest)) with
      | some res =>
        .ok ({ size_terms := s.size_terms
               current_terms := s.current_terms
               term_table := inc_ref s.term_table res.addr
               next_addr := s.next_addr }, res.addr)
      | none =>
        .ok ({ size_terms := s.size_terms
               current_terms := s.current_terms + 1
               term_table :=
                 insert_head (copy_rest s.term_table rest)
                   (bucket_index (compute_hash_term hp v rest_hash) s.size_terms)
                   { addr := s.next_addr, var := v, rest := rest, ref := 1,
                     hash := compute_hash_term hp v rest_hash }
               next_addr := s.next_addr + 1 }, s.next_addr)

/-- Function `new_term(variable, rest)` on the table: the new state and the
address of the returned term. -/
def TermTable.new_term (hp : HashParams) (s : TermTable) (v : Var) (rest : Option Nat) :
    Except Fault (TermTable × Nat) :=
  (if s.current_terms = s.size_terms then s.enlarge_terms else s).new_term_search hp v rest

/-- The loop of `deallocate_term(t)`. The first argument bounds the number of
passes; `none` means that the bound was too small, which does not happen from
`deallocate_term` in a reachable state. -/
def TermTable.deallocate_term_loop : Nat → TermTable → Option Nat → Option (Except Fault TermTable)
  | _, s, none => some (.ok s)
  | 0, _, some _ => none
  | fuel + 1, s, some a =>
    match s.deref a with
    | .error e => some (.error e)
    | .ok t =>
      if t.ref - 1 > 0 then some (.ok { s with term_table := dec_ref s.term_table a })
      else
        match s.term_table[bucket_index t.hash s.size_terms]? with
        | none => some (.error .nullDeref)
        | some bucket =>
          if bucket.all (fun m => m.addr != a) then some (.error .nullDeref)
          else
            TermTable.deallocate_term_loop fuel
              { size_terms := s.size_terms
                current_terms := s.current_terms - 1
                term_table := s.term_table.set (bucket_index t.hash s.size_terms)
                  (bucket.eraseP (fun m => m.addr == a))
                next_addr := s.next_addr }
              t.rest

/-- Function `deallocate_term(t)`. -/
def TermTable.deallocate_term (s : TermTable) (t : Option Nat) : Option (Except Fault TermTable) :=
  s.deallocate_term_loop (s.next_addr + 1) t

/-- The table before the first call: `size_terms` and `current_terms` are 0. -/
def TermTable.empty : TermTable :=
  { size_terms := 0, current_terms := 0, term_table := [], next_addr := 0 }

/-! ## Monomials (`monomial.h`) -/

/-- Class `Monomial`: a coefficient and a term (`[]` for the constant). -/
structure Monomial where
  coeff : Int
  term : Term
deriving DecidableEq, Repr

/-- Modelled from the spec: `multiply_monomial` is declared in `monomial.h`
("Multiplies two monomials ... Product of m1*m2") but its body is not part of
the sources. The coefficients are multiplied; the term is the product of the
two terms by `multiply_term`, a constant factor leaving the other term
unchanged. -/
def multiply_monomial (m1 m2 : Monomial) : Monomial :=
  { coeff := m1.coeff * m2.coeff
    term := if m1.term ≠ [] ∧ m2.term ≠ [] then multiply_term m1.term m2.term
            else if m2.term ≠ [] then m2.term
            else m1.term }

/-! ## Polynomials and the build stack (`polynomial.h`, `polynomial.cpp`) -/

/-- Class `Polynomial`: the monomial array `mon` and the cached degree `deg`. -/
structure Polynomial where
  mon : List Monomial
  deg : Nat
deriving DecidableEq, Repr

/-- Dereferencing a `Polynomial*`. -/
def deref (p : Option Polynomial) : Except Fault Polynomial :=
  match p with
  | none => .error .nullDeref
  | some a => .ok a

/-- Member `Polynomial::get_lm`, the monomial `mon[0]`. -/
def Polynomial.get_lm (p : Polynomial) : Except Fault Monomial :=
  match p.mon with
  | [] => .error .nullDeref
  | m :: _ => .ok m

/-- Member `Polynomial::get_lt`, the term of `mon[0]`. -/
def Polynomial.get_lt (p : Polynomial) : Except Fault Term :=
  match p.mon with
  | [] => .error .nullDeref
  | m :: _ => .ok m.term

/-- Member `Polynomial::is_constant_zero_poly`. -/
def Polynomial.is_constant_zero_poly (p : Polynomial) : Bool := p.mon.length == 0

/-- The global build stack `mstack`, most recently pushed monomial first (the
head of the list is `mstack[num_mstack - 1]`). -/
abbrev MStack := List Monomial

/-- Function `push_mstack_end`. -/
def push_mstack_end (st : MStack) (m : Monomial) : MStack :=
  if m.coeff = 0 then st else m :: st

/-- The search loop of `push_mstack` for a monomial with a term, and the merge
or insertion that follows it; the stack is scanned from its top. -/
def push_mstack_scan (m : Monomial) : MStack → MStack
  | [] => [m]
  | tmp :: rest =>
    if cmp_term tmp.term m.term ≥ 0 then
      if cmp_term tmp.term m.term = 0 then
        if tmp.coeff + m.coeff = 0 then rest
        else { coeff := tmp.coeff + m.coeff, term := m.term } :: rest
      else m :: tmp :: rest
    else tmp :: push_mstack_scan m rest

/-- Function `push_mstack`. -/
def push_mstack (st : MStack) (m : Monomial) : MStack :=
  if m.coeff = 0 then st
  else
    match st with
    | [] => [m]
    | tmp :: rest =>
      if m.term = [] then
        if tmp.term ≠ [] then m :: tmp :: rest
        else if tmp.coeff + m.coeff ≠ 0 then { coeff := tmp.coeff + m.coeff, term := [] } :: rest
        else rest
      else push_mstack_scan m (tmp :: rest)

/-- The degree loop of `build_poly` over the monomial array: the state is
`(deg, tmp_deg)`. -/
def build_poly_deg (mons : List Monomial) : Nat :=
  (mons.foldl
    (fun (acc : Nat × Nat) m =>
      let tmp_deg := if m.term ≠ [] then m.term.degree else acc.2
      (if acc.1 < tmp_deg then tmp_deg else acc.1, tmp_deg))
    (0, 0)).1

/-- Function `build_poly`: the polynomial that owns the stack, or the null
pointer when the stack is empty. -/
def build_poly (st : MStack) : Option Polynomial :=
  if st = [] then none
  else some { mon := st.reverse, deg := build_poly_deg st.reverse }

/-- Member `Polynomial::copy`; the result of `build_poly` is dereferenced. -/
def Polynomial.copy (p : Polynomial) : Except Fault Polynomial :=
  deref (build_poly (p.mon.foldl push_mstack_end []))

/-- A call `p->copy()` through a pointer. -/
def copy_ptr (p : Option Polynomial) : Except Fault (Option Polynomial) := do
  let a ← deref p
  let out ← a.copy
  pure (some out)

/-- The comparison loop of `equal_poly` over the two monomial arrays. -/
def equal_poly_loop : List Monomial → List Monomial → Bool
  | m1 :: r1, m2 :: r2 =>
    if m1.term ≠ m2.term then false
    else if m1.coeff ≠ m2.coeff then false
    else equal_poly_loop r1 r2
  | _, _ => true

/-- Function `equal_poly`. -/
def equal_poly (p1 p2 : Option Polynomial) : Except Fault Bool := do
  let a ← deref p1
  let b ← deref p2
  if a.mon.length ≠ b.mon.length then pure false
  else if a.deg ≠ b.deg then pure false
  else pure (equal_poly_loop a.mon b.mon)

/-- The loops of `add_poly` over the two monomial arrays. -/
def add_poly_loop : List Monomial → List Monomial → MStack → MStack
  | m1 :: r1, m2 :: r2, st =>
    if m1.term = [] ∨ m2.term = [] then
      if m1.term = [] ∧ m2.term = [] then
        add_poly_loop r1 r2
          (if m1.coeff + m2.coeff ≠ 0 then
            push_mstack_end st { coeff := m1.coeff + m2.coeff, term := [] }
          else st)
      else if m1.term = [] then add_poly_loop (m1 :: r1) r2 (push_mstack_end st m2)
      else add_poly_loop r1 (m2 :: r2) (push_mstack_end st m1)
    else if cmp_term m1.term m2.term = 1 then
      add_poly_loop r1 (m2 :: r2) (push_mstack_end st m1)
    else if cmp_term m1.term m2.term = -1 then
      add_poly_loop (m1 :: r1) r2 (push_mstack_end st m2)
    else
      add_poly_loop r1 r2
        (if m1.coeff + m2.coeff ≠ 0 then
          push_mstack_end st { coeff := m1.coeff + m2.coeff, term := m1.term }
        else st)
  | m1 :: r1, [], st => (m1 :: r1).foldl push_mstack_end st
  | [], l2, st => l2.foldl push_mstack_end st
termination_by l1 l2 _ => l1.length + l2.length

/-- Function `add_poly`. -/
def add_poly (p1 p2 : Option Polynomial) : Except Fault (Option Polynomial) :=
  match p1, p2 with
  | none, _ => copy_ptr p2
  | some _, none => copy_ptr p1
  | some a, some b => pure (build_poly (add_poly_loop a.mon b.mon []))

/-- Function `multiply_poly`. -/
def multiply_poly (p1 p2 : Option Polynomial) : Option Polynomial :=
  match p1, p2 with
  | some a, some b =>
    build_poly
      (a.mon.foldl
        (fun st m1 => b.mon.foldl (fun st2 m2 => push_mstack st2 (multiply_monomial m1 m2)) st)
        [])
  | _, _ => none

/-- Function `multiply_poly_with_constant`. -/
def multiply_poly_with_constant (p1 : Option Polynomial) (c : Int) :
    Except Fault (Option Polynomial) :=
  if c = 0 then pure none
  else do
    let a ← deref p1
    pure (build_poly
      (a.mon.foldl (fun st m => push_mstack_end st { coeff := m.coeff * c, term := m.term }) []))

/-- Function `sub_poly`. -/
def sub_poly (p1 p2 : Option Polynomial) : Except Fault (Option Polynomial) := do
  let tmp ← multiply_poly_with_constant p2 (-1)
  add_poly tmp p1

/-- The loop of `divide_by_var(Polynomial*, const Term*)`. -/
def divide_by_var_poly_loop (t : Term) (v : Var) : List Monomial → MStack → MStack
  | [], st => st
  | lm_tmp :: rest, st =>
    if lm_tmp.term = [] then st
    else if cmp_term lm_tmp.term t = -1 then st
    else if lm_tmp.term.contains v then
      if divide_by_var lm_tmp.term v ≠ [] then
        divide_by_var_poly_loop t v rest
          (push_mstack_end st { coeff := lm_tmp.coeff, term := divide_by_var lm_tmp.term v })
      else push_mstack_end st { coeff := lm_tmp.coeff, term := [] }
    else divide_by_var_poly_loop t v rest st

/-- Function `divide_by_var(Polynomial* p1, const Term* t)`. -/
def divide_by_var_poly (p1 : Option Polynomial) (t : Term) :
    Except Fault (Option Polynomial) :=
  match t with
  | [] => .error .nullDeref
  | v :: _ => do
    let a ← deref p1
    pure (build_poly (divide_by_var_poly_loop t v a.mon []))

/-- The body of the loop of `divide_poly_by_term` for a term `t` of degree
other than 1, run on the monomial `lm_tmp` with the build stack `st`. -/
def divide_poly_by_term_step (t : Term) (st : MStack) (lm_tmp : Monomial) :
    Except Fault MStack :=
  if lm_tmp.term = [] then pure st
  else if lm_tmp.term.contains_subterm t then do
    let t_rem ← divide_by_term lm_tmp.term t
    pure (push_mstack_end st { coeff := lm_tmp.coeff, term := t_rem.1 })
  else pure st

/-- Function `divide_poly_by_term`. -/
def divide_poly_by_term (p1 : Option Polynomial) (t : Term) :
    Except Fault (Option Polynomial) :=
  if t = [] then .error .nullDeref
  else if t.degree = 1 then divide_by_var_poly p1 t
  else do
    let a ← deref p1
    let st ← a.mon.foldlM (divide_poly_by_term_step t) []
    pure (build_poly st)

/-! ## Reduction methods (`reductionmethods.cpp`) -/

/-- Function `reduce_by_one_poly`, proof logging off. -/
def reduce_by_one_poly (p1 p2 : Option Polynomial) : Except Fault (Option Polynomial) := do
  let q ← deref p2
  let lt ← q.get_lt
  let negfactor ← divide_poly_by_term p1 lt
  match negfactor with
  | none => copy_ptr p1
  | some f =>
    if f.is_constant_zero_poly then copy_ptr p1
    else do
      let lm ← q.get_lm
      let negfactor2 ←
        if lm.coeff > 0 then multiply_poly_with_constant (some f) (-1) else pure (some f)
      add_poly p1 (multiply_poly negfactor2 p2)

/-- The search loop at the start of `substitute_linear_poly`: the monomial of
`p1` whose term compares equal to the leading term of `p2`, if any. -/
def substitute_search (p2 : Option Polynomial) : List Monomial → Except Fault (Option Monomial)
  | [] => pure none
  | m :: rest =>
    if m.term = [] then substitute_search p2 rest
    else do
      let q ← deref p2
      let lt ← q.get_lt
      if cmp_term m.term lt = 0 then pure (some m)
      else if cmp_term m.term lt = -1 then pure none
      else substitute_search p2 rest

/-- Function `substitute_linear_poly`, proof logging off. The `assert` on the
degrees is a precondition and is not executed here. -/
def substitute_linear_poly (p1 p2 : Option Polynomial) : Except Fault (Option Polynomial) := do
  let p ← deref p1
  let p1_m ← substitute_search p2 p.mon
  match p1_m with
  | none => copy_ptr p1
  | some m =>
    let q ← deref p2
    let p2_m ← q.get_lm
    if m.coeff = p2_m.coeff then sub_poly p1 p2
    else if p2_m.coeff = 0 then .error .divByZero
    else if Int.tmod m.coeff p2_m.coeff ≠ 0 then .error (.die 1 "cannot use p2 to reduce p1")
    else do
      let p2_lift ← multiply_poly_with_constant p2 (Int.tdiv m.coeff p2_m.coeff)
      sub_poly p1 p2_lift

/-- The conversion of the `int` argument `exp` to the bit count (an
`unsigned long`) that `mpz_tdiv_r_2exp` receives. -/
def bitcnt (exp : Int) : Nat := (exp % 2 ^ 64).toNat

/-- Function `mod_poly`, proof logging off: every coefficient is replaced by
its truncated remainder modulo `2 ^ exp` (`mpz_tdiv_r_2exp`). -/
def mod_poly (p1 : Option Polynomial) (exp : Int) : Option Polynomial :=
  match p1 with
  | none => none
  | some a =>
    build_poly
      (a.mon.foldl
        (fun st m =>
          if Int.tmod m.coeff (2 ^ bitcnt exp) ≠ 0 then
            push_mstack_end st { coeff := Int.tmod m.coeff (2 ^ bitcnt exp), term := m.term }
          else st)
        [])

/-! ## Flipping a variable (`term.cpp`, `reductionmethods.cpp`) -/

/-- Function `multiply_term_by_var(t1, v)`. -/
def multiply_term_by_var (t1 : Term) (v : Var) : Term :=
  if t1 = [] then new_term v []
  else if t1.contains v.get_dual then []
  else multiply_term t1 (new_term v [])

/-- The loop of `flip_var_in_poly` without proof logging, on the monomials
from index `i` on and the build stack. `van_twins num` lists the variables of
the van twins of the gate `gate(num)`; the gate is looked up in every pass but
read only when `rem_van` is set. -/
def flip_var_in_poly_loop (van_twins : Int → List Var) (v : Var) (rem_van : Bool) :
    List Monomial → MStack → MStack
  | [], st => st
  | m :: rest, st =>
    match m.term with
    | [] => flip_var_in_poly_loop van_twins v rem_van rest (push_mstack st m)
    | x :: _ =>
      if x.level < v.level then (m :: rest).foldl push_mstack st
      else if m.term.contains v then
        let t := divide_by_var m.term v
        let flag := rem_van && decide (t ≠ []) && v.d &&
          (van_twins v.num).any (fun w => t.contains w)
        let st1 :=
          if !flag then
            push_mstack st { coeff := -m.coeff, term := multiply_term_by_var t v.get_dual }
          else st
        flip_var_in_poly_loop van_twins v rem_van rest
          (push_mstack st1 { coeff := m.coeff, term := t })
      else flip_var_in_poly_loop van_twins v rem_van rest (push_mstack st m)

/-- Function `flip_var_in_poly(p1, v, rem_van)`, proof logging off. -/
def flip_var_in_poly (van_twins : Int → List Var) (p1 : Option Polynomial) (v : Var)
    (rem_van : Bool) : Except Fault (Option Polynomial) := do
  let a ← deref p1
  pure (build_poly (flip_var_in_poly_loop van_twins v rem_van a.mon []))

/-! ## Gates and gate constraints (`gate.h`, `gate.cpp`) -/

/-- Record `aiger_and` of the AIG library: the literal of an AND gate and its
two fan-in literals. -/
structure aiger_and where
  lhs : Nat
  rhs0 : Nat
  rhs1 : Nat
deriving DecidableEq, Repr

/-- Function `aiger_sign` of the AIG library: an odd literal is negated. -/
def aiger_sign (l : Nat) : Bool := l % 2 == 1

/-- Class `Gate`, restricted to the members used here. The variable of the gate
is the primary variable with the number `num` and the level `level` (the
constructor creates it so, with its dual at `level + 1`, and
`Gate::set_var_level` keeps this). `children` and `parents` hold the numbers
of the child and parent gates, `xor_and` the number of the gate that the member
`xor_and` points to. -/
structure Gate where
  num : Int
  level : Int
  input : Bool
  output : Bool
  xor_gate : Int
  extension : Bool
  children : List Int
  distance : Int := 0
  parents : List Int := []
  xor_and : Option Int := none
deriving DecidableEq, Repr

/-- Member `Gate::get_var`. -/
def Gate.get_var (g : Gate) : Var := { num := g.num, level := g.level, d := false }

/-- The circuit as the functions of `gate.cpp` see it. `gates` is the gate
table; `NN`, `M`, `MM`, `is_model_and` and `slit` are declared in `aig.h`,
which is not part of the sources, and are taken as given: the number of
inputs, the number of AIG variables plus one, the number of outputs, the AND
record of a literal (if it is one) and the literal of an output.
`do_local_lin` is the flag set by `-dll`. -/
structure Circuit where
  NN : Nat
  M : Nat
  MM : Nat
  gates : List Gate
  is_model_and : Int → Option aiger_and
  slit : Nat → Nat
  do_local_lin : Bool

/-- Function `gate(int lit)`: the gate of a literal, the null pointer for the
constant literal 1. An index outside the table is treated like a null entry. -/
def gate (c : Circuit) (lit : Int) : Option Gate :=
  if lit ≤ 0 then c.gates[((c.M : Int) - lit - 1).toNat]?
  else if lit < 2 then none
  else c.gates[(lit / 2 - 1).toNat]?

/-- Dereferencing a `Gate*`. -/
def derefGate (g : Option Gate) : Except Fault Gate :=
  match g with
  | none => .error .nullDeref
  | some a => .ok a

/-- Dereferencing the result of `is_model_and`. -/
def derefAnd (a : Option aiger_and) : Except Fault aiger_and :=
  match a with
  | none => .error .nullDeref
  | some x => .ok x

/-- Function `positive_poly(v)` of `gate.cpp`. -/
def positive_poly (v : Var) : Option Polynomial :=
  build_poly (push_mstack_end [] { coeff := 1, term := new_term v [] })

/-- Function `negative_poly(v)` of `gate.cpp`. -/
def negative_poly (v : Var) : Option Polynomial :=
  build_poly
    (push_mstack (push_mstack [] { coeff := -1, term := new_term v [] })
      { coeff := 1, term := [] })

/-- Function `get_node_constraint(g, sign, flipped)` of `gate.cpp`. -/
def get_node_constraint (g : Option Gate) (sign : Bool) (flipped : Bool) : Option Polynomial :=
  match g with
  | some a =>
    if sign && flipped then positive_poly a.get_var.get_dual
    else if sign then negative_poly a.get_var
    else positive_poly a.get_var
  | none =>
    if sign then build_poly (push_mstack_end [] { coeff := 1, term := [] })
    else none

/-- Function `gen_xor_constraint(n)`. -/
def gen_xor_constraint (c : Circuit) (n : Gate) : Except Fault (Option Polynomial) := do
  let and1 ← derefAnd (c.is_model_and n.num)
  let l_gate ← derefGate (gate c and1.rhs0)
  let r_gate ← derefGate (gate c and1.rhs1)
  let smaller := if l_gate.level < r_gate.level then l_gate else r_gate
  let smand1 ← derefAnd (c.is_model_and smaller.num)
  let ll_gate := gate c smand1.rhs0
  let rr_gate := gate c smand1.rhs1
  let p_h := build_poly
    (push_mstack_end
      (push_mstack_end [] { coeff := -1, term := new_term n.get_var [] })
      { coeff := -2, term := new_term smaller.get_var [] })
  let p1 := get_node_constraint ll_gate (aiger_sign smand1.rhs0) false
  let p2 := get_node_constraint rr_gate (aiger_sign smand1.rhs1) false
  let p_tl ← add_poly p1 p2
  add_poly p_h p_tl

/-- Function `gen_gate_constraint(i)`. -/
def gen_gate_constraint (c : Circuit) (i : Nat) : Except Fault (Option Polynomial) := do
  let n ← derefGate c.gates[i]?
  if i + 1 < c.M ∧ (n.xor_gate ≠ 1 ∨ c.do_local_lin = false) then do
    let and1 ← derefAnd (c.is_model_and n.num)
    let l_gate := gate c and1.rhs0
    let r_gate := gate c and1.rhs1
    let st1 := push_mstack_end [] { coeff := -1, term := new_term n.get_var [] }
    let lg ← derefGate l_gate
    let v1 := if aiger_sign and1.rhs0 then lg.get_var.get_dual else lg.get_var
    let rg ← derefGate r_gate
    let v2 := if aiger_sign and1.rhs1 then rg.get_var.get_dual else rg.get_var
    let st2 := push_mstack_end st1 { coeff := 1, term := new_quadratic_term v1 v2 }
    pure (build_poly st2)
  else if i + 1 < c.M then gen_xor_constraint c n
  else do
    let lit := c.slit (i + 1 - c.M)
    let st1 := push_mstack_end [] { coeff := -1, term := new_term n.get_var [] }
    if lit = 1 then
      pure (build_poly (push_mstack_end st1 { coeff := 1, term := [] }))
    else if aiger_sign lit then do
      let g ← derefGate (gate c lit)
      let st2 := push_mstack_end st1 { coeff := -1, term := new_term g.get_var [] }
      pure (build_poly (push_mstack_end st2 { coeff := 1, term := [] }))
    else do
      let g ← derefGate (gate c lit)
      pure (build_poly (push_mstack_end st1 { coeff := 1, term := new_term g.get_var [] }))

/-! ## SAT based verification of a guess (`subcircuit.cpp`) -/

/-- A pseudo-Boolean constraint handed to the external encoder
`PB2CNF::encodeGeq(weights, literals, rhs, ...)`: the weighted sum of the true
literals is at least `rhs`. A literal is a non-zero integer, negative for a
negated variable. -/
structure PBGeq where
  weights : List Int
  literals : List Int
  rhs : Int
deriving DecidableEq, Repr

/-- The map `lit_id` from gates (given by their number, `none` for the null
pointer) to CNF variables, in insertion order. -/
abbrev LitMap := List (Option Int × Int)

/-- Lookup `lit_id[g]` of `std::map`: a missing key has the value 0. -/
def LitMap.get (m : LitMap) (g : Option Int) : Int :=
  match m.find? (fun kv => decide (kv.1 = g)) with
  | some kv => kv.2
  | none => 0

/-- The key of a gate pointer in `lit_id`. -/
def gateKey (g : Option Gate) : Option Int := g.map (fun a => a.num)

/-- Function `var_cnf_mapping(vars)`: the gates of the variables get the ids
1, 2, ... in the given order; a gate that occurs twice is a fatal error. -/
def var_cnf_mapping (c : Circuit) (vars : List Var) : Except Fault LitMap :=
  vars.foldlM
    (fun (lit_id : LitMap) v =>
      let g := gateKey (gate c v.num)
      if lit_id.any (fun kv => decide (kv.1 = g)) then
        Except.error (Fault.die 4 "Gate %s already has id %i")
      else Except.ok (lit_id ++ [(g, (lit_id.length : Int) + 1)]))
    []

/-- The three constraints that `translate_aig_part_to_cnf` emits for one gate
with the literals `lhs`, `rhs0`, `rhs1`. -/
def and_constraints (lhs rhs0 rhs1 : Int) : List PBGeq :=
  [ { weights := [1, 1], literals := [-lhs, rhs0], rhs := 1 },
    { weights := [1, 1], literals := [-lhs, rhs1], rhs := 1 },
    { weights := [1, 1, 1], literals := [lhs, -rhs0, -rhs1], rhs := 1 } ]

/-- Function `translate_aig_part_to_cnf(lit_id)` over the gates `gate_poly` of
the sub-circuit. The CNF is kept as the list of the constraints given to the
encoder. -/
def translate_aig_part_to_cnf (c : Circuit) (gate_poly : List Gate) (lit_id : LitMap) :
    Except Fault (List PBGeq) :=
  gate_poly.foldlM
    (fun (cnf_clauses : List PBGeq) g =>
      if !g.extension then do
        let and1 ← derefAnd (c.is_model_and g.num)
        let lit_id_lhs := lit_id.get (some g.num)
        let id0 := lit_id.get (gateKey (gate c and1.rhs0))
        let id1 := lit_id.get (gateKey (gate c and1.rhs1))
        let lit_id_rhs0 := if aiger_sign and1.rhs0 then -id0 else id0
        let lit_id_rhs1 := if aiger_sign and1.rhs1 then -id1 else id1
        pure (cnf_clauses ++ and_constraints lit_id_lhs lit_id_rhs0 lit_id_rhs1)
      else do
        let front ← match g.children.head? with
          | some x => Except.ok x
          | none => Except.error Fault.nullDeref
        let back ← match g.children.getLast? with
          | some x => Except.ok x
          | none => Except.error Fault.nullDeref
        let lit_id_lhs := lit_id.get (some g.num)
        let lit_id_rhs0 := lit_id.get (some front)
        let lit_id_rhs1 := lit_id.get (some back)
        pure (cnf_clauses ++ and_constraints lit_id_lhs lit_id_rhs0 lit_id_rhs1))
    []

/-- Function `mpz_get_si` of GMP on a 64-bit `long`: the value when it fits,
otherwise the low 63 bits of the magnitude with the sign of the argument. -/
def mpz_get_si (z : Int) : Int :=
  if z > 0 then z % 2 ^ 63
  else if z < 0 then -1 - ((-z - 1) % 2 ^ 63)
  else 0

/-- Conversion of a `long` to `int`: the value modulo `2 ^ 32` in the signed
range. -/
def long_to_int (x : Int) : Int := (x + 2 ^ 31) % 2 ^ 32 - 2 ^ 31

/-- The loop of `translate_poly_to_cnf` that collects weights and ids. -/
def poly_weights_ids (c : Circuit) (lit_id : LitMap) :
    List Monomial → List Int × List Int
  | [] => ([], [])
  | m :: rest =>
    let r := poly_weights_ids c lit_id rest
    match m.term with
    | [] => r
    | v :: _ => (mpz_get_si m.coeff :: r.1, lit_id.get (gateKey (gate c v.num)) :: r.2)

/-- Function `translate_poly_to_cnf(p, lit_id, cnf_clauses, second_call)`. -/
def translate_poly_to_cnf (c : Circuit) (p : Option Polynomial) (lit_id : LitMap)
    (cnf_clauses : List PBGeq) (second_call : Bool) : Except Fault (List PBGeq) := do
  let p_print ← if second_call then multiply_poly_with_constant p (-1) else pure p
  let a ← deref p_print
  let wi := poly_weights_ids c lit_id a.mon
  let last ← match a.mon.getLast? with
    | some m => Except.ok m
    | none => Except.error Fault.nullDeref
  if last.term = [] then
    let rhs_p := long_to_int (-1 * mpz_get_si last.coeff + 1)
    pure (cnf_clauses ++ [{ weights := wi.1, literals := wi.2, rhs := rhs_p }])
  else
    pure (cnf_clauses ++ [{ weights := wi.1, literals := wi.2, rhs := 1 }])

/-- All assignments of the CNF variables `1 .. n`, as lists of truth values. -/
def allAssignments : Nat → List (List Bool)
  | 0 => [[]]
  | n + 1 => (allAssignments n).flatMap (fun a => [false :: a, true :: a])

/-- Truth value of a literal under an assignment given as a list (variable `k`
is entry `k - 1`). The literal 0 is not a literal of the encoder; it counts as
false. -/
def litTrue (a : List Bool) (l : Int) : Bool :=
  if l > 0 then a.getD (l.toNat - 1) false
  else if l < 0 then !(a.getD ((-l).toNat - 1) false)
  else false

/-- The weighted sum of the true literals. -/
def pbSum (a : List Bool) : List Int → List Int → Int
  | w :: ws, l :: ls => (if litTrue a l then w else 0) + pbSum a ws ls
  | _, _ => 0

/-- An assignment satisfies a pseudo-Boolean constraint. -/
def PBGeq.holds (a : List Bool) (k : PBGeq) : Bool :=
  decide (pbSum a k.weights k.literals ≥ k.rhs)

/-- Function `call_kissat(cnf_clauses, ids)` with an exact encoder and an exact
solver: the answer is true exactly when no assignment of the `ids.size()`
variables satisfies every constraint (result 20, unsatisfiable). -/
def call_kissat (cnf_clauses : List PBGeq) (n : Nat) : Bool :=
  !((allAssignments n).any (fun a => cnf_clauses.all (fun k => k.holds a)))

/-- Function `verify_guess` (the value it returns). With
`use_algebra_reduction` the answer of `reduce_to_zero` is given by
`reduces`; otherwise the two solver calls decide. On acceptance the gate of the
leading term of `p` is looked up and dereferenced. -/
def verify_guess (c : Circuit) (use_algebra_reduction : Bool) (reduces : Bool)
    (p : Option Polynomial) (aig_clauses : List PBGeq) (lit_id : LitMap) :
    Except Fault (Option Polynomial) :=
  if use_algebra_reduction then
    if reduces then do
      let a ← deref p
      let lt ← a.get_lt
      let v ← match lt with
        | [] => Except.error Fault.nullDeref
        | v :: _ => Except.ok v
      let _ ← derefGate (gate c v.num)
      let _ ← a.copy
      pure p
    else pure none
  else do
    let cnf1 ← translate_poly_to_cnf c p lit_id aig_clauses false
    let run1 := call_kissat cnf1 lit_id.length
    let run2 ←
      if run1 then do
        let cnf2 ← translate_poly_to_cnf c p lit_id aig_clauses true
        pure (call_kissat cnf2 lit_id.length)
      else pure false
    if run1 && run2 then do
      let a ← deref p
      let lt ← a.get_lt
      let v ← match lt with
        | [] => Except.error Fault.nullDeref
        | v :: _ => Except.ok v
      let _ ← derefGate (gate c v.num)
      let _ ← a.copy
      pure p
    else pure none

/-! ## The remainder check (`witness.cpp`, `polynomial_solver.cpp`) -/

/-- The loop of `check_inputs_only(p)`: only the first variable of each term is
looked at. -/
def check_inputs_only_loop (c : Circuit) : List Monomial → Except Fault Bool
  | [] => pure true
  | m :: rest =>
    match m.term with
    | [] => check_inputs_only_loop c rest
    | v :: _ => do
      let n ← derefGate (gate c v.num)
      if n.input = false then pure false else check_inputs_only_loop c rest

/-- Function `check_inputs_only(p)`. -/
def check_inputs_only (c : Circuit) (p : Option Polynomial) : Except Fault Bool := do
  let q ← deref p
  check_inputs_only_loop c q.mon

/-- The end of `verify` ("Taking care of results"): the value `res` that
`verify` returns for the remainder `rem` of the reduction. A remainder that is
not over inputs only ends the run with `die(err_rem_poly, ...)`. -/
def verify_result (c : Circuit) (rem : Option Polynomial) : Except Fault Bool :=
  match rem with
  | some r =>
    if r.is_constant_zero_poly = false then do
      let inputs_only ← check_inputs_only c rem
      if inputs_only = false then
        .error (.die 42 "internal sorting error - remainder polynomial contains non-inputs")
      else pure false
    else pure true
  | none => pure true

/-! ## The command line and the exit code (`talisman.cpp`) -/

/-- The globals that `main` sets from the command line, with their initial
values. -/
structure Settings where
  verbose : Nat := 1
  proof_logging : Bool := false
  sc_fanout : Nat := 4
  sc_depth : Nat := 2
  miter_spec : Bool := false
  mult_spec : Bool := false
  assert_spec : Bool := false
  no_spec : Bool := true
  spec_selected : Bool := false
  gen_witness : Bool := true
  force_vanishing_off : Bool := false
  do_caching : Bool := true
  use_algebra_reduction : Bool := false
  do_preprocessing : Bool := true
  do_local_lin : Bool := false
  force_fglm : Bool := false
  force_guessing : Bool := false
  msolve : Bool := false
  input_name : Option String := none
  spec_name : Option String := none
  output_name1 : Option String := none
  output_name2 : Option String := none
  output_name3 : Option String := none
deriving DecidableEq, Repr

/-- Function `is_number(s)`. -/
def is_number (s : String) : Bool := !s.isEmpty && s.all Char.isDigit

/-- Function `std::stoi` on a string of digits: the value, or the exception
`std::out_of_range` when it does not fit an `int`. -/
def stoi (s : String) : Except Fault Int :=
  let value := s.foldl (fun n ch => 10 * n + (ch.toNat - 48)) 0
  if value < 2 ^ 31 then .ok value else .error (.exception "std::out_of_range")

/-- One round of the option loop of `main` for an argument that takes no
value (`-f` and `-d` come here when they are the last argument). The result
`none` stands for `exit(0)` after the usage text. -/
def parse_arg (arg : String) (s : Settings) : Except Fault (Option Settings) :=
  if arg = "-h" ∨ arg = "--help" then pure none
  else if arg = "-v0" then pure (some { s with verbose := 0 })
  else if arg = "-v1" then pure (some { s with verbose := 1 })
  else if arg = "-v2" then pure (some { s with verbose := 2 })
  else if arg = "-v3" then pure (some { s with verbose := 3 })
  else if arg = "-v4" then pure (some { s with verbose := 4 })
  else if arg = "-proofs" then pure (some { s with proof_logging := true })
  else if arg = "-miter-spec" then
    if s.spec_selected then .error (.die 11 "only one specification is allowed (try '-h')")
    else pure (some { s with miter_spec := true, no_spec := false, spec_selected := true })
  else if arg = "-mult-spec" then
    if s.spec_selected then .error (.die 11 "only one specification is allowed (try '-h')")
    else pure (some { s with mult_spec := true, no_spec := false, spec_selected := true })
  else if arg = "-assert-spec" then
    if s.spec_selected then .error (.die 11 "only one specification is allowed (try '-h')")
    else pure (some { s with assert_spec := true, no_spec := false, spec_selected := true })
  else if arg = "--no-counter-examples" ∨ arg = "-nce" then
    pure (some { s with gen_witness := false })
  else if arg = "--no-vanishing" ∨ arg = "-nvc" then
    pure (some { s with force_vanishing_off := true })
  else if arg = "--no-caching" ∨ arg = "-nch" then
    pure (some { s with do_caching := false })
  else if arg = "--algebraic-reduction" ∨ arg = "-alg" then
    pure (some { s with use_algebra_reduction := true })
  else if arg = "--no-preprocessing" ∨ arg = "-npp" then
    pure (some { s with do_preprocessing := false })
  else if arg = "--do-local-linearization" ∨ arg = "-dll" then
    pure (some { s with do_local_lin := true })
  else if arg = "--force-fglm" ∨ arg = "-fglm" then
    pure (some { s with force_fglm := true })
  else if arg = "--force-guessing" ∨ arg = "-gap" then
    pure (some { s with force_guessing := true, sc_depth := 4 })
  else if arg = "--msolve" ∨ arg = "-m" then
    pure (some { s with msolve := true })
  else if s.output_name3 ≠ none then
    .error (.die 12 "too many arguments (try '-h')")
  else if s.output_name2 ≠ none then
    pure (some { s with output_name3 := some arg })
  else if s.output_name1 ≠ none then
    pure (some { s with output_name2 := some arg })
  else if s.spec_name ≠ none ∨ (s.input_name ≠ none ∧ s.no_spec = false) then
    pure (some { s with output_name1 := some arg })
  else if s.input_name ≠ none ∧ s.no_spec = true then
    pure (some { s with spec_name := some arg })
  else pure (some { s with input_name := some arg })

/-- The option loop of `main` over `argv[1..]`. The options `-f` and `-d` take
the next argument as their value when there is one. -/
def parse_args : List String → Settings → Except Fault (Option Settings)
  | [], s => pure (some s)
  | "-f" :: arg_value :: rest, s =>
    if is_number arg_value then do
      let value ← stoi arg_value
      if value < 0 then .error (.die 123 "-f needs to be followed by a non-negative integer")
      else parse_args rest { s with sc_fanout := value.toNat }
    else .error (.die 123 "-f needs to be followed by a non-negative integer")
  | "-d" :: arg_value :: rest, s =>
    if is_number arg_value then do
      let value ← stoi arg_value
      if value ≤ 0 then .error (.die 123 "-d needs to be followed by a positive integer")
      else parse_args rest { s with sc_depth := value.toNat }
    else .error (.die 123 "-d needs to be followed by a positive integer")
  | arg :: rest, s => do
    match ← parse_arg arg s with
    | none => pure none
    | some s2 => parse_args rest s2

/-- The checks of `main` between the option loop and the run. -/
def check_settings (s : Settings) : Except Fault Unit :=
  if s.input_name = none then .error (.die 10 "no input file given (try '-h')")
  else if s.no_spec = true ∧ s.spec_name = none then
    .error (.die 10 "no spec file in modus 'no_spec' given (try '-h')")
  else if s.proof_logging = true ∧
      (s.output_name1 = none ∨ s.output_name2 = none ∨ s.output_name3 = none) then
    .error (.die 13 "proof logging requires three output files (try '-h')")
  else if s.proof_logging = false ∧ s.output_name1 ≠ none then
    .error (.die 13 "invalid option (try '-h')")
  else if s.proof_logging = true ∧ s.msolve = true then
    .error (.die 123
      "invalid combination of options: proof logging is not supported by msolve (try '-h')")
  else if s.force_fglm = true ∧ s.force_guessing = true then
    .error (.die 123
      "invalid combination of options: fglm and guessing cannot be forced at the same time (try '-h')")
  else if s.force_fglm = true ∧ s.use_algebra_reduction = true then
    .error (.die 123
      "invalid combination of options: algebra reduction can only be used in guessing (try '-h')")
  else pure ()

/-- Function `main`: the exit code of the process when it ends by `exit(0)` or
by the return from `main`. `argv` includes the program name. The part of the
run from `parse_aig` to the call of `verify` is the parameter `run`: it gives
the value `res` returned by `verify`, or the fault at which it stops. `main`
ends with `return res`, where `res` is a `bool`. -/
def main (argv : List String) (run : Settings → Except Fault Bool) : Except Fault Int := do
  match ← parse_args argv.tail {} with
  | none => pure 0
  | some s =>
    check_settings s
    let res ← run s
    pure (if res then 1 else 0)

/-! ## The canonical form of a sub-circuit (`subcircuit.h`, `subcircuit.cpp`) -/

/-- Struct `Normalized_poly`: the coefficients and, for each of them, the
identifiers of the variables of its term. -/
structure Normalized_poly where
  coeffs : List Int
  terms : List (List Nat)
deriving DecidableEq, Repr

/-- Member `Normalized_poly::emplace_back`. -/
def Normalized_poly.emplace_back (np : Normalized_poly) (c : Int) (t : List Nat) :
    Normalized_poly :=
  { coeffs := np.coeffs ++ [c], terms := np.terms ++ [t] }

/-- Member `Normalized_poly::size`. -/
def Normalized_poly.size (np : Normalized_poly) : Nat := np.terms.length

/-- The map `std::map<Var*, size_t> var_to_id` as the list of its entries in
the order of their insertion. -/
abbrev VarIds := List (Var × Nat)

/-- Member `find` of the map: the identifier stored for `v`, if there is one. -/
def find_id : VarIds → Var → Option Nat
  | [], _ => none
  | (w, i) :: rest, v => if w = v then some i else find_id rest v

/-- The loop `while (t)` of `compress_subcircuit` over one term: a variable that
the map does not hold gets the next identifier. No run has `2^64` variables, so
`id++` does not wrap. -/
def assign_ids_term : Term → VarIds × Nat → VarIds × Nat
  | [], st => st
  | v :: t, (m, id) =>
    if find_id m v = none then assign_ids_term t (m ++ [(v, id)], id + 1)
    else assign_ids_term t (m, id)

/-- The loop of `compress_subcircuit` over the monomials of `g`. -/
def assign_ids (mon : List Monomial) (st : VarIds × Nat) : VarIds × Nat :=
  mon.foldl (fun st m => assign_ids_term m.term st) st

/-- The loop `while (t)` of `normalize`: `var_to_id[v]` is appended to `nt`;
`operator[]` inserts a missing variable with the value 0. -/
def normalize_term : Term → List Nat → VarIds → List Nat × VarIds
  | [], nt, m => (nt, m)
  | v :: t, nt, m =>
    match find_id m v with
    | some i => normalize_term t (nt ++ [i]) m
    | none => normalize_term t (nt ++ [0]) (m ++ [(v, 0)])

/-- One round of the loop of `normalize`. -/
def normalize_mon (st : Normalized_poly × VarIds) (m : Monomial) : Normalized_poly × VarIds :=
  let nt0 : List Nat := if m.term = [] then [0] else []
  let r := normalize_term m.term nt0 st.2
  (st.1.emplace_back m.coeff r.1, r.2)

/-- Function `normalize(p, var_to_id)`. -/
def normalize (p : Polynomial) (m : VarIds) : Normalized_poly × VarIds :=
  p.mon.foldl normalize_mon ({ coeffs := [], terms := [] }, m)

/-- One round of the loop of `compress_subcircuit` for the polynomial `g` of a
gate; the state is `res`, `var_to_id` and `id`. -/
def compress_step (st : List Normalized_poly × VarIds × Nat) (g : Option Polynomial) :
    Except Fault (List Normalized_poly × VarIds × Nat) := do
  let q ← deref g
  let a := assign_ids q.mon (st.2.1, st.2.2)
  let h := normalize q a.1
  pure (st.1 ++ [h.1], h.2, a.2)

/-- Function `compress_subcircuit(subcircuit, res, var_to_id)`: the final `res`
and `var_to_id`. The argument lists, in the order of the set `subcircuit`, the
polynomial `g` that the loop takes for each gate: its stored normal form, or
the one that `unflip_poly_and_remove_van_mon` computes and the gate then
stores. -/
def compress_subcircuit (subcircuit : List (Option Polynomial)) :
    Except Fault (List Normalized_poly × VarIds) := do
  let st ← subcircuit.foldlM compress_step ([], [], 1)
  pure (st.1, st.2.1)

/-- The update `seed ^= h + 0x9e3779b9 + (seed << 6) + (seed >> 2)` of
`circuit_hash` on 64-bit `size_t`. -/
def hash_combine (seed h : Nat) : Nat :=
  seed ^^^ ((h + 0x9e3779b9 + (seed <<< 6) + (seed >>> 2)) % 2 ^ 64)

/-- Struct `circuit_hash`, its call operator. The hash functions
`std::hash<std::string>` and `std::hash<size_t>` of the C++ library are the
parameters `h1` and `h2`; `get_str()` gives the decimal digits of a
coefficient. -/
def circuit_hash (h1 : String → Nat) (h2 : Nat → Nat) (circuit : List Normalized_poly) : Nat :=
  circuit.foldl (fun seed p =>
    (List.range p.size).foldl (fun seed i =>
      (p.terms.getD i []).foldl (fun seed t => hash_combine seed (h2 t))
        (hash_combine seed (h1 (toString (p.coeffs.getD i 0))))) seed) 0

/-! ## The multiplier specification (`specpoly.cpp`) -/

/-- Function `mult_spec_poly()`. The indices `a0`, `ainc`, `b0`, `binc` of the
input gates of the two operands are declared in `aig.h`, which is not part of
the sources, and are taken as given; `base` is 2. -/
def mult_spec_poly (c : Circuit) (a0 ainc b0 binc : Nat) : Except Fault (Option Polynomial) := do
  let st1 ← (List.range c.NN).reverse.foldlM
    (fun st i => do
      let g ← derefGate c.gates[i + c.M - 1]?
      pure (push_mstack st (Monomial.mk (-(2 ^ i)) (new_term g.get_var [])))) []
  let st2 ← (List.range (c.NN / 2)).reverse.foldlM
    (fun st i => do
      let a ← derefGate c.gates[a0 + i * ainc]?
      (List.range (c.NN / 2)).reverse.foldlM
        (fun st j => do
          let b ← derefGate c.gates[b0 + j * binc]?
          pure (push_mstack st
            (Monomial.mk (2 ^ (i + j)) (build_term_from_stack [b.get_var, a.get_var])))) st)
    st1
  pure (build_poly st2)

/-! ## Setting up the gate table (`gate.cpp`) -/

/-- Constructor `Gate(n_, name_, level_, input_, output_)`. -/
def Gate.create (n level : Int) (input output : Bool) : Gate :=
  Gate.mk n level input output 0 false [] 0 [] none

/-- Member `Gate::set_var_level`. -/
def Gate.set_var_level (g : Gate) (l : Int) : Gate := { g with level := l }

/-- The index of the slot of `gates` that `gate(lit)` reads; none for the
constant literal 1, for which `gate` returns the null pointer. -/
def gate_idx (M : Nat) (lit : Int) : Option Nat :=
  if lit ≤ 0 then some ((M : Int) - lit - 1).toNat
  else if lit < 2 then none
  else some (lit / 2 - 1).toNat

/-- The gate table with the gate in slot `i` replaced by `f` of it. -/
def Circuit.modify_gate (c : Circuit) (i : Nat) (f : Gate → Gate) : Circuit :=
  match c.gates[i]? with
  | some g => { c with gates := c.gates.set i (f g) }
  | none => c

/-- One round of the distance loop of `allocate_gates` for the slot `i`; the
state is the table (inputs and AND gates, the outputs are not allocated yet)
and `max_dist`. -/
def allocate_dist_step (c : Circuit) (st : List Gate × Int) (i : Nat) :
    Except Fault (List Gate × Int) := do
  let n ← derefGate st.1[i]?
  match c.is_model_and n.num with
  | none => pure st
  | some and1 =>
    if and1.rhs0 < 2 ∨ and1.rhs1 < 2 then
      pure (st.1.set i { n with distance := 1 }, st.2)
    else do
      let l_gate ← derefGate st.1[and1.rhs0 / 2 - 1]?
      let r_gate ← derefGate st.1[and1.rhs1 / 2 - 1]?
      let dist_n :=
        if l_gate.distance > r_gate.distance then l_gate.distance + 1 else r_gate.distance + 1
      pure (st.1.set i { n with distance := dist_n }, if dist_n > st.2 then st.2 + 1 else st.2)

/-- Function `mark_aig_outputs` as far as the gate table is concerned: the gate
of every output literal is dereferenced (the mark itself is not modelled). -/
def mark_aig_outputs (c : Circuit) (gates : List Gate) : Except Fault Unit :=
  (List.range c.MM).foldlM
    (fun _ i =>
      if c.slit i < 2 then pure ()
      else do
        let _ ← derefGate gates[c.slit i / 2 - 1]?
        pure ()) ()

/-- One round of the inner loop of the re-levelling of `allocate_gates`; the
state is the table and the counter `level`. -/
def relevel_step (dist_it : Int) (st : List Gate × Int) (i : Nat) :
    Except Fault (List Gate × Int) := do
  let n ← derefGate st.1[i]?
  if n.distance = dist_it then pure (st.1.set i (n.set_var_level (st.2 + 2)), st.2 + 2)
  else pure st

/-- Function `allocate_gates`: the gate table `gates` (its `num_gates` slots in
use) and the final `max_dist`, from the value `max_dist` has at entry (0 at
program start). The names of the gates are not modelled.

Without `mult_spec` the inputs are created in slot order. With `mult_spec` the
two loops visit the slots `a0, a0 + ainc, ..` up to `al` and then `b0, b0 +
binc, ..` up to `bl`; these six numbers are set by the parser, which is not
part of the sources, and the slots visited are given as the lists `a_idx` and
`b_idx`, taken to name every input slot once. The input in slot `i` gets the
level `2 * (k + 1)` when it is the `k`-th slot visited. -/
def allocate_gates (c : Circuit) (mult_spec : Bool) (a_idx b_idx : List Nat) (max_dist : Int) :
    Except Fault (List Gate × Int) := do
  let order := if mult_spec then a_idx ++ b_idx else List.range c.NN
  let inputs := (List.range c.NN).map
    (fun (i : Nat) =>
      Gate.create (2 * ((i : Int) + 1)) (2 * ((order.indexOf i : Int) + 1)) true false)
  let level : Int := 2 * order.length
  let slots := List.range' c.NN (c.M - 1 - c.NN)
  let ands := slots.map (fun (i : Nat) => Gate.create (2 * ((i : Int) + 1)) 0 false false)
  let st1 ← slots.foldlM (allocate_dist_step c) (inputs ++ ands, max_dist)
  mark_aig_outputs c st1.1
  let st2 ← (List.range' 1 st1.2.toNat).foldlM
    (fun st (dist_it : Nat) => slots.foldlM (relevel_step dist_it) st) (st1.1, level)
  let outputs := (List.range' (c.M - 1) c.MM).map
    (fun (i : Nat) => Gate.create ((c.M : Int) - i - 1) (2 * ((i : Int) + 1)) false true)
  pure (st2.1 ++ outputs, st1.2)

/-- Member `children_push_back` applied to the gate in slot `i`: a null child
is not pushed. -/
def push_child (c : Circuit) (i : Nat) (child : Option Gate) : Circuit :=
  match child with
  | some g => c.modify_gate i (fun n => { n with children := n.children ++ [g.num] })
  | none => c

/-- Member `parents_push_back(n)` applied to the gate in slot `j`. -/
def push_parent (c : Circuit) (j : Nat) (n : Gate) : Circuit :=
  c.modify_gate j (fun g => { g with parents := g.parents ++ [n.num] })

/-- The part `if (l_gate) l_gate->parents_push_back(n)` of
`set_parents_and_children` for the fan-in literal `l`. -/
def push_parent_of_lit (c : Circuit) (l : Int) (n : Gate) : Circuit :=
  match gate c l, gate_idx c.M l with
  | some _, some j => push_parent c j n
  | _, _ => c

/-- One round of the first loop of `set_parents_and_children`, for the slot
`i`. Of the lists of a gate only `children` and `parents` are modelled. -/
def set_parents_step (c : Circuit) (i : Nat) : Except Fault Circuit := do
  let n ← derefGate c.gates[i]?
  match c.is_model_and n.num with
  | none => pure c
  | some and1 =>
    let c1 := push_child c i (gate c and1.rhs0)
    let c2 := push_child c1 i (gate c1 and1.rhs1)
    let c3 := push_parent_of_lit c2 and1.rhs0 n
    pure (push_parent_of_lit c3 and1.rhs1 n)

/-- One round of the second loop of `set_parents_and_children`, for the output
`i`. -/
def set_parents_output_step (c : Circuit) (i : Nat) : Except Fault Circuit := do
  let n ← derefGate c.gates[i + c.M - 1]?
  if c.slit i < 2 then pure c
  else do
    let c1 := push_child c (i + c.M - 1) (gate c (c.slit i))
    let _ ← derefGate (gate c1 (c.slit i))
    match gate_idx c.M (c.slit i) with
    | some j => pure (push_parent c1 j n)
    | none => pure c1

/-- Function `set_parents_and_children`. The first loop runs `i` from `M - 1`
down to `NN` with an unsigned `i`, so that with `NN = 0` it does not stop at 0
and reads outside the table. -/
def set_parents_and_children (c : Circuit) : Except Fault Circuit := do
  if c.NN = 0 then .error .nullDeref
  else do
    let c1 ← (List.range' c.NN (c.M - c.NN)).reverse.foldlM set_parents_step c
    (List.range c.MM).foldlM set_parents_output_step c1

/-- Function `init_gate_constraints` as far as the gate table is concerned: the
constraint of every gate is generated and copied (it is stored in the gate,
which is not modelled). -/
def init_gate_constraints (c : Circuit) : Except Fault Unit :=
  (List.range' c.NN (c.M - 1 - c.NN) ++ (List.range c.MM).map (fun i => i + c.M - 1)).foldlM
    (fun _ i => do
      let p ← gen_gate_constraint c i
      let q ← deref p
      let _ ← q.copy
      pure ()) ()

/-- Function `aiger_not` of the AIG library. -/
def aiger_not (l : Nat) : Nat := l ^^^ 1

/-- Function `aiger_strip` of the AIG library. -/
def aiger_strip (l : Nat) : Nat := l - l % 2

/-- The test of `set_xor` on the fan-ins `ll`, `lr` and `rl`, `rr` of the two
children. -/
def xor_pattern (land rand : aiger_and) : Prop :=
  (land.rhs0 = aiger_not rand.rhs0 ∧ land.rhs1 = aiger_not rand.rhs1) ∨
    (land.rhs0 = aiger_not rand.rhs1 ∧ land.rhs1 = aiger_not rand.rhs0)

instance (land rand : aiger_and) : Decidable (xor_pattern land rand) := by
  unfold xor_pattern; infer_instance

/-- Member `set_xor_gate(val)` applied to `gate(lit)`, which is dereferenced. -/
def set_xor_gate_of_lit (c : Circuit) (lit : Int) (val : Int) : Except Fault Circuit := do
  let _ ← derefGate (gate c lit)
  match gate_idx c.M lit with
  | some j => pure (c.modify_gate j (fun g => { g with xor_gate := val }))
  | none => pure c

/-- One round of the loop of `set_xor`, for the slot `i`. -/
def set_xor_step (c : Circuit) (i : Nat) : Except Fault Circuit := do
  let n ← derefGate c.gates[i]?
  if n.input then pure c
  else if n.xor_gate > 0 then pure c
  else
    match c.is_model_and n.num with
    | none => pure c
    | some and1 =>
      if aiger_sign and1.rhs0 = false then pure c
      else if aiger_sign and1.rhs1 = false then pure c
      else if and1.rhs0 = and1.rhs1 ∨ and1.rhs0 = aiger_not and1.rhs1 then pure c
      else
        match c.is_model_and (aiger_strip and1.rhs0) with
        | none => pure c
        | some land =>
          match c.is_model_and (aiger_strip and1.rhs1) with
          | none => pure c
          | some rand =>
            if xor_pattern land rand then do
              let c1 ← set_xor_gate_of_lit c (aiger_strip and1.rhs0) 2
              let c2 ← set_xor_gate_of_lit c1 (aiger_strip and1.rhs1) 2
              pure (c2.modify_gate i (fun g => { g with xor_gate := 1 }))
            else pure c

/-- Function `set_xor`. -/
def set_xor (c : Circuit) : Except Fault Circuit :=
  (List.range c.M).foldlM set_xor_step c

/-- Member `children_front()`: the first child; `front()` of an empty list
has no defined result. -/
def children_front (c : Circuit) (g : Gate) : Except Fault Gate :=
  match g.children.head? with
  | some k => derefGate (gate c k)
  | none => .error .nullDeref

/-- Member `children_back()`. -/
def children_back (c : Circuit) (g : Gate) : Except Fault Gate :=
  match g.children.getLast? with
  | some k => derefGate (gate c k)
  | none => .error .nullDeref

/-- Member `is_child(n)`. -/
def Gate.is_child (g n : Gate) : Bool := g.children.contains n.num

/-- The gates `ands` that `mark_xor_and` collects for the XOR root `g`: the
parents of `llg` that are no child of `g` and have `lrg` as a child. -/
def xor_and_candidates (c : Circuit) (g llg lrg : Gate) : List Gate :=
  llg.parents.filterMap (fun k =>
    match gate c k with
    | some llg_p => if g.is_child llg_p then none
                    else if llg_p.is_child lrg = false then none else some llg_p
    | none => none)

/-- One round of the loop of `mark_xor_and`, for the slot `i`. The mark
`xor_and_inp` is not modelled. -/
def mark_xor_and_step (c : Circuit) (i : Nat) : Except Fault Circuit := do
  let g ← derefGate c.gates[i]?
  if g.xor_gate ≠ 1 then pure c
  else if g.children.length ≠ 2 then pure c
  else do
    let front ← children_front c g
    let llg ← children_front c front
    let lrg ← children_back c front
    match xor_and_candidates c g llg lrg with
    | [and1] =>
      match gate_idx c.M and1.num with
      | some j =>
        pure ((c.modify_gate j (fun a => { a with xor_and := some g.num })).modify_gate i
          (fun x => { x with xor_and := some and1.num }))
      | none => pure c
    | _ => pure c

/-- Function `mark_xor_and`. -/
def mark_xor_and (c : Circuit) : Except Fault Circuit :=
  (List.range c.M).foldlM mark_xor_and_step c

/-- Function `init_gates`: the gate table and `max_dist`. The argument gives
the AIG (`NN`, `M`, `MM`, `is_model_and`, `slit`); its field `gates` is not
read. -/
def init_gates (c : Circuit) (mult_spec : Bool) (a_idx b_idx : List Nat) (max_dist : Int) :
    Except Fault (Circuit × Int) := do
  let r ← allocate_gates c mult_spec a_idx b_idx max_dist
  let c1 ← set_parents_and_children { c with gates := r.1 }
  init_gate_constraints c1
  let c2 ← set_xor c1
  let c3 ← mark_xor_and c2
  pure (c3, r.2)

/-! ## Vanishing pairs (`vanishing_constraints.cpp`) -/

/-- The first part of `identify_vanishing_pairs(g)`: the gates `lg` and `rg`
that are pushed to the `van_twins` of each other. -/
def identify_vanishing_pairs (c : Circuit) (g : Gate) : Except Fault (Gate × Gate) := do
  let lg ← children_front c g
  let rg ← children_back c g
  pure (lg, rg)

/-- Function `find_xor_and`: the pairs `(and1, g)` for which `g` is pushed to
the `dual_twins` of `and1`, by their numbers, in the order of the pushes
(`dual_twins_push_back` does not push a gate twice). -/
def find_xor_and (c : Circuit) (force_vanishing_off : Bool) : Except Fault (List (Int × Int)) :=
  (List.range c.M).foldlM
    (fun acc i => do
      let g ← derefGate c.gates[i]?
      if g.xor_gate ≠ 1 then pure acc
      else
        match g.xor_and with
        | none => pure acc
        | some k =>
          if force_vanishing_off then pure acc
          else do
            let and1 ← derefGate (gate c k)
            pure (if acc.contains (and1.num, g.num) then acc else acc ++ [(and1.num, g.num)]))
    []

/-! ## Extension gates (`extensions.cpp`) -/

/-- The gate table with the counters `size_gates` and `extended_gates`; the
counter `num_gates` is the number of slots in use. -/
structure ExtState where
  c : Circuit
  size_gates : Nat
  extended_gates : Nat

/-- The counter `num_gates`. -/
def ExtState.num_gates (s : ExtState) : Nat := s.c.gates.length

/-- Function `set_parents_and_children_of_extension_var(t, g)` for the gate `g`
in slot `i`. -/
def set_parents_and_children_of_extension_var (c : Circuit) (i : Nat) :
    Term → Except Fault Circuit
  | [] => pure c
  | v :: t => do
    let g ← derefGate c.gates[i]?
    let c1 := push_child c i (gate c v.num)
    let _ ← derefGate (gate c1 v.num)
    match gate_idx c.M v.num with
    | some j => set_parents_and_children_of_extension_var (push_parent c1 j g) i t
    | none => set_parents_and_children_of_extension_var c1 i t

/-- Function `extend_var_gates(t)`: the new state and the returned term, the
leading term of the constraint `-g + t` of the new gate `g` (the constraint
itself is stored in the gate and not modelled). -/
def extend_var_gates (s : ExtState) (t : Term) : Except Fault (ExtState × Term) := do
  if s.num_gates = s.size_gates then .error (.die 2 "gates too small")
  else do
    let level : Int := -2 - 2 * s.extended_gates
    let g := { Gate.create ((s.c.M : Int) - s.num_gates - 1) level false false with
      extension := true }
    if t = [] then .error .nullDeref
    else do
      let c1 ← set_parents_and_children_of_extension_var
        { s.c with gates := s.c.gates ++ [g] } s.num_gates t
      pure ({ c := c1, size_gates := s.size_gates, extended_gates := s.extended_gates + 1 },
        new_term g.get_var [])

/-- Function `adjust_level_of_extended_gates`. -/
def adjust_level_of_extended_gates (s : ExtState) : Except Fault ExtState := do
  let c1 ← (List.range' (s.c.M - 1 + s.c.MM) (s.num_gates - (s.c.M - 1 + s.c.MM))).foldlM
    (fun c i => do
      let g ← derefGate c.gates[i]?
      pure (c.modify_gate i (fun x => x.set_var_level (g.level + 2 * c.NN + 2)))) s.c
  let c2 ← (List.range s.c.NN).foldlM
    (fun c i => do
      let g ← derefGate c.gates[i]?
      pure (c.modify_gate i (fun x => x.set_var_level (g.level - 2 * s.extended_gates - 2)))) c1
  pure { s with c := c2 }

/-- First scan of `remove_vanishing_monomials` over the rests `t` of a term: at a
variable that is not dual, whether the rest `t` (the variable included) contains
the variable of one of the van twins of its gate. `van_twins n` lists the
variables `g_van->get_var()` of the van twins of `gate(n)`. -/
def van_twin_scan (van_twins : Int → List Var) : Term → Bool
  | [] => false
  | v :: rest =>
    if !v.d && (van_twins v.num).any (fun w => Term.contains (v :: rest) w) then true
    else van_twin_scan van_twins rest

/-- The `for` loop of the second scan over the dual twins of one gate; the state
is the pair `(shrunk, flag)`, with `[]` for the null pointer `shrunk = 0`. The
loop has no `break`: a later dual twin overwrites the result of an earlier
one. -/
def dual_twin_loop (term : Term) : List Var → Term × Bool → Term × Bool
  | [], st => st
  | w :: ws, st =>
    if Term.contains term w then dual_twin_loop term ws (divide_by_var term w, true)
    else if Term.contains term w.get_dual then dual_twin_loop term ws ([], true)
    else dual_twin_loop term ws st

/-- Second scan of `remove_vanishing_monomials` over the rests of the term
`term`; it stops after the first variable whose gate has a dual twin in
`term`. -/
def dual_twin_scan (dual_twins : Int → List Var) (term : Term) :
    Term → Term × Bool → Term × Bool
  | [], st => st
  | v :: rest, st =>
    let st1 := if !v.d then dual_twin_loop term (dual_twins v.num) st else st
    if st1.2 then st1 else dual_twin_scan dual_twins term rest st1

/-- Body of the loop of `remove_vanishing_monomials` for the monomial `m`, proof
logging off. -/
def remove_vanishing_step (van_twins dual_twins : Int → List Var) (st : MStack)
    (m : Monomial) : MStack :=
  if m.term = [] ∨ m.term.degree < 2 then push_mstack st m
  else if van_twin_scan van_twins m.term then st
  else
    let r := dual_twin_scan dual_twins m.term m.term ([], false)
    if !r.2 then push_mstack st m
    else if r.1 ≠ [] then push_mstack st { coeff := m.coeff, term := r.1 }
    else st

/-- Function `remove_vanishing_monomials(p, used_van_poly)` of
`reductionmethods.cpp`, proof logging off. -/
def remove_vanishing_monomials (van_twins dual_twins : Int → List Var)
    (p : Option Polynomial) : Except Fault (Option Polynomial) := do
  let q ← deref p
  pure (build_poly (q.mon.foldl (remove_vanishing_step van_twins dual_twins) []))

/-! ## Kernel of a rational matrix (`matrix.h`) -/

/-- A FLINT matrix `fmpq_mat_t`: `r` rows, `c` columns and exact rational
entries; `entry i j` is `fmpq_mat_entry(mat, i, j)` for `i < r` and `j < c`. -/
structure fmpq_mat where
  r : Nat
  c : Nat
  entry : Nat → Nat → ℚ

/-- FLINT `fmpq_mat_init(mat, rows, cols)`: the zero matrix. -/
def fmpq_mat_init (rows cols : Nat) : fmpq_mat :=
  { r := rows, c := cols, entry := fun _ _ => 0 }

/-- Assignment `fmpq_set(fmpq_mat_entry(mat, i, j), x)`. -/
def fmpq_mat.set (mat : fmpq_mat) (i j : Nat) (x : ℚ) : fmpq_mat :=
  { mat with entry := fun a b => if a = i ∧ b = j then x else mat.entry a b }

/-- FLINT `fmpq_mat_neg(mat, mat)`. -/
def fmpq_mat_neg (mat : fmpq_mat) : fmpq_mat :=
  { mat with entry := fun a b => -mat.entry a b }

/-- Function `rref(mat)` of `matrix.h`. The FLINT routine `fmpq_mat_rref`, which
is not part of the sources, is the parameter `fmpq_mat_rref`; the call works in
place, so the matrix after the call is returned with the pivots: for every row
in turn the column of its first entry that is not zero, if there is one. -/
def rref (fmpq_mat_rref : fmpq_mat → fmpq_mat) (mat : fmpq_mat) : fmpq_mat × List Nat :=
  let mat1 := fmpq_mat_rref mat
  (mat1, (List.range mat1.r).filterMap (fun i =>
    (List.range mat1.c).find? (fun j => decide (mat1.entry i j ≠ 0))))

/-- The matrix `M_extended` of `kernel`: row `i` of `M` is copied to the row
`pivots[i]` of an `n × n` zero matrix, then every zero on the diagonal is
replaced by `-1`. -/
def kernel_extended (M : fmpq_mat) (pivots : List Nat) : fmpq_mat :=
  let n := M.c
  let M_extended := (List.range pivots.length).foldl (fun E i =>
    (List.range n).foldl (fun E2 j => E2.set (pivots.getD i 0) j (M.entry i j)) E)
    (fmpq_mat_init n n)
  (List.range n).foldl (fun E i => if E.entry i i = 0 then E.set i i (-1) else E) M_extended

/-- The loop "extract kernel" of `kernel`: for every `i` with `-1` on the
diagonal of `M_extended`, the entries of column `i` that are not zero are
written to row `r` of `K`, and `r` is increased. -/
def kernel_extract (M_extended : fmpq_mat) (n : Nat) (K : fmpq_mat) : fmpq_mat × Nat :=
  (List.range n).foldl (fun st i =>
    if M_extended.entry i i = -1 then
      ((List.range n).foldl (fun K2 j =>
          if M_extended.entry j i ≠ 0 then K2.set st.2 j (M_extended.entry j i) else K2) st.1,
        st.2 + 1)
    else st) (K, 0)

/-- Function `kernel(M, K)` up to the comment "bring kernel into rref": the
matrix `M` after `rref(M)` and the matrix `K` before `rref(K)`. The number of
rows `n - pivots.size()` of `K` is a natural number here; the contract of
`fmpq_mat_rref` makes the number of pivots at most `n`. -/
def kernel_unreduced (fmpq_mat_rref : fmpq_mat → fmpq_mat) (M : fmpq_mat) :
    fmpq_mat × fmpq_mat :=
  let res := rref fmpq_mat_rref M
  let n := res.1.c
  (res.1, (kernel_extract (kernel_extended res.1 res.2) n
    (fmpq_mat_init (n - res.2.length) n)).1)

/-- Function `kernel(M, K)` of `matrix.h`: the matrix `M` as the call leaves it
and the matrix `K`. -/
def kernel (fmpq_mat_rref : fmpq_mat → fmpq_mat) (M : fmpq_mat) : fmpq_mat × fmpq_mat :=
  let res := kernel_unreduced fmpq_mat_rref M
  (res.1, fmpq_mat_neg (rref fmpq_mat_rref res.2).1)

/-- Function `multiply_poly_with_term`: every monomial is replaced by its product
with `t` and pushed with `push_mstack_end`, which neither sorts nor merges. -/
def multiply_poly_with_term (p1 : Option Polynomial) (t : Term) :
    Except Fault (Option Polynomial) :=
  if t = [] then copy_ptr p1
  else
    match p1 with
    | none => pure none
    | some a =>
      pure (build_poly (a.mon.foldl (fun st m =>
        push_mstack_end st
          { coeff := m.coeff
            term := if m.term = [] then t else multiply_term m.term t }) []))

/-! ## The enlargement loop of the linearization (`fglm.cpp`) -/

/-- The global variables that `linearize_via_fglm_or_gap` reads and writes
(`count_unique_gb_call`, `circuit_enlarged_count`, `max_depth_count`,
`fanout_size_last_call`) and the rest of the program state, `other`, which only
`internal_linearize` reads and writes. -/
structure LinGlobals (σ : Type) where
  count_unique_gb_call : Int
  circuit_enlarged_count : Int
  max_depth_count : Int
  fanout_size_last_call : Nat
  other : σ

/-- One call of `internal_linearize`: its arguments after the gate, and its
result. -/
structure LinCall where
  depth : Int
  fanout_size : Nat
  init : Int
  single_expand : Bool
  res : Int
deriving DecidableEq, Repr

/-- The local variables `res`, `depth` and `count` of
`linearize_via_fglm_or_gap`, the global variables, and the calls of
`internal_linearize` made so far, in their order. -/
structure LinLocals (σ : Type) where
  res : Int
  depth : Int
  count : Int
  glob : LinGlobals σ
  calls : List LinCall

/-- A statement `res = internal_linearize(g, depth, fanout_size, init,
single_expand); count++`. The function `internal_linearize` is a parameter: it
maps the global state and its arguments to its result and the new global
state. -/
def lin_call {σ : Type}
    (internal_linearize : LinGlobals σ → Int → Nat → Int → Bool → Int × LinGlobals σ)
    (s : LinLocals σ) (fanout_size : Nat) (init : Int) (single_expand : Bool) : LinLocals σ :=
  LinLocals.mk (internal_linearize s.glob s.depth fanout_size init single_expand).1 s.depth
    (s.count + 1) (internal_linearize s.glob s.depth fanout_size init single_expand).2
    (s.calls ++ [LinCall.mk s.depth fanout_size init single_expand
      (internal_linearize s.glob s.depth fanout_size init single_expand).1])

/-- The update `if(count-2 > max_depth_count) max_depth_count = count-2`. -/
def note_max_depth_count {σ : Type} (s : LinLocals σ) : LinLocals σ :=
  if s.count - 2 > s.glob.max_depth_count then
    LinLocals.mk s.res s.depth s.count
      (LinGlobals.mk s.glob.count_unique_gb_call s.glob.circuit_enlarged_count (s.count - 2)
        s.glob.fanout_size_last_call s.glob.other) s.calls
  else s

/-- The statement `circuit_enlarged_count++`. -/
def lin_enlarged {σ : Type} (s : LinLocals σ) : LinLocals σ :=
  LinLocals.mk s.res s.depth s.count
    (LinGlobals.mk s.glob.count_unique_gb_call (s.glob.circuit_enlarged_count + 1)
      s.glob.max_depth_count s.glob.fanout_size_last_call s.glob.other) s.calls

/-- The increment `++depth`. -/
def lin_incr_depth {σ : Type} (s : LinLocals σ) : LinLocals σ :=
  LinLocals.mk s.res (s.depth + 1) s.count s.glob s.calls

/-- The block under `if(count % 15 == 0)`: a call with the fan-out of the last
call plus one and, if its result is 0, a call with the depth increased. -/
def linearize_block {σ : Type}
    (internal_linearize : LinGlobals σ → Int → Nat → Int → Bool → Int × LinGlobals σ)
    (fanout_size : Nat) (s : LinLocals σ) : LinLocals σ :=
  if (lin_call internal_linearize s ((s.glob.fanout_size_last_call + 1) % 2 ^ 64) 1 false).res = 0
  then
    lin_call internal_linearize
      (lin_incr_depth
        (lin_call internal_linearize s ((s.glob.fanout_size_last_call + 1) % 2 ^ 64) 1 false))
      fanout_size 1 false
  else lin_call internal_linearize s ((s.glob.fanout_size_last_call + 1) % 2 ^ 64) 1 false

/-- The statements of the loop body before the last call of
`internal_linearize`. -/
def linearize_first {σ : Type}
    (internal_linearize : LinGlobals σ → Int → Nat → Int → Bool → Int × LinGlobals σ)
    (fanout_size : Nat) (s : LinLocals σ) : LinLocals σ :=
  if Int.tmod (lin_enlarged s).count 15 = 0 then
    linearize_block internal_linearize fanout_size (lin_enlarged s)
  else lin_enlarged s

/-- The body of the `while` loop of `linearize_via_fglm_or_gap` up to the last
call of `internal_linearize`. -/
def linearize_calls {σ : Type}
    (internal_linearize : LinGlobals σ → Int → Nat → Int → Bool → Int × LinGlobals σ)
    (fanout_size : Nat) (s : LinLocals σ) : LinLocals σ :=
  if (linearize_first internal_linearize fanout_size s).res = 0 then
    lin_call internal_linearize (linearize_first internal_linearize fanout_size s) fanout_size
      (linearize_first internal_linearize fanout_size s).count true
  else linearize_first internal_linearize fanout_size s

/-- The body of the `while` loop of `linearize_via_fglm_or_gap`; the flag tells
that the body ran into `return 0`. -/
def linearize_iter {σ : Type}
    (internal_linearize : LinGlobals σ → Int → Nat → Int → Bool → Int × LinGlobals σ)
    (max_depth : Int) (fanout_size : Nat) (s0 : LinLocals σ) : LinLocals σ × Bool :=
  if (linearize_calls internal_linearize fanout_size s0).res = -1 ∧ max_depth ≤ 6 then
    (note_max_depth_count (linearize_calls internal_linearize fanout_size s0), true)
  else (linearize_calls internal_linearize fanout_size s0, false)

/-- The `while` loop of `linearize_via_fglm_or_gap` and the statements after
it, run for at most `fuel` passes: the returned `bool` and the final state, or
`none` when the passes do not suffice. -/
def linearize_loop {σ : Type}
    (internal_linearize : LinGlobals σ → Int → Nat → Int → Bool → Int × LinGlobals σ)
    (max_depth : Int) (fanout_size : Nat) : Nat → LinLocals σ → Option (Bool × LinLocals σ)
  | 0, s =>
    if s.res = 0 ∧ s.depth < max_depth then none
    else some (decide (s.res ≠ 0), note_max_depth_count s)
  | fuel + 1, s =>
    if s.res = 0 ∧ s.depth < max_depth then
      if (linearize_iter internal_linearize max_depth fanout_size s).2 then
        some (false, (linearize_iter internal_linearize max_depth fanout_size s).1)
      else
        linearize_loop internal_linearize max_depth fanout_size fuel
          (linearize_iter internal_linearize max_depth fanout_size s).1
    else some (decide (s.res ≠ 0), note_max_depth_count s)

/-- Function `linearize_via_fglm_or_gap(g)`: `dist` is `g->get_dist()`,
`sc_depth` and `sc_fanout` are the global settings. -/
def linearize_via_fglm_or_gap {σ : Type}
    (internal_linearize : LinGlobals σ → Int → Nat → Int → Bool → Int × LinGlobals σ)
    (fuel : Nat) (dist : Int) (sc_depth : Int) (sc_fanout : Nat) (glob : LinGlobals σ) :
    Option (Bool × LinLocals σ) :=
  linearize_loop internal_linearize dist sc_fanout fuel
    (lin_call internal_linearize
      (LinLocals.mk 0 sc_depth 1
        (LinGlobals.mk (glob.count_unique_gb_call + 1) glob.circuit_enlarged_count
          glob.max_depth_count 0 glob.other) [])
      sc_fanout 1 false)

/-! ## Rows of rational matrices (`matrix.h`) -/

/-- FLINT `fmpz_popcnt` on a non-negative integer: the number of bits set. -/
def fmpz_popcnt : Nat → Nat
  | 0 => 0
  | n + 1 => (n + 1) % 2 + fmpz_popcnt ((n + 1) / 2)
decreasing_by omega

/-- The first loop of `normalize_row`: the least common multiple `den` of the
denominators of row `i`. -/
def normalize_row_den (mat : fmpq_mat) (i : Nat) : Nat :=
  (List.range mat.c).foldl (fun den j => Nat.lcm den (mat.entry i j).den) 1

/-- Function `normalize_row(mat, i)`: the matrix after the call and the returned
value. -/
def normalize_row (mat : fmpq_mat) (i : Nat) : fmpq_mat × Bool :=
  (if fmpz_popcnt (normalize_row_den mat i) = 1 then
      (List.range mat.c).foldl
        (fun m j => m.set i j (m.entry i j * (normalize_row_den mat i : ℚ))) mat
    else mat,
    true)

/-- Function `is_denom_free(mat, i)`. -/
def is_denom_free (mat : fmpq_mat) (i : Nat) : Bool :=
  (List.range mat.c).all (fun j => decide ((mat.entry i j).den = 1))

/-- The coefficients that `guess_linear` reads from row `i` of `K` with
`fmpq_mat_entry_num`, one for each of the `n` columns. -/
def guess_row_nums (K : fmpq_mat) (i n : Nat) : List Int :=
  (List.range n).map (fun j => (K.entry i j).num)

/-! ## The cache of linear polynomials (`fglm.cpp`) -/

/-- Type `compressed_polynomial`: pairs of a coefficient and the identifier of
a variable (0 for the constant). -/
abbrev compressed_polynomial := List (Int × Nat)

/-- The access `var_to_id[v]` (`operator[]` of `std::map`): the identifier
stored for `v`; a key that is missing is inserted with the identifier 0. -/
def map_index (var_to_id : VarIds) (v : Var) : Nat × VarIds :=
  match find_id var_to_id v with
  | some i => (i, var_to_id)
  | none => (0, var_to_id ++ [(v, 0)])

/-- Function `compress_linear(g, var_to_id)`: the compressed polynomial and the
map after the call. The `assert` on the degree is a precondition and is not
executed here. -/
def compress_linear (g : Option Polynomial) (var_to_id : VarIds) :
    Except Fault (compressed_polynomial × VarIds) := do
  let a ← deref g
  pure (a.mon.foldl
    (fun (acc : compressed_polynomial × VarIds) m =>
      match m.term with
      | [] => (acc.1 ++ [(m.coeff, 0)], acc.2)
      | v :: _ => (acc.1 ++ [(m.coeff, (map_index acc.2 v).1)], (map_index acc.2 v).2))
    ([], var_to_id))

/-- The table `id_to_term` of `construct_linear_polynomials`: a vector of
`var_to_id.size() + 1` null pointers in which the term of every variable is
stored at its identifier (the entries of the map are visited in their order in
the list), then the entry 0 is set to null. -/
def id_to_term_table (var_to_id : VarIds) : Except Fault (List Term) := do
  let tbl ← var_to_id.foldlM
    (fun (tbl : List Term) (e : Var × Nat) =>
      if e.2 < tbl.length then pure (tbl.set e.2 (new_term e.1 []))
      else Except.error Fault.outOfBounds)
    (List.replicate (var_to_id.length + 1) [])
  pure (tbl.set 0 [])

/-- The inner loop of `construct_linear_polynomials` for one compressed
polynomial, and `build_poly`. -/
def construct_linear (id_to_term : List Term) (f : compressed_polynomial) :
    Except Fault (Option Polynomial) := do
  let st ← f.foldlM
    (fun (st : MStack) (e : Int × Nat) =>
      match id_to_term[e.2]? with
      | some t => pure (push_mstack st (Monomial.mk e.1 t))
      | none => Except.error Fault.outOfBounds)
    []
  pure (build_poly st)

/-- Function `construct_linear_polynomials(compressed, var_to_id)`: the vector
`linear_polies` after the call. -/
def construct_linear_polynomials (compressed : List compressed_polynomial)
    (var_to_id : VarIds) : Except Fault (List (Option Polynomial)) := do
  let tbl ← id_to_term_table var_to_id
  compressed.mapM (construct_linear tbl)

/-! ## Positive and negative parents (`gate.cpp`) -/

/-- The members `pos_parents` and `neg_parents` of the gates, by the slot of the
gate in the gate table. -/
structure PosNegParents where
  pos_parents : Nat → List Int
  neg_parents : Nat → List Int

/-- The statements of the first loop of `set_parents_and_children` for the
fan-in literal `l` of the gate `n` in slot `i`, as far as `pos_parents` and
`neg_parents` are concerned: with `l_gate = gate(l)` not null, a negated `l`
pushes `n->get_var_num() + 1` to the negative parents of `l_gate`; otherwise
`n->get_var_num()` is pushed to the positive parents of `l_gate` if `n` has a
negative parent, and then every positive parent of `n` (a copy of the vector is
read). -/
def push_pos_neg_parents (c : Circuit) (i : Nat) (n : Gate) (st : PosNegParents) (l : Nat) :
    PosNegParents :=
  match gate c l, gate_idx c.M l with
  | some _, some j =>
    if aiger_sign l then
      PosNegParents.mk st.pos_parents
        (Function.update st.neg_parents j (st.neg_parents j ++ [n.num + 1]))
    else
      PosNegParents.mk
        (Function.update
          (if (st.neg_parents i).length > 0 then
            Function.update st.pos_parents j (st.pos_parents j ++ [n.num])
          else st.pos_parents) j
          ((if (st.neg_parents i).length > 0 then
              Function.update st.pos_parents j (st.pos_parents j ++ [n.num])
            else st.pos_parents) j ++
            (if (st.neg_parents i).length > 0 then
              Function.update st.pos_parents j (st.pos_parents j ++ [n.num])
            else st.pos_parents) i))
        st.neg_parents
  | _, _ => st

/-- One round of the first loop of `set_parents_and_children`, for the slot
`i`, as far as `pos_parents` and `neg_parents` are concerned. Of the gate table
the round reads the gate numbers and which slots hold a gate; the lists
`children` and `parents`, which the loop extends as well, are not read. -/
def set_pos_neg_parents_step (c : Circuit) (st : PosNegParents) (i : Nat) :
    Except Fault PosNegParents := do
  let n ← derefGate c.gates[i]?
  match c.is_model_and n.num with
  | none => pure st
  | some and1 =>
    pure (push_pos_neg_parents c i n (push_pos_neg_parents c i n st and1.rhs0) and1.rhs1)

/-- The lists `pos_parents` and `neg_parents` after `set_parents_and_children`,
from gates whose lists are empty. The loop runs `i` from `M - 1` down to `NN`
with an unsigned `i`, so that with `NN = 0` it does not stop at 0. -/
def set_pos_neg_parents (c : Circuit) : Except Fault PosNegParents :=
  if c.NN = 0 then .error .nullDeref
  else
    (List.range' c.NN (c.M - c.NN)).reverse.foldlM (set_pos_neg_parents_step c)
      (PosNegParents.mk (fun _ => []) (fun _ => []))

/-! ## Linearization of the specification (`polynomial_solver.cpp`) -/

/-- Function `enlarge_gates(added_size)`: the table gets `added_size` more
slots. -/
def enlarge_gates (s : ExtState) (added_size : Nat) : ExtState :=
  { c := s.c, size_gates := s.size_gates + added_size, extended_gates := s.extended_gates }

/-- The body of the loop of `linearize_spec` for the monomial `m`, proof logging
off; the state is the gate table with its counters, the build stack and the flag
`enlarged`, and `len` is `rem->len()`. The parameter `shared_lt` stands for the
search that is made when `t->get_ref() > 1`: among the parents of
`gate(t->get_var_num())`, the first gate that is not eliminated and whose gate
constraint has two monomials, the second with the term `t`; the result is the
leading term of that constraint. Reference counts and gate constraints are not
part of the gate table modelled here. -/
def linearize_spec_step (shared_lt : ExtState → Term → Option Term) (len : Nat)
    (st : ExtState × MStack × Bool) (m : Monomial) : Except Fault (ExtState × MStack × Bool) :=
  if m.term = [] then .error .nullDeref
  else if m.term.degree = 1 then pure (st.1, push_mstack st.2.1 m, st.2.2)
  else
    match shared_lt st.1 m.term with
    | some lt => pure (st.1, push_mstack st.2.1 (Monomial.mk m.coeff lt), st.2.2)
    | none => do
      let r ← extend_var_gates (if st.2.2 then st.1 else enlarge_gates st.1 len) m.term
      pure (r.1, push_mstack st.2.1 (Monomial.mk m.coeff r.2), true)

/-- Function `linearize_spec(spec)`, proof logging off: the returned polynomial
and the gate table with its counters after the call. -/
def linearize_spec (shared_lt : ExtState → Term → Option Term) (s : ExtState)
    (spec : Option Polynomial) : Except Fault (Option Polynomial × ExtState) := do
  let a ← deref spec
  if a.deg = 1 then pure (spec, s)
  else do
    let r ← a.mon.foldlM (linearize_spec_step shared_lt a.mon.length) (s, [], false)
    let s2 ← adjust_level_of_extended_gates r.1
    pure (build_poly r.2.1, s2)

/-! ## Proof logging of the reduction methods (`reductionmethods.cpp`, `pac.cpp`) -/

/-- A rule written to the proof file, given by the polynomials that the
printing function receives: `combi p1 p2 p3 p` for
`print_pac_combi_rule(file, p1, p2, p3, 0, p)`, which states `p = p1 * p2 + p3`;
`mod p1 p` for `print_pac_mod_rule(file, p1, p)`, which states that `p` is `p1`
times the polynomial with index 1, the constant `mod_coeff`; `add p1 p2 p` for
`print_pac_add_rule(file, p1, p2, p)`, which states `p = p1 + p2`. -/
inductive PacRule where
  | combi (p1 p2 p3 p : Option Polynomial)
  | mod (p1 p : Option Polynomial)
  | add (p1 p2 p : Option Polynomial)
deriving DecidableEq, Repr

/-- The global `x_spec` and the rules written to the proof file so far. -/
structure ProofLog where
  x_spec : Option Polynomial
  rules : List PacRule
deriving DecidableEq, Repr

/-- The statements that build `x_spec_new` from a result `res`:
`multiply_poly_with_term(res, term_x)`, the constant polynomial `-1` built with
`push_mstack` and `build_poly`, and `add_poly` of the two. -/
def build_x_spec (term_x : Term) (res : Option Polynomial) : Except Fault (Option Polynomial) := do
  let res_x_tmp ← multiply_poly_with_term res term_x
  add_poly res_x_tmp (build_poly (push_mstack [] (Monomial.mk (-1) [])))

/-- Function `substitute_linear_poly` with proof logging on: the returned
polynomial, and `x_spec` and the proof file after the call. -/
def substitute_linear_poly_log (term_x : Term) (lg : ProofLog) (p1 p2 : Option Polynomial) :
    Except Fault (Option Polynomial × ProofLog) := do
  let p ← deref p1
  let p1_m ← substitute_search p2 p.mon
  match p1_m with
  | none => do
    let r ← copy_ptr p1
    pure (r, lg)
  | some m =>
    let q ← deref p2
    let p2_m ← q.get_lm
    if m.coeff = p2_m.coeff then do
      let rem ← sub_poly p1 p2
      let x_spec_new ← build_x_spec term_x rem
      pure (rem, ProofLog.mk x_spec_new
        (lg.rules ++ [PacRule.combi p2 (build_poly (push_mstack [] (Monomial.mk (-1) term_x)))
          lg.x_spec x_spec_new]))
    else if p2_m.coeff = 0 then .error .divByZero
    else if Int.tmod m.coeff p2_m.coeff ≠ 0 then .error (.die 1 "cannot use p2 to reduce p1")
    else do
      let p2_lift ← multiply_poly_with_constant p2 (Int.tdiv m.coeff p2_m.coeff)
      let res ← sub_poly p1 p2_lift
      let x_spec_new ← build_x_spec term_x res
      pure (res, ProofLog.mk x_spec_new
        (lg.rules ++ [PacRule.combi p2
          (build_poly (push_mstack [] (Monomial.mk (-(Int.tdiv m.coeff p2_m.coeff)) term_x)))
          lg.x_spec x_spec_new]))

/-- The polynomial `p` of `mod_poly` with proof logging: the negated truncated
quotients of the coefficients by `2 ^ exp` that are not zero, with their
terms. -/
def mod_poly_quotients (a : Polynomial) (exp : Int) : Option Polynomial :=
  build_poly
    (a.mon.foldl
      (fun st m =>
        if Int.tdiv m.coeff (2 ^ bitcnt exp) ≠ 0 then
          push_mstack_end st (Monomial.mk (-(Int.tdiv m.coeff (2 ^ bitcnt exp))) m.term)
        else st)
      [])

/-- Function `mod_poly` with proof logging on: the returned polynomial, and
`x_spec` and the proof file after the call; `mod_coeff` is the global set by
`init_mpz`. -/
def mod_poly_log (term_x : Term) (mod_coeff : Int) (lg : ProofLog) (p1 : Option Polynomial)
    (exp : Int) : Except Fault (Option Polynomial × ProofLog) :=
  match p1 with
  | none => pure (none, lg)
  | some a =>
    match mod_poly_quotients a exp with
    | none => pure (mod_poly (some a) exp, lg)
    | some p => do
      let mod_mul ← multiply_poly_with_constant
        (multiply_poly (some p) (build_poly (push_mstack [] (Monomial.mk 1 term_x)))) mod_coeff
      let x_spec_new ← build_x_spec term_x (mod_poly (some a) exp)
      pure (mod_poly (some a) exp, ProofLog.mk x_spec_new
        (lg.rules ++
          [PacRule.mod
            (multiply_poly (some p) (build_poly (push_mstack [] (Monomial.mk 1 term_x)))) mod_mul,
           PacRule.add lg.x_spec mod_mul x_spec_new]))

/-! ## The linear-algebra reconstruction `run_fglm` (`fglm.cpp`) -/

/-- Function `row_is_zero(mat, i)`. -/
def row_is_zero (mat : fmpq_mat) (i : Nat) : Bool :=
  (List.range mat.c).all (fun j => decide (mat.entry i j = 0))

/-- The first loop of `run_fglm` for the normal form `g` with index `i`: the
state is `term_set`, `rows` and `cols`. The column `(LT(g), i)` is added and the
leading term is inserted into `term_set`; every term of the other monomials that
is not yet in `term_set` is inserted and becomes a row. -/
def fglm_collect_step (st : List Term × List Term × List (Term × Int))
    (e : Nat × Option Polynomial) : Except Fault (List Term × List Term × List (Term × Int)) := do
  let g ← deref e.2
  let lt ← g.get_lt
  pure (g.mon.tail.foldl
    (fun acc m =>
      if m.term ∈ acc.1 then acc else (acc.1 ++ [m.term], acc.2.1 ++ [m.term], acc.2.2))
    (if lt ∈ st.1 then st.1 else st.1 ++ [lt], st.2.1, st.2.2 ++ [(lt, (e.1 : Int))]))

/-- The second loop of `run_fglm`: a column `(t, -1)` for every row term that is
the constant or has degree 1. -/
def fglm_unit_cols (rows : List Term) : List (Term × Int) :=
  rows.filterMap
    (fun (t : Term) => if t = [] ∨ Term.degree t = 1 then some (t, (-1 : Int)) else none)

/-- The access `term_to_id[t]`: the index of the row of `t`; `operator[]` gives
0 for a term that is not a row. -/
def term_to_id (rows : List Term) (t : Term) : Nat :=
  if t ∈ rows then rows.indexOf t else 0

/-- The body of the loop that sets up the matrix, for the column `j` with the
entry `c` of `cols`. An entry is set from the `long` that `get_si` returns. -/
def fglm_fill_column (normal_forms : List (Option Polynomial)) (rows : List Term)
    (mat : fmpq_mat) (jc : Nat × (Term × Int)) : Except Fault fmpq_mat :=
  if jc.2.2 < 0 then pure (mat.set (term_to_id rows jc.2.1) jc.1 1)
  else do
    let g ← deref (normal_forms.getD jc.2.2.toNat none)
    let lm ← g.get_lm
    pure (g.mon.tail.foldl
      (fun m mo =>
        m.set (term_to_id rows mo.term) jc.1
          ((mpz_get_si (if Int.sign lm.coeff > 0 then -mo.coeff else mo.coeff) : Int) : ℚ))
      mat)

/-- The body of the loop over the columns `j` of row `i` of `K`: an entry that is
not zero is collected as the pair of its numerator and the identifier of the
variable of its column (0 for the constant). -/
def fglm_compress_entry (cols : List (Term × Int)) (K : fmpq_mat) (i : Nat)
    (acc : compressed_polynomial × VarIds) (j : Nat) :
    Except Fault (compressed_polynomial × VarIds) :=
  if K.entry i j = 0 then pure acc
  else
    match cols[j]? with
    | none => Except.error Fault.outOfBounds
    | some (t, _) =>
      match t with
      | [] => pure (acc.1 ++ [((K.entry i j).num, 0)], acc.2)
      | v :: _ =>
        pure (acc.1 ++ [((K.entry i j).num, (map_index acc.2 v).1)], (map_index acc.2 v).2)

/-- The body of the loop over the rows of `K`: a row with a denominator is
skipped; otherwise the entries that are not zero are collected from the first
of them on. The search for the first entry that is not zero has no bound. -/
def fglm_compress_row (cols : List (Term × Int)) (K : fmpq_mat)
    (st : List compressed_polynomial × VarIds) (i : Nat) :
    Except Fault (List compressed_polynomial × VarIds) :=
  if !is_denom_free K i then pure st
  else
    match (List.range K.c).find? (fun j => decide (K.entry i j ≠ 0)) with
    | none => .error .outOfBounds
    | some j0 => do
      let r ← (List.range' j0 (K.c - j0)).foldlM (fglm_compress_entry cols K i) ([], st.2)
      pure (st.1 ++ [r.1], r.2)

/-- The columns of `run_fglm` after sorting, the rows, and the matrix.
`std_sort` stands for `std::sort` with the comparator `cmp_term(t1, t2) == 1`. -/
def fglm_matrix (std_sort : List (Term × Int) → List (Term × Int))
    (normal_forms : List (Option Polynomial)) :
    Except Fault (List Term × List (Term × Int) × fmpq_mat) := do
  let st ← normal_forms.enum.foldlM fglm_collect_step ([], [], [])
  let cols := std_sort (st.2.2 ++ fglm_unit_cols st.2.1)
  let mat ← cols.enum.foldlM (fglm_fill_column normal_forms st.2.1)
    (fmpq_mat_init st.2.1.length cols.length)
  pure (st.2.1, cols, mat)

/-- Function `run_fglm(normal_forms, var_to_id)`, proof logging off: the
compressed polynomials and the map after the call. The FLINT routine
`fmpq_mat_rref` is a parameter, as in `kernel`. -/
def run_fglm (std_sort : List (Term × Int) → List (Term × Int))
    (fmpq_mat_rref : fmpq_mat → fmpq_mat) (normal_forms : List (Option Polynomial))
    (var_to_id : VarIds) : Except Fault (List compressed_polynomial × VarIds) := do
  let m ← fglm_matrix std_sort normal_forms
  let K := (kernel fmpq_mat_rref m.2.2).2
  if (List.range K.r).all (fun i => row_is_zero K i) then pure ([], var_to_id)
  else (List.range K.r).foldlM (fglm_compress_row m.2.1 K) ([], var_to_id)

/-! ## Specification vocabulary -/

/-- The monomial array of a `Polynomial*`; the null pointer has none. -/
def mons (p : Option Polynomial) : List Monomial :=
  match p with
  | none => []
  | some a => a.mon

/-- Value of a term under an assignment of integers to the variables. -/
def Term.eval (σ : Var → Int) (t : Term) : Int := (t.map σ).prod

/-- Value of a monomial. -/
def Monomial.eval (σ : Var → Int) (m : Monomial) : Int := m.coeff * Term.eval σ m.term

/-- Value of a sequence of monomials: the sum of their values. -/
def evalMons (σ : Var → Int) (l : List Monomial) : Int := (l.map (Monomial.eval σ)).sum

/-- Value of a polynomial given by pointer; the null pointer is the zero
polynomial. -/
def evalPoly (σ : Var → Int) (p : Option Polynomial) : Int := evalMons σ (mons p)

/-- An assignment is Boolean when every variable has value 0 or 1. -/
def BoolAssign (σ : Var → Int) : Prop := ∀ v, σ v = 0 ∨ σ v = 1

/-- The coefficient of term `t` in a sequence of monomials (the sum over all
monomials carrying that term). -/
def coeffAt (l : List Monomial) (t : Term) : Int :=
  (l.map (fun m => if m.term = t then m.coeff else 0)).sum

/-- Normal form of a monomial array (invariants 1 to 3 of the data model): no
zero coefficient, and the terms strictly decrease in `cmp_term` order from each
monomial to every later one, so that terms are pairwise distinct and the
constant comes last. -/
def NormalForm (l : List Monomial) : Prop :=
  (∀ m ∈ l, m.coeff ≠ 0) ∧ l.Pairwise (fun a b => cmp_term a.term b.term = 1)

/-- The largest term degree of a monomial array (invariant 4). -/
def maxDegree (l : List Monomial) : Nat := (l.map (fun m => m.term.length)).foldr max 0

/-- A well-formed polynomial object: at least one monomial, normal form, and
the cached degree is the largest term degree. -/
def Polynomial.WF (p : Polynomial) : Prop :=
  p.mon ≠ [] ∧ NormalForm p.mon ∧ p.deg = maxDegree p.mon

/-- A normal-form polynomial given by pointer: the null pointer (zero) or a
well-formed object. -/
def PolyNF (p : Option Polynomial) : Prop :=
  match p with
  | none => True
  | some a => a.WF

/-- The variables that occur in a monomial array. -/
def varsOf (l : List Monomial) : List Var := l.flatMap (fun m => m.term)

/-- Levels identify the variables of `vs`: two variables of `vs` with the same
level are the same variable (the level is a total order on the variables). -/
def LevelsDistinct (vs : List Var) : Prop :=
  ∀ v ∈ vs, ∀ w ∈ vs, v.level = w.level → v = w

/-- The monomial array with every coefficient replaced by its truncated
remainder modulo `2 ^ n`, monomials with remainder 0 left out. -/
def modMons (n : Nat) (l : List Monomial) : List Monomial :=
  (l.filter (fun m => decide (Int.tmod m.coeff (2 ^ n) ≠ 0))).map
    (fun m => ({ coeff := Int.tmod m.coeff (2 ^ n), term := m.term } : Monomial))

/-- The variable that stands for the fan-in literal `r` of gate `g` in a gate
constraint: the dual variable for a negated literal, the primary variable
otherwise. -/
def litVar (g : Gate) (r : Nat) : Var :=
  if aiger_sign r then g.get_var.get_dual else g.get_var

/-- The Boolean value of the fan-in literal `r` of gate `g`. -/
def litVal (σ : Var → Int) (g : Gate) (r : Nat) : Int :=
  if aiger_sign r then 1 - σ g.get_var else σ g.get_var

/-- A half adder as example circuit: inputs `a` (literal 2) and `b` (literal
4), the AND gates `n1 = b & a` (literal 6, the carry), `n2 = !b & !a` (literal
8) and `s = !n2 & !n1` (literal 10, the sum `a xor b`), and the two output
gates. Levels are as `allocate_gates` assigns them and the XOR marks as
`set_xor` sets them. -/
def halfAdder : Circuit :=
  { NN := 2
    M := 6
    MM := 2
    gates :=
      [ { num := 2, level := 2, input := true, output := false, xor_gate := 0,
          extension := false, children := [] },
        { num := 4, level := 4, input := true, output := false, xor_gate := 0,
          extension := false, children := [] },
        { num := 6, level := 6, input := false, output := false, xor_gate := 2,
          extension := false, children := [4, 2] },
        { num := 8, level := 8, input := false, output := false, xor_gate := 2,
          extension := false, children := [4, 2] },
        { num := 10, level := 10, input := false, output := false, xor_gate := 1,
          extension := false, children := [8, 6] },
        { num := 0, level := 12, input := false, output := true, xor_gate := 0,
          extension := false, children := [10] },
        { num := -1, level := 14, input := false, output := true, xor_gate := 0,
          extension := false, children := [6] } ]
    is_model_and := fun l =>
      if l = 6 then some { lhs := 6, rhs0 := 4, rhs1 := 2 }
      else if l = 8 then some { lhs := 8, rhs0 := 5, rhs1 := 3 }
      else if l = 10 then some { lhs := 10, rhs0 := 9, rhs1 := 7 }
      else none
    slit := fun i => if i = 0 then 10 else 6
    do_local_lin := false }

/-- The gates `gate_poly` of the sub-circuit that covers the whole half adder:
`n1`, `n2` and `s`. -/
def halfAdderGates : List Gate :=
  [ { num := 6, level := 6, input := false, output := false, xor_gate := 2,
      extension := false, children := [4, 2] },
    { num := 8, level := 8, input := false, output := false, xor_gate := 2,
      extension := false, children := [4, 2] },
    { num := 10, level := 10, input := false, output := false, xor_gate := 1,
      extension := false, children := [8, 6] } ]

/-- The variables of the half adder sub-circuit sorted by decreasing level, as
`guess_linear` passes them to `var_cnf_mapping`: `s`, `n2`, `n1`, `b`, `a`. -/
def halfAdderVars : List Var :=
  [ { num := 10, level := 10, d := false }, { num := 8, level := 8, d := false },
    { num := 6, level := 6, d := false }, { num := 4, level := 4, d := false },
    { num := 2, level := 2, d := false } ]

/-- The linear polynomial `s + 2*n1 - b - a + 2^32` over the half adder. The
part without the constant, `s + 2*n1 - b - a`, is zero on the circuit. -/
def halfAdderGuess : Polynomial :=
  { mon :=
      [ { coeff := 1, term := [{ num := 10, level := 10, d := false }] },
        { coeff := 2, term := [{ num := 6, level := 6, d := false }] },
        { coeff := -1, term := [{ num := 4, level := 4, d := false }] },
        { coeff := -1, term := [{ num := 2, level := 2, d := false }] },
        { coeff := 4294967296, term := [] } ]
    deg := 1 }

/-- The assignment `a = b = 0` of the half adder: `n2 = 1`, all other
variables 0. -/
def halfAdderZero (v : Var) : Int := if v.num = 8 ∧ v.d = false then 1 else 0

/-- Normal form of the build stack, read from its top: no zero coefficient and
every deeper monomial has a strictly larger term. It is `NormalForm` of the
stack read as an array (from the bottom). -/
def StackNF (st : MStack) : Prop :=
  (∀ m ∈ st, m.coeff ≠ 0) ∧ st.Pairwise (fun a b => cmp_term b.term a.term = 1)

/-- On the terms of `T`, comparing equal with `cmp_term` means being the same
term. -/
def CmpFaithful (T : Term → Prop) : Prop :=
  ∀ a b, T a → T b → cmp_term a b = 0 → a = b

/-- Every term of the monomial sequence satisfies `T`. -/
def TermsIn (T : Term → Prop) (l : List Monomial) : Prop := ∀ m ∈ l, T m.term

/-- The linear functional that sends a monomial `c * t` to `c * g t`, summed
over a sequence of monomials. -/
def lin (g : Term → Int) (l : List Monomial) : Int :=
  (l.map (fun m => m.coeff * g m.term)).sum

/-- The leading term `LT(p)` of a polynomial object: the term of its first
monomial. -/
def leadTerm (p : Polynomial) : Term :=
  match p.mon with
  | [] => []
  | m :: _ => m.term

/-- The leading coefficient of a polynomial object. -/
def leadCoeff (p : Polynomial) : Int :=
  match p.mon with
  | [] => 0
  | m :: _ => m.coeff

/-- The monomial array with every coefficient multiplied by `c`. -/
def scaleMons (c : Int) (l : List Monomial) : List Monomial :=
  l.map (fun m => ({ coeff := m.coeff * c, term := m.term } : Monomial))

/-- All products of a monomial of `l1` with a monomial of `l2`, in the order in
which `multiply_poly` pushes them. -/
def prodMons (l1 l2 : List Monomial) : List Monomial :=
  l1.flatMap (fun m1 => l2.map (multiply_monomial m1))

instance (l : List Monomial) : Decidable (NormalForm l) := by
  unfold NormalForm; infer_instance

instance (vs : List Var) : Decidable (LevelsDistinct vs) := by
  unfold LevelsDistinct; infer_instance

instance (p : Polynomial) : Decidable p.WF := by
  unfold Polynomial.WF; infer_instance

instance (p : Option Polynomial) : Decidable (PolyNF p) := by
  cases p with
  | none => exact isTrue trivial
  | some a => exact inferInstanceAs (Decidable a.WF)

/-- A term is sorted when the levels of its variables strictly decrease from
the head on (the ordering invariant of terms in the data model). -/
def TermSorted (t : Term) : Prop := t.Pairwise (fun a b => a.level > b.level)

instance (t : Term) : Decidable (TermSorted t) := by
  unfold TermSorted; infer_instance

/-- Lexicographic comparison of two level sequences in which a sequence is
larger than each of its proper prefixes: `1` when the first is larger, `-1` when
it is smaller, `0` when they are equal. -/
def lexLevels : List Int → List Int → Int
  | [], [] => 0
  | [], _ :: _ => -1
  | _ :: _, [] => 1
  | a :: l1, b :: l2 => if b < a then 1 else if a < b then -1 else lexLevels l1 l2

/-- The variables of `t` that are not variables of `u`, in the order of `t`. -/
def termWithout (t u : Term) : Term := t.filter (fun x => decide (x ∉ u))

/-- Every term of the monomial array is sorted. -/
def TermsSorted (l : List Monomial) : Prop := ∀ m ∈ l, TermSorted m.term

instance (l : List Monomial) : Decidable (TermsSorted l) := by
  unfold TermsSorted; infer_instance

/-- The quotient of a monomial array by the term `t`: the monomials whose term
contains every variable of `t`, in their order, each with the variables of `t`
removed from its term. -/
def quotMons (t : Term) (l : List Monomial) : List Monomial :=
  (l.filter (fun m => decide (∀ x ∈ t, x ∈ m.term))).map
    (fun m => Monomial.mk m.coeff (termWithout m.term t))

/-- The monomial sequence with `v` replaced by `1 - dual(v)`: a monomial
`c * v * t` becomes the two monomials `-c * dual(v) * t` and `c * t`, every
other monomial stays. -/
def flipMons (v : Var) (l : List Monomial) : List Monomial :=
  l.flatMap (fun m =>
    if v ∈ m.term then
      [Monomial.mk (-m.coeff) (multiply_term_by_var (termWithout m.term [v]) v.get_dual),
        Monomial.mk m.coeff (termWithout m.term [v])]
    else [m])

/-- An AIG with one input `a` (literal 2) and two outputs: `s0` with literal 2
and `s1` with the constant literal 0. -/
def outZeroCircuit : Circuit :=
  { NN := 1
    M := 2
    MM := 2
    gates :=
      [ Gate.mk 2 2 true false 0 false [] 0 [] none,
        Gate.mk 0 4 false true 0 false [2] 0 [] none,
        Gate.mk (-1) 6 false true 0 false [] 0 [] none ]
    is_model_and := fun _ => none
    slit := fun i => if i = 0 then 2 else 0
    do_local_lin := false }

/-- The states of the term table that calls of `new_term` and
`deallocate_term` which return reach from the empty table. -/
inductive Reachable (hp : HashParams) : TermTable → Prop where
  | empty : Reachable hp TermTable.empty
  | new_term (s s2 : TermTable) (v : Var) (rest : Option Nat) (t : Nat) :
      Reachable hp s → s.new_term hp v rest = .ok (s2, t) → Reachable hp s2
  | deallocate_term (s s2 : TermTable) (t : Option Nat) :
      Reachable hp s → s.deallocate_term t = some (.ok s2) → Reachable hp s2

/-- The invariants of the list `L` of live term objects, `next_addr` being the
next fresh address: addresses are distinct and below `next_addr`, the rest of a
term has a smaller address, reference counters are positive, the stored hash is
the hash of head variable and rest, and no two objects have the same head
variable and the same rest. -/
structure LiveInv (hp : HashParams) (next_addr : Nat) (L : List TermObj) : Prop where
  nodup : (L.map TermObj.addr).Nodup
  lt_next : ∀ m ∈ L, m.addr < next_addr
  rest_lt : ∀ m ∈ L, ∀ r, m.rest = some r → r < m.addr
  ref_pos : ∀ m ∈ L, 1 ≤ m.ref
  hash_nil : ∀ m ∈ L, m.rest = none → m.hash = compute_hash_term hp m.var none
  hash_cons : ∀ m ∈ L, ∀ r, m.rest = some r → ∀ ro ∈ L, ro.addr = r →
    m.hash = compute_hash_term hp m.var (some ro.hash)
  unique : ∀ m1 ∈ L, ∀ m2 ∈ L, m1.var = m2.var → m1.rest = m2.rest → m1 = m2

/-- Every object of the table is in the bucket of its hash. -/
def WellPlaced (size_terms : Nat) (tbl : List (List TermObj)) : Prop :=
  ∀ i bucket, tbl[i]? = some bucket → ∀ m ∈ bucket, bucket_index m.hash size_terms = i

/-- The invariants of the term table. -/
structure TableInv (hp : HashParams) (s : TermTable) : Prop where
  length_eq : s.term_table.length = s.size_terms
  placed : WellPlaced s.size_terms s.term_table
  count : s.current_terms = s.live.length
  live : LiveInv hp s.next_addr s.live

/-- A polynomial with its variables renamed by `ρ`, monomial by monomial. -/
def renamePoly (ρ : Var → Var) (p : Polynomial) : Polynomial :=
  { mon := p.mon.map (fun m => { coeff := m.coeff, term := m.term.map ρ }), deg := p.deg }

/-- The variables that occur in a list of polynomials. -/
def polysVars (ps : List Polynomial) : List Var := ps.flatMap (fun p => varsOf p.mon)

/-- The map `var_to_id` with its keys renamed by `ρ`. -/
def renameIds (ρ : Var → Var) (m : VarIds) : VarIds := m.map (fun e => (ρ e.1, e.2))

/-- The monomials of the multiplier specification
`-sum_{i<n} 2^i s_i + sum_{i<n/2} sum_{j<n/2} 2^(i+j) a_i b_j`. -/
def multSpecMons (n : Nat) (s a b : Nat → Var) : List Monomial :=
  (List.range n).map (fun i => Monomial.mk (-(2 ^ i)) [s i]) ++
    (List.range (n / 2)).flatMap
      (fun i => (List.range (n / 2)).map (fun j => Monomial.mk (2 ^ (i + j)) [b j, a i]))

/-- The integer that the values of the variables `x 0, ..., x (n-1)` encode,
`x 0` being the lowest bit. -/
def encodedInt (σ : Var → Int) (n : Nat) (x : Nat → Var) : Int :=
  ((List.range n).map (fun i => 2 ^ i * σ (x i))).sum

/-- The value of an AIG literal under an assignment of the gate variables: 0
and 1 for the constant literals, the value of the variable of the gate in slot
`lit / 2 - 1` for an even literal and its complement for an odd one (a literal
without a gate counts as the constant 0). -/
def litValue (σ : Var → Int) (c : Circuit) (lit : Nat) : Int :=
  if lit = 0 then 0
  else if lit = 1 then 1
  else
    match c.gates[lit / 2 - 1]? with
    | some g => if aiger_sign lit then 1 - σ g.get_var else σ g.get_var
    | none => if aiger_sign lit then 1 else 0

/-- A Boolean assignment consistent with the AIG: the variable of every AND
gate has the product of the values of its two fan-in literals. -/
def Consistent (σ : Var → Int) (c : Circuit) : Prop :=
  BoolAssign σ ∧
    ∀ g ∈ c.gates, ∀ and1, c.is_model_and g.num = some and1 →
      σ g.get_var = litValue σ c and1.rhs0 * litValue σ c and1.rhs1

/-- An AIG with one input (literal 2), the AND gate `4 = 2 & 0` with a constant
fan-in, and one output with literal 4. -/
def constAndAig : Circuit :=
  { NN := 1
    M := 3
    MM := 1
    gates := []
    is_model_and := fun l => if l = 4 then some (aiger_and.mk 4 2 0) else none
    slit := fun _ => 4
    do_local_lin := false }

/-- An AIG that is not structurally hashed: inputs `x` (literal 2) and `y`
(literal 4), `6 = 4 & 2`, `8 = 5 & 3`, the XOR `10 = 9 & 7` of `x` and `y`, and
`12 = 4 & 2`, which is a second gate for `y & x`; outputs 10 and 12. -/
def dupAndAig : Circuit :=
  { NN := 2
    M := 7
    MM := 2
    gates := []
    is_model_and := fun l =>
      if l = 6 then some (aiger_and.mk 6 4 2)
      else if l = 8 then some (aiger_and.mk 8 5 3)
      else if l = 10 then some (aiger_and.mk 10 9 7)
      else if l = 12 then some (aiger_and.mk 12 4 2)
      else none
    slit := fun i => if i = 0 then 10 else 12
    do_local_lin := false }

/-- The gate table that `init_gates` builds for `dupAndAig`. -/
def dupAndTable : Circuit :=
  { dupAndAig with
    gates :=
      [ Gate.mk 2 2 true false 0 false [] 0 [12, 8, 6] none,
        Gate.mk 4 4 true false 0 false [] 0 [12, 8, 6] none,
        Gate.mk 6 6 false false 2 false [4, 2] 1 [10] none,
        Gate.mk 8 8 false false 2 false [4, 2] 1 [10] none,
        Gate.mk 10 12 false false 1 false [8, 6] 2 [0] (some 12),
        Gate.mk 12 10 false false 0 false [4, 2] 1 [-1] (some 10),
        Gate.mk 0 14 false true 0 false [10] 0 [] none,
        Gate.mk (-1) 16 false true 0 false [12] 0 [] none ] }

/-- The assignment `x = y = 1` of `dupAndAig`: the gates 6 and 12 (both
`y & x`) and the output `s1` are 1, the gates 8 and 10 and the output `s0` are
0; dual variables are the complements. -/
def dupAndAssign (v : Var) : Int :=
  if v.num = 2 ∨ v.num = 4 ∨ v.num = 6 ∨ v.num = 12 ∨ v.num = -1 then (if v.d then 0 else 1)
  else (if v.d then 1 else 0)

/-- The AIG data of two circuits agree. -/
def SameAig (c c2 : Circuit) : Prop :=
  c2.NN = c.NN ∧ c2.M = c.M ∧ c2.MM = c.MM ∧ c2.is_model_and = c.is_model_and ∧
    c2.slit = c.slit ∧ c2.do_local_lin = c.do_local_lin

/-- The gate tables of two circuits with the same AIG data have the same size,
and the gates in the same slot are related by `R`. -/
def SlotRel (R : Nat → Gate → Gate → Prop) (c c2 : Circuit) : Prop :=
  SameAig c c2 ∧ c2.gates.length = c.gates.length ∧
    ∀ j g g2, c.gates[j]? = some g → c2.gates[j]? = some g2 → R j g g2

/-- The numbers of the gates that `set_parents_and_children` pushes as children
of the gate with the number `n`. -/
def stepChildren (c : Circuit) (n : Int) : List Int :=
  match c.is_model_and n with
  | none => []
  | some and1 =>
    ((gate c and1.rhs0).map Gate.num).toList ++ ((gate c and1.rhs1).map Gate.num).toList

/-- The AND records of the AIG belong to the literals of the AND gates, which
come after the inputs: `2 * NN + 2 <= l < 2 * M`. -/
def AigRecords (c : Circuit) : Prop :=
  ∀ l and1, c.is_model_and l = some and1 → 2 * (c.NN : Int) + 2 ≤ l ∧ l < 2 * (c.M : Int)

/-- The gate with the number `n` has the shape of an XOR root: both fan-ins are
negated AND gates whose fan-ins are pairwise complementary, and both have a
gate in the table. -/
def XorRoot (c : Circuit) (n : Int) : Prop :=
  ∃ and1 land rand, c.is_model_and n = some and1 ∧
    aiger_sign and1.rhs0 = true ∧ aiger_sign and1.rhs1 = true ∧
    c.is_model_and (aiger_strip and1.rhs0) = some land ∧
    c.is_model_and (aiger_strip and1.rhs1) = some rand ∧ xor_pattern land rand ∧
    (gate c (aiger_strip and1.rhs0)).isSome ∧ (gate c (aiger_strip and1.rhs1)).isSome

/-- Two gate lists of the same length whose gates in the same slot have the
same number, children and XOR mark. -/
def SameCore (l l2 : List Gate) : Prop :=
  l2.length = l.length ∧
    ∀ (j : Nat) (g g2 : Gate), l[j]? = some g → l2[j]? = some g2 →
      g2.num = g.num ∧ g2.children = g.children ∧ g2.xor_gate = g.xor_gate

/-- The monomial that `remove_vanishing_monomials` pushes for the monomial `m`
of its argument, `none` when `m` is dropped. -/
def vanishingImage (van_twins dual_twins : Int → List Var) (m : Monomial) : Option Monomial :=
  if m.term.length < 2 then some m
  else if van_twin_scan van_twins m.term then none
  else if (dual_twin_scan dual_twins m.term m.term ([], false)).2 then
    (if (dual_twin_scan dual_twins m.term m.term ([], false)).1 = [] then none
     else some { coeff := m.coeff,
                 term := (dual_twin_scan dual_twins m.term m.term ([], false)).1 })
  else some m

/-- The matrix of a `fmpq_mat`, read with `m` rows and `n` columns. -/
def matAt (A : fmpq_mat) (m n : Nat) : Matrix (Fin m) (Fin n) ℚ :=
  fun i j => A.entry i j

/-- The matrix of a `fmpq_mat`. -/
def toMatrix (A : fmpq_mat) : Matrix (Fin A.r) (Fin A.c) ℚ := matAt A A.r A.c

/-- Reduced row echelon form with `k` rows that are not zero and the pivot
columns `p 0 < p 1 < ... < p (k - 1)`: each of the first `k` rows has the
leading entry 1 in its pivot column, zeros to the left of it, and the rest of
the pivot column is zero; the other rows are zero. -/
def RREFData (R : fmpq_mat) (k : Nat) (p : Nat → Nat) : Prop :=
  k ≤ R.r ∧
    (∀ i, i < k → p i < R.c ∧ R.entry i (p i) = 1 ∧ (∀ j, j < p i → R.entry i j = 0) ∧
      ∀ i2, i2 < R.r → i2 ≠ i → R.entry i2 (p i) = 0) ∧
    (∀ i j, i < j → j < k → p i < p j) ∧
    (∀ i, k ≤ i → i < R.r → ∀ j, j < R.c → R.entry i j = 0)

/-- Reduced row echelon form. -/
def IsRREF (R : fmpq_mat) : Prop := ∃ (k : Nat) (p : Nat → Nat), RREFData R k p

/-- Every row of `B` is a rational combination of the rows of `A`. -/
def RowCombination (A B : fmpq_mat) : Prop :=
  ∃ P : Nat → Nat → ℚ, ∀ i, i < B.r → ∀ j, j < B.c →
    B.entry i j = Finset.sum (Finset.range A.r) (fun k => P i k * A.entry k j)

/-- The contract of `fmpq_mat_rref` at the matrix `A`: the result `R` has the
size of `A`, the rows of each are combinations of the rows of the other, and
`R` is in reduced row echelon form. -/
def RrefOf (A R : fmpq_mat) : Prop :=
  R.r = A.r ∧ R.c = A.c ∧ RowCombination A R ∧ RowCombination R A ∧ IsRREF R

/-- Scaling every row by the inverse of its first entry that is not zero. -/
def scale_rows (A : fmpq_mat) : fmpq_mat :=
  { A with entry := fun i j =>
      match (List.range A.c).find? (fun b => decide (A.entry i b ≠ 0)) with
      | some b => A.entry i j / A.entry i b
      | none => A.entry i j }

/-- The `1 × 3` matrix `(0 2 4)`. -/
def rowMatrix024 : fmpq_mat :=
  { r := 1, c := 3,
    entry := fun i j => if i = 0 then (if j = 1 then 2 else if j = 2 then 4 else 0) else 0 }

/-- The columns without pivot, in increasing order. -/
def freeColumns (k : Nat) (p : Nat → Nat) (n : Nat) : List Nat :=
  (List.range n).filter (fun i => decide (∀ l, l < k → p l ≠ i))

/-- What the second scan has found so far: nothing, a reason to drop the
monomial, or a term of the same value. -/
def ShrinkInv (σ : Var → Int) (term : Term) (st : Term × Bool) : Prop :=
  (st.2 = true → (st.1 = [] ∧ Term.eval σ term = 0) ∨
    (st.1 ≠ [] ∧ Term.eval σ st.1 = Term.eval σ term)) ∧ ∀ x ∈ st.1, x ∈ term

/-- The calls `extend_var_gates(t)` for the terms `t` of `ts` in turn. -/
def extend_all (s : ExtState) (ts : List Term) : Except Fault ExtState :=
  ts.foldlM (fun st t => do
    let r ← extend_var_gates st t
    pure r.1) s

/-- The gate keeps its level and its kind. -/
def KeepsLevel (g g2 : Gate) : Prop :=
  g2.level = g.level ∧ g2.input = g.input ∧ g2.extension = g.extension

/-- The monomial array with every term multiplied by `t`. -/
def timesTerm (t : Term) (l : List Monomial) : List Monomial :=
  l.map (fun m => { coeff := m.coeff, term := if m.term = [] then t else multiply_term m.term t })

/-- The number of recorded calls of `internal_linearize` with depth `d`. -/
def callsAt (l : List LinCall) (d : Int) : Nat :=
  (l.filter (fun c => decide (c.depth = d))).length

/-- The part of the loop invariant of `linearize_via_fglm_or_gap` that holds
after every call: `count` is not negative, `res` is the result of the last
call, no depth has more than 15 calls, no call has a depth above the current
one, and there are at most `B` calls. -/
def LinBase {σ : Type} (B : Int) (s : LinLocals σ) : Prop :=
  0 ≤ s.count ∧
  (∃ c l, s.calls = l ++ [c] ∧ c.res = s.res) ∧
  (∀ d, (callsAt s.calls d : Int) ≤ 15) ∧
  (∀ d, s.depth < d → (callsAt s.calls d : Int) = 0) ∧
  (s.calls.length : Int) ≤ B

/-- The part of the loop invariant that holds at the loop head: the calls at
the current depth and the calls in total leave room for the calls up to the
next increase of the depth. -/
def LinHead {σ : Type} (max_depth : Int) (B : Int) (s : LinLocals σ) : Prop :=
  (s.res = 0 → (callsAt s.calls s.depth : Int) + (15 - s.count % 15) % 15 ≤ 14) ∧
  (s.res = 0 → s.depth < max_depth →
    (s.calls.length : Int) + 15 * (max_depth - s.depth) + (15 - s.count % 15) % 15 ≤ B + 12)

/-- The measure that decreases with every pass of the loop. -/
def linMeasure {σ : Type} (max_depth : Int) (s : LinLocals σ) : Int :=
  15 * (max_depth - s.depth) + (15 - s.count % 15) % 15

/-- What holds when `linearize_via_fglm_or_gap` returns `b` in state `s`: at
most `B` calls were made, at most 15 of them at any one depth, and `b` is true
exactly when the last call returned a non-zero result, except that `b` is false
when a call after the first returned `-1` and `max_depth` is at most 6. -/
def LinPost {σ : Type} (max_depth : Int) (B : Int) (b : Bool) (s : LinLocals σ) : Prop :=
  (s.calls.length : Int) ≤ B ∧ (∀ d, (callsAt s.calls d : Int) ≤ 15) ∧
  ∃ c l, s.calls = l ++ [c] ∧
    (b = true ↔ c.res ≠ 0 ∧ ¬ (c.res = -1 ∧ max_depth ≤ 6 ∧ 2 ≤ s.calls.length))

/-- The `1 x 2` matrix `(1 1/3)`. -/
def rowMatrixThird : fmpq_mat :=
  { r := 1, c := 2, entry := fun _ j => if j = 1 then mkRat 1 3 else 1 }

/-- The `1 x 2` matrix `(1/2 -3/4)`. -/
def rowMatrixQuarter : fmpq_mat :=
  { r := 1, c := 2, entry := fun _ j => if j = 1 then mkRat (-3) 4 else mkRat 1 2 }

/-- The gate in slot `j` is `gate(l)` for a fan-in literal `l` of the AND gate
`p` that is not negated. -/
def PosEdge (c : Circuit) (p : Gate) (j : Nat) : Prop :=
  ∃ and1, c.is_model_and p.num = some and1 ∧
    ((aiger_sign and1.rhs0 = false ∧ gate_idx c.M and1.rhs0 = some j) ∨
      (aiger_sign and1.rhs1 = false ∧ gate_idx c.M and1.rhs1 = some j))

/-- The gate in slot `j` is `gate(l)` for a negated fan-in literal `l` of the
AND gate `p`. -/
def NegEdge (c : Circuit) (p : Gate) (j : Nat) : Prop :=
  ∃ and1, c.is_model_and p.num = some and1 ∧
    ((aiger_sign and1.rhs0 = true ∧ gate_idx c.M and1.rhs0 = some j) ∧ 2 ≤ and1.rhs0 ∨
      (aiger_sign and1.rhs1 = true ∧ gate_idx c.M and1.rhs1 = some j) ∧ 2 ≤ and1.rhs1)

/-- A chain of fan-in edges that are not negated, from the AND gate `p` of the
table down to the gate in slot `j`. -/
inductive PosChain (c : Circuit) : Gate → Nat → Prop where
  | edge (p : Gate) (j : Nat) : p ∈ c.gates → PosEdge c p j → PosChain c p j
  | step (p : Gate) (i : Nat) (m : Gate) (j : Nat) :
      PosChain c p i → c.gates[i]? = some m → PosEdge c m j → PosChain c p j

/-- Every stored positive parent is the number of an AND gate of the table with
a chain of fan-in edges that are not negated down to the gate of the list, and
every stored negative parent is the number plus one of an AND gate of the table
that has the gate of the list as a negated fan-in. -/
def PosNegSound (c : Circuit) (st : PosNegParents) : Prop :=
  (∀ j v, v ∈ st.pos_parents j → ∃ p, p ∈ c.gates ∧ p.num = v ∧ PosChain c p j) ∧
  (∀ j v, v ∈ st.neg_parents j → ∃ p, p ∈ c.gates ∧ v = p.num + 1 ∧ NegEdge c p j)

/-- The variable as the gate table holds it. A `Var` object belongs to its gate
and every term points to it, so a change of the level of the gate is seen in
every term: the variable with the number `n` has the level of `gate(n)`, its
dual that level plus one. -/
def Var.relevel (c : Circuit) (v : Var) : Var :=
  match gate c v.num with
  | some g => { num := v.num, level := if v.d then g.level + 1 else g.level, d := v.d }
  | none => v

/-- A monomial array with the levels of its variables read from the gate
table. -/
def relevelMons (c : Circuit) (l : List Monomial) : List Monomial :=
  l.map (fun m => Monomial.mk m.coeff (m.term.map (Var.relevel c)))

/-- The gate table of the AIG with the inputs `a` (literal 2) and `b` (literal
4), the AND gate `n = a & !b` (literal 6) and the output `s0` with literal 6, at
the levels that `allocate_gates` assigns: 2 and 4 for the inputs, 6 for `n`, 8
for `s0`. -/
def andNotTable : Circuit :=
  { NN := 2
    M := 4
    MM := 1
    gates :=
      [ Gate.mk 2 2 true false 0 false [] 0 [] none,
        Gate.mk 4 4 true false 0 false [] 0 [] none,
        Gate.mk 6 6 false false 0 false [2, 4] 1 [] none,
        Gate.mk 0 8 false true 0 false [6] 0 [] none ]
    is_model_and := fun l => if l = 6 then some (aiger_and.mk 6 2 5) else none
    slit := fun _ => 6
    do_local_lin := false }

/-- The specification `-s0 - b*a + a` of the output `s0 = a & !b`. -/
def andNotSpec : Polynomial :=
  { mon := [⟨-1, [⟨0, 8, false⟩]⟩, ⟨-1, [⟨4, 4, false⟩, ⟨2, 2, false⟩]⟩, ⟨1, [⟨2, 2, false⟩]⟩]
    deg := 2 }

/-- The monomials of `x * p - 1` for a monomial array of `p`: every term
multiplied by `x`, then the constant `-1`. -/
def xSpecMons (x : Var) (l : List Monomial) : List Monomial :=
  timesTerm [x] l ++ [Monomial.mk (-1) []]

/-- The monomials of the quotient polynomial of `mod_poly`: the negated
truncated quotients by `2 ^ n` that are not zero. -/
def quotientMons (n : Nat) (l : List Monomial) : List Monomial :=
  (l.filter (fun m => decide (Int.tdiv m.coeff (2 ^ n) ≠ 0))).map
    (fun m => Monomial.mk (-(Int.tdiv m.coeff (2 ^ n))) m.term)

/-- The normal form `x - 2^64 * y` (levels 4 and 2). -/
def bigCoeffNormalForm : Polynomial :=
  { mon := [⟨1, [⟨4, 4, false⟩]⟩, ⟨-18446744073709551616, [⟨2, 2, false⟩]⟩], deg := 1 }

/-- The rows, the sorted columns and the matrix that `run_fglm` sets up for the
single normal form `x - 2^64 * y`, with insertion sort for `std::sort`. -/
def bigCoeffFglm : List Term × List (Term × Int) × fmpq_mat :=
  match fglm_matrix (List.insertionSort (fun a b => cmp_term a.1 b.1 = 1))
      [some bigCoeffNormalForm] with
  | .ok m => m
  | .error _ => ([], [], fmpq_mat_init 0 0)

/-- The sum of the entries that `run_fglm` writes into the column of `c`, each
multiplied by the weight `G` of its row. -/
def fglmColumnSum (normal_forms : List (Option Polynomial)) (rows : List Term) (G : Nat → ℚ)
    (c : Term × Int) : ℚ :=
  if c.2 < 0 then G (term_to_id rows c.1)
  else
    match normal_forms.getD c.2.toNat none with
    | none => 0
    | some p =>
      match p.mon with
      | [] => 0
      | m0 :: tl =>
        (tl.map (fun mo =>
          ((mpz_get_si (if Int.sign m0.coeff > 0 then -mo.coeff else mo.coeff) : Int) : ℚ)
            * G (term_to_id rows mo.term))).sum

/-- The value `sign * nf` that the column `c` of `run_fglm` stands for, under the
linear functional `g` on terms: 0 for a unit column, and for the column of a
normal form the sign of its leading coefficient times its value. -/
def fglmNormalFormValue (normal_forms : List (Option Polynomial)) (g : Term → Int)
    (c : Term × Int) : Int :=
  if c.2 < 0 then 0
  else
    match normal_forms.getD c.2.toNat none with
    | none => 0
    | some p => Int.sign (leadCoeff p) * lin g p.mon

/-- The identifier that `run_fglm` stores for a column with the term `t`: 0 for
the constant, otherwise `var_to_id[v]` for the first variable `v` of `t`. -/
def fglmColumnId (ids : VarIds) (t : Term) : Nat :=
  match t with
  | [] => 0
  | v :: _ => (map_index ids v).1

/-- The compressed polynomial of row `i` of `K`: for every column with an entry
that is not zero, in the order of the columns, the numerator of the entry and
the identifier of the column. -/
def fglmRow (ids : VarIds) (cols : List (Term × Int)) (K : fmpq_mat) (i : Nat) :
    compressed_polynomial :=
  (List.range K.c).filterMap (fun j =>
    if K.entry i j = 0 then none
    else some ((K.entry i j).num, fglmColumnId ids (cols.getD j ([], 0)).1))

/-- The normal form `x - 2 * y` (levels 4 and 2). -/
def smallCoeffNormalForm : Polynomial :=
  { mon := [⟨1, [⟨4, 4, false⟩]⟩, ⟨-2, [⟨2, 2, false⟩]⟩], deg := 1 }

/-- The rows, the sorted columns and the matrix that `run_fglm` sets up for the
single normal form `x - 2 * y`, with insertion sort for `std::sort`. -/
def smallCoeffFglm : List Term × List (Term × Int) × fmpq_mat :=
  match fglm_matrix (List.insertionSort (fun a b => cmp_term a.1 b.1 = 1))
      [some smallCoeffNormalForm] with
  | .ok m => m
  | .error _ => ([], [], fmpq_mat_init 0 0)

/-- The image of the literal polynomial of the fan-in literal `lit` with the
gate `a` under a linear functional `g` on terms: `g(a)` for a plain literal and
`g(1) - g(a)` for a negated one. -/
def litLin (g : Term → Int) (a : Gate) (lit : Nat) : Int :=
  if aiger_sign lit then g [] - g [a.get_var] else g [a.get_var]

/-- The AND records are ordered as in the AIGER format: the fan-in literals of a
record are smaller than its own literal. -/
def AigOrdered (c : Circuit) : Prop :=
  ∀ l and1, c.is_model_and l = some and1 → (and1.rhs0 : Int) < l ∧ (and1.rhs1 : Int) < l

/-- The state of the distance loop of `allocate_gates` before the round for the
slot `k`, with `T0` the table at the start of the loop: `max_dist` is not
negative, only distances have changed, every distance is between 0 and
`max_dist + 1`, and a gate of a slot from `NN` on below `k` that has an AND
record has a distance of at least 1, larger than the distances of the gates of
its fan-ins when neither fan-in is a constant. -/
def DistInv (c : Circuit) (T0 : List Gate) (k : Nat) (st : List Gate × Int) : Prop :=
  0 ≤ st.2 ∧ st.1.length = T0.length ∧
  (∀ (j : Nat) (g0 g : Gate), T0[j]? = some g0 → st.1[j]? = some g →
    g = { g0 with distance := g.distance } ∧ 0 ≤ g.distance ∧ g.distance ≤ st.2 + 1) ∧
  (∀ (j : Nat) (g : Gate) (and1 : aiger_and), c.NN ≤ j → j < k → st.1[j]? = some g →
    c.is_model_and g.num = some and1 → 1 ≤ g.distance ∧
    (2 ≤ and1.rhs0 → 2 ≤ and1.rhs1 → ∀ (a : Nat) (ga : Gate),
      (a = and1.rhs0 / 2 - 1 ∨ a = and1.rhs1 / 2 - 1) →
      st.1[a]? = some ga → ga.distance < g.distance))

/-- The state of the re-levelling loops of `allocate_gates`, with `T1` the table
at their start and `L0` the value of `level` there: only levels have changed,
those of the inputs (slots below `NN`) not at all, the level of another gate is
0 or lies above `L0` and not above `level`, and two such gates with the same
level that is not 0 are the same. -/
def RelevelInv (NN : Nat) (L0 : Int) (T1 : List Gate) (st : List Gate × Int) : Prop :=
  L0 ≤ st.2 ∧ st.1.length = T1.length ∧
  (∀ (j : Nat) (g1 g : Gate), T1[j]? = some g1 → st.1[j]? = some g →
    g = { g1 with level := g.level } ∧ (j < NN → g.level = g1.level) ∧
    (NN ≤ j → g.level = 0 ∨ (L0 < g.level ∧ g.level ≤ st.2))) ∧
  (∀ (i j : Nat) (gi gj : Gate), NN ≤ i → NN ≤ j → st.1[i]? = some gi → st.1[j]? = some gj →
    gi.level = gj.level → gi.level ≠ 0 → i = j)

/-- Levels that are not 0 in the table `l` are not 0 in the table `l2`. -/
def LevelsStay (l l2 : List Gate) : Prop :=
  ∀ (j : Nat) (g g2 : Gate), l[j]? = some g → l2[j]? = some g2 → g.level ≠ 0 → g2.level ≠ 0

/-! # Theorems -/

/-! ## Integer remainder -/

theorem tmod_neg_left (a b : Int) : Int.tmod (-a) b = -(Int.tmod a b) := by
  rw [Int.tmod_def, Int.tmod_def, Int.neg_tdiv]; ring

theorem tmod_tmod_self (a b : Int) (hb : 0 < b) :
    Int.tmod (Int.tmod a b) b = Int.tmod a b := by
  rcases Int.le_total 0 a with ha | ha
  · exact Int.tmod_eq_of_lt (Int.tmod_nonneg b ha) (Int.tmod_lt_of_pos a hb)
  · have hna : 0 ≤ -a := by omega
    have h2 := Int.tmod_eq_of_lt (Int.tmod_nonneg b hna) (Int.tmod_lt_of_pos (-a) hb)
    rw [tmod_neg_left, tmod_neg_left] at h2
    omega

/-! ## The build stack -/

theorem build_poly_nil : build_poly [] = none := by simp [build_poly]

theorem build_poly_ne_nil (st : MStack) (h : st ≠ []) :
    build_poly st = some { mon := st.reverse, deg := build_poly_deg st.reverse } := by
  simp [build_poly, h]

theorem mons_build_poly (st : MStack) : mons (build_poly st) = st.reverse := by
  by_cases h : st = []
  · subst h; simp [build_poly, mons]
  · simp [build_poly, h, mons]

/-- Two stacks with the same content build the same polynomial. -/
theorem build_poly_congr (s1 s2 : MStack) (h : s1.reverse = s2.reverse) :
    build_poly s1 = build_poly s2 := by
  have : s1 = s2 := by simpa using congrArg List.reverse h
  rw [this]

/-! ## `mod_poly` -/

/-- The loop of `mod_poly` pushes the reduced monomials in order. -/
theorem mod_fold_eq (n : Nat) (l : List Monomial) (st : MStack) :
    l.foldl
        (fun st m =>
          if Int.tmod m.coeff (2 ^ n) ≠ 0 then
            push_mstack_end st { coeff := Int.tmod m.coeff (2 ^ n), term := m.term }
          else st)
        st
      = (modMons n l).reverse ++ st := by
  induction l generalizing st with
  | nil => simp [modMons]
  | cons m l ih =>
    simp only [List.foldl_cons]
    rw [ih]
    by_cases h : Int.tmod m.coeff (2 ^ n) = 0
    · simp [h, modMons]
    · simp [h, push_mstack_end, modMons]

theorem mod_poly_some (a : Polynomial) (n : Int) :
    mod_poly (some a) n = build_poly (modMons (bitcnt n) a.mon).reverse := by
  simp only [mod_poly]
  rw [mod_fold_eq, List.append_nil]

theorem modMons_idem (n : Nat) (l : List Monomial) : modMons n (modMons n l) = modMons n l := by
  have hpos : (0 : Int) < 2 ^ n := by positivity
  induction l with
  | nil => simp [modMons]
  | cons m l ih =>
    by_cases h : Int.tmod m.coeff (2 ^ n) = 0
    · have : modMons n (m :: l) = modMons n l := by simp [modMons, h]
      rw [this, ih]
    · have h1 : modMons n (m :: l)
          = { coeff := Int.tmod m.coeff (2 ^ n), term := m.term } :: modMons n l := by
        simp [modMons, h]
      have h2 : ∀ (x : Monomial) (r : List Monomial), Int.tmod x.coeff (2 ^ n) ≠ 0 →
          modMons n (x :: r)
            = { coeff := Int.tmod x.coeff (2 ^ n), term := x.term } :: modMons n r := by
        intro x r hx; simp [modMons, hx]
      rw [h1, h2 _ _ (by simpa [tmod_tmod_self _ _ hpos] using h), ih]
      simp [tmod_tmod_self _ _ hpos]

/-- C10: `mod_poly` is idempotent, `mod_poly(mod_poly(p, n), n)` is
`mod_poly(p, n)` for every polynomial pointer `p` (null included) and every
exponent `n`. -/
theorem mod_poly_idempotent (p : Option Polynomial) (n : Int) :
    mod_poly (mod_poly p n) n = mod_poly p n := by
  cases p with
  | none => rfl
  | some a =>
    rw [mod_poly_some]
    by_cases hnil : modMons (bitcnt n) a.mon = []
    · rw [hnil]; rfl
    · rw [build_poly_ne_nil _ (by simpa using hnil), mod_poly_some]
      simp only [List.reverse_reverse]
      rw [modMons_idem, build_poly_ne_nil _ (by simpa using hnil)]
      simp

/-! ## The term order `cmp_term` -/

theorem cmp_term_loop_vals (a b : Term) :
    cmp_term_loop a b = 1 ∨ cmp_term_loop a b = 0 ∨ cmp_term_loop a b = -1 := by
  induction a generalizing b with
  | nil => cases b <;> simp [cmp_term_loop]
  | cons x a ih =>
    cases b with
    | nil => simp [cmp_term_loop]
    | cons y b =>
      simp only [cmp_term_loop]
      split_ifs
      · simp
      · simp
      · exact ih b

theorem cmp_term_loop_antisymm (a b : Term) : cmp_term_loop b a = -cmp_term_loop a b := by
  induction a generalizing b with
  | nil => cases b <;> simp [cmp_term_loop]
  | cons x a ih =>
    cases b with
    | nil => simp [cmp_term_loop]
    | cons y b =>
      simp only [cmp_term_loop]
      split_ifs <;> first | omega | simp | exact ih b

theorem cmp_term_loop_self (a : Term) : cmp_term_loop a a = 0 := by
  induction a with
  | nil => simp [cmp_term_loop]
  | cons x a ih => simp [cmp_term_loop, ih]

theorem cmp_term_loop_trans (a b c : Term) (h1 : cmp_term_loop a b = 1)
    (h2 : cmp_term_loop b c = 1) : cmp_term_loop a c = 1 := by
  induction a generalizing b c with
  | nil => cases b <;> simp [cmp_term_loop] at h1
  | cons x a ih =>
    cases b with
    | nil => cases c <;> simp [cmp_term_loop] at h2
    | cons y b =>
      cases c with
      | nil => simp [cmp_term_loop]
      | cons z c =>
        simp only [cmp_term_loop] at h1 h2 ⊢
        split_ifs at h1 h2 ⊢ <;> first | omega | rfl | exact ih b c h1 h2

theorem cmp_term_loop_eq_zero (vs : List Var) (hd : LevelsDistinct vs) (a b : Term)
    (ha : ∀ v ∈ a, v ∈ vs) (hb : ∀ v ∈ b, v ∈ vs) (h : cmp_term_loop a b = 0) : a = b := by
  induction a generalizing b with
  | nil => cases b <;> simp [cmp_term_loop] at h ⊢
  | cons x a ih =>
    cases b with
    | nil => simp [cmp_term_loop] at h
    | cons y b =>
      simp only [cmp_term_loop] at h
      split_ifs at h with h1 h2
      · exact absurd h (by decide)
      · have hxy : x = y := hd x (ha x (by simp)) y (hb y (by simp)) (by omega)
        have := ih b (fun v hv => ha v (by simp [hv])) (fun v hv => hb v (by simp [hv])) h
        rw [hxy, this]

theorem cmp_term_vals (a b : Term) :
    cmp_term a b = 1 ∨ cmp_term a b = 0 ∨ cmp_term a b = -1 := by
  unfold cmp_term
  split_ifs
  · simp
  · simp
  · exact cmp_term_loop_vals a b
  · simp

theorem cmp_term_nil_left (b : Term) : cmp_term [] b = -1 := by simp [cmp_term]

theorem cmp_term_nil_right (a : Term) (h : a ≠ []) : cmp_term a [] = 1 := by simp [cmp_term, h]

theorem cmp_term_self (a : Term) (h : a ≠ []) : cmp_term a a = 0 := by simp [cmp_term, h]

theorem cmp_term_self_ne_one (a : Term) : cmp_term a a ≠ 1 := by
  by_cases h : a = []
  · simp [cmp_term, h]
  · simp [cmp_term, h]

theorem cmp_term_one_ne_nil (a b : Term) (h : cmp_term a b = 1) : a ≠ [] := by
  intro ha; simp [cmp_term, ha] at h

theorem cmp_term_asymm (a b : Term) (h : cmp_term a b = 1) : cmp_term b a = -1 := by
  have ha := cmp_term_one_ne_nil a b h
  by_cases hb : b = []
  · simp [cmp_term, hb]
  · by_cases hab : a = b
    · subst hab; simp [cmp_term, ha] at h
    · have hba : b ≠ a := fun e => hab e.symm
      simp only [cmp_term, ha, hb, hab, hba, if_false, ne_eq, not_false_eq_true, if_true] at h ⊢
      rw [cmp_term_loop_antisymm a b, h]

theorem cmp_term_neg_flip (a b : Term) (hb : b ≠ []) (h : cmp_term a b = -1) :
    cmp_term b a = 1 := by
  by_cases ha : a = []
  · simp [cmp_term, ha, hb]
  · by_cases hab : a = b
    · subst hab; simp [cmp_term, ha] at h
    · have hba : b ≠ a := fun e => hab e.symm
      simp only [cmp_term, ha, hb, hab, hba, if_false, ne_eq, not_false_eq_true, if_true] at h ⊢
      rw [cmp_term_loop_antisymm a b, h]; rfl

theorem cmp_term_trans (a b c : Term) (h1 : cmp_term a b = 1) (h2 : cmp_term b c = 1) :
    cmp_term a c = 1 := by
  have ha := cmp_term_one_ne_nil a b h1
  have hb := cmp_term_one_ne_nil b c h2
  by_cases hc : c = []
  · simp [cmp_term, ha, hc]
  · have hab : a ≠ b := by intro e; subst e; exact cmp_term_self_ne_one a h1
    have hbc : b ≠ c := by intro e; subst e; exact cmp_term_self_ne_one b h2
    simp only [cmp_term, ha, hb, hc, hab, hbc, if_false, ne_eq, not_false_eq_true, if_true]
      at h1 h2
    have h3 := cmp_term_loop_trans a b c h1 h2
    have hac : a ≠ c := by
      intro e; subst e
      rw [cmp_term_loop_self] at h3; omega
    simp [cmp_term, ha, hc, hac, h3]

theorem cmp_term_eq_zero (vs : List Var) (hd : LevelsDistinct vs) (a b : Term)
    (ha : ∀ v ∈ a, v ∈ vs) (hb : ∀ v ∈ b, v ∈ vs) (h : cmp_term a b = 0) : a = b := by
  by_cases hab : a = b
  · exact hab
  · unfold cmp_term at h
    split_ifs at h
    · exact absurd h (by decide)
    · exact cmp_term_loop_eq_zero vs hd a b ha hb h

/-! ## Linear functionals and stack normal form -/

theorem lin_nil (g : Term → Int) : lin g [] = 0 := by simp [lin]

theorem lin_cons (g : Term → Int) (m : Monomial) (l : List Monomial) :
    lin g (m :: l) = m.coeff * g m.term + lin g l := by simp [lin]

theorem lin_append (g : Term → Int) (l1 l2 : List Monomial) :
    lin g (l1 ++ l2) = lin g l1 + lin g l2 := by simp [lin]

theorem lin_reverse (g : Term → Int) (l : List Monomial) : lin g l.reverse = lin g l := by
  simp [lin, List.sum_reverse]

theorem coeffAt_eq_lin (l : List Monomial) (t : Term) :
    coeffAt l t = lin (fun u => if u = t then 1 else 0) l := by
  simp only [coeffAt, lin]
  congr 1
  apply List.map_congr_left
  intro m _
  split_ifs <;> simp

theorem evalMons_eq_lin (σ : Var → Int) (l : List Monomial) :
    evalMons σ l = lin (Term.eval σ) l := by
  simp only [evalMons, lin]
  congr 1

theorem stackNF_iff_reverse (st : MStack) : StackNF st ↔ NormalForm st.reverse := by
  simp only [StackNF, NormalForm, List.mem_reverse, List.pairwise_reverse]

theorem normalForm_iff_reverse (l : List Monomial) : NormalForm l ↔ StackNF l.reverse := by
  rw [stackNF_iff_reverse, List.reverse_reverse]

theorem stackNF_nil : StackNF [] := by simp [StackNF]

theorem stackNF_cons (m : Monomial) (st : MStack) :
    StackNF (m :: st) ↔
      m.coeff ≠ 0 ∧ (∀ e ∈ st, cmp_term e.term m.term = 1) ∧ StackNF st := by
  simp only [StackNF, List.mem_cons, forall_eq_or_imp, List.pairwise_cons]
  tauto

/-! ## `push_mstack` -/

theorem push_mstack_scan_mem (m : Monomial) (st : MStack) (e : Monomial)
    (he : e ∈ push_mstack_scan m st) : e ∈ st ∨ e.term = m.term := by
  induction st with
  | nil => simp [push_mstack_scan] at he; simp [he]
  | cons tmp rest ih =>
    simp only [push_mstack_scan] at he
    split_ifs at he with h1 h2 h3
    · exact Or.inl (List.mem_cons_of_mem _ he)
    · rcases List.mem_cons.1 he with h | h
      · right; rw [h]
      · exact Or.inl (List.mem_cons_of_mem _ h)
    · rcases List.mem_cons.1 he with h | h
      · right; rw [h]
      · exact Or.inl h
    · rcases List.mem_cons.1 he with h | h
      · left; rw [h]; simp
      · rcases ih h with h' | h'
        · exact Or.inl (List.mem_cons_of_mem _ h')
        · exact Or.inr h'

theorem push_mstack_scan_nf (T : Term → Prop) (hT : CmpFaithful T) (m : Monomial)
    (st : MStack) (hm0 : m.coeff ≠ 0) (hmt : m.term ≠ []) (hTm : T m.term)
    (hTs : TermsIn T st) (hst : StackNF st) : StackNF (push_mstack_scan m st) := by
  induction st with
  | nil => simp [push_mstack_scan, StackNF, hm0]
  | cons tmp rest ih =>
    rw [stackNF_cons] at hst
    obtain ⟨htmp0, hlt, hrest⟩ := hst
    have hTrest : TermsIn T rest := fun e he => hTs e (List.mem_cons_of_mem _ he)
    simp only [push_mstack_scan]
    split_ifs with h1 h2 h3
    · exact hrest
    · have heq : tmp.term = m.term := hT _ _ (hTs tmp (by simp)) hTm h2
      rw [stackNF_cons]
      refine ⟨h3, ?_, hrest⟩
      intro e he
      simpa [heq] using hlt e he
    · have hone : cmp_term tmp.term m.term = 1 := by
        rcases cmp_term_vals tmp.term m.term with h | h | h
        · exact h
        · exact absurd h h2
        · omega
      rw [stackNF_cons]
      refine ⟨hm0, ?_, ?_⟩
      · intro e he
        rcases List.mem_cons.1 he with h | h
        · rw [h]; exact hone
        · exact cmp_term_trans _ _ _ (hlt e h) hone
      · rw [stackNF_cons]; exact ⟨htmp0, hlt, hrest⟩
    · have hneg : cmp_term tmp.term m.term = -1 := by
        rcases cmp_term_vals tmp.term m.term with h | h | h
        · omega
        · omega
        · exact h
      have hflip := cmp_term_neg_flip _ _ hmt hneg
      rw [stackNF_cons]
      refine ⟨htmp0, ?_, ih hTrest hrest⟩
      intro e he
      rcases push_mstack_scan_mem m rest e he with h | h
      · exact hlt e h
      · rw [h]; exact hflip

theorem push_mstack_scan_lin (T : Term → Prop) (hT : CmpFaithful T) (g : Term → Int)
    (m : Monomial) (st : MStack) (hTm : T m.term) (hTs : TermsIn T st) :
    lin g (push_mstack_scan m st) = lin g st + m.coeff * g m.term := by
  induction st with
  | nil => simp [push_mstack_scan, lin]
  | cons tmp rest ih =>
    have hTrest : TermsIn T rest := fun e he => hTs e (List.mem_cons_of_mem _ he)
    simp only [push_mstack_scan]
    split_ifs with h1 h2 h3
    · have heq : tmp.term = m.term := hT _ _ (hTs tmp (by simp)) hTm h2
      rw [lin_cons, heq]
      have : tmp.coeff = -m.coeff := by omega
      rw [this]; ring
    · have heq : tmp.term = m.term := hT _ _ (hTs tmp (by simp)) hTm h2
      rw [lin_cons, lin_cons, heq]; simp only; ring
    · simp only [lin_cons]; ring
    · rw [lin_cons, lin_cons, ih hTrest]; ring

theorem push_mstack_zero (m : Monomial) (st : MStack) (h : m.coeff = 0) :
    push_mstack st m = st := by simp [push_mstack, h]

theorem push_mstack_term (m : Monomial) (st : MStack) (h0 : m.coeff ≠ 0) (ht : m.term ≠ []) :
    push_mstack st m = push_mstack_scan m st := by
  cases st with
  | nil => simp [push_mstack, h0, push_mstack_scan]
  | cons tmp rest => simp [push_mstack, h0, ht]

theorem push_mstack_const_nil (m : Monomial) (h0 : m.coeff ≠ 0) :
    push_mstack [] m = [m] := by simp [push_mstack, h0]

theorem push_mstack_const_append (m tmp : Monomial) (rest : MStack) (h0 : m.coeff ≠ 0)
    (ht : m.term = []) (h1 : tmp.term ≠ []) :
    push_mstack (tmp :: rest) m = m :: tmp :: rest := by
  simp [push_mstack, h0, ht, h1]

theorem push_mstack_const_merge (m tmp : Monomial) (rest : MStack) (h0 : m.coeff ≠ 0)
    (ht : m.term = []) (h1 : tmp.term = []) (h2 : tmp.coeff + m.coeff ≠ 0) :
    push_mstack (tmp :: rest) m = { coeff := tmp.coeff + m.coeff, term := [] } :: rest := by
  simp [push_mstack, h0, ht, h1, h2]

theorem push_mstack_const_cancel (m tmp : Monomial) (rest : MStack) (h0 : m.coeff ≠ 0)
    (ht : m.term = []) (h1 : tmp.term = []) (h2 : tmp.coeff + m.coeff = 0) :
    push_mstack (tmp :: rest) m = rest := by
  simp [push_mstack, h0, ht, h1, h2]

theorem push_mstack_mem (m : Monomial) (st : MStack) (e : Monomial)
    (he : e ∈ push_mstack st m) : e ∈ st ∨ e.term = m.term := by
  by_cases h0 : m.coeff = 0
  · rw [push_mstack_zero m st h0] at he; exact Or.inl he
  by_cases ht : m.term = []
  · cases st with
    | nil => rw [push_mstack_const_nil m h0] at he; simp at he; simp [he]
    | cons tmp rest =>
      by_cases h1 : tmp.term = []
      · by_cases h2 : tmp.coeff + m.coeff = 0
        · rw [push_mstack_const_cancel m tmp rest h0 ht h1 h2] at he
          exact Or.inl (List.mem_cons_of_mem _ he)
        · rw [push_mstack_const_merge m tmp rest h0 ht h1 h2] at he
          rcases List.mem_cons.1 he with h | h
          · right; rw [h, ht]
          · exact Or.inl (List.mem_cons_of_mem _ h)
      · rw [push_mstack_const_append m tmp rest h0 ht h1] at he
        rcases List.mem_cons.1 he with h | h
        · right; rw [h]
        · exact Or.inl h
  · rw [push_mstack_term m st h0 ht] at he
    exact push_mstack_scan_mem m st e he

theorem push_mstack_termsIn (T : Term → Prop) (m : Monomial) (st : MStack) (hTm : T m.term)
    (hTs : TermsIn T st) : TermsIn T (push_mstack st m) := by
  intro e he
  rcases push_mstack_mem m st e he with h | h
  · exact hTs e h
  · rw [h]; exact hTm

theorem push_mstack_nf (T : Term → Prop) (hT : CmpFaithful T) (m : Monomial) (st : MStack)
    (hTm : T m.term) (hTs : TermsIn T st) (hst : StackNF st) :
    StackNF (push_mstack st m) := by
  by_cases h0 : m.coeff = 0
  · rw [push_mstack_zero m st h0]; exact hst
  by_cases ht : m.term = []
  · cases st with
    | nil => rw [push_mstack_const_nil m h0]; simp [StackNF, h0]
    | cons tmp rest =>
      obtain ⟨htmp0, hlt, hrest⟩ := (stackNF_cons tmp rest).1 hst
      by_cases h1 : tmp.term = []
      · by_cases h2 : tmp.coeff + m.coeff = 0
        · rw [push_mstack_const_cancel m tmp rest h0 ht h1 h2]; exact hrest
        · rw [push_mstack_const_merge m tmp rest h0 ht h1 h2, stackNF_cons]
          refine ⟨h2, ?_, hrest⟩
          intro e he
          have := hlt e he
          rw [h1] at this
          exact this
      · rw [push_mstack_const_append m tmp rest h0 ht h1, stackNF_cons]
        refine ⟨h0, ?_, hst⟩
        intro e he
        rw [ht]
        apply cmp_term_nil_right
        rcases List.mem_cons.1 he with h | h
        · rw [h]; exact h1
        · exact cmp_term_one_ne_nil _ _ (hlt e h)
  · rw [push_mstack_term m st h0 ht]
    exact push_mstack_scan_nf T hT m st h0 ht hTm hTs hst

theorem push_mstack_lin (T : Term → Prop) (hT : CmpFaithful T) (g : Term → Int) (m : Monomial)
    (st : MStack) (hTm : T m.term) (hTs : TermsIn T st) :
    lin g (push_mstack st m) = lin g st + m.coeff * g m.term := by
  by_cases h0 : m.coeff = 0
  · rw [push_mstack_zero m st h0, h0]; ring
  by_cases ht : m.term = []
  · cases st with
    | nil => rw [push_mstack_const_nil m h0]; simp [lin]
    | cons tmp rest =>
      by_cases h1 : tmp.term = []
      · by_cases h2 : tmp.coeff + m.coeff = 0
        · rw [push_mstack_const_cancel m tmp rest h0 ht h1 h2, lin_cons, h1, ht]
          have : tmp.coeff = -m.coeff := by omega
          rw [this]; ring
        · rw [push_mstack_const_merge m tmp rest h0 ht h1 h2, lin_cons, lin_cons, h1, ht]
          simp only; ring
      · rw [push_mstack_const_append m tmp rest h0 ht h1, lin_cons]; ring
  · rw [push_mstack_term m st h0 ht]
    exact push_mstack_scan_lin T hT g m st hTm hTs

/-! ## Levels that identify variables make `cmp_term` faithful -/

theorem cmpFaithful_of_levels (vs : List Var) (hd : LevelsDistinct vs) :
    CmpFaithful (fun t => ∀ v ∈ t, v ∈ vs) :=
  fun a b ha hb h => cmp_term_eq_zero vs hd a b ha hb h

theorem mem_varsOf (l : List Monomial) (m : Monomial) (v : Var) (hm : m ∈ l) (hv : v ∈ m.term) :
    v ∈ varsOf l := by
  simp only [varsOf, List.mem_flatMap]
  exact ⟨m, hm, hv⟩

theorem termsIn_of_varsOf (vs : List Var) (l : List Monomial) (h : ∀ v ∈ varsOf l, v ∈ vs) :
    TermsIn (fun t => ∀ v ∈ t, v ∈ vs) l :=
  fun m hm v hv => h v (mem_varsOf l m v hm hv)

theorem varsOf_reverse (l : List Monomial) (v : Var) : v ∈ varsOf l.reverse ↔ v ∈ varsOf l := by
  simp [varsOf, List.mem_flatMap]

/-- C7: `push_mstack` keeps the build stack in polynomial normal form. If the
stack, read as an array, has non-zero coefficients and strictly decreasing
terms (levels identifying the variables involved), then so has the stack after
`push_mstack(m)`; the coefficient of every term `t` is the old one plus the
coefficient of `m` when `m` carries `t` (so equal terms are merged and a zero
sum disappears); the value under every assignment is the old value plus the
value of `m`; and a monomial with coefficient zero leaves the stack unchanged. -/
theorem push_mstack_normal_form (st : MStack) (m : Monomial)
    (hd : LevelsDistinct (m.term ++ varsOf st)) (hst : NormalForm st.reverse) :
    NormalForm (push_mstack st m).reverse ∧
    (∀ t, coeffAt (push_mstack st m).reverse t
        = coeffAt st.reverse t + (if m.term = t then m.coeff else 0)) ∧
    (∀ σ, evalMons σ (push_mstack st m).reverse = evalMons σ st.reverse + m.eval σ) ∧
    (m.coeff = 0 → push_mstack st m = st) := by
  have hT := cmpFaithful_of_levels _ hd
  have hTm : ∀ v ∈ m.term, v ∈ m.term ++ varsOf st := fun v hv => by simp [hv]
  have hTs : TermsIn (fun t => ∀ v ∈ t, v ∈ m.term ++ varsOf st) st :=
    termsIn_of_varsOf _ st (fun v hv => by simp [hv])
  refine ⟨?_, ?_, ?_, push_mstack_zero m st⟩
  · rw [← stackNF_iff_reverse]
    exact push_mstack_nf _ hT m st hTm hTs ((stackNF_iff_reverse st).2 hst)
  · intro t
    rw [coeffAt_eq_lin, coeffAt_eq_lin, lin_reverse, lin_reverse,
      push_mstack_lin _ hT _ m st hTm hTs]
    split_ifs <;> simp
  · intro σ
    rw [evalMons_eq_lin, evalMons_eq_lin, lin_reverse, lin_reverse,
      push_mstack_lin _ hT _ m st hTm hTs]
    rfl

/-- C7 witness: pushing `3 * x` on the stack that holds `2 * y * x + 5 * x + 1`. -/
theorem push_mstack_normal_form_witness :
    LevelsDistinct
        (([⟨2, 2, false⟩] : Term) ++
          varsOf [⟨1, []⟩, ⟨5, [⟨2, 2, false⟩]⟩, ⟨2, [⟨4, 4, false⟩, ⟨2, 2, false⟩]⟩]) ∧
      NormalForm
        ([⟨1, []⟩, ⟨5, [⟨2, 2, false⟩]⟩, ⟨2, [⟨4, 4, false⟩, ⟨2, 2, false⟩]⟩] : MStack).reverse ∧
      NormalForm
        (push_mstack [⟨1, []⟩, ⟨5, [⟨2, 2, false⟩]⟩, ⟨2, [⟨4, 4, false⟩, ⟨2, 2, false⟩]⟩]
          ⟨3, [⟨2, 2, false⟩]⟩).reverse :=
  ⟨by decide, by decide,
    (push_mstack_normal_form
      [⟨1, []⟩, ⟨5, [⟨2, 2, false⟩]⟩, ⟨2, [⟨4, 4, false⟩, ⟨2, 2, false⟩]⟩]
      ⟨3, [⟨2, 2, false⟩]⟩ (by decide) (by decide)).1⟩

/-! ## `push_mstack_end` and `add_poly` -/

theorem normalForm_nil : NormalForm [] := by simp [NormalForm]

theorem normalForm_cons (m : Monomial) (l : List Monomial) :
    NormalForm (m :: l) ↔
      m.coeff ≠ 0 ∧ (∀ e ∈ l, cmp_term m.term e.term = 1) ∧ NormalForm l := by
  simp only [NormalForm, List.mem_cons, forall_eq_or_imp, List.pairwise_cons]
  tauto

/-- In a normal form nothing follows the constant monomial. -/
theorem normalForm_const_last (m : Monomial) (l : List Monomial) (h : NormalForm (m :: l))
    (hm : m.term = []) : l = [] := by
  cases l with
  | nil => rfl
  | cons e r =>
    have := ((normalForm_cons m (e :: r)).1 h).2.1 e (by simp)
    rw [hm, cmp_term_nil_left] at this
    exact absurd this (by decide)

theorem push_mstack_end_lin (g : Term → Int) (st : MStack) (m : Monomial) :
    lin g (push_mstack_end st m) = lin g st + m.coeff * g m.term := by
  unfold push_mstack_end
  split_ifs with h
  · rw [h]; ring
  · rw [lin_cons]; ring

theorem push_mstack_end_mem (st : MStack) (m e : Monomial) (he : e ∈ push_mstack_end st m) :
    e ∈ st ∨ e = m := by
  unfold push_mstack_end at he
  split_ifs at he with h
  · exact Or.inl he
  · rcases List.mem_cons.1 he with h1 | h1
    · exact Or.inr h1
    · exact Or.inl h1

theorem push_mstack_end_nf (st : MStack) (m : Monomial) (hst : StackNF st)
    (hgt : ∀ e ∈ st, cmp_term e.term m.term = 1) : StackNF (push_mstack_end st m) := by
  unfold push_mstack_end
  split_ifs with h
  · exact hst
  · rw [stackNF_cons]; exact ⟨h, hgt, hst⟩

theorem foldl_push_end_lin (g : Term → Int) (l : List Monomial) (st : MStack) :
    lin g (l.foldl push_mstack_end st) = lin g l + lin g st := by
  induction l generalizing st with
  | nil => simp [lin]
  | cons m l ih =>
    rw [List.foldl_cons, ih, push_mstack_end_lin, lin_cons]; ring

theorem foldl_push_end_mem (l : List Monomial) (st : MStack) (e : Monomial)
    (he : e ∈ l.foldl push_mstack_end st) : e ∈ st ∨ e ∈ l := by
  induction l generalizing st with
  | nil => exact Or.inl he
  | cons m l ih =>
    rw [List.foldl_cons] at he
    rcases ih _ he with h | h
    · rcases push_mstack_end_mem st m e h with h1 | h1
      · exact Or.inl h1
      · right; rw [h1]; simp
    · exact Or.inr (List.mem_cons_of_mem _ h)

theorem foldl_push_end_nf (l : List Monomial) (st : MStack) (hl : NormalForm l)
    (hst : StackNF st) (hgt : ∀ e ∈ st, ∀ m ∈ l, cmp_term e.term m.term = 1) :
    StackNF (l.foldl push_mstack_end st) := by
  induction l generalizing st with
  | nil => exact hst
  | cons m l ih =>
    obtain ⟨_, hml, hl'⟩ := (normalForm_cons m l).1 hl
    rw [List.foldl_cons]
    apply ih _ hl'
    · exact push_mstack_end_nf st m hst (fun e he => hgt e he m (by simp))
    · intro e he x hx
      rcases push_mstack_end_mem st m e he with h | h
      · exact hgt e h x (List.mem_cons_of_mem _ hx)
      · rw [h]; exact hml x hx

/-- On a normal form the copy loop pushes every monomial. -/
theorem foldl_push_end_eq (l : List Monomial) (st : MStack) (h : ∀ m ∈ l, m.coeff ≠ 0) :
    l.foldl push_mstack_end st = l.reverse ++ st := by
  induction l generalizing st with
  | nil => simp
  | cons m l ih =>
    rw [List.foldl_cons, ih _ (fun x hx => h x (List.mem_cons_of_mem _ hx))]
    simp [push_mstack_end, h m (by simp)]

theorem add_poly_loop_lin (T : Term → Prop) (hT : CmpFaithful T) (g : Term → Int)
    (l1 l2 : List Monomial) (st : MStack) (h1 : TermsIn T l1) (h2 : TermsIn T l2) :
    lin g (add_poly_loop l1 l2 st) = lin g l1 + lin g l2 + lin g st := by
  induction l1, l2, st using add_poly_loop.induct with
  | case1 m1 r1 m2 r2 st hor hand ih =>
    simp only [dite_eq_ite] at ih
    rw [add_poly_loop, if_pos hor, if_pos hand,
      ih (fun e he => h1 e (List.mem_cons_of_mem _ he))
        (fun e he => h2 e (List.mem_cons_of_mem _ he))]
    rw [lin_cons, lin_cons, hand.1, hand.2]
    split_ifs with hc
    · rw [push_mstack_end_lin]; simp only; ring
    · simp only [not_not] at hc
      have : m1.coeff = -m2.coeff := by omega
      rw [this]; ring
  | case2 m1 r1 m2 r2 st hor hand hm1 ih =>
    rw [add_poly_loop, if_pos hor, if_neg hand, if_pos hm1,
      ih h1 (fun e he => h2 e (List.mem_cons_of_mem _ he)), push_mstack_end_lin]
    simp only [lin_cons]; ring
  | case3 m1 r1 m2 r2 st hor hand hm1 ih =>
    rw [add_poly_loop, if_pos hor, if_neg hand, if_neg hm1,
      ih (fun e he => h1 e (List.mem_cons_of_mem _ he)) h2, push_mstack_end_lin]
    simp only [lin_cons]; ring
  | case4 m1 r1 m2 r2 st hor hc ih =>
    rw [add_poly_loop, if_neg hor, if_pos hc,
      ih (fun e he => h1 e (List.mem_cons_of_mem _ he)) h2, push_mstack_end_lin]
    simp only [lin_cons]; ring
  | case5 m1 r1 m2 r2 st hor hc hc2 ih =>
    rw [add_poly_loop, if_neg hor, if_neg hc, if_pos hc2,
      ih h1 (fun e he => h2 e (List.mem_cons_of_mem _ he)), push_mstack_end_lin]
    simp only [lin_cons]; ring
  | case6 m1 r1 m2 r2 st hor hc hc2 ih =>
    simp only [dite_eq_ite] at ih
    have hz : cmp_term m1.term m2.term = 0 := by
      rcases cmp_term_vals m1.term m2.term with h | h | h
      · exact absurd h hc
      · exact h
      · exact absurd h hc2
    have heq : m1.term = m2.term := hT _ _ (h1 m1 (by simp)) (h2 m2 (by simp)) hz
    rw [add_poly_loop, if_neg hor, if_neg hc, if_neg hc2,
      ih (fun e he => h1 e (List.mem_cons_of_mem _ he))
        (fun e he => h2 e (List.mem_cons_of_mem _ he))]
    rw [lin_cons, lin_cons, ← heq]
    split_ifs with hs
    · rw [push_mstack_end_lin]; simp only; ring
    · simp only [not_not] at hs
      have : m1.coeff = -m2.coeff := by omega
      rw [this]; ring
  | case7 m1 r1 st =>
    rw [add_poly_loop, foldl_push_end_lin]; simp [lin]
  | case8 l2 st =>
    rw [add_poly_loop, foldl_push_end_lin]; simp [lin]

theorem add_poly_loop_nf (T : Term → Prop) (hT : CmpFaithful T)
    (l1 l2 : List Monomial) (st : MStack) (h1 : TermsIn T l1) (h2 : TermsIn T l2)
    (n1 : NormalForm l1) (n2 : NormalForm l2) (hst : StackNF st)
    (g1 : ∀ e ∈ st, ∀ m ∈ l1, cmp_term e.term m.term = 1)
    (g2 : ∀ e ∈ st, ∀ m ∈ l2, cmp_term e.term m.term = 1) :
    StackNF (add_poly_loop l1 l2 st) := by
  induction l1, l2, st using add_poly_loop.induct with
  | case1 m1 r1 m2 r2 st hor hand ih =>
    simp only [dite_eq_ite] at ih
    have e1 := normalForm_const_last m1 r1 n1 hand.1
    have e2 := normalForm_const_last m2 r2 n2 hand.2
    subst e1; subst e2
    rw [add_poly_loop, if_pos hor, if_pos hand]
    apply ih (fun e he => by simp at he) (fun e he => by simp at he) normalForm_nil normalForm_nil
    · split_ifs with hc
      · apply push_mstack_end_nf st _ hst
        intro e he
        have := g1 e he m1 (by simp)
        rw [hand.1] at this
        exact this
      · exact hst
    · intro e _ m hm; simp at hm
    · intro e _ m hm; simp at hm
  | case2 m1 r1 m2 r2 st hor hand hm1 ih =>
    have e1 := normalForm_const_last m1 r1 n1 hm1
    subst e1
    have hm2 : m2.term ≠ [] := fun h => hand ⟨hm1, h⟩
    obtain ⟨_, hml2, n2'⟩ := (normalForm_cons m2 r2).1 n2
    rw [add_poly_loop, if_pos hor, if_neg hand, if_pos hm1]
    apply ih h1 (fun e he => h2 e (List.mem_cons_of_mem _ he)) n1 n2'
    · exact push_mstack_end_nf st m2 hst (fun e he => g2 e he m2 (by simp))
    · intro e he m hm
      simp only [List.mem_singleton] at hm
      subst hm
      rw [hm1]
      apply cmp_term_nil_right
      rcases push_mstack_end_mem st m2 e he with h | h
      · have := g1 e h m (by simp)
        exact cmp_term_one_ne_nil _ _ this
      · rw [h]; exact hm2
    · intro e he m hm
      rcases push_mstack_end_mem st m2 e he with h | h
      · exact g2 e h m (List.mem_cons_of_mem _ hm)
      · rw [h]; exact hml2 m hm
  | case3 m1 r1 m2 r2 st hor hand hm1 ih =>
    have hm2 : m2.term = [] := by
      rcases hor with h | h
      · exact absurd h hm1
      · exact h
    have e2 := normalForm_const_last m2 r2 n2 hm2
    subst e2
    obtain ⟨_, hml1, n1'⟩ := (normalForm_cons m1 r1).1 n1
    rw [add_poly_loop, if_pos hor, if_neg hand, if_neg hm1]
    apply ih (fun e he => h1 e (List.mem_cons_of_mem _ he)) h2 n1' n2
    · exact push_mstack_end_nf st m1 hst (fun e he => g1 e he m1 (by simp))
    · intro e he m hm
      rcases push_mstack_end_mem st m1 e he with h | h
      · exact g1 e h m (List.mem_cons_of_mem _ hm)
      · rw [h]; exact hml1 m hm
    · intro e he m hm
      simp only [List.mem_singleton] at hm
      subst hm
      rw [hm2]
      apply cmp_term_nil_right
      rcases push_mstack_end_mem st m1 e he with h | h
      · have := g2 e h m (by simp)
        exact cmp_term_one_ne_nil _ _ this
      · rw [h]; exact hm1
  | case4 m1 r1 m2 r2 st hor hc ih =>
    obtain ⟨_, hml1, n1'⟩ := (normalForm_cons m1 r1).1 n1
    obtain ⟨_, hml2, _⟩ := (normalForm_cons m2 r2).1 n2
    rw [add_poly_loop, if_neg hor, if_pos hc]
    apply ih (fun e he => h1 e (List.mem_cons_of_mem _ he)) h2 n1' n2
    · exact push_mstack_end_nf st m1 hst (fun e he => g1 e he m1 (by simp))
    · intro e he m hm
      rcases push_mstack_end_mem st m1 e he with h | h
      · exact g1 e h m (List.mem_cons_of_mem _ hm)
      · rw [h]; exact hml1 m hm
    · intro e he m hm
      rcases push_mstack_end_mem st m1 e he with h | h
      · exact g2 e h m hm
      · rw [h]
        rcases List.mem_cons.1 hm with h' | h'
        · rw [h']; exact hc
        · exact cmp_term_trans _ _ _ hc (hml2 m h')
  | case5 m1 r1 m2 r2 st hor hc hc2 ih =>
    obtain ⟨_, hml1, _⟩ := (normalForm_cons m1 r1).1 n1
    obtain ⟨_, hml2, n2'⟩ := (normalForm_cons m2 r2).1 n2
    have hm2 : m2.term ≠ [] := fun h => hor (Or.inr h)
    have hflip := cmp_term_neg_flip _ _ hm2 hc2
    rw [add_poly_loop, if_neg hor, if_neg hc, if_pos hc2]
    apply ih h1 (fun e he => h2 e (List.mem_cons_of_mem _ he)) n1 n2'
    · exact push_mstack_end_nf st m2 hst (fun e he => g2 e he m2 (by simp))
    · intro e he m hm
      rcases push_mstack_end_mem st m2 e he with h | h
      · exact g1 e h m hm
      · rw [h]
        rcases List.mem_cons.1 hm with h' | h'
        · rw [h']; exact hflip
        · exact cmp_term_trans _ _ _ hflip (hml1 m h')
    · intro e he m hm
      rcases push_mstack_end_mem st m2 e he with h | h
      · exact g2 e h m (List.mem_cons_of_mem _ hm)
      · rw [h]; exact hml2 m hm
  | case6 m1 r1 m2 r2 st hor hc hc2 ih =>
    simp only [dite_eq_ite] at ih
    have hz : cmp_term m1.term m2.term = 0 := by
      rcases cmp_term_vals m1.term m2.term with h | h | h
      · exact absurd h hc
      · exact h
      · exact absurd h hc2
    have heq : m1.term = m2.term := hT _ _ (h1 m1 (by simp)) (h2 m2 (by simp)) hz
    obtain ⟨_, hml1, n1'⟩ := (normalForm_cons m1 r1).1 n1
    obtain ⟨_, hml2, n2'⟩ := (normalForm_cons m2 r2).1 n2
    rw [add_poly_loop, if_neg hor, if_neg hc, if_neg hc2]
    have key : ∀ e ∈ (if m1.coeff + m2.coeff ≠ 0 then
          push_mstack_end st { coeff := m1.coeff + m2.coeff, term := m1.term } else st),
        e ∈ st ∨ e.term = m1.term := by
      intro e he
      split_ifs at he with hs
      · rcases push_mstack_end_mem st _ e he with h | h
        · exact Or.inl h
        · right; rw [h]
      · exact Or.inl he
    apply ih (fun e he => h1 e (List.mem_cons_of_mem _ he))
      (fun e he => h2 e (List.mem_cons_of_mem _ he)) n1' n2'
    · split_ifs with hs
      · exact push_mstack_end_nf st _ hst (fun e he => g1 e he m1 (by simp))
      · exact hst
    · intro e he m hm
      rcases key e he with h | h
      · exact g1 e h m (List.mem_cons_of_mem _ hm)
      · rw [h]; exact hml1 m hm
    · intro e he m hm
      rcases key e he with h | h
      · exact g2 e h m (List.mem_cons_of_mem _ hm)
      · rw [h, heq]; exact hml2 m hm
  | case7 m1 r1 st =>
    rw [add_poly_loop]
    exact foldl_push_end_nf _ st n1 hst g1
  | case8 l2 st =>
    rw [add_poly_loop]
    exact foldl_push_end_nf _ st n2 hst g2

/-! ## Degrees, `build_poly` and `copy` -/

theorem build_poly_deg_fold (l : List Monomial) (d t : Nat) (h : t ≤ d) :
    (l.foldl
      (fun (acc : Nat × Nat) m =>
        ((if acc.1 < (if m.term ≠ [] then m.term.degree else acc.2)
            then (if m.term ≠ [] then m.term.degree else acc.2) else acc.1),
          (if m.term ≠ [] then m.term.degree else acc.2)))
      (d, t)).1 = max d (maxDegree l) := by
  induction l generalizing d t with
  | nil => simp [maxDegree]
  | cons m l ih =>
    rw [List.foldl_cons]
    by_cases hm : m.term = []
    · have e : maxDegree (m :: l) = maxDegree l := by simp [maxDegree, hm]
      simp only [hm, ne_eq, not_true_eq_false, if_false]
      rw [ih _ _ (by split_ifs <;> omega), e]
      split_ifs <;> omega
    · have e : maxDegree (m :: l) = max m.term.length (maxDegree l) := by simp [maxDegree]
      simp only [hm, ne_eq, not_false_eq_true, if_true]
      rw [ih _ _ (by split_ifs <;> omega), e]
      simp only [Term.degree]
      split_ifs <;> omega

theorem build_poly_deg_eq (l : List Monomial) : build_poly_deg l = maxDegree l := by
  have := build_poly_deg_fold l 0 0 (le_refl 0)
  simp only [build_poly_deg]
  rw [this]; simp

theorem build_poly_nf (st : MStack) (h : StackNF st) : PolyNF (build_poly st) := by
  by_cases hs : st = []
  · subst hs; simp [build_poly, PolyNF]
  · rw [build_poly_ne_nil st hs]
    simp only [PolyNF, Polynomial.WF]
    refine ⟨by simpa using hs, (stackNF_iff_reverse st).1 h, build_poly_deg_eq _⟩

theorem polyNF_ext (p q : Option Polynomial) (hp : PolyNF p) (hq : PolyNF q)
    (h : mons p = mons q) : p = q := by
  cases p with
  | none =>
    cases q with
    | none => rfl
    | some b =>
      simp only [mons] at h
      exact absurd h.symm hq.1
  | some a =>
    cases q with
    | none =>
      simp only [mons] at h
      exact absurd h hp.1
    | some b =>
      simp only [mons] at h
      have hd : a.deg = b.deg := by rw [hp.2.2, hq.2.2, h]
      cases a; cases b; simp_all

theorem copy_wf (a : Polynomial) (h : a.WF) : a.copy = .ok a := by
  simp only [Polynomial.copy]
  rw [foldl_push_end_eq _ _ h.2.1.1, List.append_nil,
    build_poly_ne_nil _ (by simpa using h.1)]
  simp only [List.reverse_reverse, deref]
  rw [build_poly_deg_eq, ← h.2.2]

theorem copy_ptr_wf (a : Polynomial) (h : a.WF) : copy_ptr (some a) = .ok (some a) := by
  simp only [copy_ptr, deref]
  rw [show (Except.ok a : Except Fault Polynomial) >>= (fun a => do
        let out ← a.copy; pure (some out)) = (do let out ← a.copy; pure (some out)) from rfl]
  rw [copy_wf a h]; rfl

/-! ## Coefficients of normal forms -/

theorem coeffAt_nil (t : Term) : coeffAt [] t = 0 := by simp [coeffAt]

theorem coeffAt_cons (m : Monomial) (l : List Monomial) (t : Term) :
    coeffAt (m :: l) t = (if m.term = t then m.coeff else 0) + coeffAt l t := by
  simp [coeffAt]

theorem coeffAt_eq_zero_of_not_mem (l : List Monomial) (t : Term)
    (h : ∀ m ∈ l, m.term ≠ t) : coeffAt l t = 0 := by
  induction l with
  | nil => exact coeffAt_nil t
  | cons m l ih =>
    rw [coeffAt_cons, if_neg (h m (by simp)), ih (fun x hx => h x (List.mem_cons_of_mem _ hx))]
    rfl

theorem exists_mem_of_coeffAt_ne_zero (l : List Monomial) (t : Term) (h : coeffAt l t ≠ 0) :
    ∃ m ∈ l, m.term = t := by
  by_contra hc
  push_neg at hc
  exact h (coeffAt_eq_zero_of_not_mem l t hc)

/-- In a normal form the coefficient at the term of a monomial is the
coefficient of that monomial. -/
theorem coeffAt_of_mem (l : List Monomial) (hl : NormalForm l) (m : Monomial) (hm : m ∈ l) :
    coeffAt l m.term = m.coeff := by
  induction l with
  | nil => simp at hm
  | cons x l ih =>
    obtain ⟨_, hxl, hl'⟩ := (normalForm_cons x l).1 hl
    rw [coeffAt_cons]
    rcases List.mem_cons.1 hm with h | h
    · subst h
      rw [if_pos rfl, coeffAt_eq_zero_of_not_mem]
      · ring
      · intro e he heq
        have := hxl e he
        rw [heq] at this
        exact cmp_term_self_ne_one _ this
    · have hne : x.term ≠ m.term := by
        intro heq
        have := hxl m h
        rw [heq] at this
        exact cmp_term_self_ne_one _ this
      rw [if_neg hne, ih hl' h]; ring

theorem coeffAt_ne_zero_of_mem (l : List Monomial) (hl : NormalForm l) (m : Monomial)
    (hm : m ∈ l) : coeffAt l m.term ≠ 0 := by
  rw [coeffAt_of_mem l hl m hm]; exact hl.1 m hm

/-- A normal form is determined by its coefficients. -/
theorem normalForm_unique (a b : List Monomial) (ha : NormalForm a) (hb : NormalForm b)
    (h : ∀ t, coeffAt a t = coeffAt b t) : a = b := by
  induction a generalizing b with
  | nil =>
    cases b with
    | nil => rfl
    | cons y b =>
      have := coeffAt_ne_zero_of_mem (y :: b) hb y (by simp)
      rw [← h, coeffAt_nil] at this
      exact absurd rfl this
  | cons x a ih =>
    cases b with
    | nil =>
      have := coeffAt_ne_zero_of_mem (x :: a) ha x (by simp)
      rw [h, coeffAt_nil] at this
      exact absurd rfl this
    | cons y b =>
      obtain ⟨_, hxa, ha'⟩ := (normalForm_cons x a).1 ha
      obtain ⟨_, hyb, hb'⟩ := (normalForm_cons y b).1 hb
      have hx := coeffAt_ne_zero_of_mem (x :: a) ha x (by simp)
      have hy := coeffAt_ne_zero_of_mem (y :: b) hb y (by simp)
      rw [h] at hx
      rw [← h] at hy
      obtain ⟨e, he, hex⟩ := exists_mem_of_coeffAt_ne_zero _ _ hx
      obtain ⟨f, hf, hfy⟩ := exists_mem_of_coeffAt_ne_zero _ _ hy
      have hterm : x.term = y.term := by
        rcases List.mem_cons.1 he with h1 | h1
        · rw [← hex, h1]
        · rcases List.mem_cons.1 hf with h2 | h2
          · rw [← hfy, h2]
          · have c1 := hyb e h1
            have c2 := hxa f h2
            rw [hex] at c1
            rw [hfy] at c2
            have := cmp_term_asymm _ _ c1
            rw [c2] at this
            exact absurd this (by decide)
      have hcoeff : x.coeff = y.coeff := by
        have e1 := coeffAt_of_mem (x :: a) ha x (by simp)
        have e2 := coeffAt_of_mem (y :: b) hb y (by simp)
        rw [← e1, ← e2, h, hterm]
      have hxy : x = y := by
        cases x; cases y; simp_all
      subst hxy
      congr 1
      apply ih b ha' hb'
      intro t
      have := h t
      rw [coeffAt_cons, coeffAt_cons] at this
      omega

/-! ## `add_poly` -/

theorem add_poly_some (T : Term → Prop) (hT : CmpFaithful T) (a b : Polynomial)
    (ha : a.WF) (hb : b.WF) (hTa : TermsIn T a.mon) (hTb : TermsIn T b.mon) :
    add_poly (some a) (some b) = .ok (build_poly (add_poly_loop a.mon b.mon [])) ∧
    PolyNF (build_poly (add_poly_loop a.mon b.mon [])) ∧
    ∀ g, lin g (mons (build_poly (add_poly_loop a.mon b.mon []))) = lin g a.mon + lin g b.mon := by
  refine ⟨rfl, ?_, ?_⟩
  · apply build_poly_nf
    exact add_poly_loop_nf T hT _ _ _ hTa hTb ha.2.1 hb.2.1 stackNF_nil
      (fun e he => by simp at he) (fun e he => by simp at he)
  · intro g
    rw [mons_build_poly, lin_reverse, add_poly_loop_lin T hT g _ _ _ hTa hTb, lin_nil]
    ring

/-- What `add_poly` does on normal-form operands that are not both the null
pointer: it returns a normal-form polynomial whose image under every linear
functional is the sum of the images of the operands. -/
theorem add_poly_spec (T : Term → Prop) (hT : CmpFaithful T) (p q : Option Polynomial)
    (hp : PolyNF p) (hq : PolyNF q) (hTp : TermsIn T (mons p)) (hTq : TermsIn T (mons q))
    (hne : p ≠ none ∨ q ≠ none) :
    ∃ r, add_poly p q = .ok r ∧ PolyNF r ∧
      ∀ g, lin g (mons r) = lin g (mons p) + lin g (mons q) := by
  cases p with
  | none =>
    cases q with
    | none => simp at hne
    | some b =>
      refine ⟨some b, ?_, hq, ?_⟩
      · simp only [add_poly]; exact copy_ptr_wf b hq
      · intro g; simp [mons, lin]
  | some a =>
    cases q with
    | none =>
      refine ⟨some a, ?_, hp, ?_⟩
      · simp only [add_poly]; exact copy_ptr_wf a hp
      · intro g; simp [mons, lin]
    | some b =>
      obtain ⟨h1, h2, h3⟩ := add_poly_some T hT a b hp hq hTp hTq
      exact ⟨_, h1, h2, h3⟩

/-! ## `multiply_poly_with_constant` and `sub_poly` -/

theorem scaleMons_nf (c : Int) (hc : c ≠ 0) (l : List Monomial) (hl : NormalForm l) :
    NormalForm (scaleMons c l) := by
  induction l with
  | nil => simp [scaleMons, NormalForm]
  | cons m l ih =>
    obtain ⟨hm, hml, hl'⟩ := (normalForm_cons m l).1 hl
    have : scaleMons c (m :: l) = { coeff := m.coeff * c, term := m.term } :: scaleMons c l := rfl
    rw [this, normalForm_cons]
    refine ⟨mul_ne_zero hm hc, ?_, ih hl'⟩
    intro e he
    simp only [scaleMons, List.mem_map] at he
    obtain ⟨x, hx, rfl⟩ := he
    exact hml x hx

theorem scaleMons_lin (c : Int) (g : Term → Int) (l : List Monomial) :
    lin g (scaleMons c l) = c * lin g l := by
  induction l with
  | nil => simp [scaleMons, lin]
  | cons m l ih =>
    have : scaleMons c (m :: l) = { coeff := m.coeff * c, term := m.term } :: scaleMons c l := rfl
    rw [this, lin_cons, lin_cons, ih]; simp only; ring

theorem scaleMons_termsIn (T : Term → Prop) (c : Int) (l : List Monomial) (h : TermsIn T l) :
    TermsIn T (scaleMons c l) := by
  intro e he
  simp only [scaleMons, List.mem_map] at he
  obtain ⟨x, hx, rfl⟩ := he
  exact h x hx

theorem maxDegree_scaleMons (c : Int) (l : List Monomial) :
    maxDegree (scaleMons c l) = maxDegree l := by
  simp only [maxDegree, scaleMons, List.map_map]
  rfl

/-- On a well-formed polynomial and a non-zero constant,
`multiply_poly_with_constant` returns the polynomial with every coefficient
multiplied by the constant. -/
theorem multiply_poly_with_constant_wf (a : Polynomial) (c : Int) (ha : a.WF) (hc : c ≠ 0) :
    multiply_poly_with_constant (some a) c
      = .ok (some { mon := scaleMons c a.mon, deg := a.deg }) ∧
    Polynomial.WF { mon := scaleMons c a.mon, deg := a.deg } := by
  have hnf := scaleMons_nf c hc a.mon ha.2.1
  have hne : scaleMons c a.mon ≠ [] := by
    simp only [scaleMons, ne_eq, List.map_eq_nil_iff]; exact ha.1
  constructor
  · simp only [multiply_poly_with_constant, if_neg hc, deref]
    have e1 : a.mon.foldl (fun st m => push_mstack_end st { coeff := m.coeff * c, term := m.term })
        [] = (scaleMons c a.mon).foldl push_mstack_end [] := by
      simp only [scaleMons, List.foldl_map]
    show Except.ok (build_poly _) = _
    rw [e1, foldl_push_end_eq _ _ hnf.1, List.append_nil,
      build_poly_ne_nil _ (by simpa using hne)]
    simp only [List.reverse_reverse]
    rw [build_poly_deg_eq, maxDegree_scaleMons, ← ha.2.2]
  · exact ⟨hne, hnf, by simp only; rw [maxDegree_scaleMons]; exact ha.2.2⟩

/-- On well-formed operands `sub_poly(p1, p2)` returns a normal-form polynomial
whose image under every linear functional is the image of `p1` minus the image
of `p2`. -/
theorem sub_poly_spec (T : Term → Prop) (hT : CmpFaithful T) (a b : Polynomial)
    (ha : a.WF) (hb : b.WF) (hTa : TermsIn T a.mon) (hTb : TermsIn T b.mon) :
    ∃ r, sub_poly (some a) (some b) = .ok r ∧ PolyNF r ∧
      ∀ g, lin g (mons r) = lin g a.mon - lin g b.mon := by
  obtain ⟨e1, w1⟩ := multiply_poly_with_constant_wf b (-1) hb (by decide)
  have hTs : TermsIn T (scaleMons (-1) b.mon) := scaleMons_termsIn T _ _ hTb
  obtain ⟨r, hr, hnf, hlin⟩ := add_poly_spec T hT
    (some { mon := scaleMons (-1) b.mon, deg := b.deg }) (some a) w1 ha hTs hTa (Or.inl (by simp))
  refine ⟨r, ?_, hnf, ?_⟩
  · simp only [sub_poly]
    rw [e1]
    exact hr
  · intro g
    rw [hlin g]
    simp only [mons]
    rw [scaleMons_lin]; ring

/-! ## `substitute_linear_poly` -/

theorem ok_bind {α β : Type} (x : α) (f : α → Except Fault β) :
    (Except.ok x >>= f) = f x := rfl

/-- A well-formed polynomial of degree 1 starts with a non-constant monomial. -/
theorem wf_deg_one_lead (a : Polynomial) (ha : a.WF) (hd : a.deg = 1) :
    ∃ m rest, a.mon = m :: rest ∧ m.term ≠ [] := by
  obtain ⟨hne, hnf, hdeg⟩ := ha
  cases hm : a.mon with
  | nil => exact absurd hm hne
  | cons m rest =>
    refine ⟨m, rest, rfl, ?_⟩
    intro ht
    rw [hm] at hnf
    have hr := normalForm_const_last m rest hnf ht
    rw [hd, hm, hr] at hdeg
    simp [maxDegree, ht] at hdeg

theorem leadTerm_cons (a : Polynomial) (m : Monomial) (rest : List Monomial)
    (h : a.mon = m :: rest) : leadTerm a = m.term := by simp [leadTerm, h]

theorem leadCoeff_cons (a : Polynomial) (m : Monomial) (rest : List Monomial)
    (h : a.mon = m :: rest) : leadCoeff a = m.coeff := by simp [leadCoeff, h]

/-- The search loop finds the first monomial that carries the leading term of
`p2`. -/
theorem substitute_search_spec (T : Term → Prop) (hT : CmpFaithful T) (q : Polynomial)
    (qm : Monomial) (qrest : List Monomial) (hq : q.mon = qm :: qrest) (hqt : qm.term ≠ [])
    (hTq : T qm.term) (l : List Monomial) (hl : NormalForm l) (hTl : TermsIn T l) :
    substitute_search (some q) l = .ok (l.find? (fun m => decide (m.term = qm.term))) := by
  induction l with
  | nil => rfl
  | cons m rest ih =>
    obtain ⟨_, hml, hl'⟩ := (normalForm_cons m rest).1 hl
    have ih' := ih hl' (fun e he => hTl e (List.mem_cons_of_mem _ he))
    by_cases hm : m.term = []
    · have hne : ¬ m.term = qm.term := by rw [hm]; exact fun h => hqt h.symm
      simp only [substitute_search, hm, if_true]
      rw [ih', List.find?_cons_of_neg _ (by simpa [hm] using hne)]
    · simp only [substitute_search, hm, if_false, deref, Polynomial.get_lt, hq, ok_bind]
      rcases cmp_term_vals m.term qm.term with h | h | h
      · have hne : ¬ m.term = qm.term := by
          intro e; rw [e] at h; exact cmp_term_self_ne_one _ h
        rw [if_neg (by rw [h]; decide), if_neg (by rw [h]; decide), ih',
          List.find?_cons_of_neg _ (by simpa using hne)]
      · have heq : m.term = qm.term := hT _ _ (hTl m (by simp)) hTq h
        rw [if_pos h, List.find?_cons_of_pos _ (by simpa using heq)]
        rfl
      · have hne : ¬ m.term = qm.term := by
          intro e; rw [e, cmp_term_self _ hqt] at h; exact absurd h (by decide)
        rw [if_neg (by rw [h]; decide), if_pos h, List.find?_cons_of_neg _ (by simpa using hne)]
        have hnone : rest.find? (fun m => decide (m.term = qm.term)) = none := by
          rw [List.find?_eq_none]
          intro e he
          simp only [decide_eq_true_eq]
          intro heq
          have := hml e he
          rw [heq, h] at this
          exact absurd this (by decide)
        rw [hnone]; rfl

/-- The body of `substitute_linear_poly` once the search loop has run. -/
theorem substitute_linear_poly_eval (p q : Polynomial) (qm : Monomial)
    (qrest : List Monomial) (hq : q.mon = qm :: qrest) (found : Option Monomial)
    (hs : substitute_search (some q) p.mon = .ok found) :
    substitute_linear_poly (some p) (some q) =
      match found with
      | none => copy_ptr (some p)
      | some m =>
        if m.coeff = qm.coeff then sub_poly (some p) (some q)
        else if qm.coeff = 0 then .error .divByZero
        else if Int.tmod m.coeff qm.coeff ≠ 0 then .error (.die 1 "cannot use p2 to reduce p1")
        else (multiply_poly_with_constant (some q) (Int.tdiv m.coeff qm.coeff) >>=
          fun p2_lift => sub_poly (some p) p2_lift) := by
  simp only [substitute_linear_poly, deref, ok_bind, hs]
  cases found with
  | none => rfl
  | some m => simp only [Polynomial.get_lm, hq, ok_bind]

theorem normalForm_mem_unique (l : List Monomial) (hl : NormalForm l) (m e : Monomial)
    (hm : m ∈ l) (he : e ∈ l) (h : m.term = e.term) : m = e := by
  have h1 := coeffAt_of_mem l hl m hm
  have h2 := coeffAt_of_mem l hl e he
  rw [h] at h1
  have : m.coeff = e.coeff := by rw [← h1, h2]
  cases m; cases e; simp_all

theorem termsIn_left (p q : List Monomial) :
    TermsIn (fun t => ∀ v ∈ t, v ∈ varsOf p ++ varsOf q) p :=
  termsIn_of_varsOf _ p (fun v hv => by simp [hv])

theorem termsIn_right (p q : List Monomial) :
    TermsIn (fun t => ∀ v ∈ t, v ∈ varsOf p ++ varsOf q) q :=
  termsIn_of_varsOf _ q (fun v hv => by simp [hv])

/-- The search of `substitute_linear_poly` on well-formed operands, `p2` of
degree 1. -/
theorem substitute_search_wf (p q : Polynomial) (hp : p.WF) (hq : q.WF) (hdq : q.deg = 1)
    (hd : LevelsDistinct (varsOf p.mon ++ varsOf q.mon)) :
    substitute_search (some q) p.mon
      = .ok (p.mon.find? (fun m => decide (m.term = leadTerm q))) := by
  obtain ⟨qm, qrest, hqm, hqt⟩ := wf_deg_one_lead q hq hdq
  rw [leadTerm_cons q qm qrest hqm]
  exact substitute_search_spec _ (cmpFaithful_of_levels _ hd) q qm qrest hqm hqt
    (termsIn_right p.mon q.mon qm (by rw [hqm]; simp)) p.mon hp.2.1 (termsIn_left p.mon q.mon)

theorem find_of_mem (p q : Polynomial) (hp : p.WF) (m : Monomial) (hm : m ∈ p.mon)
    (hmt : m.term = leadTerm q) :
    p.mon.find? (fun m => decide (m.term = leadTerm q)) = some m := by
  cases hf : p.mon.find? (fun m => decide (m.term = leadTerm q)) with
  | none =>
    rw [List.find?_eq_none] at hf
    have := hf m hm
    simp [hmt] at this
  | some e =>
    have h1 := List.find?_some hf
    have h2 := List.mem_of_find?_eq_some hf
    simp only [decide_eq_true_eq] at h1
    rw [normalForm_mem_unique p.mon hp.2.1 m e hm h2 (by rw [hmt, h1])]

/-- When no monomial of `p1` carries the leading term of `p2`, the result is
`p1`. -/
theorem substitute_not_found (p q : Polynomial) (hp : p.WF) (hq : q.WF) (hdq : q.deg = 1)
    (hd : LevelsDistinct (varsOf p.mon ++ varsOf q.mon))
    (h : ∀ m ∈ p.mon, m.term ≠ leadTerm q) :
    substitute_linear_poly (some p) (some q) = .ok (some p) := by
  obtain ⟨qm, qrest, hqm, _⟩ := wf_deg_one_lead q hq hdq
  have hs := substitute_search_wf p q hp hq hdq hd
  have hnone : p.mon.find? (fun m => decide (m.term = leadTerm q)) = none := by
    rw [List.find?_eq_none]
    intro e he
    simpa using h e he
  rw [hnone] at hs
  rw [substitute_linear_poly_eval p q qm qrest hqm none hs]
  exact copy_ptr_wf p hp

/-- When `p1` has the monomial `c * LT(p2)` and `c = k * d` for the leading
coefficient `d` of `p2`, the result is the normal form of `p1 - k * p2`. -/
theorem substitute_found (p q : Polynomial) (hp : p.WF) (hq : q.WF) (hdq : q.deg = 1)
    (hd : LevelsDistinct (varsOf p.mon ++ varsOf q.mon)) (m : Monomial) (hm : m ∈ p.mon)
    (hmt : m.term = leadTerm q) (k : Int) (hk : m.coeff = k * leadCoeff q) :
    ∃ r, substitute_linear_poly (some p) (some q) = .ok r ∧ PolyNF r ∧
      ∀ g, lin g (mons r) = lin g p.mon - k * lin g q.mon := by
  obtain ⟨qm, qrest, hqm, _⟩ := wf_deg_one_lead q hq hdq
  have hT := cmpFaithful_of_levels _ hd
  have hTp := termsIn_left p.mon q.mon
  have hTq := termsIn_right p.mon q.mon
  have hs := substitute_search_wf p q hp hq hdq hd
  rw [find_of_mem p q hp m hm hmt] at hs
  rw [substitute_linear_poly_eval p q qm qrest hqm (some m) hs]
  rw [leadCoeff_cons q qm qrest hqm] at hk
  have hq0 : qm.coeff ≠ 0 := hq.2.1.1 qm (by rw [hqm]; simp)
  have hm0 : m.coeff ≠ 0 := hp.2.1.1 m hm
  simp only
  by_cases hc : m.coeff = qm.coeff
  · rw [if_pos hc]
    have hk1 : k = 1 := by
      rw [hc] at hk
      have : (k - 1) * qm.coeff = 0 := by linarith
      rcases mul_eq_zero.1 this with h | h
      · omega
      · exact absurd h hq0
    obtain ⟨r, hr, hnf, hlin⟩ := sub_poly_spec _ hT p q hp hq hTp hTq
    exact ⟨r, hr, hnf, fun g => by rw [hlin g, hk1]; ring⟩
  · rw [if_neg hc, if_neg hq0]
    have hmod : Int.tmod m.coeff qm.coeff = 0 := by rw [hk]; exact Int.mul_tmod_left k qm.coeff
    have hdiv : Int.tdiv m.coeff qm.coeff = k := by rw [hk]; exact Int.mul_tdiv_cancel k hq0
    have hk0 : k ≠ 0 := by
      intro h; rw [h] at hk; simp at hk; exact hm0 hk
    rw [if_neg (by simpa using hmod), hdiv]
    obtain ⟨e1, w1⟩ := multiply_poly_with_constant_wf q k hq hk0
    rw [e1, ok_bind]
    obtain ⟨r, hr, hnf, hlin⟩ := sub_poly_spec _ hT p { mon := scaleMons k q.mon, deg := q.deg }
      hp w1 hTp (scaleMons_termsIn _ k q.mon hTq)
    refine ⟨r, hr, hnf, fun g => ?_⟩
    rw [hlin g]
    simp only
    rw [scaleMons_lin]

/-- When `p1` has the monomial `c * LT(p2)` and the truncated remainder of `c`
by the leading coefficient of `p2` is not zero, the call ends in the fatal
error. -/
theorem substitute_die (p q : Polynomial) (hp : p.WF) (hq : q.WF) (hdq : q.deg = 1)
    (hd : LevelsDistinct (varsOf p.mon ++ varsOf q.mon)) (m : Monomial) (hm : m ∈ p.mon)
    (hmt : m.term = leadTerm q) (hr : Int.tmod m.coeff (leadCoeff q) ≠ 0) :
    substitute_linear_poly (some p) (some q)
      = .error (.die 1 "cannot use p2 to reduce p1") := by
  obtain ⟨qm, qrest, hqm, _⟩ := wf_deg_one_lead q hq hdq
  have hs := substitute_search_wf p q hp hq hdq hd
  rw [find_of_mem p q hp m hm hmt] at hs
  rw [substitute_linear_poly_eval p q qm qrest hqm (some m) hs]
  rw [leadCoeff_cons q qm qrest hqm] at hr
  have hq0 : qm.coeff ≠ 0 := hq.2.1.1 qm (by rw [hqm]; simp)
  have hc : m.coeff ≠ qm.coeff := by
    intro h; rw [h] at hr; simp at hr
  simp only
  rw [if_neg hc, if_neg hq0, if_pos hr]

/-- C6: for well-formed `p` and well-formed `q` of degree 1 (levels identifying
the variables), `substitute_linear_poly(p, q)` ends in the fatal error "cannot
use p2 to reduce p1" exactly when `p` has a monomial `c * LT(q)` whose
coefficient differs from the leading coefficient `d` of `q` and whose truncated
remainder by `d` is not zero; in every other case it returns a normal-form
polynomial. -/
theorem substitute_linear_poly_abort_iff (p q : Polynomial) (hp : p.WF) (hq : q.WF)
    (hdq : q.deg = 1) (hd : LevelsDistinct (varsOf p.mon ++ varsOf q.mon)) :
    (substitute_linear_poly (some p) (some q) = .error (.die 1 "cannot use p2 to reduce p1") ↔
      ∃ m ∈ p.mon, m.term = leadTerm q ∧ m.coeff ≠ leadCoeff q ∧
        Int.tmod m.coeff (leadCoeff q) ≠ 0) ∧
    ((¬ ∃ m ∈ p.mon, m.term = leadTerm q ∧ m.coeff ≠ leadCoeff q ∧
        Int.tmod m.coeff (leadCoeff q) ≠ 0) →
      ∃ r, substitute_linear_poly (some p) (some q) = .ok r ∧ PolyNF r) := by
  by_cases hex : ∃ m ∈ p.mon, m.term = leadTerm q
  · obtain ⟨m, hm, hmt⟩ := hex
    by_cases hmod : Int.tmod m.coeff (leadCoeff q) = 0
    · have hk : m.coeff = Int.tdiv m.coeff (leadCoeff q) * leadCoeff q :=
        (Int.tdiv_mul_cancel_of_tmod_eq_zero hmod).symm
      obtain ⟨r, hr, hnf, _⟩ := substitute_found p q hp hq hdq hd m hm hmt _ hk
      have hno : ¬ ∃ e ∈ p.mon, e.term = leadTerm q ∧ e.coeff ≠ leadCoeff q ∧
          Int.tmod e.coeff (leadCoeff q) ≠ 0 := by
        rintro ⟨e, he, het, _, hemod⟩
        have := normalForm_mem_unique p.mon hp.2.1 m e hm he (by rw [hmt, het])
        rw [← this] at hemod
        exact hemod hmod
      refine ⟨⟨fun h => ?_, fun h => absurd h hno⟩, fun _ => ⟨r, hr, hnf⟩⟩
      rw [hr] at h
      cases h
    · have hdie := substitute_die p q hp hq hdq hd m hm hmt hmod
      have hyes : ∃ e ∈ p.mon, e.term = leadTerm q ∧ e.coeff ≠ leadCoeff q ∧
          Int.tmod e.coeff (leadCoeff q) ≠ 0 := by
        refine ⟨m, hm, hmt, ?_, hmod⟩
        intro h; rw [h] at hmod; simp at hmod
      exact ⟨⟨fun _ => hyes, fun _ => hdie⟩, fun h => absurd hyes h⟩
  · have hnot : ∀ m ∈ p.mon, m.term ≠ leadTerm q := fun m hm hmt => hex ⟨m, hm, hmt⟩
    have hr := substitute_not_found p q hp hq hdq hd hnot
    have hno : ¬ ∃ e ∈ p.mon, e.term = leadTerm q ∧ e.coeff ≠ leadCoeff q ∧
        Int.tmod e.coeff (leadCoeff q) ≠ 0 := by
      rintro ⟨e, he, het, _, _⟩
      exact hnot e he het
    refine ⟨⟨fun h => ?_, fun h => absurd h hno⟩, fun _ => ⟨some p, hr, hp⟩⟩
    rw [hr] at h
    cases h

/-- C6 witness: `3*z + x` cannot be reduced by `2*z + x + 1`. -/
theorem substitute_linear_poly_abort_iff_witness :
    Polynomial.WF ⟨[⟨3, [⟨6, 6, false⟩]⟩, ⟨1, [⟨2, 2, false⟩]⟩], 1⟩ ∧
    Polynomial.WF ⟨[⟨2, [⟨6, 6, false⟩]⟩, ⟨1, [⟨2, 2, false⟩]⟩, ⟨1, []⟩], 1⟩ ∧
    (substitute_linear_poly
        (some ⟨[⟨3, [⟨6, 6, false⟩]⟩, ⟨1, [⟨2, 2, false⟩]⟩], 1⟩)
        (some ⟨[⟨2, [⟨6, 6, false⟩]⟩, ⟨1, [⟨2, 2, false⟩]⟩, ⟨1, []⟩], 1⟩)
      = .error (.die 1 "cannot use p2 to reduce p1")) :=
  ⟨by decide, by decide,
    (substitute_linear_poly_abort_iff
      ⟨[⟨3, [⟨6, 6, false⟩]⟩, ⟨1, [⟨2, 2, false⟩]⟩], 1⟩
      ⟨[⟨2, [⟨6, 6, false⟩]⟩, ⟨1, [⟨2, 2, false⟩]⟩, ⟨1, []⟩], 1⟩
      (by decide) (by decide) rfl (by decide)).1.2
      ⟨⟨3, [⟨6, 6, false⟩]⟩, by decide, by decide, by decide, by decide⟩⟩

/-- The result of `substitute_linear_poly` when `p1` has the monomial
`c * LT(p2)` with `c = k * d`: coefficients, value and absence of `LT(p2)`. -/
theorem substitute_found_full (p q : Polynomial) (hp : p.WF) (hq : q.WF)
    (hdq : q.deg = 1) (hd : LevelsDistinct (varsOf p.mon ++ varsOf q.mon)) (m : Monomial)
    (hm : m ∈ p.mon) (k : Int) (hmt : m.term = leadTerm q) (hk : m.coeff = k * leadCoeff q) :
    ∃ r, substitute_linear_poly (some p) (some q) = .ok r ∧ PolyNF r ∧
      (∀ t, coeffAt (mons r) t = coeffAt p.mon t - k * coeffAt q.mon t) ∧
      (∀ σ, evalPoly σ r = evalPoly σ (some p) - k * evalPoly σ (some q)) ∧
      (∀ e ∈ mons r, e.term ≠ leadTerm q) := by
  obtain ⟨r, hr, hnf, hlin⟩ := substitute_found p q hp hq hdq hd m hm hmt k hk
  have hcoef : ∀ t, coeffAt (mons r) t = coeffAt p.mon t - k * coeffAt q.mon t := by
    intro t
    rw [coeffAt_eq_lin, coeffAt_eq_lin, coeffAt_eq_lin, hlin]
  refine ⟨r, hr, hnf, hcoef, ?_, ?_⟩
  · intro σ
    simp only [evalPoly, evalMons_eq_lin, mons]
    exact hlin _
  · intro e he het
    obtain ⟨qm, qrest, hqm, _⟩ := wf_deg_one_lead q hq hdq
    have hrnf : NormalForm (mons r) := by
      cases r with
      | none => exact normalForm_nil
      | some a => exact hnf.2.1
    have h1 := coeffAt_of_mem (mons r) hrnf e he
    have h2 := coeffAt_of_mem p.mon hp.2.1 m hm
    have h3 := coeffAt_of_mem q.mon hq.2.1 qm (by rw [hqm]; simp)
    rw [het, hcoef] at h1
    rw [hmt] at h2
    rw [← leadTerm_cons q qm qrest hqm] at h3
    rw [h2, h3, hk, leadCoeff_cons q qm qrest hqm] at h1
    have : e.coeff = 0 := by rw [← h1]; ring
    exact hrnf.1 e he this

/-- C5: for well-formed `p` and well-formed `q` of degree 1 (levels identifying
the variables): if no monomial of `p` carries `LT(q)`, `substitute_linear_poly`
returns `p` unchanged; if `p` has the monomial `c * LT(q)` and `c = k * d` for
the leading coefficient `d` of `q`, it returns the normal form of `p - k * q`
(coefficient by coefficient, hence also in value), which has no monomial with
term `LT(q)`. -/
theorem substitute_linear_poly_result (p q : Polynomial) (hp : p.WF) (hq : q.WF)
    (hdq : q.deg = 1) (hd : LevelsDistinct (varsOf p.mon ++ varsOf q.mon)) :
    ((∀ m ∈ p.mon, m.term ≠ leadTerm q) →
      substitute_linear_poly (some p) (some q) = .ok (some p)) ∧
    (∀ m ∈ p.mon, ∀ k : Int, m.term = leadTerm q → m.coeff = k * leadCoeff q →
      ∃ r, substitute_linear_poly (some p) (some q) = .ok r ∧ PolyNF r ∧
        (∀ t, coeffAt (mons r) t = coeffAt p.mon t - k * coeffAt q.mon t) ∧
        (∀ σ, evalPoly σ r = evalPoly σ (some p) - k * evalPoly σ (some q)) ∧
        (∀ e ∈ mons r, e.term ≠ leadTerm q)) :=
  ⟨substitute_not_found p q hp hq hdq hd,
    fun m hm k hmt hk => substitute_found_full p q hp hq hdq hd m hm k hmt hk⟩

/-- C5 witness: `4*z + x` reduced by `2*z + x + 1` (here `k = 2`). -/
theorem substitute_linear_poly_result_witness :
    Polynomial.WF ⟨[⟨4, [⟨6, 6, false⟩]⟩, ⟨1, [⟨2, 2, false⟩]⟩], 1⟩ ∧
    Polynomial.WF ⟨[⟨2, [⟨6, 6, false⟩]⟩, ⟨1, [⟨2, 2, false⟩]⟩, ⟨1, []⟩], 1⟩ ∧
    ∃ r, substitute_linear_poly
        (some ⟨[⟨4, [⟨6, 6, false⟩]⟩, ⟨1, [⟨2, 2, false⟩]⟩], 1⟩)
        (some ⟨[⟨2, [⟨6, 6, false⟩]⟩, ⟨1, [⟨2, 2, false⟩]⟩, ⟨1, []⟩], 1⟩) = .ok r ∧
      PolyNF r ∧ ∀ e ∈ mons r, e.term ≠ [⟨6, 6, false⟩] :=
  ⟨by decide, by decide,
    let h := (substitute_linear_poly_result
      ⟨[⟨4, [⟨6, 6, false⟩]⟩, ⟨1, [⟨2, 2, false⟩]⟩], 1⟩
      ⟨[⟨2, [⟨6, 6, false⟩]⟩, ⟨1, [⟨2, 2, false⟩]⟩, ⟨1, []⟩], 1⟩
      (by decide) (by decide) rfl (by decide)).2
      ⟨4, [⟨6, 6, false⟩]⟩ (by decide) 2 (by decide) (by decide)
    ⟨h.choose, h.choose_spec.1, h.choose_spec.2.1, h.choose_spec.2.2.2.2⟩⟩

/-- C4 counterexample: `p = 4*z + 2*x` and `q = 2*x + 1` are well-formed of
degree 1, `substitute_linear_poly(p, q)` returns `4*z - 1` without aborting,
which is not zero and has the same leading term `z` as `p` (the comparison of
the two leading terms is 0, not -1). -/
theorem substitute_linear_poly_lt_counterexample :
    Polynomial.WF ⟨[⟨4, [⟨6, 6, false⟩]⟩, ⟨2, [⟨2, 2, false⟩]⟩], 1⟩ ∧
    Polynomial.WF ⟨[⟨2, [⟨2, 2, false⟩]⟩, ⟨1, []⟩], 1⟩ ∧
    substitute_linear_poly
        (some ⟨[⟨4, [⟨6, 6, false⟩]⟩, ⟨2, [⟨2, 2, false⟩]⟩], 1⟩)
        (some ⟨[⟨2, [⟨2, 2, false⟩]⟩, ⟨1, []⟩], 1⟩)
      = .ok (some ⟨[⟨4, [⟨6, 6, false⟩]⟩, ⟨-1, []⟩], 1⟩) ∧
    cmp_term (leadTerm ⟨[⟨4, [⟨6, 6, false⟩]⟩, ⟨-1, []⟩], 1⟩)
        (leadTerm ⟨[⟨4, [⟨6, 6, false⟩]⟩, ⟨2, [⟨2, 2, false⟩]⟩], 1⟩) = 0 := by
  refine ⟨by decide, by decide, ?_, by decide⟩
  simp [substitute_linear_poly, deref, substitute_search, Polynomial.get_lt, Polynomial.get_lm,
    cmp_term, cmp_term_loop, sub_poly, multiply_poly_with_constant, push_mstack_end, build_poly,
    build_poly_deg, add_poly, add_poly_loop, Term.degree, bind, Except.bind, pure, Except.pure]

/-- C4 (amended): for well-formed `p` and well-formed `q` of degree 1 with the
same leading term (levels identifying the variables), whenever
`substitute_linear_poly(p, q)` returns, the result is the zero polynomial or
its leading term is strictly smaller than the leading term of `p` in
`cmp_term` order. -/
theorem substitute_linear_poly_lt_decreases (p q : Polynomial) (hp : p.WF) (hq : q.WF)
    (hdq : q.deg = 1) (hd : LevelsDistinct (varsOf p.mon ++ varsOf q.mon))
    (hlt : leadTerm p = leadTerm q) (r : Option Polynomial)
    (hr : substitute_linear_poly (some p) (some q) = .ok r) :
    r = none ∨ ∃ a, r = some a ∧ cmp_term (leadTerm a) (leadTerm p) = -1 := by
  obtain ⟨qm, qrest, hqm, hqt⟩ := wf_deg_one_lead q hq hdq
  cases hpm : p.mon with
  | nil => exact absurd hpm hp.1
  | cons pm prest =>
    have hpt : pm.term = leadTerm q := by rw [← hlt, leadTerm_cons p pm prest hpm]
    have hpmem : pm ∈ p.mon := by rw [hpm]; simp
    by_cases hmod : Int.tmod pm.coeff (leadCoeff q) = 0
    · have hk : pm.coeff = Int.tdiv pm.coeff (leadCoeff q) * leadCoeff q :=
        (Int.tdiv_mul_cancel_of_tmod_eq_zero hmod).symm
      obtain ⟨r', hr', hnf, hcoef, -, hno⟩ :=
        substitute_found_full p q hp hq hdq hd pm hpmem _ hpt hk
      rw [hr] at hr'
      cases hr'
      cases r with
      | none => exact Or.inl rfl
      | some a =>
        right
        refine ⟨a, rfl, ?_⟩
        cases ham : a.mon with
        | nil => exact absurd ham hnf.1
        | cons h arest =>
          rw [leadTerm_cons a h arest ham, leadTerm_cons p pm prest hpm]
          have hmem : h ∈ mons (some a) := by simp [mons, ham]
          have hne : h.term ≠ pm.term := by rw [hpt]; exact hno h hmem
          by_cases hc : h.term = []
          · rw [hc]; exact cmp_term_nil_left _
          · have h1 := coeffAt_ne_zero_of_mem (mons (some a)) hnf.2.1 h hmem
            rw [hcoef] at h1
            have hor : coeffAt p.mon h.term ≠ 0 ∨ coeffAt q.mon h.term ≠ 0 := by
              by_contra hcon
              push_neg at hcon
              rw [hcon.1, hcon.2] at h1
              simp at h1
            rcases hor with h2 | h2
            · obtain ⟨e, he, het⟩ := exists_mem_of_coeffAt_ne_zero _ _ h2
              have hpnf := hp.2.1
              rw [hpm] at hpnf he
              rcases List.mem_cons.1 he with h3 | h3
              · rw [h3] at het; exact absurd het.symm hne
              · have := ((normalForm_cons pm prest).1 hpnf).2.1 e h3
                rw [het] at this
                exact cmp_term_asymm _ _ this
            · obtain ⟨e, he, het⟩ := exists_mem_of_coeffAt_ne_zero _ _ h2
              have hqnf := hq.2.1
              rw [hqm] at he hqnf
              rw [leadTerm_cons q qm qrest hqm] at hpt
              rcases List.mem_cons.1 he with h3 | h3
              · rw [h3, ← hpt] at het; exact absurd het.symm hne
              · have := ((normalForm_cons qm qrest).1 hqnf).2.1 e h3
                rw [het, ← hpt] at this
                exact cmp_term_asymm _ _ this
    · rw [substitute_die p q hp hq hdq hd pm hpmem hpt hmod] at hr
      cases hr

/-- C4 (amended) witness: `4*z + x` reduced by `2*z + x + 1` gives `-x - 2`. -/
theorem substitute_linear_poly_lt_decreases_witness :
    Polynomial.WF ⟨[⟨4, [⟨6, 6, false⟩]⟩, ⟨1, [⟨2, 2, false⟩]⟩], 1⟩ ∧
    Polynomial.WF ⟨[⟨2, [⟨6, 6, false⟩]⟩, ⟨1, [⟨2, 2, false⟩]⟩, ⟨1, []⟩], 1⟩ ∧
    ((some ⟨[⟨-1, [⟨2, 2, false⟩]⟩, ⟨-2, []⟩], 1⟩ : Option Polynomial) = none ∨
      ∃ a, (some ⟨[⟨-1, [⟨2, 2, false⟩]⟩, ⟨-2, []⟩], 1⟩ : Option Polynomial) = some a ∧
        cmp_term (leadTerm a)
          (leadTerm ⟨[⟨4, [⟨6, 6, false⟩]⟩, ⟨1, [⟨2, 2, false⟩]⟩], 1⟩) = -1) :=
  ⟨by decide, by decide,
    substitute_linear_poly_lt_decreases
      ⟨[⟨4, [⟨6, 6, false⟩]⟩, ⟨1, [⟨2, 2, false⟩]⟩], 1⟩
      ⟨[⟨2, [⟨6, 6, false⟩]⟩, ⟨1, [⟨2, 2, false⟩]⟩, ⟨1, []⟩], 1⟩
      (by decide) (by decide) rfl (by decide) (by decide) _
      (by simp [substitute_linear_poly, deref, substitute_search, Polynomial.get_lt,
        Polynomial.get_lm, cmp_term, cmp_term_loop, sub_poly, multiply_poly_with_constant,
        push_mstack_end, build_poly, build_poly_deg, add_poly, add_poly_loop, Term.degree,
        bind, Except.bind, pure, Except.pure, Int.tmod, Int.tdiv])⟩

/-! ## `multiply_term` -/

theorem build_term_from_stack_eq (vs : List Var) : build_term_from_stack vs = vs := by
  have h : ∀ (l : List Var) (acc : Term),
      l.foldl (fun res v => new_term v res) acc = l.reverse ++ acc := by
    intro l
    induction l with
    | nil => intro acc; rfl
    | cons x l ih => intro acc; simp [List.foldl_cons, ih, new_term]
  simp [build_term_from_stack, h]

theorem multiply_term_loop_mem (t1 t2 : Term) (vs : List Var) (v : Var)
    (h : v ∈ multiply_term_loop t1 t2 vs) : v ∈ vs ∨ v ∈ t1 ∨ v ∈ t2 := by
  induction t1, t2, vs using multiply_term_loop.induct with
  | case1 a r1 b r2 vs hgt ih =>
    rw [multiply_term_loop, if_pos hgt] at h
    rcases ih h with h | h | h
    · simp only [List.mem_append, List.mem_singleton] at h
      rcases h with h | h
      · exact Or.inl h
      · right; left; simp [h]
    · right; left; simp [h]
    · exact Or.inr (Or.inr h)
  | case2 a r1 b r2 vs hgt hlt ih =>
    rw [multiply_term_loop, if_neg hgt, if_pos hlt] at h
    rcases ih h with h | h | h
    · simp only [List.mem_append, List.mem_singleton] at h
      rcases h with h | h
      · exact Or.inl h
      · right; right; simp [h]
    · exact Or.inr (Or.inl h)
    · right; right; simp [h]
  | case3 a r1 b r2 vs hgt hlt ih =>
    rw [multiply_term_loop, if_neg hgt, if_neg hlt] at h
    rcases ih h with h | h | h
    · simp only [List.mem_append, List.mem_singleton] at h
      rcases h with h | h
      · exact Or.inl h
      · right; left; simp [h]
    · right; left; simp [h]
    · right; right; simp [h]
  | case4 a r1 vs ih =>
    rw [multiply_term_loop] at h
    rcases ih h with h | h | h
    · simp only [List.mem_append, List.mem_singleton] at h
      rcases h with h | h
      · exact Or.inl h
      · right; left; simp [h]
    · right; left; simp [h]
    · simp at h
  | case5 b r2 vs ih =>
    rw [multiply_term_loop] at h
    rcases ih h with h | h | h
    · simp only [List.mem_append, List.mem_singleton] at h
      rcases h with h | h
      · exact Or.inl h
      · right; right; simp [h]
    · simp at h
    · right; right; simp [h]
  | case6 vs =>
    rw [multiply_term_loop] at h
    exact Or.inl h

theorem multiply_term_mem (t1 t2 : Term) (v : Var) (h : v ∈ multiply_term t1 t2) :
    v ∈ t1 ∨ v ∈ t2 := by
  unfold multiply_term at h
  split_ifs at h with h1 h2
  · simp at h
  · exact Or.inl h
  · rw [build_term_from_stack_eq] at h
    rcases multiply_term_loop_mem t1 t2 [] v h with h | h | h
    · simp at h
    · exact Or.inl h
    · exact Or.inr h

theorem term_eval_nil (σ : Var → Int) : Term.eval σ [] = 1 := by simp [Term.eval]

theorem term_eval_cons (σ : Var → Int) (v : Var) (t : Term) :
    Term.eval σ (v :: t) = σ v * Term.eval σ t := by simp [Term.eval]

theorem term_eval_append (σ : Var → Int) (s t : Term) :
    Term.eval σ (s ++ t) = Term.eval σ s * Term.eval σ t := by simp [Term.eval]

theorem term_eval_idem (σ : Var → Int) (hσ : ∀ v, σ v * σ v = σ v) (t : Term) :
    Term.eval σ t * Term.eval σ t = Term.eval σ t := by
  induction t with
  | nil => simp [Term.eval]
  | cons v t ih =>
    rw [term_eval_cons]
    calc σ v * Term.eval σ t * (σ v * Term.eval σ t)
        = (σ v * σ v) * (Term.eval σ t * Term.eval σ t) := by ring
      _ = σ v * Term.eval σ t := by rw [hσ, ih]

theorem multiply_term_loop_eval (σ : Var → Int) (hσ : ∀ v, σ v * σ v = σ v)
    (us : List Var) (hd : LevelsDistinct us) (t1 t2 : Term) (vs : List Var)
    (h1 : ∀ v ∈ t1, v ∈ us) (h2 : ∀ v ∈ t2, v ∈ us) :
    Term.eval σ (multiply_term_loop t1 t2 vs)
      = Term.eval σ vs * (Term.eval σ t1 * Term.eval σ t2) := by
  induction t1, t2, vs using multiply_term_loop.induct with
  | case1 a r1 b r2 vs hgt ih =>
    rw [multiply_term_loop, if_pos hgt, ih (fun v hv => h1 v (by simp [hv])) h2]
    simp only [term_eval_append, term_eval_cons, term_eval_nil]; ring
  | case2 a r1 b r2 vs hgt hlt ih =>
    rw [multiply_term_loop, if_neg hgt, if_pos hlt, ih h1 (fun v hv => h2 v (by simp [hv]))]
    simp only [term_eval_append, term_eval_cons, term_eval_nil]; ring
  | case3 a r1 b r2 vs hgt hlt ih =>
    have hab : a = b := hd a (h1 a (by simp)) b (h2 b (by simp)) (by omega)
    rw [multiply_term_loop, if_neg hgt, if_neg hlt,
      ih (fun v hv => h1 v (by simp [hv])) (fun v hv => h2 v (by simp [hv]))]
    simp only [term_eval_append, term_eval_cons, term_eval_nil]
    rw [← hab]
    calc Term.eval σ vs * (σ a * 1) * (Term.eval σ r1 * Term.eval σ r2)
        = Term.eval σ vs * (σ a * (Term.eval σ r1 * Term.eval σ r2)) := by ring
      _ = Term.eval σ vs * ((σ a * σ a) * (Term.eval σ r1 * Term.eval σ r2)) := by rw [hσ]
      _ = Term.eval σ vs * (σ a * Term.eval σ r1 * (σ a * Term.eval σ r2)) := by ring
  | case4 a r1 vs ih =>
    rw [multiply_term_loop, ih (fun v hv => h1 v (by simp [hv])) h2]
    simp only [term_eval_append, term_eval_cons, term_eval_nil]; ring
  | case5 b r2 vs ih =>
    rw [multiply_term_loop, ih h1 (fun v hv => h2 v (by simp [hv]))]
    simp only [term_eval_append, term_eval_cons, term_eval_nil]; ring
  | case6 vs =>
    rw [multiply_term_loop]
    simp only [term_eval_nil]; ring

/-- On non-constant terms `multiply_term` is the product, under assignments
with idempotent values and levels that identify the variables. -/
theorem multiply_term_eval (σ : Var → Int) (hσ : ∀ v, σ v * σ v = σ v)
    (us : List Var) (hd : LevelsDistinct us) (t1 t2 : Term) (hn1 : t1 ≠ []) (hn2 : t2 ≠ [])
    (h1 : ∀ v ∈ t1, v ∈ us) (h2 : ∀ v ∈ t2, v ∈ us) :
    Term.eval σ (multiply_term t1 t2) = Term.eval σ t1 * Term.eval σ t2 := by
  unfold multiply_term
  rw [if_neg (by simp [hn1, hn2])]
  split_ifs with h
  · rw [← h, term_eval_idem σ hσ]
  · rw [build_term_from_stack_eq, multiply_term_loop_eval σ hσ us hd t1 t2 [] h1 h2,
      term_eval_nil]
    ring

/-! ## `multiply_monomial` and `multiply_poly` -/

theorem multiply_monomial_term_mem (m1 m2 : Monomial) (v : Var)
    (h : v ∈ (multiply_monomial m1 m2).term) : v ∈ m1.term ∨ v ∈ m2.term := by
  simp only [multiply_monomial] at h
  split_ifs at h with h1 h2
  · exact multiply_term_mem _ _ v h
  · exact Or.inr h
  · exact Or.inl h

theorem multiply_monomial_eval (σ : Var → Int) (hσ : ∀ v, σ v * σ v = σ v)
    (us : List Var) (hd : LevelsDistinct us) (m1 m2 : Monomial)
    (h1 : ∀ v ∈ m1.term, v ∈ us) (h2 : ∀ v ∈ m2.term, v ∈ us) :
    (multiply_monomial m1 m2).eval σ = m1.eval σ * m2.eval σ := by
  simp only [Monomial.eval, multiply_monomial]
  split_ifs with ha hb
  · rw [multiply_term_eval σ hσ us hd _ _ ha.1 ha.2 h1 h2]; ring
  · have : m1.term = [] := by
      by_contra hc; exact ha ⟨hc, hb⟩
    rw [this, term_eval_nil]; ring
  · simp only [not_not] at hb
    rw [hb, term_eval_nil]; ring

theorem foldl_push_mstack_spec (T : Term → Prop) (hT : CmpFaithful T) (l : List Monomial)
    (st : MStack) (hl : TermsIn T l) (hTs : TermsIn T st) (hst : StackNF st) :
    StackNF (l.foldl push_mstack st) ∧ TermsIn T (l.foldl push_mstack st) ∧
      ∀ g, lin g (l.foldl push_mstack st) = lin g st + lin g l := by
  induction l generalizing st with
  | nil => exact ⟨hst, hTs, fun g => by simp [lin]⟩
  | cons m l ih =>
    have hm : T m.term := hl m (by simp)
    obtain ⟨h1, h2, h3⟩ := ih (push_mstack st m)
      (fun e he => hl e (List.mem_cons_of_mem _ he))
      (push_mstack_termsIn T m st hm hTs) (push_mstack_nf T hT m st hm hTs hst)
    refine ⟨h1, h2, fun g => ?_⟩
    rw [List.foldl_cons, h3 g, push_mstack_lin T hT g m st hm hTs, lin_cons]; ring

theorem multiply_fold_eq (l1 l2 : List Monomial) (st : MStack) :
    l1.foldl
        (fun st m1 => l2.foldl (fun st2 m2 => push_mstack st2 (multiply_monomial m1 m2)) st) st
      = (prodMons l1 l2).foldl push_mstack st := by
  induction l1 generalizing st with
  | nil => simp [prodMons]
  | cons m l ih =>
    rw [List.foldl_cons, ih]
    simp only [prodMons, List.flatMap_cons, List.foldl_append, List.foldl_map]

theorem multiply_poly_eq (a b : Polynomial) :
    multiply_poly (some a) (some b) = build_poly ((prodMons a.mon b.mon).foldl push_mstack []) := by
  simp only [multiply_poly]
  rw [multiply_fold_eq]

theorem prodMons_nil_left (l : List Monomial) : prodMons [] l = [] := by simp [prodMons]

theorem prodMons_nil_right (l : List Monomial) : prodMons l [] = [] := by
  induction l with
  | nil => rfl
  | cons m l ih =>
    have e : prodMons (m :: l) [] = [].map (multiply_monomial m) ++ prodMons l [] := by
      simp [prodMons]
    rw [e, ih]; rfl

theorem prodMons_termsIn (us : List Var) (l1 l2 : List Monomial)
    (h1 : TermsIn (fun t => ∀ v ∈ t, v ∈ us) l1) (h2 : TermsIn (fun t => ∀ v ∈ t, v ∈ us) l2) :
    TermsIn (fun t => ∀ v ∈ t, v ∈ us) (prodMons l1 l2) := by
  intro e he v hv
  simp only [prodMons, List.mem_flatMap, List.mem_map] at he
  obtain ⟨m1, hm1, m2, hm2, rfl⟩ := he
  rcases multiply_monomial_term_mem m1 m2 v hv with h | h
  · exact h1 m1 hm1 v h
  · exact h2 m2 hm2 v h

/-- What `multiply_poly` returns on normal-form operands: a normal-form
polynomial whose image under every linear functional is the image of the list
of all pairwise products. -/
theorem multiply_poly_spec (us : List Var) (hd : LevelsDistinct us) (x y : Option Polynomial)
    (hx : TermsIn (fun t => ∀ v ∈ t, v ∈ us) (mons x))
    (hy : TermsIn (fun t => ∀ v ∈ t, v ∈ us) (mons y)) :
    PolyNF (multiply_poly x y) ∧
      TermsIn (fun t => ∀ v ∈ t, v ∈ us) (mons (multiply_poly x y)) ∧
      ∀ g, lin g (mons (multiply_poly x y)) = lin g (prodMons (mons x) (mons y)) := by
  cases x with
  | none =>
    refine ⟨trivial, fun e he => by simp [multiply_poly, mons] at he, fun g => ?_⟩
    simp [multiply_poly, mons, prodMons, lin]
  | some a =>
    cases y with
    | none =>
      refine ⟨trivial, fun e he => by simp [multiply_poly, mons] at he, fun g => ?_⟩
      have e : mons (none : Option Polynomial) = [] := rfl
      rw [e, prodMons_nil_right]
      simp [multiply_poly, mons, lin]
    | some b =>
      obtain ⟨h1, h2, h3⟩ := foldl_push_mstack_spec _ (cmpFaithful_of_levels us hd)
        (prodMons a.mon b.mon) [] (prodMons_termsIn us _ _ hx hy)
        (fun e he => by simp at he) stackNF_nil
      rw [multiply_poly_eq]
      refine ⟨build_poly_nf _ h1, ?_, fun g => ?_⟩
      · rw [mons_build_poly]
        intro e he
        exact h2 e (by simpa using he)
      · rw [mons_build_poly, lin_reverse, h3 g, lin_nil]
        simp [mons]

/-- The image of the list of products is linear in the first factor. -/
theorem lin_prodMons (g : Term → Int) (l1 l2 : List Monomial) :
    lin g (prodMons l1 l2)
      = lin (fun t => lin g (l2.map (multiply_monomial { coeff := 1, term := t }))) l1 := by
  induction l1 with
  | nil => simp [prodMons, lin]
  | cons m l ih =>
    have e : prodMons (m :: l) l2 = l2.map (multiply_monomial m) ++ prodMons l l2 := by
      simp [prodMons]
    rw [e, lin_append, ih, lin_cons]
    congr 1
    simp only [lin, List.map_map]
    rw [← List.sum_map_mul_left]
    congr 1
    apply List.map_congr_left
    intro m2 _
    simp only [Function.comp, multiply_monomial]
    ring

/-- The value of the list of products is the product of the values. -/
theorem evalMons_prodMons (σ : Var → Int) (hσ : ∀ v, σ v * σ v = σ v) (us : List Var)
    (hd : LevelsDistinct us) (l1 l2 : List Monomial)
    (h1 : TermsIn (fun t => ∀ v ∈ t, v ∈ us) l1) (h2 : TermsIn (fun t => ∀ v ∈ t, v ∈ us) l2) :
    evalMons σ (prodMons l1 l2) = evalMons σ l1 * evalMons σ l2 := by
  induction l1 with
  | nil => simp [prodMons, evalMons]
  | cons m l ih =>
    have e : prodMons (m :: l) l2 = l2.map (multiply_monomial m) ++ prodMons l l2 := by
      simp [prodMons]
    have hm : evalMons σ (l2.map (multiply_monomial m)) = m.eval σ * evalMons σ l2 := by
      simp only [evalMons, List.map_map]
      rw [← List.sum_map_mul_left]
      congr 1
      apply List.map_congr_left
      intro m2 hm2
      exact multiply_monomial_eval σ hσ us hd m m2 (h1 m (by simp)) (h2 m2 hm2)
    have hsplit : evalMons σ (l2.map (multiply_monomial m) ++ prodMons l l2)
        = evalMons σ (l2.map (multiply_monomial m)) + evalMons σ (prodMons l l2) := by
      simp [evalMons]
    rw [e, hsplit, hm, ih (fun x hx => h1 x (List.mem_cons_of_mem _ hx))]
    simp only [evalMons, List.map_cons, List.sum_cons]
    ring

/-! ## `add_poly`, `equal_poly` and distributivity -/

theorem polyNF_mons (p : Option Polynomial) (h : PolyNF p) : NormalForm (mons p) := by
  cases p with
  | none => exact normalForm_nil
  | some a => exact h.2.1

/-- The terms of a normal form whose coefficients are sums of coefficients of
two sequences come from these sequences. -/
theorem termsIn_of_lin_add (T : Term → Prop) (l a b : List Monomial) (hl : NormalForm l)
    (h : ∀ g, lin g l = lin g a + lin g b) (ha : TermsIn T a) (hb : TermsIn T b) :
    TermsIn T l := by
  intro e he
  have h1 := coeffAt_ne_zero_of_mem l hl e he
  rw [coeffAt_eq_lin, h, ← coeffAt_eq_lin, ← coeffAt_eq_lin] at h1
  have hor : coeffAt a e.term ≠ 0 ∨ coeffAt b e.term ≠ 0 := by
    by_contra hcon
    push_neg at hcon
    rw [hcon.1, hcon.2] at h1
    simp at h1
  rcases hor with h2 | h2
  · obtain ⟨x, hx, hxt⟩ := exists_mem_of_coeffAt_ne_zero _ _ h2
    rw [← hxt]; exact ha x hx
  · obtain ⟨x, hx, hxt⟩ := exists_mem_of_coeffAt_ne_zero _ _ h2
    rw [← hxt]; exact hb x hx

/-- What `add_poly` returns on normal-form operands that are not both the null
pointer (levels identifying the variables): a normal-form polynomial whose
coefficient at every term is the sum of the coefficients of the operands, and
whose value is the sum of the values. -/
theorem add_poly_correct (p q : Option Polynomial) (hp : PolyNF p) (hq : PolyNF q)
    (hd : LevelsDistinct (varsOf (mons p) ++ varsOf (mons q)))
    (hne : p ≠ none ∨ q ≠ none) :
    ∃ r, add_poly p q = .ok r ∧ PolyNF r ∧
      (∀ t, coeffAt (mons r) t = coeffAt (mons p) t + coeffAt (mons q) t) ∧
      (∀ σ, evalPoly σ r = evalPoly σ p + evalPoly σ q) := by
  obtain ⟨r, hr, hnf, hlin⟩ := add_poly_spec _ (cmpFaithful_of_levels _ hd) p q hp hq
    (termsIn_left (mons p) (mons q)) (termsIn_right (mons p) (mons q)) hne
  refine ⟨r, hr, hnf, fun t => ?_, fun σ => ?_⟩
  · rw [coeffAt_eq_lin, coeffAt_eq_lin, coeffAt_eq_lin, hlin]
  · simp only [evalPoly, evalMons_eq_lin]
    exact hlin _

/-- C8 (code bug): both operands of `add_poly` may be the null pointer, the
zero polynomial in normal form, and the sum should again be the zero
polynomial; the first guard of `add_poly` then calls `copy` through the null
pointer `p2`, so the call does not return. -/
theorem add_poly_null_null :
    PolyNF none ∧ add_poly none none = .error .nullDeref := by
  exact ⟨trivial, rfl⟩

theorem equal_poly_loop_self (l : List Monomial) : equal_poly_loop l l = true := by
  induction l with
  | nil => rfl
  | cons m l ih => simp [equal_poly_loop, ih]

theorem equal_poly_self (a : Polynomial) : equal_poly (some a) (some a) = .ok true := by
  simp only [equal_poly, deref, ok_bind]
  simp [equal_poly_loop_self]
  rfl

/-- C9 counterexample: for `p = x`, `q = -x` and `r = 1` the sum `p + q` is the
zero polynomial, so both `multiply_poly(add_poly(p, q), r)` and
`add_poly(multiply_poly(p, r), multiply_poly(q, r))` are the null pointer, and
`equal_poly` applied to them dereferences the null pointer instead of answering
that they are equal. -/
theorem multiply_poly_distrib_counterexample :
    add_poly (some ⟨[⟨1, [⟨2, 2, false⟩]⟩], 1⟩) (some ⟨[⟨-1, [⟨2, 2, false⟩]⟩], 1⟩) = .ok none ∧
    multiply_poly none (some ⟨[⟨1, []⟩], 0⟩) = none ∧
    add_poly
        (multiply_poly (some ⟨[⟨1, [⟨2, 2, false⟩]⟩], 1⟩) (some ⟨[⟨1, []⟩], 0⟩))
        (multiply_poly (some ⟨[⟨-1, [⟨2, 2, false⟩]⟩], 1⟩) (some ⟨[⟨1, []⟩], 0⟩))
      = .ok none ∧
    equal_poly none none = .error .nullDeref := by
  refine ⟨?_, rfl, ?_, rfl⟩
  · simp [add_poly, add_poly_loop, cmp_term, build_poly, pure, Except.pure]
  · simp [multiply_poly, multiply_monomial, push_mstack, push_mstack_scan, add_poly,
      add_poly_loop, cmp_term, build_poly, build_poly_deg, Term.degree, pure, Except.pure]

/-- C9 (amended): distributivity. For normal-form `p`, `q` and any `r` (levels
identifying the variables) such that `add_poly` is never applied to two null
pointers, that is `p`, `q` are not both zero and `p * r`, `q * r` are not both
zero, `multiply_poly(add_poly(p, q), r)` and
`add_poly(multiply_poly(p, r), multiply_poly(q, r))` are the same polynomial
(the same monomial array and degree, or both the null pointer), and when they
are not null `equal_poly` answers true on them. -/
theorem multiply_poly_distrib (p q r : Option Polynomial) (hp : PolyNF p) (hq : PolyNF q)
    (hd : LevelsDistinct (varsOf (mons p) ++ varsOf (mons q) ++ varsOf (mons r)))
    (h1 : p ≠ none ∨ q ≠ none)
    (h2 : multiply_poly p r ≠ none ∨ multiply_poly q r ≠ none) :
    ∃ s u, add_poly p q = .ok s ∧
      add_poly (multiply_poly p r) (multiply_poly q r) = .ok u ∧
      multiply_poly s r = u ∧
      (u ≠ none → equal_poly (multiply_poly s r) u = .ok true) := by
  have hT := cmpFaithful_of_levels _ hd
  have hTp : TermsIn (fun t => ∀ v ∈ t,
      v ∈ varsOf (mons p) ++ varsOf (mons q) ++ varsOf (mons r)) (mons p) :=
    termsIn_of_varsOf _ _ (fun v hv => by simp [hv])
  have hTq : TermsIn (fun t => ∀ v ∈ t,
      v ∈ varsOf (mons p) ++ varsOf (mons q) ++ varsOf (mons r)) (mons q) :=
    termsIn_of_varsOf _ _ (fun v hv => by simp [hv])
  have hTr : TermsIn (fun t => ∀ v ∈ t,
      v ∈ varsOf (mons p) ++ varsOf (mons q) ++ varsOf (mons r)) (mons r) :=
    termsIn_of_varsOf _ _ (fun v hv => by simp [hv])
  obtain ⟨s, hs, hsnf, hslin⟩ := add_poly_spec _ hT p q hp hq hTp hTq h1
  have hTs := termsIn_of_lin_add _ (mons s) (mons p) (mons q) (polyNF_mons s hsnf) hslin hTp hTq
  obtain ⟨hPnf, hTP, hPlin⟩ := multiply_poly_spec _ hd p r hTp hTr
  obtain ⟨hQnf, hTQ, hQlin⟩ := multiply_poly_spec _ hd q r hTq hTr
  obtain ⟨hLnf, -, hLlin⟩ := multiply_poly_spec _ hd s r hTs hTr
  obtain ⟨u, hu, hunf, hulin⟩ := add_poly_spec _ hT _ _ hPnf hQnf hTP hTQ h2
  have hmons : mons (multiply_poly s r) = mons u := by
    apply normalForm_unique _ _ (polyNF_mons _ hLnf) (polyNF_mons _ hunf)
    intro t
    rw [coeffAt_eq_lin, coeffAt_eq_lin, hLlin, hulin, hPlin, hQlin,
      lin_prodMons, lin_prodMons, lin_prodMons, hslin]
  have heq : multiply_poly s r = u := polyNF_ext _ _ hLnf hunf hmons
  refine ⟨s, u, hs, hu, heq, fun hne => ?_⟩
  rw [heq]
  cases u with
  | none => exact absurd rfl hne
  | some a => exact equal_poly_self a

/-- C9 (amended) witness: `p = x`, `q = 2*x`, `r = x + 1`. -/
theorem multiply_poly_distrib_witness :
    PolyNF (some ⟨[⟨1, [⟨2, 2, false⟩]⟩], 1⟩) ∧ PolyNF (some ⟨[⟨2, [⟨2, 2, false⟩]⟩], 1⟩) ∧
    ∃ s u, add_poly (some ⟨[⟨1, [⟨2, 2, false⟩]⟩], 1⟩) (some ⟨[⟨2, [⟨2, 2, false⟩]⟩], 1⟩)
        = .ok s ∧
      add_poly
          (multiply_poly (some ⟨[⟨1, [⟨2, 2, false⟩]⟩], 1⟩)
            (some ⟨[⟨1, [⟨2, 2, false⟩]⟩, ⟨1, []⟩], 1⟩))
          (multiply_poly (some ⟨[⟨2, [⟨2, 2, false⟩]⟩], 1⟩)
            (some ⟨[⟨1, [⟨2, 2, false⟩]⟩, ⟨1, []⟩], 1⟩))
        = .ok u ∧
      multiply_poly s (some ⟨[⟨1, [⟨2, 2, false⟩]⟩, ⟨1, []⟩], 1⟩) = u ∧
      (u ≠ none →
        equal_poly (multiply_poly s (some ⟨[⟨1, [⟨2, 2, false⟩]⟩, ⟨1, []⟩], 1⟩)) u
          = .ok true) :=
  ⟨by decide, by decide,
    multiply_poly_distrib
      (some ⟨[⟨1, [⟨2, 2, false⟩]⟩], 1⟩) (some ⟨[⟨2, [⟨2, 2, false⟩]⟩], 1⟩)
      (some ⟨[⟨1, [⟨2, 2, false⟩]⟩, ⟨1, []⟩], 1⟩)
      (by decide) (by decide) (by decide) (by decide) (by decide)⟩

/-! ## `divide_poly_by_term` and `reduce_by_one_poly` -/

theorem divide_by_var_mem (t : Term) (v x : Var) (h : x ∈ divide_by_var t v) : x ∈ t := by
  have key : ∀ (l : Term) (acc : List Var),
      x ∈ l.foldl (fun vs y => if y ≠ v then vs ++ [y] else vs) acc → x ∈ acc ∨ x ∈ l := by
    intro l
    induction l with
    | nil => intro acc h; exact Or.inl h
    | cons y l ih =>
      intro acc h
      rw [List.foldl_cons] at h
      rcases ih _ h with h1 | h1
      · split_ifs at h1 with hy
        · simp only [List.mem_append, List.mem_singleton] at h1
          rcases h1 with h2 | h2
          · exact Or.inl h2
          · right; simp [h2]
        · exact Or.inl h1
      · exact Or.inr (List.mem_cons_of_mem _ h1)
  rw [divide_by_var, build_term_from_stack_eq] at h
  rcases key t [] h with h1 | h1
  · simp at h1
  · exact h1

theorem divide_by_term_loop_mem (x : Var) (t t1 : Term) (vs : List Var) :
    (x ∈ (divide_by_term_loop t t1 vs).1 → x ∈ t) ∧
    (x ∈ (divide_by_term_loop t t1 vs).2.2 → x ∈ vs ∨ x ∈ t) := by
  induction t generalizing t1 vs with
  | nil => simp [divide_by_term_loop]
  | cons y t ih =>
    cases t1 with
    | nil =>
      simp only [divide_by_term_loop]
      exact ⟨fun h => h, fun h => Or.inl h⟩
    | cons z t1 =>
      simp only [divide_by_term_loop]
      split_ifs with hyz
      · obtain ⟨h1, h2⟩ := ih (z :: t1) (vs ++ [y])
        refine ⟨fun h => List.mem_cons_of_mem _ (h1 h), fun h => ?_⟩
        rcases h2 h with h3 | h3
        · simp only [List.mem_append, List.mem_singleton] at h3
          rcases h3 with h4 | h4
          · exact Or.inl h4
          · right; simp [h4]
        · exact Or.inr (List.mem_cons_of_mem _ h3)
      · obtain ⟨h1, h2⟩ := ih t1 vs
        refine ⟨fun h => List.mem_cons_of_mem _ (h1 h), fun h => ?_⟩
        rcases h2 h with h3 | h3
        · exact Or.inl h3
        · exact Or.inr (List.mem_cons_of_mem _ h3)

theorem divide_by_term_ok (t t1 : Term) (ht : t ≠ []) :
    ∃ r, divide_by_term t t1 = .ok r := by
  unfold divide_by_term
  rcases divide_by_term_loop t t1 [] with ⟨tmp, rest1, vs⟩
  simp only
  split_ifs with hr
  · exact ⟨_, rfl⟩
  · exact ⟨_, rfl⟩

theorem divide_by_term_mem (t t1 : Term) (r : Term × List Var)
    (hr : divide_by_term t t1 = .ok r) (x : Var) (h : x ∈ r.1) : x ∈ t := by
  unfold divide_by_term at hr
  obtain ⟨h1, h2⟩ := divide_by_term_loop_mem x t t1 []
  rcases hl : divide_by_term_loop t t1 [] with ⟨tmp, rest1, vs⟩
  rw [hl] at hr h1 h2
  simp only at hr h1 h2
  split_ifs at hr with hr1 hr2
  · cases hr
    exact h
  · cases hr
    simp only at h
    rw [build_term_from_stack_eq] at h
    have e : ∀ (l acc : List Var), l.foldl (fun s y => s ++ [y]) acc = acc ++ l := by
      intro l
      induction l with
      | nil => intro acc; simp
      | cons y l ih => intro acc; simp [List.foldl_cons, ih]
    rw [e] at h
    rcases List.mem_append.1 h with h3 | h3
    · rcases h2 h3 with h4 | h4
      · simp at h4
      · exact h4
    · exact h1 h3

theorem push_mstack_end_mem_iff (st : MStack) (m e : Monomial) :
    e ∈ push_mstack_end st m ↔ e ∈ st ∨ (e = m ∧ m.coeff ≠ 0) := by
  unfold push_mstack_end
  split_ifs with h
  · constructor
    · exact fun h1 => Or.inl h1
    · rintro (h1 | ⟨_, h2⟩)
      · exact h1
      · exact absurd h h2
  · simp only [List.mem_cons]
    constructor
    · rintro (h1 | h1)
      · exact Or.inr ⟨h1, h⟩
      · exact Or.inl h1
    · rintro (h1 | ⟨h1, _⟩)
      · exact Or.inr h1
      · exact Or.inl h1

/-- The stack built by the loop of `divide_by_var` on polynomials: the pushed
monomials have non-zero coefficients and their variables are variables of the
dividend. -/
theorem divide_by_var_poly_loop_spec (t : Term) (v : Var) (l : List Monomial) (st : MStack)
    (e : Monomial) (he : e ∈ divide_by_var_poly_loop t v l st) :
    e ∈ st ∨ (e.coeff ≠ 0 ∧ ∀ x ∈ e.term, x ∈ varsOf l) := by
  induction l generalizing st with
  | nil => exact Or.inl he
  | cons m l ih =>
    have hsub : ∀ x, x ∈ varsOf l → x ∈ varsOf (m :: l) := by
      intro x hx; simp only [varsOf, List.flatMap_cons, List.mem_append]; exact Or.inr hx
    have hm : ∀ x, x ∈ m.term → x ∈ varsOf (m :: l) := by
      intro x hx; simp only [varsOf, List.flatMap_cons, List.mem_append]; exact Or.inl hx
    simp only [divide_by_var_poly_loop] at he
    split_ifs at he with h1 h2 h3 h4
    · exact Or.inl he
    · exact Or.inl he
    · rcases ih _ he with h5 | h5
      · rcases (push_mstack_end_mem_iff st _ e).1 h5 with h6 | ⟨h6, h7⟩
        · exact Or.inl h6
        · right
          rw [h6]
          exact ⟨h7, fun x hx => hm x (divide_by_var_mem _ _ x hx)⟩
      · exact Or.inr ⟨h5.1, fun x hx => hsub x (h5.2 x hx)⟩
    · rcases (push_mstack_end_mem_iff st _ e).1 he with h6 | ⟨h6, h7⟩
      · exact Or.inl h6
      · right
        rw [h6]
        exact ⟨h7, fun x hx => by simp at hx⟩
    · rcases ih _ he with h5 | h5
      · exact Or.inl h5
      · exact Or.inr ⟨h5.1, fun x hx => hsub x (h5.2 x hx)⟩

theorem divide_fold_spec (t : Term) (l : List Monomial) (st : MStack) :
    ∃ st2, l.foldlM (divide_poly_by_term_step t) st = .ok st2 ∧
      ∀ e ∈ st2, e ∈ st ∨ (e.coeff ≠ 0 ∧ ∀ x ∈ e.term, x ∈ varsOf l) := by
  induction l generalizing st with
  | nil => exact ⟨st, rfl, fun e he => Or.inl he⟩
  | cons m l ih =>
    have hsub : ∀ x, x ∈ varsOf l → x ∈ varsOf (m :: l) := by
      intro x hx; simp only [varsOf, List.flatMap_cons, List.mem_append]; exact Or.inr hx
    have hm : ∀ x, x ∈ m.term → x ∈ varsOf (m :: l) := by
      intro x hx; simp only [varsOf, List.flatMap_cons, List.mem_append]; exact Or.inl hx
    have hstep : ∃ st1, divide_poly_by_term_step t st m = .ok st1 ∧
        ∀ e ∈ st1, e ∈ st ∨ (e.coeff ≠ 0 ∧ ∀ x ∈ e.term, x ∈ m.term) := by
      unfold divide_poly_by_term_step
      split_ifs with h1 h2
      · exact ⟨st, rfl, fun e he => Or.inl he⟩
      · obtain ⟨r, hr⟩ := divide_by_term_ok m.term t h1
        refine ⟨push_mstack_end st { coeff := m.coeff, term := r.1 }, ?_, ?_⟩
        · rw [hr]; rfl
        · intro e he
          rcases (push_mstack_end_mem_iff st _ e).1 he with h6 | ⟨h6, h7⟩
          · exact Or.inl h6
          · right
            rw [h6]
            exact ⟨h7, fun x hx => divide_by_term_mem _ _ r hr x hx⟩
      · exact ⟨st, rfl, fun e he => Or.inl he⟩
    obtain ⟨st1, hs1, hs1m⟩ := hstep
    obtain ⟨st2, hs2, hs2m⟩ := ih st1
    refine ⟨st2, ?_, ?_⟩
    · rw [List.foldlM_cons, hs1]
      exact hs2
    · intro e he
      rcases hs2m e he with h5 | h5
      · rcases hs1m e h5 with h6 | h6
        · exact Or.inl h6
        · exact Or.inr ⟨h6.1, fun x hx => hm x (h6.2 x hx)⟩
      · exact Or.inr ⟨h5.1, fun x hx => hsub x (h5.2 x hx)⟩

/-- On a polynomial object and a non-constant term, `divide_poly_by_term`
returns the polynomial built from a stack of monomials with non-zero
coefficients whose variables are variables of the dividend. -/
theorem divide_poly_by_term_spec (p : Polynomial) (t : Term) (ht : t ≠ []) :
    ∃ st : MStack, divide_poly_by_term (some p) t = .ok (build_poly st) ∧
      (∀ e ∈ st, e.coeff ≠ 0) ∧ (∀ e ∈ st, ∀ x ∈ e.term, x ∈ varsOf p.mon) := by
  unfold divide_poly_by_term
  rw [if_neg ht]
  split_ifs with h1
  · cases t with
    | nil => exact absurd rfl ht
    | cons v rest =>
      refine ⟨divide_by_var_poly_loop (v :: rest) v p.mon [], rfl, ?_, ?_⟩
      · intro e he
        rcases divide_by_var_poly_loop_spec _ _ _ _ e he with h | h
        · simp at h
        · exact h.1
      · intro e he
        rcases divide_by_var_poly_loop_spec _ _ _ _ e he with h | h
        · simp at h
        · exact h.2
  · obtain ⟨st2, hs2, hs2m⟩ := divide_fold_spec t p.mon []
    refine ⟨st2, ?_, ?_, ?_⟩
    · simp only [deref, ok_bind, hs2]
      rfl
    · intro e he
      rcases hs2m e he with h | h
      · simp at h
      · exact h.1
    · intro e he
      rcases hs2m e he with h | h
      · simp at h
      · exact h.2

theorem multiply_poly_with_constant_mons (a : Polynomial) (c : Int) (hc : c ≠ 0)
    (h0 : ∀ m ∈ a.mon, m.coeff ≠ 0) :
    ∃ r, multiply_poly_with_constant (some a) c = .ok r ∧ mons r = scaleMons c a.mon := by
  refine ⟨build_poly (scaleMons c a.mon).reverse, ?_, ?_⟩
  · simp only [multiply_poly_with_constant, if_neg hc, deref]
    have e1 : a.mon.foldl (fun st m => push_mstack_end st { coeff := m.coeff * c, term := m.term })
        [] = (scaleMons c a.mon).foldl push_mstack_end [] := by
      simp only [scaleMons, List.foldl_map]
    show Except.ok (build_poly _) = _
    rw [e1, foldl_push_end_eq, List.append_nil]
    intro m hm
    simp only [scaleMons, List.mem_map] at hm
    obtain ⟨x, hx, rfl⟩ := hm
    exact mul_ne_zero (h0 x hx) hc
  · rw [mons_build_poly, List.reverse_reverse]

theorem boolAssign_idem (σ : Var → Int) (h : BoolAssign σ) : ∀ v, σ v * σ v = σ v := by
  intro v
  rcases h v with h0 | h1
  · rw [h0]; rfl
  · rw [h1]; rfl

theorem evalPoly_some (σ : Var → Int) (a : Polynomial) :
    evalPoly σ (some a) = evalMons σ a.mon := rfl

theorem evalPoly_none (σ : Var → Int) : evalPoly σ none = 0 := rfl

/-- The body of `reduce_by_one_poly` once the quotient `f` is known and not
null. -/
theorem reduce_by_one_poly_eval (p q : Polynomial) (qm : Monomial) (qrest : List Monomial)
    (hqm : q.mon = qm :: qrest) (f : Polynomial)
    (hf : divide_poly_by_term (some p) qm.term = .ok (some f)) (hfne : f.mon ≠ []) :
    reduce_by_one_poly (some p) (some q)
      = ((if qm.coeff > 0 then multiply_poly_with_constant (some f) (-1) else pure (some f))
          >>= fun nf2 => add_poly (some p) (multiply_poly nf2 (some q))) := by
  have hlen : (f.mon.length == 0) = false := by
    cases hm : f.mon with
    | nil => exact absurd hm hfne
    | cons x xs => simp
  simp only [reduce_by_one_poly, deref, ok_bind, Polynomial.get_lt, Polynomial.get_lm, hqm, hf,
    Polynomial.is_constant_zero_poly, hlen, Bool.false_eq_true, if_false]
  split_ifs <;> rfl

/-- C3 counterexample: `p = x` and the non-zero constant polynomial `q = 2` are
in normal form, but `reduce_by_one_poly(p, q)` does not return: the leading
term of `q` is the null term, which `divide_poly_by_term` dereferences. -/
theorem reduce_by_one_poly_counterexample :
    Polynomial.WF ⟨[⟨1, [⟨2, 2, false⟩]⟩], 1⟩ ∧ Polynomial.WF ⟨[⟨2, []⟩], 0⟩ ∧
    reduce_by_one_poly (some ⟨[⟨1, [⟨2, 2, false⟩]⟩], 1⟩) (some ⟨[⟨2, []⟩], 0⟩)
      = .error .nullDeref := by
  refine ⟨by decide, by decide, rfl⟩

/-- C3 (amended): for a non-zero normal-form `p` and a normal-form `q` whose
leading term is not the constant (levels identifying the variables), with
`f = divide_poly_by_term(p, LT(q))`: `reduce_by_one_poly(p, q)` returns a
normal-form polynomial, which is `p` itself when `f` is zero, and whose value on
every Boolean assignment is the value of `p + s * f * q`, with `s = -1` when the
leading coefficient of `q` is positive and `s = 1` otherwise; so the result
minus `p` is the multiple `s * f * q` of `q`. -/
theorem reduce_by_one_poly_correct (p q : Polynomial) (hp : p.WF) (hq : q.WF)
    (hlt : leadTerm q ≠ []) (hd : LevelsDistinct (varsOf p.mon ++ varsOf q.mon)) :
    ∃ f res, divide_poly_by_term (some p) (leadTerm q) = .ok f ∧
      reduce_by_one_poly (some p) (some q) = .ok res ∧ PolyNF res ∧
      (f = none → res = some p) ∧
      ∀ σ, BoolAssign σ →
        evalPoly σ res = evalPoly σ (some p)
          + (if leadCoeff q > 0 then -1 else 1) * evalPoly σ f * evalPoly σ (some q) := by
  obtain ⟨st, hst, hst0, hstv⟩ := divide_poly_by_term_spec p (leadTerm q) hlt
  have hT := cmpFaithful_of_levels _ hd
  have hTp := termsIn_left p.mon q.mon
  have hTq := termsIn_right p.mon q.mon
  cases hqm : q.mon with
  | nil => exact absurd hqm hq.1
  | cons qm qrest =>
    have hlt' : q.get_lt = .ok (leadTerm q) := by simp [Polynomial.get_lt, leadTerm, hqm]
    have hlm : q.get_lm = .ok qm := by simp [Polynomial.get_lm, hqm]
    have hlc : leadCoeff q = qm.coeff := leadCoeff_cons q qm qrest hqm
    refine ⟨build_poly st, ?_⟩
    by_cases hnil : st = []
    · subst hnil
      refine ⟨some p, hst, ?_, hp, fun _ => rfl, fun σ _ => ?_⟩
      · simp only [reduce_by_one_poly, deref, ok_bind, hlt', hst, build_poly_nil]
        exact copy_ptr_wf p hp
      · rw [build_poly_nil, evalPoly_none]; ring
    · have hb := build_poly_ne_nil st hnil
      have hfmon : ∀ m ∈ st.reverse, m.coeff ≠ 0 := fun m hm => hst0 m (by simpa using hm)
      have hfT : TermsIn (fun t => ∀ v ∈ t, v ∈ varsOf p.mon ++ varsOf q.mon) st.reverse := by
        intro m hm v hv
        have := hstv m (by simpa using hm) v hv
        simp [this]
      -- the factor after the sign correction
      have hneg : ∃ nf2, (if qm.coeff > 0 then
            multiply_poly_with_constant
              (some { mon := st.reverse, deg := build_poly_deg st.reverse }) (-1)
          else pure (some { mon := st.reverse, deg := build_poly_deg st.reverse }))
            = Except.ok nf2 ∧
          mons nf2 = scaleMons (if qm.coeff > 0 then -1 else 1) st.reverse := by
        split_ifs with hpos
        · exact multiply_poly_with_constant_mons _ (-1) (by decide) hfmon
        · refine ⟨_, rfl, ?_⟩
          simp only [mons, scaleMons]
          rw [List.map_congr_left (g := id)]
          · simp
          · intro m _; cases m; simp
      obtain ⟨nf2, hnf2, hmons2⟩ := hneg
      have hT2 : TermsIn (fun t => ∀ v ∈ t, v ∈ varsOf p.mon ++ varsOf q.mon) (mons nf2) := by
        rw [hmons2]; exact scaleMons_termsIn _ _ _ hfT
      obtain ⟨hMnf, hTM, hMlin⟩ := multiply_poly_spec _ hd nf2 (some q) hT2 hTq
      obtain ⟨res, hres, hresnf, hreslin⟩ := add_poly_spec _ hT (some p)
        (multiply_poly nf2 (some q)) hp hMnf hTp hTM (Or.inl (by simp))
      refine ⟨res, hst, ?_, hresnf, fun h => ?_, fun σ hσ => ?_⟩
      · have hst' := hst
        rw [leadTerm_cons q qm qrest hqm, hb] at hst'
        rw [reduce_by_one_poly_eval p q qm qrest hqm _ hst' (by simpa using hnil), hnf2, ok_bind]
        exact hres
      · rw [hb] at h; cases h
      · have h1 := hreslin (Term.eval σ)
        rw [← evalMons_eq_lin, ← evalMons_eq_lin, ← evalMons_eq_lin] at h1
        have h2 := hMlin (Term.eval σ)
        rw [← evalMons_eq_lin, ← evalMons_eq_lin] at h2
        have hq' : mons (some q) = q.mon := rfl
        have hp' : mons (some p) = p.mon := rfl
        rw [hq'] at h2
        rw [hp'] at h1
        rw [evalMons_prodMons σ (boolAssign_idem σ hσ) _ hd _ _ hT2 hTq, hmons2] at h2
        have h3 : evalMons σ (scaleMons (if qm.coeff > 0 then -1 else 1) st.reverse)
            = (if qm.coeff > 0 then -1 else 1) * evalMons σ st.reverse := by
          rw [evalMons_eq_lin, evalMons_eq_lin, scaleMons_lin]
        rw [h3] at h2
        simp only [evalPoly]
        rw [h1, h2, mons_build_poly, hlc, hq', hp']

/-- C3 (amended) witness: `p = z*y + x` reduced by `q = -y + x + 1`. -/
theorem reduce_by_one_poly_correct_witness :
    Polynomial.WF ⟨[⟨1, [⟨6, 6, false⟩, ⟨4, 4, false⟩]⟩, ⟨1, [⟨2, 2, false⟩]⟩], 2⟩ ∧
    Polynomial.WF ⟨[⟨-1, [⟨4, 4, false⟩]⟩, ⟨1, [⟨2, 2, false⟩]⟩, ⟨1, []⟩], 1⟩ ∧
    ∃ f res,
      divide_poly_by_term
          (some ⟨[⟨1, [⟨6, 6, false⟩, ⟨4, 4, false⟩]⟩, ⟨1, [⟨2, 2, false⟩]⟩], 2⟩)
          (leadTerm ⟨[⟨-1, [⟨4, 4, false⟩]⟩, ⟨1, [⟨2, 2, false⟩]⟩, ⟨1, []⟩], 1⟩) = .ok f ∧
      reduce_by_one_poly
          (some ⟨[⟨1, [⟨6, 6, false⟩, ⟨4, 4, false⟩]⟩, ⟨1, [⟨2, 2, false⟩]⟩], 2⟩)
          (some ⟨[⟨-1, [⟨4, 4, false⟩]⟩, ⟨1, [⟨2, 2, false⟩]⟩, ⟨1, []⟩], 1⟩) = .ok res ∧
      PolyNF res :=
  ⟨by decide, by decide,
    let h := reduce_by_one_poly_correct
      ⟨[⟨1, [⟨6, 6, false⟩, ⟨4, 4, false⟩]⟩, ⟨1, [⟨2, 2, false⟩]⟩], 2⟩
      ⟨[⟨-1, [⟨4, 4, false⟩]⟩, ⟨1, [⟨2, 2, false⟩]⟩, ⟨1, []⟩], 1⟩
      (by decide) (by decide) (by decide) (by decide)
    ⟨h.choose, h.choose_spec.choose, h.choose_spec.choose_spec.1,
      h.choose_spec.choose_spec.2.1, h.choose_spec.choose_spec.2.2.1⟩⟩

/-! ## `gen_gate_constraint` -/

/-- C2: for an AND gate `n = gates[i]` that takes the AND branch of
`gen_gate_constraint` (it is not marked as XOR root, or local linearization is
off, which is the state in which `init_gate_constraints` runs since `set_xor`
comes later) and whose fan-in literals `rhs0`, `rhs1` are not constant, the
constraint produced is `-n + a' * b'`: the monomial `-n` followed by the term
`new_quadratic_term(a', b')`, where `a'` is the dual variable of the fan-in gate
for a negated literal and its primary variable otherwise (same for `b'`). It
evaluates to 0 on every Boolean assignment in which `n` is the AND of its fan-in
literals and every dual variable is 1 minus its primary variable. Two different
fan-in variables are assumed to have different levels. -/
theorem gen_gate_constraint_and (c : Circuit) (i : Nat) (n lg rg : Gate) (and1 : aiger_and)
    (hn : c.gates[i]? = some n) (hi : i + 1 < c.M)
    (hx : n.xor_gate ≠ 1 ∨ c.do_local_lin = false)
    (hand : c.is_model_and n.num = some and1)
    (h0 : 2 ≤ and1.rhs0) (h1 : 2 ≤ and1.rhs1)
    (hl : c.gates[and1.rhs0 / 2 - 1]? = some lg) (hr : c.gates[and1.rhs1 / 2 - 1]? = some rg)
    (hlev : (litVar lg and1.rhs0).level = (litVar rg and1.rhs1).level →
      litVar lg and1.rhs0 = litVar rg and1.rhs1) :
    ∃ P : Polynomial, gen_gate_constraint c i = .ok (some P) ∧
      P.mon = [{ coeff := -1, term := [n.get_var] },
        { coeff := 1, term := new_quadratic_term (litVar lg and1.rhs0) (litVar rg and1.rhs1) }] ∧
      ∀ σ : Var → Int, BoolAssign σ → (∀ v : Var, v.d = false → σ v.get_dual = 1 - σ v) →
        σ n.get_var = litVal σ lg and1.rhs0 * litVal σ rg and1.rhs1 →
        evalPoly σ (some P) = 0 := by
  have hgl : gate c and1.rhs0 = some lg := by
    have e : ((and1.rhs0 : Int) / 2 - 1).toNat = and1.rhs0 / 2 - 1 := by omega
    simp only [gate]
    rw [if_neg (by omega), if_neg (by omega), e]
    exact hl
  have hgr : gate c and1.rhs1 = some rg := by
    have e : ((and1.rhs1 : Int) / 2 - 1).toNat = and1.rhs1 / 2 - 1 := by omega
    simp only [gate]
    rw [if_neg (by omega), if_neg (by omega), e]
    exact hr
  refine ⟨Polynomial.mk
      [Monomial.mk (-1) [n.get_var],
        Monomial.mk 1 (new_quadratic_term (litVar lg and1.rhs0) (litVar rg and1.rhs1))]
      (build_poly_deg
        [Monomial.mk (-1) [n.get_var],
          Monomial.mk 1 (new_quadratic_term (litVar lg and1.rhs0) (litVar rg and1.rhs1))]),
      ?_, rfl, ?_⟩
  · simp only [gen_gate_constraint, hn, derefGate, ok_bind, hand, derefAnd, hgl, hgr]
    rw [if_pos ⟨hi, hx⟩]
    simp [push_mstack_end, build_poly, new_term, litVar, pure, Except.pure]
  · intro σ hσ hdual hg
    have hd : LevelsDistinct [litVar lg and1.rhs0, litVar rg and1.rhs1] := by
      intro v hv w hw hvw
      simp only [List.mem_cons, List.mem_singleton, List.not_mem_nil, or_false] at hv hw
      rcases hv with rfl | rfl <;> rcases hw with rfl | rfl
      · rfl
      · exact hlev hvw
      · exact (hlev hvw.symm).symm
      · rfl
    have hmul := multiply_term_eval σ (boolAssign_idem σ hσ) _ hd
      [litVar lg and1.rhs0] [litVar rg and1.rhs1] (by simp) (by simp)
      (fun v hv => by simp at hv; simp [hv]) (fun v hv => by simp at hv; simp [hv])
    have hvl : ∀ (g : Gate) (r : Nat), σ (litVar g r) = litVal σ g r := by
      intro g r
      simp only [litVar, litVal]
      split_ifs
      · exact hdual g.get_var rfl
      · rfl
    simp only [evalPoly, mons, evalMons, List.map_cons, List.map_nil, List.sum_cons,
      List.sum_nil, Monomial.eval, new_quadratic_term, new_term]
    rw [hmul]
    simp only [term_eval_cons, term_eval_nil, hvl, hg]
    ring

/-- C2 witness: the gate `n2 = !b & !a` of the half adder, with the constraint
`-n2 + b' * a'` over the dual variables. -/
theorem gen_gate_constraint_and_witness :
    halfAdder.gates[3]? = some (Gate.mk 8 8 false false 2 false [4, 2] 0 [] none) ∧
    halfAdder.is_model_and 8 = some { lhs := 8, rhs0 := 5, rhs1 := 3 } ∧
    ∃ P : Polynomial, gen_gate_constraint halfAdder 3 = .ok (some P) ∧
      P.mon = [Monomial.mk (-1) [Var.mk 8 8 false],
        Monomial.mk 1 (new_quadratic_term (Var.mk 4 5 true) (Var.mk 2 3 true))] :=
  ⟨rfl, rfl,
    let h := gen_gate_constraint_and halfAdder 3
      (Gate.mk 8 8 false false 2 false [4, 2] 0 [] none) (Gate.mk 4 4 true false 0 false [] 0 [] none)
      (Gate.mk 2 2 true false 0 false [] 0 [] none) (aiger_and.mk 8 5 3)
      rfl (by decide) (Or.inr rfl) rfl (by decide) (by decide) rfl rfl (by decide)
    ⟨h.choose, h.choose_spec.1, h.choose_spec.2.1⟩⟩

/-! ## `verify_guess` -/

/-- C1 (code bug): on the half adder, `verify_guess` in SAT mode accepts the
linear polynomial `p = s + 2*n1 - b - a + 2^32`, whose coefficients all fit in
64 bits, although `p` has the value `2^32` on the assignment `a = b = 0` of the
circuit (indeed on every assignment of the circuit) and although `p >= 1`
together with the circuit clauses is satisfiable. The right-hand side
`-c + 1` of the constraint is stored in an `int`, so for the constant
`c = 2^32` both solver calls are made with the right-hand side 1 instead of
`1 - 2^32` and `1 + 2^32`, and both are unsatisfiable. -/
theorem verify_guess_accepts_nonzero :
    var_cnf_mapping halfAdder halfAdderVars
      = .ok [(some 10, 1), (some 8, 2), (some 6, 3), (some 4, 4), (some 2, 5)] ∧
    translate_aig_part_to_cnf halfAdder halfAdderGates
        [(some 10, 1), (some 8, 2), (some 6, 3), (some 4, 4), (some 2, 5)]
      = .ok (and_constraints 3 4 5 ++ and_constraints 2 (-4) (-5) ++ and_constraints 1 (-2) (-3)) ∧
    translate_poly_to_cnf halfAdder (some halfAdderGuess)
        [(some 10, 1), (some 8, 2), (some 6, 3), (some 4, 4), (some 2, 5)] [] false
      = .ok [{ weights := [1, 2, -1, -1], literals := [1, 3, 4, 5], rhs := 1 }] ∧
    verify_guess halfAdder false false (some halfAdderGuess)
        (and_constraints 3 4 5 ++ and_constraints 2 (-4) (-5) ++ and_constraints 1 (-2) (-3))
        [(some 10, 1), (some 8, 2), (some 6, 3), (some 4, 4), (some 2, 5)]
      = .ok (some halfAdderGuess) ∧
    call_kissat
        (and_constraints 3 4 5 ++ and_constraints 2 (-4) (-5) ++ and_constraints 1 (-2) (-3)
          ++ [{ weights := [1, 2, -1, -1], literals := [1, 3, 4, 5], rhs := 1 - 4294967296 }])
        5 = false ∧
    BoolAssign halfAdderZero ∧
    (∀ g ∈ halfAdderGates, ∀ and1 lg rg, halfAdder.is_model_and g.num = some and1 →
      gate halfAdder and1.rhs0 = some lg → gate halfAdder and1.rhs1 = some rg →
      halfAdderZero g.get_var
        = litVal halfAdderZero lg and1.rhs0 * litVal halfAdderZero rg and1.rhs1) ∧
    evalPoly halfAdderZero (some halfAdderGuess) = 4294967296 := by
  refine ⟨rfl, rfl, rfl, rfl, by decide, ?_, ?_, rfl⟩
  · intro v
    unfold halfAdderZero
    split_ifs
    · exact Or.inr rfl
    · exact Or.inl rfl
  · intro g hg and1 lg rg hand hl hr
    simp only [halfAdderGates, List.mem_cons, List.mem_singleton, List.not_mem_nil,
      or_false] at hg
    rcases hg with rfl | rfl | rfl
    · simp only [halfAdder] at hand hl hr
      simp at hand
      subst hand
      simp [gate] at hl hr
      subst hl; subst hr
      decide
    · simp only [halfAdder] at hand hl hr
      simp at hand
      subst hand
      simp [gate] at hl hr
      subst hl; subst hr
      decide
    · simp only [halfAdder] at hand hl hr
      simp at hand
      subst hand
      simp [gate] at hl hr
      subst hl; subst hr
      decide

/-! ## `cmp_term` as a strict total order -/

theorem cmp_term_loop_eq_lexLevels (a b : Term) :
    cmp_term_loop a b = lexLevels (a.map Var.level) (b.map Var.level) := by
  induction a generalizing b with
  | nil => cases b <;> simp [cmp_term_loop, lexLevels]
  | cons x a ih =>
    cases b with
    | nil => simp [cmp_term_loop, lexLevels]
    | cons y b =>
      simp only [cmp_term_loop, lexLevels, List.map_cons, gt_iff_lt]
      rw [ih b]

theorem cmp_term_loop_append (a s : Term) (hs : s ≠ []) : cmp_term_loop (a ++ s) a = 1 := by
  induction a with
  | nil =>
    cases s with
    | nil => exact absurd rfl hs
    | cons y s => simp [cmp_term_loop]
  | cons x a ih => simp [cmp_term_loop, ih]

/-- C15: on non-empty terms whose variables have pairwise distinct levels,
`cmp_term` is a strict total order: it takes the values `1`, `0`, `-1`, swapping
the arguments negates it, it is `0` exactly for the same term, the relation
`cmp_term a b = 1` is transitive, and it is the lexicographic comparison of the
level sequences, in which a term is larger than each of its proper prefixes. -/
theorem cmp_term_strict_total_order (a b c : Term) (ha : a ≠ []) (hb : b ≠ [])
    (hd : LevelsDistinct (a ++ b)) :
    cmp_term a b = -cmp_term b a ∧
    (cmp_term a b = 0 ↔ a = b) ∧
    (cmp_term a b = 1 → cmp_term b c = 1 → cmp_term a c = 1) ∧
    (cmp_term a b = 1 ∨ cmp_term a b = 0 ∨ cmp_term a b = -1) ∧
    cmp_term a b = lexLevels (a.map Var.level) (b.map Var.level) ∧
    (∀ s : Term, s ≠ [] → cmp_term (a ++ s) a = 1) := by
  have hloop : cmp_term a b = cmp_term_loop a b := by
    by_cases hab : a = b
    · subst hab; simp [cmp_term, ha, cmp_term_loop_self]
    · simp [cmp_term, ha, hb, hab]
  have hloop2 : cmp_term b a = cmp_term_loop b a := by
    by_cases hab : b = a
    · subst hab; simp [cmp_term, hb, cmp_term_loop_self]
    · simp [cmp_term, ha, hb, hab]
  refine ⟨?_, ?_, cmp_term_trans a b c, cmp_term_vals a b, ?_, ?_⟩
  · rw [hloop, hloop2, cmp_term_loop_antisymm a b, neg_neg]
  · constructor
    · exact cmp_term_eq_zero (a ++ b) hd a b (fun v hv => by simp [hv]) (fun v hv => by simp [hv])
    · intro e; subst e; exact cmp_term_self a ha
  · rw [hloop, cmp_term_loop_eq_lexLevels]
  · intro s hs
    have h1 : a ++ s ≠ [] := by simp [ha]
    have h2 : a ++ s ≠ a := by
      intro e
      have := congrArg List.length e
      simp at this
      exact hs this
    simp [cmp_term, h1, ha, h2, cmp_term_loop_append a s hs]

/-- C15 witness: the terms `z*y` and `z*x`. -/
theorem cmp_term_strict_total_order_witness :
    LevelsDistinct ([⟨6, 6, false⟩, ⟨4, 4, false⟩] ++ [⟨6, 6, false⟩, ⟨2, 2, false⟩]) ∧
    cmp_term [⟨6, 6, false⟩, ⟨4, 4, false⟩] [⟨6, 6, false⟩, ⟨2, 2, false⟩]
      = -cmp_term [⟨6, 6, false⟩, ⟨2, 2, false⟩] [⟨6, 6, false⟩, ⟨4, 4, false⟩] ∧
    cmp_term [⟨6, 6, false⟩, ⟨4, 4, false⟩] [⟨6, 6, false⟩, ⟨2, 2, false⟩]
      = lexLevels [6, 4] [6, 2] :=
  ⟨by decide,
    (cmp_term_strict_total_order [⟨6, 6, false⟩, ⟨4, 4, false⟩]
      [⟨6, 6, false⟩, ⟨2, 2, false⟩] [] (by decide) (by decide) (by decide)).1,
    (cmp_term_strict_total_order [⟨6, 6, false⟩, ⟨4, 4, false⟩]
      [⟨6, 6, false⟩, ⟨2, 2, false⟩] [] (by decide) (by decide) (by decide)).2.2.2.2.1⟩

/-! ## `divide_by_term` and the round trip through `multiply_term` -/

theorem termSorted_cons (x : Var) (r : Term) :
    TermSorted (x :: r) ↔ (∀ y ∈ r, x.level > y.level) ∧ TermSorted r := by
  simp [TermSorted, List.pairwise_cons]

theorem termSorted_not_mem (x : Var) (r : Term) (h : TermSorted (x :: r)) : x ∉ r := by
  intro hx
  have := ((termSorted_cons x r).1 h).1 x hx
  omega

theorem foldl_snoc_eq (l acc : List Var) : l.foldl (fun s y => s ++ [y]) acc = acc ++ l := by
  induction l generalizing acc with
  | nil => simp
  | cons y l ih => simp [List.foldl_cons, ih]

theorem termWithout_nil (t : Term) : termWithout t [] = t := by
  simp [termWithout]

theorem termWithout_self (t : Term) : termWithout t t = [] := by
  simp only [termWithout, List.filter_eq_nil_iff]
  intro x hx
  simp [hx]

theorem termWithout_sorted (t u : Term) (h : TermSorted t) : TermSorted (termWithout t u) :=
  List.Pairwise.sublist (List.filter_sublist t) h

/-- The first loop of `divide_by_term` on sorted terms when every variable of
the divisor occurs in the dividend: the divisor is used up, and the stack
followed by the rest of the dividend holds the variables of the dividend that
are not in the divisor. -/
theorem divide_by_term_loop_sub (t u : Term) (vs : List Var) (ht : TermSorted t)
    (hu : TermSorted u) (hsub : ∀ x ∈ u, x ∈ t) :
    (divide_by_term_loop t u vs).2.1 = [] ∧
    (divide_by_term_loop t u vs).2.2 ++ (divide_by_term_loop t u vs).1
      = vs ++ termWithout t u := by
  induction t generalizing u vs with
  | nil =>
    cases u with
    | nil => simp [divide_by_term_loop, termWithout]
    | cons y u => exact absurd (hsub y (by simp)) (by simp)
  | cons x r ih =>
    obtain ⟨hxr, hr⟩ := (termSorted_cons x r).1 ht
    cases u with
    | nil => simp [divide_by_term_loop, termWithout]
    | cons y u =>
      obtain ⟨hyu, hu2⟩ := (termSorted_cons y u).1 hu
      simp only [divide_by_term_loop]
      split_ifs with hxy
      · -- x differs from y: x is kept
        have hy : y ∈ r := by
          rcases List.mem_cons.1 (hsub y (by simp)) with h3 | h3
          · exact absurd h3.symm hxy
          · exact h3
        have hxy2 : x.level > y.level := hxr y hy
        have hsub2 : ∀ z ∈ y :: u, z ∈ r := by
          intro z hz
          rcases List.mem_cons.1 hz with h3 | h3
          · rw [h3]; exact hy
          · have h1 := hsub z (by simp [h3])
            have h2 := hyu z h3
            rcases List.mem_cons.1 h1 with h4 | h4
            · subst h4; omega
            · exact h4
        obtain ⟨h1, h2⟩ := ih (y :: u) (vs ++ [x]) hr hu hsub2
        refine ⟨h1, ?_⟩
        rw [h2]
        have hxu : x ∉ y :: u := by
          intro hx
          rcases List.mem_cons.1 hx with h3 | h3
          · exact hxy h3
          · have := hyu x h3; omega
        have e : termWithout (x :: r) (y :: u) = x :: termWithout r (y :: u) := by
          simp only [termWithout]
          rw [List.filter_cons_of_pos]
          simp [hxu]
        rw [e]
        simp
      · -- x = y: both advance
        have hxy2 : x = y := not_not.mp hxy
        subst hxy2
        have hsub2 : ∀ z ∈ u, z ∈ r := by
          intro z hz
          have h1 := hsub z (by simp [hz])
          have h2 := hyu z hz
          rcases List.mem_cons.1 h1 with h3 | h3
          · subst h3; omega
          · exact h3
        obtain ⟨h1, h2⟩ := ih u vs hr hu2 hsub2
        refine ⟨h1, ?_⟩
        rw [h2]
        have hx : x ∉ r := termSorted_not_mem x r ht
        have e : termWithout (x :: r) (x :: u) = termWithout r u := by
          simp only [termWithout, List.filter_cons, List.mem_cons, true_or, not_true_eq_false,
            decide_False, Bool.false_eq_true, if_false]
          apply List.filter_congr
          intro z hz
          have hzx : z ≠ x := fun e => hx (e ▸ hz)
          simp [hzx]
        rw [e]

/-- When the first loop of `divide_by_term` uses up the divisor, every variable
of the divisor occurs in the dividend. -/
theorem divide_by_term_loop_exhausted (t u : Term) (vs : List Var)
    (h : (divide_by_term_loop t u vs).2.1 = []) : ∀ x ∈ u, x ∈ t := by
  induction t generalizing u vs with
  | nil =>
    cases u with
    | nil => simp
    | cons y u => simp [divide_by_term_loop] at h
  | cons x r ih =>
    cases u with
    | nil => simp
    | cons y u =>
      simp only [divide_by_term_loop] at h
      split_ifs at h with hxy
      · intro z hz
        exact List.mem_cons_of_mem _ (ih (y :: u) (vs ++ [x]) h z hz)
      · have hxy2 : x = y := not_not.mp hxy
        subst hxy2
        intro z hz
        rcases List.mem_cons.1 hz with h3 | h3
        · simp [h3]
        · exact List.mem_cons_of_mem _ (ih u vs h z h3)

theorem termSorted_nodup (t : Term) (h : TermSorted t) : t.Nodup := by
  unfold TermSorted at h
  exact List.Pairwise.imp (fun {a b} hab e => by rw [e] at hab; omega) h

/-- Two sorted terms with the same variables are the same term. -/
theorem termSorted_ext (a b : Term) (ha : TermSorted a) (hb : TermSorted b)
    (h : ∀ x, x ∈ a ↔ x ∈ b) : a = b := by
  have hp : a.Perm b :=
    (List.perm_ext_iff_of_nodup (termSorted_nodup a ha) (termSorted_nodup b hb)).2 h
  haveI : IsAntisymm Var (fun a b => a.level > b.level) :=
    ⟨fun a b h1 h2 => by omega⟩
  exact List.eq_of_perm_of_sorted hp ha hb

/-- The merge loop of `multiply_term` run on the two parts into which a
predicate splits a sorted term gives the term back. -/
theorem multiply_term_loop_filter (p : Var → Bool) (t : Term) (acc : List Var)
    (ht : TermSorted t) :
    multiply_term_loop (t.filter p) (t.filter (fun x => !p x)) acc = acc ++ t := by
  induction t generalizing acc with
  | nil => simp [multiply_term_loop]
  | cons x r ih =>
    obtain ⟨hxr, hr⟩ := (termSorted_cons x r).1 ht
    by_cases hp : p x = true
    · have e1 : (x :: r).filter p = x :: r.filter p := by simp [hp]
      have e2 : (x :: r).filter (fun x => !p x) = r.filter (fun x => !p x) := by simp [hp]
      rw [e1, e2]
      cases hB : r.filter (fun x => !p x) with
      | nil =>
        rw [multiply_term_loop]
        have := ih (acc ++ [x]) hr
        rw [hB] at this
        rw [this]; simp
      | cons b B =>
        have hb : b ∈ r := by
          have : b ∈ r.filter (fun x => !p x) := by rw [hB]; simp
          exact (List.mem_filter.1 this).1
        have hlt := hxr b hb
        rw [multiply_term_loop, if_pos hlt]
        have := ih (acc ++ [x]) hr
        rw [hB] at this
        rw [this]; simp
    · have hp2 : p x = false := by simpa using hp
      have e1 : (x :: r).filter p = r.filter p := by simp [hp2]
      have e2 : (x :: r).filter (fun x => !p x) = x :: r.filter (fun x => !p x) := by simp [hp2]
      rw [e1, e2]
      cases hA : r.filter p with
      | nil =>
        rw [multiply_term_loop]
        have := ih (acc ++ [x]) hr
        rw [hA] at this
        rw [this]; simp
      | cons a A =>
        have ha : a ∈ r := by
          have : a ∈ r.filter p := by rw [hA]; simp
          exact (List.mem_filter.1 this).1
        have hlt := hxr a ha
        rw [multiply_term_loop, if_neg (by omega), if_pos (by omega)]
        have := ih (acc ++ [x]) hr
        rw [hA] at this
        rw [this]; simp

/-- On sorted terms, `t` not null: when some variable of `u` is missing in `t`,
`divide_by_term(t, u)` returns `t` and clears the variable stack. -/
theorem divide_by_term_of_not_sub (t u : Term) (ht : t ≠ []) (hex : ∃ x ∈ u, x ∉ t) :
    divide_by_term t u = .ok (t, []) := by
  obtain ⟨x, hxu, hxt⟩ := hex
  have hne : (divide_by_term_loop t u []).2.1 ≠ [] := fun h =>
    hxt (divide_by_term_loop_exhausted t u [] h x hxu)
  unfold divide_by_term
  rcases hl : divide_by_term_loop t u [] with ⟨tmp, rest1, vs⟩
  rw [hl] at hne
  simp only at hne ⊢
  rw [if_pos hne, if_neg ht]
  rfl

/-- On sorted terms: when every variable of `u` occurs in `t`,
`divide_by_term(t, u)` returns the variables of `t` that are not in `u`. -/
theorem divide_by_term_of_sub (t u : Term) (hst : TermSorted t) (hsu : TermSorted u)
    (hsub : ∀ x ∈ u, x ∈ t) : divide_by_term t u = .ok (termWithout t u, []) := by
  obtain ⟨h1, h2⟩ := divide_by_term_loop_sub t u [] hst hsu hsub
  unfold divide_by_term
  rcases hl : divide_by_term_loop t u [] with ⟨tmp, rest1, vs⟩
  rw [hl] at h1 h2
  simp only at h1 h2 ⊢
  rw [if_neg (by simp [h1]), build_term_from_stack_eq, foldl_snoc_eq, h2]
  simp

theorem mem_termWithout (t u : Term) (x : Var) : x ∈ termWithout t u ↔ x ∈ t ∧ x ∉ u := by
  simp [termWithout, List.mem_filter]

/-- C17: for a term `t` (an object, not the null pointer) and a term `u`, both
sorted: if some variable of `u` does not occur in `t`, `divide_by_term(t, u)`
returns `t` itself and leaves the variable stack empty; otherwise it returns
the term made of exactly the variables of `t` that are not in `u`, in the order
of `t` (decreasing level), which is the empty term when `u = t`. -/
theorem divide_by_term_sorted (t u : Term) (ht : t ≠ []) (hst : TermSorted t)
    (hsu : TermSorted u) :
    ((∃ x ∈ u, x ∉ t) → divide_by_term t u = .ok (t, [])) ∧
    ((∀ x ∈ u, x ∈ t) →
      divide_by_term t u = .ok (termWithout t u, []) ∧
      (∀ x, x ∈ termWithout t u ↔ x ∈ t ∧ x ∉ u) ∧
      TermSorted (termWithout t u) ∧ (u = t → termWithout t u = [])) :=
  ⟨divide_by_term_of_not_sub t u ht,
    fun hsub => ⟨divide_by_term_of_sub t u hst hsu hsub, mem_termWithout t u,
      termWithout_sorted t u hst, fun e => e ▸ termWithout_self t⟩⟩

/-- C17 witness: `z*y*x` divided by `y`, and by `w` which does not occur. -/
theorem divide_by_term_sorted_witness :
    divide_by_term [⟨6, 6, false⟩, ⟨4, 4, false⟩, ⟨2, 2, false⟩] [⟨4, 4, false⟩]
      = .ok ([⟨6, 6, false⟩, ⟨2, 2, false⟩], []) ∧
    divide_by_term [⟨6, 6, false⟩, ⟨4, 4, false⟩, ⟨2, 2, false⟩] [⟨8, 8, false⟩]
      = .ok ([⟨6, 6, false⟩, ⟨4, 4, false⟩, ⟨2, 2, false⟩], []) :=
  ⟨((divide_by_term_sorted [⟨6, 6, false⟩, ⟨4, 4, false⟩, ⟨2, 2, false⟩] [⟨4, 4, false⟩]
      (by decide) (by decide) (by decide)).2 (by decide)).1,
    (divide_by_term_sorted [⟨6, 6, false⟩, ⟨4, 4, false⟩, ⟨2, 2, false⟩] [⟨8, 8, false⟩]
      (by decide) (by decide) (by decide)).1 ⟨⟨8, 8, false⟩, by decide, by decide⟩⟩

/-- C16 counterexample: for `t = u = x` every variable of `u` occurs in `t`,
`divide_by_term(t, u)` is the empty (null) term, and `multiply_term` of the null
term and `u` is the null term, not `t`. -/
theorem multiply_divide_counterexample :
    TermSorted [⟨2, 2, false⟩] ∧
    Term.contains_subterm [⟨2, 2, false⟩] [⟨2, 2, false⟩] = true ∧
    divide_by_term [⟨2, 2, false⟩] [⟨2, 2, false⟩] = .ok ([], []) ∧
    multiply_term [] [⟨2, 2, false⟩] = [] ∧
    multiply_term [] [⟨2, 2, false⟩] ≠ [⟨2, 2, false⟩] := by
  refine ⟨by decide, by decide, rfl, by decide, by decide⟩

/-- C16 (amended): for sorted terms `t` and `u`, `u` not empty, every variable
of `u` occurring in `t` and `u` not `t` itself, the quotient
`divide_by_term(t, u)` is a non-empty term and `multiply_term` of the quotient
and `u` is the term `t`. -/
theorem multiply_divide_round_trip (t u : Term) (hst : TermSorted t) (hsu : TermSorted u)
    (hu : u ≠ []) (hsub : ∀ x ∈ u, x ∈ t) (hne : u ≠ t) :
    ∃ q, divide_by_term t u = .ok (q, []) ∧ q ≠ [] ∧ multiply_term q u = t := by
  have ht : t ≠ [] := by
    intro e
    cases u with
    | nil => exact hu rfl
    | cons y u => rw [e] at hsub; exact absurd (hsub y (by simp)) (by simp)
  have hq := divide_by_term_of_sub t u hst hsu hsub
  have hmem := mem_termWithout t u
  have hq0 : termWithout t u ≠ [] := by
    intro e
    apply hne
    apply termSorted_ext u t hsu hst
    intro x
    constructor
    · exact hsub x
    · intro hx
      by_contra hxu
      have : x ∈ termWithout t u := (hmem x).2 ⟨hx, hxu⟩
      rw [e] at this
      simp at this
  have hqu : termWithout t u ≠ u := by
    intro e
    cases hq' : termWithout t u with
    | nil => exact hq0 hq'
    | cons y r =>
      have hy : y ∈ termWithout t u := by rw [hq']; simp
      have hy2 : y ∈ u := by rw [← e]; exact hy
      exact ((hmem y).1 hy).2 hy2
  have hu2 : t.filter (fun x => !decide (x ∉ u)) = u := by
    apply termSorted_ext _ u (List.Pairwise.sublist (List.filter_sublist t) hst) hsu
    intro x
    simp only [List.mem_filter, Bool.not_eq_true', decide_eq_false_iff_not, not_not]
    exact ⟨fun h => h.2, fun h => ⟨hsub x h, h⟩⟩
  refine ⟨termWithout t u, hq, hq0, ?_⟩
  unfold multiply_term
  rw [if_neg (by simp [hq0, hu]), if_neg hqu, build_term_from_stack_eq]
  have := multiply_term_loop_filter (fun x => decide (x ∉ u)) t [] hst
  rw [hu2] at this
  simpa [termWithout] using this

/-- C16 (amended) witness: `t = z*y*x` and `u = y`. -/
theorem multiply_divide_round_trip_witness :
    ∃ q, divide_by_term [⟨6, 6, false⟩, ⟨4, 4, false⟩, ⟨2, 2, false⟩] [⟨4, 4, false⟩]
        = .ok (q, []) ∧ q ≠ [] ∧
      multiply_term q [⟨4, 4, false⟩] = [⟨6, 6, false⟩, ⟨4, 4, false⟩, ⟨2, 2, false⟩] :=
  multiply_divide_round_trip [⟨6, 6, false⟩, ⟨4, 4, false⟩, ⟨2, 2, false⟩] [⟨4, 4, false⟩]
    (by decide) (by decide) (by decide) (by decide) (by decide)

/-! ## The coefficients of `mod_poly` -/

theorem bitcnt_natCast (n : Nat) (hn : n < 2 ^ 31) : bitcnt (n : Int) = n := by
  unfold bitcnt
  have h : ((n : Int) % 2 ^ 64) = (n : Int) := by
    apply Int.emod_eq_of_lt
    · omega
    · have : (n : Int) < 2 ^ 31 := by exact_mod_cast hn
      omega
  rw [h]
  simp

/-- The truncated remainder modulo a positive `b`: congruent to the dividend,
of absolute value below `b`, zero exactly for the multiples of `b`, and of the
sign of the dividend otherwise. -/
theorem tmod_properties (c b : Int) (hb : 0 < b) :
    Int.tmod c b ≡ c [ZMOD b] ∧ |Int.tmod c b| < b ∧ (Int.tmod c b = 0 ↔ b ∣ c) ∧
    (0 < c → 0 ≤ Int.tmod c b) ∧ (c < 0 → Int.tmod c b ≤ 0) := by
  have hpos : ∀ a : Int, 0 ≤ a → 0 ≤ Int.tmod a b ∧ Int.tmod a b < b := fun a ha =>
    ⟨Int.tmod_nonneg b ha, Int.tmod_lt_of_pos a hb⟩
  refine ⟨?_, ?_, ?_, ?_, ?_⟩
  · have h := Int.tmod_add_tdiv c b
    apply Int.ModEq.symm
    rw [Int.modEq_iff_dvd]
    exact ⟨-(c.tdiv b), by linarith⟩
  · rcases le_or_lt 0 c with hc | hc
    · obtain ⟨h1, h2⟩ := hpos c hc
      rw [abs_of_nonneg h1]; exact h2
    · obtain ⟨h1, h2⟩ := hpos (-c) (by omega)
      rw [tmod_neg_left] at h1 h2
      rw [abs_of_nonpos (by omega)]; exact h2
  · exact Int.dvd_iff_tmod_eq_zero.symm
  · intro hc; exact (hpos c (by omega)).1
  · intro hc
    have := (hpos (-c) (by omega)).1
    rw [tmod_neg_left] at this
    omega

/-- C11: `mod_poly(p, n)` keeps, in their order, exactly the monomials of `p`
whose coefficient is not divisible by `2 ^ n`, each with the same term and with
the truncated remainder `r` of its coefficient `c` as coefficient; `r` is
congruent to `c` modulo `2 ^ n`, has absolute value below `2 ^ n` and the sign
of `c` (it is not moved into `[0, 2 ^ n)` when `c` is negative). -/
theorem mod_poly_coefficients (p : Option Polynomial) (n : Nat) (hn : n < 2 ^ 31) :
    mons (mod_poly p (n : Int))
      = ((mons p).filter (fun m => decide (¬ (2 : Int) ^ n ∣ m.coeff))).map
          (fun m => Monomial.mk (Int.tmod m.coeff (2 ^ n)) m.term) ∧
    ∀ m ∈ mons p, ¬ (2 : Int) ^ n ∣ m.coeff →
      Int.tmod m.coeff (2 ^ n) ≡ m.coeff [ZMOD 2 ^ n] ∧
      |Int.tmod m.coeff (2 ^ n)| < 2 ^ n ∧
      Int.sign (Int.tmod m.coeff (2 ^ n)) = Int.sign m.coeff := by
  have hb : (0 : Int) < 2 ^ n := by positivity
  constructor
  · cases p with
    | none => rfl
    | some a =>
      rw [mod_poly_some, mons_build_poly, List.reverse_reverse, bitcnt_natCast n hn]
      simp only [modMons, mons]
      congr 1
      apply List.filter_congr
      intro m _
      simp only [ne_eq, decide_not, Int.dvd_iff_tmod_eq_zero]
  · intro m _ hdiv
    obtain ⟨h1, h2, h3, h4, h5⟩ := tmod_properties m.coeff (2 ^ n) hb
    refine ⟨h1, h2, ?_⟩
    have hne : Int.tmod m.coeff (2 ^ n) ≠ 0 := fun e => hdiv (h3.1 e)
    rcases lt_trichotomy m.coeff 0 with hc | hc | hc
    · have := h5 hc
      rw [Int.sign_eq_neg_one_of_neg hc, Int.sign_eq_neg_one_of_neg (by omega)]
    · rw [hc] at hdiv; exact absurd (dvd_zero _) hdiv
    · have := h4 hc
      rw [Int.sign_eq_one_of_pos hc, Int.sign_eq_one_of_pos (by omega)]

/-- C11 witness: `mod_poly(5*y - 5*x + 8, 2)` is `y - x`. -/
theorem mod_poly_coefficients_witness :
    mons (mod_poly (some ⟨[⟨5, [⟨4, 4, false⟩]⟩, ⟨-5, [⟨2, 2, false⟩]⟩, ⟨8, []⟩], 1⟩) 2)
      = [⟨1, [⟨4, 4, false⟩]⟩, ⟨-1, [⟨2, 2, false⟩]⟩] :=
  (mod_poly_coefficients (some ⟨[⟨5, [⟨4, 4, false⟩]⟩, ⟨-5, [⟨2, 2, false⟩]⟩, ⟨8, []⟩], 1⟩) 2
    (by decide)).1.trans (by decide)

/-! ## `divide_poly_by_term` -/

theorem term_contains_iff (t : Term) (v : Var) : Term.contains t v = true ↔ v ∈ t := by
  induction t with
  | nil => simp [Term.contains]
  | cons x r ih =>
    simp only [Term.contains, List.mem_cons]
    split_ifs with h
    · simp [h]
    · rw [ih]
      constructor
      · exact fun h1 => Or.inr h1
      · rintro (h1 | h1)
        · exact absurd h1.symm h
        · exact h1

theorem term_contains_subterm_iff (s t : Term) :
    Term.contains_subterm s t = true ↔ ∀ x ∈ t, x ∈ s := by
  induction t with
  | nil => simp [Term.contains_subterm]
  | cons x r ih =>
    simp only [Term.contains_subterm, List.mem_cons, forall_eq_or_imp]
    by_cases h : Term.contains s x = true
    · simp only [h, Bool.not_true, Bool.false_eq_true, if_false]
      rw [ih]
      exact ⟨fun h1 => ⟨(term_contains_iff s x).1 h, h1⟩, fun h1 => h1.2⟩
    · have h2 : x ∉ s := fun hx => h ((term_contains_iff s x).2 hx)
      simp [h, h2]

theorem divide_by_var_eq (s : Term) (v : Var) : divide_by_var s v = termWithout s [v] := by
  have key : ∀ (l acc : List Var),
      l.foldl (fun vs x => if x ≠ v then vs ++ [x] else vs) acc
        = acc ++ l.filter (fun x => decide (x ∉ [v])) := by
    intro l
    induction l with
    | nil => intro acc; simp
    | cons y l ih =>
      intro acc
      rw [List.foldl_cons, ih]
      by_cases hy : y = v
      · simp [hy]
      · simp [hy]
  rw [divide_by_var, build_term_from_stack_eq, key]
  simp [termWithout]

/-- A sorted term that is below the single variable `v` in the term order does
not contain `v`. -/
theorem not_mem_of_cmp_term_var (s : Term) (v : Var) (hs : TermSorted s)
    (h : cmp_term s [v] = -1) : v ∉ s := by
  cases s with
  | nil => simp
  | cons a r =>
    obtain ⟨har, _⟩ := (termSorted_cons a r).1 hs
    have hlt : a.level < v.level := by
      by_cases e : a :: r = [v]
      · rw [e, cmp_term_self _ (by simp)] at h
        exact absurd h (by decide)
      · have h2 : cmp_term_loop (a :: r) [v] = -1 := by
          simpa [cmp_term, e] using h
        simp only [cmp_term_loop] at h2
        split_ifs at h2 with h3 h4
        · exact h4
        · cases r with
          | nil => simp [cmp_term_loop] at h2
          | cons b r => simp [cmp_term_loop] at h2
    intro hv
    rcases List.mem_cons.1 hv with h1 | h1
    · rw [h1] at hlt; omega
    · have := har v h1; omega

theorem quotMons_cons_neg (t : Term) (m : Monomial) (l : List Monomial)
    (h : ¬ ∀ x ∈ t, x ∈ m.term) : quotMons t (m :: l) = quotMons t l := by
  simp only [quotMons]
  rw [List.filter_cons_of_neg (by simpa using h)]

theorem quotMons_cons_pos (t : Term) (m : Monomial) (l : List Monomial)
    (h : ∀ x ∈ t, x ∈ m.term) :
    quotMons t (m :: l) = Monomial.mk m.coeff (termWithout m.term t) :: quotMons t l := by
  simp only [quotMons]
  rw [List.filter_cons_of_pos (by simpa using h), List.map_cons]

theorem quotMons_eq_nil (t : Term) (l : List Monomial)
    (h : ∀ m ∈ l, ¬ ∀ x ∈ t, x ∈ m.term) : quotMons t l = [] := by
  induction l with
  | nil => rfl
  | cons m l ih =>
    rw [quotMons_cons_neg t m l (h m (by simp))]
    exact ih (fun e he => h e (List.mem_cons_of_mem _ he))

/-- In a normal form with sorted terms, no monomial after one that is below
`v` or equal to `v` contains `v`. -/
theorem quotMons_tail_nil (v : Var) (m : Monomial) (l : List Monomial)
    (hnf : NormalForm (m :: l)) (hs : TermsSorted (m :: l))
    (h : cmp_term m.term [v] = -1 ∨ m.term = [v]) : quotMons [v] l = [] := by
  apply quotMons_eq_nil
  intro e he hc
  have hv : v ∈ e.term := hc v (by simp)
  have h1 : cmp_term m.term e.term = 1 := ((normalForm_cons m l).1 hnf).2.1 e he
  have h2 : cmp_term [v] e.term = 1 := by
    rcases h with h | h
    · exact cmp_term_trans _ _ _ (cmp_term_neg_flip _ _ (by simp) h) h1
    · rw [← h]; exact h1
  exact not_mem_of_cmp_term_var e.term v (hs e (List.mem_cons_of_mem _ he))
    (cmp_term_asymm _ _ h2) hv

/-- The loop of `divide_by_var` on a normal form with sorted terms pushes the
quotient by the variable: its early exits skip no monomial that contains the
variable. -/
theorem divide_by_var_poly_loop_eq (v : Var) (l : List Monomial) (st : MStack)
    (hnf : NormalForm l) (hs : TermsSorted l) :
    divide_by_var_poly_loop [v] v l st = (quotMons [v] l).reverse ++ st := by
  induction l generalizing st with
  | nil => simp [divide_by_var_poly_loop, quotMons]
  | cons m l ih =>
    obtain ⟨hm0, hml, hl⟩ := (normalForm_cons m l).1 hnf
    have hsl : TermsSorted l := fun e he => hs e (List.mem_cons_of_mem _ he)
    have hsm : TermSorted m.term := hs m (by simp)
    simp only [divide_by_var_poly_loop]
    by_cases h1 : m.term = []
    · rw [if_pos h1]
      have hl0 : l = [] := normalForm_const_last m l hnf h1
      subst hl0
      rw [quotMons_cons_neg [v] m [] (by simp [h1])]
      simp [quotMons]
    rw [if_neg h1]
    by_cases h2 : cmp_term m.term [v] = -1
    · rw [if_pos h2]
      have hv : v ∉ m.term := not_mem_of_cmp_term_var m.term v hsm h2
      rw [quotMons_cons_neg [v] m l (by simpa using hv),
        quotMons_tail_nil v m l hnf hs (Or.inl h2)]
      simp
    rw [if_neg h2]
    by_cases h3 : m.term.contains v = true
    · have hv : v ∈ m.term := (term_contains_iff _ _).1 h3
      rw [if_pos h3, quotMons_cons_pos [v] m l (by simpa using hv), divide_by_var_eq]
      by_cases h4 : termWithout m.term [v] = []
      · rw [if_neg (by simpa using h4)]
        have hmv : m.term = [v] := by
          apply termSorted_ext _ _ hsm (by simp [TermSorted])
          intro x
          constructor
          · intro hx
            by_contra hxv
            have : x ∈ termWithout m.term [v] := by
              simp only [termWithout, List.mem_filter]
              exact ⟨hx, by simpa using hxv⟩
            rw [h4] at this
            simp at this
          · intro hx
            simp only [List.mem_singleton] at hx
            rw [hx]; exact hv
        rw [quotMons_tail_nil v m l hnf hs (Or.inr hmv), h4]
        simp [push_mstack_end, hm0]
      · rw [if_pos (by simpa using h4), ih _ hl hsl]
        simp [push_mstack_end, hm0]
    · have hv : v ∉ m.term := fun hx => h3 ((term_contains_iff _ _).2 hx)
      rw [if_neg h3, quotMons_cons_neg [v] m l (by simpa using hv), ih _ hl hsl]

/-- One pass of the loop body of `divide_poly_by_term` for a sorted term `t`
that is not the constant. -/
theorem divide_poly_by_term_step_eq (t : Term) (ht : t ≠ []) (hts : TermSorted t)
    (m : Monomial) (st : MStack) (hs : TermSorted m.term) :
    divide_poly_by_term_step t st m
      = .ok (if ∀ x ∈ t, x ∈ m.term then
          push_mstack_end st { coeff := m.coeff, term := termWithout m.term t }
        else st) := by
  unfold divide_poly_by_term_step
  by_cases h1 : m.term = []
  · have hc : ¬ ∀ x ∈ t, x ∈ m.term := by
      intro h
      cases t with
      | nil => exact ht rfl
      | cons y t => have := h y (by simp); rw [h1] at this; simp at this
    rw [if_pos h1, if_neg hc]; rfl
  rw [if_neg h1]
  by_cases h2 : m.term.contains_subterm t = true
  · have hsub : ∀ x ∈ t, x ∈ m.term := (term_contains_subterm_iff _ _).1 h2
    have hdiv := divide_by_term_of_sub m.term t hs hts hsub
    rw [if_pos h2, if_pos hsub, hdiv]; rfl
  · have hc : ¬ ∀ x ∈ t, x ∈ m.term := fun h => h2 ((term_contains_subterm_iff _ _).2 h)
    rw [if_neg h2, if_neg hc]; rfl

/-- The loop of `divide_poly_by_term` for a term of degree other than 1 pushes
the quotient by the term. -/
theorem divide_fold_eq (t : Term) (ht : t ≠ []) (hts : TermSorted t) (l : List Monomial)
    (st : MStack) (h0 : ∀ m ∈ l, m.coeff ≠ 0) (hs : TermsSorted l) :
    l.foldlM (divide_poly_by_term_step t) st = .ok ((quotMons t l).reverse ++ st) := by
  induction l generalizing st with
  | nil => simp [quotMons]; rfl
  | cons m l ih =>
    have hsl : TermsSorted l := fun e he => hs e (List.mem_cons_of_mem _ he)
    have h0l : ∀ e ∈ l, e.coeff ≠ 0 := fun e he => h0 e (List.mem_cons_of_mem _ he)
    rw [List.foldlM_cons, divide_poly_by_term_step_eq t ht hts m st (hs m (by simp)), ok_bind,
      ih _ h0l hsl]
    by_cases hc : ∀ x ∈ t, x ∈ m.term
    · rw [if_pos hc, quotMons_cons_pos t m l hc]
      simp [push_mstack_end, h0 m (by simp)]
    · rw [if_neg hc, quotMons_cons_neg t m l hc]

theorem termWithout_cons_pos (a : Var) (r t : Term) (h : a ∉ t) :
    termWithout (a :: r) t = a :: termWithout r t := by
  simp only [termWithout]
  rw [List.filter_cons_of_pos (by simpa using h)]

theorem termWithout_cons_neg (a : Var) (r t : Term) (h : a ∈ t) :
    termWithout (a :: r) t = termWithout r t := by
  simp only [termWithout]
  rw [List.filter_cons_of_neg (by simpa using h)]

theorem mem_of_mem_termWithout (x : Var) (s t : Term) (h : x ∈ termWithout s t) : x ∈ s :=
  (List.mem_filter.1 h).1

/-- Removing the variables of `t` from two sorted terms that agree on which
variables of `t` they contain keeps the first above the second. -/
theorem cmp_term_loop_without (t s1 s2 : Term) (h1 : TermSorted s1) (h2 : TermSorted s2)
    (hd : LevelsDistinct (s1 ++ s2)) (hiff : ∀ x ∈ t, x ∈ s1 ↔ x ∈ s2)
    (h : cmp_term_loop s1 s2 = 1) :
    termWithout s1 t ≠ [] ∧ cmp_term_loop (termWithout s1 t) (termWithout s2 t) = 1 := by
  induction s1 generalizing s2 with
  | nil => cases s2 <;> simp [cmp_term_loop] at h
  | cons a r1 ih =>
    obtain ⟨ha, hr1⟩ := (termSorted_cons a r1).1 h1
    cases s2 with
    | nil =>
      have e : termWithout (a :: r1) t = a :: r1 := by
        simp only [termWithout, List.filter_eq_self]
        intro x hx
        have : x ∉ t := fun hxt => by simpa using (hiff x hxt).1 hx
        simpa using this
      rw [e]
      simp [termWithout, cmp_term_loop]
    | cons b r2 =>
      obtain ⟨hb, hr2⟩ := (termSorted_cons b r2).1 h2
      simp only [cmp_term_loop] at h
      split_ifs at h with h3 h4
      · -- the head of the first term is above the second term
        have hat : a ∉ t := by
          intro hat
          have := (hiff a hat).1 (by simp)
          rcases List.mem_cons.1 this with h5 | h5
          · rw [h5] at h3; omega
          · have := hb a h5; omega
        rw [termWithout_cons_pos a r1 t hat]
        refine ⟨by simp, ?_⟩
        cases hq : termWithout (b :: r2) t with
        | nil => simp [cmp_term_loop]
        | cons c q =>
          have hc : c ∈ b :: r2 := mem_of_mem_termWithout c _ t (by rw [hq]; simp)
          have hcl : a.level > c.level := by
            rcases List.mem_cons.1 hc with h5 | h5
            · rw [h5]; exact h3
            · have := hb c h5; omega
          simp [cmp_term_loop, hcl]
      · -- equal levels: the same head variable
        have hab : a = b := hd a (by simp) b (by simp) (by omega)
        subst hab
        have hd2 : LevelsDistinct (r1 ++ r2) := by
          intro v hv w hw hvw
          exact hd v (by
            rcases List.mem_append.1 hv with h5 | h5
            · simp [h5]
            · simp [h5]) w (by
            rcases List.mem_append.1 hw with h5 | h5
            · simp [h5]
            · simp [h5]) hvw
        have hn1 : a ∉ r1 := termSorted_not_mem a r1 h1
        have hn2 : a ∉ r2 := termSorted_not_mem a r2 h2
        have hiff2 : ∀ x ∈ t, x ∈ r1 ↔ x ∈ r2 := by
          intro x hxt
          constructor
          · intro hx
            have := (hiff x hxt).1 (List.mem_cons_of_mem _ hx)
            rcases List.mem_cons.1 this with h5 | h5
            · rw [h5] at hx; exact absurd hx hn1
            · exact h5
          · intro hx
            have := (hiff x hxt).2 (List.mem_cons_of_mem _ hx)
            rcases List.mem_cons.1 this with h5 | h5
            · rw [h5] at hx; exact absurd hx hn2
            · exact h5
        obtain ⟨h5, h6⟩ := ih r2 hr1 hr2 hd2 hiff2 h
        by_cases hat : a ∈ t
        · rw [termWithout_cons_neg a r1 t hat, termWithout_cons_neg a r2 t hat]
          exact ⟨h5, h6⟩
        · rw [termWithout_cons_pos a r1 t hat, termWithout_cons_pos a r2 t hat]
          refine ⟨by simp, ?_⟩
          simp [cmp_term_loop, h6]

theorem cmp_term_without (t s1 s2 : Term) (h1 : TermSorted s1) (h2 : TermSorted s2)
    (hd : LevelsDistinct (s1 ++ s2)) (ht1 : ∀ x ∈ t, x ∈ s1) (ht2 : ∀ x ∈ t, x ∈ s2)
    (hs2 : s2 ≠ []) (h : cmp_term s1 s2 = 1) :
    cmp_term (termWithout s1 t) (termWithout s2 t) = 1 := by
  have hs1 : s1 ≠ [] := cmp_term_one_ne_nil s1 s2 h
  have hne : s1 ≠ s2 := by intro e; subst e; exact cmp_term_self_ne_one s1 h
  have hl : cmp_term_loop s1 s2 = 1 := by simpa [cmp_term, hs1, hs2, hne] using h
  obtain ⟨h5, h6⟩ := cmp_term_loop_without t s1 s2 h1 h2 hd
    (fun x hx => ⟨fun _ => ht2 x hx, fun _ => ht1 x hx⟩) hl
  by_cases hq : termWithout s2 t = []
  · rw [hq]; exact cmp_term_nil_right _ h5
  · have hne2 : termWithout s1 t ≠ termWithout s2 t := by
      intro e
      rw [e, cmp_term_loop_self] at h6
      exact absurd h6 (by decide)
    simp [cmp_term, h5, hq, hne2, h6]

theorem mem_quotMons (t : Term) (l : List Monomial) (e : Monomial) (he : e ∈ quotMons t l) :
    ∃ m ∈ l, (∀ x ∈ t, x ∈ m.term) ∧ e = Monomial.mk m.coeff (termWithout m.term t) := by
  simp only [quotMons, List.mem_map, List.mem_filter, decide_eq_true_eq] at he
  obtain ⟨m, ⟨hm, hc⟩, rfl⟩ := he
  exact ⟨m, hm, hc, rfl⟩

/-- The quotient of a normal form with sorted terms by a non-constant term is
a normal form. -/
theorem quotMons_nf (t : Term) (ht : t ≠ []) (l : List Monomial) (hnf : NormalForm l)
    (hs : TermsSorted l) (hd : LevelsDistinct (varsOf l)) : NormalForm (quotMons t l) := by
  induction l with
  | nil => simp [quotMons, NormalForm]
  | cons m l ih =>
    obtain ⟨hm0, hml, hl⟩ := (normalForm_cons m l).1 hnf
    have hsl : TermsSorted l := fun e he => hs e (List.mem_cons_of_mem _ he)
    have hdl : LevelsDistinct (varsOf l) := by
      intro v hv w hw
      have hsub : ∀ x, x ∈ varsOf l → x ∈ varsOf (m :: l) := by
        intro x hx; simp only [varsOf, List.flatMap_cons, List.mem_append]; exact Or.inr hx
      exact hd v (hsub v hv) w (hsub w hw)
    have ih2 := ih hl hsl hdl
    by_cases hc : ∀ x ∈ t, x ∈ m.term
    · rw [quotMons_cons_pos t m l hc, normalForm_cons]
      refine ⟨hm0, ?_, ih2⟩
      intro e he
      obtain ⟨m2, hm2, hc2, rfl⟩ := mem_quotMons t l e he
      have hne : m2.term ≠ [] := by
        intro e0
        cases t with
        | nil => exact ht rfl
        | cons y t => have := hc2 y (by simp); rw [e0] at this; simp at this
      have hd2 : LevelsDistinct (m.term ++ m2.term) := by
        intro v hv w hw
        have h1 : ∀ x, x ∈ m.term ++ m2.term → x ∈ varsOf (m :: l) := by
          intro x hx
          rcases List.mem_append.1 hx with h5 | h5
          · exact mem_varsOf _ m x (by simp) h5
          · exact mem_varsOf _ m2 x (List.mem_cons_of_mem _ hm2) h5
        exact hd v (h1 v hv) w (h1 w hw)
      exact cmp_term_without t m.term m2.term (hs m (by simp))
        (hs m2 (List.mem_cons_of_mem _ hm2)) hd2 hc hc2 hne (hml m2 hm2)
    · rw [quotMons_cons_neg t m l hc]
      exact ih2

/-- C18: for a normal-form polynomial `p` (a polynomial object with sorted
terms, levels identifying its variables) and a sorted non-empty term `t`,
`divide_poly_by_term(p, t)` returns a normal-form polynomial whose monomials
are exactly the monomials `c * (s without the variables of t)` for the
monomials `c * s` of `p` whose term contains every variable of `t`, in the
order of `p`. This holds in the branch for a term of degree 1 too, so the early
exits of `divide_by_var` skip no monomial that contains the variable. -/
theorem divide_poly_by_term_exact (p : Polynomial) (t : Term) (hp : p.WF)
    (hs : TermsSorted p.mon) (hd : LevelsDistinct (varsOf p.mon)) (ht : t ≠ [])
    (hts : TermSorted t) :
    ∃ r, divide_poly_by_term (some p) t = .ok r ∧ PolyNF r ∧ mons r = quotMons t p.mon := by
  have hq := quotMons_nf t ht p.mon hp.2.1 hs hd
  refine ⟨build_poly (quotMons t p.mon).reverse, ?_, ?_, ?_⟩
  · unfold divide_poly_by_term
    rw [if_neg ht]
    split_ifs with h1
    · cases t with
      | nil => exact absurd rfl ht
      | cons v rest =>
        have hr : rest = [] := by
          simp only [Term.degree, List.length_cons] at h1
          exact List.length_eq_zero.1 (by omega)
        subst hr
        simp only [divide_by_var_poly, deref, ok_bind]
        rw [divide_by_var_poly_loop_eq v p.mon [] hp.2.1 hs, List.append_nil]
        rfl
    · simp only [deref, ok_bind]
      rw [divide_fold_eq t ht hts p.mon [] hp.2.1.1 hs, ok_bind, List.append_nil]
      rfl
  · exact build_poly_nf _ ((normalForm_iff_reverse _).1 hq)
  · rw [mons_build_poly, List.reverse_reverse]

/-- C18 witness: `z*y*x + 2*z*y + 3*y + 4` divided by `z*y` is `x + 2`, and
divided by `y` is `z*x + 2*z + 3`. -/
theorem divide_poly_by_term_exact_witness :
    (∃ r, divide_poly_by_term
        (some ⟨[⟨1, [⟨6, 6, false⟩, ⟨4, 4, false⟩, ⟨2, 2, false⟩]⟩,
          ⟨2, [⟨6, 6, false⟩, ⟨4, 4, false⟩]⟩, ⟨3, [⟨4, 4, false⟩]⟩, ⟨4, []⟩], 3⟩)
        [⟨6, 6, false⟩, ⟨4, 4, false⟩] = .ok r ∧ PolyNF r ∧
      mons r = [⟨1, [⟨2, 2, false⟩]⟩, ⟨2, []⟩]) ∧
    (∃ r, divide_poly_by_term
        (some ⟨[⟨1, [⟨6, 6, false⟩, ⟨4, 4, false⟩, ⟨2, 2, false⟩]⟩,
          ⟨2, [⟨6, 6, false⟩, ⟨4, 4, false⟩]⟩, ⟨3, [⟨4, 4, false⟩]⟩, ⟨4, []⟩], 3⟩)
        [⟨4, 4, false⟩] = .ok r ∧ PolyNF r ∧
      mons r = [⟨1, [⟨6, 6, false⟩, ⟨2, 2, false⟩]⟩, ⟨2, [⟨6, 6, false⟩]⟩, ⟨3, []⟩]) :=
  ⟨divide_poly_by_term_exact _ [⟨6, 6, false⟩, ⟨4, 4, false⟩] (by decide) (by decide)
      (by decide) (by decide) (by decide),
    divide_poly_by_term_exact _ [⟨4, 4, false⟩] (by decide) (by decide)
      (by decide) (by decide) (by decide)⟩

/-! ## `flip_var_in_poly` -/

theorem var_get_dual_dual (v : Var) : v.get_dual.get_dual = v := by
  cases v with
  | mk num level d =>
    cases d <;> simp [Var.get_dual]

theorem var_get_dual_ne (v : Var) : v.get_dual ≠ v := by
  cases v with
  | mk num level d =>
    cases d <;> simp [Var.get_dual]

theorem flipMons_nil (v : Var) : flipMons v [] = [] := rfl

theorem flipMons_cons_pos (v : Var) (m : Monomial) (l : List Monomial) (h : v ∈ m.term) :
    flipMons v (m :: l)
      = Monomial.mk (-m.coeff) (multiply_term_by_var (termWithout m.term [v]) v.get_dual)
        :: Monomial.mk m.coeff (termWithout m.term [v]) :: flipMons v l := by
  simp [flipMons, h]

theorem flipMons_cons_neg (v : Var) (m : Monomial) (l : List Monomial) (h : v ∉ m.term) :
    flipMons v (m :: l) = m :: flipMons v l := by
  simp [flipMons, h]

theorem flipMons_of_not_mem (v : Var) (l : List Monomial) (h : ∀ m ∈ l, v ∉ m.term) :
    flipMons v l = l := by
  induction l with
  | nil => rfl
  | cons m l ih =>
    rw [flipMons_cons_neg v m l (h m (by simp)),
      ih (fun e he => h e (List.mem_cons_of_mem _ he))]

/-- On monomials that do not contain `v` the loop of `flip_var_in_poly` pushes
every monomial unchanged. -/
theorem flip_loop_of_not_mem (tw : Int → List Var) (v : Var) (rv : Bool) (l : List Monomial)
    (st : MStack) (h : ∀ m ∈ l, v ∉ m.term) :
    flip_var_in_poly_loop tw v rv l st = l.foldl push_mstack st := by
  induction l generalizing st with
  | nil => rfl
  | cons m l ih =>
    have hl : ∀ e ∈ l, v ∉ e.term := fun e he => h e (List.mem_cons_of_mem _ he)
    have hm : v ∉ m.term := h m (by simp)
    unfold flip_var_in_poly_loop
    cases hmt : m.term with
    | nil => simp only [List.foldl_cons]; exact ih _ hl
    | cons x r =>
      simp only
      by_cases h1 : x.level < v.level
      · rw [if_pos h1]
      · have h2 : ¬ Term.contains (x :: r) v = true := by
          rw [hmt] at hm
          exact fun hc => hm ((term_contains_iff _ _).1 hc)
        rw [if_neg h1, if_neg h2, List.foldl_cons]
        exact ih _ hl

theorem not_mem_of_head_lt (v x : Var) (r : Term) (hs : TermSorted (x :: r))
    (hlt : x.level < v.level) : v ∉ x :: r := by
  obtain ⟨hx, _⟩ := (termSorted_cons x r).1 hs
  intro hv
  rcases List.mem_cons.1 hv with h | h
  · rw [h] at hlt; omega
  · have := hx v h; omega

theorem head_level_le_of_cmp (x y : Var) (r r2 : Term)
    (h : cmp_term (x :: r) (y :: r2) = 1) : y.level ≤ x.level := by
  by_cases e : x :: r = y :: r2
  · rw [e] at h; exact absurd h (cmp_term_self_ne_one _)
  · have h2 : cmp_term_loop (x :: r) (y :: r2) = 1 := by simpa [cmp_term, e] using h
    simp only [cmp_term_loop] at h2
    split_ifs at h2 with h3 h4
    · omega
    · omega

/-- In a normal form with sorted terms, once a monomial has a head variable
below `v`, neither it nor any later monomial contains `v`. -/
theorem not_mem_after_head_lt (v x : Var) (r : Term) (m : Monomial) (l : List Monomial)
    (hnf : NormalForm (m :: l)) (hs : TermsSorted (m :: l)) (hm : m.term = x :: r)
    (hlt : x.level < v.level) : ∀ e ∈ m :: l, v ∉ e.term := by
  intro e he
  rcases List.mem_cons.1 he with h | h
  · rw [h, hm]
    exact not_mem_of_head_lt v x r (hm ▸ hs m (by simp)) hlt
  · have hc := ((normalForm_cons m l).1 hnf).2.1 e h
    cases het : e.term with
    | nil => simp
    | cons y r2 =>
      rw [hm, het] at hc
      have := head_level_le_of_cmp x y r r2 hc
      exact not_mem_of_head_lt v y r2 (het ▸ hs e he) (by omega)

/-- The loop of `flip_var_in_poly` (with `rem_van` off) on a normal form with
sorted terms pushes, through `push_mstack`, the monomials of the sequence in
which `v` is replaced by `1 - dual(v)`. -/
theorem flip_loop_eq (tw : Int → List Var) (v : Var) (l : List Monomial) (st : MStack)
    (hnf : NormalForm l) (hs : TermsSorted l) :
    flip_var_in_poly_loop tw v false l st = (flipMons v l).foldl push_mstack st := by
  induction l generalizing st with
  | nil => rfl
  | cons m l ih =>
    have hl : NormalForm l := ((normalForm_cons m l).1 hnf).2.2
    have hsl : TermsSorted l := fun e he => hs e (List.mem_cons_of_mem _ he)
    unfold flip_var_in_poly_loop
    cases hmt : m.term with
    | nil =>
      simp only
      rw [flipMons_cons_neg v m l (by simp [hmt]), List.foldl_cons]
      exact ih _ hl hsl
    | cons x r =>
      simp only
      by_cases h1 : x.level < v.level
      · rw [if_pos h1,
          flipMons_of_not_mem v (m :: l) (not_mem_after_head_lt v x r m l hnf hs hmt h1)]
      · rw [if_neg h1]
        by_cases h2 : Term.contains (x :: r) v = true
        · have hv : v ∈ m.term := by rw [hmt]; exact (term_contains_iff _ _).1 h2
          rw [if_pos h2, flipMons_cons_pos v m l hv, List.foldl_cons, List.foldl_cons, ← hmt,
            divide_by_var_eq]
          simp only [Bool.false_and, Bool.not_false, if_true]
          exact ih _ hl hsl
        · have hv : v ∉ m.term := by
            rw [hmt]; exact fun hx => h2 ((term_contains_iff _ _).2 hx)
          rw [if_neg h2, flipMons_cons_neg v m l hv, List.foldl_cons]
          exact ih _ hl hsl


theorem termWithout_of_not_mem (s : Term) (v : Var) (h : v ∉ s) : termWithout s [v] = s := by
  simp only [termWithout, List.filter_eq_self]
  intro x hx
  have : x ≠ v := fun e => h (e ▸ hx)
  simpa using this

theorem not_mem_termWithout_single (s : Term) (v : Var) : v ∉ termWithout s [v] := by
  simp [termWithout, List.mem_filter]

/-- The value of a sorted term that contains `v` is the value of `v` times the
value of the term without `v`. -/
theorem term_eval_remove (σ : Var → Int) (s : Term) (v : Var) (hs : TermSorted s)
    (hv : v ∈ s) : Term.eval σ s = σ v * Term.eval σ (termWithout s [v]) := by
  induction s with
  | nil => simp at hv
  | cons a r ih =>
    obtain ⟨_, hr⟩ := (termSorted_cons a r).1 hs
    by_cases hav : a = v
    · subst hav
      rw [termWithout_cons_neg a r [a] (by simp),
        termWithout_of_not_mem r a (termSorted_not_mem a r hs), term_eval_cons]
    · have hvr : v ∈ r := by
        rcases List.mem_cons.1 hv with h | h
        · exact absurd h.symm hav
        · exact h
      rw [termWithout_cons_pos a r [v] (by simpa using hav), term_eval_cons, term_eval_cons,
        ih hr hvr]
      ring

theorem multiply_term_by_var_mem (t : Term) (w x : Var)
    (h : x ∈ multiply_term_by_var t w) : x ∈ t ∨ x = w := by
  unfold multiply_term_by_var at h
  split_ifs at h with h1 h2
  · simp [new_term] at h; exact Or.inr h
  · simp at h
  · rcases multiply_term_mem _ _ x h with h3 | h3
    · exact Or.inl h3
    · simp [new_term] at h3; exact Or.inr h3

theorem multiply_term_by_var_eval (σ : Var → Int) (hσ : ∀ v, σ v * σ v = σ v)
    (us : List Var) (hd : LevelsDistinct us) (t : Term) (w : Var) (ht : ∀ x ∈ t, x ∈ us)
    (hw : w ∈ us) (hn : w.get_dual ∉ t) :
    Term.eval σ (multiply_term_by_var t w) = Term.eval σ t * σ w := by
  unfold multiply_term_by_var
  by_cases h1 : t = []
  · rw [if_pos h1, h1]; simp [new_term, Term.eval]
  · have h2 : ¬ Term.contains t w.get_dual = true := fun hc => hn ((term_contains_iff _ _).1 hc)
    rw [if_neg h1, if_neg h2,
      multiply_term_eval σ hσ us hd t (new_term w []) h1 (by simp [new_term]) ht
        (by intro x hx; simp [new_term] at hx; rw [hx]; exact hw)]
    simp [new_term, Term.eval]

/-- The terms of the sequence with `v` replaced are made of variables of the
original sequence and of `dual(v)`, and none of them contains `v`. -/
theorem flipMons_terms (v : Var) (l : List Monomial) :
    TermsIn (fun t => (∀ x ∈ t, x ∈ v.get_dual :: varsOf l) ∧ v ∉ t) (flipMons v l) := by
  intro e he
  simp only [flipMons, List.mem_flatMap] at he
  obtain ⟨m, hm, he⟩ := he
  split_ifs at he with hv
  · simp only [List.mem_cons, List.mem_singleton, List.not_mem_nil, or_false] at he
    rcases he with h | h
    · rw [h]
      constructor
      · intro x hx
        rcases multiply_term_by_var_mem _ _ x hx with h1 | h1
        · exact List.mem_cons_of_mem _
            (mem_varsOf l m x hm (mem_of_mem_termWithout x _ _ h1))
        · simp [h1]
      · intro hx
        rcases multiply_term_by_var_mem _ _ v hx with h1 | h1
        · exact not_mem_termWithout_single m.term v h1
        · exact var_get_dual_ne v h1.symm
    · rw [h]
      constructor
      · intro x hx
        exact List.mem_cons_of_mem _
          (mem_varsOf l m x hm (mem_of_mem_termWithout x _ _ hx))
      · exact not_mem_termWithout_single m.term v
  · simp only [List.mem_singleton] at he
    rw [he]
    exact ⟨fun x hx => List.mem_cons_of_mem _ (mem_varsOf l m x hm hx), hv⟩

/-- Replacing `v` by `1 - dual(v)` keeps the value on Boolean assignments in
which the dual variable is the complement. -/
theorem flipMons_eval (σ : Var → Int) (hσ : BoolAssign σ) (v : Var)
    (hdual : σ v.get_dual = 1 - σ v) (l : List Monomial) (hs : TermsSorted l)
    (hd : LevelsDistinct (v.get_dual :: varsOf l)) :
    lin (Term.eval σ) (flipMons v l) = lin (Term.eval σ) l := by
  induction l with
  | nil => rfl
  | cons m l ih =>
    have hsl : TermsSorted l := fun e he => hs e (List.mem_cons_of_mem _ he)
    have hsub : ∀ x, x ∈ v.get_dual :: varsOf l → x ∈ v.get_dual :: varsOf (m :: l) := by
      intro x hx
      rcases List.mem_cons.1 hx with h | h
      · simp [h]
      · apply List.mem_cons_of_mem
        simp only [varsOf, List.flatMap_cons, List.mem_append]; exact Or.inr h
    have hdl : LevelsDistinct (v.get_dual :: varsOf l) :=
      fun a ha b hb => hd a (hsub a ha) b (hsub b hb)
    by_cases hv : v ∈ m.term
    · rw [flipMons_cons_pos v m l hv, lin_cons, lin_cons, lin_cons, ih hsl hdl]
      simp only
      rw [multiply_term_by_var_eval σ (boolAssign_idem σ hσ) _ hd _ _
          (fun x hx => List.mem_cons_of_mem _
            (mem_varsOf _ m x (by simp) (mem_of_mem_termWithout x _ _ hx)))
          (by simp)
          (by rw [var_get_dual_dual]; exact not_mem_termWithout_single m.term v),
        term_eval_remove σ m.term v (hs m (by simp)) hv, hdual]
      ring
    · rw [flipMons_cons_neg v m l hv, lin_cons, lin_cons, ih hsl hdl]

/-- Pushing the monomials of a normal form through `push_mstack` in their
order rebuilds the normal form. -/
theorem foldl_push_mstack_nf_id (T : Term → Prop) (hT : CmpFaithful T) (l : List Monomial)
    (hnf : NormalForm l) (hl : TermsIn T l) : l.foldl push_mstack [] = l.reverse := by
  obtain ⟨h1, _, h3⟩ := foldl_push_mstack_spec T hT l [] hl (fun e he => by simp at he)
    stackNF_nil
  have h4 := normalForm_unique _ l ((stackNF_iff_reverse _).1 h1) hnf (fun t => by
    rw [coeffAt_eq_lin, coeffAt_eq_lin, lin_reverse, h3, lin_nil]; ring)
  have h5 := congrArg List.reverse h4
  rw [List.reverse_reverse] at h5
  exact h5

/-- What `flip_var_in_poly` (with `rem_van` off, no proof logging) returns on a
normal-form polynomial object with sorted terms. -/
theorem flip_var_in_poly_spec (tw : Int → List Var) (p : Polynomial) (v : Var) (hp : p.WF)
    (hs : TermsSorted p.mon) (hd : LevelsDistinct (v.get_dual :: varsOf p.mon)) :
    ∃ r, flip_var_in_poly tw (some p) v false = .ok r ∧ PolyNF r ∧
      TermsIn (fun t => (∀ x ∈ t, x ∈ v.get_dual :: varsOf p.mon) ∧ v ∉ t) (mons r) ∧
      ∀ g, lin g (mons r) = lin g (flipMons v p.mon) := by
  have hT : CmpFaithful (fun t => (∀ x ∈ t, x ∈ v.get_dual :: varsOf p.mon) ∧ v ∉ t) :=
    fun a b ha hb h => cmpFaithful_of_levels _ hd a b ha.1 hb.1 h
  obtain ⟨h1, h2, h3⟩ := foldl_push_mstack_spec _ hT (flipMons v p.mon) []
    (flipMons_terms v p.mon) (fun e he => by simp at he) stackNF_nil
  refine ⟨build_poly ((flipMons v p.mon).foldl push_mstack []), ?_, build_poly_nf _ h1, ?_, ?_⟩
  · simp only [flip_var_in_poly, deref, ok_bind]
    rw [flip_loop_eq tw v p.mon [] hp.2.1 hs]
    rfl
  · intro m hm
    rw [mons_build_poly] at hm
    exact h2 m (by simpa using hm)
  · intro g
    rw [mons_build_poly, lin_reverse, h3, lin_nil]; ring

/-- C13: for a normal-form polynomial `p` (a polynomial object with sorted
terms, levels identifying the variables involved) and a variable `v`,
`flip_var_in_poly(p, v, false)` without proof logging returns the normal form of
`p` with `v` replaced by `1 - dual(v)`: the result is in normal form, none of its
monomials contains `v`, its coefficients are those of the sequence in which each
`c * v * t` is replaced by `-c * dual(v) * t + c * t`, and it has the value of
`p` on every Boolean assignment with `dual(v) = 1 - v`. -/
theorem flip_var_in_poly_correct (tw : Int → List Var) (p : Polynomial) (v : Var)
    (hp : p.WF) (hs : TermsSorted p.mon)
    (hd : LevelsDistinct (v.get_dual :: varsOf p.mon)) :
    ∃ r, flip_var_in_poly tw (some p) v false = .ok r ∧ PolyNF r ∧
      (∀ m ∈ mons r, v ∉ m.term) ∧
      (∀ t, coeffAt (mons r) t = coeffAt (flipMons v p.mon) t) ∧
      ∀ σ, BoolAssign σ → σ v.get_dual = 1 - σ v → evalPoly σ r = evalPoly σ (some p) := by
  obtain ⟨r, hr, hnf, hT, hlin⟩ := flip_var_in_poly_spec tw p v hp hs hd
  refine ⟨r, hr, hnf, fun m hm => (hT m hm).2, fun t => ?_, fun σ hσ hdual => ?_⟩
  · rw [coeffAt_eq_lin, coeffAt_eq_lin, hlin]
  · simp only [evalPoly, evalMons_eq_lin]
    rw [hlin, flipMons_eval σ hσ v hdual p.mon hs hd]
    rfl

/-- C13 witness: flipping `y` in `2*z*y + y + 3*x`. -/
theorem flip_var_in_poly_correct_witness :
    ∃ r, flip_var_in_poly (fun _ => [])
        (some ⟨[⟨2, [⟨6, 6, false⟩, ⟨4, 4, false⟩]⟩, ⟨1, [⟨4, 4, false⟩]⟩,
          ⟨3, [⟨2, 2, false⟩]⟩], 2⟩) ⟨4, 4, false⟩ false = .ok r ∧ PolyNF r ∧
      (∀ m ∈ mons r, (⟨4, 4, false⟩ : Var) ∉ m.term) :=
  let h := flip_var_in_poly_correct (fun _ => [])
    ⟨[⟨2, [⟨6, 6, false⟩, ⟨4, 4, false⟩]⟩, ⟨1, [⟨4, 4, false⟩]⟩, ⟨3, [⟨2, 2, false⟩]⟩], 2⟩
    ⟨4, 4, false⟩ (by decide) (by decide) (by decide)
  ⟨h.choose, h.choose_spec.1, h.choose_spec.2.1, h.choose_spec.2.2.1⟩

/-- C12 counterexample: `p = x` is in normal form; flipping `x` gives
`-dual(x) + 1`, and flipping `x` again leaves `-dual(x) + 1`, which is not `p`. -/
theorem flip_var_in_poly_round_trip_counterexample :
    Polynomial.WF ⟨[⟨1, [⟨2, 2, false⟩]⟩], 1⟩ ∧
    flip_var_in_poly (fun _ => []) (some ⟨[⟨1, [⟨2, 2, false⟩]⟩], 1⟩) ⟨2, 2, false⟩ false
      = .ok (some ⟨[⟨-1, [⟨2, 3, true⟩]⟩, ⟨1, []⟩], 1⟩) ∧
    flip_var_in_poly (fun _ => []) (some ⟨[⟨-1, [⟨2, 3, true⟩]⟩, ⟨1, []⟩], 1⟩)
      ⟨2, 2, false⟩ false = .ok (some ⟨[⟨-1, [⟨2, 3, true⟩]⟩, ⟨1, []⟩], 1⟩) ∧
    (some ⟨[⟨-1, [⟨2, 3, true⟩]⟩, ⟨1, []⟩], 1⟩ : Option Polynomial)
      ≠ some ⟨[⟨1, [⟨2, 2, false⟩]⟩], 1⟩ := by
  refine ⟨by decide, rfl, rfl, by decide⟩

/-- A polynomial object in normal form none of whose monomials contains `v` is
returned unchanged by `flip_var_in_poly`. -/
theorem flip_var_in_poly_of_not_mem (tw : Int → List Var) (us : List Var)
    (hd : LevelsDistinct us) (a : Polynomial) (v : Var) (ha : a.WF)
    (hT : TermsIn (fun t => ∀ x ∈ t, x ∈ us) a.mon) (hv : ∀ m ∈ a.mon, v ∉ m.term) :
    flip_var_in_poly tw (some a) v false = .ok (some a) := by
  simp only [flip_var_in_poly, deref, ok_bind]
  rw [flip_loop_of_not_mem tw v false a.mon [] hv,
    foldl_push_mstack_nf_id _ (cmpFaithful_of_levels us hd) a.mon ha.2.1 hT,
    build_poly_ne_nil _ (by simpa using ha.1)]
  simp only [List.reverse_reverse]
  rw [build_poly_deg_eq, ← ha.2.2]
  rfl

/-- C12 (amended): flipping the same variable twice is flipping it once. For a
normal-form polynomial object `p` with sorted terms, if `flip_var_in_poly(p, v,
false)` is not the zero polynomial, flipping `v` in it again returns it
unchanged; and it is `p` itself when `v` does not occur in `p`. -/
theorem flip_var_in_poly_twice (tw : Int → List Var) (p : Polynomial) (v : Var) (hp : p.WF)
    (hs : TermsSorted p.mon) (hd : LevelsDistinct (v.get_dual :: varsOf p.mon)) :
    ∃ r, flip_var_in_poly tw (some p) v false = .ok r ∧
      (r ≠ none → flip_var_in_poly tw r v false = .ok r) ∧
      ((∀ m ∈ p.mon, v ∉ m.term) → r = some p) := by
  obtain ⟨r, hr, hnf, hT, _⟩ := flip_var_in_poly_spec tw p v hp hs hd
  refine ⟨r, hr, fun hne => ?_, fun hv => ?_⟩
  · cases r with
    | none => exact absurd rfl hne
    | some a =>
      exact flip_var_in_poly_of_not_mem tw _ hd a v hnf (fun m hm => (hT m hm).1)
        (fun m hm => (hT m hm).2)
  · have := flip_var_in_poly_of_not_mem tw _ hd p v hp
      (fun m hm x hx => List.mem_cons_of_mem _ (mem_varsOf _ m x hm hx)) hv
    rw [this] at hr
    exact (Except.ok.inj hr).symm

/-- C12 (amended) witness: flipping `y` twice in `2*z*y + y + 3*x`. -/
theorem flip_var_in_poly_twice_witness :
    ∃ r, flip_var_in_poly (fun _ => [])
        (some ⟨[⟨2, [⟨6, 6, false⟩, ⟨4, 4, false⟩]⟩, ⟨1, [⟨4, 4, false⟩]⟩,
          ⟨3, [⟨2, 2, false⟩]⟩], 2⟩) ⟨4, 4, false⟩ false = .ok r ∧
      (r ≠ none → flip_var_in_poly (fun _ => []) r ⟨4, 4, false⟩ false = .ok r) :=
  let h := flip_var_in_poly_twice (fun _ => [])
    ⟨[⟨2, [⟨6, 6, false⟩, ⟨4, 4, false⟩]⟩, ⟨1, [⟨4, 4, false⟩]⟩, ⟨3, [⟨2, 2, false⟩]⟩], 2⟩
    ⟨4, 4, false⟩ (by decide) (by decide) (by decide)
  ⟨h.choose, h.choose_spec.1, h.choose_spec.2.1⟩

/-! ## The output constraints of `gen_gate_constraint` -/

/-- The constraint of an output gate `s = gates[i]` whose literal is the
constant 1, a negated signal or a positive signal: `-s + 1`, `-s - v + 1` and
`-s + v`, `v` being the variable of the gate of the literal. -/
theorem gen_gate_constraint_output (c : Circuit) (i : Nat) (s g : Gate)
    (hs : c.gates[i]? = some s) (hi : ¬ i + 1 < c.M) :
    (c.slit (i + 1 - c.M) = 1 →
      gen_gate_constraint c i
        = .ok (some ⟨[⟨-1, [s.get_var]⟩, ⟨1, []⟩], 1⟩)) ∧
    (c.slit (i + 1 - c.M) ≠ 1 → aiger_sign (c.slit (i + 1 - c.M)) = true →
      gate c (c.slit (i + 1 - c.M)) = some g →
      gen_gate_constraint c i
        = .ok (some ⟨[⟨-1, [s.get_var]⟩, ⟨-1, [g.get_var]⟩, ⟨1, []⟩], 1⟩)) ∧
    (c.slit (i + 1 - c.M) ≠ 1 → aiger_sign (c.slit (i + 1 - c.M)) = false →
      gate c (c.slit (i + 1 - c.M)) = some g →
      gen_gate_constraint c i
        = .ok (some ⟨[⟨-1, [s.get_var]⟩, ⟨1, [g.get_var]⟩], 1⟩)) := by
  refine ⟨fun h1 => ?_, fun h1 h2 h3 => ?_, fun h1 h2 h3 => ?_⟩
  · simp [gen_gate_constraint, hs, derefGate, hi, h1, push_mstack_end, build_poly,
      build_poly_deg, new_term, Term.degree, bind, Except.bind, pure, Except.pure]
  · simp [gen_gate_constraint, hs, derefGate, hi, h1, h2, h3, push_mstack_end, build_poly,
      build_poly_deg, new_term, Term.degree, bind, Except.bind, pure, Except.pure]
  · simp [gen_gate_constraint, hs, derefGate, hi, h1, h2, h3, push_mstack_end, build_poly,
      build_poly_deg, new_term, Term.degree, bind, Except.bind, pure, Except.pure]

/-- C20 (failing input): in `outZeroCircuit` the output `s1` has the constant
literal 0. `gen_gate_constraint` takes the branch for a positive signal and
looks up `gate(0)`, which is the output gate `s0`: the constraint is
`-s1 + s0`, not `-s1`. It is not zero on the assignment `s1 = 0`, `s0 = 1`, where
`s1` has the value of the literal 0. -/
theorem gen_gate_constraint_output_zero :
    outZeroCircuit.slit 1 = 0 ∧
    gen_gate_constraint outZeroCircuit 2
      = .ok (some ⟨[⟨-1, [⟨-1, 6, false⟩]⟩, ⟨1, [⟨0, 4, false⟩]⟩], 1⟩) ∧
    evalPoly (fun v => if v.num = -1 then 0 else 1)
      (some ⟨[⟨-1, [⟨-1, 6, false⟩]⟩, ⟨1, [⟨0, 4, false⟩]⟩], 1⟩) = 1 ∧
    evalPoly (fun v => if v.num = -1 then 0 else 1) (some ⟨[⟨-1, [⟨-1, 6, false⟩]⟩], 1⟩) = 0 := by
  refine ⟨rfl, rfl, by decide, by decide⟩

/-! ## Hash-consing in the term table -/

theorem liveInv_perm (hp : HashParams) (n : Nat) (L L2 : List TermObj) (hperm : List.Perm L L2)
    (h : LiveInv hp n L) : LiveInv hp n L2 where
  nodup := ((hperm.map TermObj.addr).nodup_iff).1 h.nodup
  lt_next := fun m hm => h.lt_next m (hperm.mem_iff.2 hm)
  rest_lt := fun m hm => h.rest_lt m (hperm.mem_iff.2 hm)
  ref_pos := fun m hm => h.ref_pos m (hperm.mem_iff.2 hm)
  hash_nil := fun m hm => h.hash_nil m (hperm.mem_iff.2 hm)
  hash_cons := fun m hm r hr ro hro => h.hash_cons m (hperm.mem_iff.2 hm) r hr ro
    (hperm.mem_iff.2 hro)
  unique := fun m1 h1 m2 h2 => h.unique m1 (hperm.mem_iff.2 h1) m2 (hperm.mem_iff.2 h2)

theorem liveInv_addr_inj (hp : HashParams) (n : Nat) (L : List TermObj) (h : LiveInv hp n L)
    (m1 m2 : TermObj) (h1 : m1 ∈ L) (h2 : m2 ∈ L) (e : m1.addr = m2.addr) : m1 = m2 :=
  List.inj_on_of_nodup_map h.nodup h1 h2 e

theorem liveInv_tail (hp : HashParams) (n : Nat) (m : TermObj) (L : List TermObj)
    (h : LiveInv hp n (m :: L)) : LiveInv hp n L where
  nodup := by
    have := h.nodup
    rw [List.map_cons, List.nodup_cons] at this
    exact this.2
  lt_next := fun x hx => h.lt_next x (List.mem_cons_of_mem _ hx)
  rest_lt := fun x hx => h.rest_lt x (List.mem_cons_of_mem _ hx)
  ref_pos := fun x hx => h.ref_pos x (List.mem_cons_of_mem _ hx)
  hash_nil := fun x hx => h.hash_nil x (List.mem_cons_of_mem _ hx)
  hash_cons := fun x hx r hr ro hro => h.hash_cons x (List.mem_cons_of_mem _ hx) r hr ro
    (List.mem_cons_of_mem _ hro)
  unique := fun m1 h1 m2 h2 => h.unique m1 (List.mem_cons_of_mem _ h1) m2
    (List.mem_cons_of_mem _ h2)

/-- A change of the reference counters alone keeps the invariants of the live
objects. -/
theorem liveInv_map (hp : HashParams) (n : Nat) (L : List TermObj) (f : TermObj → TermObj)
    (hf : ∀ m, (f m).addr = m.addr ∧ (f m).var = m.var ∧ (f m).rest = m.rest ∧
      (f m).hash = m.hash)
    (href : ∀ m ∈ L, 1 ≤ (f m).ref) (h : LiveInv hp n L) : LiveInv hp n (L.map f) where
  nodup := by
    rw [List.map_map]
    have : (TermObj.addr ∘ f) = TermObj.addr := funext fun m => (hf m).1
    rw [this]; exact h.nodup
  lt_next := by
    intro x hx
    obtain ⟨m, hm, rfl⟩ := List.mem_map.1 hx
    rw [(hf m).1]; exact h.lt_next m hm
  rest_lt := by
    intro x hx r hr
    obtain ⟨m, hm, rfl⟩ := List.mem_map.1 hx
    rw [(hf m).1]; rw [(hf m).2.2.1] at hr; exact h.rest_lt m hm r hr
  ref_pos := by
    intro x hx
    obtain ⟨m, hm, rfl⟩ := List.mem_map.1 hx
    exact href m hm
  hash_nil := by
    intro x hx hr
    obtain ⟨m, hm, rfl⟩ := List.mem_map.1 hx
    rw [(hf m).2.2.1] at hr
    rw [(hf m).2.2.2, (hf m).2.1]; exact h.hash_nil m hm hr
  hash_cons := by
    intro x hx r hr y hy hyr
    obtain ⟨m, hm, rfl⟩ := List.mem_map.1 hx
    obtain ⟨ro, hro, rfl⟩ := List.mem_map.1 hy
    rw [(hf m).2.2.1] at hr
    rw [(hf ro).1] at hyr
    rw [(hf m).2.2.2, (hf m).2.1, (hf ro).2.2.2]
    exact h.hash_cons m hm r hr ro hro hyr
  unique := by
    intro x hx y hy hv hr
    obtain ⟨m1, hm1, rfl⟩ := List.mem_map.1 hx
    obtain ⟨m2, hm2, rfl⟩ := List.mem_map.1 hy
    rw [(hf m1).2.1, (hf m2).2.1] at hv
    rw [(hf m1).2.2.1, (hf m2).2.2.1] at hr
    rw [h.unique m1 hm1 m2 hm2 hv hr]

/-- Adding a freshly allocated object whose head variable and rest no live
object has keeps the invariants of the live objects. -/
theorem liveInv_cons (hp : HashParams) (n : Nat) (L : List TermObj) (m : TermObj)
    (h : LiveInv hp n L) (haddr : m.addr = n) (href : 1 ≤ m.ref)
    (hnil : m.rest = none → m.hash = compute_hash_term hp m.var none)
    (hcons : ∀ r, m.rest = some r →
      ∃ ro ∈ L, ro.addr = r ∧ m.hash = compute_hash_term hp m.var (some ro.hash))
    (hnew : ∀ x ∈ L, ¬ (x.var = m.var ∧ x.rest = m.rest)) : LiveInv hp (n + 1) (m :: L) where
  nodup := by
    rw [List.map_cons, List.nodup_cons]
    refine ⟨?_, h.nodup⟩
    intro hmem
    obtain ⟨x, hx, hxa⟩ := List.mem_map.1 hmem
    have := h.lt_next x hx
    omega
  lt_next := by
    intro x hx
    rcases List.mem_cons.1 hx with e | hx
    · rw [e, haddr]; omega
    · have := h.lt_next x hx; omega
  rest_lt := by
    intro x hx r hr
    rcases List.mem_cons.1 hx with e | hx
    · rw [e] at hr
      obtain ⟨ro, hro, hroa, _⟩ := hcons r hr
      have := h.lt_next ro hro
      rw [e, haddr]; omega
    · exact h.rest_lt x hx r hr
  ref_pos := by
    intro x hx
    rcases List.mem_cons.1 hx with e | hx
    · rw [e]; exact href
    · exact h.ref_pos x hx
  hash_nil := by
    intro x hx hr
    rcases List.mem_cons.1 hx with e | hx
    · rw [e] at hr ⊢; exact hnil hr
    · exact h.hash_nil x hx hr
  hash_cons := by
    intro x hx r hr y hy hyr
    rcases List.mem_cons.1 hx with e | hx
    · rw [e] at hr ⊢
      obtain ⟨ro, hro, hroa, hh⟩ := hcons r hr
      rcases List.mem_cons.1 hy with e2 | hy
      · have := h.lt_next ro hro
        rw [e2, haddr] at hyr
        omega
      · have : y = ro := liveInv_addr_inj hp n L h y ro hy hro (by rw [hyr, hroa])
        rw [this]; exact hh
    · rcases List.mem_cons.1 hy with e2 | hy
      · have h1 := h.rest_lt x hx r hr
        have h2 := h.lt_next x hx
        rw [e2, haddr] at hyr
        omega
      · exact h.hash_cons x hx r hr y hy hyr
  unique := by
    intro x hx y hy hv hr
    rcases List.mem_cons.1 hx with e | hx
    · rcases List.mem_cons.1 hy with e2 | hy
      · rw [e, e2]
      · rw [e] at hv hr
        exact absurd ⟨hv.symm, hr.symm⟩ (hnew y hy)
    · rcases List.mem_cons.1 hy with e2 | hy
      · rw [e2] at hv hr
        exact absurd ⟨hv, hr⟩ (hnew x hx)
      · exact h.unique x hx y hy hv hr


/-- Replacing bucket `h` changes the list of all objects only in the part that
comes from bucket `h`. -/
theorem flatten_set_perm (tbl : List (List TermObj)) (h : Nat) (bucket : List TermObj)
    (hb : tbl[h]? = some bucket) :
    ∃ R, List.Perm tbl.flatten (bucket ++ R) ∧
      ∀ b2, List.Perm (tbl.set h b2).flatten (b2 ++ R) := by
  induction tbl generalizing h with
  | nil => simp at hb
  | cons c cs ih =>
    cases h with
    | zero =>
      simp only [List.getElem?_cons_zero, Option.some.injEq] at hb
      subst hb
      exact ⟨cs.flatten, by simp, fun b2 => by simp⟩
    | succ k =>
      simp only [List.getElem?_cons_succ] at hb
      obtain ⟨R, h1, h2⟩ := ih k hb
      have hswap : ∀ b2 : List TermObj, List.Perm (c ++ (b2 ++ R)) (b2 ++ (c ++ R)) := by
        intro b2
        rw [← List.append_assoc, ← List.append_assoc]
        exact List.Perm.append_right R List.perm_append_comm
      refine ⟨c ++ R, ?_, fun b2 => ?_⟩
      · rw [List.flatten_cons]
        exact (List.Perm.append_left c h1).trans (hswap bucket)
      · rw [List.set_cons_succ, List.flatten_cons]
        exact (List.Perm.append_left c (h2 b2)).trans (hswap b2)

theorem insert_head_of_some (tbl : List (List TermObj)) (h : Nat) (bucket : List TermObj)
    (m : TermObj) (hb : tbl[h]? = some bucket) :
    insert_head tbl h m = tbl.set h (m :: bucket) := by
  simp [insert_head, hb]

theorem insert_head_perm (tbl : List (List TermObj)) (h : Nat) (bucket : List TermObj)
    (m : TermObj) (hb : tbl[h]? = some bucket) :
    List.Perm (insert_head tbl h m).flatten (m :: tbl.flatten) := by
  obtain ⟨R, h1, h2⟩ := flatten_set_perm tbl h bucket hb
  rw [insert_head_of_some tbl h bucket m hb]
  exact (h2 (m :: bucket)).trans (List.Perm.cons m h1.symm)

/-- Unlinking the object with address `a` from the chain of its bucket removes
exactly one object, which has that address, from the table. -/
theorem erase_perm (tbl : List (List TermObj)) (h : Nat) (bucket : List TermObj) (a : Nat)
    (hb : tbl[h]? = some bucket) (hex : ∃ x ∈ bucket, x.addr = a) :
    ∃ x, x ∈ bucket ∧ x.addr = a ∧
      List.Perm tbl.flatten
        (x :: (tbl.set h (bucket.eraseP (fun m => m.addr == a))).flatten) := by
  obtain ⟨x0, hx0, hx0a⟩ := hex
  obtain ⟨x, l1, l2, _, hpx, hsplit, herase⟩ :=
    @List.exists_of_eraseP TermObj (fun m => m.addr == a) bucket x0 hx0 (by simp [hx0a])
  obtain ⟨R, h1, h2⟩ := flatten_set_perm tbl h bucket hb
  refine ⟨x, by rw [hsplit]; simp, by simpa using hpx, ?_⟩
  have e1 : List.Perm (bucket ++ R) (x :: (l1 ++ l2 ++ R)) := by
    rw [hsplit]
    have : List.Perm (l1 ++ x :: l2) (x :: (l1 ++ l2)) := List.perm_middle
    exact List.Perm.append_right R this
  rw [herase]
  exact (h1.trans e1).trans (List.Perm.cons x (h2 (l1 ++ l2)).symm)

theorem wellPlaced_set (n : Nat) (tbl : List (List TermObj)) (h : Nat) (b2 : List TermObj)
    (hw : WellPlaced n tbl) (hb : ∀ m ∈ b2, bucket_index m.hash n = h) :
    WellPlaced n (tbl.set h b2) := by
  intro i bucket hi m hm
  rw [List.getElem?_set] at hi
  split_ifs at hi with h1 h2
  · simp only [Option.some.injEq] at hi
    subst hi
    rw [← h1]; exact hb m hm
  · exact hw i bucket hi m hm

theorem wellPlaced_map (n : Nat) (tbl : List (List TermObj)) (f : TermObj → TermObj)
    (hf : ∀ m, (f m).hash = m.hash) (hw : WellPlaced n tbl) :
    WellPlaced n (tbl.map (List.map f)) := by
  intro i bucket hi m hm
  rw [List.getElem?_map] at hi
  cases hb : tbl[i]? with
  | none => rw [hb] at hi; simp at hi
  | some b =>
    rw [hb] at hi
    simp only [Option.map_some', Option.some.injEq] at hi
    subst hi
    obtain ⟨x, hx, rfl⟩ := List.mem_map.1 hm
    rw [hf x]; exact hw i b hb x hx

theorem flatten_map_map (tbl : List (List TermObj)) (f : TermObj → TermObj) :
    (tbl.map (List.map f)).flatten = tbl.flatten.map f := by
  induction tbl with
  | nil => rfl
  | cons c cs ih => simp only [List.map_cons, List.flatten_cons, List.map_append, ih]

theorem bucket_index_lt (hash n : Nat) (hn : 1 ≤ n) : bucket_index hash n < n := by
  unfold bucket_index
  have : hash &&& (n - 1) ≤ n - 1 := Nat.and_le_right
  omega

theorem wellPlaced_insert_head (n : Nat) (tbl : List (List TermObj)) (m : TermObj)
    (hw : WellPlaced n tbl) : WellPlaced n (insert_head tbl (bucket_index m.hash n) m) := by
  unfold insert_head
  cases hb : tbl[bucket_index m.hash n]? with
  | none => exact hw
  | some bucket =>
    apply wellPlaced_set n tbl _ _ hw
    intro x hx
    rcases List.mem_cons.1 hx with e | hx
    · rw [e]
    · exact hw _ bucket hb x hx

theorem length_insert_head (tbl : List (List TermObj)) (h : Nat) (m : TermObj) :
    (insert_head tbl h m).length = tbl.length := by
  unfold insert_head
  cases tbl[h]? <;> simp

/-- The rehash loop of `enlarge_terms`: every object is linked into the bucket
of its hash, none is lost or doubled. -/
theorem rehash_spec (n : Nat) (hn : 1 ≤ n) (L : List TermObj) (tbl : List (List TermObj))
    (hlen : tbl.length = n) (hw : WellPlaced n tbl) :
    (L.foldl (fun tbl2 m => insert_head tbl2 (bucket_index m.hash n) m) tbl).length = n ∧
    WellPlaced n (L.foldl (fun tbl2 m => insert_head tbl2 (bucket_index m.hash n) m) tbl) ∧
    List.Perm (L.foldl (fun tbl2 m => insert_head tbl2 (bucket_index m.hash n) m) tbl).flatten
      (L ++ tbl.flatten) := by
  induction L generalizing tbl with
  | nil => exact ⟨hlen, hw, by simp⟩
  | cons m L ih =>
    rw [List.foldl_cons]
    have hlt : bucket_index m.hash n < tbl.length := by
      rw [hlen]; exact bucket_index_lt _ _ hn
    obtain ⟨bucket, hb⟩ : ∃ bucket, tbl[bucket_index m.hash n]? = some bucket :=
      ⟨tbl[bucket_index m.hash n], List.getElem?_eq_getElem hlt⟩
    obtain ⟨h1, h2, h3⟩ := ih (insert_head tbl (bucket_index m.hash n) m)
      (by rw [length_insert_head, hlen]) (wellPlaced_insert_head n tbl m hw)
    refine ⟨h1, h2, h3.trans ?_⟩
    have h4 := insert_head_perm tbl _ bucket m hb
    exact (List.Perm.append_left L h4).trans List.perm_middle

theorem foldl_foldl_flatten {β : Type} (f : β → TermObj → β) (tbl : List (List TermObj))
    (b : β) : tbl.foldl (fun acc bucket => bucket.foldl f acc) b = tbl.flatten.foldl f b := by
  induction tbl generalizing b with
  | nil => rfl
  | cons c cs ih => simp [List.foldl_append, ih]


theorem tableInv_empty (hp : HashParams) : TableInv hp TermTable.empty where
  length_eq := rfl
  placed := by intro i bucket hi; simp [TermTable.empty] at hi
  count := rfl
  live :=
    { nodup := by simp [TermTable.empty, TermTable.live]
      lt_next := by intro m hm; simp [TermTable.empty, TermTable.live] at hm
      rest_lt := by intro m hm; simp [TermTable.empty, TermTable.live] at hm
      ref_pos := by intro m hm; simp [TermTable.empty, TermTable.live] at hm
      hash_nil := by intro m hm; simp [TermTable.empty, TermTable.live] at hm
      hash_cons := by intro m hm; simp [TermTable.empty, TermTable.live] at hm
      unique := by intro m hm; simp [TermTable.empty, TermTable.live] at hm }

theorem wellPlaced_replicate (n k : Nat) : WellPlaced n (List.replicate k []) := by
  intro i bucket hi m hm
  rw [List.getElem?_replicate] at hi
  split_ifs at hi
  simp only [Option.some.injEq] at hi
  subst hi
  simp at hm

/-- Function `enlarge_terms` keeps the invariants of the table and the set of
live objects, and leaves at least one bucket. -/
theorem enlarge_terms_inv (hp : HashParams) (s : TermTable) (h : TableInv hp s) :
    TableInv hp s.enlarge_terms ∧ List.Perm s.enlarge_terms.live s.live ∧
      1 ≤ s.enlarge_terms.size_terms ∧ s.enlarge_terms.next_addr = s.next_addr := by
  have hn : 1 ≤ (if s.size_terms ≠ 0 then 2 * s.size_terms else 1) := by
    split_ifs with h0
    · omega
    · omega
  obtain ⟨h1, h2, h3⟩ := rehash_spec _ hn s.live (List.replicate _ []) (List.length_replicate _ _)
    (wellPlaced_replicate _ _)
  have htbl : s.enlarge_terms.term_table
      = s.live.foldl (fun tbl2 m => insert_head tbl2
          (bucket_index m.hash (if s.size_terms ≠ 0 then 2 * s.size_terms else 1)) m)
          (List.replicate (if s.size_terms ≠ 0 then 2 * s.size_terms else 1) []) := by
    simp only [TermTable.enlarge_terms, TermTable.live]
    exact foldl_foldl_flatten _ _ _
  have hperm : List.Perm s.enlarge_terms.live s.live := by
    simp only [TermTable.live] at h3 ⊢
    rw [htbl]
    simpa using h3
  refine ⟨⟨?_, ?_, ?_, ?_⟩, hperm, hn, rfl⟩
  · rw [htbl]; exact h1
  · rw [htbl]; exact h2
  · show s.current_terms = s.enlarge_terms.live.length
    rw [hperm.length_eq]; exact h.count
  · exact liveInv_perm hp _ _ _ hperm.symm h.live

theorem deref_ok_iff (hp : HashParams) (s : TermTable) (h : LiveInv hp s.next_addr s.live)
    (a : Nat) (m : TermObj) : s.deref a = .ok m ↔ m ∈ s.live ∧ m.addr = a := by
  unfold TermTable.deref
  constructor
  · intro hd
    cases hf : s.live.find? (fun m => m.addr == a) with
    | none => rw [hf] at hd; cases hd
    | some x =>
      rw [hf] at hd
      cases hd
      exact ⟨List.mem_of_find?_eq_some hf, by simpa using List.find?_some hf⟩
  · rintro ⟨hm, ha⟩
    cases hf : s.live.find? (fun m => m.addr == a) with
    | none =>
      have := List.find?_eq_none.1 hf m hm
      simp [ha] at this
    | some x =>
      have hx := List.mem_of_find?_eq_some hf
      have hxa : x.addr = a := by simpa using List.find?_some hf
      rw [liveInv_addr_inj hp _ _ h x m hx hm (by rw [hxa, ha])]

theorem mem_live_iff (s : TermTable) (m : TermObj) :
    m ∈ s.live ↔ ∃ (i : Nat) (bucket : List TermObj),
      s.term_table[i]? = some bucket ∧ m ∈ bucket := by
  simp only [TermTable.live, List.mem_flatten]
  constructor
  · rintro ⟨b, hb, hm⟩
    obtain ⟨i, hi⟩ := List.mem_iff_getElem?.1 hb
    exact ⟨i, b, hi, hm⟩
  · rintro ⟨i, b, hi, hm⟩
    exact ⟨b, List.mem_iff_getElem?.2 ⟨i, hi⟩, hm⟩

/-- In a table that satisfies the invariants, a live object is in the bucket
of its hash. -/
theorem mem_bucket_of_live (hp : HashParams) (s : TermTable) (h : TableInv hp s) (m : TermObj)
    (hm : m ∈ s.live) (bucket : List TermObj)
    (hb : s.term_table[bucket_index m.hash s.size_terms]? = some bucket) : m ∈ bucket := by
  obtain ⟨i, b, hi, hmb⟩ := (mem_live_iff s m).1 hm
  have := h.placed i b hi m hmb
  rw [this, hi] at hb
  cases hb
  exact hmb

/-- The hash stored in a live object is the hash of its head variable and the
hash of its rest as `rest_hash` reads it. -/
theorem hash_of_live (hp : HashParams) (s : TermTable) (h : TableInv hp s) (m : TermObj)
    (hm : m ∈ s.live) (rh : Option Nat) (hrh : s.rest_hash m.rest = .ok rh) :
    m.hash = compute_hash_term hp m.var rh := by
  unfold TermTable.rest_hash at hrh
  cases hr : m.rest with
  | none =>
    rw [hr] at hrh
    cases hrh
    exact h.live.hash_nil m hm hr
  | some r =>
    rw [hr] at hrh
    simp only at hrh
    cases hd : s.deref r with
    | error e => rw [hd] at hrh; cases hrh
    | ok ro =>
      rw [hd] at hrh
      cases hrh
      obtain ⟨hro, hroa⟩ := (deref_ok_iff hp s h.live r ro).1 hd
      exact h.live.hash_cons m hm r hr ro hro hroa

/-- A change of reference counters alone keeps the invariants of the table. -/
theorem tableInv_map (hp : HashParams) (s : TermTable) (f : TermObj → TermObj)
    (hf : ∀ m, (f m).addr = m.addr ∧ (f m).var = m.var ∧ (f m).rest = m.rest ∧
      (f m).hash = m.hash)
    (href : ∀ m ∈ s.live, 1 ≤ (f m).ref) (h : TableInv hp s) :
    TableInv hp
      { size_terms := s.size_terms, current_terms := s.current_terms,
        term_table := s.term_table.map (List.map f), next_addr := s.next_addr } where
  length_eq := by simp [h.length_eq]
  placed := wellPlaced_map _ _ f (fun m => (hf m).2.2.2) h.placed
  count := by
    simp only [TermTable.live]
    rw [flatten_map_map, List.length_map]
    exact h.count
  live := by
    simp only [TermTable.live]
    rw [flatten_map_map]
    exact liveInv_map hp _ _ f hf href h.live

theorem inc_fields (a : Nat) (m : TermObj) :
    (if m.addr = a then { m with ref := m.ref + 1 } else m).addr = m.addr ∧
    (if m.addr = a then { m with ref := m.ref + 1 } else m).var = m.var ∧
    (if m.addr = a then { m with ref := m.ref + 1 } else m).rest = m.rest ∧
    (if m.addr = a then { m with ref := m.ref + 1 } else m).hash = m.hash := by
  split_ifs <;> simp

theorem dec_fields (a : Nat) (m : TermObj) :
    (if m.addr = a then { m with ref := m.ref - 1 } else m).addr = m.addr ∧
    (if m.addr = a then { m with ref := m.ref - 1 } else m).var = m.var ∧
    (if m.addr = a then { m with ref := m.ref - 1 } else m).rest = m.rest ∧
    (if m.addr = a then { m with ref := m.ref - 1 } else m).hash = m.hash := by
  split_ifs <;> simp

theorem tableInv_inc_ref (hp : HashParams) (s : TermTable) (a : Nat) (h : TableInv hp s) :
    TableInv hp
      { size_terms := s.size_terms, current_terms := s.current_terms,
        term_table := inc_ref s.term_table a, next_addr := s.next_addr } := by
  apply tableInv_map hp s _ (inc_fields a) _ h
  intro m hm
  have := h.live.ref_pos m hm
  split_ifs
  · simp
  · exact this

theorem live_inc_ref (s : TermTable) (a : Nat) :
    (inc_ref s.term_table a).flatten
      = s.live.map (fun m => if m.addr = a then { m with ref := m.ref + 1 } else m) := by
  simp only [inc_ref, TermTable.live]
  exact flatten_map_map _ _

theorem mem_inc_ref (s : TermTable) (a : Nat) (x : TermObj) (hx : x ∈ s.live) :
    (if x.addr = a then { x with ref := x.ref + 1 } else x) ∈ (inc_ref s.term_table a).flatten := by
  rw [live_inc_ref]
  exact List.mem_map_of_mem _ hx

theorem find_pair (v : Var) (rest : Option Nat) (res : TermObj) :
    (!(res.var != v || res.rest != rest)) = true ↔ res.var = v ∧ res.rest = rest := by
  simp

/-- The table after the optional `rest->copy()` of the constructor of `Term`:
the invariants hold, and the objects are the old ones up to reference
counters. -/
theorem tableInv_copy_rest (hp : HashParams) (s : TermTable) (rest : Option Nat)
    (h : TableInv hp s) :
    TableInv hp
      { size_terms := s.size_terms, current_terms := s.current_terms,
        term_table := copy_rest s.term_table rest, next_addr := s.next_addr } ∧
    (∀ x ∈ s.live, ∃ y ∈ (copy_rest s.term_table rest).flatten,
        y.addr = x.addr ∧ y.var = x.var ∧ y.rest = x.rest ∧ y.hash = x.hash) ∧
    (∀ y ∈ (copy_rest s.term_table rest).flatten,
        ∃ x ∈ s.live, y.addr = x.addr ∧ y.var = x.var ∧ y.rest = x.rest ∧ y.hash = x.hash) := by
  cases rest with
  | none =>
    refine ⟨?_, fun x hx => ⟨x, hx, rfl, rfl, rfl, rfl⟩, fun y hy => ⟨y, hy, rfl, rfl, rfl, rfl⟩⟩
    cases s
    exact h
  | some r =>
    refine ⟨tableInv_inc_ref hp s r h, ?_, ?_⟩
    · intro x hx
      exact ⟨_, mem_inc_ref s r x hx, inc_fields r x⟩
    · intro y hy
      simp only [copy_rest] at hy
      rw [live_inc_ref] at hy
      obtain ⟨x, hx, rfl⟩ := List.mem_map.1 hy
      exact ⟨x, hx, inc_fields r x⟩

theorem rest_hash_none (s : TermTable) (rh : Option Nat) (h : s.rest_hash none = .ok rh) :
    rh = none := by
  simp only [TermTable.rest_hash, Except.ok.injEq] at h
  exact h.symm

theorem rest_hash_some (s : TermTable) (r : Nat) (rh : Option Nat)
    (h : s.rest_hash (some r) = .ok rh) : ∃ ro, s.deref r = .ok ro ∧ rh = some ro.hash := by
  simp only [TermTable.rest_hash] at h
  cases hd : s.deref r with
  | error e => rw [hd] at h; cases h
  | ok ro =>
    rw [hd] at h
    simp only [Except.ok.injEq] at h
    exact ⟨ro, rfl, h.symm⟩

/-- What `new_term` does after the check of the table size, in a table that
satisfies the invariants: the invariants hold afterwards, the term returned is
live and has the requested head variable and rest, and every term that was
live is still live. -/
theorem new_term_search_spec (hp : HashParams) (s : TermTable) (h : TableInv hp s) (v : Var)
    (rest : Option Nat) (s2 : TermTable) (t : Nat)
    (hs : s.new_term_search hp v rest = .ok (s2, t)) :
    TableInv hp s2 ∧ s2.size_terms = s.size_terms ∧
    (∃ m ∈ s2.live, m.addr = t ∧ m.var = v ∧ m.rest = rest) ∧
    (∀ x ∈ s.live, ∃ y ∈ s2.live, y.addr = x.addr) := by
  unfold TermTable.new_term_search at hs
  cases hrh : s.rest_hash rest with
  | error e => rw [hrh] at hs; cases hs
  | ok rh =>
    rw [hrh] at hs
    simp only at hs
    cases hb : s.term_table[bucket_index (compute_hash_term hp v rh) s.size_terms]? with
    | none => rw [hb] at hs; cases hs
    | some bucket =>
      rw [hb] at hs
      simp only at hs
      cases hf : bucket.find? (fun res => !(res.var != v || res.rest != rest)) with
      | some res =>
        rw [hf] at hs
        simp only [Except.ok.injEq, Prod.mk.injEq] at hs
        obtain ⟨hs2, ht⟩ := hs
        subst hs2
        subst ht
        have hres : res ∈ s.live :=
          (mem_live_iff s res).2 ⟨_, bucket, hb, List.mem_of_find?_eq_some hf⟩
        have hP : (!(res.var != v || res.rest != rest)) = true :=
          @List.find?_some _ (fun res : TermObj => !(res.var != v || res.rest != rest)) res
            bucket hf
        have hpair := (find_pair v rest res).1 hP
        refine ⟨tableInv_inc_ref hp s res.addr h, rfl, ?_, ?_⟩
        · refine ⟨_, mem_inc_ref s res.addr res hres, (inc_fields res.addr res).1, ?_, ?_⟩
          · rw [(inc_fields res.addr res).2.1]; exact hpair.1
          · rw [(inc_fields res.addr res).2.2.1]; exact hpair.2
        · intro x hx
          exact ⟨_, mem_inc_ref s res.addr x hx, (inc_fields res.addr x).1⟩
      | none =>
        rw [hf] at hs
        simp only [Except.ok.injEq, Prod.mk.injEq] at hs
        obtain ⟨hs2, ht⟩ := hs
        subst hs2
        subst ht
        obtain ⟨hinv1, hfw, hbw⟩ := tableInv_copy_rest hp s rest h
        have hlen1 : bucket_index (compute_hash_term hp v rh) s.size_terms
            < (copy_rest s.term_table rest).length := by
          have h1 : bucket_index (compute_hash_term hp v rh) s.size_terms < s.term_table.length := by
            by_contra hc
            rw [List.getElem?_eq_none (by omega)] at hb
            cases hb
          rw [hinv1.length_eq]
          rw [h.length_eq] at h1
          exact h1
        have hperm := insert_head_perm _ _ _
          (TermObj.mk s.next_addr v rest 1 (compute_hash_term hp v rh))
          (List.getElem?_eq_getElem hlen1)
        have hnil : rest = none →
            compute_hash_term hp v rh = compute_hash_term hp v none := by
          intro e
          rw [e] at hrh
          rw [rest_hash_none s rh hrh]
        have hcons : ∀ r, rest = some r → ∃ ro ∈ (copy_rest s.term_table rest).flatten,
            ro.addr = r ∧ compute_hash_term hp v rh = compute_hash_term hp v (some ro.hash) := by
          intro r e
          have hrh2 := hrh
          rw [e] at hrh2
          obtain ⟨ro, hro, hrh3⟩ := rest_hash_some s r rh hrh2
          obtain ⟨hro1, hro2⟩ := (deref_ok_iff hp s h.live r ro).1 hro
          obtain ⟨y, hy, hy1, _, _, hy4⟩ := hfw ro hro1
          exact ⟨y, hy, by rw [hy1, hro2], by rw [hrh3, hy4]⟩
        have hnew : ∀ x ∈ (copy_rest s.term_table rest).flatten,
            ¬ (x.var = v ∧ x.rest = rest) := by
          intro y hy hpair
          obtain ⟨x, hx, _, hx2, hx3, _⟩ := hbw y hy
          rw [hx2] at hpair
          rw [hx3] at hpair
          have hxh : x.hash = compute_hash_term hp v rh := by
            have := hash_of_live hp s h x hx rh (by rw [hpair.2]; exact hrh)
            rw [this, hpair.1]
          have hxb : x ∈ bucket := mem_bucket_of_live hp s h x hx bucket (by rw [hxh]; exact hb)
          have := List.find?_eq_none.1 hf x hxb
          exact this ((find_pair v rest x).2 hpair)
        have hlive2 := liveInv_cons hp s.next_addr _
          (TermObj.mk s.next_addr v rest 1 (compute_hash_term hp v rh)) hinv1.live rfl
          (le_refl 1) hnil hcons hnew
        refine ⟨⟨?_, ?_, ?_, ?_⟩, rfl, ?_, ?_⟩
        · simp only [length_insert_head]
          exact hinv1.length_eq
        · exact wellPlaced_insert_head s.size_terms _
            (TermObj.mk s.next_addr v rest 1 (compute_hash_term hp v rh)) hinv1.placed
        · show s.current_terms + 1 = _
          simp only [TermTable.live]
          rw [hperm.length_eq, List.length_cons]
          have := hinv1.count
          simp only [TermTable.live] at this
          rw [this]
        · exact liveInv_perm hp _ _ _ hperm.symm hlive2
        · exact ⟨_, hperm.mem_iff.2 (List.mem_cons_self _ _), rfl, rfl, rfl⟩
        · intro x hx
          obtain ⟨y, hy, hy1, _⟩ := hfw x hx
          exact ⟨y, hperm.mem_iff.2 (List.mem_cons_of_mem _ hy), hy1⟩

/-- The table in which `new_term` searches, after the check of the size,
satisfies the invariants, has the live objects of the table before, and has at
least one bucket. -/
theorem new_term_resize (hp : HashParams) (s : TermTable) (h : TableInv hp s) :
    TableInv hp (if s.current_terms = s.size_terms then s.enlarge_terms else s) ∧
    List.Perm (if s.current_terms = s.size_terms then s.enlarge_terms else s).live s.live ∧
    1 ≤ (if s.current_terms = s.size_terms then s.enlarge_terms else s).size_terms := by
  split_ifs with hc
  · obtain ⟨h1, h2, h3, _⟩ := enlarge_terms_inv hp s h
    exact ⟨h1, h2, h3⟩
  · refine ⟨h, List.Perm.refl _, ?_⟩
    by_contra h0
    have hs0 : s.size_terms = 0 := by omega
    have hl := h.length_eq
    rw [hs0] at hl
    have hnil : s.term_table = [] := List.length_eq_zero.1 hl
    have hc2 := h.count
    simp only [TermTable.live, hnil, List.flatten_nil, List.length_nil] at hc2
    omega

/-- C14, first part of the proof: `new_term` keeps the invariants of the table,
returns a live term with the requested head variable and rest, and keeps every
live term live. -/
theorem new_term_spec (hp : HashParams) (s : TermTable) (h : TableInv hp s) (v : Var)
    (rest : Option Nat) (s2 : TermTable) (t : Nat) (hs : s.new_term hp v rest = .ok (s2, t)) :
    TableInv hp s2 ∧
    (∃ m ∈ s2.live, m.addr = t ∧ m.var = v ∧ m.rest = rest) ∧
    (∀ x ∈ s.live, ∃ y ∈ s2.live, y.addr = x.addr) := by
  obtain ⟨h1, h2, _⟩ := new_term_resize hp s h
  obtain ⟨h4, _, h6, h7⟩ := new_term_search_spec hp _ h1 v rest s2 t hs
  exact ⟨h4, h6, fun x hx => h7 x (h2.mem_iff.2 hx)⟩

/-- A live term with the requested head variable and rest, whose rest is live,
is the term that the search of `new_term` returns. -/
theorem new_term_search_found (hp : HashParams) (s : TermTable) (h : TableInv hp s)
    (hsize : 1 ≤ s.size_terms) (m : TermObj) (hm : m ∈ s.live)
    (hrest : ∀ r, m.rest = some r → ∃ ro ∈ s.live, ro.addr = r) :
    ∃ s2, s.new_term_search hp m.var m.rest = .ok (s2, m.addr) := by
  have hrh : ∃ rh, s.rest_hash m.rest = .ok rh := by
    cases hr : m.rest with
    | none => exact ⟨none, rfl⟩
    | some r =>
      obtain ⟨ro, hro, hroa⟩ := hrest r hr
      have := (deref_ok_iff hp s h.live r ro).2 ⟨hro, hroa⟩
      exact ⟨some ro.hash, by simp [TermTable.rest_hash, this]⟩
  obtain ⟨rh, hrh⟩ := hrh
  have hhash := hash_of_live hp s h m hm rh hrh
  have hlt : bucket_index (compute_hash_term hp m.var rh) s.size_terms < s.term_table.length := by
    rw [h.length_eq]; exact bucket_index_lt _ _ hsize
  have hb := List.getElem?_eq_getElem hlt
  have hmb : m ∈ s.term_table[bucket_index (compute_hash_term hp m.var rh) s.size_terms] :=
    mem_bucket_of_live hp s h m hm _ (by rw [hhash]; exact hb)
  unfold TermTable.new_term_search
  rw [hrh]
  simp only
  rw [hb]
  simp only
  cases hf : (s.term_table[bucket_index (compute_hash_term hp m.var rh) s.size_terms]).find?
      (fun res => !(res.var != m.var || res.rest != m.rest)) with
  | none =>
    have := List.find?_eq_none.1 hf m hmb
    exact absurd ((find_pair m.var m.rest m).2 ⟨rfl, rfl⟩) this
  | some res =>
    have hP : (!(res.var != m.var || res.rest != m.rest)) = true :=
      @List.find?_some _ (fun res : TermObj => !(res.var != m.var || res.rest != m.rest)) res
        _ hf
    have hpair := (find_pair m.var m.rest res).1 hP
    have hres : res ∈ s.live :=
      (mem_live_iff s res).2 ⟨_, _, hb, List.mem_of_find?_eq_some hf⟩
    have : res = m := h.live.unique res hres m hm hpair.1 hpair.2
    rw [this]
    exact ⟨_, rfl⟩

/-- Function `new_term` returns when `rest` is null or a live term. -/
theorem new_term_returns (hp : HashParams) (s : TermTable) (h : TableInv hp s) (v : Var)
    (rest : Option Nat) (hrest : ∀ r, rest = some r → ∃ ro ∈ s.live, ro.addr = r) :
    ∃ s2 t, s.new_term hp v rest = .ok (s2, t) := by
  obtain ⟨h1, h2, h3⟩ := new_term_resize hp s h
  unfold TermTable.new_term
  generalize (if s.current_terms = s.size_terms then s.enlarge_terms else s) = S at h1 h2 h3
  have hrh : ∃ rh, S.rest_hash rest = .ok rh := by
    cases hr : rest with
    | none => exact ⟨none, rfl⟩
    | some r =>
      obtain ⟨ro, hro, hroa⟩ := hrest r hr
      have := (deref_ok_iff hp S h1.live r ro).2 ⟨h2.mem_iff.2 hro, hroa⟩
      exact ⟨some ro.hash, by simp [TermTable.rest_hash, this]⟩
  obtain ⟨rh, hrh⟩ := hrh
  have hlt : bucket_index (compute_hash_term hp v rh) S.size_terms < S.term_table.length := by
    rw [h1.length_eq]; exact bucket_index_lt _ _ h3
  unfold TermTable.new_term_search
  rw [hrh]
  simp only
  rw [List.getElem?_eq_getElem hlt]
  simp only
  cases (S.term_table[bucket_index (compute_hash_term hp v rh) S.size_terms]).find?
      (fun res => !(res.var != v || res.rest != rest)) with
  | none => exact ⟨_, _, rfl⟩
  | some res => exact ⟨_, _, rfl⟩

/-- Two calls of `new_term` with the same arguments return the same term. -/
theorem new_term_twice (hp : HashParams) (s : TermTable) (h : TableInv hp s) (v : Var)
    (rest : Option Nat) (s1 : TermTable) (t1 : Nat) (hs : s.new_term hp v rest = .ok (s1, t1)) :
    ∃ s2, s1.new_term hp v rest = .ok (s2, t1) := by
  obtain ⟨h1, ⟨m, hm, hma, hmv, hmr⟩, hkeep⟩ := new_term_spec hp s h v rest s1 t1 hs
  -- the rest, if any, is live after the first call
  have hrest1 : ∀ r, rest = some r → ∃ ro ∈ s1.live, ro.addr = r := by
    intro r hr
    obtain ⟨hS, hperm, _⟩ := new_term_resize hp s h
    unfold TermTable.new_term at hs
    generalize (if s.current_terms = s.size_terms then s.enlarge_terms else s) = S
      at hs hS hperm
    have hrh : ∃ rh, S.rest_hash rest = .ok rh := by
      unfold TermTable.new_term_search at hs
      cases hx : S.rest_hash rest with
      | error e => rw [hx] at hs; cases hs
      | ok rh => exact ⟨rh, rfl⟩
    obtain ⟨rh, hrh⟩ := hrh
    rw [hr] at hrh
    obtain ⟨ro, hro, _⟩ := rest_hash_some S r rh hrh
    obtain ⟨hro1, hro2⟩ := (deref_ok_iff hp S hS.live r ro).1 hro
    obtain ⟨y, hy, hya⟩ := hkeep ro (hperm.mem_iff.1 hro1)
    exact ⟨y, hy, by rw [hya, hro2]⟩
  obtain ⟨hS1, hperm1, hsize1⟩ := new_term_resize hp s1 h1
  unfold TermTable.new_term
  generalize (if s1.current_terms = s1.size_terms then s1.enlarge_terms else s1) = S1
    at hS1 hperm1 hsize1
  have hm1 : m ∈ S1.live := hperm1.mem_iff.2 hm
  obtain ⟨s2, hs2⟩ := new_term_search_found hp S1 hS1 hsize1 m hm1 (by
    intro r hr
    obtain ⟨ro, hro, hroa⟩ := hrest1 r (by rw [← hmr, hr])
    exact ⟨ro, hperm1.mem_iff.2 hro, hroa⟩)
  rw [hmv, hmr, hma] at hs2
  exact ⟨s2, hs2⟩

theorem tableInv_dec_ref (hp : HashParams) (s : TermTable) (a : Nat) (t : TermObj)
    (h : TableInv hp s) (ht : s.deref a = .ok t) (href : t.ref - 1 > 0) :
    TableInv hp
      { size_terms := s.size_terms, current_terms := s.current_terms,
        term_table := dec_ref s.term_table a, next_addr := s.next_addr } := by
  apply tableInv_map hp s _ (dec_fields a) _ h
  intro m hm
  split_ifs with hma
  · obtain ⟨ht1, ht2⟩ := (deref_ok_iff hp s h.live a t).1 ht
    have : m = t := liveInv_addr_inj hp _ _ h.live m t hm ht1 (by rw [hma, ht2])
    rw [this]
    show 1 ≤ t.ref - 1
    omega
  · exact h.live.ref_pos m hm

/-- Unlinking a live term from its bucket keeps the invariants of the table. -/
theorem tableInv_unlink (hp : HashParams) (s : TermTable) (a : Nat) (t : TermObj)
    (bucket : List TermObj) (h : TableInv hp s)
    (hb : s.term_table[bucket_index t.hash s.size_terms]? = some bucket)
    (hex : ∃ x ∈ bucket, x.addr = a) :
    TableInv hp
      { size_terms := s.size_terms
        current_terms := s.current_terms - 1
        term_table := s.term_table.set (bucket_index t.hash s.size_terms)
          (bucket.eraseP (fun m => m.addr == a))
        next_addr := s.next_addr } := by
  obtain ⟨x, hx, hxa, hperm⟩ := erase_perm s.term_table _ bucket a hb hex
  refine ⟨?_, ?_, ?_, ?_⟩
  · simp only [List.length_set]; exact h.length_eq
  · apply wellPlaced_set _ _ _ _ h.placed
    intro m hm
    exact h.placed _ bucket hb m ((List.eraseP_sublist bucket).subset hm)
  · show s.current_terms - 1 = _
    have h1 := hperm.length_eq
    have h2 := h.count
    simp only [TermTable.live, List.length_cons] at h1 h2 ⊢
    omega
  · exact liveInv_tail hp _ x _ (liveInv_perm hp _ _ _ hperm h.live)

/-- The loop of `deallocate_term` keeps the invariants of the table. -/
theorem deallocate_term_loop_inv (hp : HashParams) (fuel : Nat) (s : TermTable)
    (t : Option Nat) (s2 : TermTable) (h : TableInv hp s)
    (hs : s.deallocate_term_loop fuel t = some (.ok s2)) : TableInv hp s2 := by
  induction fuel generalizing s t with
  | zero =>
    cases t with
    | none =>
      simp only [TermTable.deallocate_term_loop, Option.some.injEq, Except.ok.injEq] at hs
      rw [← hs]; exact h
    | some a => simp [TermTable.deallocate_term_loop] at hs
  | succ fuel ih =>
    cases t with
    | none =>
      simp only [TermTable.deallocate_term_loop, Option.some.injEq, Except.ok.injEq] at hs
      rw [← hs]; exact h
    | some a =>
      simp only [TermTable.deallocate_term_loop] at hs
      cases hd : s.deref a with
      | error e => rw [hd] at hs; simp at hs
      | ok tobj =>
        rw [hd] at hs
        simp only at hs
        split_ifs at hs with href
        · simp only [Option.some.injEq, Except.ok.injEq] at hs
          rw [← hs]
          exact tableInv_dec_ref hp s a tobj h hd href
        · cases hb : s.term_table[bucket_index tobj.hash s.size_terms]? with
          | none => rw [hb] at hs; simp at hs
          | some bucket =>
            rw [hb] at hs
            simp only at hs
            split_ifs at hs with hall
            · simp at hs
            · have hex : ∃ x ∈ bucket, x.addr = a := by
                simpa using hall
              exact ih _ _ (tableInv_unlink hp s a tobj bucket h hb hex) hs

/-- The loop of `deallocate_term` ends within the given number of passes when
the term to release has an address below that number: the rest of a live term
has a smaller address than the term. -/
theorem deallocate_term_loop_returns (hp : HashParams) (fuel : Nat) (s : TermTable)
    (t : Option Nat) (h : TableInv hp s) (hlt : ∀ a, t = some a → a < fuel) :
    s.deallocate_term_loop fuel t ≠ none := by
  induction fuel generalizing s t with
  | zero =>
    cases t with
    | none => simp [TermTable.deallocate_term_loop]
    | some a => exact absurd (hlt a rfl) (by omega)
  | succ fuel ih =>
    cases t with
    | none => simp [TermTable.deallocate_term_loop]
    | some a =>
      simp only [TermTable.deallocate_term_loop]
      cases hd : s.deref a with
      | error e => simp
      | ok tobj =>
        simp only
        split_ifs with href
        · simp
        · cases hb : s.term_table[bucket_index tobj.hash s.size_terms]? with
          | none => simp
          | some bucket =>
            simp only
            split_ifs with hall
            · simp
            · have hex : ∃ x ∈ bucket, x.addr = a := by
                simpa using hall
              apply ih _ _ (tableInv_unlink hp s a tobj bucket h hb hex)
              intro r hr
              obtain ⟨ht1, ht2⟩ := (deref_ok_iff hp s h.live a tobj).1 hd
              have h1 := h.live.rest_lt tobj ht1 r hr
              have h2 := hlt a rfl
              omega

/-- Function `deallocate_term` returns or faults; the bound on the passes of
its loop is never reached. -/
theorem deallocate_term_returns (hp : HashParams) (s : TermTable) (t : Option Nat)
    (h : TableInv hp s) : s.deallocate_term t ≠ none := by
  unfold TermTable.deallocate_term
  cases t with
  | none => simp [TermTable.deallocate_term_loop]
  | some a =>
    by_cases ha : a < s.next_addr + 1
    · exact deallocate_term_loop_returns hp _ s (some a) h (fun b hb => by cases hb; exact ha)
    · cases hd : s.deref a with
      | error e => simp [TermTable.deallocate_term_loop, hd]
      | ok tobj =>
        obtain ⟨ht1, ht2⟩ := (deref_ok_iff hp s h.live a tobj).1 hd
        have := h.live.lt_next tobj ht1
        omega

/-- Every state of the term table reached from the empty table satisfies the
invariants. -/
theorem reachable_inv (hp : HashParams) (s : TermTable) (hr : Reachable hp s) :
    TableInv hp s := by
  induction hr with
  | empty => exact tableInv_empty hp
  | new_term s s2 v rest t _ hs ih => exact (new_term_spec hp s ih v rest s2 t hs).1
  | deallocate_term s s2 t _ hs ih => exact deallocate_term_loop_inv hp _ s t s2 ih hs

/-- C14: hash-cons uniqueness. In every state of the term table reached from
the empty table by calls of `new_term` (which enlarge the table when it is
full) and of `deallocate_term`: the live terms have distinct addresses and no
two of them have the same head variable and the same rest; `enlarge_terms`
keeps exactly the live terms; `new_term(v, rest)` returns for a `rest` that is
null or live, the term it returns is live with head `v` and rest `rest`, and a
second call `new_term(v, rest)` returns the same term object; and
`deallocate_term` ends. -/
theorem hash_cons_unique (hp : HashParams) (s : TermTable) (hr : Reachable hp s) :
    (s.live.map TermObj.addr).Nodup ∧
    (∀ m1 ∈ s.live, ∀ m2 ∈ s.live, m1.var = m2.var → m1.rest = m2.rest → m1 = m2) ∧
    List.Perm s.enlarge_terms.live s.live ∧
    (∀ v rest, (∀ r, rest = some r → ∃ ro ∈ s.live, ro.addr = r) →
      ∃ s1 t1, s.new_term hp v rest = .ok (s1, t1)) ∧
    (∀ v rest s1 t1, s.new_term hp v rest = .ok (s1, t1) →
      (∃ m ∈ s1.live, m.addr = t1 ∧ m.var = v ∧ m.rest = rest) ∧
      ∃ s2, s1.new_term hp v rest = .ok (s2, t1)) ∧
    (∀ t, s.deallocate_term t ≠ none) := by
  have h := reachable_inv hp s hr
  refine ⟨h.live.nodup, h.live.unique, (enlarge_terms_inv hp s h).2.1,
    fun v rest hrest => new_term_returns hp s h v rest hrest,
    fun v rest s1 t1 hs => ⟨(new_term_spec hp s h v rest s1 t1 hs).2.1,
      new_term_twice hp s h v rest s1 t1 hs⟩,
    fun t => deallocate_term_returns hp s t h⟩

/-- C14 witness: the table that holds the term `x` after one call of
`new_term`; a second call `new_term(x, 0)` returns the same term. -/
theorem hash_cons_unique_witness :
    Reachable (HashParams.mk 3 5 (fun v => v.level.toNat))
      (TermTable.mk 1 1 [[TermObj.mk 0 (Var.mk 2 2 false) none 1 10]] 1) ∧
    ∃ s2, (TermTable.mk 1 1 [[TermObj.mk 0 (Var.mk 2 2 false) none 1 10]] 1).new_term
      (HashParams.mk 3 5 (fun v => v.level.toNat)) (Var.mk 2 2 false) none = .ok (s2, 0) :=
  have hr : Reachable (HashParams.mk 3 5 (fun v => v.level.toNat))
      (TermTable.mk 1 1 [[TermObj.mk 0 (Var.mk 2 2 false) none 1 10]] 1) :=
    Reachable.new_term TermTable.empty _ (Var.mk 2 2 false) none 0 Reachable.empty rfl
  ⟨hr, ((hash_cons_unique (HashParams.mk 3 5 (fun v => v.level.toNat)) TermTable.empty
    Reachable.empty).2.2.2.2.1 (Var.mk 2 2 false) none
    (TermTable.mk 1 1 [[TermObj.mk 0 (Var.mk 2 2 false) none 1 10]] 1) 0 rfl).2⟩

/-! ## `check_inputs_only` -/

theorem check_inputs_only_loop_spec (c : Circuit) (l : List Monomial)
    (hs : TermsSorted l)
    (hg : ∀ v ∈ varsOf l, ∃ g, gate c v.num = some g)
    (hlev : ∀ u ∈ varsOf l, ∀ v ∈ varsOf l, ∀ gu gv, gate c u.num = some gu →
      gate c v.num = some gv → gu.input = true → gv.input = false → u.level < v.level) :
    ∃ b, check_inputs_only_loop c l = .ok b ∧
      (b = true ↔ ∀ v ∈ varsOf l, ∀ g, gate c v.num = some g → g.input = true) := by
  induction l with
  | nil => exact ⟨true, rfl, by simp [varsOf]⟩
  | cons m rest ih =>
    have hs2 : TermsSorted rest := fun x hx => hs x (List.mem_cons_of_mem _ hx)
    have hsub : ∀ v, v ∈ varsOf rest → v ∈ varsOf (m :: rest) := by
      intro v hv
      simp only [varsOf, List.flatMap_cons, List.mem_append] at hv ⊢
      exact Or.inr hv
    have hm : ∀ v, v ∈ m.term → v ∈ varsOf (m :: rest) := by
      intro v hv
      simp only [varsOf, List.flatMap_cons, List.mem_append]
      exact Or.inl hv
    obtain ⟨b, hb, hiff⟩ := ih hs2 (fun v hv => hg v (hsub v hv))
      (fun u hu v hv => hlev u (hsub u hu) v (hsub v hv))
    cases hmt : m.term with
    | nil =>
      refine ⟨b, ?_, ?_⟩
      · simp only [check_inputs_only_loop, hmt]; exact hb
      · rw [hiff]
        constructor
        · intro h v hv
          simp only [varsOf, List.flatMap_cons, hmt, List.nil_append] at hv
          exact h v hv
        · intro h v hv
          exact h v (hsub v hv)
    | cons x xs =>
      have hx : x ∈ m.term := by rw [hmt]; exact List.mem_cons_self _ _
      obtain ⟨gx, hgx⟩ := hg x (hm x hx)
      by_cases hin : gx.input = false
      · refine ⟨false, ?_, ?_⟩
        · simp [check_inputs_only_loop, hmt, hgx, derefGate, hin, bind, Except.bind, pure,
            Except.pure]
        · constructor
          · intro h; cases h
          · intro h
            have := h x (hm x hx) gx hgx
            rw [hin] at this; cases this
      · have hin1 : gx.input = true := by
          cases h : gx.input
          · exact absurd h hin
          · rfl
        refine ⟨b, ?_, ?_⟩
        · simp [check_inputs_only_loop, hmt, hgx, derefGate, hin1, bind, Except.bind, pure,
            Except.pure]
          exact hb
        · rw [hiff]
          constructor
          · intro h v hv g hgv
            simp only [varsOf, List.flatMap_cons, List.mem_append] at hv
            rcases hv with hv | hv
            · rw [hmt] at hv
              rcases List.mem_cons.mp hv with rfl | hv2
              · rw [hgx] at hgv; cases hgv; exact hin1
              · have hsort : TermSorted (x :: xs) := by
                  rw [← hmt]; exact hs m (List.mem_cons_self _ _)
                have hlt : x.level > v.level := (List.pairwise_cons.mp hsort).1 v hv2
                cases hgi : g.input
                · have hvm : v ∈ m.term := by rw [hmt]; exact List.mem_cons_of_mem _ hv2
                  have := hlev x (hm x hx) v (hm v hvm) gx g hgx hgv hin1 hgi
                  omega
                · rfl
            · exact h v hv g hgv
          · intro h v hv
            exact h v (hsub v hv)

/-- C28: for a polynomial whose terms are sorted by strictly decreasing level,
all of whose variables have a gate, and under the level invariant that a
variable of an input gate has a lower level than a variable of a gate that is
no input, `check_inputs_only` returns, and it returns true exactly when every
variable that occurs anywhere in the polynomial belongs to an input gate. Hence
when the end of `verify` reports an incorrect circuit for a remainder (it
returns false instead of stopping with `die`), the remainder is not the zero
polynomial and all its variables belong to input gates. -/
theorem check_inputs_only_iff (c : Circuit) (p : Polynomial)
    (hs : TermsSorted p.mon)
    (hg : ∀ v ∈ varsOf p.mon, ∃ g, gate c v.num = some g)
    (hlev : ∀ u ∈ varsOf p.mon, ∀ v ∈ varsOf p.mon, ∀ gu gv, gate c u.num = some gu →
      gate c v.num = some gv → gu.input = true → gv.input = false → u.level < v.level) :
    (∃ b, check_inputs_only c (some p) = .ok b ∧
      (b = true ↔ ∀ v ∈ varsOf p.mon, ∀ g, gate c v.num = some g → g.input = true)) ∧
    (verify_result c (some p) = .ok false →
      p.mon ≠ [] ∧ ∀ v ∈ varsOf p.mon, ∀ g, gate c v.num = some g → g.input = true) ∧
    ((∃ v ∈ varsOf p.mon, ∃ g, gate c v.num = some g ∧ g.input = false) →
      verify_result c (some p) = .error (.die 42
        "internal sorting error - remainder polynomial contains non-inputs")) := by
  obtain ⟨b, hb, hiff⟩ := check_inputs_only_loop_spec c p.mon hs hg hlev
  have hchk : check_inputs_only c (some p) = .ok b := by
    simp only [check_inputs_only, deref, bind, Except.bind]
    exact hb
  refine ⟨⟨b, hchk, hiff⟩, ?_, ?_⟩
  · intro hv
    by_cases hz : p.is_constant_zero_poly = false
    · have hne : p.mon ≠ [] := by
        intro h
        simp [Polynomial.is_constant_zero_poly, h] at hz
      refine ⟨hne, ?_⟩
      cases b
      · simp [verify_result, hz, hchk, bind, Except.bind] at hv
      · exact hiff.mp rfl
    · simp [verify_result, hz, pure, Except.pure] at hv
  · rintro ⟨v, hv, g, hgv, hgi⟩
    have hb0 : b = false := by
      cases b
      · rfl
      · have := hiff.mp rfl v hv g hgv
        rw [hgi] at this; cases this
    have hne : p.is_constant_zero_poly = false := by
      cases hmon : p.mon with
      | nil => rw [hmon] at hv; simp [varsOf] at hv
      | cons a l => simp [Polynomial.is_constant_zero_poly, hmon]
    subst hb0
    simp [verify_result, hne, hchk, bind, Except.bind]

/-- C28 (witness): on the half adder the polynomial `b*a + a` has only input
variables, although `check_inputs_only` looks at `b` and `a` only as heads. -/
theorem check_inputs_only_iff_witness :
    ∃ b, check_inputs_only halfAdder
        (some ⟨[⟨1, [⟨4, 4, false⟩, ⟨2, 2, false⟩]⟩, ⟨1, [⟨2, 2, false⟩]⟩], 2⟩) = .ok b ∧
      (b = true ↔ ∀ v ∈ varsOf [(⟨1, [⟨4, 4, false⟩, ⟨2, 2, false⟩]⟩ : Monomial),
          ⟨1, [⟨2, 2, false⟩]⟩],
        ∀ g, gate halfAdder v.num = some g → g.input = true) :=
  (check_inputs_only_iff halfAdder
    ⟨[⟨1, [⟨4, 4, false⟩, ⟨2, 2, false⟩]⟩, ⟨1, [⟨2, 2, false⟩]⟩], 2⟩
    (by decide)
    (by
      intro v hv
      simp only [varsOf, List.flatMap_cons, List.flatMap_nil, List.append_nil,
        List.cons_append, List.nil_append, List.mem_cons, List.mem_nil_iff, or_false] at hv
      rcases hv with rfl | rfl | rfl <;> exact ⟨_, rfl⟩)
    (by
      intro u hu v hv gu gv h1 h2 h3 h4
      simp only [varsOf, List.flatMap_cons, List.flatMap_nil, List.append_nil,
        List.cons_append, List.nil_append, List.mem_cons, List.mem_nil_iff, or_false] at hu hv
      rcases hv with rfl | rfl | rfl <;>
        (simp [gate, halfAdder] at h2; subst h2; simp at h4))).1

/-! ## The exit code of `main` -/

theorem ite_ok_none {α : Type} {c : Prop} [Decidable c] {a b : Except Fault (Option α)}
    (h : (if c then a else b) = .ok none) : a = .ok none ∨ b = .ok none := by
  by_cases hc : c
  · rw [if_pos hc] at h; exact Or.inl h
  · rw [if_neg hc] at h; exact Or.inr h

theorem parse_arg_none (arg : String) (s : Settings) (h : parse_arg arg s = .ok none) :
    arg = "-h" ∨ arg = "--help" := by
  unfold parse_arg at h
  by_cases h0 : arg = "-h" ∨ arg = "--help"
  · exact h0
  · rw [if_neg h0] at h
    exfalso
    clear h0
    repeat' (first | cases h | (rcases ite_ok_none h with h | h))

theorem ite_err_die {α : Type} {c : Prop} [Decidable c] {a b : Except Fault α}
    {code : Nat} {msg : String}
    (h : (if c then a else b) = .error (.die code msg)) :
    a = .error (.die code msg) ∨ b = .error (.die code msg) := by
  by_cases hc : c
  · rw [if_pos hc] at h; exact Or.inl h
  · rw [if_neg hc] at h; exact Or.inr h

theorem parse_arg_die (arg : String) (s : Settings) (code : Nat) (msg : String)
    (h : parse_arg arg s = .error (.die code msg)) : code = 11 ∨ code = 12 := by
  unfold parse_arg at h
  repeat' (first
    | (cases h; first | exact Or.inl rfl | exact Or.inr rfl)
    | cases h
    | (rcases ite_err_die h with h | h))

theorem stoi_die (v : String) (code : Nat) (msg : String) :
    stoi v ≠ .error (.die code msg) := by
  unfold stoi
  intro h
  dsimp only at h
  split_ifs at h
  cases h

theorem parse_args_none (l : List String) (s : Settings) (h : parse_args l s = .ok none) :
    "-h" ∈ l ∨ "--help" ∈ l := by
  induction l, s using parse_args.induct with
  | case1 s => simp [parse_args, pure, Except.pure] at h
  | case2 v rest s hn ih =>
    rw [parse_args.eq_2, if_pos hn] at h
    cases hv : stoi v with
    | error e => rw [hv] at h; cases h
    | ok value =>
      rw [hv] at h
      simp only [bind, Except.bind] at h
      split_ifs at h
      rcases ih value h with h1 | h1
      · exact Or.inl (List.mem_cons_of_mem _ (List.mem_cons_of_mem _ h1))
      · exact Or.inr (List.mem_cons_of_mem _ (List.mem_cons_of_mem _ h1))
  | case3 v rest s hn =>
    rw [parse_args.eq_2, if_neg hn] at h; cases h
  | case4 v rest s hn ih =>
    rw [parse_args.eq_3, if_pos hn] at h
    cases hv : stoi v with
    | error e => rw [hv] at h; cases h
    | ok value =>
      rw [hv] at h
      simp only [bind, Except.bind] at h
      split_ifs at h
      rcases ih value h with h1 | h1
      · exact Or.inl (List.mem_cons_of_mem _ (List.mem_cons_of_mem _ h1))
      · exact Or.inr (List.mem_cons_of_mem _ (List.mem_cons_of_mem _ h1))
  | case5 v rest s hn =>
    rw [parse_args.eq_3, if_neg hn] at h; cases h
  | case6 arg rest s hf hd ih =>
    rw [parse_args.eq_4 s arg rest hf hd] at h
    cases hp : parse_arg arg s with
    | error e => rw [hp] at h; cases h
    | ok r =>
      rw [hp] at h
      cases r with
      | none =>
        rcases parse_arg_none arg s hp with rfl | rfl
        · exact Or.inl (List.mem_cons_self _ _)
        · exact Or.inr (List.mem_cons_self _ _)
      | some s2 =>
        simp only [bind, Except.bind] at h
        rcases ih s2 h with h1 | h1
        · exact Or.inl (List.mem_cons_of_mem _ h1)
        · exact Or.inr (List.mem_cons_of_mem _ h1)

theorem parse_args_die (l : List String) (s : Settings) (code : Nat) (msg : String)
    (h : parse_args l s = .error (.die code msg)) : code = 11 ∨ code = 12 ∨ code = 123 := by
  induction l, s using parse_args.induct with
  | case1 s => simp [parse_args, pure, Except.pure] at h
  | case2 v rest s hn ih =>
    rw [parse_args.eq_2, if_pos hn] at h
    cases hv : stoi v with
    | error e =>
      rw [hv] at h
      simp only [bind, Except.bind] at h
      cases h
      exact absurd hv (stoi_die v code msg)
    | ok value =>
      rw [hv] at h
      simp only [bind, Except.bind] at h
      split_ifs at h
      · cases h; exact Or.inr (Or.inr rfl)
      · exact ih value h
  | case3 v rest s hn =>
    rw [parse_args.eq_2, if_neg hn] at h; cases h; exact Or.inr (Or.inr rfl)
  | case4 v rest s hn ih =>
    rw [parse_args.eq_3, if_pos hn] at h
    cases hv : stoi v with
    | error e =>
      rw [hv] at h
      simp only [bind, Except.bind] at h
      cases h
      exact absurd hv (stoi_die v code msg)
    | ok value =>
      rw [hv] at h
      simp only [bind, Except.bind] at h
      split_ifs at h
      · cases h; exact Or.inr (Or.inr rfl)
      · exact ih value h
  | case5 v rest s hn =>
    rw [parse_args.eq_3, if_neg hn] at h; cases h; exact Or.inr (Or.inr rfl)
  | case6 arg rest s hf hd ih =>
    rw [parse_args.eq_4 s arg rest hf hd] at h
    cases hp : parse_arg arg s with
    | error e =>
      rw [hp] at h
      simp only [bind, Except.bind] at h
      cases h
      rcases parse_arg_die arg s code msg hp with h1 | h1
      · exact Or.inl h1
      · exact Or.inr (Or.inl h1)
    | ok r =>
      rw [hp] at h
      cases r with
      | none => simp [bind, Except.bind, pure, Except.pure] at h
      | some s2 =>
        simp only [bind, Except.bind] at h
        exact ih s2 h

theorem check_settings_die (s : Settings) (code : Nat) (msg : String)
    (h : check_settings s = .error (.die code msg)) : code = 10 ∨ code = 13 ∨ code = 123 := by
  unfold check_settings at h
  repeat' (first
    | (cases h; first | exact Or.inl rfl | exact Or.inr (Or.inl rfl) | exact Or.inr (Or.inr rfl))
    | cases h
    | (rcases ite_err_die h with h | h))

/-- C30 (counterexample): the run `talisman mult.aig -mult-spec` in which the
remainder of the reduction is the zero polynomial completes without a fatal
error, `verify` returns true, and the exit code is 1. -/
theorem main_exit_code_counterexample :
    verify_result halfAdder none = .ok true ∧
    main ["talisman", "mult.aig", "-mult-spec"] (fun _ => verify_result halfAdder none)
      = .ok 1 := by
  constructor
  · rfl
  · rfl

/-- C30 (amended): when a run completes without a fatal error, the exit code is
0 if the usage text was asked for, and otherwise it is the value returned by
`verify`: 1 when the circuit is verified and 0 when it is not. When the run is
ended by `die`, the code is 10, 11, 12, 13 or 123, or it is the code of a `die`
in the run after the command line. -/
theorem main_exit_code (argv : List String) (run : Settings → Except Fault Bool) :
    (∀ code, main argv run = .ok code →
      (code = 0 ∧ parse_args argv.tail {} = .ok none ∧
        ("-h" ∈ argv.tail ∨ "--help" ∈ argv.tail)) ∨
      (∃ s, parse_args argv.tail {} = .ok (some s) ∧ check_settings s = .ok () ∧
        ((run s = .ok true ∧ code = 1) ∨ (run s = .ok false ∧ code = 0)))) ∧
    (∀ code msg, main argv run = .error (.die code msg) →
      (code = 10 ∨ code = 11 ∨ code = 12 ∨ code = 13 ∨ code = 123) ∨
      ∃ s, run s = .error (.die code msg)) := by
  constructor
  · intro code h
    unfold main at h
    cases hp : parse_args argv.tail {} with
    | error e => rw [hp] at h; cases h
    | ok r =>
      rw [hp] at h
      cases r with
      | none =>
        simp only [bind, Except.bind, pure, Except.pure] at h
        cases h
        exact Or.inl ⟨rfl, rfl, parse_args_none _ _ hp⟩
      | some s =>
        right
        simp only [bind, Except.bind] at h
        cases hc : check_settings s with
        | error e => rw [hc] at h; cases h
        | ok u =>
          rw [hc] at h
          cases hr : run s with
          | error e => rw [hr] at h; cases h
          | ok res =>
            rw [hr] at h
            simp only [pure, Except.pure] at h
            cases h
            refine ⟨s, rfl, hc, ?_⟩
            cases res
            · exact Or.inr ⟨hr, rfl⟩
            · exact Or.inl ⟨hr, rfl⟩
  · intro code msg h
    unfold main at h
    cases hp : parse_args argv.tail {} with
    | error e =>
      rw [hp] at h
      simp only [bind, Except.bind] at h
      cases h
      rcases parse_args_die _ _ code msg hp with h1 | h1 | h1
      · exact Or.inl (Or.inr (Or.inl h1))
      · exact Or.inl (Or.inr (Or.inr (Or.inl h1)))
      · exact Or.inl (Or.inr (Or.inr (Or.inr (Or.inr h1))))
    | ok r =>
      rw [hp] at h
      cases r with
      | none => simp [bind, Except.bind, pure, Except.pure] at h
      | some s =>
        simp only [bind, Except.bind] at h
        cases hc : check_settings s with
        | error e =>
          rw [hc] at h
          cases h
          rcases check_settings_die s code msg hc with h1 | h1 | h1
          · exact Or.inl (Or.inl h1)
          · exact Or.inl (Or.inr (Or.inr (Or.inr (Or.inl h1))))
          · exact Or.inl (Or.inr (Or.inr (Or.inr (Or.inr h1))))
        | ok u =>
          rw [hc] at h
          cases hr : run s with
          | error e =>
            rw [hr] at h
            cases h
            exact Or.inr ⟨s, hr⟩
          | ok res => rw [hr] at h; cases h

/-- C30 (witness): a run on a circuit that is not verified ends with exit code
0, and `-h` ends with exit code 0. -/
theorem main_exit_code_witness :
    main ["talisman", "mult.aig", "-mult-spec"] (fun _ => .ok false) = .ok 0 ∧
    ((0 : Int) = 0 ∧ parse_args ["mult.aig", "-mult-spec"] {} = .ok none ∧
        ("-h" ∈ ["mult.aig", "-mult-spec"] ∨ "--help" ∈ ["mult.aig", "-mult-spec"]) ∨
      ∃ s, parse_args ["mult.aig", "-mult-spec"] {} = .ok (some s) ∧
        check_settings s = .ok () ∧
        (((fun _ => .ok false : Settings → Except Fault Bool) s = .ok true ∧ (0 : Int) = 1) ∨
          ((fun _ => .ok false : Settings → Except Fault Bool) s = .ok false ∧ (0 : Int) = 0))) :=
  ⟨rfl, (main_exit_code ["talisman", "mult.aig", "-mult-spec"] (fun _ => .ok false)).1 0 rfl⟩

/-! ## Canonical form of a sub-circuit under renaming -/

theorem find_id_rename (ρ : Var → Var) (S : Var → Prop)
    (hinj : ∀ u, S u → ∀ v, S v → ρ u = ρ v → u = v)
    (m : VarIds) (hm : ∀ e ∈ m, S e.1) (v : Var) (hv : S v) :
    find_id (renameIds ρ m) (ρ v) = find_id m v := by
  induction m with
  | nil => rfl
  | cons e m ih =>
    obtain ⟨w, i⟩ := e
    have hw : S w := hm (w, i) (List.mem_cons_self _ _)
    have ih2 := ih (fun e he => hm e (List.mem_cons_of_mem _ he))
    simp only [renameIds, List.map_cons, find_id] at ih2 ⊢
    by_cases h : w = v
    · subst h; simp
    · have h2 : ρ w ≠ ρ v := fun h3 => h (hinj w hw v hv h3)
      rw [if_neg h, if_neg h2]
      exact ih2

theorem renameIds_append (ρ : Var → Var) (m1 m2 : VarIds) :
    renameIds ρ (m1 ++ m2) = renameIds ρ m1 ++ renameIds ρ m2 := by
  simp [renameIds]

theorem assign_ids_term_rename (ρ : Var → Var) (S : Var → Prop)
    (hinj : ∀ u, S u → ∀ v, S v → ρ u = ρ v → u = v)
    (t : Term) (ht : ∀ v ∈ t, S v) (m : VarIds) (hm : ∀ e ∈ m, S e.1) (id : Nat) :
    assign_ids_term (t.map ρ) (renameIds ρ m, id) =
      (renameIds ρ (assign_ids_term t (m, id)).1, (assign_ids_term t (m, id)).2) ∧
    ∀ e ∈ (assign_ids_term t (m, id)).1, S e.1 := by
  induction t generalizing m id with
  | nil => exact ⟨rfl, hm⟩
  | cons v t ih =>
    have hv : S v := ht v (List.mem_cons_self _ _)
    have ht2 : ∀ w ∈ t, S w := fun w hw => ht w (List.mem_cons_of_mem _ hw)
    simp only [List.map_cons, assign_ids_term, find_id_rename ρ S hinj m hm v hv]
    by_cases h : find_id m v = none
    · rw [if_pos h, if_pos h]
      have hm2 : ∀ e ∈ m ++ [(v, id)], S e.1 := by
        intro e he
        rcases List.mem_append.mp he with he | he
        · exact hm e he
        · simp only [List.mem_singleton] at he; subst he; exact hv
      have := ih ht2 (m ++ [(v, id)]) hm2 (id + 1)
      rw [renameIds_append] at this
      exact this
    · rw [if_neg h, if_neg h]
      exact ih ht2 m hm id

theorem assign_ids_rename (ρ : Var → Var) (S : Var → Prop)
    (hinj : ∀ u, S u → ∀ v, S v → ρ u = ρ v → u = v)
    (l : List Monomial) (hl : ∀ v ∈ varsOf l, S v) (m : VarIds) (hm : ∀ e ∈ m, S e.1)
    (id : Nat) :
    assign_ids (l.map (fun x => { coeff := x.coeff, term := x.term.map ρ }))
        (renameIds ρ m, id) =
      (renameIds ρ (assign_ids l (m, id)).1, (assign_ids l (m, id)).2) ∧
    ∀ e ∈ (assign_ids l (m, id)).1, S e.1 := by
  induction l generalizing m id with
  | nil => exact ⟨rfl, hm⟩
  | cons x l ih =>
    have hx : ∀ v ∈ x.term, S v := by
      intro v hv
      apply hl
      simp only [varsOf, List.flatMap_cons, List.mem_append]
      exact Or.inl hv
    have hl2 : ∀ v ∈ varsOf l, S v := by
      intro v hv
      apply hl
      simp only [varsOf, List.flatMap_cons, List.mem_append] at hv ⊢
      exact Or.inr hv
    obtain ⟨h1, h2⟩ := assign_ids_term_rename ρ S hinj x.term hx m hm id
    simp only [assign_ids, List.map_cons, List.foldl_cons] at ih ⊢
    rw [h1]
    exact ih hl2 _ h2 _

theorem normalize_term_rename (ρ : Var → Var) (S : Var → Prop)
    (hinj : ∀ u, S u → ∀ v, S v → ρ u = ρ v → u = v)
    (t : Term) (ht : ∀ v ∈ t, S v) (nt : List Nat) (m : VarIds) (hm : ∀ e ∈ m, S e.1) :
    normalize_term (t.map ρ) nt (renameIds ρ m) =
      ((normalize_term t nt m).1, renameIds ρ (normalize_term t nt m).2) ∧
    ∀ e ∈ (normalize_term t nt m).2, S e.1 := by
  induction t generalizing nt m with
  | nil => exact ⟨rfl, hm⟩
  | cons v t ih =>
    have hv : S v := ht v (List.mem_cons_self _ _)
    have ht2 : ∀ w ∈ t, S w := fun w hw => ht w (List.mem_cons_of_mem _ hw)
    simp only [List.map_cons, normalize_term, find_id_rename ρ S hinj m hm v hv]
    cases h : find_id m v with
    | some i => exact ih ht2 _ m hm
    | none =>
      have hm2 : ∀ e ∈ m ++ [(v, 0)], S e.1 := by
        intro e he
        rcases List.mem_append.mp he with he | he
        · exact hm e he
        · simp only [List.mem_singleton] at he; subst he; exact hv
      have := ih ht2 (nt ++ [0]) (m ++ [(v, 0)]) hm2
      rw [renameIds_append] at this
      exact this

theorem normalize_fold_rename (ρ : Var → Var) (S : Var → Prop)
    (hinj : ∀ u, S u → ∀ v, S v → ρ u = ρ v → u = v)
    (l : List Monomial) (hl : ∀ v ∈ varsOf l, S v) (np : Normalized_poly) (m : VarIds)
    (hm : ∀ e ∈ m, S e.1) :
    (l.map (fun x => ({ coeff := x.coeff, term := x.term.map ρ } : Monomial))).foldl
        normalize_mon (np, renameIds ρ m) =
      ((l.foldl normalize_mon (np, m)).1, renameIds ρ (l.foldl normalize_mon (np, m)).2) ∧
    ∀ e ∈ (l.foldl normalize_mon (np, m)).2, S e.1 := by
  induction l generalizing np m with
  | nil => exact ⟨rfl, hm⟩
  | cons x l ih =>
    have hx : ∀ v ∈ x.term, S v := by
      intro v hv
      apply hl
      simp only [varsOf, List.flatMap_cons, List.mem_append]
      exact Or.inl hv
    have hl2 : ∀ v ∈ varsOf l, S v := by
      intro v hv
      apply hl
      simp only [varsOf, List.flatMap_cons, List.mem_append] at hv ⊢
      exact Or.inr hv
    have hnil : (x.term.map ρ = []) ↔ (x.term = []) := List.map_eq_nil_iff
    obtain ⟨h1, h2⟩ := normalize_term_rename ρ S hinj x.term hx
      (if x.term = [] then [0] else []) m hm
    simp only [List.map_cons, List.foldl_cons]
    have hstep : normalize_mon (np, renameIds ρ m)
        { coeff := x.coeff, term := x.term.map ρ } =
        ((normalize_mon (np, m) x).1, renameIds ρ (normalize_mon (np, m) x).2) := by
      simp only [normalize_mon, hnil, h1]
    rw [hstep]
    exact ih hl2 _ _ h2

theorem compress_fold_rename (ρ : Var → Var) (S : Var → Prop)
    (hinj : ∀ u, S u → ∀ v, S v → ρ u = ρ v → u = v)
    (ps : List Polynomial) (hps : ∀ v ∈ polysVars ps, S v)
    (res : List Normalized_poly) (m : VarIds) (hm : ∀ e ∈ m, S e.1) (id : Nat) :
    ∃ r m2 id2, (ps.map some).foldlM compress_step (res, m, id) = .ok (r, m2, id2) ∧
      ((ps.map (renamePoly ρ)).map some).foldlM compress_step (res, renameIds ρ m, id) =
        .ok (r, renameIds ρ m2, id2) := by
  induction ps generalizing res m id with
  | nil => exact ⟨res, m, id, rfl, rfl⟩
  | cons p ps ih =>
    have hp : ∀ v ∈ varsOf p.mon, S v := by
      intro v hv
      apply hps
      simp only [polysVars, List.flatMap_cons, List.mem_append]
      exact Or.inl hv
    have hps2 : ∀ v ∈ polysVars ps, S v := by
      intro v hv
      apply hps
      simp only [polysVars, List.flatMap_cons, List.mem_append] at hv ⊢
      exact Or.inr hv
    obtain ⟨a1, a2⟩ := assign_ids_rename ρ S hinj p.mon hp m hm id
    obtain ⟨n1, n2⟩ := normalize_fold_rename ρ S hinj p.mon hp
      { coeffs := [], terms := [] } (assign_ids p.mon (m, id)).1 a2
    obtain ⟨r, m2, id2, h1, h2⟩ := ih hps2 (res ++ [(normalize p (assign_ids p.mon (m, id)).1).1])
      (normalize p (assign_ids p.mon (m, id)).1).2 n2 (assign_ids p.mon (m, id)).2
    refine ⟨r, m2, id2, ?_, ?_⟩
    · simp only [List.map_cons, List.foldlM_cons, compress_step, deref, bind, Except.bind,
        pure, Except.pure]
      exact h1
    · simp only [List.map_cons, List.foldlM_cons, compress_step, deref, bind, Except.bind,
        pure, Except.pure, renamePoly, a1, normalize, n1]
      exact h2

theorem cmp_term_loop_rename (ρ : Var → Var) (S : Var → Prop)
    (hord : ∀ u, S u → ∀ v, S v → ((ρ u).level < (ρ v).level ↔ u.level < v.level))
    (a b : Term) (ha : ∀ v ∈ a, S v) (hb : ∀ v ∈ b, S v) :
    cmp_term_loop (a.map ρ) (b.map ρ) = cmp_term_loop a b := by
  induction a generalizing b with
  | nil => cases b <;> simp [cmp_term_loop]
  | cons x a ih =>
    cases b with
    | nil => simp [cmp_term_loop]
    | cons y b =>
      have hx := ha x (List.mem_cons_self _ _)
      have hy := hb y (List.mem_cons_self _ _)
      simp only [List.map_cons, cmp_term_loop, gt_iff_lt, hord y hy x hx, hord x hx y hy]
      rw [ih b (fun v hv => ha v (List.mem_cons_of_mem _ hv))
        (fun v hv => hb v (List.mem_cons_of_mem _ hv))]

theorem rename_inj_of_order (ρ : Var → Var) (vs : List Var)
    (hd : LevelsDistinct vs)
    (hord : ∀ u ∈ vs, ∀ v ∈ vs, ((ρ u).level < (ρ v).level ↔ u.level < v.level)) :
    ∀ u ∈ vs, ∀ v ∈ vs, ρ u = ρ v → u = v := by
  intro u hu v hv h
  apply hd u hu v hv
  have h1 := hord u hu v hv
  have h2 := hord v hv u hu
  rw [h] at h1
  rw [h] at h2
  have h3 : ¬ (ρ v).level < (ρ v).level := lt_irrefl _
  have h4 : ¬ u.level < v.level := fun hh => h3 (h1.mpr hh)
  have h5 : ¬ v.level < u.level := fun hh => h3 (h2.mpr hh)
  omega

theorem map_rename_inj (ρ : Var → Var) (S : Var → Prop)
    (hinj : ∀ u, S u → ∀ v, S v → ρ u = ρ v → u = v)
    (a b : Term) (ha : ∀ v ∈ a, S v) (hb : ∀ v ∈ b, S v) (h : a.map ρ = b.map ρ) : a = b := by
  induction a generalizing b with
  | nil =>
    cases b with
    | nil => rfl
    | cons y b => simp at h
  | cons x a ih =>
    cases b with
    | nil => simp at h
    | cons y b =>
      simp only [List.map_cons, List.cons.injEq] at h
      rw [hinj x (ha x (List.mem_cons_self _ _)) y (hb y (List.mem_cons_self _ _)) h.1,
        ih b (fun v hv => ha v (List.mem_cons_of_mem _ hv))
          (fun v hv => hb v (List.mem_cons_of_mem _ hv)) h.2]

theorem cmp_term_rename (ρ : Var → Var) (S : Var → Prop)
    (hinj : ∀ u, S u → ∀ v, S v → ρ u = ρ v → u = v)
    (hord : ∀ u, S u → ∀ v, S v → ((ρ u).level < (ρ v).level ↔ u.level < v.level))
    (a b : Term) (ha : ∀ v ∈ a, S v) (hb : ∀ v ∈ b, S v) :
    cmp_term (a.map ρ) (b.map ρ) = cmp_term a b := by
  unfold cmp_term
  have e1 : (a.map ρ = []) ↔ (a = []) := List.map_eq_nil_iff
  have e2 : (b.map ρ = []) ↔ (b = []) := List.map_eq_nil_iff
  have e3 : (a.map ρ ≠ b.map ρ) ↔ (a ≠ b) := by
    constructor
    · intro h h2; exact h (by rw [h2])
    · intro h h2; exact h (map_rename_inj ρ S hinj a b ha hb h2)
  simp only [e1, e2, e3, cmp_term_loop_rename ρ S hord a b ha hb]

theorem normalForm_rename (ρ : Var → Var) (S : Var → Prop)
    (hinj : ∀ u, S u → ∀ v, S v → ρ u = ρ v → u = v)
    (hord : ∀ u, S u → ∀ v, S v → ((ρ u).level < (ρ v).level ↔ u.level < v.level))
    (l : List Monomial) (hl : ∀ v ∈ varsOf l, S v) (hnf : NormalForm l) :
    NormalForm (l.map (fun x => ({ coeff := x.coeff, term := x.term.map ρ } : Monomial))) := by
  obtain ⟨h1, h2⟩ := hnf
  constructor
  · intro m hm
    obtain ⟨x, hx, rfl⟩ := List.mem_map.mp hm
    exact h1 x hx
  · rw [List.pairwise_map]
    refine h2.imp_of_mem ?_
    intro a b ha hb hab
    have hva : ∀ v ∈ a.term, S v := fun v hv => hl v (mem_varsOf l a v ha hv)
    have hvb : ∀ v ∈ b.term, S v := fun v hv => hl v (mem_varsOf l b v hb hv)
    simp only [cmp_term_rename ρ S hinj hord a.term b.term hva hvb]
    exact hab

/-- C27: let the polynomials of a sub-circuit be given in gate order, with
distinct variables at distinct levels, and let `ρ` rename the variables so
that the relative order of their levels is kept. Then every polynomial in
normal form is again in normal form after the renaming, with its monomials in
the same order; `compress_subcircuit` returns for both sub-circuits, with the
same vector of `Normalized_poly` (and the map `var_to_id` renamed by `ρ`); so
`circuit_hash` gives the same value for both. -/
theorem compress_subcircuit_stable (ρ : Var → Var) (ps : List Polynomial)
    (h1 : String → Nat) (h2 : Nat → Nat)
    (hd : LevelsDistinct (polysVars ps))
    (hord : ∀ u ∈ polysVars ps, ∀ v ∈ polysVars ps,
      ((ρ u).level < (ρ v).level ↔ u.level < v.level)) :
    (∀ p ∈ ps, NormalForm p.mon → NormalForm (renamePoly ρ p).mon) ∧
    ∃ res m, compress_subcircuit (ps.map some) = .ok (res, m) ∧
      compress_subcircuit ((ps.map (renamePoly ρ)).map some) = .ok (res, renameIds ρ m) ∧
      ∀ res2 m2, compress_subcircuit ((ps.map (renamePoly ρ)).map some) = .ok (res2, m2) →
        res2 = res ∧ circuit_hash h1 h2 res2 = circuit_hash h1 h2 res := by
  have hinj := rename_inj_of_order ρ (polysVars ps) hd hord
  constructor
  · intro p hp hnf
    refine normalForm_rename ρ (fun v => v ∈ polysVars ps) hinj hord p.mon ?_ hnf
    intro v hv
    simp only [polysVars, List.mem_flatMap]
    exact ⟨p, hp, hv⟩
  · obtain ⟨r, m2, id2, e1, e2⟩ := compress_fold_rename ρ (fun v => v ∈ polysVars ps) hinj ps
      (fun v hv => hv) [] [] (by simp) 1
    have e3 : compress_subcircuit ((ps.map (renamePoly ρ)).map some) =
        .ok (r, renameIds ρ m2) := by
      have e2b : ((ps.map (renamePoly ρ)).map some).foldlM compress_step ([], [], 1) =
          .ok (r, renameIds ρ m2, id2) := e2
      simp only [compress_subcircuit, e2b, bind, Except.bind, pure, Except.pure]
    refine ⟨r, m2, ?_, e3, ?_⟩
    · simp only [compress_subcircuit, e1, bind, Except.bind, pure, Except.pure]
    · intro res2 m3 h
      rw [e3] at h
      cases h
      exact ⟨rfl, rfl⟩

/-- C27 (witness): the constraint `-s + n2*n1` of a gate and the same
constraint over variables with other numbers and levels 10 higher. -/
theorem compress_subcircuit_stable_witness :
    ∃ res m,
      compress_subcircuit ([(⟨[⟨-1, [⟨10, 10, false⟩]⟩,
          ⟨1, [⟨8, 9, true⟩, ⟨6, 7, true⟩]⟩], 2⟩ : Polynomial)].map some) = .ok (res, m) ∧
      compress_subcircuit
        (([(⟨[⟨-1, [⟨10, 10, false⟩]⟩, ⟨1, [⟨8, 9, true⟩, ⟨6, 7, true⟩]⟩], 2⟩ : Polynomial)].map
          (renamePoly (fun v => ⟨v.num + 100, v.level + 10, v.d⟩))).map some) =
        .ok (res, renameIds (fun v => ⟨v.num + 100, v.level + 10, v.d⟩) m) ∧
      ∀ res2 m2, compress_subcircuit
        (([(⟨[⟨-1, [⟨10, 10, false⟩]⟩, ⟨1, [⟨8, 9, true⟩, ⟨6, 7, true⟩]⟩], 2⟩ : Polynomial)].map
          (renamePoly (fun v => ⟨v.num + 100, v.level + 10, v.d⟩))).map some) = .ok (res2, m2) →
        res2 = res ∧ circuit_hash (fun s => s.length) (fun n => n) res2 =
          circuit_hash (fun s => s.length) (fun n => n) res :=
  (compress_subcircuit_stable (fun v => ⟨v.num + 100, v.level + 10, v.d⟩)
    [⟨[⟨-1, [⟨10, 10, false⟩]⟩, ⟨1, [⟨8, 9, true⟩, ⟨6, 7, true⟩]⟩], 2⟩]
    (fun s => s.length) (fun n => n) (by decide)
    (by intro u _ v _; constructor <;> intro h <;> simp only at h ⊢ <;> omega)).2

/-! ## `mult_spec_poly` -/

theorem foldlM_ok {α β : Type} (f : β → α → Except Fault β) (g : β → α → β) (l : List α)
    (st : β) (h : ∀ x ∈ l, ∀ s, f s x = .ok (g s x)) :
    l.foldlM f st = .ok (l.foldl g st) := by
  induction l generalizing st with
  | nil => rfl
  | cons x l ih =>
    rw [List.foldlM_cons, h x (List.mem_cons_self _ _) st]
    simp only [bind, Except.bind, List.foldl_cons]
    exact ih _ (fun y hy => h y (List.mem_cons_of_mem _ hy))

theorem foldl_flatMap_push {α : Type} (F : α → List Monomial) (l : List α) (st : MStack) :
    l.foldl (fun s i => (F i).foldl push_mstack s) st = (l.flatMap F).foldl push_mstack st := by
  induction l generalizing st with
  | nil => rfl
  | cons x l ih => simp only [List.foldl_cons, List.flatMap_cons, List.foldl_append, ih]

theorem lin_flatMap {α : Type} (g : Term → Int) (F : α → List Monomial) (l : List α) :
    lin g (l.flatMap F) = (l.map (fun i => lin g (F i))).sum := by
  induction l with
  | nil => simp [lin]
  | cons x l ih => simp only [List.flatMap_cons, lin_append, ih, List.map_cons, List.sum_cons]

theorem lin_map_mk (g : Term → Int) {α : Type} (l : List α) (cf : α → Int) (tf : α → Term) :
    lin g (l.map (fun i => Monomial.mk (cf i) (tf i))) = (l.map (fun i => cf i * g (tf i))).sum := by
  simp [lin, Function.comp_def]

theorem mult_spec_poly_eq (c : Circuit) (a0 ainc b0 binc : Nat) (s a b : Nat → Gate)
    (hs : ∀ i < c.NN, c.gates[i + c.M - 1]? = some (s i))
    (ha : ∀ i < c.NN / 2, c.gates[a0 + i * ainc]? = some (a i))
    (hb : ∀ j < c.NN / 2, c.gates[b0 + j * binc]? = some (b j)) :
    mult_spec_poly c a0 ainc b0 binc = .ok (build_poly
      (((List.range c.NN).reverse.map (fun i => Monomial.mk (-(2 ^ i)) [(s i).get_var]) ++
        (List.range (c.NN / 2)).reverse.flatMap (fun i => (List.range (c.NN / 2)).reverse.map
          (fun j => Monomial.mk (2 ^ (i + j)) [(b j).get_var, (a i).get_var]))).foldl
        push_mstack [])) := by
  have h1 : (List.range c.NN).reverse.foldlM
      (fun st i => do
        let g ← derefGate c.gates[i + c.M - 1]?
        pure (push_mstack st (Monomial.mk (-(2 ^ i)) (new_term g.get_var [])))) [] =
      .ok ((List.range c.NN).reverse.foldl
        (fun st i => push_mstack st (Monomial.mk (-(2 ^ i)) [(s i).get_var])) []) := by
    apply foldlM_ok
    intro i hi st
    have hi2 : i < c.NN := by simpa using hi
    simp only [hs i hi2, derefGate, bind, Except.bind, pure, Except.pure, new_term]
  have h2 : ∀ st1, (List.range (c.NN / 2)).reverse.foldlM
      (fun st i => do
        let a ← derefGate c.gates[a0 + i * ainc]?
        (List.range (c.NN / 2)).reverse.foldlM
          (fun st j => do
            let b ← derefGate c.gates[b0 + j * binc]?
            pure (push_mstack st
              (Monomial.mk (2 ^ (i + j)) (build_term_from_stack [b.get_var, a.get_var])))) st)
      st1 =
      .ok ((List.range (c.NN / 2)).reverse.foldl
        (fun st i => ((List.range (c.NN / 2)).reverse.map
          (fun j => Monomial.mk (2 ^ (i + j)) [(b j).get_var, (a i).get_var])).foldl
            push_mstack st) st1) := by
    intro st1
    apply foldlM_ok
    intro i hi st
    have hi2 : i < c.NN / 2 := by simpa using hi
    simp only [ha i hi2, derefGate, bind, Except.bind]
    rw [List.foldl_map]
    apply foldlM_ok
    intro j hj st2
    have hj2 : j < c.NN / 2 := by simpa using hj
    simp only [hb j hj2, derefGate, bind, Except.bind, pure, Except.pure,
      build_term_from_stack_eq]
  unfold mult_spec_poly
  rw [h1, ok_bind, h2, ok_bind]
  simp only [pure, Except.pure, List.foldl_append, List.foldl_map]
  rw [← foldl_flatMap_push]
  simp only [List.foldl_map]

theorem sum_mul_sum_flat (l1 l2 : List Nat) (f g : Nat → Int) :
    (l1.map (fun i => (l2.map (fun j => f i * g j)).sum)).sum =
      (l1.map f).sum * (l2.map g).sum := by
  induction l1 with
  | nil => simp
  | cons x l ih =>
    simp only [List.map_cons, List.sum_cons, ih, add_mul]
    congr 1
    rw [List.sum_map_mul_left]

theorem lin_multSpecMons (σ : Var → Int) (n : Nat) (s a b : Nat → Var) :
    lin (Term.eval σ) (multSpecMons n s a b) =
      -encodedInt σ n s + encodedInt σ (n / 2) a * encodedInt σ (n / 2) b := by
  unfold multSpecMons encodedInt
  rw [lin_append, lin_flatMap, lin_map_mk]
  have e1 : ((List.range n).map (fun i => -(2 : Int) ^ i * Term.eval σ [s i])).sum =
      -((List.range n).map (fun i => (2 : Int) ^ i * σ (s i))).sum := by
    induction (List.range n) with
    | nil => simp
    | cons x l ih => simp only [List.map_cons, List.sum_cons, ih]; simp [Term.eval]; ring
  have e2 : ((List.range (n / 2)).map (fun i => lin (Term.eval σ)
      ((List.range (n / 2)).map (fun j => Monomial.mk (2 ^ (i + j)) [b j, a i])))).sum =
      ((List.range (n / 2)).map (fun i => ((List.range (n / 2)).map
        (fun j => ((2 : Int) ^ i * σ (a i)) * ((2 : Int) ^ j * σ (b j)))).sum)).sum := by
    congr 1
    apply List.map_congr_left
    intro i _
    rw [lin_map_mk]
    congr 1
    apply List.map_congr_left
    intro j _
    simp [Term.eval, pow_add]
    ring
  rw [e1, e2, sum_mul_sum_flat]

theorem lin_reverse_lists (g : Term → Int) (n h : Nat) (s a b : Nat → Var) :
    lin g ((List.range n).reverse.map (fun i => Monomial.mk (-(2 ^ i)) [s i]) ++
        (List.range h).reverse.flatMap (fun i => (List.range h).reverse.map
          (fun j => Monomial.mk (2 ^ (i + j)) [b j, a i]))) =
    lin g ((List.range n).map (fun i => Monomial.mk (-(2 ^ i)) [s i]) ++
        (List.range h).flatMap (fun i => (List.range h).map
          (fun j => Monomial.mk (2 ^ (i + j)) [b j, a i]))) := by
  rw [lin_append, lin_append, List.map_reverse, lin_reverse, lin_flatMap, lin_flatMap,
    List.map_reverse, List.sum_reverse]
  congr 2
  apply List.map_congr_left
  intro i _
  rw [List.map_reverse, lin_reverse]

/-- C29: when the gate table holds the output gates `s_i` (`i < NN`) and the
input gates `a_i`, `b_j` of the two operands (`i, j < NN/2`), and different
variables among them have different levels, `mult_spec_poly` returns a
polynomial in normal form whose coefficients are those of
`-sum 2^i s_i + sum sum 2^(i+j) a_i b_j`. On every assignment its value is
the product of the integers encoded by `a` and `b` minus the integer encoded
by `s`, so it is 0 exactly when the outputs encode the product. -/
theorem mult_spec_poly_correct (c : Circuit) (a0 ainc b0 binc : Nat) (s a b : Nat → Gate)
    (hs : ∀ i < c.NN, c.gates[i + c.M - 1]? = some (s i))
    (ha : ∀ i < c.NN / 2, c.gates[a0 + i * ainc]? = some (a i))
    (hb : ∀ j < c.NN / 2, c.gates[b0 + j * binc]? = some (b j))
    (hd : LevelsDistinct ((List.range c.NN).map (fun i => (s i).get_var) ++
      ((List.range (c.NN / 2)).map (fun i => (a i).get_var) ++
        (List.range (c.NN / 2)).map (fun j => (b j).get_var)))) :
    ∃ p, mult_spec_poly c a0 ainc b0 binc = .ok p ∧ PolyNF p ∧
      (∀ t, coeffAt (mons p) t = coeffAt (multSpecMons c.NN (fun i => (s i).get_var)
        (fun i => (a i).get_var) (fun j => (b j).get_var)) t) ∧
      (∀ σ : Var → Int,
        evalPoly σ p = encodedInt σ (c.NN / 2) (fun i => (a i).get_var) *
            encodedInt σ (c.NN / 2) (fun j => (b j).get_var) -
          encodedInt σ c.NN (fun i => (s i).get_var) ∧
        (evalPoly σ p = 0 ↔ encodedInt σ c.NN (fun i => (s i).get_var) =
          encodedInt σ (c.NN / 2) (fun i => (a i).get_var) *
            encodedInt σ (c.NN / 2) (fun j => (b j).get_var))) ∧
      ((∀ i < c.NN / 2, ∀ j < c.NN / 2, (a i).level < (b j).level) → TermsSorted (mons p)) := by
  set vs := (List.range c.NN).map (fun i => (s i).get_var) ++
      ((List.range (c.NN / 2)).map (fun i => (a i).get_var) ++
        (List.range (c.NN / 2)).map (fun j => (b j).get_var)) with hvs
  set L := (List.range c.NN).reverse.map (fun i => Monomial.mk (-(2 ^ i)) [(s i).get_var]) ++
        (List.range (c.NN / 2)).reverse.flatMap (fun i => (List.range (c.NN / 2)).reverse.map
          (fun j => Monomial.mk (2 ^ (i + j)) [(b j).get_var, (a i).get_var])) with hL
  have hT := cmpFaithful_of_levels vs hd
  have hLT : TermsIn (fun t => ∀ v ∈ t, v ∈ vs) L := by
    intro m hm v hv
    rw [hL] at hm
    rcases List.mem_append.mp hm with hm | hm
    · obtain ⟨i, hi, rfl⟩ := List.mem_map.mp hm
      have hi2 : i ∈ List.range c.NN := by simpa using hi
      simp only [List.mem_singleton] at hv
      subst hv
      rw [hvs]
      exact List.mem_append_left _ (List.mem_map.mpr ⟨i, hi2, rfl⟩)
    · obtain ⟨i, hi, hm2⟩ := List.mem_flatMap.mp hm
      obtain ⟨j, hj, rfl⟩ := List.mem_map.mp hm2
      have hi2 : i ∈ List.range (c.NN / 2) := by simpa using hi
      have hj2 : j ∈ List.range (c.NN / 2) := by simpa using hj
      simp only [List.mem_cons, List.mem_singleton, List.not_mem_nil, or_false] at hv
      rw [hvs]
      rcases hv with rfl | rfl
      · exact List.mem_append_right _ (List.mem_append_right _ (List.mem_map.mpr ⟨j, hj2, rfl⟩))
      · exact List.mem_append_right _ (List.mem_append_left _ (List.mem_map.mpr ⟨i, hi2, rfl⟩))
  obtain ⟨hnf, _, hlin⟩ := foldl_push_mstack_spec _ hT L [] hLT
    (fun m hm => by cases hm) stackNF_nil
  refine ⟨_, mult_spec_poly_eq c a0 ainc b0 binc s a b hs ha hb, build_poly_nf _ hnf, ?_, ?_,
    ?_⟩
  · intro t
    rw [mons_build_poly, coeffAt_eq_lin, lin_reverse, hlin, lin_nil, zero_add, coeffAt_eq_lin,
      hL]
    exact lin_reverse_lists _ c.NN (c.NN / 2) (fun i => (s i).get_var)
      (fun i => (a i).get_var) (fun j => (b j).get_var)
  · intro σ
    have hev : evalPoly σ (build_poly (L.foldl push_mstack [])) =
        encodedInt σ (c.NN / 2) (fun i => (a i).get_var) *
            encodedInt σ (c.NN / 2) (fun j => (b j).get_var) -
          encodedInt σ c.NN (fun i => (s i).get_var) := by
      unfold evalPoly
      rw [mons_build_poly, evalMons_eq_lin, lin_reverse, hlin, lin_nil, zero_add, hL,
        lin_reverse_lists _ c.NN (c.NN / 2) (fun i => (s i).get_var)
          (fun i => (a i).get_var) (fun j => (b j).get_var)]
      have := lin_multSpecMons σ c.NN (fun i => (s i).get_var)
        (fun i => (a i).get_var) (fun j => (b j).get_var)
      unfold multSpecMons at this
      rw [this]
      ring
    refine ⟨hev, ?_⟩
    rw [hev]
    constructor
    · intro h; linarith
    · intro h; rw [h]; ring
  · intro hab
    have hT2 : CmpFaithful (fun t => (∀ v ∈ t, v ∈ vs) ∧ TermSorted t) :=
      fun x y hx hy h => hT x y hx.1 hy.1 h
    have hLT2 : TermsIn (fun t => (∀ v ∈ t, v ∈ vs) ∧ TermSorted t) L := by
      intro m hm
      refine ⟨hLT m hm, ?_⟩
      rw [hL] at hm
      rcases List.mem_append.mp hm with hm | hm
      · obtain ⟨i, _, rfl⟩ := List.mem_map.mp hm
        simp [TermSorted]
      · obtain ⟨i, hi, hm2⟩ := List.mem_flatMap.mp hm
        obtain ⟨j, hj, rfl⟩ := List.mem_map.mp hm2
        have hi2 : i < c.NN / 2 := by simpa using hi
        have hj2 : j < c.NN / 2 := by simpa using hj
        simp only [TermSorted, List.pairwise_cons, List.mem_singleton, forall_eq,
          List.not_mem_nil, false_implies, implies_true, List.Pairwise.nil, and_true,
          Gate.get_var]
        exact hab i hi2 j hj2
    obtain ⟨_, hin, _⟩ := foldl_push_mstack_spec _ hT2 L [] hLT2
      (fun m hm => by cases hm) stackNF_nil
    intro m hm
    rw [mons_build_poly] at hm
    exact (hin m (List.mem_reverse.mp hm)).2

/-- C29 (witness): the circuit with the inputs `a` (literal 2) and `b`
(literal 4), the AND gate `l6 = b & a` and the outputs `s0 = l6` and `s1 = 0`,
a multiplier of two one-bit numbers. -/
theorem mult_spec_poly_correct_witness :
    ∃ p, mult_spec_poly
        { NN := 2, M := 4, MM := 2,
          gates := [Gate.mk 2 2 true false 0 false [] 0 [] none, Gate.mk 4 4 true false 0 false [] 0 [] none,
            Gate.mk 6 6 false false 0 false [4, 2] 0 [] none, Gate.mk 0 8 false true 0 false [6] 0 [] none,
            Gate.mk (-1) 10 false true 0 false [] 0 [] none],
          is_model_and := fun l => if l = 6 then some (aiger_and.mk 6 4 2) else none,
          slit := fun i => if i = 0 then 6 else 0,
          do_local_lin := false } 0 1 1 1 = .ok p ∧ PolyNF p ∧
      (∀ t, coeffAt (mons p) t = coeffAt (multSpecMons 2
        (fun i => (if i = 0 then Gate.mk 0 8 false true 0 false [6] 0 [] none
          else Gate.mk (-1) 10 false true 0 false [] 0 [] none).get_var)
        (fun _ => (Gate.mk 2 2 true false 0 false [] 0 [] none).get_var)
        (fun _ => (Gate.mk 4 4 true false 0 false [] 0 [] none).get_var)) t) :=
  let ⟨p, h1, h2, h3, _⟩ := mult_spec_poly_correct
    { NN := 2, M := 4, MM := 2,
      gates := [Gate.mk 2 2 true false 0 false [] 0 [] none, Gate.mk 4 4 true false 0 false [] 0 [] none,
        Gate.mk 6 6 false false 0 false [4, 2] 0 [] none, Gate.mk 0 8 false true 0 false [6] 0 [] none,
        Gate.mk (-1) 10 false true 0 false [] 0 [] none],
      is_model_and := fun l => if l = 6 then some (aiger_and.mk 6 4 2) else none,
      slit := fun i => if i = 0 then 6 else 0,
      do_local_lin := false } 0 1 1 1
    (fun i => if i = 0 then Gate.mk 0 8 false true 0 false [6] 0 [] none
      else Gate.mk (-1) 10 false true 0 false [] 0 [] none)
    (fun _ => Gate.mk 2 2 true false 0 false [] 0 [] none)
    (fun _ => Gate.mk 4 4 true false 0 false [] 0 [] none)
    (by intro i hi; interval_cases i <;> rfl)
    (by intro i hi; interval_cases i; rfl)
    (by intro i hi; interval_cases i; rfl)
    (by decide)
  ⟨p, h1, h2, h3⟩

/-! ## `allocate_gates` and the levels of the gates -/

/-- C21 (failing input): the AIG with the input 2 and the AND gate `4 = 2 & 0`
lists its AND gate after its fan-ins. `allocate_gates` gives the gate the
distance 1 without raising `max_dist`, which stays 0, so the re-levelling loop
does not run and the gate keeps its placeholder level 0, below the level 2 of
its fan-in gate, the input. `init_gates` completes on this AIG. -/
theorem allocate_gates_constant_fanin :
    constAndAig.is_model_and 4 = some (aiger_and.mk 4 2 0) ∧
    allocate_gates constAndAig false [] [] 0 =
      .ok ([Gate.mk 2 2 true false 0 false [] 0 [] none,
        Gate.mk 4 0 false false 0 false [] 1 [] none,
        Gate.mk 0 6 false true 0 false [] 0 [] none], 0) ∧
    (∃ c, init_gates constAndAig false [] [] 0 = .ok (c, 0) ∧
      c.gates.map (fun g => (g.num, g.level, g.input)) =
        [(2, 2, true), (4, 0, false), (0, 6, false)]) :=
  ⟨rfl, rfl, _, rfl, rfl⟩

/-- C22 (failing input): on the AIG with the input 2 and the AND gate
`4 = 2 & 0`, `init_gates` leaves the input at level 2 and the AND gate at level
0. After one call of `extend_var_gates` (for the term of the input variable)
and `adjust_level_of_extended_gates` the input is at level -2, the extension
gate at level 2 and the AND gate still at level 0: the extension gate is not
below the internal gate. -/
theorem extension_levels_constant_fanin :
    ∃ c s1 t s2, init_gates constAndAig false [] [] 0 = .ok (c, 0) ∧
      extend_var_gates { c := c, size_gates := 4, extended_gates := 0 } [⟨2, 2, false⟩]
        = .ok (s1, t) ∧
      adjust_level_of_extended_gates s1 = .ok s2 ∧
      s2.c.gates.map (fun g => (g.num, g.level, g.input, g.extension)) =
        [(2, -2, true, false), (4, 0, false, false), (0, 6, false, false),
          (-1, 2, false, true)] :=
  ⟨_, _, _, _, rfl, rfl, rfl, rfl⟩

/-! ## The XOR-AND rule -/

/-- C25 (failing input): on `dupAndAig`, `mark_xor_and` pairs the XOR root
`g = 10` with the AND gate `a = 12` (the only parent of the first grandchild
`y` that is no child of `g` and has the second grandchild `x` as child), and
`find_xor_and` registers `g` in the `dual_twins` of `a`. The assignment
`x = y = 1` is Boolean and consistent with the AIG, and on it `a = 1` and
`g = 0`, so `a * (1 - g) = 1`. -/
theorem find_xor_and_duplicate_gate :
    init_gates dupAndAig false [] [] 0 = .ok (dupAndTable, 2) ∧
    find_xor_and dupAndTable false = .ok [(12, 10)] ∧
    gate dupAndTable 12 = some (Gate.mk 12 10 false false 0 false [4, 2] 1 [-1] (some 10)) ∧
    gate dupAndTable 10 = some (Gate.mk 10 12 false false 1 false [8, 6] 2 [0] (some 12)) ∧
    Consistent dupAndAssign dupAndTable ∧
    dupAndAssign ⟨12, 10, false⟩ * (1 - dupAndAssign ⟨10, 12, false⟩) = 1 := by
  refine ⟨rfl, rfl, rfl, rfl, ⟨?_, ?_⟩, by decide⟩
  · intro v
    unfold dupAndAssign
    split_ifs <;> simp
  · intro g hg and1 h
    simp only [dupAndTable, List.mem_cons, List.mem_singleton, List.not_mem_nil, or_false] at hg
    rcases hg with rfl | rfl | rfl | rfl | rfl | rfl | rfl | rfl <;>
      simp [dupAndTable, dupAndAig] at h <;> subst h <;> decide

/-! ## Invariants of the gate table -/

theorem sameAig_refl (c : Circuit) : SameAig c c := ⟨rfl, rfl, rfl, rfl, rfl, rfl⟩

theorem sameAig_trans {a b c : Circuit} (h1 : SameAig a b) (h2 : SameAig b c) : SameAig a c :=
  ⟨h2.1.trans h1.1, h2.2.1.trans h1.2.1, h2.2.2.1.trans h1.2.2.1,
    h2.2.2.2.1.trans h1.2.2.2.1, h2.2.2.2.2.1.trans h1.2.2.2.2.1,
    h2.2.2.2.2.2.trans h1.2.2.2.2.2⟩

theorem modify_gate_sameAig (c : Circuit) (i : Nat) (f : Gate → Gate) :
    SameAig c (c.modify_gate i f) := by
  unfold Circuit.modify_gate
  cases c.gates[i]? <;> exact ⟨rfl, rfl, rfl, rfl, rfl, rfl⟩

theorem modify_gate_getElem (c : Circuit) (i : Nat) (f : Gate → Gate) (j : Nat) :
    (c.modify_gate i f).gates[j]? = if j = i then (c.gates[i]?).map f else c.gates[j]? := by
  unfold Circuit.modify_gate
  cases h : c.gates[i]? with
  | none =>
    by_cases hj : j = i
    · subst hj; simp [h]
    · simp [hj]
  | some g =>
    simp only [List.getElem?_set]
    by_cases hj : j = i
    · subst hj
      have hlt : j < c.gates.length := by
        by_contra hge
        rw [List.getElem?_eq_none (by omega)] at h
        cases h
      simp [hlt]
    · have hij : ¬ i = j := fun e => hj e.symm
      simp [hj, hij]

theorem modify_gate_length (c : Circuit) (i : Nat) (f : Gate → Gate) :
    (c.modify_gate i f).gates.length = c.gates.length := by
  unfold Circuit.modify_gate
  cases c.gates[i]? <;> simp

theorem gate_eq_idx (c : Circuit) (lit : Int) :
    gate c lit = (gate_idx c.M lit).bind (fun i => c.gates[i]?) := by
  unfold gate gate_idx
  split_ifs <;> rfl

theorem slotRel_refl (R : Nat → Gate → Gate → Prop) (hR : ∀ j g, R j g g) (c : Circuit) :
    SlotRel R c c :=
  ⟨sameAig_refl c, rfl, fun j g g2 h1 h2 => by rw [h1] at h2; cases h2; exact hR j g⟩

theorem slotRel_trans {R1 R2 T : Nat → Gate → Gate → Prop} {a b c : Circuit}
    (h1 : SlotRel R1 a b) (h2 : SlotRel R2 b c)
    (hR : ∀ j g g2 g3, R1 j g g2 → R2 j g2 g3 → T j g g3) : SlotRel T a c := by
  refine ⟨sameAig_trans h1.1 h2.1, h2.2.1.trans h1.2.1, ?_⟩
  intro j g g3 hg hg3
  have hlt : j < a.gates.length := by
    by_contra hge
    rw [List.getElem?_eq_none (by omega)] at hg
    cases hg
  have hltb : j < b.gates.length := by rw [h1.2.1]; exact hlt
  have hg2 : b.gates[j]? = some (b.gates[j]) := List.getElem?_eq_getElem hltb
  exact hR j g _ g3 (h1.2.2 j g _ hg hg2) (h2.2.2 j _ g3 hg2 hg3)

theorem slotRel_mono {R1 R2 : Nat → Gate → Gate → Prop} {a b : Circuit}
    (h1 : SlotRel R1 a b) (hR : ∀ j g g2, R1 j g g2 → R2 j g g2) : SlotRel R2 a b :=
  ⟨h1.1, h1.2.1, fun j g g2 hg hg2 => hR j g g2 (h1.2.2 j g g2 hg hg2)⟩

theorem modify_gate_slotRel (c : Circuit) (i : Nat) (f : Gate → Gate) :
    SlotRel (fun j g g2 => g2 = if j = i then f g else g) c (c.modify_gate i f) := by
  refine ⟨modify_gate_sameAig c i f, modify_gate_length c i f, ?_⟩
  intro j g g2 hg hg2
  rw [modify_gate_getElem] at hg2
  by_cases hj : j = i
  · subst hj
    rw [if_pos rfl, hg] at hg2
    simp only [Option.map_some', Option.some.injEq] at hg2
    rw [if_pos rfl]; exact hg2.symm
  · rw [if_neg hj, hg] at hg2
    cases hg2
    rw [if_neg hj]

/-- The number of a gate looked up by `gate` depends on the numbers in the
table only. -/
theorem slotRel_gate_num {R : Nat → Gate → Gate → Prop} {c c2 : Circuit}
    (h : SlotRel R c c2) (hR : ∀ j g g2, R j g g2 → g2.num = g.num) (lit : Int) :
    (gate c2 lit).map Gate.num = (gate c lit).map Gate.num := by
  rw [gate_eq_idx, gate_eq_idx, h.1.2.1]
  cases gate_idx c.M lit with
  | none => rfl
  | some i =>
    simp only [Option.some_bind]
    by_cases hlt : i < c.gates.length
    · have hlt2 : i < c2.gates.length := by rw [h.2.1]; exact hlt
      rw [List.getElem?_eq_getElem hlt, List.getElem?_eq_getElem hlt2]
      simp only [Option.map_some', Option.some.injEq]
      exact hR i _ _ (h.2.2 i _ _ (List.getElem?_eq_getElem hlt) (List.getElem?_eq_getElem hlt2))
    · have e1 : c.gates[i]? = none := List.getElem?_eq_none (by omega)
      have e2 : c2.gates[i]? = none := List.getElem?_eq_none (by rw [h.2.1]; omega)
      rw [e1, e2]

theorem slotRel_gate_isSome {R : Nat → Gate → Gate → Prop} {c c2 : Circuit}
    (h : SlotRel R c c2) (lit : Int) :
    (gate c2 lit).isSome = (gate c lit).isSome := by
  rw [gate_eq_idx, gate_eq_idx, h.1.2.1]
  cases gate_idx c.M lit with
  | none => rfl
  | some i =>
    simp only [Option.some_bind]
    by_cases hlt : i < c.gates.length
    · have hlt2 : i < c2.gates.length := by rw [h.2.1]; exact hlt
      rw [List.getElem?_eq_getElem hlt, List.getElem?_eq_getElem hlt2]
      rfl
    · have e1 : c.gates[i]? = none := List.getElem?_eq_none (by omega)
      have e2 : c2.gates[i]? = none := List.getElem?_eq_none (by rw [h.2.1]; omega)
      rw [e1, e2]

theorem stepChildren_slotRel {R : Nat → Gate → Gate → Prop} {c c2 : Circuit}
    (h : SlotRel R c c2) (hR : ∀ j g g2, R j g g2 → g2.num = g.num) (n : Int) :
    stepChildren c2 n = stepChildren c n := by
  unfold stepChildren
  rw [h.1.2.2.2.1]
  cases c.is_model_and n with
  | none => rfl
  | some and1 =>
    simp only [slotRel_gate_num h hR]

/-! ## `set_parents_and_children` -/

theorem push_child_slotRel (c : Circuit) (i : Nat) (child : Option Gate) :
    SlotRel (fun j g g2 => g2.num = g.num ∧ g2.xor_gate = g.xor_gate ∧
      g2.children = if j = i then g.children ++ (child.map Gate.num).toList else g.children)
      c (push_child c i child) := by
  unfold push_child
  cases child with
  | none =>
    refine slotRel_refl _ ?_ c
    intro j g
    simp
  | some ch =>
    refine slotRel_mono (modify_gate_slotRel c i _) ?_
    intro j g g2 h
    subst h
    by_cases hj : j = i
    · simp [hj]
    · simp [hj]

theorem push_parent_slotRel (c : Circuit) (k : Nat) (n : Gate) :
    SlotRel (fun _ g g2 => g2.num = g.num ∧ g2.xor_gate = g.xor_gate ∧
      g2.children = g.children) c (push_parent c k n) := by
  unfold push_parent
  refine slotRel_mono (modify_gate_slotRel c k _) ?_
  intro j g g2 h
  subst h
  by_cases hj : j = k
  · simp [hj]
  · simp [hj]

theorem push_parent_of_lit_slotRel (c : Circuit) (l : Int) (n : Gate) :
    SlotRel (fun _ g g2 => g2.num = g.num ∧ g2.xor_gate = g.xor_gate ∧
      g2.children = g.children) c (push_parent_of_lit c l n) := by
  unfold push_parent_of_lit
  split
  · exact push_parent_slotRel c _ n
  · exact slotRel_refl _ (fun _ _ => ⟨rfl, rfl, rfl⟩) c

theorem slotRel_self (R : Nat → Gate → Gate → Prop) (c : Circuit)
    (hR : ∀ j g, c.gates[j]? = some g → R j g g) : SlotRel R c c :=
  ⟨sameAig_refl c, rfl, fun j g g2 h1 h2 => by rw [h1] at h2; cases h2; exact hR j g h1⟩

theorem set_parents_step_slotRel (c c2 : Circuit) (i : Nat)
    (h : set_parents_step c i = .ok c2) :
    SlotRel (fun j g g2 => g2.num = g.num ∧ g2.xor_gate = g.xor_gate ∧
      g2.children = if j = i then g.children ++ stepChildren c g.num else g.children)
      c c2 := by
  unfold set_parents_step at h
  cases hn : c.gates[i]? with
  | none => rw [hn] at h; cases h
  | some n =>
    rw [hn] at h
    simp only [derefGate, bind, Except.bind] at h
    cases hrec : c.is_model_and n.num with
    | none =>
      rw [hrec] at h
      cases h
      refine slotRel_self _ c ?_
      intro j g hg
      refine ⟨rfl, rfl, ?_⟩
      by_cases hj : j = i
      · subst hj
        rw [hn] at hg
        cases hg
        rw [if_pos rfl]
        simp [stepChildren, hrec]
      · rw [if_neg hj]
    | some and1 =>
      rw [hrec] at h
      simp only [pure, Except.pure, Except.ok.injEq] at h
      subst h
      have h1 := push_child_slotRel c i (gate c and1.rhs0)
      have h2 := push_child_slotRel (push_child c i (gate c and1.rhs0)) i
        (gate (push_child c i (gate c and1.rhs0)) and1.rhs1)
      have e2 := slotRel_gate_num h1 (fun _ _ _ hh => hh.1) and1.rhs1
      have h3 := push_parent_of_lit_slotRel
        (push_child (push_child c i (gate c and1.rhs0)) i
          (gate (push_child c i (gate c and1.rhs0)) and1.rhs1)) and1.rhs0 n
      have h4 := push_parent_of_lit_slotRel (push_parent_of_lit
        (push_child (push_child c i (gate c and1.rhs0)) i
          (gate (push_child c i (gate c and1.rhs0)) and1.rhs1)) and1.rhs0 n) and1.rhs1 n
      have h12 := slotRel_trans h1 h2 (T := fun j g g2 => g2.num = g.num ∧
        g2.xor_gate = g.xor_gate ∧ g2.children = if j = i then g.children ++
          (((gate c and1.rhs0).map Gate.num).toList ++
            ((gate c and1.rhs1).map Gate.num).toList) else g.children) (by
        intro j g g2 g3 r1 r2
        refine ⟨r2.1.trans r1.1, r2.2.1.trans r1.2.1, ?_⟩
        rw [r2.2.2, r1.2.2, e2]
        by_cases hj : j = i
        · simp [hj]
        · simp [hj])
      have h34 := slotRel_trans h3 h4 (T := fun _ g g2 => g2.num = g.num ∧
        g2.xor_gate = g.xor_gate ∧ g2.children = g.children) (by
        intro j g g2 g3 r1 r2
        exact ⟨r2.1.trans r1.1, r2.2.1.trans r1.2.1, r2.2.2.trans r1.2.2⟩)
      refine ⟨(slotRel_trans h12 h34 (T := fun _ _ _ => True) (fun _ _ _ _ _ _ => trivial)).1,
        (slotRel_trans h12 h34 (T := fun _ _ _ => True) (fun _ _ _ _ _ _ => trivial)).2.1, ?_⟩
      intro j g g3 hg hg3
      have := (slotRel_trans h12 h34 (T := fun j g g2 => g2.num = g.num ∧
        g2.xor_gate = g.xor_gate ∧ g2.children = if j = i then g.children ++
          (((gate c and1.rhs0).map Gate.num).toList ++
            ((gate c and1.rhs1).map Gate.num).toList) else g.children) (by
        intro j g g2 g3 r1 r2
        exact ⟨r2.1.trans r1.1, r2.2.1.trans r1.2.1, r2.2.2.trans r1.2.2⟩)).2.2 j g g3 hg hg3
      refine ⟨this.1, this.2.1, ?_⟩
      rw [this.2.2]
      by_cases hj : j = i
      · subst hj
        rw [hn] at hg
        cases hg
        simp [stepChildren, hrec]
      · simp [hj]

theorem set_parents_loop_slotRel (L : List Nat) (hL : L.Nodup) (c c2 : Circuit)
    (h : L.foldlM set_parents_step c = .ok c2) :
    SlotRel (fun j g g2 => g2.num = g.num ∧ g2.xor_gate = g.xor_gate ∧
      g2.children = if j ∈ L then g.children ++ stepChildren c g.num else g.children)
      c c2 := by
  induction L generalizing c with
  | nil =>
    simp only [List.foldlM_nil, pure, Except.pure, Except.ok.injEq] at h
    subst h
    exact slotRel_self _ c (fun j g _ => ⟨rfl, rfl, by simp⟩)
  | cons i L ih =>
    rw [List.foldlM_cons] at h
    cases h1 : set_parents_step c i with
    | error e => rw [h1] at h; cases h
    | ok c1 =>
      rw [h1, ok_bind] at h
      have hs := set_parents_step_slotRel c c1 i h1
      have hl := ih (List.nodup_cons.mp hL).2 c1 h
      have hni : i ∉ L := (List.nodup_cons.mp hL).1
      have hst := stepChildren_slotRel hs (fun _ _ _ hh => hh.1)
      refine slotRel_trans hs hl ?_
      intro j g g2 g3 r1 r2
      refine ⟨r2.1.trans r1.1, r2.2.1.trans r1.2.1, ?_⟩
      rw [r2.2.2, r1.2.2, hst, r1.1]
      by_cases hj : j = i
      · subst hj
        simp [hni]
      · by_cases hjl : j ∈ L
        · simp [hj, hjl]
        · simp [hj, hjl]

theorem set_parents_output_step_slotRel (c c2 : Circuit) (i : Nat)
    (h : set_parents_output_step c i = .ok c2) :
    SlotRel (fun j g g2 => g2.num = g.num ∧ g2.xor_gate = g.xor_gate ∧
      (j + 1 < c.M → g2.children = g.children)) c c2 := by
  unfold set_parents_output_step at h
  cases hn : c.gates[i + c.M - 1]? with
  | none => rw [hn] at h; cases h
  | some n =>
    rw [hn] at h
    simp only [derefGate, bind, Except.bind] at h
    by_cases hlit : c.slit i < 2
    · rw [if_pos hlit] at h
      cases h
      exact slotRel_self _ c (fun j g _ => ⟨rfl, rfl, fun _ => rfl⟩)
    · rw [if_neg hlit] at h
      have h1 := push_child_slotRel c (i + c.M - 1) (gate c (c.slit i))
      have h1b : SlotRel (fun j g g2 => g2.num = g.num ∧ g2.xor_gate = g.xor_gate ∧
          (j + 1 < c.M → g2.children = g.children)) c
          (push_child c (i + c.M - 1) (gate c (c.slit i))) := by
        refine slotRel_mono h1 ?_
        intro j g g2 r
        refine ⟨r.1, r.2.1, ?_⟩
        intro hj
        rw [r.2.2, if_neg (by omega)]
      cases hd : gate (push_child c (i + c.M - 1) (gate c (c.slit i))) (c.slit i) with
      | none => rw [hd] at h; cases h
      | some d =>
        rw [hd] at h
        simp only at h
        cases hidx : gate_idx c.M (c.slit i) with
        | none =>
          rw [hidx] at h
          cases h
          exact h1b
        | some k =>
          rw [hidx] at h
          simp only [pure, Except.pure, Except.ok.injEq] at h
          subst h
          refine slotRel_trans h1b (push_parent_slotRel _ k n) ?_
          intro j g g2 g3 r1 r2
          exact ⟨r2.1.trans r1.1, r2.2.1.trans r1.2.1, fun hj => r2.2.2.trans (r1.2.2 hj)⟩

theorem set_parents_output_loop_slotRel (L : List Nat) (c c2 : Circuit)
    (h : L.foldlM set_parents_output_step c = .ok c2) :
    SlotRel (fun j g g2 => g2.num = g.num ∧ g2.xor_gate = g.xor_gate ∧
      (j + 1 < c.M → g2.children = g.children)) c c2 := by
  induction L generalizing c with
  | nil =>
    simp only [List.foldlM_nil, pure, Except.pure, Except.ok.injEq] at h
    subst h
    exact slotRel_self _ c (fun j g _ => ⟨rfl, rfl, fun _ => rfl⟩)
  | cons i L ih =>
    rw [List.foldlM_cons] at h
    cases h1 : set_parents_output_step c i with
    | error e => rw [h1] at h; cases h
    | ok c1 =>
      rw [h1, ok_bind] at h
      have hs := set_parents_output_step_slotRel c c1 i h1
      have hl := ih c1 h
      refine slotRel_trans hs hl ?_
      intro j g g2 g3 r1 r2
      refine ⟨r2.1.trans r1.1, r2.2.1.trans r1.2.1, ?_⟩
      intro hj
      rw [r2.2.2 (by rw [hs.1.2.1]; exact hj), r1.2.2 hj]

theorem set_parents_and_children_slotRel (c c2 : Circuit)
    (h : set_parents_and_children c = .ok c2) :
    SlotRel (fun j g g2 => g2.num = g.num ∧ g2.xor_gate = g.xor_gate ∧
      (c.NN ≤ j → j + 1 < c.M → g2.children = g.children ++ stepChildren c g.num)) c c2 := by
  unfold set_parents_and_children at h
  by_cases h0 : c.NN = 0
  · simp [h0] at h
  · simp only [h0, if_false] at h
    cases h1 : (List.range' c.NN (c.M - c.NN)).reverse.foldlM set_parents_step c with
    | error e => rw [h1] at h; cases h
    | ok c1 =>
      rw [h1] at h
      simp only [bind, Except.bind] at h
      have hs := set_parents_loop_slotRel _
        (List.nodup_reverse.mpr (List.nodup_range' c.NN (c.M - c.NN))) c c1 h1
      have hl := set_parents_output_loop_slotRel _ c1 c2 h
      refine slotRel_trans hs hl ?_
      intro j g g2 g3 r1 r2
      refine ⟨r2.1.trans r1.1, r2.2.1.trans r1.2.1, ?_⟩
      intro hj1 hj2
      rw [r2.2.2 (by rw [hs.1.2.1]; exact hj2), r1.2.2, if_pos]
      simp only [List.mem_reverse, List.mem_range']
      exact ⟨j - c.NN, by omega, by omega⟩

/-! ## `set_xor` and `mark_xor_and` -/

theorem xorRoot_slotRel {R : Nat → Gate → Gate → Prop} {c c2 : Circuit}
    (h : SlotRel R c c2) (n : Int) : XorRoot c2 n ↔ XorRoot c n := by
  unfold XorRoot
  simp only [h.1.2.2.2.1, slotRel_gate_isSome h]

theorem set_xor_gate_of_lit_slotRel (c c2 : Circuit) (lit val : Int)
    (h : set_xor_gate_of_lit c lit val = .ok c2) :
    SlotRel (fun _ g g2 => g2.num = g.num ∧ g2.children = g.children ∧
      (g2.xor_gate = g.xor_gate ∨ g2.xor_gate = val)) c c2 ∧ (gate c lit).isSome := by
  unfold set_xor_gate_of_lit at h
  cases hg : gate c lit with
  | none => rw [hg] at h; cases h
  | some d =>
    rw [hg] at h
    simp only [derefGate, bind, Except.bind] at h
    refine ⟨?_, rfl⟩
    cases hidx : gate_idx c.M lit with
    | none =>
      rw [hidx] at h
      cases h
      exact slotRel_self _ c (fun _ _ _ => ⟨rfl, rfl, Or.inl rfl⟩)
    | some k =>
      rw [hidx] at h
      simp only [pure, Except.pure, Except.ok.injEq] at h
      subst h
      refine slotRel_mono (modify_gate_slotRel c k _) ?_
      intro j g g2 hh
      subst hh
      by_cases hj : j = k
      · simp [hj]
      · simp [hj]

theorem set_xor_step_slotRel (c c2 : Circuit) (i : Nat) (h : set_xor_step c i = .ok c2) :
    SlotRel (fun _ g g2 => g2.num = g.num ∧ g2.children = g.children ∧
      (g2.xor_gate = 1 → g.xor_gate = 1 ∨ XorRoot c g.num)) c c2 := by
  have hid : SlotRel (fun _ g g2 => g2.num = g.num ∧ g2.children = g.children ∧
      (g2.xor_gate = 1 → g.xor_gate = 1 ∨ XorRoot c g.num)) c c :=
    slotRel_self _ c (fun _ _ _ => ⟨rfl, rfl, fun hh => Or.inl hh⟩)
  unfold set_xor_step at h
  cases hn : c.gates[i]? with
  | none => rw [hn] at h; cases h
  | some n =>
    rw [hn] at h
    simp only [derefGate, bind, Except.bind] at h
    split_ifs at h with hin hx
    · cases h; exact hid
    · cases h; exact hid
    · cases hrec : c.is_model_and n.num with
      | none => rw [hrec] at h; cases h; exact hid
      | some and1 =>
        rw [hrec] at h
        simp only at h
        split_ifs at h with hs0 hs1 heq
        · cases h; exact hid
        · cases h; exact hid
        · cases h; exact hid
        · cases hl : c.is_model_and (aiger_strip and1.rhs0) with
          | none => rw [hl] at h; cases h; exact hid
          | some land =>
            rw [hl] at h
            simp only at h
            cases hr : c.is_model_and (aiger_strip and1.rhs1) with
            | none => rw [hr] at h; cases h; exact hid
            | some rand =>
              rw [hr] at h
              simp only at h
              split_ifs at h with hp
              · cases h1 : set_xor_gate_of_lit c (aiger_strip and1.rhs0) 2 with
                | error e => rw [h1] at h; cases h
                | ok c1 =>
                  rw [h1] at h
                  simp only at h
                  cases h2 : set_xor_gate_of_lit c1 (aiger_strip and1.rhs1) 2 with
                  | error e => rw [h2] at h; cases h
                  | ok c3 =>
                    rw [h2] at h
                    simp only [pure, Except.pure, Except.ok.injEq] at h
                    subst h
                    obtain ⟨r1, s1⟩ := set_xor_gate_of_lit_slotRel c c1 _ _ h1
                    obtain ⟨r2, s2⟩ := set_xor_gate_of_lit_slotRel c1 c3 _ _ h2
                    rw [slotRel_gate_isSome r1] at s2
                    have hroot : XorRoot c n.num :=
                      ⟨and1, land, rand, hrec, by simpa using hs0, by simpa using hs1, hl, hr,
                        hp, s1, s2⟩
                    have r12 := slotRel_trans r1 r2 (T := fun _ g g2 => g2.num = g.num ∧
                      g2.children = g.children ∧ (g2.xor_gate = g.xor_gate ∨ g2.xor_gate = 2))
                      (by
                        intro j g g2 g3 a b
                        refine ⟨b.1.trans a.1, b.2.1.trans a.2.1, ?_⟩
                        rcases b.2.2 with e | e
                        · rcases a.2.2 with e2 | e2
                          · exact Or.inl (e.trans e2)
                          · exact Or.inr (e.trans e2)
                        · exact Or.inr e)
                    have r123 := slotRel_trans r12
                      (modify_gate_slotRel c3 i (fun x => { x with xor_gate := 1 }))
                      (T := fun j g g2 => g2.num = g.num ∧ g2.children = g.children ∧
                        (j ≠ i → g2.xor_gate = g.xor_gate ∨ g2.xor_gate = 2))
                      (by
                        intro j g g2 g3 a b
                        subst b
                        by_cases hj : j = i
                        · subst hj
                          simp only [if_true]
                          exact ⟨a.1, a.2.1, fun hh => absurd rfl hh⟩
                        · rw [if_neg hj]
                          exact ⟨a.1, a.2.1, fun _ => a.2.2⟩)
                    refine ⟨r123.1, r123.2.1, ?_⟩
                    intro j g g3 hg hg3
                    have a := r123.2.2 j g g3 hg hg3
                    refine ⟨a.1, a.2.1, ?_⟩
                    intro hx1
                    by_cases hj : j = i
                    · subst hj
                      rw [hn] at hg
                      cases hg
                      exact Or.inr hroot
                    · rcases a.2.2 hj with e | e
                      · exact Or.inl (e ▸ hx1)
                      · rw [e] at hx1; cases hx1
              · cases h; exact hid

theorem set_xor_loop_slotRel (L : List Nat) (c c2 : Circuit)
    (h : L.foldlM set_xor_step c = .ok c2) :
    SlotRel (fun _ g g2 => g2.num = g.num ∧ g2.children = g.children ∧
      (g2.xor_gate = 1 → g.xor_gate = 1 ∨ XorRoot c g.num)) c c2 := by
  induction L generalizing c with
  | nil =>
    simp only [List.foldlM_nil, pure, Except.pure, Except.ok.injEq] at h
    subst h
    exact slotRel_self _ c (fun _ _ _ => ⟨rfl, rfl, fun hh => Or.inl hh⟩)
  | cons i L ih =>
    rw [List.foldlM_cons] at h
    cases h1 : set_xor_step c i with
    | error e => rw [h1] at h; cases h
    | ok c1 =>
      rw [h1, ok_bind] at h
      have hs := set_xor_step_slotRel c c1 i h1
      have hl := ih c1 h
      refine slotRel_trans hs hl ?_
      intro j g g2 g3 r1 r2
      refine ⟨r2.1.trans r1.1, r2.2.1.trans r1.2.1, ?_⟩
      intro hx
      rcases r2.2.2 hx with e | e
      · exact r1.2.2 e
      · rw [xorRoot_slotRel hs, r1.1] at e
        exact Or.inr e

theorem mark_xor_and_step_slotRel (c c2 : Circuit) (i : Nat)
    (h : mark_xor_and_step c i = .ok c2) :
    SlotRel (fun _ g g2 => g2.num = g.num ∧ g2.children = g.children ∧
      g2.xor_gate = g.xor_gate) c c2 := by
  have hid : SlotRel (fun _ g g2 => g2.num = g.num ∧ g2.children = g.children ∧
      g2.xor_gate = g.xor_gate) c c :=
    slotRel_self _ c (fun _ _ _ => ⟨rfl, rfl, rfl⟩)
  unfold mark_xor_and_step at h
  cases hn : c.gates[i]? with
  | none => rw [hn] at h; cases h
  | some n =>
    rw [hn] at h
    simp only [derefGate, bind, Except.bind] at h
    split_ifs at h with hx hc
    · cases h; exact hid
    · cases h; exact hid
    · cases h1 : children_front c n with
      | error e => rw [h1] at h; cases h
      | ok front =>
        rw [h1] at h
        simp only at h
        cases h2 : children_front c front with
        | error e => rw [h2] at h; cases h
        | ok llg =>
          rw [h2] at h
          simp only at h
          cases h3 : children_back c front with
          | error e => rw [h3] at h; cases h
          | ok lrg =>
            rw [h3] at h
            simp only at h
            split at h
            · split at h
              · simp only [pure, Except.pure, Except.ok.injEq] at h
                subst h
                refine slotRel_trans (modify_gate_slotRel c _ _) (modify_gate_slotRel _ i _) ?_
                intro j g g2 g3 a b
                subst a
                subst b
                split_ifs <;> exact ⟨rfl, rfl, rfl⟩
              · cases h; exact hid
            · cases h; exact hid

theorem mark_xor_and_loop_slotRel (L : List Nat) (c c2 : Circuit)
    (h : L.foldlM mark_xor_and_step c = .ok c2) :
    SlotRel (fun _ g g2 => g2.num = g.num ∧ g2.children = g.children ∧
      g2.xor_gate = g.xor_gate) c c2 := by
  induction L generalizing c with
  | nil =>
    simp only [List.foldlM_nil, pure, Except.pure, Except.ok.injEq] at h
    subst h
    exact slotRel_self _ c (fun _ _ _ => ⟨rfl, rfl, rfl⟩)
  | cons i L ih =>
    rw [List.foldlM_cons] at h
    cases h1 : mark_xor_and_step c i with
    | error e => rw [h1] at h; cases h
    | ok c1 =>
      rw [h1, ok_bind] at h
      refine slotRel_trans (mark_xor_and_step_slotRel c c1 i h1) (ih c1 h) ?_
      intro j g g2 g3 r1 r2
      exact ⟨r2.1.trans r1.1, r2.2.1.trans r1.2.1, r2.2.2.trans r1.2.2⟩

/-! ## The table that `allocate_gates` builds -/

theorem foldlM_invariant {σ α : Type} (step : σ → α → Except Fault σ) (P : σ → σ → Prop)
    (hrefl : ∀ s, P s s) (htrans : ∀ a b c, P a b → P b c → P a c)
    (hstep : ∀ s x s2, step s x = .ok s2 → P s s2) :
    ∀ (l : List α) (s s2 : σ), l.foldlM step s = .ok s2 → P s s2 := by
  intro l
  induction l with
  | nil =>
    intro s s2 h
    simp only [List.foldlM_nil, pure, Except.pure, Except.ok.injEq] at h
    subst h
    exact hrefl s
  | cons x l ih =>
    intro s s2 h
    rw [List.foldlM_cons] at h
    cases h1 : step s x with
    | error e => rw [h1] at h; cases h
    | ok s1 =>
      rw [h1, ok_bind] at h
      exact htrans _ _ _ (hstep s x s1 h1) (ih s1 s2 h)

theorem sameCore_refl (l : List Gate) : SameCore l l :=
  ⟨rfl, fun j g g2 h1 h2 => by rw [h1] at h2; cases h2; exact ⟨rfl, rfl, rfl⟩⟩

theorem sameCore_trans (a b c : List Gate) (h1 : SameCore a b) (h2 : SameCore b c) :
    SameCore a c := by
  refine ⟨h2.1.trans h1.1, ?_⟩
  intro j g g3 hg hg3
  have hlt : j < a.length := by
    by_contra hge
    rw [List.getElem?_eq_none (by omega)] at hg
    cases hg
  have hltb : j < b.length := by rw [h1.1]; exact hlt
  have hg2 : b[j]? = some (b[j]) := List.getElem?_eq_getElem hltb
  have r1 := h1.2 j g _ hg hg2
  have r2 := h2.2 j _ g3 hg2 hg3
  exact ⟨r2.1.trans r1.1, r2.2.1.trans r1.2.1, r2.2.2.trans r1.2.2⟩

theorem sameCore_set (l : List Gate) (i : Nat) (n n2 : Gate) (hn : l[i]? = some n)
    (h : n2.num = n.num ∧ n2.children = n.children ∧ n2.xor_gate = n.xor_gate) :
    SameCore l (l.set i n2) := by
  refine ⟨by simp, ?_⟩
  intro j g g2 hg hg2
  rw [List.getElem?_set] at hg2
  by_cases hj : i = j
  · subst hj
    rw [hn] at hg
    cases hg
    have hlt : i < l.length := by
      by_contra hge
      rw [List.getElem?_eq_none (by omega)] at hn
      cases hn
    simp [hlt] at hg2
    subst hg2
    exact h
  · simp [hj] at hg2
    rw [hg] at hg2
    cases hg2
    exact ⟨rfl, rfl, rfl⟩

theorem allocate_dist_step_sameCore (c : Circuit) (st st2 : List Gate × Int) (i : Nat)
    (h : allocate_dist_step c st i = .ok st2) : SameCore st.1 st2.1 := by
  unfold allocate_dist_step at h
  cases hn : st.1[i]? with
  | none => rw [hn] at h; cases h
  | some n =>
    rw [hn] at h
    simp only [derefGate, bind, Except.bind] at h
    cases hrec : c.is_model_and n.num with
    | none => rw [hrec] at h; cases h; exact sameCore_refl _
    | some and1 =>
      rw [hrec] at h
      simp only at h
      split_ifs at h
      · cases h
        exact sameCore_set _ i n _ hn ⟨rfl, rfl, rfl⟩
      · cases hl : st.1[and1.rhs0 / 2 - 1]? with
        | none => rw [hl] at h; cases h
        | some lg =>
          rw [hl] at h
          simp only at h
          cases hr : st.1[and1.rhs1 / 2 - 1]? with
          | none => rw [hr] at h; cases h
          | some rg =>
            rw [hr] at h
            cases h
            exact sameCore_set _ i n _ hn ⟨rfl, rfl, rfl⟩

theorem relevel_step_sameCore (d : Int) (st st2 : List Gate × Int) (i : Nat)
    (h : relevel_step d st i = .ok st2) : SameCore st.1 st2.1 := by
  unfold relevel_step at h
  cases hn : st.1[i]? with
  | none => rw [hn] at h; cases h
  | some n =>
    rw [hn] at h
    simp only [derefGate, bind, Except.bind] at h
    split_ifs at h
    · cases h
      exact sameCore_set _ i n _ hn ⟨rfl, rfl, rfl⟩
    · cases h
      exact sameCore_refl _

theorem allocate_gates_table (c : Circuit) (mult_spec : Bool) (a_idx b_idx : List Nat)
    (max_dist : Int) (r : List Gate × Int) (hM : c.NN < c.M)
    (h : allocate_gates c mult_spec a_idx b_idx max_dist = .ok r) :
    r.1.length = c.M - 1 + c.MM ∧
    ∀ j g, r.1[j]? = some g → g.children = [] ∧ g.xor_gate = 0 ∧
      (j + 1 < c.M → g.num = 2 * ((j : Int) + 1)) ∧ (c.M ≤ j + 1 → g.num ≤ 0) := by
  unfold allocate_gates at h
  simp only [bind, Except.bind] at h
  split at h
  · cases h
  · rename_i st1 h1
    split at h
    · cases h
    · rename_i u hu
      split at h
      · cases h
      · rename_i st2 h2
        simp only [pure, Except.pure, Except.ok.injEq] at h
        subst h
        have r1 := foldlM_invariant (allocate_dist_step c) (fun a b => SameCore a.1 b.1)
          (fun s => sameCore_refl _) (fun a b d => sameCore_trans _ _ _)
          (fun s x s2 hh => allocate_dist_step_sameCore c s s2 x hh) _ _ _ h1
        have r2 := foldlM_invariant
          (fun st (dist_it : Nat) =>
            (List.range' c.NN (c.M - 1 - c.NN)).foldlM (relevel_step dist_it) st)
          (fun a b => SameCore a.1 b.1)
          (fun s => sameCore_refl _) (fun a b d => sameCore_trans _ _ _)
          (fun s x s2 hh => foldlM_invariant (relevel_step x) (fun a b => SameCore a.1 b.1)
            (fun s => sameCore_refl _) (fun a b d => sameCore_trans _ _ _)
            (fun s y s2 hh2 => relevel_step_sameCore x s s2 y hh2) _ _ _ hh) _ _ _ h2
        have r12 := sameCore_trans _ _ _ r1 r2
        simp only at r12
        have hlen : st2.1.length = c.M - 1 := by
          rw [r12.1]
          simp
          omega
        refine ⟨by simp [hlen], ?_⟩
        intro j g hg
        by_cases hj : j < c.M - 1
        · rw [List.getElem?_append_left (by rw [hlen]; exact hj)] at hg
          have hcore : ∃ g0, ((List.range c.NN).map (fun (i : Nat) =>
              Gate.create (2 * ((i : Int) + 1))
                (2 * (((if mult_spec = true then a_idx ++ b_idx
                  else List.range c.NN).indexOf i : Int) + 1)) true false) ++
              (List.range' c.NN (c.M - 1 - c.NN)).map (fun (i : Nat) =>
                Gate.create (2 * ((i : Int) + 1)) 0 false false))[j]? = some g0 ∧
              g0.children = [] ∧ g0.xor_gate = 0 ∧ g0.num = 2 * ((j : Int) + 1) := by
            by_cases hjn : j < c.NN
            · rw [List.getElem?_append_left (by simpa using hjn)]
              refine ⟨Gate.create (2 * ((j : Int) + 1))
                (2 * (((if mult_spec = true then a_idx ++ b_idx
                  else List.range c.NN).indexOf j : Int) + 1)) true false, ?_, rfl, rfl, rfl⟩
              simp [hjn]
            · rw [List.getElem?_append_right (by simp; omega)]
              refine ⟨Gate.create (2 * ((j : Int) + 1)) 0 false false, ?_, rfl, rfl, rfl⟩
              have e : j - c.NN < c.M - 1 - c.NN := by omega
              simp [List.getElem?_range', e]
              congr 2
              omega
          obtain ⟨g0, hg0, hc0, hx0, hn0⟩ := hcore
          have := r12.2 j g0 g hg0 hg
          exact ⟨this.2.1.trans hc0, this.2.2.trans hx0, fun _ => this.1.trans hn0,
            fun hh => absurd hh (by omega)⟩
        · rw [List.getElem?_append_right (by rw [hlen]; omega)] at hg
          rw [List.getElem?_map] at hg
          cases hi : (List.range' (c.M - 1) c.MM)[j - st2.1.length]? with
          | none => rw [hi] at hg; cases hg
          | some i =>
            rw [hi] at hg
            simp only [Option.map_some', Option.some.injEq] at hg
            subst hg
            refine ⟨rfl, rfl, fun hh => absurd hh (by omega), fun _ => ?_⟩
            have hi2 := List.getElem?_mem hi
            rw [List.mem_range'] at hi2
            obtain ⟨k, _, hk⟩ := hi2
            simp only [Gate.create]
            omega

/-! ## The XOR-child rule -/

theorem xor_one_even (x : Nat) (h : x % 2 = 0) : x ^^^ 1 = x + 1 := by
  apply Nat.eq_of_testBit_eq
  intro i
  rw [Nat.testBit_xor]
  cases i with
  | zero => simp [Nat.testBit_zero, h]; omega
  | succ i =>
    simp [Nat.testBit_succ]
    congr 1
    omega

theorem xor_one_odd (x : Nat) (h : x % 2 = 1) : x ^^^ 1 = x - 1 := by
  apply Nat.eq_of_testBit_eq
  intro i
  rw [Nat.testBit_xor]
  cases i with
  | zero => simp [Nat.testBit_zero, h]; omega
  | succ i =>
    simp [Nat.testBit_succ]
    congr 1
    omega

theorem litValue_not (σ : Var → Int) (c : Circuit) (x : Nat) :
    litValue σ c (aiger_not x) = 1 - litValue σ c x := by
  unfold aiger_not
  rcases Nat.mod_two_eq_zero_or_one x with h | h
  · rw [xor_one_even x h]
    by_cases h0 : x = 0
    · subst h0; simp [litValue]
    · have e1 : (x + 1) / 2 = x / 2 := by omega
      have e2 : aiger_sign (x + 1) = true := by
        simp only [aiger_sign, beq_iff_eq]; omega
      have e3 : aiger_sign x = false := by
        simp only [aiger_sign, beq_eq_false_iff_ne, ne_eq]; omega
      have a1 : x + 1 ≠ 0 := by omega
      have a2 : x + 1 ≠ 1 := by omega
      have a3 : x ≠ 1 := by omega
      simp only [litValue, a1, a2, h0, a3, if_false, e1, e2, e3]
      cases c.gates[x / 2 - 1]? <;> simp
  · rw [xor_one_odd x h]
    by_cases h1 : x = 1
    · subst h1; simp [litValue]
    · have e1 : (x - 1) / 2 = x / 2 := by omega
      have e2 : aiger_sign (x - 1) = false := by
        simp only [aiger_sign, beq_eq_false_iff_ne, ne_eq]; omega
      have e3 : aiger_sign x = true := by
        simp only [aiger_sign, beq_iff_eq]; omega
      have a1 : x - 1 ≠ 0 := by omega
      have a2 : x - 1 ≠ 1 := by omega
      have a3 : x ≠ 0 := by omega
      simp only [litValue, a1, a2, h1, a3, if_false, e1, e2, e3]
      cases c.gates[x / 2 - 1]? <;> simp

theorem litValue_bool (σ : Var → Int) (hσ : BoolAssign σ) (c : Circuit) (x : Nat) :
    litValue σ c x = 0 ∨ litValue σ c x = 1 := by
  unfold litValue
  by_cases h0 : x = 0
  · simp [h0]
  · by_cases h1 : x = 1
    · simp [h1]
    · simp only [h0, h1, if_false]
      cases c.gates[x / 2 - 1]? with
      | none => cases aiger_sign x <;> simp
      | some g =>
        rcases hσ g.get_var with h | h <;> cases aiger_sign x <;> simp [h]

theorem xor_pattern_product (σ : Var → Int) (hσ : BoolAssign σ) (c : Circuit)
    (land rand : aiger_and) (h : xor_pattern land rand) :
    (litValue σ c land.rhs0 * litValue σ c land.rhs1) *
      (litValue σ c rand.rhs0 * litValue σ c rand.rhs1) = 0 := by
  rcases h with ⟨h1, h2⟩ | ⟨h1, h2⟩
  · rw [h1, litValue_not]
    rcases litValue_bool σ hσ c rand.rhs0 with e | e <;> rw [e] <;> ring
  · rw [h1, litValue_not]
    rcases litValue_bool σ hσ c rand.rhs1 with e | e <;> rw [e] <;> ring

theorem gate_mem (c : Circuit) (lit : Int) (g : Gate) (h : gate c lit = some g) :
    g ∈ c.gates := by
  rw [gate_eq_idx] at h
  cases hi : gate_idx c.M lit with
  | none => rw [hi] at h; cases h
  | some i =>
    rw [hi] at h
    exact List.getElem?_mem h

theorem gate_of_pos (c : Circuit) (l : Nat) (h : 2 ≤ l) :
    gate c (l : Int) = c.gates[l / 2 - 1]? := by
  unfold gate
  rw [if_neg (by omega), if_neg (by omega)]
  congr 1
  omega

theorem aiger_strip_div (l : Nat) : aiger_strip l / 2 = l / 2 := by
  unfold aiger_strip; omega

theorem init_gates_slotRel (aig : Circuit) (mult_spec : Bool) (a_idx b_idx : List Nat)
    (max_dist : Int) (c : Circuit) (md : Int) (hM : aig.NN < aig.M)
    (h : init_gates aig mult_spec a_idx b_idx max_dist = .ok (c, md)) :
    ∃ c0 : Circuit, SameAig aig c0 ∧
      (∀ j g, c0.gates[j]? = some g → g.children = [] ∧ g.xor_gate = 0 ∧
        (j + 1 < aig.M → g.num = 2 * ((j : Int) + 1)) ∧ (aig.M ≤ j + 1 → g.num ≤ 0)) ∧
      SlotRel (fun j g g2 => g2.num = g.num ∧
        (aig.NN ≤ j → j + 1 < aig.M → g2.children = g.children ++ stepChildren c0 g.num) ∧
        (g2.xor_gate = 1 → g.xor_gate = 1 ∨ XorRoot c0 g.num)) c0 c := by
  unfold init_gates at h
  cases ha : allocate_gates aig mult_spec a_idx b_idx max_dist with
  | error e => rw [ha] at h; cases h
  | ok r =>
    rw [ha, ok_bind] at h
    cases hp : set_parents_and_children { aig with gates := r.1 } with
    | error e => rw [hp] at h; cases h
    | ok c1 =>
      rw [hp, ok_bind] at h
      cases hi : init_gate_constraints c1 with
      | error e => rw [hi] at h; cases h
      | ok u =>
        rw [hi, ok_bind] at h
        cases hx : set_xor c1 with
        | error e => rw [hx] at h; cases h
        | ok c2 =>
          rw [hx, ok_bind] at h
          cases hm : mark_xor_and c2 with
          | error e => rw [hm] at h; cases h
          | ok c3 =>
            rw [hm, ok_bind] at h
            simp only [pure, Except.pure, Except.ok.injEq, Prod.mk.injEq] at h
            obtain ⟨h3, _⟩ := h
            subst h3
            have t0 := allocate_gates_table aig mult_spec a_idx b_idx max_dist r hM ha
            have rp := set_parents_and_children_slotRel _ c1 hp
            have rx := set_xor_loop_slotRel _ c1 c2 hx
            have rm := mark_xor_and_loop_slotRel _ c2 c3 hm
            refine ⟨{ aig with gates := r.1 }, ⟨rfl, rfl, rfl, rfl, rfl, rfl⟩, t0.2, ?_⟩
            have rxm := slotRel_trans rx rm (T := fun _ g g2 => g2.num = g.num ∧
              g2.children = g.children ∧ (g2.xor_gate = 1 → g.xor_gate = 1 ∨ XorRoot c1 g.num))
              (by
                intro j g g2 g3 a b
                exact ⟨b.1.trans a.1, b.2.1.trans a.2.1, fun hh => a.2.2 (b.2.2 ▸ hh)⟩)
            refine slotRel_trans rp rxm ?_
            intro j g g2 g3 a b
            refine ⟨b.1.trans a.1, fun h1 h2 => b.2.1.trans (a.2.2 h1 h2), ?_⟩
            intro hh
            rcases b.2.2 hh with e | e
            · exact Or.inl (a.2.1 ▸ e)
            · rw [xorRoot_slotRel rp, a.1] at e
              exact Or.inr e

/-- C24: let `init_gates` build the gate table `c` for an AIG whose AND records
belong to the literals `2 * NN + 2 <= l < 2 * M`. Then for every gate `g` that
`set_xor` has marked as XOR root (`xor_gate = 1`), `identify_vanishing_pairs`
finds the two children `lg` and `rg` of `g` that it registers as vanishing
twins of each other, and `lg * rg = 0` on every Boolean assignment consistent
with the AIG. -/
theorem xor_child_rule_sound (aig : Circuit) (mult_spec : Bool) (a_idx b_idx : List Nat)
    (max_dist : Int) (c : Circuit) (md : Int) (hM : aig.NN < aig.M) (hrec : AigRecords aig)
    (h : init_gates aig mult_spec a_idx b_idx max_dist = .ok (c, md)) :
    ∀ g ∈ c.gates, g.xor_gate = 1 →
      ∃ lg rg, identify_vanishing_pairs c g = .ok (lg, rg) ∧
        ∀ σ : Var → Int, Consistent σ c → σ lg.get_var * σ rg.get_var = 0 := by
  obtain ⟨c0, hs0, t0, rel⟩ := init_gates_slotRel aig mult_spec a_idx b_idx max_dist c md hM h
  intro g hg hx
  obtain ⟨j, hj⟩ := List.mem_iff_getElem?.mp hg
  have hjlt : j < c0.gates.length := by
    rw [← rel.2.1]
    by_contra hge
    rw [List.getElem?_eq_none (by omega)] at hj
    cases hj
  have hg0 : c0.gates[j]? = some (c0.gates[j]) := List.getElem?_eq_getElem hjlt
  have r := rel.2.2 j _ g hg0 hj
  have t := t0 j _ hg0
  have hroot : XorRoot c0 g.num := by
    rcases r.2.2 hx with e | e
    · rw [t.2.1] at e; cases e
    · rw [r.1]; exact e
  obtain ⟨and1, land, rand, hr1, hs1, hs2, hl, hr, hp, hgl, hgr⟩ := hroot
  have hisa : c0.is_model_and = aig.is_model_and := hs0.2.2.2.1
  have hMc : c0.M = aig.M := hs0.2.1
  have hNc : c0.NN = aig.NN := hs0.1
  have hisc : c.is_model_and = aig.is_model_and := by rw [rel.1.2.2.2.1, hisa]
  have b1 := hrec g.num and1 (by rw [← hisa]; exact hr1)
  have b2 := hrec _ land (by rw [← hisa]; exact hl)
  have b3 := hrec _ rand (by rw [← hisa]; exact hr)
  -- the slot of `g`
  have hjM : j + 1 < aig.M := by
    by_contra hge
    have := t.2.2.2 (by omega)
    rw [r.1] at b1
    omega
  have hnum : g.num = 2 * ((j : Int) + 1) := by rw [r.1]; exact t.2.2.1 hjM
  have hjN : aig.NN ≤ j := by omega
  -- the two children
  have hl2 : 2 ≤ aiger_strip and1.rhs0 := by omega
  have hr2 : 2 ≤ aiger_strip and1.rhs1 := by omega
  have hl0 : 2 ≤ and1.rhs0 := by unfold aiger_strip at hl2; omega
  have hr0 : 2 ≤ and1.rhs1 := by unfold aiger_strip at hr2; omega
  have key : ∀ x : Nat, 2 ≤ aiger_strip x → (aiger_strip x : Int) < 2 * (aig.M : Int) →
      (gate c0 (aiger_strip x : Int)).isSome →
      ∃ d0 d, gate c0 (x : Int) = some d0 ∧ d0.num = (aiger_strip x : Int) ∧
        gate c (aiger_strip x : Int) = some d ∧ d.num = (aiger_strip x : Int) := by
    intro x hx2 hxM hsome
    have hx0 : 2 ≤ x := by unfold aiger_strip at hx2; omega
    rw [gate_of_pos c0 _ hx2, aiger_strip_div] at hsome
    rw [gate_of_pos c0 _ hx0, gate_of_pos c _ hx2, aiger_strip_div]
    cases hd0 : c0.gates[x / 2 - 1]? with
    | none => rw [hd0] at hsome; cases hsome
    | some d0 =>
      have hklt : x / 2 - 1 < c.gates.length := by
        rw [rel.2.1]
        by_contra hge
        rw [List.getElem?_eq_none (by omega)] at hd0
        cases hd0
      have hd : c.gates[x / 2 - 1]? = some (c.gates[x / 2 - 1]) := List.getElem?_eq_getElem hklt
      have rr := rel.2.2 _ _ _ hd0 hd
      have tt := t0 _ _ hd0
      have hd0n : d0.num = (aiger_strip x : Int) := by
        rw [tt.2.2.1 (by unfold aiger_strip at hxM; omega)]
        unfold aiger_strip
        omega
      exact ⟨d0, _, rfl, hd0n, hd, rr.1.trans hd0n⟩
  obtain ⟨l0, lg, hl0g, hl0n, hlg, hlgn⟩ := key and1.rhs0 hl2 b2.2 hgl
  obtain ⟨r0, rg, hr0g, hr0n, hrg, hrgn⟩ := key and1.rhs1 hr2 b3.2 hgr
  have hch : g.children = [(aiger_strip and1.rhs0 : Int), (aiger_strip and1.rhs1 : Int)] := by
    have e := r.2.1 hjN hjM
    rw [t.1, ← r.1] at e
    rw [e]
    simp only [stepChildren, hr1, hl0g, hr0g, Option.map_some', Option.toList_some, hl0n, hr0n,
      List.nil_append, List.singleton_append]
  refine ⟨lg, rg, ?_, ?_⟩
  · simp only [identify_vanishing_pairs, children_front, children_back, hch, List.head?_cons,
      List.getLast?_cons_cons, List.getLast?_singleton, hlg, hrg, derefGate, bind, Except.bind,
      pure, Except.pure]
  · intro σ hσ
    have e1 := hσ.2 lg (gate_mem c _ lg hlg) land (by rw [hisc, ← hisa, hlgn]; exact hl)
    have e2 := hσ.2 rg (gate_mem c _ rg hrg) rand (by rw [hisc, ← hisa, hrgn]; exact hr)
    rw [e1, e2]
    exact xor_pattern_product σ hσ.1 c land rand hp

/-- C24 (witness): the XOR root 10 of `dupAndAig` with its children 8 and 6. -/
theorem xor_child_rule_sound_witness :
    ∃ lg rg, identify_vanishing_pairs dupAndTable
        (Gate.mk 10 12 false false 1 false [8, 6] 2 [0] (some 12)) = .ok (lg, rg) ∧
      ∀ σ : Var → Int, Consistent σ dupAndTable → σ lg.get_var * σ rg.get_var = 0 :=
  xor_child_rule_sound dupAndAig false [] [] 0 dupAndTable 2 (by decide)
    (by
      intro l and1 h
      simp only [dupAndAig] at h ⊢
      split_ifs at h <;> first | (cases h; done) | (constructor <;> push_cast <;> omega))
    rfl _ (by simp [dupAndTable]) rfl

/-! ## `remove_vanishing_monomials` -/

theorem remove_vanishing_step_eq (van dual : Int → List Var) (st : MStack) (m : Monomial) :
    remove_vanishing_step van dual st m =
      match vanishingImage van dual m with
      | some x => push_mstack st x
      | none => st := by
  unfold remove_vanishing_step vanishingImage
  have e : (m.term = [] ∨ m.term.degree < 2) ↔ m.term.length < 2 := by
    simp only [Term.degree]
    constructor
    · rintro (h | h)
      · rw [h]; simp
      · exact h
    · exact fun h => Or.inr h
  by_cases h1 : m.term.length < 2
  · rw [if_pos (e.2 h1), if_pos h1]
  · rw [if_neg (fun h => h1 (e.1 h)), if_neg h1]
    by_cases h2 : van_twin_scan van m.term = true
    · rw [if_pos h2, if_pos h2]
    · rw [if_neg h2, if_neg h2]
      dsimp only
      by_cases h3 : (dual_twin_scan dual m.term m.term ([], false)).2 = true
      · rw [if_pos h3]
        simp only [h3, Bool.not_true, Bool.false_eq_true, if_false]
        by_cases h4 : (dual_twin_scan dual m.term m.term ([], false)).1 = []
        · simp [h4]
        · simp [h4]
      · rw [if_neg h3]
        simp only [Bool.not_eq_true] at h3
        simp [h3]

theorem remove_vanishing_fold_eq (van dual : Int → List Var) (l : List Monomial) (st : MStack) :
    l.foldl (remove_vanishing_step van dual) st
      = (l.filterMap (vanishingImage van dual)).foldl push_mstack st := by
  induction l generalizing st with
  | nil => rfl
  | cons m l ih =>
    rw [List.foldl_cons, ih, remove_vanishing_step_eq]
    cases h : vanishingImage van dual m with
    | none => simp [List.filterMap_cons, h]
    | some x => simp [List.filterMap_cons, h]

theorem term_eval_of_mem (σ : Var → Int) (t : Term) (w : Var) (h : w ∈ t) :
    ∃ X, Term.eval σ t = σ w * X := by
  obtain ⟨a, b, rfl⟩ := List.append_of_mem h
  refine ⟨Term.eval σ a * Term.eval σ b, ?_⟩
  rw [term_eval_append, term_eval_cons]; ring

/-- A term that holds a primary variable together with a van twin of its gate
has value 0. -/
theorem van_twin_scan_sound (van : Int → List Var) (σ : Var → Int) (t : Term)
    (hvan : ∀ v ∈ t, v.d = false → ∀ w ∈ van v.num, σ v * σ w = 0)
    (h : van_twin_scan van t = true) : Term.eval σ t = 0 := by
  induction t with
  | nil => simp [van_twin_scan] at h
  | cons v rest ih =>
    rw [van_twin_scan] at h
    by_cases hc : (!v.d && (van v.num).any (fun w => Term.contains (v :: rest) w)) = true
    · simp only [Bool.and_eq_true, Bool.not_eq_true', List.any_eq_true] at hc
      obtain ⟨hvd, w, hw, hcw⟩ := hc
      have hz := hvan v (List.mem_cons_self _ _) hvd w hw
      have hmem := (term_contains_iff _ _).1 hcw
      rw [term_eval_cons]
      rcases List.mem_cons.1 hmem with e | hr
      · subst e
        have : σ w = 0 := by
          rcases mul_eq_zero.1 hz with h0 | h0 <;> exact h0
        rw [this]; ring
      · obtain ⟨X, hX⟩ := term_eval_of_mem σ rest w hr
        rw [hX, ← mul_assoc, hz]; ring
    · rw [if_neg hc] at h
      rw [term_eval_cons, ih (fun x hx => hvan x (List.mem_cons_of_mem _ hx)) h]; ring

/-- Dividing a term by `w` keeps its value when the term holds a variable `v`
other than `w` with `v * (1 - w) = 0`. -/
theorem divide_by_var_eval (σ : Var → Int) (t : Term) (v w : Var) (hv : v ∈ t) (hne : w ≠ v)
    (hz : σ v * (1 - σ w) = 0) :
    Term.eval σ (divide_by_var t w) = Term.eval σ t ∧ v ∈ divide_by_var t w := by
  have hvw : σ v * σ w = σ v := by linarith
  rw [divide_by_var_eq]
  have Q : ∀ s : Term, σ v * Term.eval σ (termWithout s [w]) = σ v * Term.eval σ s := by
    intro s
    induction s with
    | nil => rfl
    | cons a r ih =>
      by_cases ha : a = w
      · subst ha
        have : termWithout (a :: r) [a] = termWithout r [a] := by simp [termWithout]
        rw [this, ih, term_eval_cons, ← mul_assoc, hvw]
      · have : termWithout (a :: r) [w] = a :: termWithout r [w] := by
          simp [termWithout, ha]
        rw [this, term_eval_cons, term_eval_cons, mul_left_comm, ih, mul_left_comm]
  have hmem : v ∈ termWithout t [w] := (mem_termWithout t [w] v).2 ⟨hv, by simpa using fun e => hne e.symm⟩
  refine ⟨?_, hmem⟩
  obtain ⟨a, b, rfl⟩ := List.append_of_mem hv
  have e1 : termWithout (a ++ v :: b) [w] = termWithout a [w] ++ v :: termWithout b [w] := by
    have : ¬ v = w := fun e => hne e.symm
    simp [termWithout, List.filter_append, this]
  rw [e1, term_eval_append, term_eval_append, term_eval_cons, term_eval_cons]
  have qa := Q a
  have qb := Q b
  calc Term.eval σ (termWithout a [w]) * (σ v * Term.eval σ (termWithout b [w]))
      = Term.eval σ (termWithout a [w]) * (σ v * Term.eval σ b) := by rw [qb]
    _ = (σ v * Term.eval σ (termWithout a [w])) * Term.eval σ b := by ring
    _ = (σ v * Term.eval σ a) * Term.eval σ b := by rw [qa]
    _ = Term.eval σ a * (σ v * Term.eval σ b) := by ring

theorem dual_twin_loop_inv (σ : Var → Int) (term : Term) (v : Var) (hv : v ∈ term)
    (hd : ∀ x, σ x.get_dual = 1 - σ x) (ws : List Var)
    (hws : ∀ w ∈ ws, w ≠ v ∧ σ v * (1 - σ w) = 0) (st : Term × Bool)
    (hst : ShrinkInv σ term st) : ShrinkInv σ term (dual_twin_loop term ws st) := by
  induction ws generalizing st with
  | nil => exact hst
  | cons w ws ih =>
    have hw := hws w (List.mem_cons_self _ _)
    have hws2 : ∀ x ∈ ws, x ≠ v ∧ σ v * (1 - σ x) = 0 :=
      fun x hx => hws x (List.mem_cons_of_mem _ hx)
    rw [dual_twin_loop]
    split_ifs with h1 h2
    · apply ih hws2
      obtain ⟨he, hm⟩ := divide_by_var_eval σ term v w hv hw.1 hw.2
      refine ⟨fun _ => Or.inr ⟨?_, he⟩, fun x hx => divide_by_var_mem term w x hx⟩
      intro e
      have e2 : divide_by_var term w = [] := e
      rw [e2] at hm
      cases hm
    · apply ih hws2
      refine ⟨fun _ => Or.inl ⟨rfl, ?_⟩, fun x hx => by cases hx⟩
      have hmem := (term_contains_iff _ _).1 h2
      obtain ⟨a, b, rfl⟩ := List.append_of_mem hv
      rcases List.mem_append.1 hmem with ha | hb
      · obtain ⟨X, hX⟩ := term_eval_of_mem σ a _ ha
        rw [term_eval_append, term_eval_cons, hX, hd]
        have : σ w.get_dual * X * (σ v * Term.eval σ b) = 0 := by
          rw [hd]
          calc (1 - σ w) * X * (σ v * Term.eval σ b)
              = (σ v * (1 - σ w)) * (X * Term.eval σ b) := by ring
            _ = 0 := by rw [hw.2]; ring
        rw [hd] at this
        exact this
      · rcases List.mem_cons.1 hb with e | hb2
        · have h0 : σ v * (1 - σ w) = 0 := hw.2
          rw [term_eval_append, term_eval_cons]
          have hvv : σ v = 1 - σ w := by rw [← e, hd]
          have : σ v * σ v = 0 := by
            nth_rewrite 2 [hvv]; exact h0
          have : σ v = 0 := by
            rcases mul_eq_zero.1 this with h | h <;> exact h
          rw [this]; ring
        · obtain ⟨X, hX⟩ := term_eval_of_mem σ b _ hb2
          rw [term_eval_append, term_eval_cons, hX, hd]
          calc Term.eval σ a * (σ v * ((1 - σ w) * X))
              = (σ v * (1 - σ w)) * (Term.eval σ a * X) := by ring
            _ = 0 := by rw [hw.2]; ring
    · exact ih hws2 st hst

theorem dual_twin_scan_inv (dual : Int → List Var) (σ : Var → Int) (term : Term)
    (hd : ∀ x, σ x.get_dual = 1 - σ x)
    (hdual : ∀ v ∈ term, v.d = false → ∀ w ∈ dual v.num, w ≠ v ∧ σ v * (1 - σ w) = 0)
    (t : Term) (ht : ∀ x ∈ t, x ∈ term) (st : Term × Bool) (hst : ShrinkInv σ term st) :
    ShrinkInv σ term (dual_twin_scan dual term t st) := by
  induction t generalizing st with
  | nil => exact hst
  | cons v rest ih =>
    simp only [dual_twin_scan]
    have hv : v ∈ term := ht v (List.mem_cons_self _ _)
    have h1 : ShrinkInv σ term (if !v.d then dual_twin_loop term (dual v.num) st else st) := by
      split_ifs with hc
      · simp only [Bool.not_eq_true'] at hc
        exact dual_twin_loop_inv σ term v hv hd _ (hdual v hv hc) st hst
      · exact hst
    revert h1
    generalize (if (!v.d) = true then dual_twin_loop term (dual v.num) st else st) = s1
    intro h1
    by_cases h2 : s1.2 = true
    · rw [if_pos h2]; exact h1
    · rw [if_neg h2]; exact ih (fun x hx => ht x (List.mem_cons_of_mem _ hx)) _ h1

/-- The replacement of a monomial has the value of the monomial, and its
variables are variables of the monomial. -/
theorem vanishingImage_sound (van dual : Int → List Var) (σ : Var → Int) (m : Monomial)
    (hd : ∀ x, σ x.get_dual = 1 - σ x)
    (hvan : ∀ v ∈ m.term, v.d = false → ∀ w ∈ van v.num, σ v * σ w = 0)
    (hdual : ∀ v ∈ m.term, v.d = false → ∀ w ∈ dual v.num, w ≠ v ∧ σ v * (1 - σ w) = 0) :
    match vanishingImage van dual m with
    | some x => x.coeff * Term.eval σ x.term = m.coeff * Term.eval σ m.term ∧
        ∀ v ∈ x.term, v ∈ m.term
    | none => m.coeff * Term.eval σ m.term = 0 := by
  have hinv := dual_twin_scan_inv dual σ m.term hd hdual m.term (fun _ h => h) ([], false)
    ⟨fun h => (by cases h), fun x hx => (by cases hx)⟩
  unfold vanishingImage
  split_ifs with h1 h2 h3 h4
  · exact ⟨rfl, fun _ h => h⟩
  · show m.coeff * Term.eval σ m.term = 0
    rw [van_twin_scan_sound van σ m.term hvan h2]; ring
  · show m.coeff * Term.eval σ m.term = 0
    rcases hinv.1 h3 with ⟨_, h0⟩ | ⟨hne, _⟩
    · rw [h0]; ring
    · exact absurd h4 hne
  · rcases hinv.1 h3 with ⟨he, _⟩ | ⟨_, hv⟩
    · exact absurd he h4
    · exact ⟨by show m.coeff * _ = _; rw [hv], hinv.2⟩
  · exact ⟨rfl, fun _ h => h⟩

theorem lin_filterMap_image (van dual : Int → List Var) (σ : Var → Int) (l : List Monomial)
    (hd : ∀ x, σ x.get_dual = 1 - σ x)
    (hvan : ∀ v ∈ varsOf l, v.d = false → ∀ w ∈ van v.num, σ v * σ w = 0)
    (hdual : ∀ v ∈ varsOf l, v.d = false → ∀ w ∈ dual v.num, w ≠ v ∧ σ v * (1 - σ w) = 0) :
    lin (Term.eval σ) (l.filterMap (vanishingImage van dual)) = lin (Term.eval σ) l ∧
      ∀ v ∈ varsOf (l.filterMap (vanishingImage van dual)), v ∈ varsOf l := by
  induction l with
  | nil => exact ⟨rfl, fun _ h => h⟩
  | cons m l ih =>
    have hm := vanishingImage_sound van dual σ m hd
      (fun v hv => hvan v (mem_varsOf _ m v (List.mem_cons_self _ _) hv))
      (fun v hv => hdual v (mem_varsOf _ m v (List.mem_cons_self _ _) hv))
    have hl := ih
      (fun v hv => hvan v (by
        simp only [varsOf, List.flatMap_cons, List.mem_append] at hv ⊢; exact Or.inr hv))
      (fun v hv => hdual v (by
        simp only [varsOf, List.flatMap_cons, List.mem_append] at hv ⊢; exact Or.inr hv))
    cases h : vanishingImage van dual m with
    | none =>
      rw [h] at hm
      rw [List.filterMap_cons, h, lin_cons]
      refine ⟨by rw [hl.1, hm]; ring, fun v hv => ?_⟩
      have := hl.2 v hv
      simp only [varsOf, List.flatMap_cons, List.mem_append] at this ⊢
      exact Or.inr this
    | some x =>
      rw [h] at hm
      rw [List.filterMap_cons, h, lin_cons, lin_cons]
      refine ⟨by rw [hl.1, hm.1], fun v hv => ?_⟩
      simp only [varsOf, List.flatMap_cons, List.mem_append] at hv ⊢
      rcases hv with hv | hv
      · exact Or.inl (hm.2 v hv)
      · exact Or.inr (hl.2 v hv)

theorem coeffAt_filterMap_low (van dual : Int → List Var) (l : List Monomial) (t : Term)
    (ht : t.length < 2)
    (hno : ∀ m ∈ l, 2 ≤ m.term.length → ∀ x, vanishingImage van dual m = some x → x.term ≠ t) :
    coeffAt (l.filterMap (vanishingImage van dual)) t = coeffAt l t := by
  induction l with
  | nil => rfl
  | cons m l ih =>
    have hl := ih (fun x hx => hno x (List.mem_cons_of_mem _ hx))
    by_cases hm : m.term.length < 2
    · have e : vanishingImage van dual m = some m := by
        unfold vanishingImage; rw [if_pos hm]
      rw [List.filterMap_cons, e, coeffAt_cons, coeffAt_cons, hl]
    · have hmt : m.term ≠ t := fun e => hm (by rw [e]; exact ht)
      cases h : vanishingImage van dual m with
      | none => rw [List.filterMap_cons, h, coeffAt_cons, hl, if_neg hmt]; ring
      | some x =>
        have := hno m (List.mem_cons_self _ _) (by omega) x h
        rw [List.filterMap_cons, h, coeffAt_cons, coeffAt_cons, hl, if_neg hmt, if_neg this]

/-- C23 counterexample: `p = g*h + 3*g` is in normal form, `h` is the only dual
twin of `g`, there are no van twins, and the assignment gives 1 to the primary
and 0 to the dual variables, so that every hypothesis of the claim holds. The
first monomial is shrunk to `g` and merges with the monomial `3*g` of degree 1:
the result is `4*g`, in which the monomial `3*g` of `p` does not occur. -/
theorem remove_vanishing_monomials_merge_counterexample :
    Polynomial.WF ⟨[⟨1, [⟨4, 4, false⟩, ⟨2, 2, false⟩]⟩, ⟨3, [⟨4, 4, false⟩]⟩], 2⟩ ∧
    (∀ v w : Var, w ∈ (fun _ => ([] : List Var)) v.num →
      (fun x : Var => if x.d then (0 : Int) else 1) v
        * (fun x : Var => if x.d then (0 : Int) else 1) w = 0) ∧
    (∀ v w : Var, v.d = false →
      w ∈ (fun n : Int => if n = 4 then [(⟨2, 2, false⟩ : Var)] else []) v.num →
      (fun x : Var => if x.d then (0 : Int) else 1) v
        * (1 - (fun x : Var => if x.d then (0 : Int) else 1) w) = 0) ∧
    (∀ v : Var, (fun x : Var => if x.d then (0 : Int) else 1) v.get_dual
      = 1 - (fun x : Var => if x.d then (0 : Int) else 1) v) ∧
    remove_vanishing_monomials (fun _ => [])
        (fun n => if n = 4 then [⟨2, 2, false⟩] else [])
        (some ⟨[⟨1, [⟨4, 4, false⟩, ⟨2, 2, false⟩]⟩, ⟨3, [⟨4, 4, false⟩]⟩], 2⟩)
      = .ok (some ⟨[⟨4, [⟨4, 4, false⟩]⟩], 1⟩) ∧
    Term.degree [(⟨4, 4, false⟩ : Var)] < 2 ∧
    (⟨3, [⟨4, 4, false⟩]⟩ : Monomial) ∈
      [(⟨1, [⟨4, 4, false⟩, ⟨2, 2, false⟩]⟩ : Monomial), ⟨3, [⟨4, 4, false⟩]⟩] ∧
    (⟨3, [⟨4, 4, false⟩]⟩ : Monomial) ∉ [(⟨4, [⟨4, 4, false⟩]⟩ : Monomial)] := by
  refine ⟨by decide, ?_, ?_, ?_, rfl, by decide, by decide, by decide⟩
  · intro v w hw
    cases hw
  · intro v w hv hw
    dsimp only at hw ⊢
    split_ifs at hw with h4
    · rw [List.mem_singleton] at hw
      subst hw
      simp [hv]
    · cases hw
  · intro v
    dsimp only
    unfold Var.get_dual
    cases hvd : v.d <;> simp [hvd]

/-- A gate listed among its own dual twins: with `dual_twins(g) = [g]` the
monomial `g*h` is shrunk to `h`, which has value 1 where `g = 0` and `h = 1`,
although `g * (1 - g) = 0` holds there. -/
theorem remove_vanishing_monomials_self_twin :
    remove_vanishing_monomials (fun _ => [])
        (fun n => if n = 4 then [⟨4, 4, false⟩] else [])
        (some ⟨[⟨1, [⟨4, 4, false⟩, ⟨2, 2, false⟩]⟩], 2⟩)
      = .ok (some ⟨[⟨1, [⟨2, 2, false⟩]⟩], 1⟩) ∧
    evalPoly (fun x : Var => if x.num = 4 then (if x.d then 1 else 0) else (if x.d then 0 else 1))
      (some ⟨[⟨1, [⟨4, 4, false⟩, ⟨2, 2, false⟩]⟩], 2⟩) = 0 ∧
    evalPoly (fun x : Var => if x.num = 4 then (if x.d then 1 else 0) else (if x.d then 0 else 1))
      (some ⟨[⟨1, [⟨2, 2, false⟩]⟩], 1⟩) = 1 := by
  refine ⟨rfl, by decide, by decide⟩

/-- C23 (amended): let `p` be a polynomial object whose variables are told apart
by their levels, and let no primary variable of `p` be listed among the dual
twins of its own gate. For every assignment in which `g * h = 0` for every van
twin `h` of a primary variable `g` of `p`, `g * (1 - h) = 0` for every dual twin
`h` of a primary variable `g` of `p`, and every dual variable equals 1 minus its
primary, `remove_vanishing_monomials` (proof logging off) returns a polynomial
in normal form with the value of `p`. The result has the coefficients of the
sequence of the replacements of the monomials of `p`; every monomial of degree
below 2 is its own replacement, and the coefficient of the result at a term of
degree below 2 is the coefficient of `p` there unless a monomial of degree at
least 2 is shrunk to that term. -/
theorem remove_vanishing_monomials_correct (van dual : Int → List Var) (p : Polynomial)
    (σ : Var → Int) (hlev : LevelsDistinct (varsOf p.mon))
    (hirr : ∀ v ∈ varsOf p.mon, v.d = false → v ∉ dual v.num)
    (hvan : ∀ v ∈ varsOf p.mon, v.d = false → ∀ w ∈ van v.num, σ v * σ w = 0)
    (hdual : ∀ v ∈ varsOf p.mon, v.d = false → ∀ w ∈ dual v.num, σ v * (1 - σ w) = 0)
    (hd : ∀ x, σ x.get_dual = 1 - σ x) :
    ∃ r, remove_vanishing_monomials van dual (some p) = .ok r ∧ PolyNF r ∧
      evalPoly σ r = evalPoly σ (some p) ∧
      (∀ t, coeffAt (mons r) t = coeffAt (p.mon.filterMap (vanishingImage van dual)) t) ∧
      (∀ m ∈ p.mon, m.term.length < 2 → vanishingImage van dual m = some m) ∧
      ∀ t : Term, t.length < 2 →
        (∀ m ∈ p.mon, 2 ≤ m.term.length →
          ∀ x, vanishingImage van dual m = some x → x.term ≠ t) →
        coeffAt (mons r) t = coeffAt p.mon t := by
  have hdual2 : ∀ v ∈ varsOf p.mon, v.d = false →
      ∀ w ∈ dual v.num, w ≠ v ∧ σ v * (1 - σ w) = 0 :=
    fun v hv hvd w hw => ⟨fun e => hirr v hv hvd (e ▸ hw), hdual v hv hvd w hw⟩
  obtain ⟨hval, hvars⟩ := lin_filterMap_image van dual σ p.mon hd hvan hdual2
  have hT := cmpFaithful_of_levels (varsOf p.mon) hlev
  have hin : TermsIn (fun t => ∀ v ∈ t, v ∈ varsOf p.mon)
      (p.mon.filterMap (vanishingImage van dual)) :=
    termsIn_of_varsOf _ _ hvars
  obtain ⟨hnf, _, hlin⟩ := foldl_push_mstack_spec _ hT
    (p.mon.filterMap (vanishingImage van dual)) [] hin (fun e he => by cases he) stackNF_nil
  have hco : ∀ t, coeffAt (mons (build_poly
      ((p.mon.filterMap (vanishingImage van dual)).foldl push_mstack []))) t
        = coeffAt (p.mon.filterMap (vanishingImage van dual)) t := by
    intro t
    rw [mons_build_poly, coeffAt_eq_lin, coeffAt_eq_lin, lin_reverse, hlin, lin_nil]; ring
  refine ⟨build_poly ((p.mon.filterMap (vanishingImage van dual)).foldl push_mstack []),
    ?_, build_poly_nf _ hnf, ?_, hco, ?_, ?_⟩
  · show (deref (some p) >>= fun q => pure (build_poly
      (q.mon.foldl (remove_vanishing_step van dual) []))) = _
    rw [← remove_vanishing_fold_eq]
    rfl
  · rw [evalPoly_some, evalPoly, mons_build_poly, evalMons_eq_lin, evalMons_eq_lin, lin_reverse,
      hlin, lin_nil, hval]; ring
  · intro m _ hm
    unfold vanishingImage
    rw [if_pos hm]
  · intro t ht hno
    rw [hco, coeffAt_filterMap_low van dual p.mon t ht hno]

theorem remove_vanishing_monomials_correct_witness :
    ∃ r, remove_vanishing_monomials (fun _ => [])
        (fun n => if n = 4 then [⟨2, 2, false⟩] else [])
        (some ⟨[⟨1, [⟨4, 4, false⟩, ⟨2, 2, false⟩]⟩, ⟨3, [⟨4, 4, false⟩]⟩], 2⟩) = .ok r ∧
      PolyNF r ∧
      evalPoly (fun x : Var => if x.d then (0 : Int) else 1) r
        = evalPoly (fun x : Var => if x.d then (0 : Int) else 1)
          (some ⟨[⟨1, [⟨4, 4, false⟩, ⟨2, 2, false⟩]⟩, ⟨3, [⟨4, 4, false⟩]⟩], 2⟩) :=
  let h := remove_vanishing_monomials_correct (fun _ => [])
    (fun n => if n = 4 then [⟨2, 2, false⟩] else [])
    ⟨[⟨1, [⟨4, 4, false⟩, ⟨2, 2, false⟩]⟩, ⟨3, [⟨4, 4, false⟩]⟩], 2⟩
    (fun x : Var => if x.d then (0 : Int) else 1)
    (by decide) (by decide) (by decide) (by decide)
    (fun x => by
      unfold Var.get_dual
      cases hvd : x.d <;> simp [hvd])
  ⟨h.choose, h.choose_spec.1, h.choose_spec.2.1, h.choose_spec.2.2.1⟩

/-! ## The kernel of a rational matrix -/

theorem set_entry (E : fmpq_mat) (i j : Nat) (x : ℚ) (a b : Nat) :
    (E.set i j x).entry a b = if a = i ∧ b = j then x else E.entry a b := rfl

theorem set_row_entry (a n : Nat) (f : Nat → ℚ) (E : fmpq_mat) (x y : Nat) :
    ((List.range n).foldl (fun E2 j => E2.set a j (f j)) E).entry x y
      = if x = a ∧ y < n then f y else E.entry x y := by
  induction n with
  | zero => simp
  | succ n ih =>
    rw [List.range_succ, List.foldl_append]
    simp only [List.foldl_cons, List.foldl_nil]
    rw [set_entry, ih]
    by_cases h1 : x = a
    · by_cases h2 : y = n
      · simp [h1, h2]
      · by_cases h3 : y < n
        · simp [h1, h2, h3, Nat.lt_succ_of_lt h3]
        · have : ¬ y < n + 1 := by omega
          simp [h1, h2, h3, this]
    · simp [h1]

theorem find_range_some (c p : Nat) (pred : Nat → Bool) (hp : p < c) (h1 : pred p = true)
    (h2 : ∀ j, j < p → pred j = false) : (List.range c).find? pred = some p := by
  induction c with
  | zero => omega
  | succ c ih =>
    rw [List.range_succ, List.find?_append]
    by_cases h : p < c
    · rw [ih h]; rfl
    · have e : p = c := by omega
      subst e
      have : (List.range p).find? pred = none := by
        rw [List.find?_eq_none]
        intro x hx
        rw [h2 x (List.mem_range.1 hx)]
        simp
      rw [this]
      simp [h1]

theorem find_range_none (c : Nat) (pred : Nat → Bool) (h : ∀ j, j < c → pred j = false) :
    (List.range c).find? pred = none := by
  rw [List.find?_eq_none]
  intro x hx
  rw [h x (List.mem_range.1 hx)]
  simp

theorem rref_pivots (R : fmpq_mat) (k : Nat) (p : Nat → Nat) (h : RREFData R k p) :
    (List.range R.r).filterMap (fun i =>
      (List.range R.c).find? (fun j => decide (R.entry i j ≠ 0))) = (List.range k).map p := by
  obtain ⟨hk, hp, _, hz⟩ := h
  have key : ∀ m, k ≤ m → m ≤ R.r → (List.range m).filterMap (fun i =>
      (List.range R.c).find? (fun j => decide (R.entry i j ≠ 0))) = (List.range k).map p := by
    intro m hm
    induction m, hm using Nat.le_induction with
    | base =>
      intro _
      rw [← List.filterMap_eq_map]
      apply List.filterMap_congr
      intro i hi
      have hi2 := List.mem_range.1 hi
      obtain ⟨a1, a2, a3, _⟩ := hp i hi2
      exact find_range_some R.c (p i) _ a1 (by simp [a2]) (fun j hj => by simp [a3 j hj])
    | succ m hm ih =>
      intro hle
      rw [List.range_succ, List.filterMap_append, ih (by omega)]
      have : (List.range R.c).find? (fun j => decide (R.entry m j ≠ 0)) = none :=
        find_range_none R.c _ (fun j hj => by simp [hz m hm (by omega) j hj])
      simp only [List.filterMap_cons, this, List.filterMap_nil, List.append_nil]
  exact key R.r hk le_rfl

theorem rrefData_le (R : fmpq_mat) (k : Nat) (p : Nat → Nat) (h : RREFData R k p) :
    ∀ i, i < k → i ≤ p i := by
  obtain ⟨_, _, hinc, _⟩ := h
  intro i
  induction i with
  | zero => intro _; omega
  | succ i ih =>
    intro hi
    have := hinc i (i + 1) (by omega) hi
    have := ih (by omega)
    omega

theorem rrefData_count (R : fmpq_mat) (k : Nat) (p : Nat → Nat) (h : RREFData R k p) :
    k ≤ R.c := by
  by_cases hk : k = 0
  · omega
  · have h1 := rrefData_le R k p h (k - 1) (by omega)
    have h2 := (h.2.1 (k - 1) (by omega)).1
    omega

theorem rrefData_inj (R : fmpq_mat) (k : Nat) (p : Nat → Nat) (h : RREFData R k p)
    (i j : Nat) (hi : i < k) (hj : j < k) (e : p i = p j) : i = j := by
  obtain ⟨_, _, hinc, _⟩ := h
  rcases Nat.lt_trichotomy i j with h1 | h1 | h1
  · have := hinc i j h1 hj; omega
  · exact h1
  · have := hinc j i h1 hi; omega

theorem insert_pivot_rows_spec (R : fmpq_mat) (k : Nat) (p : Nat → Nat) (h : RREFData R k p)
    (n t : Nat) (ht : t ≤ k) :
    (∀ l, l < t → ∀ b, b < n →
      ((List.range t).foldl (fun E i => (List.range n).foldl (fun E2 j =>
        E2.set (((List.range k).map p).getD i 0) j (R.entry i j)) E)
        (fmpq_mat_init n n)).entry (p l) b = R.entry l b) ∧
    (∀ a, (∀ l, l < t → p l ≠ a) → ∀ b,
      ((List.range t).foldl (fun E i => (List.range n).foldl (fun E2 j =>
        E2.set (((List.range k).map p).getD i 0) j (R.entry i j)) E)
        (fmpq_mat_init n n)).entry a b = 0) := by
  induction t with
  | zero =>
    refine ⟨fun l hl => by omega, fun a _ b => rfl⟩
  | succ t ih =>
    obtain ⟨ih1, ih2⟩ := ih (by omega)
    have hget : ((List.range k).map p).getD t 0 = p t := by
      rw [List.getD_eq_getElem _ _ (by simp; omega)]
      simp
    rw [List.range_succ, List.foldl_append]
    simp only [List.foldl_cons, List.foldl_nil]
    refine ⟨fun l hl b hb => ?_, fun a ha b => ?_⟩
    · rw [set_row_entry, hget]
      by_cases e : l = t
      · subst e
        rw [if_pos ⟨rfl, hb⟩]
      · have hne : p l ≠ p t := fun e2 => e (rrefData_inj R k p h l t (by omega) (by omega) e2)
        rw [if_neg (fun hh => hne hh.1)]
        exact ih1 l (by omega) b hb
    · rw [set_row_entry, hget]
      have hne : a ≠ p t := fun e => ha t (by omega) e.symm
      rw [if_neg (fun hh => hne hh.1)]
      exact ih2 a (fun l hl => ha l (by omega)) b

theorem diagonal_fill_spec (E1 : fmpq_mat) (t : Nat) (a b : Nat) :
    ((List.range t).foldl (fun E i => if E.entry i i = 0 then E.set i i (-1) else E) E1).entry a b
      = if a = b ∧ a < t ∧ E1.entry a a = 0 then -1 else E1.entry a b := by
  induction t generalizing a b with
  | zero => simp
  | succ t ih =>
    rw [List.range_succ, List.foldl_append]
    simp only [List.foldl_cons, List.foldl_nil]
    have htt := ih t t
    rw [if_neg (by omega)] at htt
    by_cases hz : E1.entry t t = 0
    · rw [if_pos (by rw [htt]; exact hz), set_entry, ih]
      by_cases h1 : a = t ∧ b = t
      · obtain ⟨rfl, rfl⟩ := h1
        simp [hz]
      · rw [if_neg h1]
        by_cases h2 : a = b ∧ a < t ∧ E1.entry a a = 0
        · rw [if_pos h2, if_pos ⟨h2.1, by omega, h2.2.2⟩]
        · rw [if_neg h2, if_neg]
          rintro ⟨e1, e2, e3⟩
          by_cases e4 : a = t
          · exact h1 ⟨e4, e1 ▸ e4⟩
          · exact h2 ⟨e1, by omega, e3⟩
    · rw [if_neg (by rw [htt]; exact hz), ih]
      by_cases h2 : a = b ∧ a < t ∧ E1.entry a a = 0
      · rw [if_pos h2, if_pos ⟨h2.1, by omega, h2.2.2⟩]
      · rw [if_neg h2, if_neg]
        rintro ⟨e1, e2, e3⟩
        by_cases e4 : a = t
        · subst e4; exact hz e3
        · exact h2 ⟨e1, by omega, e3⟩

/-- The matrix `M_extended` built from a reduced row echelon form: the pivot
rows carry the rows of `R`, the other rows carry `-1` on the diagonal. -/
theorem kernel_extended_spec (R : fmpq_mat) (k : Nat) (p : Nat → Nat) (h : RREFData R k p) :
    (∀ l, l < k → ∀ b, b < R.c →
      (kernel_extended R ((List.range k).map p)).entry (p l) b = R.entry l b) ∧
    (∀ a, a < R.c → (∀ l, l < k → p l ≠ a) → ∀ b,
      (kernel_extended R ((List.range k).map p)).entry a b = if a = b then -1 else 0) := by
  obtain ⟨h1, h2⟩ := insert_pivot_rows_spec R k p h R.c k le_rfl
  have hlen : ((List.range k).map p).length = k := by simp
  unfold kernel_extended
  simp only [hlen]
  refine ⟨fun l hl b hb => ?_, fun a ha hfree b => ?_⟩
  · rw [diagonal_fill_spec, if_neg]
    · exact h1 l hl b hb
    · rintro ⟨_, _, e⟩
      rw [h1 l hl (p l) (h.2.1 l hl).1, (h.2.1 l hl).2.1] at e
      exact one_ne_zero e
  · rw [diagonal_fill_spec, h2 a hfree, h2 a hfree]
    by_cases e : a = b
    · rw [if_pos ⟨e, ha, rfl⟩, if_pos e]
    · rw [if_neg (fun hh => e hh.1), if_neg e]

theorem extract_inner_spec (E : fmpq_mat) (n i r : Nat) (K : fmpq_mat) (x y : Nat) :
    ((List.range n).foldl (fun K2 j =>
        if E.entry j i ≠ 0 then K2.set r j (E.entry j i) else K2) K).entry x y
      = if x = r ∧ y < n ∧ E.entry y i ≠ 0 then E.entry y i else K.entry x y := by
  induction n with
  | zero => simp
  | succ n ih =>
    rw [List.range_succ, List.foldl_append]
    simp only [List.foldl_cons, List.foldl_nil]
    by_cases hz : E.entry n i ≠ 0
    · rw [if_pos hz, set_entry, ih]
      by_cases h1 : x = r ∧ y = n
      · obtain ⟨rfl, rfl⟩ := h1
        rw [if_pos ⟨rfl, rfl⟩, if_pos ⟨rfl, by omega, hz⟩]
      · rw [if_neg h1]
        by_cases h2 : x = r ∧ y < n ∧ E.entry y i ≠ 0
        · rw [if_pos h2, if_pos ⟨h2.1, by omega, h2.2.2⟩]
        · rw [if_neg h2, if_neg]
          rintro ⟨e1, e2, e3⟩
          by_cases e4 : y = n
          · exact h1 ⟨e1, e4⟩
          · exact h2 ⟨e1, by omega, e3⟩
    · rw [if_neg hz, ih]
      by_cases h2 : x = r ∧ y < n ∧ E.entry y i ≠ 0
      · rw [if_pos h2, if_pos ⟨h2.1, by omega, h2.2.2⟩]
      · rw [if_neg h2, if_neg]
        rintro ⟨e1, e2, e3⟩
        by_cases e4 : y = n
        · subst e4; exact hz e3
        · exact h2 ⟨e1, by omega, e3⟩

theorem extract_inner_dims (E : fmpq_mat) (n i r : Nat) (K : fmpq_mat) :
    ((List.range n).foldl (fun K2 j =>
        if E.entry j i ≠ 0 then K2.set r j (E.entry j i) else K2) K).r = K.r ∧
    ((List.range n).foldl (fun K2 j =>
        if E.entry j i ≠ 0 then K2.set r j (E.entry j i) else K2) K).c = K.c := by
  induction n with
  | zero => simp
  | succ n ih =>
    rw [List.range_succ, List.foldl_append]
    simp only [List.foldl_cons, List.foldl_nil]
    split_ifs
    · exact ih
    · exact ih

theorem extract_fold_spec (E : fmpq_mat) (n : Nat) (l : List Nat) (K : fmpq_mat) (r : Nat)
    (hzero : ∀ t, r ≤ t → ∀ j, K.entry t j = 0) :
    (l.foldl (fun st i =>
        if E.entry i i = -1 then
          ((List.range n).foldl (fun K2 j =>
              if E.entry j i ≠ 0 then K2.set st.2 j (E.entry j i) else K2) st.1, st.2 + 1)
        else st) (K, r)).2 = r + (l.filter (fun i => decide (E.entry i i = -1))).length ∧
    (∀ s, s < (l.filter (fun i => decide (E.entry i i = -1))).length → ∀ j, j < n →
      (l.foldl (fun st i =>
        if E.entry i i = -1 then
          ((List.range n).foldl (fun K2 j =>
              if E.entry j i ≠ 0 then K2.set st.2 j (E.entry j i) else K2) st.1, st.2 + 1)
        else st) (K, r)).1.entry (r + s) j
        = E.entry j ((l.filter (fun i => decide (E.entry i i = -1))).getD s 0)) ∧
    (∀ t, t < r → ∀ j,
      (l.foldl (fun st i =>
        if E.entry i i = -1 then
          ((List.range n).foldl (fun K2 j =>
              if E.entry j i ≠ 0 then K2.set st.2 j (E.entry j i) else K2) st.1, st.2 + 1)
        else st) (K, r)).1.entry t j = K.entry t j) ∧
    (l.foldl (fun st i =>
        if E.entry i i = -1 then
          ((List.range n).foldl (fun K2 j =>
              if E.entry j i ≠ 0 then K2.set st.2 j (E.entry j i) else K2) st.1, st.2 + 1)
        else st) (K, r)).1.r = K.r ∧
    (l.foldl (fun st i =>
        if E.entry i i = -1 then
          ((List.range n).foldl (fun K2 j =>
              if E.entry j i ≠ 0 then K2.set st.2 j (E.entry j i) else K2) st.1, st.2 + 1)
        else st) (K, r)).1.c = K.c := by
  induction l generalizing K r with
  | nil =>
    refine ⟨by simp, fun s hs => by simp at hs, fun t _ j => rfl, rfl, rfl⟩
  | cons i l ih =>
    rw [List.foldl_cons]
    by_cases hf : E.entry i i = -1
    · rw [if_pos hf]
      dsimp only
      have hfl : (i :: l).filter (fun i => decide (E.entry i i = -1))
          = i :: l.filter (fun i => decide (E.entry i i = -1)) := by
        rw [List.filter_cons_of_pos (by simpa using hf)]
      rw [hfl]
      have hz2 : ∀ t, r + 1 ≤ t → ∀ j, ((List.range n).foldl (fun K2 j =>
          if E.entry j i ≠ 0 then K2.set r j (E.entry j i) else K2) K).entry t j = 0 := by
        intro t ht j
        rw [extract_inner_spec, if_neg (fun hh => by omega)]
        exact hzero t (by omega) j
      obtain ⟨a1, a2, a3, a4, a5⟩ := ih _ (r + 1) hz2
      refine ⟨by rw [a1, List.length_cons]; omega, fun s hs j hj => ?_, fun t ht j => ?_, ?_, ?_⟩
      · cases s with
        | zero =>
          simp only [Nat.add_zero, List.getD_cons_zero]
          rw [a3 r (by omega) j, extract_inner_spec]
          by_cases hz : E.entry j i ≠ 0
          · rw [if_pos ⟨rfl, hj, hz⟩]
          · rw [if_neg (fun hh => hz hh.2.2), hzero r le_rfl j]
            simp only [ne_eq, not_not] at hz
            exact hz.symm
        | succ s =>
          have := a2 s (by simpa using hs) j hj
          rw [show r + (s + 1) = r + 1 + s by omega, this]
          simp
      · rw [a3 t (by omega) j, extract_inner_spec, if_neg (fun hh => by omega)]
      · rw [a4]; exact (extract_inner_dims E n i r K).1
      · rw [a5]; exact (extract_inner_dims E n i r K).2
    · rw [if_neg hf]
      have hfl : (i :: l).filter (fun i => decide (E.entry i i = -1))
          = l.filter (fun i => decide (E.entry i i = -1)) := by
        rw [List.filter_cons_of_neg (by simpa using hf)]
      rw [hfl]
      exact ih K r hzero

theorem freeColumns_length (R : fmpq_mat) (k : Nat) (p : Nat → Nat) (h : RREFData R k p) :
    (freeColumns k p R.c).length = R.c - k := by
  have hnd : (freeColumns k p R.c).Nodup := List.Nodup.filter _ (List.nodup_range _)
  rw [← List.toFinset_card_of_nodup hnd]
  have e : (freeColumns k p R.c).toFinset = Finset.range R.c \ (Finset.range k).image p := by
    ext x
    simp only [freeColumns, List.mem_toFinset, List.mem_filter, List.mem_range,
      decide_eq_true_eq, Finset.mem_sdiff, Finset.mem_range, Finset.mem_image, not_exists,
      not_and]
  rw [e, Finset.card_sdiff, Finset.card_range, Finset.card_image_of_injOn, Finset.card_range]
  · intro a ha b hb e2
    exact rrefData_inj R k p h a b (Finset.mem_range.1 ha) (Finset.mem_range.1 hb) e2
  · intro x hx
    obtain ⟨l, hl, rfl⟩ := Finset.mem_image.1 hx
    exact Finset.mem_range.2 (h.2.1 l (Finset.mem_range.1 hl)).1

theorem freeColumns_filter (R : fmpq_mat) (k : Nat) (p : Nat → Nat) (h : RREFData R k p) :
    (List.range R.c).filter
      (fun i => decide ((kernel_extended R ((List.range k).map p)).entry i i = -1))
      = freeColumns k p R.c := by
  obtain ⟨e1, e2⟩ := kernel_extended_spec R k p h
  unfold freeColumns
  apply List.filter_congr
  intro i hi
  have hi2 := List.mem_range.1 hi
  by_cases hfree : ∀ l, l < k → p l ≠ i
  · rw [decide_eq_true hfree, e2 i hi2 hfree i, if_pos rfl]
    simp
  · rw [decide_eq_false hfree]
    push_neg at hfree
    obtain ⟨l, hl, rfl⟩ := hfree
    rw [e1 l hl (p l) hi2, (h.2.1 l hl).2.1]
    simp
    norm_num

theorem freeColumns_mem (k : Nat) (p : Nat → Nat) (n s : Nat)
    (hs : s < (freeColumns k p n).length) :
    (freeColumns k p n).getD s 0 < n ∧ ∀ l, l < k → p l ≠ (freeColumns k p n).getD s 0 := by
  have hm : (freeColumns k p n).getD s 0 ∈ freeColumns k p n := by
    rw [List.getD_eq_getElem _ _ hs]
    exact List.getElem_mem _
  unfold freeColumns at hm
  rw [List.mem_filter, List.mem_range] at hm
  exact ⟨hm.1, by simpa using hm.2⟩

theorem freeColumns_inj (k : Nat) (p : Nat → Nat) (n s t : Nat)
    (hs : s < (freeColumns k p n).length) (ht : t < (freeColumns k p n).length)
    (e : (freeColumns k p n).getD s 0 = (freeColumns k p n).getD t 0) : s = t := by
  have hnd : (freeColumns k p n).Nodup := List.Nodup.filter _ (List.nodup_range _)
  rw [List.getD_eq_getElem _ _ hs, List.getD_eq_getElem _ _ ht] at e
  exact (List.Nodup.getElem_inj_iff hnd).1 e

/-- The matrix `K` before `rref(K)`, for a reduced row echelon form `R` of `M`:
it has `n - k` rows, and row `s` is the column of `M_extended` at the `s`-th
column without pivot. -/
theorem kernel_unreduced_spec (f : fmpq_mat → fmpq_mat) (M : fmpq_mat) (k : Nat)
    (p : Nat → Nat) (h : RREFData (f M) k p) :
    (kernel_unreduced f M).1 = f M ∧
    (rref f M).2 = (List.range k).map p ∧
    (kernel_unreduced f M).2.r = (f M).c - k ∧
    (kernel_unreduced f M).2.c = (f M).c ∧
    ∀ s, s < (f M).c - k → ∀ j, j < (f M).c →
      (kernel_unreduced f M).2.entry s j
        = (kernel_extended (f M) ((List.range k).map p)).entry j
            ((freeColumns k p (f M).c).getD s 0) := by
  have hp : (rref f M).2 = (List.range k).map p := rref_pivots (f M) k p h
  have h1 : (rref f M).1 = f M := rfl
  have hlen : ((List.range k).map p).length = k := by simp
  obtain ⟨a1, a2, a3, a4, a5⟩ := extract_fold_spec (kernel_extended (f M) ((List.range k).map p))
    (f M).c (List.range (f M).c) (fmpq_mat_init ((f M).c - k) (f M).c) 0 (fun _ _ _ => rfl)
  rw [freeColumns_filter (f M) k p h] at a1 a2
  rw [freeColumns_length (f M) k p h] at a2
  refine ⟨rfl, hp, ?_, ?_, fun s hs j hj => ?_⟩
  · show (kernel_extract (kernel_extended (rref f M).1 (rref f M).2) (rref f M).1.c
      (fmpq_mat_init ((rref f M).1.c - (rref f M).2.length) (rref f M).1.c)).1.r = _
    rw [hp, h1, hlen]
    exact a4
  · show (kernel_extract (kernel_extended (rref f M).1 (rref f M).2) (rref f M).1.c
      (fmpq_mat_init ((rref f M).1.c - (rref f M).2.length) (rref f M).1.c)).1.c = _
    rw [hp, h1, hlen]
    exact a5
  · show (kernel_extract (kernel_extended (rref f M).1 (rref f M).2) (rref f M).1.c
      (fmpq_mat_init ((rref f M).1.c - (rref f M).2.length) (rref f M).1.c)).1.entry s j = _
    rw [hp, h1, hlen]
    have := a2 s hs j hj
    rw [Nat.zero_add] at this
    exact this

/-- The linear algebra behind `kernel`: `R` and `M` are row equivalent, the
first `k` rows `W` of `R` are independent, `K1` has `n - k` independent rows in
the null space of `R`, and `K` is row equivalent to `K1`. -/
theorem kernel_basis_matrix {m n k q : Nat} (Mm Rm : Matrix (Fin m) (Fin n) ℚ)
    (Km K1m : Matrix (Fin q) (Fin n) ℚ) (W : Matrix (Fin k) (Fin n) ℚ)
    (hq : q = n - k) (hk : k ≤ n)
    (P Q : Matrix (Fin m) (Fin m) ℚ) (hR : Rm = P * Mm) (hM : Mm = Q * Rm)
    (P2 Q2 : Matrix (Fin q) (Fin q) ℚ) (hK : Km = P2 * K1m) (hK1 : K1m = Q2 * Km)
    (Sel : Matrix (Fin k) (Fin m) ℚ) (hW : W = Sel * Rm)
    (hWind : LinearIndependent ℚ (fun i => W i))
    (hK1ind : LinearIndependent ℚ (fun i => K1m i))
    (hnull : Rm * K1m.transpose = 0) :
    Mm.rank = k ∧ LinearIndependent ℚ (fun i => Km i) ∧ (∀ i, Mm.mulVec (Km i) = 0) ∧
      Submodule.span ℚ (Set.range (fun i => Km i)) = LinearMap.ker Mm.mulVecLin := by
  -- rank of M is at least k
  have r1 : W.rank = k := by
    have := LinearIndependent.rank_matrix hWind
    simpa using this
  have r2 : k ≤ Mm.rank := by
    calc k = W.rank := r1.symm
      _ ≤ Rm.rank := by rw [hW]; exact Matrix.rank_mul_le_right _ _
      _ ≤ Mm.rank := by rw [hR]; exact Matrix.rank_mul_le_right _ _
  -- the rows of K are independent
  have r3 : K1m.rank = q := by
    have := LinearIndependent.rank_matrix hK1ind
    simpa using this
  have r4 : Km.rank = q := by
    apply le_antisymm (Matrix.rank_le_height Km)
    calc q = K1m.rank := r3.symm
      _ ≤ Km.rank := by
        conv_lhs => rw [hK1]
        exact Matrix.rank_mul_le_right _ _
  have hKind : LinearIndependent ℚ (fun i => Km i) := by
    rw [linearIndependent_iff_card_eq_finrank_span, Fintype.card_fin, Set.finrank,
      ← Matrix.rank_eq_finrank_span_row]
    exact r4.symm
  -- the rows of K are in the null space of M
  have hz : Mm * Km.transpose = 0 := by
    rw [hM, hK, Matrix.transpose_mul, Matrix.mul_assoc, ← Matrix.mul_assoc Rm, hnull]
    simp
  have hrow : ∀ i, Mm.mulVec (Km i) = 0 := by
    intro i
    ext a
    have := congrFun (congrFun hz a) i
    simpa [Matrix.mul_apply, Matrix.mulVec, Matrix.dotProduct] using this
  -- dimensions
  have hle : Submodule.span ℚ (Set.range (fun i => Km i)) ≤ LinearMap.ker Mm.mulVecLin := by
    rw [Submodule.span_le]
    rintro x ⟨i, rfl⟩
    exact hrow i
  have hsp : Module.finrank ℚ (Submodule.span ℚ (Set.range (fun i => Km i))) = q := by
    rw [finrank_span_eq_card hKind, Fintype.card_fin]
  have hrn := LinearMap.finrank_range_add_finrank_ker Mm.mulVecLin
  rw [Module.finrank_fin_fun] at hrn
  have hrk : Mm.rank = Module.finrank ℚ (LinearMap.range Mm.mulVecLin) := rfl
  have hmono := Submodule.finrank_mono hle
  rw [hsp] at hmono
  have hrank : Mm.rank = k := by omega
  refine ⟨hrank, hKind, hrow, ?_⟩
  apply Submodule.eq_of_le_of_finrank_eq hle
  rw [hsp]
  omega

theorem rowCombination_mul (A B : fmpq_mat) (m2 m n : Nat) (h : RowCombination A B)
    (h1 : m2 ≤ B.r) (h2 : n ≤ B.c) (h3 : A.r = m) :
    ∃ P : Matrix (Fin m2) (Fin m) ℚ, matAt B m2 n = P * matAt A m n := by
  obtain ⟨P, hP⟩ := h
  subst h3
  refine ⟨fun i k => P i k, ?_⟩
  ext i j
  rw [Matrix.mul_apply]
  show B.entry i j = _
  rw [hP i (by omega) j (by omega), Finset.sum_range]
  rfl

/-- A column of `M_extended` without pivot is in the null space of `R`. -/
theorem extended_null (R : fmpq_mat) (k : Nat) (p : Nat → Nat) (h : RREFData R k p)
    (i : Nat) (hi : i < R.c) (hfree : ∀ l, l < k → p l ≠ i) (a : Nat) (ha : a < R.r) :
    Finset.sum (Finset.range R.c) (fun j =>
      R.entry a j * (kernel_extended R ((List.range k).map p)).entry j i) = 0 := by
  obtain ⟨e1, e2⟩ := kernel_extended_spec R k p h
  by_cases hak : a < k
  · have hpa := h.2.1 a hak
    have hsub : ({p a, i} : Finset Nat) ⊆ Finset.range R.c := by
      intro x hx
      rw [Finset.mem_insert, Finset.mem_singleton] at hx
      rcases hx with rfl | rfl
      · exact Finset.mem_range.2 hpa.1
      · exact Finset.mem_range.2 hi
    rw [← Finset.sum_subset hsub, Finset.sum_pair (hfree a hak)]
    · rw [hpa.2.1, e1 a hak i hi, e2 i hi hfree i, if_pos rfl]
      ring
    · intro j hj hnot
      rw [Finset.mem_insert, Finset.mem_singleton] at hnot
      push_neg at hnot
      have hj2 := Finset.mem_range.1 hj
      by_cases hpiv : ∀ l, l < k → p l ≠ j
      · rw [e2 j hj2 hpiv i, if_neg hnot.2]
        ring
      · push_neg at hpiv
        obtain ⟨l, hl, rfl⟩ := hpiv
        have hla : a ≠ l := fun e => hnot.1 (e ▸ rfl)
        rw [(h.2.1 l hl).2.2.2 a ha hla]
        ring
  · apply Finset.sum_eq_zero
    intro j hj
    rw [h.2.2.2 a (by omega) ha j (Finset.mem_range.1 hj)]
    ring

theorem unreduced_null (f : fmpq_mat → fmpq_mat) (M : fmpq_mat) (k : Nat) (p : Nat → Nat)
    (h : RREFData (f M) k p) (m n : Nat) (hm : (f M).r = m) (hn : (f M).c = n) :
    matAt (f M) m n * (matAt (kernel_unreduced f M).2 (n - k) n).transpose = 0 := by
  subst hm hn
  obtain ⟨_, _, _, _, hK⟩ := kernel_unreduced_spec f M k p h
  ext a s
  rw [Matrix.mul_apply]
  simp only [Matrix.transpose_apply, matAt, Matrix.zero_apply]
  have hs := freeColumns_mem k p (f M).c s (by rw [freeColumns_length (f M) k p h]; exact s.2)
  rw [← extended_null (f M) k p h _ hs.1 hs.2 a a.2, Finset.sum_range]
  apply Finset.sum_congr rfl
  intro j _
  rw [hK s s.2 j j.2]

theorem unreduced_rows_independent (f : fmpq_mat → fmpq_mat) (M : fmpq_mat) (k : Nat)
    (p : Nat → Nat) (h : RREFData (f M) k p) (n : Nat) (hn : (f M).c = n) :
    LinearIndependent ℚ (fun i => matAt (kernel_unreduced f M).2 (n - k) n i) := by
  subst hn
  obtain ⟨_, _, _, _, hK⟩ := kernel_unreduced_spec f M k p h
  obtain ⟨_, e2⟩ := kernel_extended_spec (f M) k p h
  have hlen := freeColumns_length (f M) k p h
  rw [Fintype.linearIndependent_iff]
  intro g hg s0
  have hs0 := freeColumns_mem k p (f M).c s0 (by rw [hlen]; exact s0.2)
  have := congrFun hg ⟨(freeColumns k p (f M).c).getD s0 0, hs0.1⟩
  simp only [Finset.sum_apply, Pi.smul_apply, smul_eq_mul, Pi.zero_apply, matAt] at this
  have e : ∀ s : Fin ((f M).c - k),
      g s * (kernel_unreduced f M).2.entry s ((freeColumns k p (f M).c).getD s0 0)
        = if s = s0 then -g s0 else 0 := by
    intro s
    rw [hK s s.2 _ hs0.1, e2 _ hs0.1 hs0.2]
    by_cases hss : s = s0
    · subst hss
      rw [if_pos rfl, if_pos rfl]; ring
    · rw [if_neg hss, if_neg]
      · ring
      · intro e3
        have := freeColumns_inj k p (f M).c s0 s (by rw [hlen]; exact s0.2)
          (by rw [hlen]; exact s.2) e3
        exact hss (Fin.ext this.symm)
  rw [Finset.sum_congr rfl (fun s _ => e s), Finset.sum_ite_eq'] at this
  simpa using this

theorem pivot_rows_independent (R : fmpq_mat) (k : Nat) (p : Nat → Nat) (h : RREFData R k p)
    (n : Nat) (hn : R.c = n) : LinearIndependent ℚ (fun i => matAt R k n i) := by
  subst hn
  rw [Fintype.linearIndependent_iff]
  intro g hg l0
  have hp := h.2.1 l0 l0.2
  have := congrFun hg ⟨p l0, hp.1⟩
  simp only [Finset.sum_apply, Pi.smul_apply, smul_eq_mul, Pi.zero_apply, matAt] at this
  have e : ∀ l : Fin k, g l * R.entry l (p l0) = if l = l0 then g l0 else 0 := by
    intro l
    by_cases hl : l = l0
    · subst hl
      rw [if_pos rfl, hp.2.1]; ring
    · rw [if_neg hl, hp.2.2.2 l (by have := l.2; have := h.1; omega)
        (fun e2 => hl (Fin.ext e2))]
      ring
  rw [Finset.sum_congr rfl (fun s _ => e s), Finset.sum_ite_eq'] at this
  simpa using this

theorem select_rows (R : fmpq_mat) (k m n : Nat) (hk : k ≤ m) :
    ∃ Sel : Matrix (Fin k) (Fin m) ℚ, matAt R k n = Sel * matAt R m n := by
  refine ⟨fun i a => if (a : Nat) = i then 1 else 0, ?_⟩
  ext i j
  rw [Matrix.mul_apply]
  simp only [matAt]
  rw [Finset.sum_eq_single (⟨i, by have := i.2; omega⟩ : Fin m)]
  · simp
  · intro b _ hb
    have : ¬ (b : Nat) = i := fun e => hb (Fin.ext e)
    simp [this]
  · intro hh
    exact absurd (Finset.mem_univ _) hh

/-- C26: let `fmpq_mat_rref` meet its contract at the argument `M` and at the
matrix `K` that `kernel` passes to it: the result has the size of the argument,
the same row space, and is in reduced row echelon form. Then the number of
pivots is at most the number `n` of columns of `M`, and the matrix `K` that
`kernel(M, K)` produces has `n` columns and exactly `n - rank(M)` rows; its rows
are linearly independent, each row `k` satisfies `M * k = 0`, and the rows span
the null space of `M`: they form a basis of it. -/
theorem kernel_basis (fmpq_mat_rref : fmpq_mat → fmpq_mat) (M : fmpq_mat)
    (h1 : RrefOf M (fmpq_mat_rref M))
    (h2 : RrefOf (kernel_unreduced fmpq_mat_rref M).2
      (fmpq_mat_rref (kernel_unreduced fmpq_mat_rref M).2)) :
    (rref fmpq_mat_rref M).2.length ≤ M.c ∧
    (kernel fmpq_mat_rref M).2.r = M.c - (toMatrix M).rank ∧
    (kernel fmpq_mat_rref M).2.c = M.c ∧
    LinearIndependent ℚ (fun i =>
      matAt (kernel fmpq_mat_rref M).2 (kernel fmpq_mat_rref M).2.r M.c i) ∧
    (∀ i, (toMatrix M).mulVec
      (matAt (kernel fmpq_mat_rref M).2 (kernel fmpq_mat_rref M).2.r M.c i) = 0) ∧
    Submodule.span ℚ (Set.range (fun i =>
      matAt (kernel fmpq_mat_rref M).2 (kernel fmpq_mat_rref M).2.r M.c i))
      = LinearMap.ker (toMatrix M).mulVecLin := by
  obtain ⟨hr, hc, rc1, rc2, k, p, hd⟩ := h1
  obtain ⟨hr2, hc2, rc3, rc4, _⟩ := h2
  obtain ⟨_, u2, u3, u4, _⟩ := kernel_unreduced_spec fmpq_mat_rref M k p hd
  rw [hc] at u3 u4
  have hkn : k ≤ M.c := hc ▸ rrefData_count _ k p hd
  have hKr : (kernel fmpq_mat_rref M).2.r = M.c - k := by
    show (fmpq_mat_rref (kernel_unreduced fmpq_mat_rref M).2).r = _
    rw [hr2, u3]
  have hKc : (kernel fmpq_mat_rref M).2.c = M.c := by
    show (fmpq_mat_rref (kernel_unreduced fmpq_mat_rref M).2).c = _
    rw [hc2, u4]
  obtain ⟨P, hP⟩ := rowCombination_mul M (fmpq_mat_rref M) M.r M.r M.c rc1
    (by rw [hr]) (by rw [hc]) rfl
  obtain ⟨Q, hQ⟩ := rowCombination_mul (fmpq_mat_rref M) M M.r M.r M.c rc2 le_rfl le_rfl hr
  obtain ⟨P2, hP2⟩ := rowCombination_mul (kernel_unreduced fmpq_mat_rref M).2
    (fmpq_mat_rref (kernel_unreduced fmpq_mat_rref M).2) (M.c - k) (M.c - k) M.c rc3
    (by rw [hr2, u3]) (by rw [hc2, u4]) u3
  obtain ⟨Q2, hQ2⟩ := rowCombination_mul (fmpq_mat_rref (kernel_unreduced fmpq_mat_rref M).2)
    (kernel_unreduced fmpq_mat_rref M).2 (M.c - k) (M.c - k) M.c rc4
    (by rw [u3]) (by rw [u4]) (by rw [hr2, u3])
  obtain ⟨Sel, hSel⟩ := select_rows (fmpq_mat_rref M) k M.r M.c (hr ▸ hd.1)
  have hneg : matAt (kernel fmpq_mat_rref M).2 (M.c - k) M.c
      = -matAt (fmpq_mat_rref (kernel_unreduced fmpq_mat_rref M).2) (M.c - k) M.c := rfl
  obtain ⟨c1, c2, c3, c4⟩ := kernel_basis_matrix (matAt M M.r M.c)
    (matAt (fmpq_mat_rref M) M.r M.c) (matAt (kernel fmpq_mat_rref M).2 (M.c - k) M.c)
    (matAt (kernel_unreduced fmpq_mat_rref M).2 (M.c - k) M.c)
    (matAt (fmpq_mat_rref M) k M.c) rfl hkn P Q hP hQ (-P2) (-Q2)
    (by rw [hneg, hP2, Matrix.neg_mul])
    (by rw [hneg, Matrix.neg_mul, Matrix.mul_neg, neg_neg]; exact hQ2)
    Sel hSel (pivot_rows_independent _ k p hd M.c hc)
    (unreduced_rows_independent fmpq_mat_rref M k p hd M.c hc)
    (unreduced_null fmpq_mat_rref M k p hd M.r M.c hr hc)
  have key : ∀ r, r = M.c - k →
      LinearIndependent ℚ (fun i => matAt (kernel fmpq_mat_rref M).2 r M.c i) ∧
      (∀ i, (toMatrix M).mulVec (matAt (kernel fmpq_mat_rref M).2 r M.c i) = 0) ∧
      Submodule.span ℚ (Set.range (fun i => matAt (kernel fmpq_mat_rref M).2 r M.c i))
        = LinearMap.ker (toMatrix M).mulVecLin := by
    intro r e
    subst e
    exact ⟨c2, c3, c4⟩
  have c1b : (toMatrix M).rank = k := c1
  refine ⟨?_, by rw [hKr, c1b], hKc, key _ hKr⟩
  rw [u2]
  simpa using hkn

/-- For the one-row matrix `(0 2 4)`, scaling the row is the reduced row echelon
form `(0 1 2)`. -/
theorem scale_rows_contract_row : RrefOf rowMatrix024 (scale_rows rowMatrix024) := by
  refine ⟨rfl, rfl, ⟨fun _ _ => 1 / 2, ?_⟩, ⟨fun _ _ => 2, ?_⟩, 1, fun _ => 1, ?_⟩
  · intro i hi j hj
    have hi2 : i < 1 := hi
    have hj2 : j < 3 := hj
    interval_cases i
    interval_cases j <;> with_unfolding_all rfl
  · intro i hi j hj
    have hi2 : i < 1 := hi
    have hj2 : j < 3 := hj
    interval_cases i
    interval_cases j <;> with_unfolding_all rfl
  · refine ⟨le_refl _, fun i hi => ?_, fun i j hij hj => by omega, fun i h1 h2 => ?_⟩
    · have : i = 0 := by omega
      subst this
      refine ⟨by decide, by with_unfolding_all rfl, fun j hj => ?_, fun i2 hi2 hne => ?_⟩
      · have hj2 : j < 1 := hj
        interval_cases j
        with_unfolding_all rfl
      · have hi3 : i2 < 1 := hi2
        omega
    · have : i < 1 := h2
      omega

/-- The matrix that `kernel` passes to `fmpq_mat_rref` for `(0 2 4)` has the
rows `(-1 0 0)` and `(0 2 -1)`; scaling its rows gives its reduced row echelon
form, with the rows `(1 0 0)` and `(0 1 -1/2)`. -/
theorem scale_rows_contract_kernel :
    RrefOf (kernel_unreduced scale_rows rowMatrix024).2
      (scale_rows (kernel_unreduced scale_rows rowMatrix024).2) := by
  have hr : (kernel_unreduced scale_rows rowMatrix024).2.r = 2 := by with_unfolding_all rfl
  have hc : (kernel_unreduced scale_rows rowMatrix024).2.c = 3 := by with_unfolding_all rfl
  have hr2 : (scale_rows (kernel_unreduced scale_rows rowMatrix024).2).r = 2 := hr
  have hc2 : (scale_rows (kernel_unreduced scale_rows rowMatrix024).2).c = 3 := hc
  refine ⟨rfl, rfl,
    ⟨fun i k => if i = k then (if i = 0 then -1 else 1 / 2) else 0, ?_⟩,
    ⟨fun i k => if i = k then (if i = 0 then -1 else 2) else 0, ?_⟩, 2, fun i => i, ?_⟩
  · intro i hi j hj
    rw [hr2] at hi
    rw [hc2] at hj
    interval_cases i <;> interval_cases j <;> with_unfolding_all rfl
  · intro i hi j hj
    rw [hr] at hi
    rw [hc] at hj
    interval_cases i <;> interval_cases j <;> with_unfolding_all rfl
  · refine ⟨by rw [hr2], fun i hi => ?_, fun i j hij hj => hij, fun i h1 h2 => ?_⟩
    · refine ⟨?_, ?_, fun j hj => ?_, fun i2 hi2 hne => ?_⟩
      · show i < _
        rw [hc2]
        omega
      · interval_cases i <;> with_unfolding_all rfl
      · have hj2 : j < i := hj
        interval_cases i
        · omega
        · interval_cases j
          with_unfolding_all rfl
      · rw [hr2] at hi2
        interval_cases i <;> interval_cases i2 <;>
          first | (exact absurd rfl hne) | with_unfolding_all rfl
    · rw [hr2] at h2
      omega

theorem kernel_basis_witness :
    (kernel scale_rows rowMatrix024).2.r = rowMatrix024.c - (toMatrix rowMatrix024).rank ∧
    LinearIndependent ℚ (fun i =>
      matAt (kernel scale_rows rowMatrix024).2 (kernel scale_rows rowMatrix024).2.r
        rowMatrix024.c i) ∧
    ∀ i, (toMatrix rowMatrix024).mulVec
      (matAt (kernel scale_rows rowMatrix024).2 (kernel scale_rows rowMatrix024).2.r
        rowMatrix024.c i) = 0 :=
  let h := kernel_basis scale_rows rowMatrix024 scale_rows_contract_row
    scale_rows_contract_kernel
  ⟨h.2.1, h.2.2.2.1, h.2.2.2.2.1⟩

/-! ## The levels of the extension gates -/

theorem modify_gate_keepsLevel (c : Circuit) (i : Nat) (f : Gate → Gate)
    (hf : ∀ g, KeepsLevel g (f g)) : SlotRel (fun _ g g2 => KeepsLevel g g2) c (c.modify_gate i f) := by
  refine slotRel_mono (modify_gate_slotRel c i f) ?_
  intro j g g2 h
  subst h
  by_cases hj : j = i
  · rw [if_pos hj]; exact hf g
  · rw [if_neg hj]; exact ⟨rfl, rfl, rfl⟩

theorem keepsLevel_trans (g g2 g3 : Gate) (h1 : KeepsLevel g g2) (h2 : KeepsLevel g2 g3) :
    KeepsLevel g g3 :=
  ⟨h2.1.trans h1.1, h2.2.1.trans h1.2.1, h2.2.2.trans h1.2.2⟩

theorem push_child_keepsLevel (c : Circuit) (i : Nat) (child : Option Gate) :
    SlotRel (fun _ g g2 => KeepsLevel g g2) c (push_child c i child) := by
  unfold push_child
  cases child with
  | none => exact slotRel_refl _ (fun _ _ => ⟨rfl, rfl, rfl⟩) c
  | some g => exact modify_gate_keepsLevel c i _ (fun _ => ⟨rfl, rfl, rfl⟩)

theorem push_parent_keepsLevel (c : Circuit) (j : Nat) (n : Gate) :
    SlotRel (fun _ g g2 => KeepsLevel g g2) c (push_parent c j n) :=
  modify_gate_keepsLevel c j _ (fun _ => ⟨rfl, rfl, rfl⟩)

theorem extension_parents_keepsLevel (i : Nat) (t : Term) :
    ∀ c c2, set_parents_and_children_of_extension_var c i t = .ok c2 →
      SlotRel (fun _ g g2 => KeepsLevel g g2) c c2 := by
  induction t with
  | nil =>
    intro c c2 h
    simp only [set_parents_and_children_of_extension_var, pure, Except.pure,
      Except.ok.injEq] at h
    subst h
    exact slotRel_refl _ (fun _ _ => ⟨rfl, rfl, rfl⟩) c
  | cons v t ih =>
    intro c c2 h
    rw [set_parents_and_children_of_extension_var] at h
    cases hg : derefGate c.gates[i]? with
    | error e => rw [hg] at h; cases h
    | ok g =>
      rw [hg, ok_bind] at h
      dsimp only at h
      cases hd : derefGate (gate (push_child c i (gate c v.num)) v.num) with
      | error e => rw [hd] at h; cases h
      | ok d =>
        rw [hd, ok_bind] at h
        have h1 := push_child_keepsLevel c i (gate c v.num)
        cases hj : gate_idx c.M v.num with
        | none =>
          rw [hj] at h
          exact slotRel_trans h1 (ih _ _ h) (fun _ a b c3 => keepsLevel_trans a b c3)
        | some j =>
          rw [hj] at h
          have h2 := push_parent_keepsLevel (push_child c i (gate c v.num)) j g
          have h3 := ih _ _ h
          exact slotRel_trans (slotRel_trans h1 h2 (fun _ a b c3 => keepsLevel_trans a b c3)) h3
            (fun _ a b c3 => keepsLevel_trans a b c3)

/-- One call of `extend_var_gates`: the table grows by one slot, which holds an
extension gate at level `-2 - 2 * extended_gates`; the gates before it keep
their levels. -/
theorem extend_var_gates_levels (s s2 : ExtState) (t t2 : Term)
    (h : extend_var_gates s t = .ok (s2, t2)) :
    s2.extended_gates = s.extended_gates + 1 ∧ SameAig s.c s2.c ∧
    s2.c.gates.length = s.c.gates.length + 1 ∧
    (∀ (j : Nat) (g : Gate), s.c.gates[j]? = some g →
      ∃ g2, s2.c.gates[j]? = some g2 ∧ KeepsLevel g g2) ∧
    ∃ g2, s2.c.gates[s.c.gates.length]? = some g2 ∧
      g2.level = -2 - 2 * (s.extended_gates : Int) ∧ g2.extension = true ∧ g2.input = false := by
  unfold extend_var_gates at h
  by_cases h1 : s.num_gates = s.size_gates
  · rw [if_pos h1] at h; cases h
  · rw [if_neg h1] at h
    by_cases h2 : t = []
    · simp only [h2, if_true] at h
      cases h
    · simp only [h2, if_false] at h
      cases hc : set_parents_and_children_of_extension_var
          { s.c with gates := s.c.gates ++
            [{ Gate.create ((s.c.M : Int) - s.num_gates - 1) (-2 - 2 * s.extended_gates)
                false false with extension := true }] } s.num_gates t with
      | error e => rw [hc] at h; cases h
      | ok c1 =>
        rw [hc, ok_bind] at h
        simp only [pure, Except.pure, Except.ok.injEq, Prod.mk.injEq] at h
        obtain ⟨hs, _⟩ := h
        subst hs
        obtain ⟨a1, a2, a3⟩ := extension_parents_keepsLevel _ _ _ _ hc
        have key : ∀ (j : Nat) (g : Gate), (s.c.gates ++
            [{ Gate.create ((s.c.M : Int) - s.num_gates - 1) (-2 - 2 * s.extended_gates)
                false false with extension := true }])[j]? = some g →
            ∃ g2, c1.gates[j]? = some g2 ∧ KeepsLevel g g2 := by
          intro j g hg
          have hlt : j < c1.gates.length := by
            rw [a2]
            by_contra hge
            rw [List.getElem?_eq_none (by simpa using hge)] at hg
            cases hg
          refine ⟨c1.gates[j], List.getElem?_eq_getElem hlt, ?_⟩
          exact a3 j g _ hg (List.getElem?_eq_getElem hlt)
        refine ⟨rfl, ?_, ?_, ?_, ?_⟩
        · exact ⟨a1.1, a1.2.1, a1.2.2.1, a1.2.2.2.1, a1.2.2.2.2.1, a1.2.2.2.2.2⟩
        · rw [a2]; simp
        · intro j g hg
          have hlt : j < s.c.gates.length := by
            by_contra hge
            rw [List.getElem?_eq_none (by omega)] at hg
            cases hg
          exact key j g (by rw [List.getElem?_append_left hlt]; exact hg)
        · obtain ⟨g2, e1, e2⟩ := key s.c.gates.length _ (List.getElem?_concat_length _ _)
          exact ⟨g2, e1, e2.1, e2.2.2, e2.2.1⟩

theorem extend_all_levels (ts : List Term) :
    ∀ s sE, extend_all s ts = .ok sE →
      sE.extended_gates = s.extended_gates + ts.length ∧ SameAig s.c sE.c ∧
      sE.c.gates.length = s.c.gates.length + ts.length ∧
      (∀ (j : Nat) (g : Gate), s.c.gates[j]? = some g →
        ∃ g2, sE.c.gates[j]? = some g2 ∧ KeepsLevel g g2) ∧
      ∀ i, i < ts.length → ∃ g2, sE.c.gates[s.c.gates.length + i]? = some g2 ∧
        g2.level = -2 - 2 * ((s.extended_gates : Int) + i) ∧ g2.extension = true ∧
        g2.input = false := by
  induction ts with
  | nil =>
    intro s sE h
    simp only [extend_all, List.foldlM_nil, pure, Except.pure, Except.ok.injEq] at h
    subst h
    exact ⟨rfl, sameAig_refl _, rfl, fun j g hg => ⟨g, hg, rfl, rfl, rfl⟩,
      fun i hi => absurd hi (by simp)⟩
  | cons t ts ih =>
    intro s sE h
    unfold extend_all at h
    rw [List.foldlM_cons] at h
    cases hr : extend_var_gates s t with
    | error e => rw [hr] at h; cases h
    | ok r =>
      rw [hr, ok_bind] at h
      have h2 : extend_all r.1 ts = .ok sE := h
      obtain ⟨b1, b2, b3, b4, b5⟩ := extend_var_gates_levels s r.1 t r.2 hr
      obtain ⟨c1, c2, c3, c4, c5⟩ := ih r.1 sE h2
      refine ⟨by rw [c1, b1, List.length_cons]; omega, sameAig_trans b2 c2,
        by rw [c3, b3, List.length_cons]; omega, fun j g hg => ?_, fun i hi => ?_⟩
      · obtain ⟨g1, e1, k1⟩ := b4 j g hg
        obtain ⟨g2, e2, k2⟩ := c4 j g1 e1
        exact ⟨g2, e2, keepsLevel_trans _ _ _ k1 k2⟩
      · cases i with
        | zero =>
          obtain ⟨g1, e1, l1, x1, i1⟩ := b5
          obtain ⟨g2, e2, k2⟩ := c4 _ g1 e1
          refine ⟨g2, by simpa using e2, ?_, by rw [k2.2.2, x1], by rw [k2.2.1, i1]⟩
          rw [k2.1, l1]
          push_cast
          ring
        | succ i =>
          obtain ⟨g2, e2, l2, x2, i2⟩ := c5 i (by simpa using hi)
          refine ⟨g2, ?_, ?_, x2, i2⟩
          · rw [← e2, b3]
            congr 1
            omega
          · rw [l2, b1]
            push_cast
            ring

/-- A loop that replaces the level of the gate in each slot of `l`. -/
theorem shift_levels_fold (newLevel : Circuit → Gate → Int)
    (hnew : ∀ a b g, SameAig a b → newLevel b g = newLevel a g) (l : List Nat) :
    ∀ c : Circuit, l.Nodup → (∀ i ∈ l, i < c.gates.length) →
      ∃ c2, l.foldlM (fun c i => do
          let g ← derefGate c.gates[i]?
          pure (c.modify_gate i (fun x => x.set_var_level (newLevel c g)))) c = .ok c2 ∧
        SlotRel (fun j g g2 =>
          g2 = if j ∈ l then g.set_var_level (newLevel c g) else g) c c2 := by
  induction l with
  | nil =>
    intro c _ _
    exact ⟨c, rfl, slotRel_refl _ (fun _ _ => by simp) c⟩
  | cons i l ih =>
    intro c hnd hlt
    have hi : i < c.gates.length := hlt i (List.mem_cons_self _ _)
    have hg : c.gates[i]? = some c.gates[i] := List.getElem?_eq_getElem hi
    obtain ⟨hil, hnd2⟩ := List.nodup_cons.1 hnd
    have h1 := modify_gate_slotRel c i (fun x => x.set_var_level (newLevel c c.gates[i]))
    obtain ⟨c2, e2, r2⟩ := ih (c.modify_gate i (fun x => x.set_var_level (newLevel c c.gates[i])))
      hnd2 (fun k hk => by rw [modify_gate_length]; exact hlt k (List.mem_cons_of_mem _ hk))
    refine ⟨c2, ?_, ?_⟩
    · rw [List.foldlM_cons, hg]
      exact e2
    · refine ⟨sameAig_trans h1.1 r2.1, r2.2.1.trans h1.2.1, ?_⟩
      intro j g g2 hj hj2
      have hjl : j < c.gates.length := by
        by_contra hge
        rw [List.getElem?_eq_none (by omega)] at hj
        cases hj
      have hm : (c.modify_gate i (fun x => x.set_var_level (newLevel c c.gates[i]))).gates[j]?
          = some (if j = i then g.set_var_level (newLevel c c.gates[i]) else g) := by
        rw [modify_gate_getElem]
        by_cases e : j = i
        · subst e
          rw [if_pos rfl, if_pos rfl, hj]
          rfl
        · rw [if_neg e, if_neg e, hj]
      have h3 := r2.2.2 j _ g2 hm hj2
      rw [h3, hnew _ _ _ h1.1]
      by_cases e : j = i
      · subst e
        rw [hg] at hj
        cases hj
        simp [hil]
      · simp [e]

/-- Function `adjust_level_of_extended_gates` returns; it lowers the levels of
the inputs by `2 * extended_gates + 2` and raises the levels of the gates after
the first `M - 1 + MM` slots by `2 * NN + 2`. -/
theorem adjust_level_spec (s : ExtState) (h1 : s.c.NN ≤ s.c.M - 1 + s.c.MM)
    (h2 : s.c.M - 1 + s.c.MM ≤ s.c.gates.length) :
    ∃ s2, adjust_level_of_extended_gates s = .ok s2 ∧
      s2.c.gates.length = s.c.gates.length ∧
      ∀ (j : Nat) (g : Gate), s.c.gates[j]? = some g →
        ∃ g2, s2.c.gates[j]? = some g2 ∧ g2.input = g.input ∧ g2.extension = g.extension ∧
          g2.level = if j < s.c.NN then g.level - 2 * (s.extended_gates : Int) - 2
            else if s.c.M - 1 + s.c.MM ≤ j then g.level + 2 * (s.c.NN : Int) + 2
            else g.level := by
  obtain ⟨c1, e1, r1⟩ := shift_levels_fold (fun c g => g.level + 2 * c.NN + 2)
    (fun a b g hab => by simp only [hab.1])
    (List.range' (s.c.M - 1 + s.c.MM) (s.num_gates - (s.c.M - 1 + s.c.MM))) s.c
    (List.nodup_range' _ _)
    (fun i hi => by
      rw [List.mem_range'_1] at hi
      unfold ExtState.num_gates at hi
      omega)
  obtain ⟨c2, e2, r2⟩ := shift_levels_fold (fun _ g => g.level - 2 * s.extended_gates - 2)
    (fun _ _ _ _ => rfl) (List.range s.c.NN) c1 (List.nodup_range _)
    (fun i hi => by
      rw [List.mem_range] at hi
      rw [r1.2.1]
      omega)
  refine ⟨{ s with c := c2 }, ?_, r2.2.1.trans r1.2.1, ?_⟩
  · unfold adjust_level_of_extended_gates
    rw [e1, ok_bind, e2]
    rfl
  · intro j g hg
    have hjl : j < s.c.gates.length := by
      by_contra hge
      rw [List.getElem?_eq_none (by omega)] at hg
      cases hg
    obtain ⟨x1, hj1⟩ : ∃ x, c1.gates[j]? = some x :=
      ⟨_, List.getElem?_eq_getElem (show j < c1.gates.length by rw [r1.2.1]; exact hjl)⟩
    obtain ⟨x2, hj2⟩ : ∃ x, c2.gates[j]? = some x :=
      ⟨_, List.getElem?_eq_getElem (show j < c2.gates.length by
        rw [r2.2.1, r1.2.1]; exact hjl)⟩
    have a1 := r1.2.2 j g _ hg hj1
    have a2 := r2.2.2 j _ _ hj1 hj2
    refine ⟨x2, hj2, ?_⟩
    rw [a2, a1]
    simp only [List.mem_range, List.mem_range'_1, ExtState.num_gates]
    by_cases c1 : j < s.c.NN
    · have : ¬ (s.c.M - 1 + s.c.MM ≤ j ∧
          j < s.c.M - 1 + s.c.MM + (s.c.gates.length - (s.c.M - 1 + s.c.MM))) := by omega
      simp [c1, this, Gate.set_var_level]
    · by_cases c3 : s.c.M - 1 + s.c.MM ≤ j
      · have : s.c.M - 1 + s.c.MM ≤ j ∧
          j < s.c.M - 1 + s.c.MM + (s.c.gates.length - (s.c.M - 1 + s.c.MM)) := by omega
        simp [c1, c3, this, Gate.set_var_level]
      · have : ¬ (s.c.M - 1 + s.c.MM ≤ j ∧
          j < s.c.M - 1 + s.c.MM + (s.c.gates.length - (s.c.M - 1 + s.c.MM))) := by omega
        simp [c1, c3, this, Gate.set_var_level]

/-- The levels after `E` calls of `extend_var_gates` and one call of
`adjust_level_of_extended_gates`, from a table with the inputs at the levels
2, 4, ..., `2 * NN` in the first `NN` slots and every other gate above
`2 * NN`: the inputs are at the levels up to `2 * NN - 2 * E - 2`, the extension
gates at `2 * NN - 2 * i` for `i < E`, and the other gates keep their levels. So
every input is below every extension gate and every extension gate is below
every other gate. (`allocate_gates` builds such a table unless it leaves a gate
at the placeholder level 0.) -/
theorem extension_levels_ordered (c : Circuit) (size_gates : Nat) (ts : List Term)
    (sE : ExtState) (hlen : c.gates.length = c.M - 1 + c.MM) (hNN : c.NN ≤ c.M - 1 + c.MM)
    (hin : ∀ (j : Nat) (g : Gate), c.gates[j]? = some g → j < c.NN →
      g.level = 2 * ((j : Int) + 1) ∧ g.input = true ∧ g.extension = false)
    (hint : ∀ (j : Nat) (g : Gate), c.gates[j]? = some g → c.NN ≤ j →
      2 * (c.NN : Int) < g.level ∧ g.input = false ∧ g.extension = false)
    (h1 : extend_all { c := c, size_gates := size_gates, extended_gates := 0 } ts = .ok sE) :
    ∃ sF, adjust_level_of_extended_gates sE = .ok sF ∧
      (∀ (j : Nat) (g : Gate), sF.c.gates[j]? = some g →
        (j < c.NN ∧ g.input = true ∧ g.extension = false ∧
          g.level = 2 * ((j : Int) + 1) - 2 * (ts.length : Int) - 2) ∨
        (c.NN ≤ j ∧ j < c.gates.length ∧ g.input = false ∧ g.extension = false ∧
          ∃ g0, c.gates[j]? = some g0 ∧ g.level = g0.level) ∨
        (c.gates.length ≤ j ∧ j < c.gates.length + ts.length ∧ g.input = false ∧
          g.extension = true ∧
          g.level = 2 * (c.NN : Int) - 2 * ((j : Int) - (c.gates.length : Int)))) ∧
      ∀ gi ∈ sF.c.gates, ∀ ge ∈ sF.c.gates, ∀ gj ∈ sF.c.gates,
        gi.input = true → ge.extension = true → gj.input = false → gj.extension = false →
          gi.level < ge.level ∧ ge.level < gj.level := by
  obtain ⟨a1, a2, a3, a4, a5⟩ := extend_all_levels ts _ sE h1
  simp only [Nat.zero_add, Nat.cast_zero, zero_add] at a1 a3 a4 a5
  have hNN2 : sE.c.NN = c.NN := a2.1
  have hM2 : sE.c.M = c.M := a2.2.1
  have hMM2 : sE.c.MM = c.MM := a2.2.2.1
  obtain ⟨sF, e1, r0, r1⟩ := adjust_level_spec sE (by rw [hNN2, hM2, hMM2]; exact hNN)
    (by rw [hM2, hMM2, a3, ← hlen]; omega)
  rw [hNN2, hM2, hMM2, a1, ← hlen] at r1
  have hNl : c.NN ≤ c.gates.length := by rw [hlen]; exact hNN
  have key : ∀ (j : Nat) (g : Gate), sF.c.gates[j]? = some g →
      (j < c.NN ∧ g.input = true ∧ g.extension = false ∧
        g.level = 2 * ((j : Int) + 1) - 2 * (ts.length : Int) - 2) ∨
      (c.NN ≤ j ∧ j < c.gates.length ∧ g.input = false ∧ g.extension = false ∧
        ∃ g0, c.gates[j]? = some g0 ∧ g.level = g0.level) ∨
      (c.gates.length ≤ j ∧ j < c.gates.length + ts.length ∧ g.input = false ∧
        g.extension = true ∧
        g.level = 2 * (c.NN : Int) - 2 * ((j : Int) - (c.gates.length : Int))) := by
    intro j g hg
    have hj : j < c.gates.length + ts.length := by
      by_contra hge
      rw [List.getElem?_eq_none (by rw [r0, a3]; omega)] at hg
      cases hg
    by_cases hjc : j < c.gates.length
    · obtain ⟨g0, hg0⟩ : ∃ x, c.gates[j]? = some x := ⟨_, List.getElem?_eq_getElem hjc⟩
      obtain ⟨gE, hgE, k⟩ := a4 j g0 hg0
      obtain ⟨g2, hg2, i2, x2, l2⟩ := r1 j gE hgE
      rw [hg] at hg2
      cases hg2
      by_cases hjn : j < c.NN
      · obtain ⟨b1, b2, b3⟩ := hin j g0 hg0 hjn
        refine Or.inl ⟨hjn, by rw [i2, k.2.1, b2], by rw [x2, k.2.2, b3], ?_⟩
        rw [l2, if_pos hjn, k.1, b1]
      · obtain ⟨b1, b2, b3⟩ := hint j g0 hg0 (by omega)
        refine Or.inr (Or.inl ⟨by omega, hjc, by rw [i2, k.2.1, b2], by rw [x2, k.2.2, b3],
          g0, hg0, ?_⟩)
        rw [l2, if_neg hjn, if_neg (by omega), k.1]
    · obtain ⟨gE, hgE, l1, x1, i1⟩ := a5 (j - c.gates.length) (by omega)
      rw [show c.gates.length + (j - c.gates.length) = j by omega] at hgE
      obtain ⟨g2, hg2, i2, x2, l2⟩ := r1 j gE hgE
      rw [hg] at hg2
      cases hg2
      refine Or.inr (Or.inr ⟨by omega, hj, by rw [i2, i1], by rw [x2, x1], ?_⟩)
      rw [l2, if_neg (by omega), if_pos (by omega), l1]
      push_cast [Nat.cast_sub (show c.gates.length ≤ j by omega)]
      ring
  refine ⟨sF, e1, key, ?_⟩
  intro gi hgi ge hge gj hgj hi he hj1 hj2
  obtain ⟨ji, hji⟩ := List.getElem?_of_mem hgi
  obtain ⟨je, hje⟩ := List.getElem?_of_mem hge
  obtain ⟨jj, hjj⟩ := List.getElem?_of_mem hgj
  rcases key ji gi hji with ⟨p1, _, _, p4⟩ | ⟨_, _, p3, _⟩ | ⟨_, _, p3, _⟩
  · rcases key je ge hje with ⟨_, _, q3, _⟩ | ⟨_, _, _, q4, _⟩ | ⟨q1, q2, _, _, q5⟩
    · rw [q3] at he; cases he
    · rw [q4] at he; cases he
    · rcases key jj gj hjj with ⟨_, s2, _⟩ | ⟨s1, _, _, _, g0, s5, s6⟩ | ⟨_, _, _, s4, _⟩
      · rw [s2] at hj1; cases hj1
      · have := (hint jj g0 s5 s1).1
        rw [p4, q5, s6]
        constructor <;> omega
      · rw [s4] at hj2; cases hj2
  · rw [p3] at hi; cases hi
  · rw [p3] at hi; cases hi

/-- With the start levels even and pairwise distinct, the levels after the
extension are even and pairwise distinct, so that the levels of the primary
variables and of the dual variables (one above their primary) are pairwise
distinct. -/
theorem extension_levels_distinct (c : Circuit) (size_gates : Nat) (ts : List Term)
    (sE sF : ExtState) (hlen : c.gates.length = c.M - 1 + c.MM)
    (hNN : c.NN ≤ c.M - 1 + c.MM)
    (hin : ∀ (j : Nat) (g : Gate), c.gates[j]? = some g → j < c.NN →
      g.level = 2 * ((j : Int) + 1) ∧ g.input = true ∧ g.extension = false)
    (hint : ∀ (j : Nat) (g : Gate), c.gates[j]? = some g → c.NN ≤ j →
      2 * (c.NN : Int) < g.level ∧ g.input = false ∧ g.extension = false)
    (hev : ∀ (j : Nat) (g : Gate), c.gates[j]? = some g → g.level % 2 = 0)
    (hdis : ∀ (j1 j2 : Nat) (g1 g2 : Gate), c.gates[j1]? = some g1 → c.gates[j2]? = some g2 →
      g1.level = g2.level → j1 = j2)
    (h1 : extend_all { c := c, size_gates := size_gates, extended_gates := 0 } ts = .ok sE)
    (h2 : adjust_level_of_extended_gates sE = .ok sF) :
    (∀ (j : Nat) (g : Gate), sF.c.gates[j]? = some g → g.level % 2 = 0) ∧
    ∀ (j1 j2 : Nat) (g1 g2 : Gate), sF.c.gates[j1]? = some g1 → sF.c.gates[j2]? = some g2 →
      g1.level = g2.level → j1 = j2 := by
  obtain ⟨sF2, e, key, _⟩ := extension_levels_ordered c size_gates ts sE hlen hNN hin hint h1
  rw [h2] at e
  cases e
  constructor
  · intro j g hg
    rcases key j g hg with ⟨_, _, _, p⟩ | ⟨_, _, _, _, g0, p5, p6⟩ | ⟨_, _, _, _, p⟩
    · rw [p]; omega
    · rw [p6]; exact hev j g0 p5
    · rw [p]; omega
  · intro j1 j2 g1 g2 hg1 hg2 hl
    rcases key j1 g1 hg1 with ⟨p1, _, _, p4⟩ | ⟨p1, _, _, _, g0, p5, p6⟩ | ⟨p1, p2, _, _, p5⟩ <;>
    rcases key j2 g2 hg2 with ⟨q1, _, _, q4⟩ | ⟨q1, _, _, _, k0, q5, q6⟩ | ⟨q1, q2, _, _, q5⟩
    · rw [p4, q4] at hl; omega
    · have := (hint j2 k0 q5 q1).1
      rw [p4, q6] at hl; omega
    · rw [p4, q5] at hl; omega
    · have := (hint j1 g0 p5 p1).1
      rw [p6, q4] at hl; omega
    · rw [p6, q6] at hl
      exact hdis j1 j2 g0 k0 p5 q5 hl
    · have := (hint j1 g0 p5 p1).1
      rw [p6, q5] at hl; omega
    · rw [p5, q4] at hl; omega
    · have := (hint j2 k0 q5 q1).1
      rw [p5, q6] at hl; omega
    · rw [p5, q5] at hl; omega

/-- The table of `dupAndAig` is levelled as `extension_levels_ordered` asks; after
one extension (for the term `y * x`) and the adjustment the inputs are below
the extension gate, which is below every other gate. -/
theorem extension_levels_ordered_example :
    ∃ sE sF, extend_all { c := dupAndTable, size_gates := 10, extended_gates := 0 }
        [[⟨4, 4, false⟩, ⟨2, 2, false⟩]] = .ok sE ∧
      adjust_level_of_extended_gates sE = .ok sF ∧
      ∀ gi ∈ sF.c.gates, ∀ ge ∈ sF.c.gates, ∀ gj ∈ sF.c.gates,
        gi.input = true → ge.extension = true → gj.input = false → gj.extension = false →
          gi.level < ge.level ∧ ge.level < gj.level := by
  have hin : ∀ (j : Nat) (g : Gate), dupAndTable.gates[j]? = some g → j < dupAndTable.NN →
      g.level = 2 * ((j : Int) + 1) ∧ g.input = true ∧ g.extension = false := by
    intro j g hg hj
    have hj2 : j < 2 := hj
    interval_cases j <;> simp [dupAndTable] at hg <;> subst hg <;> decide
  have hint : ∀ (j : Nat) (g : Gate), dupAndTable.gates[j]? = some g → dupAndTable.NN ≤ j →
      2 * (dupAndTable.NN : Int) < g.level ∧ g.input = false ∧ g.extension = false := by
    intro j g hg hj
    have hj2 : 2 ≤ j := hj
    have hj3 : j < 8 := by
      by_contra hge
      rw [List.getElem?_eq_none (by simp [dupAndTable]; omega)] at hg
      cases hg
    interval_cases j <;> simp [dupAndTable] at hg <;> subst hg <;> decide
  obtain ⟨sF, e, _, ord⟩ := extension_levels_ordered dupAndTable 10
    [[⟨4, 4, false⟩, ⟨2, 2, false⟩]] _ rfl (by decide) hin hint rfl
  exact ⟨_, sF, rfl, e, ord⟩

/-! ## `multiply_term` on sorted terms -/

theorem termSorted_append_cons (acc : List Var) (a : Var) (r : Term)
    (h : TermSorted (acc ++ a :: r)) : TermSorted ((acc ++ [a]) ++ r) := by
  simpa using h

theorem multiply_term_loop_spec (t1 t2 : Term) (acc : List Var)
    (hd : LevelsDistinct (t1 ++ t2)) (h1 : TermSorted (acc ++ t1)) (h2 : TermSorted (acc ++ t2)) :
    TermSorted (multiply_term_loop t1 t2 acc) ∧
      ∀ x, x ∈ multiply_term_loop t1 t2 acc ↔ x ∈ acc ∨ x ∈ t1 ∨ x ∈ t2 := by
  induction t1, t2, acc using multiply_term_loop.induct with
  | case1 a r1 b r2 vs hgt ih =>
    rw [multiply_term_loop, if_pos hgt]
    have hd2 : LevelsDistinct (r1 ++ b :: r2) := by
      intro v hv w hw e
      exact hd v (by simp at hv ⊢; tauto) w (by simp at hw ⊢; tauto) e
    have s1 : TermSorted ((vs ++ [a]) ++ r1) := termSorted_append_cons vs a r1 h1
    have s2 : TermSorted ((vs ++ [a]) ++ b :: r2) := by
      unfold TermSorted at h1 h2 ⊢
      rw [List.append_assoc, List.pairwise_append] at *
      obtain ⟨p1, p2, p3⟩ := h1
      obtain ⟨q1, q2, q3⟩ := h2
      refine ⟨q1, ?_, ?_⟩
      · rw [List.singleton_append, List.pairwise_cons]
        refine ⟨?_, q2⟩
        intro x hx
        rcases List.mem_cons.1 hx with e | hx2
        · rw [e]; exact hgt
        · have := (List.pairwise_cons.1 q2).1 x hx2
          omega
      · intro x hx y hy
        rcases List.mem_cons.1 hy with e | hy2
        · rw [e]; exact p3 x hx a (by simp)
        · exact q3 x hx y hy2
    obtain ⟨i1, i2⟩ := ih hd2 s1 s2
    refine ⟨i1, fun x => ?_⟩
    rw [i2]
    simp only [List.mem_append, List.mem_singleton, List.mem_cons]
    tauto
  | case2 a r1 b r2 vs hgt hlt ih =>
    rw [multiply_term_loop, if_neg hgt, if_pos hlt]
    have hd2 : LevelsDistinct (a :: r1 ++ r2) := by
      intro v hv w hw e
      exact hd v (by simp at hv ⊢; tauto) w (by simp at hw ⊢; tauto) e
    have s2 : TermSorted ((vs ++ [b]) ++ r2) := termSorted_append_cons vs b r2 h2
    have s1 : TermSorted ((vs ++ [b]) ++ a :: r1) := by
      unfold TermSorted at h1 h2 ⊢
      rw [List.append_assoc, List.pairwise_append] at *
      obtain ⟨p1, p2, p3⟩ := h1
      obtain ⟨q1, q2, q3⟩ := h2
      refine ⟨p1, ?_, ?_⟩
      · rw [List.singleton_append, List.pairwise_cons]
        refine ⟨?_, p2⟩
        intro x hx
        rcases List.mem_cons.1 hx with e | hx2
        · rw [e]; exact hlt
        · have := (List.pairwise_cons.1 p2).1 x hx2
          omega
      · intro x hx y hy
        rcases List.mem_cons.1 hy with e | hy2
        · rw [e]; exact q3 x hx b (by simp)
        · exact p3 x hx y hy2
    obtain ⟨i1, i2⟩ := ih hd2 s1 s2
    refine ⟨i1, fun x => ?_⟩
    rw [i2]
    simp only [List.mem_append, List.mem_singleton, List.mem_cons]
    tauto
  | case3 a r1 b r2 vs hgt hlt ih =>
    rw [multiply_term_loop, if_neg hgt, if_neg hlt]
    have hab : a = b := hd a (by simp) b (by simp) (by omega)
    have hd2 : LevelsDistinct (r1 ++ r2) := by
      intro v hv w hw e
      exact hd v (by simp at hv ⊢; tauto) w (by simp at hw ⊢; tauto) e
    have s1 : TermSorted ((vs ++ [a]) ++ r1) := termSorted_append_cons vs a r1 h1
    have s2 : TermSorted ((vs ++ [a]) ++ r2) := by
      rw [hab]; exact termSorted_append_cons vs b r2 h2
    obtain ⟨i1, i2⟩ := ih hd2 s1 s2
    refine ⟨i1, fun x => ?_⟩
    rw [i2]
    simp only [List.mem_append, List.mem_singleton, List.mem_cons]
    rw [hab]
    tauto
  | case4 a r1 vs ih =>
    rw [multiply_term_loop]
    have hd2 : LevelsDistinct (r1 ++ []) := by
      intro v hv w hw e
      exact hd v (by simp at hv ⊢; tauto) w (by simp at hw ⊢; tauto) e
    have s1 : TermSorted ((vs ++ [a]) ++ r1) := termSorted_append_cons vs a r1 h1
    have s2 : TermSorted ((vs ++ [a]) ++ []) := by
      rw [List.append_nil]
      unfold TermSorted at s1 ⊢
      exact (List.pairwise_append.1 s1).1
    obtain ⟨i1, i2⟩ := ih hd2 s1 s2
    refine ⟨i1, fun x => ?_⟩
    rw [i2]
    simp only [List.mem_append, List.mem_singleton, List.mem_cons, List.not_mem_nil]
    tauto
  | case5 b r2 vs ih =>
    rw [multiply_term_loop]
    have hd2 : LevelsDistinct ([] ++ r2) := by
      intro v hv w hw e
      exact hd v (by simp at hv ⊢; tauto) w (by simp at hw ⊢; tauto) e
    have s2 : TermSorted ((vs ++ [b]) ++ r2) := termSorted_append_cons vs b r2 h2
    have s1 : TermSorted ((vs ++ [b]) ++ []) := by
      rw [List.append_nil]
      unfold TermSorted at s2 ⊢
      exact (List.pairwise_append.1 s2).1
    obtain ⟨i1, i2⟩ := ih hd2 s1 s2
    refine ⟨i1, fun x => ?_⟩
    rw [i2]
    simp only [List.mem_append, List.mem_singleton, List.mem_cons, List.not_mem_nil]
    tauto
  | case6 vs =>
    rw [multiply_term_loop]
    refine ⟨by simpa using h1, fun x => by simp⟩

/-- The product of two non-empty sorted terms whose variables are told apart by
their levels is the sorted term of the variables of both. -/
theorem multiply_term_spec (t1 t2 : Term) (hn1 : t1 ≠ []) (hn2 : t2 ≠ [])
    (hd : LevelsDistinct (t1 ++ t2)) (h1 : TermSorted t1) (h2 : TermSorted t2) :
    TermSorted (multiply_term t1 t2) ∧ ∀ x, x ∈ multiply_term t1 t2 ↔ x ∈ t1 ∨ x ∈ t2 := by
  unfold multiply_term
  rw [if_neg (by simp [hn1, hn2])]
  split_ifs with h
  · exact ⟨h1, fun x => by rw [← h]; simp⟩
  · rw [build_term_from_stack_eq]
    obtain ⟨a, b⟩ := multiply_term_loop_spec t1 t2 [] hd (by simpa using h1) (by simpa using h2)
    exact ⟨a, fun x => by rw [b]; simp⟩

/-- The term `multiply_poly_with_term` gives to a monomial with term `u`: `t`
for the constant, the product otherwise. For sorted terms it is the sorted term
of the variables of both. -/
theorem times_term_spec (t u : Term) (ht : t ≠ []) (hts : TermSorted t) (hus : TermSorted u)
    (hd : LevelsDistinct (u ++ t)) :
    TermSorted (if u = [] then t else multiply_term u t) ∧
      ∀ x, x ∈ (if u = [] then t else multiply_term u t) ↔ x ∈ u ∨ x ∈ t := by
  by_cases hu : u = []
  · rw [if_pos hu, hu]
    exact ⟨hts, fun x => by simp⟩
  · rw [if_neg hu]
    exact multiply_term_spec u t hu ht hd hus hts

theorem times_term_ne_nil (t u : Term) (ht : t ≠ []) (hts : TermSorted t) (hus : TermSorted u)
    (hd : LevelsDistinct (u ++ t)) : (if u = [] then t else multiply_term u t) ≠ [] := by
  intro e
  cases t with
  | nil => exact ht rfl
  | cons y r =>
    have := ((times_term_spec (y :: r) u ht hts hus hd).2 y).2 (Or.inr (by simp))
    rw [e] at this
    simp at this

theorem times_term_without (t u : Term) (ht : t ≠ []) (hts : TermSorted t) (hus : TermSorted u)
    (hd : LevelsDistinct (u ++ t)) (hf : ∀ x ∈ t, x ∉ u) :
    termWithout (if u = [] then t else multiply_term u t) t = u := by
  obtain ⟨h1, h2⟩ := times_term_spec t u ht hts hus hd
  apply termSorted_ext _ _ (termWithout_sorted _ _ h1) hus
  intro x
  rw [mem_termWithout, h2]
  constructor
  · rintro ⟨h | h, hn⟩
    · exact h
    · exact absurd h hn
  · intro h
    exact ⟨Or.inl h, fun hx => hf x hx h⟩

/-- Multiplying two sorted terms by a non-empty sorted term of variables that
occur in neither keeps their order. -/
theorem times_term_cmp (t a b : Term) (ht : t ≠ []) (hts : TermSorted t)
    (has : TermSorted a) (hbs : TermSorted b) (hd : LevelsDistinct (a ++ b ++ t))
    (hfa : ∀ x ∈ t, x ∉ a) (hfb : ∀ x ∈ t, x ∉ b) (h : cmp_term a b = 1) :
    cmp_term (if a = [] then t else multiply_term a t)
      (if b = [] then t else multiply_term b t) = 1 := by
  have hda : LevelsDistinct (a ++ t) := fun v hv w hw e =>
    hd v (by simp at hv ⊢; tauto) w (by simp at hw ⊢; tauto) e
  have hdb : LevelsDistinct (b ++ t) := fun v hv w hw e =>
    hd v (by simp at hv ⊢; tauto) w (by simp at hw ⊢; tauto) e
  obtain ⟨sa, ma⟩ := times_term_spec t a ht hts has hda
  obtain ⟨sb, mb⟩ := times_term_spec t b ht hts hbs hdb
  have wa := times_term_without t a ht hts has hda hfa
  have wb := times_term_without t b ht hts hbs hdb hfb
  have na := times_term_ne_nil t a ht hts has hda
  have nb := times_term_ne_nil t b ht hts hbs hdb
  generalize (if a = [] then t else multiply_term a t) = A at *
  generalize (if b = [] then t else multiply_term b t) = B at *
  have hAB : ∀ v ∈ A ++ B, v ∈ a ++ b ++ t := by
    intro v hv
    rcases List.mem_append.1 hv with h1 | h1
    · rcases (ma v).1 h1 with h2 | h2 <;> simp [h2]
    · rcases (mb v).1 h1 with h2 | h2 <;> simp [h2]
  rcases cmp_term_vals A B with h1 | h1 | h1
  · exact h1
  · exfalso
    have e : A = B := cmp_term_eq_zero (a ++ b ++ t) hd A B
      (fun v hv => hAB v (by simp [hv])) (fun v hv => hAB v (by simp [hv])) h1
    have : a = b := by rw [← wa, ← wb, e]
    rw [this] at h
    exact cmp_term_self_ne_one b h
  · exfalso
    have h2 : cmp_term B A = 1 := cmp_term_neg_flip A B nb h1
    have h3 := cmp_term_without t B A sb sa
      (fun v hv w hw e => hd v (hAB v (by simp at hv ⊢; tauto)) w (hAB w (by simp at hw ⊢; tauto)) e)
      (fun x hx => (mb x).2 (Or.inr hx)) (fun x hx => (ma x).2 (Or.inr hx)) na h2
    rw [wa, wb] at h3
    have h4 := cmp_term_asymm a b h
    rw [h3] at h4
    exact absurd h4 (by decide)

/-- On a polynomial object without zero coefficients `multiply_poly_with_term`
with a non-null term returns the monomials with their terms multiplied, in the
order of the operand. -/
theorem multiply_poly_with_term_mons (a : Polynomial) (t : Term) (ht : t ≠ [])
    (h0 : ∀ m ∈ a.mon, m.coeff ≠ 0) :
    multiply_poly_with_term (some a) t = .ok (build_poly (timesTerm t a.mon).reverse) := by
  have e1 : a.mon.foldl (fun st m => push_mstack_end st
      { coeff := m.coeff, term := if m.term = [] then t else multiply_term m.term t }) []
      = (timesTerm t a.mon).foldl push_mstack_end [] := by
    simp only [timesTerm, List.foldl_map]
  unfold multiply_poly_with_term
  rw [if_neg ht]
  show Except.ok (build_poly _) = _
  rw [e1, foldl_push_end_eq, List.append_nil]
  intro m hm
  simp only [timesTerm, List.mem_map] at hm
  obtain ⟨x, hx, rfl⟩ := hm
  exact h0 x hx

/-- Multiplying a normal form by a term of fresh variables gives a normal form. -/
theorem timesTerm_nf (t : Term) (l : List Monomial) (ht : t ≠ []) (hts : TermSorted t)
    (hl : NormalForm l) (hs : TermsSorted l) (hd : LevelsDistinct (varsOf l ++ t))
    (hf : ∀ x ∈ t, x ∉ varsOf l) : NormalForm (timesTerm t l) := by
  refine ⟨?_, ?_⟩
  · intro m hm
    simp only [timesTerm, List.mem_map] at hm
    obtain ⟨x, hx, rfl⟩ := hm
    exact hl.1 x hx
  · unfold timesTerm
    rw [List.pairwise_map]
    have hp : l.Pairwise (fun a b => a ∈ l ∧ b ∈ l ∧ cmp_term a.term b.term = 1) := by
      have := List.Pairwise.and_mem.1 hl.2
      exact this.imp (fun {a b} h => ⟨h.1, h.2.1, h.2.2⟩)
    refine hp.imp ?_
    intro x y ⟨hx, hy, hxy⟩
    apply times_term_cmp t x.term y.term ht hts (hs x hx) (hs y hy) _ _ _ hxy
    · intro v hv w hw e
      refine hd v ?_ w ?_ e
      · simp only [List.mem_append] at hv ⊢
        rcases hv with (h | h) | h
        · exact Or.inl (mem_varsOf l x v hx h)
        · exact Or.inl (mem_varsOf l y v hy h)
        · exact Or.inr h
      · simp only [List.mem_append] at hw ⊢
        rcases hw with (h | h) | h
        · exact Or.inl (mem_varsOf l x w hx h)
        · exact Or.inl (mem_varsOf l y w hy h)
        · exact Or.inr h
    · exact fun v hv h => hf v hv (mem_varsOf l x v hx h)
    · exact fun v hv h => hf v hv (mem_varsOf l y v hy h)

/-- When no variable of the non-empty sorted term `t` occurs in the normal-form
polynomial object `p` (sorted terms, levels identifying the variables),
`multiply_poly_with_term(p, t)` returns a normal-form polynomial: the monomials
of `p` with `t` multiplied into every term, in the same order. -/
theorem multiply_poly_with_term_fresh (p : Polynomial) (t : Term) (hp : p.WF)
    (hs : TermsSorted p.mon) (ht : t ≠ []) (hts : TermSorted t)
    (hd : LevelsDistinct (varsOf p.mon ++ t)) (hf : ∀ x ∈ t, x ∉ varsOf p.mon) :
    ∃ r, multiply_poly_with_term (some p) t = .ok r ∧ PolyNF r ∧
      mons r = timesTerm t p.mon := by
  refine ⟨_, multiply_poly_with_term_mons p t ht hp.2.1.1, ?_, ?_⟩
  · apply build_poly_nf
    have := timesTerm_nf t p.mon ht hts hp.2.1 hs hd hf
    exact (stackNF_iff_reverse _).2 (by simpa using this)
  · rw [mons_build_poly, List.reverse_reverse]

theorem multiply_poly_with_term_fresh_example :
    ∃ r, multiply_poly_with_term
        (some ⟨[⟨2, [⟨6, 6, false⟩, ⟨4, 4, false⟩]⟩, ⟨3, [⟨2, 2, false⟩]⟩, ⟨5, []⟩], 2⟩)
        [⟨5, 5, false⟩] = .ok r ∧ PolyNF r :=
  have h := multiply_poly_with_term_fresh
    ⟨[⟨2, [⟨6, 6, false⟩, ⟨4, 4, false⟩]⟩, ⟨3, [⟨2, 2, false⟩]⟩, ⟨5, []⟩], 2⟩
    [⟨5, 5, false⟩] (by decide) (by decide) (by decide) (by decide) (by decide) (by decide)
  ⟨h.choose, h.choose_spec.1, h.choose_spec.2.1⟩

/-- C32: `multiply_poly_with_term` does not return a normal form for every
normal-form polynomial and non-empty term. The polynomial `-n - g*b + b` (the
unflipped constraint of the AND gate `n = !g & b`, levels 6, 4 and 2) is in
normal form with sorted terms; multiplied by the term `g` it becomes the array
`-n*g - g*b + g*b`, in which two monomials carry the term `g*b`: the monomials
are pushed with `push_mstack_end`, which does not merge equal terms. The terms do
not strictly decrease and the two monomials with term `g*b` would cancel. -/
theorem multiply_poly_with_term_not_normal_form :
    Polynomial.WF ⟨[⟨-1, [⟨6, 6, false⟩]⟩, ⟨-1, [⟨4, 4, false⟩, ⟨2, 2, false⟩]⟩,
      ⟨1, [⟨2, 2, false⟩]⟩], 2⟩ ∧
    TermsSorted [⟨-1, [⟨6, 6, false⟩]⟩, ⟨-1, [⟨4, 4, false⟩, ⟨2, 2, false⟩]⟩,
      ⟨1, [⟨2, 2, false⟩]⟩] ∧
    multiply_poly_with_term
      (some ⟨[⟨-1, [⟨6, 6, false⟩]⟩, ⟨-1, [⟨4, 4, false⟩, ⟨2, 2, false⟩]⟩,
        ⟨1, [⟨2, 2, false⟩]⟩], 2⟩) [⟨4, 4, false⟩]
      = .ok (some ⟨[⟨-1, [⟨6, 6, false⟩, ⟨4, 4, false⟩]⟩,
          ⟨-1, [⟨4, 4, false⟩, ⟨2, 2, false⟩]⟩, ⟨1, [⟨4, 4, false⟩, ⟨2, 2, false⟩]⟩], 2⟩) ∧
    ¬ PolyNF (some ⟨[⟨-1, [⟨6, 6, false⟩, ⟨4, 4, false⟩]⟩,
          ⟨-1, [⟨4, 4, false⟩, ⟨2, 2, false⟩]⟩, ⟨1, [⟨4, 4, false⟩, ⟨2, 2, false⟩]⟩], 2⟩) ∧
    coeffAt [⟨-1, [⟨6, 6, false⟩, ⟨4, 4, false⟩]⟩,
          ⟨-1, [⟨4, 4, false⟩, ⟨2, 2, false⟩]⟩, ⟨1, [⟨4, 4, false⟩, ⟨2, 2, false⟩]⟩]
        [⟨4, 4, false⟩, ⟨2, 2, false⟩] = 0 := by
  refine ⟨by decide, by decide, ?_, by decide, by decide⟩
  rw [multiply_poly_with_term_mons _ _ (by decide) (by decide)]
  simp [timesTerm, multiply_term, multiply_term_loop, build_term_from_stack, build_poly,
    build_poly_deg, Term.degree, new_term]

/-! ## Flipping by a variable and then by its dual -/

theorem lin_congr_mem (f g : Term → Int) (l : List Monomial)
    (h : ∀ m ∈ l, f m.term = g m.term) : lin f l = lin g l := by
  induction l with
  | nil => rfl
  | cons m l ih =>
    rw [lin_cons, lin_cons, h m (by simp), ih (fun e he => h e (List.mem_cons_of_mem _ he))]

/-- For a sorted term `t` and a variable `w` that does not occur in it (nor its
dual), `multiply_term_by_var(t, w)` is the sorted term of the variables of `t`
and `w`. -/
theorem multiply_term_by_var_spec (t : Term) (w : Var) (hts : TermSorted t)
    (hd : LevelsDistinct (t ++ [w])) (hn : w.get_dual ∉ t) :
    TermSorted (multiply_term_by_var t w) ∧
      ∀ x, x ∈ multiply_term_by_var t w ↔ x ∈ t ∨ x = w := by
  unfold multiply_term_by_var
  by_cases h1 : t = []
  · rw [if_pos h1, h1]
    exact ⟨by simp [new_term, TermSorted], fun x => by simp [new_term]⟩
  · have h2 : ¬ Term.contains t w.get_dual = true := fun hc => hn ((term_contains_iff _ _).1 hc)
    rw [if_neg h1, if_neg h2]
    obtain ⟨a, b⟩ := multiply_term_spec t (new_term w []) h1 (by simp [new_term])
      (by simpa [new_term] using hd) hts (by simp [new_term, TermSorted])
    exact ⟨a, fun x => by rw [b]; simp [new_term]⟩

theorem flipMons_single (v : Var) (c : Int) (u : Term) :
    flipMons v [⟨c, u⟩] =
      if v ∈ u then
        [Monomial.mk (-c) (multiply_term_by_var (termWithout u [v]) v.get_dual),
          Monomial.mk c (termWithout u [v])]
      else [⟨c, u⟩] := by
  simp [flipMons]

/-- The replacement of `v` is linear: its image under a functional is the image
of the original under the functional composed with the replacement on a term. -/
theorem lin_flipMons (g : Term → Int) (v : Var) (l : List Monomial) :
    lin g (flipMons v l) = lin (fun u => lin g (flipMons v [⟨1, u⟩])) l := by
  induction l with
  | nil => rfl
  | cons m l ih =>
    rw [lin_cons, ← ih]
    by_cases hv : v ∈ m.term
    · rw [flipMons_cons_pos v m l hv, lin_cons, lin_cons, flipMons_single, if_pos hv]
      simp only [lin_cons, lin_nil]
      ring
    · rw [flipMons_cons_neg v m l hv, lin_cons, flipMons_single, if_neg hv]
      simp only [lin_cons, lin_nil]
      ring

/-- On a sorted term without `dual(v)`, replacing `v` and then `dual(v)` gives
the term back. -/
theorem flip_term_round_trip (g : Term → Int) (v : Var) (u : Term) (hu : TermSorted u)
    (hd : LevelsDistinct (v :: v.get_dual :: u)) (hn : v.get_dual ∉ u) :
    lin (fun w => lin g (flipMons v.get_dual [⟨1, w⟩])) (flipMons v [⟨1, u⟩]) = g u := by
  by_cases hv : v ∈ u
  · have hts : TermSorted (termWithout u [v]) := termWithout_sorted _ _ hu
    have hnt : v.get_dual ∉ termWithout u [v] := fun h => hn (mem_of_mem_termWithout _ _ _ h)
    have hvt : v ∉ termWithout u [v] := not_mem_termWithout_single u v
    have hd1 : LevelsDistinct (termWithout u [v] ++ [v.get_dual]) := by
      intro a ha b hb e
      refine hd a ?_ b ?_ e
      · simp only [List.mem_append, List.mem_cons, List.not_mem_nil, or_false] at ha ⊢
        rcases ha with h | h
        · exact Or.inr (Or.inr (mem_of_mem_termWithout _ _ _ h))
        · exact Or.inr (Or.inl h)
      · simp only [List.mem_append, List.mem_cons, List.not_mem_nil, or_false] at hb ⊢
        rcases hb with h | h
        · exact Or.inr (Or.inr (mem_of_mem_termWithout _ _ _ h))
        · exact Or.inr (Or.inl h)
    have hd2 : LevelsDistinct (termWithout u [v] ++ [v]) := by
      intro a ha b hb e
      refine hd a ?_ b ?_ e
      · simp only [List.mem_append, List.mem_cons, List.not_mem_nil, or_false] at ha ⊢
        rcases ha with h | h
        · exact Or.inr (Or.inr (mem_of_mem_termWithout _ _ _ h))
        · exact Or.inl h
      · simp only [List.mem_append, List.mem_cons, List.not_mem_nil, or_false] at hb ⊢
        rcases hb with h | h
        · exact Or.inr (Or.inr (mem_of_mem_termWithout _ _ _ h))
        · exact Or.inl h
    obtain ⟨s1, m1⟩ := multiply_term_by_var_spec (termWithout u [v]) v.get_dual hts hd1
      (by rw [var_get_dual_dual]; exact hvt)
    obtain ⟨s2, m2⟩ := multiply_term_by_var_spec (termWithout u [v]) v hts hd2 hnt
    have e1 : termWithout (multiply_term_by_var (termWithout u [v]) v.get_dual) [v.get_dual]
        = termWithout u [v] := by
      apply termSorted_ext _ _ (termWithout_sorted _ _ s1) hts
      intro x
      rw [mem_termWithout, m1]
      constructor
      · rintro ⟨h | h, hx⟩
        · exact h
        · exact absurd (by simp [h]) hx
      · intro h
        refine ⟨Or.inl h, fun hx => ?_⟩
        simp only [List.mem_singleton] at hx
        rw [hx] at h
        exact hnt h
    have e2 : multiply_term_by_var (termWithout u [v]) v = u := by
      apply termSorted_ext _ _ s2 hu
      intro x
      rw [m2, mem_termWithout]
      constructor
      · rintro (h | h)
        · exact h.1
        · rw [h]; exact hv
      · intro h
        by_cases hx : x = v
        · exact Or.inr hx
        · exact Or.inl ⟨h, by simpa using hx⟩
    have hin : v.get_dual ∈ multiply_term_by_var (termWithout u [v]) v.get_dual :=
      (m1 _).2 (Or.inr rfl)
    rw [flipMons_single, if_pos hv]
    simp only [lin_cons, lin_nil]
    rw [flipMons_single, if_pos hin, flipMons_single, if_neg hnt, e1, var_get_dual_dual, e2]
    simp only [lin_cons, lin_nil]
    ring
  · rw [flipMons_single, if_neg hv]
    simp only [lin_cons, lin_nil]
    rw [flipMons_single, if_neg hn]
    simp only [lin_cons, lin_nil]
    ring

/-- The terms of the sequence with `v` replaced are sorted when the terms of the
original are sorted and `dual(v)` is told apart from its variables. -/
theorem flipMons_sorted (v : Var) (l : List Monomial) (hs : TermsSorted l)
    (hd : LevelsDistinct (v.get_dual :: varsOf l)) : TermsSorted (flipMons v l) := by
  intro e he
  simp only [flipMons, List.mem_flatMap] at he
  obtain ⟨m, hm, he⟩ := he
  have hts : TermSorted (termWithout m.term [v]) := termWithout_sorted _ _ (hs m hm)
  split_ifs at he with hv
  · simp only [List.mem_cons, List.mem_singleton, List.not_mem_nil, or_false] at he
    rcases he with h | h
    · rw [h]
      refine (multiply_term_by_var_spec _ _ hts ?_ ?_).1
      · intro a ha b hb e
        refine hd a ?_ b ?_ e
        · simp only [List.mem_append, List.mem_cons, List.not_mem_nil, or_false] at ha ⊢
          rcases ha with h | h
          · exact Or.inr (mem_varsOf l m a hm (mem_of_mem_termWithout _ _ _ h))
          · exact Or.inl h
        · simp only [List.mem_append, List.mem_cons, List.not_mem_nil, or_false] at hb ⊢
          rcases hb with h | h
          · exact Or.inr (mem_varsOf l m b hm (mem_of_mem_termWithout _ _ _ h))
          · exact Or.inl h
      · rw [var_get_dual_dual]; exact not_mem_termWithout_single m.term v
    · rw [h]; exact hts
  · simp only [List.mem_singleton] at he
    rw [he]; exact hs m hm

/-- Flipping a normal-form polynomial object with sorted terms returns a normal
form with sorted terms. -/
theorem flip_var_in_poly_sorted (tw : Int → List Var) (p : Polynomial) (v : Var) (hp : p.WF)
    (hs : TermsSorted p.mon) (hd : LevelsDistinct (v.get_dual :: varsOf p.mon)) :
    ∃ r, flip_var_in_poly tw (some p) v false = .ok r ∧ PolyNF r ∧
      TermsIn (fun t => (∀ x ∈ t, x ∈ v.get_dual :: varsOf p.mon) ∧ v ∉ t) (mons r) ∧
      TermsSorted (mons r) ∧
      ∀ g, lin g (mons r) = lin g (flipMons v p.mon) := by
  have hT : CmpFaithful (fun t => ((∀ x ∈ t, x ∈ v.get_dual :: varsOf p.mon) ∧ v ∉ t) ∧
      TermSorted t) :=
    fun a b ha hb h => cmpFaithful_of_levels _ hd a b ha.1.1 hb.1.1 h
  obtain ⟨h1, h2, h3⟩ := foldl_push_mstack_spec _ hT (flipMons v p.mon) []
    (fun m hm => ⟨flipMons_terms v p.mon m hm, flipMons_sorted v p.mon hs hd m hm⟩)
    (fun e he => by simp at he) stackNF_nil
  refine ⟨build_poly ((flipMons v p.mon).foldl push_mstack []), ?_, build_poly_nf _ h1, ?_, ?_, ?_⟩
  · simp only [flip_var_in_poly, deref, ok_bind]
    rw [flip_loop_eq tw v p.mon [] hp.2.1 hs]
    rfl
  · intro m hm
    rw [mons_build_poly] at hm
    exact (h2 m (by simpa using hm)).1
  · intro m hm
    rw [mons_build_poly] at hm
    exact (h2 m (by simpa using hm)).2
  · intro g
    rw [mons_build_poly, lin_reverse, h3, lin_nil]; ring

/-- Flipping by `v` and then by `dual(v)`: the common core. -/
theorem flip_var_then_dual_core (tw : Int → List Var) (p : Polynomial) (v : Var)
    (hp : p.WF) (hs : TermsSorted p.mon)
    (hd : LevelsDistinct (v :: v.get_dual :: varsOf p.mon))
    (hn : ∀ m ∈ p.mon, v.get_dual ∉ m.term) :
    ∃ a, flip_var_in_poly tw (some p) v false = .ok (some a) ∧ a.WF ∧
      flip_var_in_poly tw (some a) v.get_dual false = .ok (some p) := by
  have hd1 : LevelsDistinct (v.get_dual :: varsOf p.mon) :=
    fun a ha b hb e => hd a (List.mem_cons_of_mem _ ha) b (List.mem_cons_of_mem _ hb) e
  obtain ⟨r, hr, hnf, hT, hsr, hlin⟩ := flip_var_in_poly_sorted tw p v hp hs hd1
  have key : ∀ g, lin (fun w => lin g (flipMons v.get_dual [⟨1, w⟩])) (mons r) = lin g p.mon := by
    intro g
    rw [hlin, lin_flipMons]
    apply lin_congr_mem
    intro m hm
    apply flip_term_round_trip g v m.term (hs m hm) _ (hn m hm)
    intro a ha b hb e
    refine hd a ?_ b ?_ e
    · simp only [List.mem_cons] at ha ⊢
      rcases ha with h | h | h
      · exact Or.inl h
      · exact Or.inr (Or.inl h)
      · exact Or.inr (Or.inr (mem_varsOf _ m a hm h))
    · simp only [List.mem_cons] at hb ⊢
      rcases hb with h | h | h
      · exact Or.inl h
      · exact Or.inr (Or.inl h)
      · exact Or.inr (Or.inr (mem_varsOf _ m b hm h))
  cases r with
  | none =>
    exfalso
    cases hm : p.mon with
    | nil => exact hp.1 hm
    | cons m rest =>
      have h1 := coeffAt_ne_zero_of_mem p.mon hp.2.1 m (by rw [hm]; simp)
      rw [coeffAt_eq_lin, ← key] at h1
      exact h1 (by simp [mons, lin])
  | some a =>
    refine ⟨a, hr, hnf, ?_⟩
    have hda : LevelsDistinct (v.get_dual.get_dual :: varsOf a.mon) := by
      rw [var_get_dual_dual]
      intro x hx y hy e
      have sub : ∀ z, z ∈ v :: varsOf a.mon → z ∈ v :: v.get_dual :: varsOf p.mon := by
        intro z hz
        rcases List.mem_cons.1 hz with h | h
        · simp [h]
        · simp only [varsOf, List.mem_flatMap] at h
          obtain ⟨m, hm, hz2⟩ := h
          exact List.mem_cons_of_mem _ ((hT m hm).1 z hz2)
      exact hd x (sub x hx) y (sub y hy) e
    obtain ⟨r2, hr2, hnf2, _, hlin2⟩ := flip_var_in_poly_spec tw a v.get_dual hnf hsr hda
    have e : r2 = some p := by
      apply polyNF_ext r2 (some p) hnf2 hp
      apply normalForm_unique _ _ (polyNF_mons r2 hnf2) hp.2.1
      intro t
      rw [coeffAt_eq_lin, coeffAt_eq_lin, hlin2, lin_flipMons]
      exact key _
    rw [hr2, e]

/-- C38: flipping by a variable and then by its dual is the identity. For a
normal-form polynomial object `p` with sorted terms in which `dual(v)` does not
occur (levels identifying `v`, `dual(v)` and the variables of `p`),
`flip_var_in_poly(p, v, false)` returns a polynomial object, and
`flip_var_in_poly` of that object by `dual(v)` returns `p` (no proof logging). -/
theorem flip_var_then_dual_identity (tw : Int → List Var) (p : Polynomial) (v : Var)
    (hp : p.WF) (hs : TermsSorted p.mon)
    (hd : LevelsDistinct (v :: v.get_dual :: varsOf p.mon))
    (hn : ∀ m ∈ p.mon, v.get_dual ∉ m.term) :
    (flip_var_in_poly tw (some p) v false >>= fun r =>
      flip_var_in_poly tw r v.get_dual false) = .ok (some p) := by
  obtain ⟨a, h1, _, h2⟩ := flip_var_then_dual_core tw p v hp hs hd hn
  rw [h1]
  exact h2

/-- C38 witness: `2*z*y + y + 3*x` flipped by `y` and then by the dual of `y`. -/
theorem flip_var_then_dual_identity_witness :
    (flip_var_in_poly (fun _ => [])
        (some ⟨[⟨2, [⟨6, 6, false⟩, ⟨4, 4, false⟩]⟩, ⟨1, [⟨4, 4, false⟩]⟩,
          ⟨3, [⟨2, 2, false⟩]⟩], 2⟩) ⟨4, 4, false⟩ false >>= fun r =>
      flip_var_in_poly (fun _ => []) r (Var.get_dual ⟨4, 4, false⟩) false)
      = .ok (some ⟨[⟨2, [⟨6, 6, false⟩, ⟨4, 4, false⟩]⟩, ⟨1, [⟨4, 4, false⟩]⟩,
          ⟨3, [⟨2, 2, false⟩]⟩], 2⟩) :=
  flip_var_then_dual_identity (fun _ => [])
    ⟨[⟨2, [⟨6, 6, false⟩, ⟨4, 4, false⟩]⟩, ⟨1, [⟨4, 4, false⟩]⟩, ⟨3, [⟨2, 2, false⟩]⟩], 2⟩
    ⟨4, 4, false⟩ (by decide) (by decide) (by decide) (by decide)

/-! ## Variable elimination by `reduce_by_one_poly` -/

/-- What `reduce_by_one_poly` returns on normal-form polynomial objects with
sorted terms, in terms of linear functionals: the image of the result is the
image of `p` plus the image of the products of the signed exact quotient of `p`
by `LT(q)` with the monomials of `q`. -/
theorem reduce_by_one_poly_lin (p q : Polynomial) (hp : p.WF) (hq : q.WF)
    (hs : TermsSorted p.mon) (hlt : leadTerm q ≠ []) (hts : TermSorted (leadTerm q))
    (hd : LevelsDistinct (varsOf p.mon ++ varsOf q.mon)) :
    ∃ res, reduce_by_one_poly (some p) (some q) = .ok res ∧ PolyNF res ∧
      ∀ G, lin G (mons res) = lin G p.mon
        + lin G (prodMons (scaleMons (if leadCoeff q > 0 then -1 else 1)
            (quotMons (leadTerm q) p.mon)) q.mon) := by
  have hdp : LevelsDistinct (varsOf p.mon) :=
    fun a ha b hb e => hd a (by simp [ha]) b (by simp [hb]) e
  obtain ⟨f, hf, hfnf, hfm⟩ := divide_poly_by_term_exact p (leadTerm q) hp hs hdp hlt hts
  have hT := cmpFaithful_of_levels _ hd
  have hTp := termsIn_left p.mon q.mon
  have hTq := termsIn_right p.mon q.mon
  cases hqm : q.mon with
  | nil => exact absurd hqm hq.1
  | cons qm qrest =>
    have hlt' : q.get_lt = .ok (leadTerm q) := by simp [Polynomial.get_lt, leadTerm, hqm]
    have hlc : leadCoeff q = qm.coeff := leadCoeff_cons q qm qrest hqm
    cases f with
    | none =>
      refine ⟨some p, ?_, hp, fun G => ?_⟩
      · simp only [reduce_by_one_poly, deref, ok_bind, hlt', hf]
        exact copy_ptr_wf p hp
      · rw [← hfm]
        simp [mons, scaleMons, prodMons, lin]
    | some fa =>
      have hfne : fa.mon ≠ [] := hfnf.1
      have hfm' : fa.mon = quotMons (leadTerm q) p.mon := hfm
      have hfT : TermsIn (fun t => ∀ v ∈ t, v ∈ varsOf p.mon ++ varsOf q.mon) fa.mon := by
        intro m hm v hv
        rw [hfm'] at hm
        simp only [quotMons, List.mem_map, List.mem_filter] at hm
        obtain ⟨x, ⟨hx, _⟩, rfl⟩ := hm
        simp only [List.mem_append]
        exact Or.inl (mem_varsOf p.mon x v hx (mem_of_mem_termWithout _ _ _ hv))
      have hneg : ∃ nf2, (if qm.coeff > 0 then multiply_poly_with_constant (some fa) (-1)
            else pure (some fa)) = Except.ok nf2 ∧
          mons nf2 = scaleMons (if qm.coeff > 0 then -1 else 1) fa.mon := by
        split_ifs with hpos
        · exact multiply_poly_with_constant_mons _ (-1) (by decide) hfnf.2.1.1
        · refine ⟨_, rfl, ?_⟩
          simp only [mons, scaleMons]
          rw [List.map_congr_left (g := id)]
          · simp
          · intro m _; cases m; simp
      obtain ⟨nf2, hnf2, hmons2⟩ := hneg
      have hT2 : TermsIn (fun t => ∀ v ∈ t, v ∈ varsOf p.mon ++ varsOf q.mon) (mons nf2) := by
        rw [hmons2]; exact scaleMons_termsIn _ _ _ hfT
      obtain ⟨hMnf, hTM, hMlin⟩ := multiply_poly_spec _ hd nf2 (some q) hT2 hTq
      obtain ⟨res, hres, hresnf, hreslin⟩ := add_poly_spec _ hT (some p)
        (multiply_poly nf2 (some q)) hp hMnf hTp hTM (Or.inl (by simp))
      refine ⟨res, ?_, hresnf, fun G => ?_⟩
      · have hf' := hf
        rw [leadTerm_cons q qm qrest hqm] at hf'
        rw [reduce_by_one_poly_eval p q qm qrest hqm _ hf' hfne, hnf2, ok_bind]
        exact hres
      · rw [hreslin G, hMlin G, hmons2, hlc, hfm']
        simp only [mons, hqm]

/-- The monomials with `g` of a sorted array cancel against the products of the
signed quotient by `g` with a polynomial `s*g + rest` in which `g` occurs only
in the leading monomial, under every functional that vanishes on the terms
without `g`. -/
theorem lin_quot_cancel (G : Term → Int) (g : Var) (k s : Int) (hks : k * s = -1)
    (qrest : List Monomial) (hg : ∀ m ∈ qrest, g ∉ m.term)
    (hG : ∀ u, g ∉ u → G u = 0) (l : List Monomial) (hs : TermsSorted l)
    (hd : LevelsDistinct (g :: varsOf l)) :
    lin G (prodMons (scaleMons k (quotMons [g] l)) (⟨s, [g]⟩ :: qrest)) = - lin G l := by
  induction l with
  | nil => simp [quotMons, scaleMons, prodMons, lin]
  | cons m l ih =>
    have hsl : TermsSorted l := fun e he => hs e (List.mem_cons_of_mem _ he)
    have hdl : LevelsDistinct (g :: varsOf l) := by
      intro a ha b hb e
      refine hd a ?_ b ?_ e
      · rcases List.mem_cons.1 ha with h | h
        · simp [h]
        · apply List.mem_cons_of_mem
          simp only [varsOf, List.flatMap_cons, List.mem_append]; exact Or.inr h
      · rcases List.mem_cons.1 hb with h | h
        · simp [h]
        · apply List.mem_cons_of_mem
          simp only [varsOf, List.flatMap_cons, List.mem_append]; exact Or.inr h
    have ih' := ih hsl hdl
    by_cases hm : g ∈ m.term
    · have e1 : quotMons [g] (m :: l)
          = Monomial.mk m.coeff (termWithout m.term [g]) :: quotMons [g] l := by
        simp [quotMons, hm]
      have e2 : prodMons (scaleMons k (quotMons [g] (m :: l))) (⟨s, [g]⟩ :: qrest)
          = (multiply_monomial ⟨m.coeff * k, termWithout m.term [g]⟩ ⟨s, [g]⟩
              :: qrest.map (multiply_monomial ⟨m.coeff * k, termWithout m.term [g]⟩))
            ++ prodMons (scaleMons k (quotMons [g] l)) (⟨s, [g]⟩ :: qrest) := by
        rw [e1]; simp [scaleMons, prodMons]
      have e3 : lin G (qrest.map (multiply_monomial ⟨m.coeff * k, termWithout m.term [g]⟩))
          = 0 := by
        simp only [lin, List.map_map]
        apply List.sum_eq_zero
        intro x hx
        simp only [List.mem_map, Function.comp] at hx
        obtain ⟨y, hy, rfl⟩ := hx
        rw [hG, mul_zero]
        intro hin
        rcases multiply_monomial_term_mem _ _ g hin with h | h
        · exact not_mem_termWithout_single m.term g h
        · exact hg y hy h
      have e4 : (multiply_monomial ⟨m.coeff * k, termWithout m.term [g]⟩ ⟨s, [g]⟩).term
          = m.term := by
        have hms : TermSorted m.term := hs m (by simp)
        have hts : TermSorted (termWithout m.term [g]) := termWithout_sorted _ _ hms
        simp only [multiply_monomial]
        by_cases hn : termWithout m.term [g] = []
        · rw [if_neg (by simp [hn]), if_pos (by simp)]
          apply termSorted_ext _ _ (by simp [TermSorted]) hms
          intro x
          constructor
          · intro hx
            simp only [List.mem_singleton] at hx
            rw [hx]; exact hm
          · intro hx
            by_contra hne
            have : x ∈ termWithout m.term [g] := (mem_termWithout _ _ _).2 ⟨hx, hne⟩
            rw [hn] at this
            simp at this
        · rw [if_pos ⟨hn, by simp⟩]
          obtain ⟨a, b⟩ := multiply_term_spec (termWithout m.term [g]) [g] hn (by simp)
            (by
              intro x hx y hy e
              refine hd x ?_ y ?_ e
              · simp only [List.mem_append, List.mem_cons, List.not_mem_nil, or_false] at hx ⊢
                rcases hx with h | h
                · exact Or.inr (mem_varsOf _ m x (by simp) (mem_of_mem_termWithout _ _ _ h))
                · exact Or.inl h
              · simp only [List.mem_append, List.mem_cons, List.not_mem_nil, or_false] at hy ⊢
                rcases hy with h | h
                · exact Or.inr (mem_varsOf _ m y (by simp) (mem_of_mem_termWithout _ _ _ h))
                · exact Or.inl h)
            hts (by simp [TermSorted])
          apply termSorted_ext _ _ a hms
          intro x
          rw [b, mem_termWithout]
          constructor
          · rintro (h | h)
            · exact h.1
            · simp only [List.mem_singleton] at h
              rw [h]; exact hm
          · intro h
            by_cases hx : x = g
            · exact Or.inr (by simp [hx])
            · exact Or.inl ⟨h, by simpa using hx⟩
      have e5 : (multiply_monomial ⟨m.coeff * k, termWithout m.term [g]⟩ ⟨s, [g]⟩).coeff
          = m.coeff * k * s := rfl
      have e6 : m.coeff * k * s = - m.coeff := by rw [mul_assoc, hks]; ring
      rw [e2, lin_append, lin_cons, e3, e4, e5, ih', lin_cons, e6]
      ring
    · have e1 : quotMons [g] (m :: l) = quotMons [g] l := by
        simp [quotMons, hm]
      rw [e1, ih', lin_cons, hG m.term hm]
      ring

theorem reduce_by_one_poly_eliminates_core (p q : Polynomial) (g : Var) (c : Int)
    (qrest : List Monomial) (hp : p.WF) (hq : q.WF) (hs : TermsSorted p.mon)
    (hd : LevelsDistinct (varsOf p.mon ++ varsOf q.mon))
    (hqm : q.mon = ⟨c, [g]⟩ :: qrest) (hc : c = 1 ∨ c = -1)
    (hg : ∀ m ∈ qrest, g ∉ m.term) :
    ∃ res, reduce_by_one_poly (some p) (some q) = .ok res ∧ PolyNF res ∧
      ∀ m ∈ mons res, g ∉ m.term := by
  have hlt : leadTerm q = [g] := leadTerm_cons q _ qrest hqm
  have hlc : leadCoeff q = c := leadCoeff_cons q _ qrest hqm
  obtain ⟨res, hres, hnf, hlin⟩ := reduce_by_one_poly_lin p q hp hq hs (by rw [hlt]; simp)
    (by rw [hlt]; simp [TermSorted]) hd
  refine ⟨res, hres, hnf, fun m hm hin => ?_⟩
  have h1 := coeffAt_ne_zero_of_mem (mons res) (polyNF_mons res hnf) m hm
  apply h1
  rw [coeffAt_eq_lin, hlin, hlt, hlc, hqm]
  have hgq : g ∈ varsOf q.mon := by rw [hqm]; simp [varsOf]
  rw [lin_quot_cancel _ g (if c > 0 then -1 else 1) c
    (by rcases hc with h | h <;> simp [h]) qrest hg
    (fun u hu => by
      have : u ≠ m.term := fun e => hu (e ▸ hin)
      simp [this]) p.mon hs
    (by
      intro a ha b hb e
      refine hd a ?_ b ?_ e
      · rcases List.mem_cons.1 ha with h | h
        · simp [h, hgq]
        · simp [h]
      · rcases List.mem_cons.1 hb with h | h
        · simp [h, hgq]
        · simp [h])]
  ring

/-- C31: variable elimination by reduction. For normal-form polynomial objects
`p` (with sorted terms) and `q` (levels identifying their variables), where `q`
has leading coefficient `+1` or `-1`, its leading term is the single variable
`g`, and `g` occurs in no other monomial of `q`: `reduce_by_one_poly(p, q)`
returns a polynomial in normal form none of whose monomials contains `g`. -/
theorem reduce_by_one_poly_eliminates (p q : Polynomial) (g : Var) (c : Int)
    (qrest : List Monomial) (hp : p.WF) (hq : q.WF) (hs : TermsSorted p.mon)
    (hd : LevelsDistinct (varsOf p.mon ++ varsOf q.mon))
    (hqm : q.mon = ⟨c, [g]⟩ :: qrest) (hc : c = 1 ∨ c = -1)
    (hg : ∀ m ∈ qrest, g ∉ m.term) :
    ∃ res, reduce_by_one_poly (some p) (some q) = .ok res ∧ PolyNF res ∧
      ∀ m ∈ mons res, g ∉ m.term :=
  reduce_by_one_poly_eliminates_core p q g c qrest hp hq hs hd hqm hc hg

/-- C31 witness: `p = z*y + 2*y + x` reduced by `q = -y + x + 1` (levels 6, 4
and 2 for `z`, `y`, `x`): the result has no monomial with `y`. -/
theorem reduce_by_one_poly_eliminates_witness :
    ∃ res, reduce_by_one_poly
        (some ⟨[⟨1, [⟨6, 6, false⟩, ⟨4, 4, false⟩]⟩, ⟨2, [⟨4, 4, false⟩]⟩,
          ⟨1, [⟨2, 2, false⟩]⟩], 2⟩)
        (some ⟨[⟨-1, [⟨4, 4, false⟩]⟩, ⟨1, [⟨2, 2, false⟩]⟩, ⟨1, []⟩], 1⟩) = .ok res ∧
      PolyNF res ∧ ∀ m ∈ mons res, (⟨4, 4, false⟩ : Var) ∉ m.term :=
  reduce_by_one_poly_eliminates
    ⟨[⟨1, [⟨6, 6, false⟩, ⟨4, 4, false⟩]⟩, ⟨2, [⟨4, 4, false⟩]⟩, ⟨1, [⟨2, 2, false⟩]⟩], 2⟩
    ⟨[⟨-1, [⟨4, 4, false⟩]⟩, ⟨1, [⟨2, 2, false⟩]⟩, ⟨1, []⟩], 1⟩ ⟨4, 4, false⟩ (-1)
    [⟨1, [⟨2, 2, false⟩]⟩, ⟨1, []⟩]
    (by decide) (by decide) (by decide) (by decide) rfl (Or.inr rfl) (by decide)

/-! ## Termination of the enlargement loop -/

theorem callsAt_append_one (l : List LinCall) (c : LinCall) (d : Int) :
    callsAt (l ++ [c]) d = callsAt l d + if c.depth = d then 1 else 0 := by
  unfold callsAt
  rw [List.filter_append, List.length_append]
  by_cases h : c.depth = d <;> simp [h]

theorem note_max_depth_count_calls {σ : Type} (s : LinLocals σ) :
    (note_max_depth_count s).calls = s.calls ∧ (note_max_depth_count s).res = s.res := by
  unfold note_max_depth_count
  split_ifs <;> exact ⟨rfl, rfl⟩

theorem lin_call_fields {σ : Type}
    (il : LinGlobals σ → Int → Nat → Int → Bool → Int × LinGlobals σ)
    (s : LinLocals σ) (f : Nat) (i : Int) (e : Bool) :
    (lin_call il s f i e).depth = s.depth ∧ (lin_call il s f i e).count = s.count + 1 ∧
    ((lin_call il s f i e).calls.length : Int) = s.calls.length + 1 ∧
    (∀ d, (callsAt (lin_call il s f i e).calls d : Int)
      = callsAt s.calls d + if s.depth = d then 1 else 0) := by
  refine ⟨rfl, rfl, ?_, fun d => ?_⟩
  · show ((s.calls ++ [_]).length : Int) = _
    rw [List.length_append]; simp
  · show (callsAt (s.calls ++ [_]) d : Int) = _
    rw [callsAt_append_one]
    by_cases h : s.depth = d <;> simp [h]

/-- One more call at the current depth keeps the base invariant when the depth
has room for it. -/
theorem linBase_call {σ : Type}
    (il : LinGlobals σ → Int → Nat → Int → Bool → Int × LinGlobals σ)
    (B : Int) (s : LinLocals σ) (f : Nat) (i : Int) (e : Bool)
    (hc : 0 ≤ s.count)
    (hall : ∀ d, (callsAt s.calls d : Int) ≤ 15)
    (habove : ∀ d, s.depth < d → (callsAt s.calls d : Int) = 0)
    (hcur : (callsAt s.calls s.depth : Int) + 1 ≤ 15)
    (hlen : (s.calls.length : Int) + 1 ≤ B) :
    LinBase B (lin_call il s f i e) := by
  obtain ⟨f1, f2, f3, f4⟩ := lin_call_fields il s f i e
  refine ⟨?_, ⟨_, _, rfl, rfl⟩, ?_, ?_, ?_⟩
  · rw [f2]; omega
  · intro d
    rw [f4]
    have := hall d
    by_cases h : s.depth = d
    · subst h; simp; omega
    · simp [h]; omega
  · intro d hd
    rw [f1] at hd
    rw [f4]
    have h1 := habove d hd
    have h : s.depth ≠ d := by omega
    simp [h]; omega
  · rw [f3]; omega

theorem linBase_note {σ : Type} (B : Int) (s : LinLocals σ) (h : LinBase B s) :
    LinBase B (note_max_depth_count s) := by
  unfold note_max_depth_count
  split_ifs
  · exact h
  · exact h

/-- The block under `if(count % 15 == 0)`, run when the current depth has at
most 14 calls and three more calls fit: the base invariant holds afterwards, and
if the result is 0 both calls were made, the second as only call at the new
depth. -/
theorem linearize_block_spec {σ : Type}
    (il : LinGlobals σ → Int → Nat → Int → Bool → Int × LinGlobals σ)
    (B : Int) (fanout : Nat) (s : LinLocals σ)
    (hc : 0 ≤ s.count)
    (hall : ∀ d, (callsAt s.calls d : Int) ≤ 15)
    (habove : ∀ d, s.depth < d → (callsAt s.calls d : Int) = 0)
    (hcur : (callsAt s.calls s.depth : Int) ≤ 14)
    (hlen : (s.calls.length : Int) + 3 ≤ B) :
    LinBase B (linearize_block il fanout s) ∧
    (s.calls.length : Int) + 1 ≤ (linearize_block il fanout s).calls.length ∧
    ((linearize_block il fanout s).res = 0 →
      (linearize_block il fanout s).depth = s.depth + 1 ∧
      (linearize_block il fanout s).count = s.count + 2 ∧
      (callsAt (linearize_block il fanout s).calls (s.depth + 1) : Int) = 1 ∧
      ((linearize_block il fanout s).calls.length : Int) = s.calls.length + 2) := by
  unfold linearize_block
  obtain ⟨a1, a2, a3, a4⟩ :=
    lin_call_fields il s ((s.glob.fanout_size_last_call + 1) % 2 ^ 64) 1 false
  have hba : LinBase B
      (lin_call il s ((s.glob.fanout_size_last_call + 1) % 2 ^ 64) 1 false) :=
    linBase_call il B s _ 1 false hc hall habove (by omega) (by omega)
  generalize lin_call il s ((s.glob.fanout_size_last_call + 1) % 2 ^ 64) 1 false = a at *
  by_cases hra : a.res = 0
  · rw [if_pos hra]
    have g1 : (lin_incr_depth a).depth = s.depth + 1 := by
      show a.depth + 1 = _
      rw [a1]
    have g2 : (lin_incr_depth a).count = s.count + 1 := a2
    have g3 : (lin_incr_depth a).calls = a.calls := rfl
    have hab0 : (callsAt a.calls (s.depth + 1) : Int) = 0 := by
      rw [a4, habove _ (by omega)]
      have : s.depth ≠ s.depth + 1 := by omega
      simp [this]
    obtain ⟨b1, b2, b3, b4⟩ := lin_call_fields il (lin_incr_depth a) fanout 1 false
    have hbb : LinBase B (lin_call il (lin_incr_depth a) fanout 1 false) := by
      apply linBase_call
      · rw [g2]; omega
      · rw [g3]; exact hba.2.2.1
      · rw [g1, g3]
        intro d hd2
        rw [a4, habove d (by omega)]
        have : s.depth ≠ d := by omega
        simp [this]
      · rw [g1, g3, hab0]; omega
      · rw [g3, a3]; omega
    rw [g1] at b1 b4
    rw [g2] at b2
    rw [g3, a3] at b3
    rw [g3] at b4
    refine ⟨hbb, by rw [b3]; omega, fun _ => ⟨b1, by rw [b2]; omega, ?_, b3⟩⟩
    rw [b4, hab0]
    simp
  · rw [if_neg hra]
    exact ⟨hba, by omega, fun h => absurd h hra⟩

/-- The calls of one pass of the loop, started at the loop head with the loop
condition true: the base invariant holds afterwards, at least two calls were
made in all, the loop-head invariant holds again, and the measure is smaller if
the loop goes on. -/
theorem linearize_calls_spec {σ : Type}
    (il : LinGlobals σ → Int → Nat → Int → Bool → Int × LinGlobals σ)
    (max_depth B : Int) (fanout : Nat) (s : LinLocals σ)
    (hb : LinBase B s) (hh : LinHead max_depth B s) (hr : s.res = 0)
    (hd : s.depth < max_depth) :
    LinBase B (linearize_calls il fanout s) ∧
    2 ≤ (linearize_calls il fanout s).calls.length ∧
    LinHead max_depth B (linearize_calls il fanout s) ∧
    ((linearize_calls il fanout s).res = 0 → (linearize_calls il fanout s).depth < max_depth →
      linMeasure max_depth (linearize_calls il fanout s) < linMeasure max_depth s) := by
  obtain ⟨hc, ⟨c0, l0, hl0, _⟩, hall, habove, hlen⟩ := hb
  obtain ⟨hcur, hlen2⟩ := hh
  have hcur := hcur hr
  have hlen2 := hlen2 hr hd
  have hlen1 : 1 ≤ (s.calls.length : Int) := by
    rw [hl0, List.length_append]; simp
  have e0 : (lin_enlarged s).res = s.res := rfl
  have e1 : (lin_enlarged s).depth = s.depth := rfl
  have e2 : (lin_enlarged s).count = s.count := rfl
  have e3 : (lin_enlarged s).calls = s.calls := rfl
  unfold linearize_calls linearize_first
  by_cases h15 : Int.tmod (lin_enlarged s).count 15 = 0
  · rw [if_pos h15]
    rw [e2, Int.tmod_eq_emod hc (by decide)] at h15
    obtain ⟨k1, k2, k3⟩ := linearize_block_spec il B fanout (lin_enlarged s)
      (by rw [e2]; exact hc) (by rw [e3]; exact hall) (by rw [e1, e3]; exact habove)
      (by rw [e1, e3]; omega) (by rw [e3]; omega)
    rw [e3] at k2
    rw [e1, e2, e3] at k3
    generalize linearize_block il fanout (lin_enlarged s) = t at *
    by_cases hrt : t.res = 0
    · rw [if_pos hrt]
      obtain ⟨t1, t2, t3, t4⟩ := k3 hrt
      obtain ⟨c1, c2, c3, c4⟩ := lin_call_fields il t fanout t.count true
      rw [t1] at c1 c4
      replace c2 : (lin_call il t fanout t.count true).count = s.count + 3 := by
        rw [c2, t2]; ring
      rw [t4] at c3
      refine ⟨?_, ?_, ⟨?_, ?_⟩, ?_⟩
      · apply linBase_call
        · exact k1.1
        · exact k1.2.2.1
        · exact k1.2.2.2.1
        · rw [t1]; omega
        · rw [t4]; omega
      · have : (2 : Int) ≤ ((lin_call il t fanout t.count true).calls.length : Int) := by
          rw [c3]; omega
        exact_mod_cast this
      · intro _
        rw [c1, c4, t3, c2]
        simp
        omega
      · intro _ hd3
        rw [c1] at hd3
        rw [c1, c2, c3]
        omega
      · intro _ hd3
        simp only [linMeasure]
        rw [c1, c2]
        omega
    · rw [if_neg hrt]
      refine ⟨k1, ?_, ⟨fun h => absurd h hrt, fun h => absurd h hrt⟩, fun h => absurd h hrt⟩
      have : (2 : Int) ≤ (t.calls.length : Int) := by omega
      exact_mod_cast this
  · rw [if_neg h15, if_pos (e0.trans hr)]
    rw [e2, Int.tmod_eq_emod hc (by decide)] at h15
    obtain ⟨c1, c2, c3, c4⟩ := lin_call_fields il (lin_enlarged s) fanout (lin_enlarged s).count true
    rw [e1] at c1 c4
    replace c2 : (lin_call il (lin_enlarged s) fanout (lin_enlarged s).count true).count
        = s.count + 1 := by rw [c2, e2]
    rw [e3] at c3 c4
    refine ⟨?_, ?_, ⟨?_, ?_⟩, ?_⟩
    · apply linBase_call
      · rw [e2]; exact hc
      · rw [e3]; exact hall
      · rw [e1, e3]; exact habove
      · rw [e1, e3]; omega
      · rw [e3]; omega
    · have : (2 : Int) ≤
          ((lin_call il (lin_enlarged s) fanout (lin_enlarged s).count true).calls.length : Int) := by
        rw [c3]; omega
      exact_mod_cast this
    · intro _
      rw [c1, c4, c2]
      simp
      omega
    · intro _ _
      rw [c1, c2, c3]
      omega
    · intro _ _
      simp only [linMeasure]
      rw [c1, c2]
      omega

theorem linearize_exit_post {σ : Type} (max_depth B : Int) (s : LinLocals σ)
    (hb : LinBase B s) (hm : s.res = -1 → max_depth ≤ 6 → s.calls.length = 1) :
    LinPost max_depth B (decide (s.res ≠ 0)) (note_max_depth_count s) := by
  obtain ⟨hc, ⟨c0, l0, hl0, hres⟩, hall, habove, hlen⟩ := hb
  rw [LinPost, (note_max_depth_count_calls s).1]
  refine ⟨hlen, hall, c0, l0, hl0, ?_⟩
  rw [hres]
  simp only [decide_eq_true_eq]
  constructor
  · intro h
    refine ⟨h, fun h2 => ?_⟩
    have := hm h2.1 h2.2.1
    omega
  · exact fun h => h.1

/-- The loop of `linearize_via_fglm_or_gap`, started at the loop head in a
state that satisfies the invariant, returns when the fuel is at least the
measure. -/
theorem linearize_loop_spec {σ : Type}
    (il : LinGlobals σ → Int → Nat → Int → Bool → Int × LinGlobals σ)
    (max_depth B : Int) (fanout : Nat) (fuel : Nat) (s : LinLocals σ)
    (hb : LinBase B s) (hh : LinHead max_depth B s)
    (hm : s.res = -1 → max_depth ≤ 6 → s.calls.length = 1)
    (hf : s.res = 0 → s.depth < max_depth → linMeasure max_depth s ≤ fuel) :
    ∃ b t, linearize_loop il max_depth fanout fuel s = some (b, t) ∧
      LinPost max_depth B b t := by
  induction fuel generalizing s with
  | zero =>
    by_cases hcond : s.res = 0 ∧ s.depth < max_depth
    · exfalso
      have h1 : (0 : Int) ≤ (15 - s.count % 15) % 15 := Int.emod_nonneg _ (by decide)
      have hf := hf hcond.1 hcond.2
      simp only [linMeasure] at hf
      have := hcond.2
      push_cast at hf
      omega
    · refine ⟨_, _, ?_, linearize_exit_post max_depth B s hb hm⟩
      simp only [linearize_loop, if_neg hcond]
  | succ fuel ih =>
    by_cases hcond : s.res = 0 ∧ s.depth < max_depth
    · obtain ⟨k1, k2, k3, k4⟩ := linearize_calls_spec il max_depth B fanout s hb hh hcond.1 hcond.2
      have hf := hf hcond.1 hcond.2
      by_cases hret : (linearize_calls il fanout s).res = -1 ∧ max_depth ≤ 6
      · have e : linearize_iter il max_depth fanout s
            = (note_max_depth_count (linearize_calls il fanout s), true) := by
          simp only [linearize_iter, if_pos hret]
        refine ⟨false, note_max_depth_count (linearize_calls il fanout s), ?_, ?_⟩
        · simp only [linearize_loop, if_pos hcond, e, if_true]
        · obtain ⟨hc, ⟨c0, l0, hl0, hres⟩, hall, habove, hlen⟩ := k1
          rw [LinPost, (note_max_depth_count_calls _).1]
          refine ⟨hlen, hall, c0, l0, hl0, ?_⟩
          rw [hres]
          constructor
          · intro h; cases h
          · intro h
            exact absurd ⟨hret.1, hret.2, k2⟩ h.2
      · have e : linearize_iter il max_depth fanout s
            = (linearize_calls il fanout s, false) := by
          simp only [linearize_iter, if_neg hret]
        have hm2 : (linearize_calls il fanout s).res = -1 → max_depth ≤ 6 →
            (linearize_calls il fanout s).calls.length = 1 :=
          fun h1 h2 => absurd ⟨h1, h2⟩ hret
        have hf2 : (linearize_calls il fanout s).res = 0 →
            (linearize_calls il fanout s).depth < max_depth →
            linMeasure max_depth (linearize_calls il fanout s) ≤ fuel := by
          intro h1 h2
          have := k4 h1 h2
          push_cast at hf
          omega
        obtain ⟨b, t, h1, h2⟩ := ih (linearize_calls il fanout s) k1 k3 hm2 hf2
        refine ⟨b, t, ?_, h2⟩
        simp only [linearize_loop, if_pos hcond, e]
        exact h1
    · refine ⟨_, _, ?_, linearize_exit_post max_depth B s hb hm⟩
      simp only [linearize_loop, if_neg hcond]

/-- More fuel does not change what the loop returns. -/
theorem linearize_loop_mono {σ : Type}
    (il : LinGlobals σ → Int → Nat → Int → Bool → Int × LinGlobals σ)
    (max_depth : Int) (fanout : Nat) (fuel : Nat) (s : LinLocals σ) (r : Bool × LinLocals σ)
    (h : linearize_loop il max_depth fanout fuel s = some r) :
    linearize_loop il max_depth fanout (fuel + 1) s = some r := by
  induction fuel generalizing s with
  | zero =>
    by_cases hcond : s.res = 0 ∧ s.depth < max_depth
    · simp [linearize_loop, if_pos hcond] at h
    · simp only [linearize_loop, if_neg hcond] at h ⊢
      exact h
  | succ fuel ih =>
    by_cases hcond : s.res = 0 ∧ s.depth < max_depth
    · rw [linearize_loop, if_pos hcond] at h
      rw [linearize_loop, if_pos hcond]
      by_cases hret : (linearize_iter il max_depth fanout s).2 = true
      · rw [if_pos hret] at h ⊢
        exact h
      · rw [if_neg hret] at h ⊢
        exact ih _ h
    · simp only [linearize_loop, if_neg hcond] at h ⊢
      exact h

/-- The state after the first call of `internal_linearize` satisfies the loop
invariant with the bound `15 * (dist - sc_depth) + 2` on the number of calls
(1 when `dist` is not above `sc_depth`). -/
theorem linearize_init_inv {σ : Type}
    (il : LinGlobals σ → Int → Nat → Int → Bool → Int × LinGlobals σ)
    (dist sc_depth : Int) (sc_fanout : Nat) (s : LinLocals σ)
    (h1 : s.count = 1) (h2 : s.calls = []) (h3 : s.depth = sc_depth) :
    LinBase (15 * ((dist - sc_depth).toNat : Int) + 2) (lin_call il s sc_fanout 1 false) ∧
    LinHead dist (15 * ((dist - sc_depth).toNat : Int) + 2) (lin_call il s sc_fanout 1 false) ∧
    ((lin_call il s sc_fanout 1 false).res = -1 → dist ≤ 6 →
      (lin_call il s sc_fanout 1 false).calls.length = 1) ∧
    linMeasure dist (lin_call il s sc_fanout 1 false)
      ≤ 15 * ((dist - sc_depth).toNat : Int) + 13 := by
  obtain ⟨c1, c2, c3, c4⟩ := lin_call_fields il s sc_fanout 1 false
  have hz : ∀ d, (callsAt s.calls d : Int) = 0 := by
    intro d; rw [h2]; rfl
  have hl : (s.calls.length : Int) = 0 := by rw [h2]; rfl
  rw [h3] at c1
  rw [h1] at c2
  rw [hl] at c3
  refine ⟨?_, ⟨?_, ?_⟩, ?_, ?_⟩
  · apply linBase_call
    · rw [h1]; decide
    · intro d; rw [hz]; decide
    · intro d _; exact hz d
    · rw [hz]; decide
    · rw [hl]; omega
  · intro _
    rw [c1, c4, hz, c2, h3]
    simp
  · intro _ hd
    rw [c1] at hd
    rw [c1, c2, c3]
    have : ((dist - sc_depth).toNat : Int) = dist - sc_depth := Int.toNat_of_nonneg (by omega)
    rw [this]
    omega
  · intro _ _
    have : ((lin_call il s sc_fanout 1 false).calls.length : Int) = 1 := by rw [c3]; rfl
    exact_mod_cast this
  · simp only [linMeasure]
    rw [c1, c2]
    have : dist - sc_depth ≤ ((dist - sc_depth).toNat : Int) := Int.self_le_toNat _
    omega

theorem linearize_via_fglm_or_gap_core {σ : Type}
    (il : LinGlobals σ → Int → Nat → Int → Bool → Int × LinGlobals σ)
    (fuel : Nat) (dist sc_depth : Int) (sc_fanout : Nat) (glob : LinGlobals σ)
    (hfuel : 15 * (dist - sc_depth).toNat + 13 ≤ fuel) :
    ∃ b t, linearize_via_fglm_or_gap il fuel dist sc_depth sc_fanout glob = some (b, t) ∧
      LinPost dist (15 * ((dist - sc_depth).toNat : Int) + 2) b t := by
  obtain ⟨h1, h2, h3, h4⟩ := linearize_init_inv il dist sc_depth sc_fanout
    (LinLocals.mk 0 sc_depth 1
      (LinGlobals.mk (glob.count_unique_gb_call + 1) glob.circuit_enlarged_count
        glob.max_depth_count 0 glob.other) []) rfl rfl rfl
  exact linearize_loop_spec il dist _ sc_fanout fuel _ h1 h2 h3
    (fun _ _ => by
      have : ((15 * (dist - sc_depth).toNat + 13 : Nat) : Int) ≤ (fuel : Int) := by
        exact_mod_cast hfuel
      push_cast at this
      omega)

/-- C36 (amended): `linearize_via_fglm_or_gap` terminates for every behaviour
of `internal_linearize`. With `D = dist - sc_depth` (0 when negative), the loop
ends within `15 * D + 13` passes; at most `15 * D + 2` calls of
`internal_linearize` are made, at most 15 of them with any one depth (so the
depth has increased at the latest when the sixteenth of consecutive calls is
made); and the returned value is true exactly when the last call returned a
non-zero result, except that it is false when a call after the first returned
`-1` and `dist` is at most 6. -/
theorem linearize_via_fglm_or_gap_terminates {σ : Type}
    (il : LinGlobals σ → Int → Nat → Int → Bool → Int × LinGlobals σ)
    (fuel : Nat) (dist sc_depth : Int) (sc_fanout : Nat) (glob : LinGlobals σ)
    (hfuel : 15 * (dist - sc_depth).toNat + 13 ≤ fuel) :
    ∃ b t, linearize_via_fglm_or_gap il fuel dist sc_depth sc_fanout glob = some (b, t) ∧
      t.calls.length ≤ 15 * (dist - sc_depth).toNat + 2 ∧
      (∀ d, callsAt t.calls d ≤ 15) ∧
      ∃ c l, t.calls = l ++ [c] ∧
        (b = true ↔ c.res ≠ 0 ∧ ¬ (c.res = -1 ∧ dist ≤ 6 ∧ 2 ≤ t.calls.length)) := by
  obtain ⟨b, t, h1, h2, h3, h4⟩ :=
    linearize_via_fglm_or_gap_core il fuel dist sc_depth sc_fanout glob hfuel
  refine ⟨b, t, h1, ?_, fun d => ?_, h4⟩
  · exact_mod_cast h2
  · exact_mod_cast h3 d

/-- C36 (amended) witness: `internal_linearize` always returns 0, `dist = 3`,
`sc_depth = 2`, `sc_fanout = 4`, 28 passes allowed. -/
theorem linearize_via_fglm_or_gap_terminates_witness :
    ∃ b t, linearize_via_fglm_or_gap (fun (g : LinGlobals Unit) _ _ _ _ => ((0 : Int), g)) 28 3 2 4
        ⟨0, 0, 0, 0, ()⟩ = some (b, t) ∧
      t.calls.length ≤ 15 * ((3 : Int) - 2).toNat + 2 ∧
      (∀ d, callsAt t.calls d ≤ 15) ∧
      ∃ c l, t.calls = l ++ [c] ∧
        (b = true ↔ c.res ≠ 0 ∧ ¬ (c.res = -1 ∧ (3 : Int) ≤ 6 ∧ 2 ≤ t.calls.length)) :=
  linearize_via_fglm_or_gap_terminates (fun (g : LinGlobals Unit) _ _ _ _ => ((0 : Int), g)) 28 3 2 4
    ⟨0, 0, 0, 0, ()⟩ (by decide)

/-- C36 counterexample: when the first call of `internal_linearize` returns
`-1`, the loop is not entered and `linearize_via_fglm_or_gap` returns `res`
converted to `bool`, which is true, although the last attempt returned `-1` and
the distance of the gate (3) is at most 6. -/
theorem linearize_via_fglm_or_gap_counterexample :
    (linearize_via_fglm_or_gap (fun (g : LinGlobals Unit) _ _ _ _ => ((-1 : Int), g)) 28 3 2 4
        ⟨0, 0, 0, 0, ()⟩).map (fun r => (r.1, r.2.calls))
      = some (true, [⟨2, 4, 1, false, -1⟩]) := by
  rfl

/-- When every call of `internal_linearize` returns 0 the bound on the calls is
reached: with `dist = 3` and `sc_depth = 2` there are 15 calls with depth 2 and
2 calls with depth 3, and 0 is returned. -/
theorem linearize_via_fglm_or_gap_all_zero_example :
    (linearize_via_fglm_or_gap (fun (g : LinGlobals Unit) _ _ _ _ => ((0 : Int), g)) 28 3 2 4
        ⟨0, 0, 0, 0, ()⟩).map
        (fun r => (r.1, r.2.calls.length, callsAt r.2.calls 2, callsAt r.2.calls 3))
      = some (false, 17, 15, 2) := by
  rfl

/-- A call after the first that returns `-1` makes `linearize_via_fglm_or_gap`
return 0 when the distance is at most 6: here the first call returns 0 and the
second `-1`. -/
theorem linearize_via_fglm_or_gap_give_up_example :
    (linearize_via_fglm_or_gap
        (fun (g : LinGlobals Unit) _ _ _ (e : Bool) => (if e then (-1 : Int) else 0, g)) 28 3 2 4
        ⟨0, 0, 0, 0, ()⟩).map (fun r => (r.1, r.2.calls.length))
      = some (false, 2) := by
  rfl

/-! ## `normalize_row` -/

theorem fmpz_popcnt_eq_zero (n : Nat) : fmpz_popcnt n = 0 ↔ n = 0 := by
  induction n using Nat.strong_induction_on with
  | _ n ih =>
    cases n with
    | zero => simp [fmpz_popcnt]
    | succ m =>
      rw [fmpz_popcnt]
      constructor
      · intro h
        have h1 : (m + 1) % 2 = 0 := by omega
        have h2 : fmpz_popcnt ((m + 1) / 2) = 0 := by omega
        have := (ih ((m + 1) / 2) (by omega)).1 h2
        omega
      · intro h; omega

/-- The bit count is 1 exactly for the powers of two. -/
theorem fmpz_popcnt_eq_one (n : Nat) : fmpz_popcnt n = 1 ↔ ∃ k, n = 2 ^ k := by
  induction n using Nat.strong_induction_on with
  | _ n ih =>
    cases n with
    | zero =>
      simp only [fmpz_popcnt]
      constructor
      · intro h; omega
      · rintro ⟨k, hk⟩
        have := Nat.pos_pow_of_pos k (show 0 < 2 by decide)
        omega
    | succ m =>
      rw [fmpz_popcnt]
      constructor
      · intro h
        rcases Nat.mod_two_eq_zero_or_one (m + 1) with h1 | h1
        · have h2 : fmpz_popcnt ((m + 1) / 2) = 1 := by omega
          obtain ⟨k, hk⟩ := (ih ((m + 1) / 2) (by omega)).1 h2
          refine ⟨k + 1, ?_⟩
          rw [pow_succ, ← hk]
          omega
        · have h2 : fmpz_popcnt ((m + 1) / 2) = 0 := by omega
          have := (fmpz_popcnt_eq_zero _).1 h2
          exact ⟨0, by simp; omega⟩
      · rintro ⟨k, hk⟩
        cases k with
        | zero =>
          have hm : m = 0 := by simpa using hk
          subst hm
          simp [fmpz_popcnt]
        | succ k =>
          have h1 : (m + 1) / 2 = 2 ^ k := by rw [hk, pow_succ]; simp
          have h2 : (m + 1) % 2 = 0 := by rw [hk, pow_succ]; simp
          rw [h2, (ih ((m + 1) / 2) (by omega)).2 ⟨k, h1⟩]

theorem foldl_lcm_dvd (f : Nat → Nat) (l : List Nat) (init : Nat) :
    init ∣ l.foldl (fun den j => Nat.lcm den (f j)) init ∧
    ∀ j ∈ l, f j ∣ l.foldl (fun den j => Nat.lcm den (f j)) init := by
  induction l generalizing init with
  | nil => simp
  | cons x l ih =>
    rw [List.foldl_cons]
    obtain ⟨h1, h2⟩ := ih (Nat.lcm init (f x))
    refine ⟨(Nat.dvd_lcm_left _ _).trans h1, fun j hj => ?_⟩
    rcases List.mem_cons.1 hj with h | h
    · rw [h]; exact (Nat.dvd_lcm_right _ _).trans h1
    · exact h2 j h

theorem foldl_lcm_pos (f : Nat → Nat) (hf : ∀ j, 0 < f j) (l : List Nat) (init : Nat)
    (hi : 0 < init) : 0 < l.foldl (fun den j => Nat.lcm den (f j)) init := by
  induction l generalizing init with
  | nil => simpa using hi
  | cons x l ih =>
    rw [List.foldl_cons]
    exact ih _ (Nat.lcm_pos hi (hf x))

theorem normalize_row_den_pos (mat : fmpq_mat) (i : Nat) : 0 < normalize_row_den mat i :=
  foldl_lcm_pos (fun j => (mat.entry i j).den) (fun j => (mat.entry i j).den_pos) _ 1 (by decide)

theorem normalize_row_den_dvd (mat : fmpq_mat) (i j : Nat) (hj : j < mat.c) :
    (mat.entry i j).den ∣ normalize_row_den mat i :=
  (foldl_lcm_dvd (fun j => (mat.entry i j).den) (List.range mat.c) 1).2 j (List.mem_range.2 hj)

/-- The second loop of `normalize_row` multiplies the entries of row `i` in the
first `n` columns by `d` and leaves the rest of the matrix. -/
theorem scale_row_entry (i n : Nat) (d : ℚ) (E : fmpq_mat) (x y : Nat) :
    ((List.range n).foldl (fun m j => m.set i j (m.entry i j * d)) E).entry x y
      = if x = i ∧ y < n then E.entry x y * d else E.entry x y := by
  induction n generalizing x y with
  | zero => simp
  | succ n ih =>
    rw [List.range_succ, List.foldl_append, List.foldl_cons, List.foldl_nil, set_entry, ih, ih]
    by_cases hx : x = i
    · by_cases hy : y = n
      · subst hx hy
        simp
      · by_cases hy2 : y < n
        · have : y < n + 1 := by omega
          simp [hx, hy, hy2, this]
        · have : ¬ y < n + 1 := by omega
          simp [hx, hy, hy2, this]
    · simp [hx]

theorem scale_row_dims (i n : Nat) (d : ℚ) (E : fmpq_mat) :
    ((List.range n).foldl (fun m j => m.set i j (m.entry i j * d)) E).r = E.r ∧
    ((List.range n).foldl (fun m j => m.set i j (m.entry i j * d)) E).c = E.c := by
  induction n with
  | zero => simp
  | succ n ih =>
    rw [List.range_succ, List.foldl_append, List.foldl_cons, List.foldl_nil]
    exact ih

/-- A rational times a multiple of its denominator is an integer. -/
theorem rat_mul_den_multiple (q : ℚ) (d : Nat) (h : q.den ∣ d) :
    q * (d : ℚ) = ((q.num * ((d / q.den : Nat) : Int) : Int) : ℚ) := by
  obtain ⟨m, hm⟩ := h
  have hq : 0 < q.den := q.den_pos
  have e : d / q.den = m := by rw [hm]; exact Nat.mul_div_cancel_left m hq
  rw [e, hm]
  push_cast
  rw [← mul_assoc, Rat.mul_den_eq_num]

theorem normalize_row_core (K : fmpq_mat) (i : Nat) :
    (normalize_row K i).2 = true ∧
    (normalize_row K i).1.r = K.r ∧ (normalize_row K i).1.c = K.c ∧
    0 < normalize_row_den K i ∧
    (∀ a b, a ≠ i → (normalize_row K i).1.entry a b = K.entry a b) ∧
    ((∃ k, normalize_row_den K i = 2 ^ k) → ∀ j, j < K.c →
      (normalize_row K i).1.entry i j = (normalize_row_den K i : ℚ) * K.entry i j ∧
      ((normalize_row K i).1.entry i j).den = 1 ∧
      ((((normalize_row K i).1.entry i j).num : Int) : ℚ)
        = (normalize_row_den K i : ℚ) * K.entry i j) ∧
    ((¬ ∃ k, normalize_row_den K i = 2 ^ k) → ∀ a b,
      (normalize_row K i).1.entry a b = K.entry a b) := by
  refine ⟨rfl, ?_, ?_, normalize_row_den_pos K i, ?_, ?_, ?_⟩
  · unfold normalize_row
    split_ifs
    · exact (scale_row_dims _ _ _ _).1
    · rfl
  · unfold normalize_row
    split_ifs
    · exact (scale_row_dims _ _ _ _).2
    · rfl
  · intro a b ha
    unfold normalize_row
    split_ifs
    · simp only
      rw [scale_row_entry, if_neg (fun h => ha h.1)]
    · rfl
  · intro hk j hj
    have hp := (fmpz_popcnt_eq_one _).2 hk
    have e : (normalize_row K i).1.entry i j = K.entry i j * (normalize_row_den K i : ℚ) := by
      unfold normalize_row
      simp only [if_pos hp]
      rw [scale_row_entry, if_pos ⟨rfl, hj⟩]
    have e2 := rat_mul_den_multiple (K.entry i j) _ (normalize_row_den_dvd K i j hj)
    refine ⟨by rw [e, mul_comm], ?_, ?_⟩
    · rw [e, e2]; exact Rat.den_intCast _
    · rw [e, e2, Rat.num_intCast, ← e2, mul_comm]
  · intro hk a b
    have hp : ¬ fmpz_popcnt (normalize_row_den K i) = 1 := fun h => hk ((fmpz_popcnt_eq_one _).1 h)
    unfold normalize_row
    simp only [if_neg hp]

/-- What `normalize_row(K, i)` does: it returns true in every case and leaves
the size of `K` and every other row. With `den` the least common multiple of the
denominators of row `i` (a positive integer): when `den` is a power of two,
every entry of row `i` becomes `den` times the original entry, is an integer,
and its numerator, which `guess_linear` takes as coefficient, is `den` times the
original entry; when `den` is not a power of two the matrix is left
unchanged. -/
theorem normalize_row_spec (K : fmpq_mat) (i : Nat) :
    (normalize_row K i).2 = true ∧
    (normalize_row K i).1.r = K.r ∧ (normalize_row K i).1.c = K.c ∧
    0 < normalize_row_den K i ∧
    (∀ a b, a ≠ i → (normalize_row K i).1.entry a b = K.entry a b) ∧
    ((∃ k, normalize_row_den K i = 2 ^ k) → ∀ j, j < K.c →
      (normalize_row K i).1.entry i j = (normalize_row_den K i : ℚ) * K.entry i j ∧
      ((normalize_row K i).1.entry i j).den = 1 ∧
      ((((normalize_row K i).1.entry i j).num : Int) : ℚ)
        = (normalize_row_den K i : ℚ) * K.entry i j) ∧
    ((¬ ∃ k, normalize_row_den K i = 2 ^ k) → ∀ a b,
      (normalize_row K i).1.entry a b = K.entry a b) :=
  normalize_row_core K i

/-- The row `(1/2 -3/4)` has `den = 4`; after `normalize_row` it is `(2 -3)`,
and these are the coefficients read by `guess_linear`. -/
theorem normalize_row_spec_witness :
    normalize_row_den rowMatrixQuarter 0 = 2 ^ 2 ∧
    (normalize_row rowMatrixQuarter 0).1.entry 0 0 = (4 : ℚ) * mkRat 1 2 ∧
    (normalize_row rowMatrixQuarter 0).1.entry 0 1 = (4 : ℚ) * mkRat (-3) 4 ∧
    ((normalize_row rowMatrixQuarter 0).1.entry 0 0).den = 1 ∧
    ((normalize_row rowMatrixQuarter 0).1.entry 0 1).den = 1 := by
  have hd : normalize_row_den rowMatrixQuarter 0 = 2 ^ 2 := by decide
  have h := (normalize_row_spec rowMatrixQuarter 0).2.2.2.2.2.1 ⟨2, hd⟩
  have h0 := h 0 (by decide)
  have h1 := h 1 (by decide)
  rw [hd] at h0 h1
  refine ⟨hd, ?_, ?_, h0.2.1, h1.2.1⟩
  · rw [h0.1]; norm_num [rowMatrixQuarter]
  · rw [h1.1]; norm_num [rowMatrixQuarter]

/-- C34 (failing input): the row `(1 1/3)` has `den = 3`, which is not a power
of two, so `normalize_row` skips the multiplication and still returns true (the
result flag is set after the guarded block, not inside it). The caller
`guess_linear`, which skips a row only when `normalize_row` returns false, goes
on with the row as it is: the entry `1/3` is not an integer, the numerators
`(1 1)` are read as coefficients, and these are not a rational multiple of the
row `(1 1/3)`. -/
theorem normalize_row_counterexample :
    (normalize_row rowMatrixThird 0).2 = true ∧
    ((normalize_row rowMatrixThird 0).1.entry 0 1).den = 3 ∧
    guess_row_nums (normalize_row rowMatrixThird 0).1 0 2 = [1, 1] ∧
    ¬ ∃ q : ℚ, ∀ j, j < 2 →
      ((((normalize_row rowMatrixThird 0).1.entry 0 j).num : Int) : ℚ)
        = q * rowMatrixThird.entry 0 j := by
  have hd : normalize_row_den rowMatrixThird 0 = 3 := by decide
  have hp : ¬ fmpz_popcnt (normalize_row_den rowMatrixThird 0) = 1 := by
    rw [hd]; simp [fmpz_popcnt]
  have e : (normalize_row rowMatrixThird 0).1 = rowMatrixThird := by
    unfold normalize_row
    simp only [if_neg hp]
  rw [e]
  refine ⟨rfl, by decide, by decide, ?_⟩
  rintro ⟨q, hq⟩
  have h0 := hq 0 (by decide)
  have h1 := hq 1 (by decide)
  have n0 : (rowMatrixThird.entry 0 0).num = 1 := by decide
  have n1 : (rowMatrixThird.entry 0 1).num = 1 := by decide
  have v0 : rowMatrixThird.entry 0 0 = 1 := by norm_num [rowMatrixThird]
  have v1 : rowMatrixThird.entry 0 1 = 1 / 3 := by norm_num [rowMatrixThird]
  rw [n0, v0] at h0
  rw [n1, v1] at h1
  have hq1 : q = 1 := by
    have := h0
    push_cast at this
    linarith
  rw [hq1] at h1
  norm_num at h1

/-! ## The cache round trip -/

theorem find_id_of_mem (m : VarIds) (v : Var) (i : Nat) (hk : (m.map Prod.fst).Nodup)
    (h : (v, i) ∈ m) : find_id m v = some i := by
  induction m with
  | nil => simp at h
  | cons e m ih =>
    obtain ⟨w, j⟩ := e
    simp only [List.map_cons, List.nodup_cons] at hk
    rcases List.mem_cons.1 h with h1 | h1
    · cases h1
      simp [find_id]
    · have hne : w ≠ v := by
        intro e
        apply hk.1
        rw [e]
        exact List.mem_map.2 ⟨(v, i), h1, rfl⟩
      simp only [find_id, if_neg hne]
      exact ih hk.2 h1

theorem find_id_mem (m : VarIds) (v : Var) (i : Nat) (h : find_id m v = some i) :
    (v, i) ∈ m := by
  induction m with
  | nil => simp [find_id] at h
  | cons e m ih =>
    obtain ⟨w, j⟩ := e
    simp only [find_id] at h
    split_ifs at h with hw
    · cases h
      rw [hw]; simp
    · exact List.mem_cons_of_mem _ (ih h)

/-- The identifier that `compress_linear` stores for a term. -/
theorem compress_linear_fold (m : VarIds) (l : List Monomial) (acc : compressed_polynomial)
    (hkeys : ∀ v ∈ varsOf l, find_id m v ≠ none) :
    l.foldl
      (fun (acc : compressed_polynomial × VarIds) mo =>
        match mo.term with
        | [] => (acc.1 ++ [(mo.coeff, 0)], acc.2)
        | v :: _ => (acc.1 ++ [(mo.coeff, (map_index acc.2 v).1)], (map_index acc.2 v).2))
      (acc, m)
    = (acc ++ l.map (fun mo => (mo.coeff,
        match mo.term with
        | [] => 0
        | v :: _ => (find_id m v).getD 0)), m) := by
  induction l generalizing acc with
  | nil => simp
  | cons mo l ih =>
    have hl : ∀ v ∈ varsOf l, find_id m v ≠ none := by
      intro v hv
      apply hkeys
      simp only [varsOf, List.flatMap_cons, List.mem_append]
      exact Or.inr hv
    rw [List.foldl_cons]
    cases ht : mo.term with
    | nil =>
      simp only
      rw [ih _ hl]
      simp [ht]
    | cons v r =>
      obtain ⟨i, hi⟩ := Option.ne_none_iff_exists'.1 (hkeys v (by
        simp only [varsOf, List.flatMap_cons, List.mem_append]
        left; rw [ht]; simp))
      have e : map_index m v = (i, m) := by simp [map_index, hi]
      simp only [e]
      rw [ih _ hl]
      simp [ht, hi]

/-- Filling the table: every entry of the map is stored at its identifier, the
other places keep their content. -/
theorem id_to_term_fill (l : VarIds) (T : List Term) (hb : ∀ e ∈ l, e.2 < T.length)
    (hinj : (l.map Prod.snd).Nodup) :
    ∃ T2, l.foldlM
        (fun (tbl : List Term) (e : Var × Nat) =>
          if e.2 < tbl.length then pure (tbl.set e.2 (new_term e.1 []))
          else Except.error Fault.outOfBounds) T = Except.ok T2 ∧
      T2.length = T.length ∧ (∀ e ∈ l, T2[e.2]? = some [e.1]) ∧
      (∀ k, k ∉ l.map Prod.snd → T2[k]? = T[k]?) := by
  induction l generalizing T with
  | nil => exact ⟨T, rfl, rfl, fun e he => by simp at he, fun k _ => rfl⟩
  | cons e l ih =>
    simp only [List.map_cons, List.nodup_cons] at hinj
    have he : e.2 < T.length := hb e (by simp)
    obtain ⟨T2, h1, h2, h3, h4⟩ := ih (T.set e.2 (new_term e.1 []))
      (fun x hx => by rw [List.length_set]; exact hb x (List.mem_cons_of_mem _ hx)) hinj.2
    refine ⟨T2, ?_, ?_, ?_, ?_⟩
    · rw [List.foldlM_cons, if_pos he]
      exact h1
    · rw [h2, List.length_set]
    · intro x hx
      rcases List.mem_cons.1 hx with h | h
      · rw [h, h4 _ hinj.1]
        simp [new_term, he]
      · exact h3 x h
    · intro k hk
      simp only [List.map_cons, List.mem_cons, not_or] at hk
      rw [h4 k hk.2]
      rw [List.getElem?_set_ne (fun h => hk.1 h.symm)]

theorem construct_linear_fold (tbl : List Term) (m : VarIds) (l : List Monomial) (st : MStack)
    (h : ∀ mo ∈ l, tbl[(match mo.term with
        | [] => 0
        | v :: _ => (find_id m v).getD 0)]? = some mo.term) :
    (l.map (fun mo => (mo.coeff,
        match mo.term with
        | [] => 0
        | v :: _ => (find_id m v).getD 0))).foldlM
      (fun (st : MStack) (e : Int × Nat) =>
        match tbl[e.2]? with
        | some t => pure (push_mstack st (Monomial.mk e.1 t))
        | none => Except.error Fault.outOfBounds) st
    = Except.ok (l.foldl push_mstack st) := by
  induction l generalizing st with
  | nil => rfl
  | cons mo l ih =>
    rw [List.map_cons, List.foldlM_cons]
    simp only [h mo (by simp)]
    rw [pure_bind, ih _ (fun x hx => h x (List.mem_cons_of_mem _ hx))]
    rfl

theorem cache_round_trip_core (p : Polynomial) (m : VarIds) (hp : p.WF)
    (hlin : ∀ mo ∈ p.mon, mo.term.length ≤ 1) (hd : LevelsDistinct (varsOf p.mon))
    (hkeys : ∀ v ∈ varsOf p.mon, find_id m v ≠ none)
    (hinj : (m.map Prod.snd).Nodup) (hids : ∀ e ∈ m, 1 ≤ e.2 ∧ e.2 ≤ m.length) :
    ∃ c, compress_linear (some p) m = .ok (c, m) ∧
      construct_linear_polynomials [c] m = .ok [some p] := by
  refine ⟨p.mon.map (fun mo => (mo.coeff,
        match mo.term with
        | [] => 0
        | v :: _ => (find_id m v).getD 0)), ?_, ?_⟩
  · simp only [compress_linear, deref, ok_bind]
    rw [compress_linear_fold m p.mon [] hkeys]
    rfl
  · obtain ⟨T2, h1, h2, h3, h4⟩ := id_to_term_fill m (List.replicate (m.length + 1) [])
      (fun e he => by rw [List.length_replicate]; have := (hids e he).2; omega) hinj
    have hlen : 0 < T2.length := by rw [h2, List.length_replicate]; omega
    have htbl : id_to_term_table m = .ok (T2.set 0 []) := by
      simp only [id_to_term_table, h1, ok_bind]
      rfl
    have hlook : ∀ mo ∈ p.mon, (T2.set 0 [])[(match mo.term with
        | [] => 0
        | v :: _ => (find_id m v).getD 0)]? = some mo.term := by
      intro mo hmo
      cases ht : mo.term with
      | nil => simp [hlen]
      | cons v r =>
        have hr : r = [] := by
          have := hlin mo hmo
          rw [ht] at this
          simp only [List.length_cons] at this
          exact List.length_eq_zero.1 (by omega)
        subst hr
        obtain ⟨i, hi⟩ := Option.ne_none_iff_exists'.1
          (hkeys v (mem_varsOf p.mon mo v hmo (by rw [ht]; simp)))
        have hmem := find_id_mem m v i hi
        have hi1 := (hids _ hmem).1
        simp only [hi, Option.getD_some]
        have hne : (0 : Nat) ≠ i := by
          have : 1 ≤ i := hi1
          omega
        rw [List.getElem?_set_ne hne]
        exact h3 _ hmem
    have hfold := construct_linear_fold (T2.set 0 []) m p.mon [] hlook
    have hpush := foldl_push_mstack_nf_id _ (cmpFaithful_of_levels _ hd) p.mon hp.2.1
      (termsIn_of_varsOf _ p.mon (fun v hv => hv))
    have hb : build_poly p.mon.reverse = some p := by
      rw [build_poly_ne_nil _ (by simpa using hp.1)]
      simp only [List.reverse_reverse]
      rw [build_poly_deg_eq, ← hp.2.2]
    simp only [construct_linear_polynomials, htbl, ok_bind, List.mapM_cons, List.mapM_nil,
      construct_linear, hfold, hpush, hb]
    rfl

/-- C35 (amended): cache round trip. For a linear normal-form polynomial object
`p` (levels identifying its variables) whose variables are all keys of the map
`var_to_id`, when the identifiers of the map are pairwise distinct, at least 1
and at most the number of entries of the map: `compress_linear(p, var_to_id)`
leaves the map unchanged, and `construct_linear_polynomials` applied to the
compressed polynomial with the same map rebuilds `p` (same terms, same
coefficients, same order, same degree). -/
theorem cache_round_trip (p : Polynomial) (m : VarIds) (hp : p.WF)
    (hlin : ∀ mo ∈ p.mon, mo.term.length ≤ 1) (hd : LevelsDistinct (varsOf p.mon))
    (hkeys : ∀ v ∈ varsOf p.mon, find_id m v ≠ none)
    (hinj : (m.map Prod.snd).Nodup) (hids : ∀ e ∈ m, 1 ≤ e.2 ∧ e.2 ≤ m.length) :
    ∃ c, compress_linear (some p) m = .ok (c, m) ∧
      construct_linear_polynomials [c] m = .ok [some p] :=
  cache_round_trip_core p m hp hlin hd hkeys hinj hids

/-- C35 (amended) witness: `p = 2*y - x + 3` with the map `y -> 2, x -> 1`. -/
theorem cache_round_trip_witness :
    ∃ c, compress_linear
        (some ⟨[⟨2, [⟨4, 4, false⟩]⟩, ⟨-1, [⟨2, 2, false⟩]⟩, ⟨3, []⟩], 1⟩)
        [(⟨4, 4, false⟩, 2), (⟨2, 2, false⟩, 1)]
        = .ok (c, [(⟨4, 4, false⟩, 2), (⟨2, 2, false⟩, 1)]) ∧
      construct_linear_polynomials [c] [(⟨4, 4, false⟩, 2), (⟨2, 2, false⟩, 1)]
        = .ok [some ⟨[⟨2, [⟨4, 4, false⟩]⟩, ⟨-1, [⟨2, 2, false⟩]⟩, ⟨3, []⟩], 1⟩] :=
  cache_round_trip ⟨[⟨2, [⟨4, 4, false⟩]⟩, ⟨-1, [⟨2, 2, false⟩]⟩, ⟨3, []⟩], 1⟩
    [(⟨4, 4, false⟩, 2), (⟨2, 2, false⟩, 1)] (by decide) (by decide) (by decide)
    (by decide) (by decide) (by decide)

/-- C35 counterexample: the map `x -> 2` is injective with identifiers at least
1, and `x` is a key of it; `p = x` is compressed to the pair `(1, 2)`, but
`construct_linear_polynomials` allocates a table of `var_to_id.size() + 1 = 2`
entries and stores the term of `x` at index 2, outside the table. -/
theorem cache_round_trip_counterexample :
    Polynomial.WF ⟨[⟨1, [⟨2, 2, false⟩]⟩], 1⟩ ∧
    compress_linear (some ⟨[⟨1, [⟨2, 2, false⟩]⟩], 1⟩) [(⟨2, 2, false⟩, 2)]
      = .ok ([(1, 2)], [(⟨2, 2, false⟩, 2)]) ∧
    construct_linear_polynomials [[(1, 2)]] [(⟨2, 2, false⟩, 2)]
      = .error .outOfBounds := by
  refine ⟨by decide, rfl, rfl⟩

/-! ## Soundness of the positive and negative parents -/

theorem mem_update_list (f : Nat → List Int) (j : Nat) (x : List Int) (k : Nat) (v : Int)
    (h : v ∈ Function.update f j x k) : (k = j ∧ v ∈ x) ∨ (k ≠ j ∧ v ∈ f k) := by
  by_cases hk : k = j
  · subst hk
    rw [Function.update_same] at h
    exact Or.inl ⟨rfl, h⟩
  · rw [Function.update_noteq hk] at h
    exact Or.inr ⟨hk, h⟩

/-- The statements for one fan-in literal keep the stored parents sound. -/
theorem push_pos_neg_parents_sound (c : Circuit) (i : Nat) (n : Gate) (st : PosNegParents)
    (l : Nat) (and1 : aiger_and) (hn : c.gates[i]? = some n)
    (hrec : c.is_model_and n.num = some and1) (hl : l = and1.rhs0 ∨ l = and1.rhs1)
    (hs : PosNegSound c st) : PosNegSound c (push_pos_neg_parents c i n st l) := by
  have hmem : n ∈ c.gates := List.mem_iff_getElem?.mpr ⟨i, hn⟩
  unfold push_pos_neg_parents
  cases hg : gate c l with
  | none => exact hs
  | some lg =>
    cases hj : gate_idx c.M l with
    | none => exact hs
    | some j =>
      simp only
      by_cases hsign : aiger_sign l = true
      · rw [if_pos hsign]
        have h2 : 2 ≤ l := by
          by_contra hlt
          have h01 : l = 0 ∨ l = 1 := by omega
          rcases h01 with h0 | h1
          · rw [h0] at hsign; simp [aiger_sign] at hsign
          · rw [h1] at hj; simp [gate_idx] at hj
        refine ⟨hs.1, fun k v hv => ?_⟩
        rcases mem_update_list _ _ _ _ _ hv with ⟨hk, hx⟩ | ⟨_, hx⟩
        · rcases List.mem_append.1 hx with h | h
          · rw [hk]; exact hs.2 j v h
          · simp only [List.mem_singleton] at h
            refine ⟨n, hmem, h, and1, hrec, ?_⟩
            rw [hk]
            rcases hl with e | e
            · rw [e] at hsign hj h2; exact Or.inl ⟨⟨hsign, hj⟩, h2⟩
            · rw [e] at hsign hj h2; exact Or.inr ⟨⟨hsign, hj⟩, h2⟩
        · exact hs.2 k v hx
      · rw [if_neg hsign]
        have hsf : aiger_sign l = false := by simpa using hsign
        have hedge : PosEdge c n j := by
          refine ⟨and1, hrec, ?_⟩
          rcases hl with e | e
          · rw [e] at hsf hj; exact Or.inl ⟨hsf, hj⟩
          · rw [e] at hsf hj; exact Or.inr ⟨hsf, hj⟩
        have hpos1 : ∀ k v, v ∈ (if (st.neg_parents i).length > 0 then
              Function.update st.pos_parents j (st.pos_parents j ++ [n.num])
            else st.pos_parents) k → ∃ p, p ∈ c.gates ∧ p.num = v ∧ PosChain c p k := by
          intro k v hv
          split_ifs at hv
          · rcases mem_update_list _ _ _ _ _ hv with ⟨hk, hx⟩ | ⟨_, hx⟩
            · rcases List.mem_append.1 hx with h | h
              · rw [hk]; exact hs.1 j v h
              · simp only [List.mem_singleton] at h
                rw [hk]
                exact ⟨n, hmem, h.symm, PosChain.edge n j hmem hedge⟩
            · exact hs.1 k v hx
          · exact hs.1 k v hv
        refine ⟨fun k v hv => ?_, hs.2⟩
        rcases mem_update_list _ _ _ _ _ hv with ⟨hk, hx⟩ | ⟨_, hx⟩
        · rw [hk]
          rcases List.mem_append.1 hx with h | h
          · exact hpos1 j v h
          · obtain ⟨p, hp, hpv, hch⟩ := hpos1 i v h
            exact ⟨p, hp, hpv, PosChain.step p i n j hch hn hedge⟩
        · exact hpos1 k v hx

theorem set_pos_neg_parents_step_sound (c : Circuit) (st : PosNegParents) (i : Nat)
    (hi : i < c.gates.length) (hs : PosNegSound c st) :
    ∃ st2, set_pos_neg_parents_step c st i = .ok st2 ∧ PosNegSound c st2 := by
  unfold set_pos_neg_parents_step
  have hn : c.gates[i]? = some (c.gates[i]) := List.getElem?_eq_getElem hi
  rw [hn]
  simp only [derefGate, ok_bind]
  cases hrec : c.is_model_and (c.gates[i]).num with
  | none => exact ⟨st, rfl, hs⟩
  | some and1 =>
    refine ⟨_, rfl, ?_⟩
    apply push_pos_neg_parents_sound c i _ _ _ and1 hn hrec (Or.inr rfl)
    exact push_pos_neg_parents_sound c i _ _ _ and1 hn hrec (Or.inl rfl) hs

theorem set_pos_neg_parents_loop_sound (c : Circuit) (L : List Nat) (st : PosNegParents)
    (hL : ∀ i ∈ L, i < c.gates.length) (hs : PosNegSound c st) :
    ∃ st2, L.foldlM (set_pos_neg_parents_step c) st = .ok st2 ∧ PosNegSound c st2 := by
  induction L generalizing st with
  | nil => exact ⟨st, rfl, hs⟩
  | cons i L ih =>
    obtain ⟨st1, h1, hs1⟩ := set_pos_neg_parents_step_sound c st i (hL i (by simp)) hs
    obtain ⟨st2, h2, hs2⟩ := ih st1 (fun x hx => hL x (List.mem_cons_of_mem _ hx)) hs1
    refine ⟨st2, ?_, hs2⟩
    rw [List.foldlM_cons, h1, ok_bind]
    exact h2

theorem set_pos_neg_parents_sound (c : Circuit) (hNN : 0 < c.NN) (hlen : c.M ≤ c.gates.length) :
    ∃ st, set_pos_neg_parents c = .ok st ∧ PosNegSound c st := by
  unfold set_pos_neg_parents
  rw [if_neg (by omega)]
  apply set_pos_neg_parents_loop_sound
  · intro i hi
    simp only [List.mem_reverse, List.mem_range'_1] at hi
    omega
  · exact ⟨fun j v hv => by simp at hv, fun j v hv => by simp at hv⟩

theorem mul_eq_one_of_bool (a b : Int) (ha : a = 0 ∨ a = 1) (hb : b = 0 ∨ b = 1)
    (h : a * b = 1) : a = 1 ∧ b = 1 := by
  rcases ha with ha | ha <;> rcases hb with hb | hb <;> simp [ha, hb] at h ⊢

/-- The value of a literal that is not negated and has the gate in slot `j` as
its gate is 1 only if the variable of that gate is 1. -/
theorem litValue_pos_slot (σ : Var → Int) (c : Circuit) (l j : Nat) (g : Gate)
    (hs : aiger_sign l = false) (hj : gate_idx c.M l = some j) (hg : c.gates[j]? = some g)
    (h : litValue σ c l = 1) : σ g.get_var = 1 := by
  unfold litValue at h
  by_cases h0 : l = 0
  · simp [h0] at h
  · by_cases h1 : l = 1
    · rw [h1] at hs; simp [aiger_sign] at hs
    · rw [if_neg h0, if_neg h1] at h
      have e : j = l / 2 - 1 := by
        unfold gate_idx at hj
        rw [if_neg (by omega), if_neg (by omega)] at hj
        simp only [Option.some.injEq] at hj
        omega
      rw [← e, hg] at h
      simp only [hs] at h
      simpa using h

/-- The value of a negated literal `l >= 2` that has the gate in slot `j` as its
gate is 1 only if the variable of that gate is 0. -/
theorem litValue_neg_slot (σ : Var → Int) (c : Circuit) (l j : Nat) (g : Gate)
    (hs : aiger_sign l = true) (h2 : 2 ≤ l) (hj : gate_idx c.M l = some j)
    (hg : c.gates[j]? = some g) (h : litValue σ c l = 1) : σ g.get_var = 0 := by
  unfold litValue at h
  rw [if_neg (by omega), if_neg (by omega)] at h
  have e : j = l / 2 - 1 := by
    unfold gate_idx at hj
    rw [if_neg (by omega), if_neg (by omega)] at hj
    simp only [Option.some.injEq] at hj
    omega
  rw [← e, hg] at h
  simp only [hs, if_true] at h
  omega

theorem posEdge_implies (c : Circuit) (p : Gate) (j : Nat) (hp : p ∈ c.gates)
    (he : PosEdge c p j) (g : Gate) (hg : c.gates[j]? = some g) (σ : Var → Int)
    (hσ : Consistent σ c) (h1 : σ p.get_var = 1) : σ g.get_var = 1 := by
  obtain ⟨and1, hrec, hor⟩ := he
  have hv := hσ.2 p hp and1 hrec
  rw [h1] at hv
  obtain ⟨a, b⟩ := mul_eq_one_of_bool _ _ (litValue_bool σ hσ.1 c and1.rhs0)
    (litValue_bool σ hσ.1 c and1.rhs1) hv.symm
  rcases hor with ⟨hs, hj⟩ | ⟨hs, hj⟩
  · exact litValue_pos_slot σ c _ j g hs hj hg a
  · exact litValue_pos_slot σ c _ j g hs hj hg b

theorem negEdge_implies (c : Circuit) (p : Gate) (j : Nat) (hp : p ∈ c.gates)
    (he : NegEdge c p j) (g : Gate) (hg : c.gates[j]? = some g) (σ : Var → Int)
    (hσ : Consistent σ c) (h1 : σ p.get_var = 1) : σ g.get_var = 0 := by
  obtain ⟨and1, hrec, hor⟩ := he
  have hv := hσ.2 p hp and1 hrec
  rw [h1] at hv
  obtain ⟨a, b⟩ := mul_eq_one_of_bool _ _ (litValue_bool σ hσ.1 c and1.rhs0)
    (litValue_bool σ hσ.1 c and1.rhs1) hv.symm
  rcases hor with ⟨⟨hs, hj⟩, h2⟩ | ⟨⟨hs, hj⟩, h2⟩
  · exact litValue_neg_slot σ c _ j g hs h2 hj hg a
  · exact litValue_neg_slot σ c _ j g hs h2 hj hg b

/-- A chain starts at an AND gate of the table, and the gate at its start
implies the gate at its end on every consistent assignment. -/
theorem posChain_implies (c : Circuit) (p : Gate) (j : Nat) (h : PosChain c p j) :
    p ∈ c.gates ∧ (c.is_model_and p.num).isSome ∧
    ∀ g, c.gates[j]? = some g → ∀ σ : Var → Int, Consistent σ c →
      σ p.get_var = 1 → σ g.get_var = 1 := by
  induction h with
  | edge j hp he =>
    refine ⟨hp, ?_, fun g hg σ hσ h1 => posEdge_implies c p j hp he g hg σ hσ h1⟩
    obtain ⟨and1, hrec, _⟩ := he
    rw [hrec]; rfl
  | step i m j _ hm he ih =>
    refine ⟨ih.1, ih.2.1, fun g hg σ hσ h1 => ?_⟩
    have hm1 := ih.2.2 m hm σ hσ h1
    exact posEdge_implies c m j (List.mem_iff_getElem?.mpr ⟨i, hm⟩) he g hg σ hσ hm1

theorem pos_neg_parents_core (c : Circuit) (hNN : 0 < c.NN) (hlen : c.M ≤ c.gates.length)
    (heven : ∀ g ∈ c.gates, (c.is_model_and g.num).isSome → g.num % 2 = 0) :
    ∃ st, set_pos_neg_parents c = .ok st ∧
      (∀ j g v, c.gates[j]? = some g → v ∈ st.pos_parents j →
        ∃ p, p ∈ c.gates ∧ p.num = v ∧ (c.is_model_and p.num).isSome ∧ PosChain c p j ∧
          ∀ σ : Var → Int, Consistent σ c → σ p.get_var = 1 → σ g.get_var = 1) ∧
      (∀ j g v, c.gates[j]? = some g → v ∈ st.neg_parents j →
        v % 2 = 1 ∧ ∃ p, p ∈ c.gates ∧ v = p.num + 1 ∧ NegEdge c p j ∧
          ∀ σ : Var → Int, Consistent σ c → σ p.get_var = 1 → σ g.get_var = 0) := by
  obtain ⟨st, h1, hpos, hneg⟩ := set_pos_neg_parents_sound c hNN hlen
  refine ⟨st, h1, fun j g v hg hv => ?_, fun j g v hg hv => ?_⟩
  · obtain ⟨p, hp, hpv, hch⟩ := hpos j v hv
    obtain ⟨_, ha, himp⟩ := posChain_implies c p j hch
    exact ⟨p, hp, hpv, ha, hch, himp g hg⟩
  · obtain ⟨p, hp, hpv, he⟩ := hneg j v hv
    have hev : p.num % 2 = 0 := heven p hp (by
      obtain ⟨and1, hrec, _⟩ := he
      rw [hrec]; rfl)
    refine ⟨by omega, p, hp, hpv, he, fun σ hσ h1 => negEdge_implies c p j hp he g hg σ hσ h1⟩

/-- C40: let the gate table hold a gate in every slot below `M`, with `NN > 0`
and even numbers for the AND gates, and let the lists start empty. Then the
first loop of `set_parents_and_children` returns, and afterwards, for the gate
`g` of every slot: every value stored in `g.pos_parents` is the number of an AND
gate `p` of the table from which a chain of fan-in edges that are not negated
leads to `g`, so that `p = 1` forces `g = 1` on every assignment consistent
with the AIG; and every value stored in `g.neg_parents` is odd, the number plus
one of an AND gate `p` of the table of which `g` is the gate of a negated fan-in
literal, so that `p = 1` forces `g = 0`. -/
theorem pos_neg_parents_sound (c : Circuit) (hNN : 0 < c.NN) (hlen : c.M ≤ c.gates.length)
    (heven : ∀ g ∈ c.gates, (c.is_model_and g.num).isSome → g.num % 2 = 0) :
    ∃ st, set_pos_neg_parents c = .ok st ∧
      (∀ j g v, c.gates[j]? = some g → v ∈ st.pos_parents j →
        ∃ p, p ∈ c.gates ∧ p.num = v ∧ (c.is_model_and p.num).isSome ∧ PosChain c p j ∧
          ∀ σ : Var → Int, Consistent σ c → σ p.get_var = 1 → σ g.get_var = 1) ∧
      (∀ j g v, c.gates[j]? = some g → v ∈ st.neg_parents j →
        v % 2 = 1 ∧ ∃ p, p ∈ c.gates ∧ v = p.num + 1 ∧ NegEdge c p j ∧
          ∀ σ : Var → Int, Consistent σ c → σ p.get_var = 1 → σ g.get_var = 0) :=
  pos_neg_parents_core c hNN hlen heven

/-- C40 witness: the half adder, with the gates `n1 = b & a` (number 6),
`n2 = !b & !a` (8) and `s = !n2 & !n1` (10). -/
theorem pos_neg_parents_sound_witness :
    ∃ st, set_pos_neg_parents halfAdder = .ok st ∧
      (∀ j g v, halfAdder.gates[j]? = some g → v ∈ st.pos_parents j →
        ∃ p, p ∈ halfAdder.gates ∧ p.num = v ∧ (halfAdder.is_model_and p.num).isSome ∧
          PosChain halfAdder p j ∧
          ∀ σ : Var → Int, Consistent σ halfAdder → σ p.get_var = 1 → σ g.get_var = 1) ∧
      (∀ j g v, halfAdder.gates[j]? = some g → v ∈ st.neg_parents j →
        v % 2 = 1 ∧ ∃ p, p ∈ halfAdder.gates ∧ v = p.num + 1 ∧ NegEdge halfAdder p j ∧
          ∀ σ : Var → Int, Consistent σ halfAdder → σ p.get_var = 1 → σ g.get_var = 0) :=
  pos_neg_parents_sound halfAdder (by decide) (by decide) (by decide)

/-- The lists of the half adder: the inputs `a` and `b` (slots 0 and 1) have
the positive parent 6 (`n1`, which has a negative parent) and the negative
parent 9 (`n2`); `n1` and `n2` (slots 2 and 3) have the negative parent 11
(`s`). -/
theorem pos_neg_parents_halfAdder_example :
    (match set_pos_neg_parents halfAdder with
      | .ok st => some ((List.range 5).map st.pos_parents, (List.range 5).map st.neg_parents)
      | .error _ => none)
      = some ([[6], [6], [], [], []], [[9], [9], [11], [11], []]) := by
  rfl

/-! ## The polynomial returned by `linearize_spec` -/

/-- C39: the polynomial returned by `linearize_spec` need not be in normal form
with respect to the levels in force after `adjust_level_of_extended_gates`. For
the AIG with `s0 = a & !b` the specification `-s0 - b*a + a` is in normal form
with sorted terms and has degree 2. `linearize_spec` pushes `-s0`, creates the
extension gate `t0` (number -1, level -2) for `b*a`, pushes `-t0` and then `a`,
and builds `-s0 + a - t0`, sorted by the levels 8, 2 and -2. After that
`adjust_level_of_extended_gates` moves `t0` to level 4 and `a` to level -2, so
in the returned polynomial the term `a` stands before the larger term `t0`. -/
theorem linearize_spec_not_normal_form :
    andNotSpec.WF ∧ TermsSorted andNotSpec.mon ∧
    ∃ tmp sF, linearize_spec (fun _ _ => none)
        { c := andNotTable, size_gates := 4, extended_gates := 0 } (some andNotSpec)
        = .ok (some tmp, sF) ∧
      tmp.mon = [⟨-1, [⟨0, 8, false⟩]⟩, ⟨1, [⟨2, 2, false⟩]⟩, ⟨-1, [⟨-1, -2, false⟩]⟩] ∧
      relevelMons sF.c tmp.mon
        = [⟨-1, [⟨0, 8, false⟩]⟩, ⟨1, [⟨2, -2, false⟩]⟩, ⟨-1, [⟨-1, 4, false⟩]⟩] ∧
      cmp_term [⟨2, -2, false⟩] [⟨-1, 4, false⟩] = -1 ∧
      ¬ NormalForm (relevelMons sF.c tmp.mon) := by
  refine ⟨by decide, by decide, ?_⟩
  refine ⟨_, _, rfl, rfl, rfl, by decide, by decide⟩

/-! ## Proof-log validity of linear substitution and `mod_poly` -/

/-- Adding a constant to a polynomial without constant monomial appends it. -/
theorem add_poly_loop_const (l : List Monomial) (k : Int) (st : MStack)
    (hl : ∀ m ∈ l, m.term ≠ [] ∧ m.coeff ≠ 0) (hk : k ≠ 0) :
    add_poly_loop l [Monomial.mk k []] st = Monomial.mk k [] :: (l.reverse ++ st) := by
  induction l generalizing st with
  | nil => simp [add_poly_loop, push_mstack_end, hk]
  | cons m l ih =>
    have hm := hl m (by simp)
    rw [add_poly_loop, if_pos (Or.inr rfl), if_neg (fun h => hm.1 h.1), if_neg hm.1,
      ih _ (fun e he => hl e (List.mem_cons_of_mem _ he))]
    simp [push_mstack_end, hm.2]

theorem lin_timesTerm (g : Term → Int) (t : Term) (l : List Monomial) :
    lin g (timesTerm t l) = lin (fun u => g (if u = [] then t else multiply_term u t)) l := by
  simp only [lin, timesTerm, List.map_map]
  rfl

theorem lin_prodMons_single (g : Term → Int) (l : List Monomial) (k : Int) (t : Term)
    (ht : t ≠ []) : lin g (prodMons l [Monomial.mk k t]) = k * lin g (timesTerm t l) := by
  induction l with
  | nil => simp [prodMons, timesTerm, lin]
  | cons m l ih =>
    have e : prodMons (m :: l) [Monomial.mk k t]
        = multiply_monomial m (Monomial.mk k t) :: prodMons l [Monomial.mk k t] := by
      simp [prodMons]
    have e2 : timesTerm t (m :: l)
        = Monomial.mk m.coeff (if m.term = [] then t else multiply_term m.term t)
          :: timesTerm t l := by
      simp [timesTerm]
    rw [e, e2, lin_cons, lin_cons, ih]
    simp only [multiply_monomial]
    by_cases hm : m.term = []
    · simp [hm, ht]; ring
    · simp [hm, ht]; ring

theorem mem_of_coeffAt_ne_zero (l : List Monomial) (t : Term) (h : coeffAt l t ≠ 0) :
    ∃ e ∈ l, e.term = t := by
  by_contra hn
  push_neg at hn
  exact h (coeffAt_eq_zero_of_not_mem l t hn)

theorem minus_one_poly : build_poly (push_mstack [] (Monomial.mk (-1) []))
    = some (Polynomial.mk [Monomial.mk (-1) []] 0) := by
  rfl

/-- The polynomial `x_spec_new` built from `res` has the monomials of
`x * res - 1`. -/
theorem build_x_spec_mons (x : Var) (res : Option Polynomial)
    (hnz : ∀ m ∈ mons res, m.coeff ≠ 0) (hs : TermsSorted (mons res))
    (hd : LevelsDistinct (varsOf (mons res) ++ [x])) :
    ∃ xs, build_x_spec [x] res = .ok xs ∧ mons xs = xSpecMons x (mons res) := by
  cases res with
  | none =>
    refine ⟨some (Polynomial.mk [Monomial.mk (-1) []] 0), ?_, rfl⟩
    rfl
  | some a =>
    by_cases hnil : a.mon = []
    · refine ⟨some (Polynomial.mk [Monomial.mk (-1) []] 0), ?_, ?_⟩
      · simp only [build_x_spec]
        rw [multiply_poly_with_term_mons a [x] (by simp) hnz, ok_bind, minus_one_poly]
        simp [hnil, timesTerm, build_poly, add_poly]
        rfl
      · simp [xSpecMons, mons, hnil, timesTerm]
    · have hne : (timesTerm [x] a.mon).reverse ≠ [] := by
        simpa [timesTerm] using hnil
      have hterms : ∀ m ∈ timesTerm [x] a.mon, m.term ≠ [] ∧ m.coeff ≠ 0 := by
        intro m hm
        simp only [timesTerm, List.mem_map] at hm
        obtain ⟨e, he, rfl⟩ := hm
        refine ⟨?_, hnz e he⟩
        apply times_term_ne_nil [x] e.term (by simp) (by simp [TermSorted]) (hs e he)
        intro v hv w hw hvw
        refine hd v ?_ w ?_ hvw
        · simp only [List.mem_append, List.mem_singleton] at hv ⊢
          rcases hv with h | h
          · exact Or.inl (mem_varsOf _ e v he h)
          · exact Or.inr h
        · simp only [List.mem_append, List.mem_singleton] at hw ⊢
          rcases hw with h | h
          · exact Or.inl (mem_varsOf _ e w he h)
          · exact Or.inr h
      refine ⟨build_poly (Monomial.mk (-1) [] :: (timesTerm [x] a.mon).reverse), ?_, ?_⟩
      · simp only [build_x_spec]
        rw [multiply_poly_with_term_mons a [x] (by simp) hnz, ok_bind, minus_one_poly,
          build_poly_ne_nil _ hne]
        simp only [add_poly, List.reverse_reverse]
        rw [add_poly_loop_const _ _ _ hterms (by decide), List.append_nil]
        rfl
      · rw [mons_build_poly]
        simp [xSpecMons, mons]

theorem lin_xSpecMons (g : Term → Int) (x : Var) (l : List Monomial) :
    lin g (xSpecMons x l)
      = lin (fun u => g (if u = [] then [x] else multiply_term u [x])) l - g [] := by
  rw [xSpecMons, lin_append, lin_timesTerm, lin_cons, lin_nil]
  simp only
  ring

/-- The terms of a normal form whose image under every functional is that of
`P - k * Q` are terms of `P` or of `Q`. -/
theorem terms_of_lin_sub (R P Q : List Monomial) (k : Int) (hR : NormalForm R)
    (hlin : ∀ g, lin g R = lin g P - k * lin g Q) (e : Monomial) (he : e ∈ R) :
    (∃ m ∈ P, m.term = e.term) ∨ (∃ m ∈ Q, m.term = e.term) := by
  have h1 := coeffAt_ne_zero_of_mem R hR e he
  rw [coeffAt_eq_lin, hlin, ← coeffAt_eq_lin, ← coeffAt_eq_lin] at h1
  by_cases hP : coeffAt P e.term = 0
  · right
    apply mem_of_coeffAt_ne_zero
    intro hQ
    rw [hP, hQ] at h1
    simp at h1
  · exact Or.inl (mem_of_coeffAt_ne_zero P e.term hP)

theorem single_term_poly (k : Int) (t : Term) (hk : k ≠ 0) :
    mons (build_poly (push_mstack [] (Monomial.mk k t))) = [Monomial.mk k t] := by
  rw [mons_build_poly]
  simp [push_mstack, hk]

/-- One logged step: when the result `r` is the normal form of `P - k * Q`, the
new `x_spec` is `x * r - 1`, and it is `Q` times the cofactor `-k * x` plus the
old `x_spec = x * P - 1`, coefficient by coefficient. -/
theorem x_spec_step (x : Var) (r : Option Polynomial) (P Q : List Monomial) (k : Int)
    (hr : PolyNF r) (hlin : ∀ g, lin g (mons r) = lin g P - k * lin g Q)
    (hsP : TermsSorted P) (hsQ : TermsSorted Q)
    (hdx : LevelsDistinct (varsOf P ++ varsOf Q ++ [x])) :
    ∃ xs, build_x_spec [x] r = .ok xs ∧ mons xs = xSpecMons x (mons r) ∧
      ∀ t, coeffAt (mons xs) t
        = coeffAt (prodMons Q [Monomial.mk (-k) [x]]) t + coeffAt (xSpecMons x P) t := by
  have hR := polyNF_mons r hr
  have hterm := terms_of_lin_sub (mons r) P Q k hR hlin
  have hs : TermsSorted (mons r) := by
    intro e he
    rcases hterm e he with ⟨m, hm, h⟩ | ⟨m, hm, h⟩
    · rw [← h]; exact hsP m hm
    · rw [← h]; exact hsQ m hm
  have hv : ∀ v ∈ varsOf (mons r) ++ [x], v ∈ varsOf P ++ varsOf Q ++ [x] := by
    intro v hv
    simp only [List.mem_append, List.mem_singleton] at hv ⊢
    rcases hv with h | h
    · simp only [varsOf, List.mem_flatMap] at h
      obtain ⟨e, he, hve⟩ := h
      rcases hterm e he with ⟨m, hm, ht⟩ | ⟨m, hm, ht⟩
      · exact Or.inl (Or.inl (mem_varsOf P m v hm (by rw [ht]; exact hve)))
      · exact Or.inl (Or.inr (mem_varsOf Q m v hm (by rw [ht]; exact hve)))
    · exact Or.inr h
  obtain ⟨xs, h1, h2⟩ := build_x_spec_mons x r hR.1 hs
    (fun a ha b hb e => hdx a (hv a ha) b (hv b hb) e)
  refine ⟨xs, h1, h2, fun t => ?_⟩
  rw [h2, coeffAt_eq_lin, coeffAt_eq_lin, coeffAt_eq_lin, lin_xSpecMons, lin_xSpecMons,
    lin_prodMons_single _ _ _ _ (by simp), lin_timesTerm, hlin]
  ring

theorem substitute_linear_poly_log_eval (tx : Term) (lg : ProofLog) (p q : Polynomial)
    (qm : Monomial) (qrest : List Monomial) (hq : q.mon = qm :: qrest)
    (found : Option Monomial) (hs : substitute_search (some q) p.mon = .ok found) :
    substitute_linear_poly_log tx lg (some p) (some q) =
      match found with
      | none => (copy_ptr (some p) >>= fun r => pure (r, lg))
      | some m =>
        if m.coeff = qm.coeff then
          (sub_poly (some p) (some q) >>= fun rem =>
            build_x_spec tx rem >>= fun x_spec_new =>
              pure (rem, ProofLog.mk x_spec_new
                (lg.rules ++ [PacRule.combi (some q)
                  (build_poly (push_mstack [] (Monomial.mk (-1) tx))) lg.x_spec x_spec_new])))
        else if qm.coeff = 0 then .error .divByZero
        else if Int.tmod m.coeff qm.coeff ≠ 0 then .error (.die 1 "cannot use p2 to reduce p1")
        else
          (multiply_poly_with_constant (some q) (Int.tdiv m.coeff qm.coeff) >>= fun p2_lift =>
            sub_poly (some p) p2_lift >>= fun res =>
              build_x_spec tx res >>= fun x_spec_new =>
                pure (res, ProofLog.mk x_spec_new
                  (lg.rules ++ [PacRule.combi (some q)
                    (build_poly (push_mstack []
                      (Monomial.mk (-(Int.tdiv m.coeff qm.coeff)) tx))) lg.x_spec x_spec_new]))) := by
  simp only [substitute_linear_poly_log, deref, ok_bind, hs]
  cases found with
  | none => rfl
  | some m => simp only [Polynomial.get_lm, hq, ok_bind]

/-- With proof logging on, when no monomial of `p1` carries the leading term of
`p2`, `p1` is returned and neither `x_spec` nor the proof file changes. -/
theorem substitute_log_not_found (x : Var) (lg : ProofLog) (p q : Polynomial) (hp : p.WF)
    (hq : q.WF) (hdq : q.deg = 1) (hd : LevelsDistinct (varsOf p.mon ++ varsOf q.mon))
    (h : ∀ m ∈ p.mon, m.term ≠ leadTerm q) :
    substitute_linear_poly_log [x] lg (some p) (some q) = .ok (some p, lg) := by
  obtain ⟨qm, qrest, hqm, _⟩ := wf_deg_one_lead q hq hdq
  have hs := substitute_search_wf p q hp hq hdq hd
  have hnone : p.mon.find? (fun m => decide (m.term = leadTerm q)) = none := by
    rw [List.find?_eq_none]
    intro e he
    simpa using h e he
  rw [hnone] at hs
  rw [substitute_linear_poly_log_eval [x] lg p q qm qrest hqm none hs]
  simp only [copy_ptr_wf p hp, ok_bind]
  rfl

/-- With proof logging on, when `p1` has the monomial `c * LT(p2)` and
`c = k * d` for the leading coefficient `d` of `p2`: the result is that of the
call without logging, one combination rule is written, with `p2`, the cofactor
`-k * x`, the old `x_spec` and the new `x_spec` as conclusion, and the new
`x_spec` is `x * result - 1`. -/
theorem substitute_log_found (x : Var) (lg : ProofLog) (p q : Polynomial) (hp : p.WF)
    (hq : q.WF) (hdq : q.deg = 1) (hsp : TermsSorted p.mon) (hsq : TermsSorted q.mon)
    (hdx : LevelsDistinct (varsOf p.mon ++ varsOf q.mon ++ [x]))
    (m : Monomial) (hm : m ∈ p.mon) (hmt : m.term = leadTerm q) (k : Int)
    (hk : m.coeff = k * leadCoeff q) :
    ∃ res xs cof, substitute_linear_poly_log [x] lg (some p) (some q)
        = .ok (res, ProofLog.mk xs (lg.rules ++ [PacRule.combi (some q) cof lg.x_spec xs])) ∧
      substitute_linear_poly (some p) (some q) = .ok res ∧
      mons cof = [Monomial.mk (-k) [x]] ∧
      mons xs = xSpecMons x (mons res) ∧
      ∀ t, coeffAt (mons xs) t
        = coeffAt (prodMons q.mon (mons cof)) t + coeffAt (xSpecMons x p.mon) t := by
  have hd : LevelsDistinct (varsOf p.mon ++ varsOf q.mon) :=
    fun a ha b hb e => hdx a (by simp at ha ⊢; tauto) b (by simp at hb ⊢; tauto) e
  obtain ⟨qm, qrest, hqm, _⟩ := wf_deg_one_lead q hq hdq
  have hT := cmpFaithful_of_levels _ hd
  have hTp := termsIn_left p.mon q.mon
  have hTq := termsIn_right p.mon q.mon
  have hs := substitute_search_wf p q hp hq hdq hd
  rw [find_of_mem p q hp m hm hmt] at hs
  rw [substitute_linear_poly_log_eval [x] lg p q qm qrest hqm (some m) hs,
    substitute_linear_poly_eval p q qm qrest hqm (some m) hs]
  rw [leadCoeff_cons q qm qrest hqm] at hk
  have hq0 : qm.coeff ≠ 0 := hq.2.1.1 qm (by rw [hqm]; simp)
  have hm0 : m.coeff ≠ 0 := hp.2.1.1 m hm
  have hk0 : k ≠ 0 := by
    intro h; rw [h] at hk; simp at hk; exact hm0 hk
  simp only
  by_cases hc : m.coeff = qm.coeff
  · rw [if_pos hc, if_pos hc]
    have hk1 : k = 1 := by
      rw [hc] at hk
      have : (k - 1) * qm.coeff = 0 := by linarith
      rcases mul_eq_zero.1 this with h | h
      · omega
      · exact absurd h hq0
    obtain ⟨r, hr, hnf, hlin⟩ := sub_poly_spec _ hT p q hp hq hTp hTq
    obtain ⟨xs, h1, h2, h3⟩ := x_spec_step x r p.mon q.mon 1 hnf
      (fun g => by rw [hlin g]; ring) hsp hsq hdx
    refine ⟨r, xs, build_poly (push_mstack [] (Monomial.mk (-1) [x])), ?_, hr, ?_, h2, ?_⟩
    · rw [hr, ok_bind, h1, ok_bind]
      rfl
    · rw [hk1]; exact single_term_poly (-1) [x] (by decide)
    · intro t
      rw [h3 t, single_term_poly (-1) [x] (by decide)]
  · rw [if_neg hc, if_neg hq0, if_neg hc, if_neg hq0]
    have hmod : Int.tmod m.coeff qm.coeff = 0 := by rw [hk]; exact Int.mul_tmod_left k qm.coeff
    have hdiv : Int.tdiv m.coeff qm.coeff = k := by rw [hk]; exact Int.mul_tdiv_cancel k hq0
    rw [if_neg (by simpa using hmod), if_neg (by simpa using hmod), hdiv]
    obtain ⟨e1, w1⟩ := multiply_poly_with_constant_wf q k hq hk0
    rw [e1, ok_bind, ok_bind]
    obtain ⟨r, hr, hnf, hlin⟩ := sub_poly_spec _ hT p { mon := scaleMons k q.mon, deg := q.deg }
      hp w1 hTp (scaleMons_termsIn _ k q.mon hTq)
    obtain ⟨xs, h1, h2, h3⟩ := x_spec_step x r p.mon q.mon k hnf
      (fun g => by rw [hlin g]; simp only; rw [scaleMons_lin]) hsp hsq hdx
    refine ⟨r, xs, build_poly (push_mstack [] (Monomial.mk (-k) [x])), ?_, hr,
      single_term_poly (-k) [x] (by omega), h2, ?_⟩
    · rw [hr, ok_bind, h1, ok_bind]
      rfl
    · intro t
      rw [h3 t, single_term_poly (-k) [x] (by omega)]

theorem quotient_fold_eq (n : Nat) (l : List Monomial) (st : MStack) :
    l.foldl
        (fun st m =>
          if Int.tdiv m.coeff (2 ^ n) ≠ 0 then
            push_mstack_end st (Monomial.mk (-(Int.tdiv m.coeff (2 ^ n))) m.term)
          else st)
        st
      = (quotientMons n l).reverse ++ st := by
  induction l generalizing st with
  | nil => simp [quotientMons]
  | cons m l ih =>
    rw [List.foldl_cons, ih]
    by_cases h : Int.tdiv m.coeff (2 ^ n) = 0
    · simp [quotientMons, h]
    · simp [quotientMons, h, push_mstack_end]

theorem mod_poly_quotients_eq (a : Polynomial) (exp : Int) :
    mod_poly_quotients a exp = build_poly (quotientMons (bitcnt exp) a.mon).reverse := by
  simp only [mod_poly_quotients]
  rw [quotient_fold_eq, List.append_nil]

/-- A normal form stays one when monomials are left out and the coefficients of
the others are replaced by values that are not zero. -/
theorem normalForm_filter_map (l : List Monomial) (p : Monomial → Bool) (f : Monomial → Int)
    (hl : NormalForm l) (hf : ∀ m ∈ l, p m = true → f m ≠ 0) :
    NormalForm ((l.filter p).map (fun m => Monomial.mk (f m) m.term)) := by
  refine ⟨?_, ?_⟩
  · intro e he
    simp only [List.mem_map, List.mem_filter] at he
    obtain ⟨m, ⟨hm, hp⟩, rfl⟩ := he
    exact hf m hm hp
  · rw [List.pairwise_map]
    exact (hl.2.sublist (List.filter_sublist l)).imp (fun h => h)

theorem quotientMons_nf (n : Nat) (l : List Monomial) (hl : NormalForm l) :
    NormalForm (quotientMons n l) := by
  apply normalForm_filter_map l _ (fun m => -(Int.tdiv m.coeff (2 ^ n))) hl
  intro m _ hp
  simpa using hp

theorem modMons_nf (n : Nat) (l : List Monomial) (hl : NormalForm l) :
    NormalForm (modMons n l) := by
  apply normalForm_filter_map l _ (fun m => Int.tmod m.coeff (2 ^ n)) hl
  intro m _ hp
  simpa using hp

theorem filter_map_terms (l : List Monomial) (p : Monomial → Bool) (f : Monomial → Int)
    (e : Monomial) (he : e ∈ (l.filter p).map (fun m => Monomial.mk (f m) m.term)) :
    ∃ m ∈ l, m.term = e.term := by
  simp only [List.mem_map, List.mem_filter] at he
  obtain ⟨m, ⟨hm, _⟩, rfl⟩ := he
  exact ⟨m, hm, rfl⟩

/-- The remainders are the coefficients plus `2 ^ n` times the negated
quotients, under every functional. -/
theorem lin_modMons (g : Term → Int) (n : Nat) (l : List Monomial) :
    lin g (modMons n l) = lin g l + 2 ^ n * lin g (quotientMons n l) := by
  induction l with
  | nil => simp [modMons, quotientMons, lin]
  | cons m l ih =>
    have hdm := Int.tmod_add_tdiv m.coeff (2 ^ n)
    have e1 : lin g (modMons n (m :: l))
        = Int.tmod m.coeff (2 ^ n) * g m.term + lin g (modMons n l) := by
      by_cases h : Int.tmod m.coeff (2 ^ n) = 0
      · have : modMons n (m :: l) = modMons n l := by simp [modMons, h]
        rw [this, h]; ring
      · have : modMons n (m :: l)
            = Monomial.mk (Int.tmod m.coeff (2 ^ n)) m.term :: modMons n l := by
          simp [modMons, h]
        rw [this, lin_cons]
    have e2 : lin g (quotientMons n (m :: l))
        = -(Int.tdiv m.coeff (2 ^ n)) * g m.term + lin g (quotientMons n l) := by
      by_cases h : Int.tdiv m.coeff (2 ^ n) = 0
      · have : quotientMons n (m :: l) = quotientMons n l := by simp [quotientMons, h]
        rw [this, h]; ring
      · have : quotientMons n (m :: l)
            = Monomial.mk (-(Int.tdiv m.coeff (2 ^ n))) m.term :: quotientMons n l := by
          simp [quotientMons, h]
        rw [this, lin_cons]
    rw [e1, e2, ih, lin_cons]
    have : Int.tmod m.coeff (2 ^ n) = m.coeff - 2 ^ n * Int.tdiv m.coeff (2 ^ n) := by
      linarith
    rw [this]
    ring

/-- When every truncated quotient is zero the remainders are the
coefficients. -/
theorem modMons_of_no_quotient (n : Nat) (l : List Monomial) (h0 : ∀ m ∈ l, m.coeff ≠ 0)
    (hq : quotientMons n l = []) : modMons n l = l := by
  induction l with
  | nil => rfl
  | cons m l ih =>
    have hm : Int.tdiv m.coeff (2 ^ n) = 0 := by
      by_contra h
      simp [quotientMons, h] at hq
    have hq2 : quotientMons n l = [] := by
      simpa [quotientMons, hm] using hq
    have hdm := Int.tmod_add_tdiv m.coeff (2 ^ n)
    rw [hm] at hdm
    have hmod : Int.tmod m.coeff (2 ^ n) = m.coeff := by simpa using hdm
    have hne : Int.tmod m.coeff (2 ^ n) ≠ 0 := by rw [hmod]; exact h0 m (by simp)
    have : modMons n (m :: l)
        = Monomial.mk (Int.tmod m.coeff (2 ^ n)) m.term :: modMons n l := by
      simp [modMons, hne]
    rw [this, ih (fun e he => h0 e (List.mem_cons_of_mem _ he)) hq2, hmod]

theorem mons_mod_poly (a : Polynomial) (exp : Int) :
    mons (mod_poly (some a) exp) = modMons (bitcnt exp) a.mon := by
  rw [mod_poly_some, mons_build_poly, List.reverse_reverse]

theorem mod_poly_log_core (x : Var) (mod_coeff : Int) (lg : ProofLog) (a : Polynomial)
    (exp : Int) (ha : a.WF) (hs : TermsSorted a.mon)
    (hdx : LevelsDistinct (varsOf a.mon ++ [x])) (hfresh : x ∉ varsOf a.mon)
    (hmc : mod_coeff = 2 ^ bitcnt exp) (hx : mons lg.x_spec = xSpecMons x a.mon) :
    ∃ lg2, mod_poly_log [x] mod_coeff lg (some a) exp = .ok (mod_poly (some a) exp, lg2) ∧
      mons lg2.x_spec = xSpecMons x (mons (mod_poly (some a) exp)) ∧
      ((quotientMons (bitcnt exp) a.mon = [] ∧ lg2 = lg) ∨
        ∃ px mod_mul, quotientMons (bitcnt exp) a.mon ≠ [] ∧
          lg2.rules = lg.rules ++ [PacRule.mod px mod_mul,
            PacRule.add lg.x_spec mod_mul lg2.x_spec] ∧
          mons px = timesTerm [x] (quotientMons (bitcnt exp) a.mon) ∧
          (∀ t, coeffAt (mons mod_mul) t = 2 ^ bitcnt exp * coeffAt (mons px) t) ∧
          ∀ t, coeffAt (mons lg2.x_spec) t
            = coeffAt (mons lg.x_spec) t + coeffAt (mons mod_mul) t) := by
  have hout := mons_mod_poly a exp
  generalize hn : bitcnt exp = n at *
  unfold mod_poly_log
  simp only
  rw [mod_poly_quotients_eq, hn]
  by_cases hQ : quotientMons n a.mon = []
  · refine ⟨lg, ?_, ?_, Or.inl ⟨hQ, rfl⟩⟩
    · rw [hQ]
      rfl
    · rw [hx, hout, modMons_of_no_quotient n a.mon ha.2.1.1 hQ]
  · have hQterms : ∀ e ∈ quotientMons n a.mon, ∃ m ∈ a.mon, m.term = e.term :=
      fun e he => filter_map_terms a.mon _ _ e he
    have hMterms : ∀ e ∈ modMons n a.mon, ∃ m ∈ a.mon, m.term = e.term :=
      fun e he => filter_map_terms a.mon _ _ e he
    have hQs : TermsSorted (quotientMons n a.mon) := by
      intro e he
      obtain ⟨m, hm, h⟩ := hQterms e he
      rw [← h]; exact hs m hm
    have hQv : ∀ v ∈ varsOf (quotientMons n a.mon), v ∈ varsOf a.mon := by
      intro v hv
      simp only [varsOf, List.mem_flatMap] at hv
      obtain ⟨e, he, hve⟩ := hv
      obtain ⟨m, hm, h⟩ := hQterms e he
      exact mem_varsOf a.mon m v hm (by rw [h]; exact hve)
    have hMs : TermsSorted (modMons n a.mon) := by
      intro e he
      obtain ⟨m, hm, h⟩ := hMterms e he
      rw [← h]; exact hs m hm
    have hMv : ∀ v ∈ varsOf (modMons n a.mon), v ∈ varsOf a.mon := by
      intro v hv
      simp only [varsOf, List.mem_flatMap] at hv
      obtain ⟨e, he, hve⟩ := hv
      obtain ⟨m, hm, h⟩ := hMterms e he
      exact mem_varsOf a.mon m v hm (by rw [h]; exact hve)
    have hQnf := quotientMons_nf n a.mon ha.2.1
    have hTnf : NormalForm (timesTerm [x] (quotientMons n a.mon)) := by
      apply timesTerm_nf [x] _ (by simp) (by simp [TermSorted]) hQnf hQs
      · intro v hv w hw e
        refine hdx v ?_ w ?_ e
        · simp only [List.mem_append] at hv ⊢
          rcases hv with h | h
          · exact Or.inl (hQv v h)
          · exact Or.inr h
        · simp only [List.mem_append] at hw ⊢
          rcases hw with h | h
          · exact Or.inl (hQv w h)
          · exact Or.inr h
      · intro v hv h
        simp only [List.mem_singleton] at hv
        rw [hv] at h
        exact hfresh (hQv x h)
    rw [build_poly_ne_nil _ (by simpa using hQ)]
    simp only [List.reverse_reverse]
    have hmodm : mons (build_poly (push_mstack [] (Monomial.mk 1 [x]))) = [Monomial.mk 1 [x]] :=
      single_term_poly 1 [x] (by decide)
    obtain ⟨hpxnf, _, hpxlin⟩ := multiply_poly_spec (varsOf a.mon ++ [x]) hdx
      (some { mon := quotientMons n a.mon, deg := build_poly_deg (quotientMons n a.mon) })
      (build_poly (push_mstack [] (Monomial.mk 1 [x])))
      (fun e he v hv => by
        simp only [List.mem_append]
        exact Or.inl (hQv v (mem_varsOf _ e v he hv)))
      (fun e he v hv => by
        rw [hmodm] at he
        simp only [List.mem_singleton] at he
        rw [he] at hv
        simp only [List.mem_singleton] at hv
        simp [hv])
    generalize hpx : multiply_poly
      (some { mon := quotientMons n a.mon, deg := build_poly_deg (quotientMons n a.mon) })
      (build_poly (push_mstack [] (Monomial.mk 1 [x]))) = px at *
    have hpxm : mons px = timesTerm [x] (quotientMons n a.mon) := by
      apply normalForm_unique _ _ (polyNF_mons px hpxnf) hTnf
      intro t
      rw [coeffAt_eq_lin, coeffAt_eq_lin, hpxlin, hmodm]
      have e : mons (some (Polynomial.mk (quotientMons n a.mon)
          (build_poly_deg (quotientMons n a.mon)))) = quotientMons n a.mon := rfl
      rw [e, lin_prodMons_single _ _ _ _ (by simp)]
      ring
    cases px with
    | none =>
      exfalso
      have : timesTerm [x] (quotientMons n a.mon) = [] := by rw [← hpxm]; rfl
      simp only [timesTerm, List.map_eq_nil_iff] at this
      exact hQ this
    | some pa =>
      have hpow : (2 : Int) ^ n ≠ 0 := by positivity
      obtain ⟨e1, w1⟩ := multiply_poly_with_constant_wf pa (2 ^ n) hpxnf hpow
      have hMnz : ∀ m ∈ mons (mod_poly (some a) exp), m.coeff ≠ 0 := by
        rw [hout]; exact (modMons_nf n a.mon ha.2.1).1
      obtain ⟨xs, h1, h2⟩ := build_x_spec_mons x (mod_poly (some a) exp) hMnz
        (by rw [hout]; exact hMs)
        (by
          rw [hout]
          intro v hv w hw e
          refine hdx v ?_ w ?_ e
          · simp only [List.mem_append] at hv ⊢
            rcases hv with h | h
            · exact Or.inl (hMv v h)
            · exact Or.inr h
          · simp only [List.mem_append] at hw ⊢
            rcases hw with h | h
            · exact Or.inl (hMv w h)
            · exact Or.inr h)
      refine ⟨ProofLog.mk xs (lg.rules ++ [PacRule.mod (some pa)
          (some { mon := scaleMons (2 ^ n) pa.mon, deg := pa.deg }),
          PacRule.add lg.x_spec (some { mon := scaleMons (2 ^ n) pa.mon, deg := pa.deg }) xs]),
        ?_, h2, Or.inr ⟨some pa, some { mon := scaleMons (2 ^ n) pa.mon, deg := pa.deg },
          hQ, rfl, hpxm, ?_, ?_⟩⟩
      · rw [hmc, e1, ok_bind, h1, ok_bind]
        rfl
      · intro t
        rw [coeffAt_eq_lin, coeffAt_eq_lin]
        show lin _ (scaleMons (2 ^ n) pa.mon) = _
        rw [scaleMons_lin]
        rfl
      · intro t
        have hpam : pa.mon = timesTerm [x] (quotientMons n a.mon) := hpxm
        rw [coeffAt_eq_lin, coeffAt_eq_lin, coeffAt_eq_lin]
        show lin _ (mons xs) = lin _ (mons lg.x_spec) + lin _ (scaleMons (2 ^ n) pa.mon)
        rw [h2, hx, hout, lin_xSpecMons, lin_xSpecMons, scaleMons_lin, hpam, lin_timesTerm,
          lin_modMons]
        ring

/-- C37: proof-log validity of linear substitution and `mod_poly`. Let `p` and
`q` be normal-form polynomial objects with sorted terms, `q` of degree 1, `x` a
variable that does not occur in `p` (levels identifying `x` and the variables of
`p` and `q`), `mod_coeff = 2 ^ n` for the exponent `n` given to `mod_poly`, and
`x_spec = x * p - 1` before the call, with proof logging on.

`substitute_linear_poly(p, q)`: if no monomial of `p` carries `LT(q)` it returns
`p`, writes no rule and leaves `x_spec`. If `p` has the monomial `c * LT(q)` with
`c = k * d` for the leading coefficient `d` of `q`, it returns the result of the
call without logging and writes one combination rule, for `q` with the printed
cofactor `-k * x` and the old `x_spec`; the conclusion of the rule is the new
`x_spec`, it equals `q * cofactor + x_spec` coefficient by coefficient, and it
is `x * result - 1`.

`mod_poly(p, n)` returns the result of the call without logging, and afterwards
`x_spec = x * mod_poly(p, n) - 1`. If every truncated quotient of a coefficient
by `2 ^ n` is zero no rule is written and `x_spec` stays. Otherwise a mod rule
and an add rule are written: the mod rule is for `px`, which is `x` times the
quotient polynomial (the negated quotients), with conclusion `mod_mul`, which is
`2 ^ n * px`; the add rule is for the old `x_spec` and `mod_mul`, and its
conclusion, the new `x_spec`, is their sum. -/
theorem proof_log_valid (x : Var) (mod_coeff : Int) (lg : ProofLog) (p q : Polynomial)
    (exp : Int) (hp : p.WF) (hq : q.WF) (hdq : q.deg = 1) (hsp : TermsSorted p.mon)
    (hsq : TermsSorted q.mon) (hdx : LevelsDistinct (varsOf p.mon ++ varsOf q.mon ++ [x]))
    (hfresh : x ∉ varsOf p.mon) (hmc : mod_coeff = 2 ^ bitcnt exp)
    (hx : mons lg.x_spec = xSpecMons x p.mon) :
    ((∀ m ∈ p.mon, m.term ≠ leadTerm q) →
      substitute_linear_poly_log [x] lg (some p) (some q) = .ok (some p, lg)) ∧
    (∀ m ∈ p.mon, ∀ k : Int, m.term = leadTerm q → m.coeff = k * leadCoeff q →
      ∃ res xs cof, substitute_linear_poly_log [x] lg (some p) (some q)
          = .ok (res, ProofLog.mk xs (lg.rules ++ [PacRule.combi (some q) cof lg.x_spec xs])) ∧
        substitute_linear_poly (some p) (some q) = .ok res ∧
        mons cof = [Monomial.mk (-k) [x]] ∧
        mons xs = xSpecMons x (mons res) ∧
        ∀ t, coeffAt (mons xs) t
          = coeffAt (prodMons q.mon (mons cof)) t + coeffAt (mons lg.x_spec) t) ∧
    ∃ lg2, mod_poly_log [x] mod_coeff lg (some p) exp = .ok (mod_poly (some p) exp, lg2) ∧
      mons lg2.x_spec = xSpecMons x (mons (mod_poly (some p) exp)) ∧
      ((quotientMons (bitcnt exp) p.mon = [] ∧ lg2 = lg) ∨
        ∃ px mod_mul, quotientMons (bitcnt exp) p.mon ≠ [] ∧
          lg2.rules = lg.rules ++ [PacRule.mod px mod_mul,
            PacRule.add lg.x_spec mod_mul lg2.x_spec] ∧
          mons px = timesTerm [x] (quotientMons (bitcnt exp) p.mon) ∧
          (∀ t, coeffAt (mons mod_mul) t = 2 ^ bitcnt exp * coeffAt (mons px) t) ∧
          ∀ t, coeffAt (mons lg2.x_spec) t
            = coeffAt (mons lg.x_spec) t + coeffAt (mons mod_mul) t) := by
  have hd : LevelsDistinct (varsOf p.mon ++ varsOf q.mon) :=
    fun a ha b hb e => hdx a (by simp at ha ⊢; tauto) b (by simp at hb ⊢; tauto) e
  have hdp : LevelsDistinct (varsOf p.mon ++ [x]) :=
    fun a ha b hb e => hdx a (by simp at ha ⊢; tauto) b (by simp at hb ⊢; tauto) e
  refine ⟨substitute_log_not_found x lg p q hp hq hdq hd, ?_,
    mod_poly_log_core x mod_coeff lg p exp hp hsp hdp hfresh hmc hx⟩
  intro m hm k hmt hk
  obtain ⟨res, xs, cof, h1, h2, h3, h4, h5⟩ :=
    substitute_log_found x lg p q hp hq hdq hsp hsq hdx m hm hmt k hk
  exact ⟨res, xs, cof, h1, h2, h3, h4, fun t => by rw [h5 t, hx]⟩

/-- C37 witness: `p = 4*z + y`, `q = 2*z + y + 1`, `x` at level -7,
`x_spec = 4*z*x + y*x - 1`, and the exponent 1 with `mod_coeff = 2`: the
substitution writes a rule with the cofactor `-2 * x`, and `mod_poly` returns
with `x_spec = x * mod_poly(p, 1) - 1`. -/
theorem proof_log_valid_witness :
    (∃ res xs cof, substitute_linear_poly_log [⟨0, -7, false⟩]
        ⟨some ⟨[⟨4, [⟨6, 6, false⟩, ⟨0, -7, false⟩]⟩, ⟨1, [⟨2, 2, false⟩, ⟨0, -7, false⟩]⟩,
          ⟨-1, []⟩], 2⟩, []⟩
        (some ⟨[⟨4, [⟨6, 6, false⟩]⟩, ⟨1, [⟨2, 2, false⟩]⟩], 1⟩)
        (some ⟨[⟨2, [⟨6, 6, false⟩]⟩, ⟨1, [⟨2, 2, false⟩]⟩, ⟨1, []⟩], 1⟩)
        = .ok (res, ProofLog.mk xs ([] ++ [PacRule.combi
            (some ⟨[⟨2, [⟨6, 6, false⟩]⟩, ⟨1, [⟨2, 2, false⟩]⟩, ⟨1, []⟩], 1⟩) cof
            (some ⟨[⟨4, [⟨6, 6, false⟩, ⟨0, -7, false⟩]⟩,
              ⟨1, [⟨2, 2, false⟩, ⟨0, -7, false⟩]⟩, ⟨-1, []⟩], 2⟩) xs])) ∧
        mons cof = [Monomial.mk (-2) [⟨0, -7, false⟩]] ∧
        mons xs = xSpecMons ⟨0, -7, false⟩ (mons res)) ∧
    ∃ lg2, mod_poly_log [⟨0, -7, false⟩] 2
        ⟨some ⟨[⟨4, [⟨6, 6, false⟩, ⟨0, -7, false⟩]⟩, ⟨1, [⟨2, 2, false⟩, ⟨0, -7, false⟩]⟩,
          ⟨-1, []⟩], 2⟩, []⟩
        (some ⟨[⟨4, [⟨6, 6, false⟩]⟩, ⟨1, [⟨2, 2, false⟩]⟩], 1⟩) 1
        = .ok (mod_poly (some ⟨[⟨4, [⟨6, 6, false⟩]⟩, ⟨1, [⟨2, 2, false⟩]⟩], 1⟩) 1, lg2) ∧
      mons lg2.x_spec = xSpecMons ⟨0, -7, false⟩
        (mons (mod_poly (some ⟨[⟨4, [⟨6, 6, false⟩]⟩, ⟨1, [⟨2, 2, false⟩]⟩], 1⟩) 1)) := by
  have h := proof_log_valid ⟨0, -7, false⟩ 2
    ⟨some ⟨[⟨4, [⟨6, 6, false⟩, ⟨0, -7, false⟩]⟩, ⟨1, [⟨2, 2, false⟩, ⟨0, -7, false⟩]⟩,
      ⟨-1, []⟩], 2⟩, []⟩
    ⟨[⟨4, [⟨6, 6, false⟩]⟩, ⟨1, [⟨2, 2, false⟩]⟩], 1⟩
    ⟨[⟨2, [⟨6, 6, false⟩]⟩, ⟨1, [⟨2, 2, false⟩]⟩, ⟨1, []⟩], 1⟩ 1
    (by decide) (by decide) rfl (by decide) (by decide) (by decide) (by decide) (by decide)
    (by simp [mons, xSpecMons, timesTerm, multiply_term, multiply_term_loop,
      build_term_from_stack, new_term])
  obtain ⟨res, xs, cof, h1, _, h3, h4, _⟩ := h.2.1 ⟨4, [⟨6, 6, false⟩]⟩ (by simp) 2 rfl
    (by decide)
  obtain ⟨lg2, h5, h6, _⟩ := h.2.2
  exact ⟨⟨res, xs, cof, h1, h3, h4⟩, lg2, h5, h6⟩

/-! ## `run_fglm` and coefficients beyond a `long` -/

theorem fglm_matrix_bigCoeff :
    fglm_matrix (List.insertionSort (fun a b => cmp_term a.1 b.1 = 1))
        [some bigCoeffNormalForm] = .ok bigCoeffFglm ∧
    bigCoeffFglm.1 = [[⟨2, 2, false⟩]] ∧
    bigCoeffFglm.2.1 = [([⟨4, 4, false⟩], 0), ([⟨2, 2, false⟩], -1)] ∧
    bigCoeffFglm.2.2.r = 1 ∧ bigCoeffFglm.2.2.c = 2 ∧
    bigCoeffFglm.2.2.entry 0 0 = 0 ∧ bigCoeffFglm.2.2.entry 0 1 = 1 := by
  refine ⟨?_, ?_, ?_, ?_, ?_, ?_, ?_⟩ <;> with_unfolding_all rfl

/-- For the matrix `(0 1)` of the example, scaling the rows is the reduced row
echelon form. -/
theorem scale_rows_contract_bigCoeff :
    RrefOf bigCoeffFglm.2.2 (scale_rows bigCoeffFglm.2.2) := by
  have hr : bigCoeffFglm.2.2.r = 1 := by with_unfolding_all rfl
  have hc : bigCoeffFglm.2.2.c = 2 := by with_unfolding_all rfl
  have hr2 : (scale_rows bigCoeffFglm.2.2).r = 1 := hr
  have hc2 : (scale_rows bigCoeffFglm.2.2).c = 2 := hc
  refine ⟨rfl, rfl, ⟨fun _ _ => 1, ?_⟩, ⟨fun _ _ => 1, ?_⟩, 1, fun _ => 1, ?_⟩
  · intro i hi j hj
    rw [hr2] at hi
    rw [hc2] at hj
    interval_cases i
    interval_cases j <;> with_unfolding_all rfl
  · intro i hi j hj
    rw [hr] at hi
    rw [hc] at hj
    interval_cases i
    interval_cases j <;> with_unfolding_all rfl
  · refine ⟨by rw [hr2], fun i hi => ?_, fun i j hij hj => by omega, fun i h1 h2 => ?_⟩
    · have : i = 0 := by omega
      subst this
      refine ⟨by rw [hc2]; decide, by with_unfolding_all rfl, fun j hj => ?_,
        fun i2 hi2 hne => ?_⟩
      · have hj2 : j < 1 := hj
        interval_cases j
        with_unfolding_all rfl
      · rw [hr2] at hi2
        omega
    · rw [hr2] at h2
      omega

/-- The matrix that `kernel` passes to `fmpq_mat_rref` for `(0 1)` is `(-1 0)`;
scaling its row gives its reduced row echelon form `(1 0)`. -/
theorem scale_rows_contract_bigCoeff_kernel :
    RrefOf (kernel_unreduced scale_rows bigCoeffFglm.2.2).2
      (scale_rows (kernel_unreduced scale_rows bigCoeffFglm.2.2).2) := by
  have hr : (kernel_unreduced scale_rows bigCoeffFglm.2.2).2.r = 1 := by with_unfolding_all rfl
  have hc : (kernel_unreduced scale_rows bigCoeffFglm.2.2).2.c = 2 := by with_unfolding_all rfl
  have hr2 : (scale_rows (kernel_unreduced scale_rows bigCoeffFglm.2.2).2).r = 1 := hr
  have hc2 : (scale_rows (kernel_unreduced scale_rows bigCoeffFglm.2.2).2).c = 2 := hc
  refine ⟨rfl, rfl, ⟨fun _ _ => -1, ?_⟩, ⟨fun _ _ => -1, ?_⟩, 1, fun _ => 0, ?_⟩
  · intro i hi j hj
    rw [hr2] at hi
    rw [hc2] at hj
    interval_cases i
    interval_cases j <;> with_unfolding_all rfl
  · intro i hi j hj
    rw [hr] at hi
    rw [hc] at hj
    interval_cases i
    interval_cases j <;> with_unfolding_all rfl
  · refine ⟨by rw [hr2], fun i hi => ?_, fun i j hij hj => by omega, fun i h1 h2 => ?_⟩
    · have : i = 0 := by omega
      subst this
      refine ⟨by rw [hc2]; decide, by with_unfolding_all rfl, fun j hj => ?_,
        fun i2 hi2 hne => ?_⟩
      · have hj2 : j < 0 := hj
        omega
      · rw [hr2] at hi2
        omega
    · rw [hr2] at h2
      omega

/-- C33: `run_fglm` is not sound for normal forms with coefficients that do not
fit into a `long`. The single normal form `nf = x - 2^64 * y` has the leading
coefficient 1 and the leading term `x`. `run_fglm` has the row `y` and the
columns `x` (the normal form) and `y`; the entry of the matrix for `y` in the
column of the normal form is set from `get_si` of `2^64`, which is 0, so the
matrix is `(0 1)` instead of `(2^64 1)`. Its kernel, with a routine for the
reduced row echelon form that meets its contract at both calls, has the one row
`k = (-1 0)`, without denominator, and `run_fglm` returns the compressed
polynomial `(-1, id of x)`, from which `construct_linear_polynomials` builds
`-x`. The combination `k_x * sign * nf` is `-x + 2^64 * y`: the coefficients of
`y` differ, and `-x` is not a multiple of the normal form. -/
theorem run_fglm_truncates_coefficients :
    bigCoeffNormalForm.WF ∧ leadCoeff bigCoeffNormalForm = 1 ∧
    leadTerm bigCoeffNormalForm = [⟨4, 4, false⟩] ∧
    fglm_matrix (List.insertionSort (fun a b => cmp_term a.1 b.1 = 1))
        [some bigCoeffNormalForm] = .ok bigCoeffFglm ∧
    bigCoeffFglm.2.1 = [([⟨4, 4, false⟩], 0), ([⟨2, 2, false⟩], -1)] ∧
    bigCoeffFglm.2.2.entry 0 0 = 0 ∧ bigCoeffFglm.2.2.entry 0 1 = 1 ∧
    RrefOf bigCoeffFglm.2.2 (scale_rows bigCoeffFglm.2.2) ∧
    RrefOf (kernel_unreduced scale_rows bigCoeffFglm.2.2).2
      (scale_rows (kernel_unreduced scale_rows bigCoeffFglm.2.2).2) ∧
    (kernel scale_rows bigCoeffFglm.2.2).2.r = 1 ∧
    (kernel scale_rows bigCoeffFglm.2.2).2.entry 0 0 = -1 ∧
    (kernel scale_rows bigCoeffFglm.2.2).2.entry 0 1 = 0 ∧
    run_fglm (List.insertionSort (fun a b => cmp_term a.1 b.1 = 1)) scale_rows
        [some bigCoeffNormalForm] [(⟨4, 4, false⟩, 1), (⟨2, 2, false⟩, 2)]
      = .ok ([[(-1, 1)]], [(⟨4, 4, false⟩, 1), (⟨2, 2, false⟩, 2)]) ∧
    construct_linear_polynomials [[(-1, 1)]] [(⟨4, 4, false⟩, 1), (⟨2, 2, false⟩, 2)]
      = .ok [some ⟨[⟨-1, [⟨4, 4, false⟩]⟩], 1⟩] ∧
    coeffAt [⟨-1, [⟨4, 4, false⟩]⟩] [⟨2, 2, false⟩] = 0 ∧
    (-1 : Int) * 1 * coeffAt bigCoeffNormalForm.mon [⟨2, 2, false⟩] = 2 ^ 64 := by
  refine ⟨by decide, by decide, by decide, fglm_matrix_bigCoeff.1, fglm_matrix_bigCoeff.2.2.1,
    fglm_matrix_bigCoeff.2.2.2.2.2.1, fglm_matrix_bigCoeff.2.2.2.2.2.2,
    scale_rows_contract_bigCoeff, scale_rows_contract_bigCoeff_kernel, ?_, ?_, ?_, ?_, ?_,
    by decide, by decide⟩
  · with_unfolding_all rfl
  · with_unfolding_all rfl
  · with_unfolding_all rfl
  · with_unfolding_all rfl
  · rfl

/-! ## `run_fglm` with coefficients in the range of a `long` -/

theorem mpz_get_si_of_fits (z : Int) (h1 : -2 ^ 63 ≤ z) (h2 : z < 2 ^ 63) : mpz_get_si z = z := by
  have e : (2 : Int) ^ 63 = 9223372036854775808 := by norm_num
  rw [e] at h1 h2
  unfold mpz_get_si
  rw [e]
  split_ifs with a b
  · omega
  · omega
  · omega

/-- The inner loop of the first loop of `run_fglm`: the terms of the tail that
are not in `term_set` become rows. -/
theorem fglm_collect_inner (tl : List Monomial) (lts : List Term)
    (acc : List Term × List Term × List (Term × Int))
    (hinv : ∀ t, t ∈ acc.1 ↔ t ∈ lts ∨ t ∈ acc.2.1) (hnd : acc.2.1.Nodup) :
    (∀ t, t ∈ (tl.foldl
        (fun acc m =>
          if m.term ∈ acc.1 then acc else (acc.1 ++ [m.term], acc.2.1 ++ [m.term], acc.2.2))
        acc).1 ↔ t ∈ lts ∨ t ∈ (tl.foldl
        (fun acc m =>
          if m.term ∈ acc.1 then acc else (acc.1 ++ [m.term], acc.2.1 ++ [m.term], acc.2.2))
        acc).2.1) ∧
    (tl.foldl
        (fun acc m =>
          if m.term ∈ acc.1 then acc else (acc.1 ++ [m.term], acc.2.1 ++ [m.term], acc.2.2))
        acc).2.1.Nodup ∧
    (tl.foldl
        (fun acc m =>
          if m.term ∈ acc.1 then acc else (acc.1 ++ [m.term], acc.2.1 ++ [m.term], acc.2.2))
        acc).2.2 = acc.2.2 ∧
    (∀ t ∈ acc.2.1, t ∈ (tl.foldl
        (fun acc m =>
          if m.term ∈ acc.1 then acc else (acc.1 ++ [m.term], acc.2.1 ++ [m.term], acc.2.2))
        acc).2.1) ∧
    (∀ m ∈ tl, m.term ∉ lts → m.term ∈ (tl.foldl
        (fun acc m =>
          if m.term ∈ acc.1 then acc else (acc.1 ++ [m.term], acc.2.1 ++ [m.term], acc.2.2))
        acc).2.1) ∧
    (∀ t ∈ (tl.foldl
        (fun acc m =>
          if m.term ∈ acc.1 then acc else (acc.1 ++ [m.term], acc.2.1 ++ [m.term], acc.2.2))
        acc).2.1, t ∈ acc.2.1 ∨ ∃ m ∈ tl, m.term = t) := by
  induction tl generalizing acc with
  | nil =>
    exact ⟨hinv, hnd, rfl, fun t h => h, fun m hm => absurd hm (List.not_mem_nil _),
      fun t h => Or.inl h⟩
  | cons m tl ih =>
    rw [List.foldl_cons]
    by_cases hm : m.term ∈ acc.1
    · rw [if_pos hm]
      obtain ⟨a, b, c, d, e, f⟩ := ih acc hinv hnd
      refine ⟨a, b, c, d, ?_, ?_⟩
      · intro m2 hm2 hn
        rcases List.mem_cons.1 hm2 with h | h
        · subst h
          rcases (hinv _).1 hm with h3 | h3
          · exact absurd h3 hn
          · exact d _ h3
        · exact e m2 h hn
      · intro t ht
        rcases f t ht with h | ⟨m2, h2, h3⟩
        · exact Or.inl h
        · exact Or.inr ⟨m2, List.mem_cons_of_mem _ h2, h3⟩
    · rw [if_neg hm]
      have hinv2 : ∀ t, t ∈ acc.1 ++ [m.term] ↔ t ∈ lts ∨ t ∈ acc.2.1 ++ [m.term] := by
        intro t
        simp only [List.mem_append, List.mem_cons, List.not_mem_nil, or_false]
        rw [hinv t]
        tauto
      have hnr : m.term ∉ acc.2.1 := fun h => hm ((hinv _).2 (Or.inr h))
      have hnd2 : (acc.2.1 ++ [m.term]).Nodup := by
        rw [List.nodup_append]
        refine ⟨hnd, List.nodup_singleton _, ?_⟩
        intro a ha hb
        simp only [List.mem_cons, List.not_mem_nil, or_false] at hb
        exact hnr (hb ▸ ha)
      obtain ⟨a, b, c, d, e, f⟩ :=
        ih (acc.1 ++ [m.term], acc.2.1 ++ [m.term], acc.2.2) hinv2 hnd2
      refine ⟨a, b, c, fun t ht => d t (List.mem_append_left _ ht), ?_, ?_⟩
      · intro m2 hm2 hn
        rcases List.mem_cons.1 hm2 with h | h
        · subst h
          exact d _ (List.mem_append_right _ (List.mem_singleton_self _))
        · exact e m2 h hn
      · intro t ht
        rcases f t ht with h | ⟨m2, h2, h3⟩
        · simp only [List.mem_append, List.mem_cons, List.not_mem_nil, or_false] at h
          rcases h with h | h
          · exact Or.inl h
          · exact Or.inr ⟨m, List.mem_cons_self _ _, h.symm⟩
        · exact Or.inr ⟨m2, List.mem_cons_of_mem _ h2, h3⟩

theorem fglm_collect_step_eq (st : List Term × List Term × List (Term × Int)) (k : Nat)
    (p : Polynomial) (m0 : Monomial) (tl : List Monomial) (h : p.mon = m0 :: tl) :
    fglm_collect_step st (k, some p) = .ok (tl.foldl
      (fun acc m =>
        if m.term ∈ acc.1 then acc else (acc.1 ++ [m.term], acc.2.1 ++ [m.term], acc.2.2))
      (if m0.term ∈ st.1 then st.1 else st.1 ++ [m0.term], st.2.1,
        st.2.2 ++ [(m0.term, (k : Int))])) := by
  simp only [fglm_collect_step, deref, ok_bind, Polynomial.get_lt, h, List.tail_cons]
  rfl

/-- The first loop of `run_fglm`: the columns of the normal forms in their
order, and the rows, which are pairwise distinct and hold every term of a tail
when no tail holds a leading term met before. -/
theorem fglm_collect_spec (l : List Polynomial) (k : Nat) (lts : List Term)
    (st : List Term × List Term × List (Term × Int))
    (hinv : ∀ t, t ∈ st.1 ↔ t ∈ lts ∨ t ∈ st.2.1) (hnd : st.2.1.Nodup)
    (hne : ∀ p ∈ l, p.mon ≠ [])
    (hown : ∀ p ∈ l, ∀ m ∈ p.mon.tail, m.term ≠ leadTerm p)
    (hlts : ∀ t ∈ lts, ∀ p ∈ l, ∀ m ∈ p.mon.tail, m.term ≠ t)
    (hpw : l.Pairwise (fun a b => ∀ m ∈ b.mon.tail, m.term ≠ leadTerm a)) :
    ∃ st2, (List.enumFrom k (l.map some)).foldlM fglm_collect_step st = .ok st2 ∧
      st2.2.2 = st.2.2 ++ (List.enumFrom k l).map (fun e => (leadTerm e.2, (e.1 : Int))) ∧
      st2.2.1.Nodup ∧ (∀ t ∈ st.2.1, t ∈ st2.2.1) ∧
      (∀ p ∈ l, ∀ m ∈ p.mon.tail, m.term ∈ st2.2.1) ∧
      (∀ t ∈ st2.2.1, t ∈ st.2.1 ∨ ∃ p ∈ l, ∃ m ∈ p.mon.tail, m.term = t) := by
  induction l generalizing k lts st with
  | nil =>
    exact ⟨st, rfl, by simp, hnd, fun t h => h, fun p hp => absurd hp (List.not_mem_nil _),
      fun t h => Or.inl h⟩
  | cons p l ih =>
    cases hm : p.mon with
    | nil => exact absurd hm (hne p (List.mem_cons_self _ _))
    | cons m0 tl =>
      have hlt : leadTerm p = m0.term := by simp [leadTerm, hm]
      rw [List.map_cons, List.enumFrom_cons, List.foldlM_cons, fglm_collect_step_eq st k p m0 tl hm,
        ok_bind]
      have hinv2 : ∀ t, t ∈ (if m0.term ∈ st.1 then st.1 else st.1 ++ [m0.term], st.2.1,
          st.2.2 ++ [(m0.term, (k : Int))]).1 ↔ t ∈ lts ++ [m0.term] ∨ t ∈ st.2.1 := by
        intro t
        show t ∈ (if m0.term ∈ st.1 then st.1 else st.1 ++ [m0.term]) ↔ _
        by_cases hin : m0.term ∈ st.1
        · rw [if_pos hin]
          simp only [List.mem_append, List.mem_cons, List.not_mem_nil, or_false]
          rw [hinv t]
          constructor
          · rintro (h | h)
            · exact Or.inl (Or.inl h)
            · exact Or.inr h
          · rintro ((h | h) | h)
            · exact Or.inl h
            · rw [h]; exact (hinv _).1 hin
            · exact Or.inr h
        · rw [if_neg hin]
          simp only [List.mem_append, List.mem_cons, List.not_mem_nil, or_false]
          rw [hinv t]
          tauto
      obtain ⟨a, b, c, d, e, f⟩ := fglm_collect_inner tl (lts ++ [m0.term]) _ hinv2 hnd
      have htl : ∀ m ∈ tl, m.term ∉ lts ++ [m0.term] := by
        intro m hmem hin
        have hmt : m ∈ p.mon.tail := by rw [hm]; exact hmem
        simp only [List.mem_append, List.mem_cons, List.not_mem_nil, or_false] at hin
        rcases hin with h | h
        · exact hlts _ h p (List.mem_cons_self _ _) m hmt rfl
        · exact hown p (List.mem_cons_self _ _) m hmt (by rw [hlt]; exact h)
      obtain ⟨st2, h1, h2, h3, h4, h5, h6⟩ := ih (k + 1) (lts ++ [m0.term]) _ a b
        (fun q hq => hne q (List.mem_cons_of_mem _ hq))
        (fun q hq => hown q (List.mem_cons_of_mem _ hq))
        (by
          intro t ht q hq m hmq
          simp only [List.mem_append, List.mem_cons, List.not_mem_nil, or_false] at ht
          rcases ht with h | h
          · exact hlts t h q (List.mem_cons_of_mem _ hq) m hmq
          · rw [h, ← hlt]
            exact (List.pairwise_cons.1 hpw).1 q hq m hmq)
        (List.pairwise_cons.1 hpw).2
      refine ⟨st2, h1, ?_, h3, fun t ht => h4 t (d t ht), ?_, ?_⟩
      · rw [h2, c, List.enumFrom_cons, List.map_cons, hlt]
        simp
      · intro q hq m hmq
        rcases List.mem_cons.1 hq with h | h
        · subst h
          rw [hm] at hmq
          exact h4 _ (e m hmq (htl m hmq))
        · exact h5 q h m hmq
      · intro t ht
        rcases h6 t ht with h | ⟨q, hq, m, hmq, e2⟩
        · rcases f t h with h7 | ⟨m, hmem, e2⟩
          · exact Or.inl h7
          · exact Or.inr ⟨p, List.mem_cons_self _ _, m, by rw [hm]; exact hmem, e2⟩
        · exact Or.inr ⟨q, List.mem_cons_of_mem _ hq, m, hmq, e2⟩

/-- The rows of the matrix `K` of `kernel(M, K)`, as far as `run_fglm` needs
them: `K` has the columns of `M`, every row is in the null space of `M`, and no
row is zero. -/
theorem kernel_rows_spec (fmpq_mat_rref : fmpq_mat → fmpq_mat) (M : fmpq_mat)
    (h1 : RrefOf M (fmpq_mat_rref M))
    (h2 : RrefOf (kernel_unreduced fmpq_mat_rref M).2
      (fmpq_mat_rref (kernel_unreduced fmpq_mat_rref M).2)) :
    (kernel fmpq_mat_rref M).2.c = M.c ∧
    (∀ i, i < (kernel fmpq_mat_rref M).2.r → ∀ a, a < M.r →
      Finset.sum (Finset.range M.c)
        (fun j => M.entry a j * (kernel fmpq_mat_rref M).2.entry i j) = 0) ∧
    (∀ i, i < (kernel fmpq_mat_rref M).2.r →
      ∃ j, j < M.c ∧ (kernel fmpq_mat_rref M).2.entry i j ≠ 0) := by
  obtain ⟨hr, hc, rc1, rc2, k, p, hd⟩ := h1
  obtain ⟨hr2, hc2, rc3, rc4, _⟩ := h2
  obtain ⟨_, u2, u3, u4, _⟩ := kernel_unreduced_spec fmpq_mat_rref M k p hd
  rw [hc] at u3 u4
  have hkn : k ≤ M.c := hc ▸ rrefData_count _ k p hd
  have hKr : (kernel fmpq_mat_rref M).2.r = M.c - k := by
    show (fmpq_mat_rref (kernel_unreduced fmpq_mat_rref M).2).r = _
    rw [hr2, u3]
  have hKc : (kernel fmpq_mat_rref M).2.c = M.c := by
    show (fmpq_mat_rref (kernel_unreduced fmpq_mat_rref M).2).c = _
    rw [hc2, u4]
  obtain ⟨P, hP⟩ := rowCombination_mul M (fmpq_mat_rref M) M.r M.r M.c rc1
    (by rw [hr]) (by rw [hc]) rfl
  obtain ⟨Q, hQ⟩ := rowCombination_mul (fmpq_mat_rref M) M M.r M.r M.c rc2 le_rfl le_rfl hr
  obtain ⟨P2, hP2⟩ := rowCombination_mul (kernel_unreduced fmpq_mat_rref M).2
    (fmpq_mat_rref (kernel_unreduced fmpq_mat_rref M).2) (M.c - k) (M.c - k) M.c rc3
    (by rw [hr2, u3]) (by rw [hc2, u4]) u3
  obtain ⟨Q2, hQ2⟩ := rowCombination_mul (fmpq_mat_rref (kernel_unreduced fmpq_mat_rref M).2)
    (kernel_unreduced fmpq_mat_rref M).2 (M.c - k) (M.c - k) M.c rc4
    (by rw [u3]) (by rw [u4]) (by rw [hr2, u3])
  obtain ⟨Sel, hSel⟩ := select_rows (fmpq_mat_rref M) k M.r M.c (hr ▸ hd.1)
  have hneg : matAt (kernel fmpq_mat_rref M).2 (M.c - k) M.c
      = -matAt (fmpq_mat_rref (kernel_unreduced fmpq_mat_rref M).2) (M.c - k) M.c := rfl
  obtain ⟨_, c2, c3, _⟩ := kernel_basis_matrix (matAt M M.r M.c)
    (matAt (fmpq_mat_rref M) M.r M.c) (matAt (kernel fmpq_mat_rref M).2 (M.c - k) M.c)
    (matAt (kernel_unreduced fmpq_mat_rref M).2 (M.c - k) M.c)
    (matAt (fmpq_mat_rref M) k M.c) rfl hkn P Q hP hQ (-P2) (-Q2)
    (by rw [hneg, hP2, Matrix.neg_mul])
    (by rw [hneg, Matrix.neg_mul, Matrix.mul_neg, neg_neg]; exact hQ2)
    Sel hSel (pivot_rows_independent _ k p hd M.c hc)
    (unreduced_rows_independent fmpq_mat_rref M k p hd M.c hc)
    (unreduced_null fmpq_mat_rref M k p hd M.r M.c hr hc)
  refine ⟨hKc, ?_, ?_⟩
  · intro i hi a ha
    rw [hKr] at hi
    have := congrFun (c3 ⟨i, hi⟩) ⟨a, ha⟩
    simp only [Matrix.mulVec, Matrix.dotProduct, matAt, Pi.zero_apply] at this
    rw [Finset.sum_range]
    exact this
  · intro i hi
    rw [hKr] at hi
    have hne := c2.ne_zero ⟨i, hi⟩
    obtain ⟨j, hj⟩ := Function.ne_iff.1 hne
    exact ⟨j, j.2, hj⟩

theorem term_to_id_lt (rows : List Term) (t : Term) (h : t ∈ rows) :
    term_to_id rows t < rows.length := by
  unfold term_to_id
  rw [if_pos h]
  unfold List.indexOf
  apply List.findIdx_lt_length_of_exists
  exact ⟨t, h, by simp⟩

theorem term_to_id_getD (rows : List Term) (t : Term) (h : t ∈ rows) :
    rows.getD (term_to_id rows t) [] = t := by
  have hl := term_to_id_lt rows t h
  rw [List.getD_eq_getElem _ _ hl]
  unfold term_to_id at hl ⊢
  simp only [if_pos h] at hl ⊢
  have := @List.findIdx_getElem _ (fun x => x == t) rows hl
  simpa using this

theorem term_to_id_inj (rows : List Term) (a b : Term) (ha : a ∈ rows) (hb : b ∈ rows)
    (e : term_to_id rows a = term_to_id rows b) : a = b := by
  rw [← term_to_id_getD rows a ha, ← term_to_id_getD rows b hb, e]

/-- A loop of assignments to distinct rows of column `j`, which is zero there
before: the other columns stay, and the weighted sum of column `j` grows by the
weighted values. -/
theorem fglm_fold_set_col (tl : List Monomial) (idx : Monomial → Nat) (val : Monomial → ℚ)
    (j R : Nat) (G : Nat → ℚ) (mat : fmpq_mat)
    (hz : ∀ mo ∈ tl, mat.entry (idx mo) j = 0)
    (hpw : tl.Pairwise (fun a b => idx a ≠ idx b)) (hR : ∀ mo ∈ tl, idx mo < R) :
    (tl.foldl (fun m mo => m.set (idx mo) j (val mo)) mat).r = mat.r ∧
    (tl.foldl (fun m mo => m.set (idx mo) j (val mo)) mat).c = mat.c ∧
    (∀ a b, b ≠ j →
      (tl.foldl (fun m mo => m.set (idx mo) j (val mo)) mat).entry a b = mat.entry a b) ∧
    Finset.sum (Finset.range R)
        (fun i => (tl.foldl (fun m mo => m.set (idx mo) j (val mo)) mat).entry i j * G i)
      = Finset.sum (Finset.range R) (fun i => mat.entry i j * G i)
        + (tl.map (fun mo => val mo * G (idx mo))).sum := by
  induction tl generalizing mat with
  | nil => simp
  | cons m tl ih =>
    rw [List.foldl_cons]
    have hp := List.pairwise_cons.1 hpw
    obtain ⟨a, b, c, d⟩ := ih (mat.set (idx m) j (val m))
      (fun mo hmo => by
        rw [set_entry, if_neg (fun h => hp.1 mo hmo h.1.symm)]
        exact hz mo (List.mem_cons_of_mem _ hmo))
      hp.2 (fun mo hmo => hR mo (List.mem_cons_of_mem _ hmo))
    refine ⟨a, b, fun x y hy => ?_, ?_⟩
    · rw [c x y hy, set_entry, if_neg (fun h => hy h.2)]
    · rw [d, List.map_cons, List.sum_cons]
      have e : ∀ i, (mat.set (idx m) j (val m)).entry i j * G i
          = mat.entry i j * G i + if i = idx m then val m * G (idx m) else 0 := by
        intro i
        rw [set_entry]
        by_cases hi : i = idx m
        · subst hi
          rw [if_pos ⟨rfl, rfl⟩, if_pos rfl, hz m (List.mem_cons_self _ _)]
          ring
        · rw [if_neg (fun h => hi h.1), if_neg hi]
          ring
      rw [Finset.sum_congr rfl (fun i _ => e i), Finset.sum_add_distrib,
        Finset.sum_ite_eq' (Finset.range R) (idx m) (fun _ => val m * G (idx m)),
        if_pos (Finset.mem_range.2 (hR m (List.mem_cons_self _ _)))]
      ring

/-- A column that `run_fglm` can fill: the unit column of a row, or the column
of a normal form whose tail has pairwise distinct terms, all of them rows. -/
theorem fglm_fill_column_spec (normal_forms : List (Option Polynomial)) (rows : List Term)
    (mat : fmpq_mat) (j : Nat) (c : Term × Int)
    (hc : (c.2 < 0 ∧ c.1 ∈ rows) ∨
      (0 ≤ c.2 ∧ ∃ p, normal_forms.getD c.2.toNat none = some p ∧ p.mon ≠ [] ∧
        (∀ m ∈ p.mon.tail, m.term ∈ rows) ∧
        p.mon.tail.Pairwise (fun a b => a.term ≠ b.term)))
    (hz : ∀ i, mat.entry i j = 0) :
    ∃ mat2, fglm_fill_column normal_forms rows mat (j, c) = .ok mat2 ∧
      mat2.r = mat.r ∧ mat2.c = mat.c ∧
      (∀ a b, b ≠ j → mat2.entry a b = mat.entry a b) ∧
      ∀ G : Nat → ℚ, Finset.sum (Finset.range rows.length) (fun i => mat2.entry i j * G i)
        = fglmColumnSum normal_forms rows G c := by
  have hidx : ∀ t, t ∈ rows → term_to_id rows t < rows.length := term_to_id_lt rows
  rcases hc with ⟨hneg, hrow⟩ | ⟨hpos, p, hp, hne, hrows, hpw⟩
  · refine ⟨mat.set (term_to_id rows c.1) j 1, ?_, rfl, rfl, fun a b hb => ?_, fun G => ?_⟩
    · unfold fglm_fill_column
      rw [if_pos hneg]
      rfl
    · rw [set_entry, if_neg (fun h => hb h.2)]
    · unfold fglmColumnSum
      rw [if_pos hneg]
      have e : ∀ i, (mat.set (term_to_id rows c.1) j 1).entry i j * G i
          = if i = term_to_id rows c.1 then G (term_to_id rows c.1) else 0 := by
        intro i
        rw [set_entry, hz i]
        by_cases hi : i = term_to_id rows c.1
        · subst hi
          rw [if_pos ⟨rfl, rfl⟩, if_pos rfl, one_mul]
        · rw [if_neg (fun h => hi h.1), if_neg hi, zero_mul]
      rw [Finset.sum_congr rfl (fun i _ => e i), Finset.sum_ite_eq' (Finset.range rows.length),
        if_pos (Finset.mem_range.2 (hidx _ hrow))]
  · cases hm : p.mon with
    | nil => exact absurd hm hne
    | cons m0 tl =>
      rw [hm] at hrows hpw
      have hfold := fun G => fglm_fold_set_col tl (fun mo => term_to_id rows mo.term)
        (fun mo =>
          ((mpz_get_si (if Int.sign m0.coeff > 0 then -mo.coeff else mo.coeff) : Int) : ℚ))
        j rows.length G mat (fun mo _ => hz _)
        (hpw.imp_of_mem (fun {x y} hx hy hxy e =>
          hxy (term_to_id_inj rows _ _ (hrows x hx) (hrows y hy) e)))
        (fun mo hmo => hidx _ (hrows mo hmo))
      obtain ⟨a, b, c2, _⟩ := hfold (fun _ => 0)
      refine ⟨_, ?_, a, b, c2, fun G => ?_⟩
      · unfold fglm_fill_column
        rw [if_neg (not_lt.2 hpos)]
        simp only [hp, deref, ok_bind, Polynomial.get_lm, hm, List.tail_cons]
        rfl
      · rw [(hfold G).2.2.2]
        unfold fglmColumnSum
        rw [if_neg (not_lt.2 hpos)]
        simp only [hp, hm]
        rw [Finset.sum_eq_zero (fun i _ => by rw [hz i, zero_mul]), zero_add]

/-- The loop of `run_fglm` that sets up the matrix, from column `k` on: the
columns before `k` stay, and the weighted sum of a column is that of its
entry of `cols`. -/
theorem fglm_fill_spec (normal_forms : List (Option Polynomial)) (rows : List Term)
    (cs : List (Term × Int)) (k : Nat) (mat : fmpq_mat)
    (hcs : ∀ c ∈ cs, (c.2 < 0 ∧ c.1 ∈ rows) ∨
      (0 ≤ c.2 ∧ ∃ p, normal_forms.getD c.2.toNat none = some p ∧ p.mon ≠ [] ∧
        (∀ m ∈ p.mon.tail, m.term ∈ rows) ∧
        p.mon.tail.Pairwise (fun a b => a.term ≠ b.term)))
    (hz : ∀ i b, k ≤ b → mat.entry i b = 0) :
    ∃ mat2, (List.enumFrom k cs).foldlM (fglm_fill_column normal_forms rows) mat = .ok mat2 ∧
      mat2.r = mat.r ∧ mat2.c = mat.c ∧
      (∀ a b, b < k → mat2.entry a b = mat.entry a b) ∧
      ∀ jj, jj < cs.length → ∀ G : Nat → ℚ,
        Finset.sum (Finset.range rows.length) (fun i => mat2.entry i (k + jj) * G i)
          = fglmColumnSum normal_forms rows G (cs.getD jj ([], 0)) := by
  induction cs generalizing k mat with
  | nil => exact ⟨mat, rfl, rfl, rfl, fun _ _ _ => rfl, fun jj hjj => absurd hjj (by simp)⟩
  | cons c cs ih =>
    obtain ⟨mat1, e1, r1, c1, o1, s1⟩ := fglm_fill_column_spec normal_forms rows mat k c
      (hcs c (List.mem_cons_self _ _)) (fun i => hz i k le_rfl)
    obtain ⟨mat2, e2, r2, c2, o2, s2⟩ := ih (k + 1) mat1
      (fun x hx => hcs x (List.mem_cons_of_mem _ hx))
      (fun i b hb => by rw [o1 i b (by omega)]; exact hz i b (by omega))
    refine ⟨mat2, ?_, by rw [r2, r1], by rw [c2, c1], fun a b hb => ?_, fun jj hjj G => ?_⟩
    · rw [List.enumFrom_cons, List.foldlM_cons, e1, ok_bind, e2]
    · rw [o2 a b (by omega), o1 a b (by omega)]
    · cases jj with
      | zero =>
        rw [Nat.add_zero, List.getD_cons_zero, ← s1 G]
        apply Finset.sum_congr rfl
        intro i _
        rw [o2 i k (by omega)]
      | succ jj =>
        rw [List.getD_cons_succ, ← s2 jj (by simpa using hjj) G]
        apply Finset.sum_congr rfl
        intro i _
        rw [show k + (jj + 1) = k + 1 + jj by omega]

/-- A vector `kq` in the null space of the matrix annihilates the weighted
column sums. -/
theorem fglm_kernel_sum (mat : fmpq_mat) (R n : Nat) (kq : Nat → ℚ) (S : Nat → ℚ)
    (G : Nat → ℚ)
    (hsum : ∀ jj, jj < n → Finset.sum (Finset.range R) (fun i => mat.entry i jj * G i) = S jj)
    (hker : ∀ a, a < R → Finset.sum (Finset.range n) (fun j => mat.entry a j * kq j) = 0) :
    Finset.sum (Finset.range n) (fun j => kq j * S j) = 0 := by
  have e1 : Finset.sum (Finset.range n) (fun j => kq j * S j)
      = Finset.sum (Finset.range n) (fun j =>
          Finset.sum (Finset.range R) (fun i => G i * (mat.entry i j * kq j))) := by
    apply Finset.sum_congr rfl
    intro j hj
    rw [← hsum j (Finset.mem_range.1 hj), Finset.mul_sum]
    apply Finset.sum_congr rfl
    intro i _
    ring
  rw [e1, Finset.sum_comm]
  apply Finset.sum_eq_zero
  intro i hi
  rw [← Finset.mul_sum, hker i (Finset.mem_range.1 hi), mul_zero]

/-- The weighted sum of the column of a normal form with leading coefficient `s`
and coefficients in the range of a `long`: minus `s` times the value of its
tail. -/
theorem fglm_tail_sum (rows : List Term) (g : Term → Int) (G : Nat → ℚ)
    (hG : ∀ t ∈ rows, G (term_to_id rows t) = ((g t : Int) : ℚ)) (s : Int)
    (hs : s = 1 ∨ s = -1) (tl : List Monomial) (hrows : ∀ m ∈ tl, m.term ∈ rows)
    (hfit : ∀ m ∈ tl, -2 ^ 63 < m.coeff ∧ m.coeff < 2 ^ 63) :
    (tl.map (fun mo =>
      ((mpz_get_si (if Int.sign s > 0 then -mo.coeff else mo.coeff) : Int) : ℚ)
        * G (term_to_id rows mo.term))).sum = ((-s * lin g tl : Int) : ℚ) := by
  induction tl with
  | nil => simp [lin]
  | cons m tl ih =>
    rw [List.map_cons, List.sum_cons, ih (fun x hx => hrows x (List.mem_cons_of_mem _ hx))
      (fun x hx => hfit x (List.mem_cons_of_mem _ hx)), lin_cons,
      hG _ (hrows m (List.mem_cons_self _ _))]
    have hf := hfit m (List.mem_cons_self _ _)
    have e : mpz_get_si (if Int.sign s > 0 then -m.coeff else m.coeff) = -s * m.coeff := by
      rcases hs with h | h
      · subst h
        rw [if_pos (by decide), mpz_get_si_of_fits _ (by omega) (by omega)]
        ring
      · subst h
        rw [if_neg (by decide), mpz_get_si_of_fits _ (by omega) (by omega)]
        ring
    rw [e]
    push_cast
    ring

/-- The term of a column of `run_fglm` is the value `sign * nf` of the column
plus the weighted sum of its entries, when the weight of a row is the value of
its term. -/
theorem fglm_column_value (normal_forms : List (Option Polynomial)) (rows : List Term)
    (g : Term → Int) (G : Nat → ℚ)
    (hG : ∀ t ∈ rows, G (term_to_id rows t) = ((g t : Int) : ℚ)) (c : Term × Int)
    (hc : (c.2 < 0 ∧ c.1 ∈ rows) ∨
      (0 ≤ c.2 ∧ ∃ p, normal_forms.getD c.2.toNat none = some p ∧ c.1 = leadTerm p ∧
        p.mon ≠ [] ∧ (leadCoeff p = 1 ∨ leadCoeff p = -1) ∧
        (∀ m ∈ p.mon.tail, m.term ∈ rows) ∧
        (∀ m ∈ p.mon.tail, -2 ^ 63 < m.coeff ∧ m.coeff < 2 ^ 63))) :
    ((g c.1 : Int) : ℚ) = ((fglmNormalFormValue normal_forms g c : Int) : ℚ)
      + fglmColumnSum normal_forms rows G c := by
  rcases hc with ⟨hneg, hrow⟩ | ⟨hpos, p, hp, hlt, hne, hlc, hrows, hfit⟩
  · unfold fglmNormalFormValue fglmColumnSum
    rw [if_pos hneg, if_pos hneg, hG _ hrow]
    simp
  · cases hm : p.mon with
    | nil => exact absurd hm hne
    | cons m0 tl =>
      rw [hm] at hrows hfit
      rw [leadCoeff_cons p m0 tl hm] at hlc
      unfold fglmNormalFormValue fglmColumnSum
      rw [if_neg (not_lt.2 hpos), if_neg (not_lt.2 hpos)]
      simp only [hp, hm]
      rw [fglm_tail_sum rows g G hG m0.coeff hlc tl hrows hfit, hlt, leadTerm_cons p m0 tl hm,
        leadCoeff_cons p m0 tl hm, lin_cons]
      rcases hlc with h | h
      · rw [h]
        have : Int.sign 1 = 1 := rfl
        rw [this]
        push_cast
        ring
      · rw [h]
        have : Int.sign (-1) = -1 := rfl
        rw [this]
        push_cast
        ring

/-- In a normal form the terms of the tail differ from the leading term and
from each other. -/
theorem normalForm_tail_distinct (p : Polynomial) (hp : NormalForm p.mon) :
    (∀ m ∈ p.mon.tail, m.term ≠ leadTerm p) ∧
    p.mon.tail.Pairwise (fun a b => a.term ≠ b.term) := by
  cases hm : p.mon with
  | nil => exact ⟨fun m h => absurd h (List.not_mem_nil _), List.Pairwise.nil⟩
  | cons m0 tl =>
    rw [hm] at hp
    have h := List.pairwise_cons.1 hp.2
    rw [leadTerm_cons p m0 tl hm]
    refine ⟨fun m hmem e => ?_, h.2.imp (fun {a b} hab e => ?_)⟩
    · have := h.1 m hmem
      rw [e] at this
      exact cmp_term_self_ne_one _ this
    · rw [e] at hab
      exact cmp_term_self_ne_one _ hab

/-- The first three loops of `run_fglm` for normal forms none of whose tails
holds the leading term of a normal form listed before: they return, every column
is the unit column of a row that is the constant or has degree 1, or the column
of a normal form with its leading term, every term of a tail is a row, and the
weighted sum of each column of the matrix is that of its entries. -/
theorem fglm_matrix_spec (std_sort : List (Term × Int) → List (Term × Int))
    (nfs : List Polynomial) (hsort : ∀ l, (std_sort l).Perm l)
    (hwf : ∀ p ∈ nfs, p.WF)
    (hpw : nfs.Pairwise (fun a b => ∀ m ∈ b.mon.tail, m.term ≠ leadTerm a)) :
    ∃ rows cols mat, fglm_matrix std_sort (nfs.map some) = .ok (rows, cols, mat) ∧
      mat.r = rows.length ∧ mat.c = cols.length ∧
      (∀ c ∈ cols, (c.2 < 0 ∧ c.1 ∈ rows ∧ (c.1 = [] ∨ Term.degree c.1 = 1)) ∨
        (0 ≤ c.2 ∧ ∃ p ∈ nfs, (nfs.map some).getD c.2.toNat none = some p ∧
          c.1 = leadTerm p)) ∧
      (∀ p ∈ nfs, ∀ m ∈ p.mon.tail, m.term ∈ rows) ∧
      (∀ t ∈ rows, ∃ p ∈ nfs, ∃ m ∈ p.mon.tail, m.term = t) ∧
      ∀ jj, jj < cols.length → ∀ G : Nat → ℚ,
        Finset.sum (Finset.range rows.length) (fun i => mat.entry i jj * G i)
          = fglmColumnSum (nfs.map some) rows G (cols.getD jj ([], 0)) := by
  obtain ⟨st, e1, h2, _, _, h5, h6⟩ := fglm_collect_spec nfs 0 [] ([], [], [])
    (fun t => by simp) List.nodup_nil (fun p hp => (hwf p hp).1)
    (fun p hp => (normalForm_tail_distinct p (hwf p hp).2.1).1)
    (fun t ht => absurd ht (List.not_mem_nil _)) hpw
  have hcols : ∀ c ∈ std_sort (st.2.2 ++ fglm_unit_cols st.2.1),
      (c.2 < 0 ∧ c.1 ∈ st.2.1 ∧ (c.1 = [] ∨ Term.degree c.1 = 1)) ∨
        (0 ≤ c.2 ∧ ∃ p ∈ nfs, (nfs.map some).getD c.2.toNat none = some p ∧
          c.1 = leadTerm p) := by
    intro c hc
    rw [(hsort _).mem_iff, List.mem_append] at hc
    rcases hc with hc | hc
    · right
      rw [h2, List.nil_append, List.mem_map] at hc
      obtain ⟨e, he, rfl⟩ := hc
      obtain ⟨i, p⟩ := e
      have hi := List.mk_mem_enumFrom_iff_le_and_getElem?_sub.1 he
      have hget : nfs[i]? = some p := by simpa using hi.2
      refine ⟨Int.ofNat_nonneg _, p, List.mem_iff_getElem?.mpr ⟨i, hget⟩, ?_, rfl⟩
      show (nfs.map some).getD (Int.toNat (i : Int)) none = some p
      rw [Int.toNat_ofNat, List.getD_eq_getElem?_getD, List.getElem?_map, hget]
      rfl
    · left
      unfold fglm_unit_cols at hc
      rw [List.mem_filterMap] at hc
      obtain ⟨t, ht, hc⟩ := hc
      by_cases hcond : t = [] ∨ Term.degree t = 1
      · rw [if_pos hcond] at hc
        cases hc
        exact ⟨show (-1 : Int) < 0 by decide, ht, hcond⟩
      · rw [if_neg hcond] at hc
        cases hc
  obtain ⟨mat, e2, r2, c2, _, s2⟩ := fglm_fill_spec (nfs.map some) st.2.1
    (std_sort (st.2.2 ++ fglm_unit_cols st.2.1)) 0
    (fmpq_mat_init st.2.1.length (std_sort (st.2.2 ++ fglm_unit_cols st.2.1)).length)
    (fun c hc => by
      rcases hcols c hc with ⟨a, b, _⟩ | ⟨a, p, hp, hget, _⟩
      · exact Or.inl ⟨a, b⟩
      · exact Or.inr ⟨a, p, hget, (hwf p hp).1, h5 p hp,
          (normalForm_tail_distinct p (hwf p hp).2.1).2⟩)
    (fun i b _ => rfl)
  refine ⟨st.2.1, std_sort (st.2.2 ++ fglm_unit_cols st.2.1), mat, ?_, r2, c2, hcols, h5,
    fun t ht => ?_, fun jj hjj G => ?_⟩
  · unfold fglm_matrix List.enum
    rw [e1, ok_bind]
    simp only []
    rw [e2, ok_bind]
    rfl
  · rcases h6 t ht with h | h
    · exact absurd h (List.not_mem_nil _)
    · exact h
  · have := s2 jj hjj G
    rw [Nat.zero_add] at this
    exact this

theorem fglm_compress_entry_spec (cols : List (Term × Int)) (K : fmpq_mat) (i : Nat)
    (ids : VarIds) (acc : compressed_polynomial) (j : Nat) (hj : j < cols.length)
    (hkey : (cols.getD j ([], 0)).1 = [] ∨
      ∃ v rest, (cols.getD j ([], 0)).1 = v :: rest ∧ find_id ids v ≠ none) :
    fglm_compress_entry cols K i (acc, ids) j
      = .ok (acc ++ (if K.entry i j = 0 then []
          else [((K.entry i j).num, fglmColumnId ids (cols.getD j ([], 0)).1)]), ids) := by
  unfold fglm_compress_entry
  by_cases hz : K.entry i j = 0
  · rw [if_pos hz, if_pos hz, List.append_nil]
    rfl
  · rw [if_neg hz, if_neg hz]
    rw [List.getD_eq_getElem _ _ hj] at hkey ⊢
    rw [List.getElem?_eq_getElem hj]
    generalize cols[j] = c at hkey ⊢
    obtain ⟨t, id⟩ := c
    rcases hkey with h | ⟨v, rest, h, hv⟩
    · replace h : t = [] := h
      subst h
      rfl
    · replace h : t = v :: rest := h
      subst h
      obtain ⟨n, hn⟩ := Option.ne_none_iff_exists'.1 hv
      simp only [fglmColumnId, map_index, hn]
      rfl

/-- The loop over the columns of a row of `K` when every variable of a column
is a key of the map: the map stays, and the entries that are not zero are
collected in their order. -/
theorem fglm_compress_fold (cols : List (Term × Int)) (K : fmpq_mat) (i : Nat) (ids : VarIds)
    (js : List Nat) (acc : compressed_polynomial) (hjs : ∀ j ∈ js, j < cols.length)
    (hkeys : ∀ c ∈ cols, c.1 = [] ∨ ∃ v rest, c.1 = v :: rest ∧ find_id ids v ≠ none) :
    js.foldlM (fglm_compress_entry cols K i) (acc, ids)
      = .ok (acc ++ js.filterMap (fun j =>
          if K.entry i j = 0 then none
          else some ((K.entry i j).num, fglmColumnId ids (cols.getD j ([], 0)).1)), ids) := by
  induction js generalizing acc with
  | nil =>
    simp only [List.foldlM_nil, List.filterMap_nil, List.append_nil]
    rfl
  | cons j js ih =>
    have hj := hjs j (List.mem_cons_self _ _)
    rw [List.foldlM_cons, fglm_compress_entry_spec cols K i ids acc j hj
      (by
        rw [List.getD_eq_getElem _ _ hj]
        exact hkeys _ (List.getElem_mem _)),
      ok_bind, ih _ (fun x hx => hjs x (List.mem_cons_of_mem _ hx))]
    by_cases hz : K.entry i j = 0
    · rw [if_pos hz, List.filterMap_cons, if_pos hz, List.append_nil]
    · rw [if_neg hz, List.filterMap_cons, if_neg hz, List.append_assoc]
      rfl

theorem find_range_spec (n j0 : Nat) (p : Nat → Bool)
    (h : (List.range n).find? p = some j0) :
    j0 < n ∧ p j0 = true ∧ ∀ j, j < j0 → p j = false := by
  induction n with
  | zero => simp at h
  | succ n ih =>
    rw [List.range_succ, List.find?_append] at h
    cases hf : (List.range n).find? p with
    | none =>
      rw [hf] at h
      have hn : ∀ j, j < n → p j = false := by
        intro j hj
        have := List.find?_eq_none.1 hf j (List.mem_range.2 hj)
        simpa using this
      by_cases hp : p n = true
      · simp only [Option.none_or, List.find?_cons, hp] at h
        cases h
        exact ⟨Nat.lt_succ_self _, hp, hn⟩
      · simp [hp] at h
    | some x =>
      rw [hf] at h
      replace h : some x = some j0 := h
      cases h
      obtain ⟨a, b, c⟩ := ih hf
      exact ⟨Nat.lt_succ_of_lt a, b, c⟩

/-- The body of the loop over the rows of `K` for a row that is not zero, when
every variable of a column is a key of the map: a row without denominator adds
its compressed polynomial, and the map stays. -/
theorem fglm_compress_row_spec (cols : List (Term × Int)) (K : fmpq_mat) (ids : VarIds)
    (st : List compressed_polynomial) (i : Nat) (hc : K.c = cols.length)
    (hkeys : ∀ c ∈ cols, c.1 = [] ∨ ∃ v rest, c.1 = v :: rest ∧ find_id ids v ≠ none)
    (hnz : ∃ j, j < K.c ∧ K.entry i j ≠ 0) :
    fglm_compress_row cols K (st, ids) i
      = .ok (if is_denom_free K i then st ++ [fglmRow ids cols K i] else st, ids) := by
  unfold fglm_compress_row
  by_cases hd : is_denom_free K i = true
  · rw [if_pos hd]
    simp only [hd, Bool.not_true, Bool.false_eq_true, if_false]
    cases hf : (List.range K.c).find? (fun j => decide (K.entry i j ≠ 0)) with
    | none =>
      obtain ⟨j, hj, hne⟩ := hnz
      have := List.find?_eq_none.1 hf j (List.mem_range.2 hj)
      simp [hne] at this
    | some j0 =>
      obtain ⟨a, _, c⟩ := find_range_spec K.c j0 _ hf
      simp only []
      rw [fglm_compress_fold cols K i ids _ [] (fun j hj => by
        have := (List.mem_range'_1.1 hj).2
        omega) hkeys, ok_bind]
      have e : List.range K.c = List.range' 0 j0 ++ List.range' j0 (K.c - j0) := by
        have e0 := @List.range'_append_1 0 j0 (K.c - j0)
        rw [Nat.zero_add] at e0
        rw [List.range_eq_range', e0]
        congr 1
        omega
      have e2 : (List.range' 0 j0).filterMap (fun j =>
          if K.entry i j = 0 then none
          else some ((K.entry i j).num, fglmColumnId ids (cols.getD j ([], 0)).1)) = [] := by
        rw [List.filterMap_eq_nil_iff]
        intro j hj
        have hlt : j < j0 := by
          have := (List.mem_range'_1.1 hj).2
          omega
        have := c j hlt
        simp only [decide_eq_false_iff_not, not_not] at this
        rw [if_pos this]
      unfold fglmRow
      rw [e, List.filterMap_append, e2]
      rfl
  · rw [if_neg hd]
    simp only [Bool.not_eq_true] at hd
    simp only [hd, Bool.not_false, if_true]
    rfl

/-- The loop over the rows of `K` when no row is zero and every variable of a
column is a key of the map: the compressed polynomials of the rows without
denominator, in their order; the map stays. -/
theorem fglm_compress_rows (cols : List (Term × Int)) (K : fmpq_mat) (ids : VarIds)
    (hc : K.c = cols.length)
    (hkeys : ∀ c ∈ cols, c.1 = [] ∨ ∃ v rest, c.1 = v :: rest ∧ find_id ids v ≠ none)
    (l : List Nat) (st : List compressed_polynomial)
    (hnz : ∀ i ∈ l, ∃ j, j < K.c ∧ K.entry i j ≠ 0) :
    l.foldlM (fglm_compress_row cols K) (st, ids)
      = .ok (st ++ (l.filter (fun i => is_denom_free K i)).map (fglmRow ids cols K), ids) := by
  induction l generalizing st with
  | nil =>
    simp only [List.foldlM_nil, List.filter_nil, List.map_nil, List.append_nil]
    rfl
  | cons i l ih =>
    rw [List.foldlM_cons, fglm_compress_row_spec cols K ids st i hc hkeys
      (hnz i (List.mem_cons_self _ _)), ok_bind, ih _ (fun x hx => hnz x (List.mem_cons_of_mem _ hx))]
    by_cases hd : is_denom_free K i = true
    · rw [if_pos hd, List.filter_cons_of_pos hd, List.map_cons, List.append_assoc]
      rfl
    · rw [if_neg hd, List.filter_cons_of_neg hd]

/-- Soundness of `run_fglm` for coefficients in the range of a `long`. Let the
normal forms be polynomial objects in normal form with leading coefficient `+1`
or `-1` and a leading term of one variable that is the term of no monomial in
the tail of a normal form listed after it; let the coefficients of the tails lie
strictly between `-2^63` and `2^63`, let every variable be a key of `var_to_id`,
let `std::sort` return a permutation, and let `fmpq_mat_rref` meet its contract
at the two matrices that `kernel` passes to it. Then `run_fglm` returns, with
the map unchanged, the compressed polynomials of the rows of `K` without
denominator, every column stands for the constant or one variable, and for every
such row `k` and every linear functional `g` on terms the value of
`sum_j k_j * term_j` is that of `sum_j k_j * sign_j * nf_j`, where `j` ranges
over the columns of the normal forms. -/
theorem run_fglm_sound_core (std_sort : List (Term × Int) → List (Term × Int))
    (fmpq_mat_rref : fmpq_mat → fmpq_mat) (nfs : List Polynomial) (ids : VarIds)
    (hsort : ∀ l, (std_sort l).Perm l) (hwf : ∀ p ∈ nfs, p.WF)
    (hlc : ∀ p ∈ nfs, leadCoeff p = 1 ∨ leadCoeff p = -1)
    (hlt : ∀ p ∈ nfs, Term.degree (leadTerm p) = 1)
    (hpw : nfs.Pairwise (fun a b => ∀ m ∈ b.mon.tail, m.term ≠ leadTerm a))
    (hfit : ∀ p ∈ nfs, ∀ m ∈ p.mon.tail, -2 ^ 63 < m.coeff ∧ m.coeff < 2 ^ 63)
    (hkeys : ∀ p ∈ nfs, ∀ v ∈ varsOf p.mon, find_id ids v ≠ none)
    (hrref : ∀ m, fglm_matrix std_sort (nfs.map some) = .ok m →
      RrefOf m.2.2 (fmpq_mat_rref m.2.2) ∧
      RrefOf (kernel_unreduced fmpq_mat_rref m.2.2).2
        (fmpq_mat_rref (kernel_unreduced fmpq_mat_rref m.2.2).2)) :
    ∃ rows cols mat, fglm_matrix std_sort (nfs.map some) = .ok (rows, cols, mat) ∧
      run_fglm std_sort fmpq_mat_rref (nfs.map some) ids
        = .ok (((List.range (kernel fmpq_mat_rref mat).2.r).filter
            (fun i => is_denom_free (kernel fmpq_mat_rref mat).2 i)).map
              (fglmRow ids cols (kernel fmpq_mat_rref mat).2), ids) ∧
      (kernel fmpq_mat_rref mat).2.c = cols.length ∧
      (∀ c ∈ cols, Term.degree c.1 ≤ 1) ∧
      ∀ i, i < (kernel fmpq_mat_rref mat).2.r →
        is_denom_free (kernel fmpq_mat_rref mat).2 i = true → ∀ g : Term → Int,
          Finset.sum (Finset.range cols.length) (fun j =>
              ((kernel fmpq_mat_rref mat).2.entry i j).num * g (cols.getD j ([], 0)).1)
            = Finset.sum (Finset.range cols.length) (fun j =>
              ((kernel fmpq_mat_rref mat).2.entry i j).num
                * fglmNormalFormValue (nfs.map some) g (cols.getD j ([], 0))) := by
  obtain ⟨rows, cols, mat, em, hr, hcn, hcols, htails, hrows, hsum⟩ :=
    fglm_matrix_spec std_sort nfs hsort hwf hpw
  obtain ⟨hc1, hc2⟩ := hrref (rows, cols, mat) em
  obtain ⟨hKc, hnull, hnz⟩ := kernel_rows_spec fmpq_mat_rref mat hc1 hc2
  rw [hcn] at hKc
  have hckeys : ∀ c ∈ cols, c.1 = [] ∨ ∃ v rest, c.1 = v :: rest ∧ find_id ids v ≠ none := by
    intro c hc
    cases ht : c.1 with
    | nil => exact Or.inl rfl
    | cons v rest =>
      refine Or.inr ⟨v, rest, rfl, ?_⟩
      rcases hcols c hc with ⟨_, hrow, _⟩ | ⟨_, p, hp, _, hlead⟩
      · obtain ⟨p, hp, m, hm, e⟩ := hrows _ hrow
        refine hkeys p hp v (mem_varsOf p.mon m v (List.mem_of_mem_tail hm) ?_)
        rw [e, ht]
        exact List.mem_cons_self _ _
      · cases hm : p.mon with
        | nil => exact absurd hm (hwf p hp).1
        | cons m0 tl =>
          refine hkeys p hp v (mem_varsOf p.mon m0 v (by rw [hm]; exact List.mem_cons_self _ _) ?_)
          rw [← leadTerm_cons p m0 tl hm, ← hlead, ht]
          exact List.mem_cons_self _ _
  refine ⟨rows, cols, mat, em, ?_, hKc, ?_, ?_⟩
  · unfold run_fglm
    rw [em, ok_bind]
    simp only []
    by_cases hall : ((List.range (kernel fmpq_mat_rref mat).2.r).all
        (fun i => row_is_zero (kernel fmpq_mat_rref mat).2 i)) = true
    · rw [if_pos hall]
      have hr0 : (kernel fmpq_mat_rref mat).2.r = 0 := by
        by_contra hne
        have h0 := List.all_eq_true.1 hall 0 (List.mem_range.2 (Nat.pos_of_ne_zero hne))
        obtain ⟨j, hj, hjne⟩ := hnz 0 (Nat.pos_of_ne_zero hne)
        unfold row_is_zero at h0
        have := List.all_eq_true.1 h0 j (List.mem_range.2 (by rw [hKc, ← hcn]; exact hj))
        simp only [decide_eq_true_eq] at this
        exact hjne this
      rw [hr0]
      rfl
    · rw [if_neg hall, fglm_compress_rows cols _ ids hKc hckeys _ []
        (fun i hi => by
          obtain ⟨j, hj, hjne⟩ := hnz i (List.mem_range.1 hi)
          exact ⟨j, by rw [hKc, ← hcn]; exact hj, hjne⟩)]
      rfl
  · intro c hc
    rcases hcols c hc with ⟨_, _, h | h⟩ | ⟨_, p, hp, _, hlead⟩
    · rw [h]; exact Nat.zero_le _
    · exact le_of_eq h
    · rw [hlead]; exact le_of_eq (hlt p hp)
  · intro i hi hdf g
    have hG : ∀ t ∈ rows, (fun a => ((g (rows.getD a []) : Int) : ℚ)) (term_to_id rows t)
        = ((g t : Int) : ℚ) := by
      intro t ht
      show ((g (rows.getD (term_to_id rows t) []) : Int) : ℚ) = _
      rw [term_to_id_getD rows t ht]
    have hval : ∀ j, j < cols.length →
        ((g (cols.getD j ([], 0)).1 : Int) : ℚ)
          = ((fglmNormalFormValue (nfs.map some) g (cols.getD j ([], 0)) : Int) : ℚ)
            + fglmColumnSum (nfs.map some) rows
                (fun a => ((g (rows.getD a []) : Int) : ℚ)) (cols.getD j ([], 0)) := by
      intro j hj
      apply fglm_column_value (nfs.map some) rows g _ hG
      have hmem : cols.getD j ([], 0) ∈ cols := by
        rw [List.getD_eq_getElem _ _ hj]
        exact List.getElem_mem _
      rcases hcols _ hmem with ⟨a, b, _⟩ | ⟨a, p, hp, hget, hlead⟩
      · exact Or.inl ⟨a, b⟩
      · exact Or.inr ⟨a, p, hget, hlead, (hwf p hp).1, hlc p hp, htails p hp, hfit p hp⟩
    have hzero := fglm_kernel_sum mat rows.length cols.length
      (fun j => (kernel fmpq_mat_rref mat).2.entry i j)
      (fun j => fglmColumnSum (nfs.map some) rows
        (fun a => ((g (rows.getD a []) : Int) : ℚ)) (cols.getD j ([], 0)))
      (fun a => ((g (rows.getD a []) : Int) : ℚ))
      (fun jj hjj => hsum jj hjj _)
      (fun a ha => by
        have := hnull i hi a (by rw [hr]; exact ha)
        rw [hcn] at this
        exact this)
    have hnum : ∀ j, j < cols.length →
        (kernel fmpq_mat_rref mat).2.entry i j
          = ((((kernel fmpq_mat_rref mat).2.entry i j).num : Int) : ℚ) := by
      intro j hj
      unfold is_denom_free at hdf
      have := List.all_eq_true.1 hdf j (List.mem_range.2 (by rw [hKc]; exact hj))
      simp only [decide_eq_true_eq] at this
      exact ((Rat.den_eq_one_iff _).1 this).symm
    have key : Finset.sum (Finset.range cols.length) (fun j =>
          (kernel fmpq_mat_rref mat).2.entry i j * ((g (cols.getD j ([], 0)).1 : Int) : ℚ))
        = Finset.sum (Finset.range cols.length) (fun j =>
          (kernel fmpq_mat_rref mat).2.entry i j
            * ((fglmNormalFormValue (nfs.map some) g (cols.getD j ([], 0)) : Int) : ℚ)) := by
      rw [← add_zero (Finset.sum (Finset.range cols.length) (fun j =>
          (kernel fmpq_mat_rref mat).2.entry i j
            * ((fglmNormalFormValue (nfs.map some) g (cols.getD j ([], 0)) : Int) : ℚ))),
        ← hzero, ← Finset.sum_add_distrib]
      apply Finset.sum_congr rfl
      intro j hj
      rw [hval j (Finset.mem_range.1 hj)]
      ring
    have key2 : ((Finset.sum (Finset.range cols.length) (fun j =>
          ((kernel fmpq_mat_rref mat).2.entry i j).num * g (cols.getD j ([], 0)).1) : Int) : ℚ)
        = ((Finset.sum (Finset.range cols.length) (fun j =>
          ((kernel fmpq_mat_rref mat).2.entry i j).num
            * fglmNormalFormValue (nfs.map some) g (cols.getD j ([], 0))) : Int) : ℚ) := by
      push_cast
      rw [Finset.sum_congr rfl (fun j hj => by rw [← hnum j (Finset.mem_range.1 hj)]),
        key]
      apply Finset.sum_congr rfl
      intro j hj
      rw [← hnum j (Finset.mem_range.1 hj)]
    exact_mod_cast key2

theorem fglm_matrix_smallCoeff :
    fglm_matrix (List.insertionSort (fun a b => cmp_term a.1 b.1 = 1))
        [some smallCoeffNormalForm] = .ok smallCoeffFglm := by
  with_unfolding_all rfl

/-- For the matrix `(2 1)` of the example, scaling the row is the reduced row
echelon form `(1 1/2)`. -/
theorem scale_rows_contract_smallCoeff :
    RrefOf smallCoeffFglm.2.2 (scale_rows smallCoeffFglm.2.2) := by
  have hr : smallCoeffFglm.2.2.r = 1 := by with_unfolding_all rfl
  have hc : smallCoeffFglm.2.2.c = 2 := by with_unfolding_all rfl
  have hr2 : (scale_rows smallCoeffFglm.2.2).r = 1 := hr
  have hc2 : (scale_rows smallCoeffFglm.2.2).c = 2 := hc
  refine ⟨rfl, rfl, ⟨fun _ _ => 1 / 2, ?_⟩, ⟨fun _ _ => 2, ?_⟩, 1, fun _ => 0, ?_⟩
  · intro i hi j hj
    rw [hr2] at hi
    rw [hc2] at hj
    interval_cases i
    interval_cases j <;> with_unfolding_all rfl
  · intro i hi j hj
    rw [hr] at hi
    rw [hc] at hj
    interval_cases i
    interval_cases j <;> with_unfolding_all rfl
  · refine ⟨by rw [hr2], fun i hi => ?_, fun i j hij hj => by omega, fun i h1 h2 => ?_⟩
    · have : i = 0 := by omega
      subst this
      refine ⟨by rw [hc2]; decide, by with_unfolding_all rfl, fun j hj => ?_,
        fun i2 hi2 hne => ?_⟩
      · have hj2 : j < 0 := hj
        omega
      · rw [hr2] at hi2
        omega
    · rw [hr2] at h2
      omega

/-- The matrix that `kernel` passes to `fmpq_mat_rref` for `(2 1)` is
`(1/2 -1)`; scaling its row gives its reduced row echelon form `(1 -2)`. -/
theorem scale_rows_contract_smallCoeff_kernel :
    RrefOf (kernel_unreduced scale_rows smallCoeffFglm.2.2).2
      (scale_rows (kernel_unreduced scale_rows smallCoeffFglm.2.2).2) := by
  have hr : (kernel_unreduced scale_rows smallCoeffFglm.2.2).2.r = 1 := by with_unfolding_all rfl
  have hc : (kernel_unreduced scale_rows smallCoeffFglm.2.2).2.c = 2 := by with_unfolding_all rfl
  have hr2 : (scale_rows (kernel_unreduced scale_rows smallCoeffFglm.2.2).2).r = 1 := hr
  have hc2 : (scale_rows (kernel_unreduced scale_rows smallCoeffFglm.2.2).2).c = 2 := hc
  refine ⟨rfl, rfl, ⟨fun _ _ => 2, ?_⟩, ⟨fun _ _ => 1 / 2, ?_⟩, 1, fun _ => 0, ?_⟩
  · intro i hi j hj
    rw [hr2] at hi
    rw [hc2] at hj
    interval_cases i
    interval_cases j <;> with_unfolding_all rfl
  · intro i hi j hj
    rw [hr] at hi
    rw [hc] at hj
    interval_cases i
    interval_cases j <;> with_unfolding_all rfl
  · refine ⟨by rw [hr2], fun i hi => ?_, fun i j hij hj => by omega, fun i h1 h2 => ?_⟩
    · have : i = 0 := by omega
      subst this
      refine ⟨by rw [hc2]; decide, by with_unfolding_all rfl, fun j hj => ?_,
        fun i2 hi2 hne => ?_⟩
      · have hj2 : j < 0 := hj
        omega
      · rw [hr2] at hi2
        omega
    · rw [hr2] at h2
      omega

/-- The normal form `x - 2 * y` with the map `x -> 1, y -> 2` meets the
hypotheses of the soundness of `run_fglm`; the kernel of the matrix `(2 1)` has
the row `(-1 2)`, and `run_fglm` returns `-x + 2 * y`, which is
`-1 * (+1) * (x - 2 * y)`. -/
theorem run_fglm_sound_example :
    (∃ rows cols mat, fglm_matrix (List.insertionSort (fun a b => cmp_term a.1 b.1 = 1))
        ([smallCoeffNormalForm].map some) = .ok (rows, cols, mat) ∧
      run_fglm (List.insertionSort (fun a b => cmp_term a.1 b.1 = 1)) scale_rows
          ([smallCoeffNormalForm].map some) [(⟨4, 4, false⟩, 1), (⟨2, 2, false⟩, 2)]
        = .ok (((List.range (kernel scale_rows mat).2.r).filter
            (fun i => is_denom_free (kernel scale_rows mat).2 i)).map
              (fglmRow [(⟨4, 4, false⟩, 1), (⟨2, 2, false⟩, 2)] cols (kernel scale_rows mat).2),
            [(⟨4, 4, false⟩, 1), (⟨2, 2, false⟩, 2)]) ∧
      (kernel scale_rows mat).2.c = cols.length ∧
      (∀ c ∈ cols, Term.degree c.1 ≤ 1) ∧
      ∀ i, i < (kernel scale_rows mat).2.r →
        is_denom_free (kernel scale_rows mat).2 i = true → ∀ g : Term → Int,
          Finset.sum (Finset.range cols.length) (fun j =>
              ((kernel scale_rows mat).2.entry i j).num * g (cols.getD j ([], 0)).1)
            = Finset.sum (Finset.range cols.length) (fun j =>
              ((kernel scale_rows mat).2.entry i j).num
                * fglmNormalFormValue ([smallCoeffNormalForm].map some) g
                    (cols.getD j ([], 0)))) ∧
    run_fglm (List.insertionSort (fun a b => cmp_term a.1 b.1 = 1)) scale_rows
        [some smallCoeffNormalForm] [(⟨4, 4, false⟩, 1), (⟨2, 2, false⟩, 2)]
      = .ok ([[(-1, 1), (2, 2)]], [(⟨4, 4, false⟩, 1), (⟨2, 2, false⟩, 2)]) :=
  ⟨run_fglm_sound_core (List.insertionSort (fun a b => cmp_term a.1 b.1 = 1)) scale_rows
    [smallCoeffNormalForm] [(⟨4, 4, false⟩, 1), (⟨2, 2, false⟩, 2)]
    (fun l => List.perm_insertionSort _ l) (by decide) (by decide) (by decide) (by decide)
    (by decide) (by decide)
    (fun m hm => by
      have e : m = smallCoeffFglm := by
        have h2 := fglm_matrix_smallCoeff
        rw [show [some smallCoeffNormalForm] = [smallCoeffNormalForm].map some from rfl,
          hm] at h2
        exact Except.ok.inj h2
      subst e
      exact ⟨scale_rows_contract_smallCoeff, scale_rows_contract_smallCoeff_kernel⟩),
   by with_unfolding_all rfl⟩

/-! ## Soundness of the XOR encoding -/

/-- The terms of the result of the loop of `add_poly` are terms of its
arguments. -/
theorem add_poly_loop_termsIn (T : Term → Prop) (l1 l2 : List Monomial) (st : MStack)
    (h1 : TermsIn T l1) (h2 : TermsIn T l2) (h3 : TermsIn T st) :
    TermsIn T (add_poly_loop l1 l2 st) := by
  have hpush : ∀ (s : MStack) (m : Monomial), TermsIn T s → T m.term →
      TermsIn T (push_mstack_end s m) := by
    intro s m hs hm e he
    rcases push_mstack_end_mem s m e he with h | h
    · exact hs e h
    · rw [h]; exact hm
  have hfold : ∀ (l : List Monomial) (s : MStack), TermsIn T l → TermsIn T s →
      TermsIn T (l.foldl push_mstack_end s) := by
    intro l
    induction l with
    | nil => intro s _ hs; exact hs
    | cons m l ih =>
      intro s hl hs
      rw [List.foldl_cons]
      exact ih _ (fun e he => hl e (List.mem_cons_of_mem _ he))
        (hpush s m hs (hl m (List.mem_cons_self _ _)))
  induction l1, l2, st using add_poly_loop.induct with
  | case1 m1 r1 m2 r2 st hor hand ih =>
    simp only [dite_eq_ite] at ih
    rw [add_poly_loop, if_pos hor, if_pos hand]
    apply ih (fun e he => h1 e (List.mem_cons_of_mem _ he))
      (fun e he => h2 e (List.mem_cons_of_mem _ he))
    split_ifs
    · exact hpush st _ h3 (by
        show T []
        rw [← hand.1]; exact h1 m1 (List.mem_cons_self _ _))
    · exact h3
  | case2 m1 r1 m2 r2 st hor hand hm1 ih =>
    rw [add_poly_loop, if_pos hor, if_neg hand, if_pos hm1]
    exact ih h1 (fun e he => h2 e (List.mem_cons_of_mem _ he))
      (hpush st m2 h3 (h2 m2 (List.mem_cons_self _ _)))
  | case3 m1 r1 m2 r2 st hor hand hm1 ih =>
    rw [add_poly_loop, if_pos hor, if_neg hand, if_neg hm1]
    exact ih (fun e he => h1 e (List.mem_cons_of_mem _ he)) h2
      (hpush st m1 h3 (h1 m1 (List.mem_cons_self _ _)))
  | case4 m1 r1 m2 r2 st hor hc ih =>
    rw [add_poly_loop, if_neg hor, if_pos hc]
    exact ih (fun e he => h1 e (List.mem_cons_of_mem _ he)) h2
      (hpush st m1 h3 (h1 m1 (List.mem_cons_self _ _)))
  | case5 m1 r1 m2 r2 st hor hc hc2 ih =>
    rw [add_poly_loop, if_neg hor, if_neg hc, if_pos hc2]
    exact ih h1 (fun e he => h2 e (List.mem_cons_of_mem _ he))
      (hpush st m2 h3 (h2 m2 (List.mem_cons_self _ _)))
  | case6 m1 r1 m2 r2 st hor hc hc2 ih =>
    simp only [dite_eq_ite] at ih
    rw [add_poly_loop, if_neg hor, if_neg hc, if_neg hc2]
    apply ih (fun e he => h1 e (List.mem_cons_of_mem _ he))
      (fun e he => h2 e (List.mem_cons_of_mem _ he))
    split_ifs
    · exact hpush st _ h3 (h1 m1 (List.mem_cons_self _ _))
    · exact h3
  | case7 m1 r1 st =>
    rw [add_poly_loop]
    exact hfold _ _ h1 h3
  | case8 l2 st =>
    rw [add_poly_loop]
    exact hfold _ _ h2 h3

/-- The sum of two polynomial objects over variables that their levels tell
apart, whatever the order of their monomials: `add_poly` returns the polynomial
built from the merged monomials, whose image under every linear functional on
terms is the sum of the images. -/
theorem add_poly_objects (vs : List Var) (hd : LevelsDistinct vs) (a b : Polynomial)
    (ha : ∀ v ∈ varsOf a.mon, v ∈ vs) (hb : ∀ v ∈ varsOf b.mon, v ∈ vs) :
    add_poly (some a) (some b) = .ok (build_poly (add_poly_loop a.mon b.mon [])) ∧
    (∀ g, lin g (mons (build_poly (add_poly_loop a.mon b.mon []))) = lin g a.mon + lin g b.mon) ∧
    ∀ T : Term → Prop, TermsIn T a.mon → TermsIn T b.mon →
      TermsIn T (mons (build_poly (add_poly_loop a.mon b.mon []))) := by
  refine ⟨rfl, fun g => ?_, fun T h1 h2 => ?_⟩
  · rw [mons_build_poly, lin_reverse, add_poly_loop_lin _ (cmpFaithful_of_levels vs hd) g _ _ _
      (termsIn_of_varsOf vs a.mon ha) (termsIn_of_varsOf vs b.mon hb), lin_nil]
    ring
  · rw [mons_build_poly]
    intro e he
    exact add_poly_loop_termsIn T _ _ [] h1 h2 (fun x hx => absurd hx (List.not_mem_nil _)) e
      (List.mem_reverse.1 he)

/-- The polynomial of a fan-in literal with a gate, as `get_node_constraint`
builds it with `flipped = 0`: one or two monomials over the variable of the
gate. -/
theorem get_node_constraint_some (a : Gate) (lit : Nat) :
    ∃ q : Polynomial, get_node_constraint (some a) (aiger_sign lit) false = some q ∧
      (∀ v ∈ varsOf q.mon, v = a.get_var) ∧ (∀ m ∈ q.mon, m.term.length ≤ 1) ∧
      ∀ g, lin g q.mon = litLin g a lit := by
  unfold get_node_constraint litLin
  cases hs : aiger_sign lit
  · refine ⟨⟨[⟨1, [a.get_var]⟩], 1⟩, by rfl, ?_, ?_, ?_⟩
    · intro v hv
      simpa [varsOf] using hv
    · intro m hm
      simp only [List.mem_singleton] at hm
      subst hm
      simp
    · intro g
      simp [lin]
  · refine ⟨⟨[⟨-1, [a.get_var]⟩, ⟨1, []⟩], 1⟩, ?_, ?_, ?_, ?_⟩
    · simp [negative_poly, push_mstack, push_mstack_scan, new_term, build_poly, build_poly_deg,
        Term.degree, cmp_term]
    · intro v hv
      simpa [varsOf] using hv
    · intro m hm
      simp only [List.mem_cons, List.mem_singleton, List.not_mem_nil, or_false] at hm
      rcases hm with h | h <;> subst h <;> simp
    · intro g
      simp [lin]
      ring

theorem maxDegree_le_one (l : List Monomial) (h : ∀ m ∈ l, m.term.length ≤ 1) :
    maxDegree l ≤ 1 := by
  induction l with
  | nil => simp [maxDegree]
  | cons m l ih =>
    have := ih (fun e he => h e (List.mem_cons_of_mem _ he))
    have hm := h m (List.mem_cons_self _ _)
    simp only [maxDegree, List.map_cons, List.foldr_cons] at this ⊢
    exact max_le hm this

theorem maxDegree_pos (l : List Monomial) (m : Monomial) (hm : m ∈ l) (ht : m.term ≠ []) :
    1 ≤ maxDegree l := by
  induction l with
  | nil => exact absurd hm (List.not_mem_nil _)
  | cons e l ih =>
    simp only [maxDegree, List.map_cons, List.foldr_cons]
    rcases List.mem_cons.1 hm with h | h
    · subst h
      have : 1 ≤ m.term.length := by
        cases ht2 : m.term with
        | nil => exact absurd ht2 ht
        | cons _ _ => simp
      exact le_max_of_le_left this
    · exact le_max_of_le_right (ih h)

/-- A monomial array on which some linear functional is not zero has a monomial
whose term the functional does not send to zero. -/
theorem exists_mem_of_lin_ne_zero (g : Term → Int) (l : List Monomial) (h : lin g l ≠ 0) :
    ∃ m ∈ l, g m.term ≠ 0 := by
  by_contra hn
  push_neg at hn
  apply h
  have : lin g l = lin (fun _ => 0) l :=
    lin_congr_mem g (fun _ => 0) l (fun m hm => hn m hm)
  rw [this]
  simp [lin]

/-- What `gen_xor_constraint(n)` builds when the gates of the two fan-ins of `n`
and of the two fan-ins of the child `smaller` exist and the levels tell the
variables of `n`, `smaller` and the two gates apart: a polynomial object of
degree 1 that is `-n - 2 * smaller` plus the literal polynomials of the fan-ins
of `smaller`. -/
theorem gen_xor_constraint_eval (c : Circuit) (n l_gate r_gate gll glr : Gate)
    (and1 smand1 : aiger_and) (hn : c.is_model_and n.num = some and1)
    (hl : gate c and1.rhs0 = some l_gate) (hr : gate c and1.rhs1 = some r_gate)
    (hs : c.is_model_and (if l_gate.level < r_gate.level then l_gate else r_gate).num
      = some smand1)
    (hll : gate c smand1.rhs0 = some gll) (hrr : gate c smand1.rhs1 = some glr)
    (hd : LevelsDistinct [n.get_var,
      (if l_gate.level < r_gate.level then l_gate else r_gate).get_var,
      gll.get_var, glr.get_var]) :
    ∃ p : Polynomial, gen_xor_constraint c n = .ok (some p) ∧ p.deg = 1 ∧
      (∀ m ∈ p.mon, m.term.length ≤ 1) ∧
      ∀ g : Term → Int, lin g p.mon
        = -g [n.get_var]
          - 2 * g [(if l_gate.level < r_gate.level then l_gate else r_gate).get_var]
          + litLin g gll smand1.rhs0 + litLin g glr smand1.rhs1 := by
  obtain ⟨q1, e1, v1, d1, f1⟩ := get_node_constraint_some gll smand1.rhs0
  obtain ⟨q2, e2, v2, d2, f2⟩ := get_node_constraint_some glr smand1.rhs1
  generalize hsm : (if l_gate.level < r_gate.level then l_gate else r_gate) = smaller at hs hd ⊢
  have hmem1 : ∀ v ∈ varsOf q1.mon,
      v ∈ [n.get_var, smaller.get_var, gll.get_var, glr.get_var] := by
    intro v hv; rw [v1 v hv]; simp
  have hmem2 : ∀ v ∈ varsOf q2.mon,
      v ∈ [n.get_var, smaller.get_var, gll.get_var, glr.get_var] := by
    intro v hv; rw [v2 v hv]; simp
  obtain ⟨a1, a2, a3⟩ := add_poly_objects _ hd q1 q2 hmem1 hmem2
  -- the tail is not the null pointer
  have htl : build_poly (add_poly_loop q1.mon q2.mon []) ≠ none := by
    intro hnone
    have hz : ∀ g, lin g q1.mon + lin g q2.mon = 0 := by
      intro g
      rw [← a2 g, hnone]
      rfl
    have h1 := hz (fun t => if t = [] then 0 else 1)
    have h2 := hz (fun t => if t = [] then 1 else 0)
    rw [f1, f2] at h1 h2
    unfold litLin at h1 h2
    simp only [if_true, List.cons_ne_nil, if_false] at h1 h2
    split_ifs at h1 h2 <;> omega
  obtain ⟨tl, htl2⟩ := Option.ne_none_iff_exists'.1 htl
  have htlv : ∀ v ∈ varsOf tl.mon,
      v ∈ [n.get_var, smaller.get_var, gll.get_var, glr.get_var] := by
    intro v hv
    obtain ⟨m, hm, hvm⟩ := List.mem_flatMap.1 hv
    have := a3 (fun t => ∀ v ∈ t, v ∈ [n.get_var, smaller.get_var, gll.get_var, glr.get_var])
      (termsIn_of_varsOf _ q1.mon hmem1) (termsIn_of_varsOf _ q2.mon hmem2)
    rw [htl2] at this
    exact this m hm v hvm
  have htld : ∀ m ∈ tl.mon, m.term.length ≤ 1 := by
    have := a3 (fun t => t.length ≤ 1) d1 d2
    rw [htl2] at this
    exact this
  have htll : ∀ g, lin g tl.mon = lin g q1.mon + lin g q2.mon := by
    intro g
    rw [← a2 g, htl2]
    rfl
  have hph : build_poly
      (push_mstack_end
        (push_mstack_end [] { coeff := -1, term := new_term n.get_var [] })
        { coeff := -2, term := new_term smaller.get_var [] })
      = some ⟨[⟨-1, [n.get_var]⟩, ⟨-2, [smaller.get_var]⟩], 1⟩ := by
    simp [push_mstack_end, new_term, build_poly, build_poly_deg, Term.degree]
  have hphv : ∀ v ∈ varsOf [(⟨-1, [n.get_var]⟩ : Monomial), ⟨-2, [smaller.get_var]⟩],
      v ∈ [n.get_var, smaller.get_var, gll.get_var, glr.get_var] := by
    intro v hv
    simp only [varsOf, List.flatMap_cons, List.flatMap_nil, List.append_nil,
      List.singleton_append, List.mem_cons, List.not_mem_nil, or_false] at hv
    rcases hv with h | h <;> rw [h] <;> simp
  obtain ⟨b1, b2, b3⟩ := add_poly_objects _ hd
    ⟨[⟨-1, [n.get_var]⟩, ⟨-2, [smaller.get_var]⟩], 1⟩ tl hphv htlv
  have hlin : ∀ g, lin g (mons (build_poly (add_poly_loop
      [(⟨-1, [n.get_var]⟩ : Monomial), ⟨-2, [smaller.get_var]⟩] tl.mon [])))
      = -g [n.get_var] - 2 * g [smaller.get_var]
        + litLin g gll smand1.rhs0 + litLin g glr smand1.rhs1 := by
    intro g
    rw [b2 g, htll g, f1, f2]
    simp [lin]
    ring
  have hne : build_poly (add_poly_loop
      [(⟨-1, [n.get_var]⟩ : Monomial), ⟨-2, [smaller.get_var]⟩] tl.mon []) ≠ none := by
    intro hnone
    have h1 := hlin (fun t => if t = [] then 0 else 1)
    rw [hnone] at h1
    unfold litLin at h1
    simp only [if_true, List.cons_ne_nil, if_false, mons, lin, List.map_nil, List.sum_nil] at h1
    split_ifs at h1 <;> omega
  obtain ⟨p, hp⟩ := Option.ne_none_iff_exists'.1 hne
  have hlen : ∀ m ∈ p.mon, m.term.length ≤ 1 := by
    have := b3 (fun t => t.length ≤ 1)
      (by
        intro m hm
        simp only [List.mem_cons, List.mem_singleton, List.not_mem_nil, or_false] at hm
        rcases hm with h | h <;> subst h <;> simp)
      htld
    rw [hp] at this
    exact this
  refine ⟨p, ?_, ?_, hlen, ?_⟩
  · unfold gen_xor_constraint
    simp only [hn, hl, hr, derefAnd, derefGate, ok_bind, hsm, hs, hll, hrr, e1, e2, hph]
    rw [a1, htl2, ok_bind, b1, hp]
  · have hmon : p.mon = (add_poly_loop
        [(⟨-1, [n.get_var]⟩ : Monomial), ⟨-2, [smaller.get_var]⟩] tl.mon []).reverse := by
      have := mons_build_poly (add_poly_loop
        [(⟨-1, [n.get_var]⟩ : Monomial), ⟨-2, [smaller.get_var]⟩] tl.mon [])
      rw [hp] at this
      exact this
    have hdeg : p.deg = maxDegree p.mon := by
      have hst : add_poly_loop
          [(⟨-1, [n.get_var]⟩ : Monomial), ⟨-2, [smaller.get_var]⟩] tl.mon [] ≠ [] := by
        intro h0
        rw [h0] at hp
        simp [build_poly] at hp
      rw [build_poly_ne_nil _ hst] at hp
      cases hp
      exact build_poly_deg_eq _
    have hle : maxDegree p.mon ≤ 1 := by
      apply maxDegree_le_one
      have := b3 (fun t => t.length ≤ 1)
        (by
          intro m hm
          simp only [List.mem_cons, List.mem_singleton, List.not_mem_nil, or_false] at hm
          rcases hm with h | h <;> subst h <;> simp)
        htld
      rw [hp] at this
      exact this
    have hge : 1 ≤ maxDegree p.mon := by
      have h1 := hlin (fun t => if t = [] then 0 else 1)
      rw [hp] at h1
      have hnz : lin (fun t => if t = [] then 0 else 1) p.mon ≠ 0 := by
        show lin _ (mons (some p)) ≠ 0
        rw [h1]
        unfold litLin
        simp only [if_true, List.cons_ne_nil, if_false]
        split_ifs <;> omega
      obtain ⟨m, hm, hg⟩ := exists_mem_of_lin_ne_zero _ p.mon hnz
      refine maxDegree_pos p.mon m hm (fun h0 => hg ?_)
      rw [h0]
      rfl
    omega
  · intro g
    have := hlin g
    rw [hp] at this
    exact this

/-! ### The levels of the gate table after `init_gates` -/

theorem slotRel_keepsLevel_refl (c : Circuit) :
    SlotRel (fun _ g g2 => KeepsLevel g g2) c c :=
  slotRel_refl _ (fun _ _ => ⟨rfl, rfl, rfl⟩) c

theorem slotRel_keepsLevel_trans {a b c : Circuit}
    (h1 : SlotRel (fun _ g g2 => KeepsLevel g g2) a b)
    (h2 : SlotRel (fun _ g g2 => KeepsLevel g g2) b c) :
    SlotRel (fun _ g g2 => KeepsLevel g g2) a c :=
  slotRel_trans h1 h2 (fun _ g g2 g3 r1 r2 => keepsLevel_trans g g2 g3 r1 r2)

theorem push_parent_of_lit_keepsLevel (c : Circuit) (l : Int) (n : Gate) :
    SlotRel (fun _ g g2 => KeepsLevel g g2) c (push_parent_of_lit c l n) := by
  unfold push_parent_of_lit
  split
  · exact push_parent_keepsLevel c _ n
  · exact slotRel_keepsLevel_refl c

theorem set_parents_step_keepsLevel (c c2 : Circuit) (i : Nat)
    (h : set_parents_step c i = .ok c2) :
    SlotRel (fun _ g g2 => KeepsLevel g g2) c c2 := by
  unfold set_parents_step at h
  cases hn : c.gates[i]? with
  | none => rw [hn] at h; cases h
  | some n =>
    rw [hn] at h
    simp only [derefGate, bind, Except.bind] at h
    cases hrec : c.is_model_and n.num with
    | none =>
      rw [hrec] at h
      cases h
      exact slotRel_keepsLevel_refl c
    | some and1 =>
      rw [hrec] at h
      simp only [pure, Except.pure, Except.ok.injEq] at h
      subst h
      exact slotRel_keepsLevel_trans
        (slotRel_keepsLevel_trans
          (slotRel_keepsLevel_trans (push_child_keepsLevel c i _) (push_child_keepsLevel _ i _))
          (push_parent_of_lit_keepsLevel _ _ n))
        (push_parent_of_lit_keepsLevel _ _ n)

theorem set_parents_output_step_keepsLevel (c c2 : Circuit) (i : Nat)
    (h : set_parents_output_step c i = .ok c2) :
    SlotRel (fun _ g g2 => KeepsLevel g g2) c c2 := by
  unfold set_parents_output_step at h
  cases hn : c.gates[i + c.M - 1]? with
  | none => rw [hn] at h; cases h
  | some n =>
    rw [hn] at h
    simp only [derefGate, bind, Except.bind] at h
    by_cases hlit : c.slit i < 2
    · rw [if_pos hlit] at h
      cases h
      exact slotRel_keepsLevel_refl c
    · rw [if_neg hlit] at h
      cases hd : gate (push_child c (i + c.M - 1) (gate c (c.slit i))) (c.slit i) with
      | none => rw [hd] at h; cases h
      | some d =>
        rw [hd] at h
        simp only at h
        cases hidx : gate_idx c.M (c.slit i) with
        | none =>
          rw [hidx] at h
          cases h
          exact push_child_keepsLevel c _ _
        | some k =>
          rw [hidx] at h
          simp only [pure, Except.pure, Except.ok.injEq] at h
          subst h
          exact slotRel_keepsLevel_trans (push_child_keepsLevel c _ _)
            (push_parent_keepsLevel _ k n)

theorem set_parents_and_children_keepsLevel (c c2 : Circuit)
    (h : set_parents_and_children c = .ok c2) :
    SlotRel (fun _ g g2 => KeepsLevel g g2) c c2 := by
  unfold set_parents_and_children at h
  by_cases h0 : c.NN = 0
  · simp [h0] at h
  · simp only [h0, if_false] at h
    cases h1 : (List.range' c.NN (c.M - c.NN)).reverse.foldlM set_parents_step c with
    | error e => rw [h1] at h; cases h
    | ok c1 =>
      rw [h1] at h
      simp only [bind, Except.bind] at h
      exact slotRel_keepsLevel_trans
        (foldlM_invariant set_parents_step (fun a b => SlotRel (fun _ g g2 => KeepsLevel g g2) a b)
          slotRel_keepsLevel_refl (fun _ _ _ => slotRel_keepsLevel_trans)
          (fun a x b hh => set_parents_step_keepsLevel a b x hh) _ c c1 h1)
        (foldlM_invariant set_parents_output_step
          (fun a b => SlotRel (fun _ g g2 => KeepsLevel g g2) a b)
          slotRel_keepsLevel_refl (fun _ _ _ => slotRel_keepsLevel_trans)
          (fun a x b hh => set_parents_output_step_keepsLevel a b x hh) _ c1 c2 h)

theorem set_xor_gate_of_lit_keepsLevel (c c2 : Circuit) (lit val : Int)
    (h : set_xor_gate_of_lit c lit val = .ok c2) :
    SlotRel (fun _ g g2 => KeepsLevel g g2) c c2 := by
  unfold set_xor_gate_of_lit at h
  cases hg : gate c lit with
  | none => rw [hg] at h; cases h
  | some d =>
    rw [hg] at h
    simp only [derefGate, bind, Except.bind] at h
    cases hidx : gate_idx c.M lit with
    | none =>
      rw [hidx] at h
      cases h
      exact slotRel_keepsLevel_refl c
    | some k =>
      rw [hidx] at h
      simp only [pure, Except.pure, Except.ok.injEq] at h
      subst h
      exact modify_gate_keepsLevel c k _ (fun _ => ⟨rfl, rfl, rfl⟩)

theorem set_xor_step_keepsLevel (c c2 : Circuit) (i : Nat) (h : set_xor_step c i = .ok c2) :
    SlotRel (fun _ g g2 => KeepsLevel g g2) c c2 := by
  have hid := slotRel_keepsLevel_refl c
  unfold set_xor_step at h
  cases hn : c.gates[i]? with
  | none => rw [hn] at h; cases h
  | some n =>
    rw [hn] at h
    simp only [derefGate, bind, Except.bind] at h
    split_ifs at h with hin hx
    · cases h; exact hid
    · cases h; exact hid
    · cases hrec : c.is_model_and n.num with
      | none => rw [hrec] at h; cases h; exact hid
      | some and1 =>
        rw [hrec] at h
        simp only at h
        split_ifs at h with hs0 hs1 heq
        · cases h; exact hid
        · cases h; exact hid
        · cases h; exact hid
        · cases hl : c.is_model_and (aiger_strip and1.rhs0) with
          | none => rw [hl] at h; cases h; exact hid
          | some land =>
            rw [hl] at h
            simp only at h
            cases hr : c.is_model_and (aiger_strip and1.rhs1) with
            | none => rw [hr] at h; cases h; exact hid
            | some rand =>
              rw [hr] at h
              simp only at h
              split_ifs at h with hp
              · cases h1 : set_xor_gate_of_lit c (aiger_strip and1.rhs0) 2 with
                | error e => rw [h1] at h; cases h
                | ok c1 =>
                  rw [h1] at h
                  simp only at h
                  cases h2 : set_xor_gate_of_lit c1 (aiger_strip and1.rhs1) 2 with
                  | error e => rw [h2] at h; cases h
                  | ok c3 =>
                    rw [h2] at h
                    simp only [pure, Except.pure, Except.ok.injEq] at h
                    subst h
                    exact slotRel_keepsLevel_trans
                      (slotRel_keepsLevel_trans (set_xor_gate_of_lit_keepsLevel c c1 _ _ h1)
                        (set_xor_gate_of_lit_keepsLevel c1 c3 _ _ h2))
                      (modify_gate_keepsLevel c3 i _ (fun _ => ⟨rfl, rfl, rfl⟩))
              · cases h; exact hid

theorem mark_xor_and_step_keepsLevel (c c2 : Circuit) (i : Nat)
    (h : mark_xor_and_step c i = .ok c2) :
    SlotRel (fun _ g g2 => KeepsLevel g g2) c c2 := by
  have hid := slotRel_keepsLevel_refl c
  unfold mark_xor_and_step at h
  cases hn : c.gates[i]? with
  | none => rw [hn] at h; cases h
  | some n =>
    rw [hn] at h
    simp only [derefGate, bind, Except.bind] at h
    split_ifs at h with hx hc
    · cases h; exact hid
    · cases h; exact hid
    · cases h1 : children_front c n with
      | error e => rw [h1] at h; cases h
      | ok front =>
        rw [h1] at h
        simp only at h
        cases h2 : children_front c front with
        | error e => rw [h2] at h; cases h
        | ok llg =>
          rw [h2] at h
          simp only at h
          cases h3 : children_back c front with
          | error e => rw [h3] at h; cases h
          | ok lrg =>
            rw [h3] at h
            simp only at h
            split at h
            · split at h
              · simp only [pure, Except.pure, Except.ok.injEq] at h
                subst h
                refine slotRel_keepsLevel_trans (modify_gate_keepsLevel c _ _ ?_)
                  (modify_gate_keepsLevel _ i _ ?_) <;> intro _ <;> exact ⟨rfl, rfl, rfl⟩
              · cases h; exact hid
            · cases h; exact hid

theorem getElem?_lt_length {α : Type} (l : List α) (j : Nat) (g : α) (h : l[j]? = some g) :
    j < l.length := by
  by_contra hge
  rw [List.getElem?_eq_none (by omega)] at h
  cases h

/-- The fan-in slots of an ordered record lie below the slot of its gate. -/
theorem aigOrdered_slot (c : Circuit) (htopo : AigOrdered c) (j : Nat) (and1 : aiger_and)
    (h : c.is_model_and (2 * ((j : Int) + 1)) = some and1) :
    and1.rhs0 / 2 - 1 < j + (if 2 ≤ and1.rhs0 then 0 else 1) ∧
    and1.rhs1 / 2 - 1 < j + (if 2 ≤ and1.rhs1 then 0 else 1) := by
  obtain ⟨h0, h1⟩ := htopo _ and1 h
  constructor
  · split_ifs <;> omega
  · split_ifs <;> omega

/-- One round of the distance loop of `allocate_gates` keeps the invariant. -/
theorem allocate_dist_step_inv (c : Circuit) (T0 : List Gate)
    (hnum : ∀ (j : Nat) (g0 : Gate), T0[j]? = some g0 → g0.num = 2 * ((j : Int) + 1))
    (htopo : AigOrdered c) (k : Nat) (st st2 : List Gate × Int)
    (hinv : DistInv c T0 k st) (h : allocate_dist_step c st k = .ok st2) :
    DistInv c T0 (k + 1) st2 := by
  obtain ⟨i0, i1, i2, i3⟩ := hinv
  have hnumst : ∀ (j : Nat) (g : Gate), st.1[j]? = some g → g.num = 2 * ((j : Int) + 1) := by
    intro j g hg
    have hlt : j < T0.length := by rw [← i1]; exact getElem?_lt_length _ _ _ hg
    have := (i2 j _ g (List.getElem?_eq_getElem hlt) hg).1
    rw [this]
    exact hnum j (T0[j]) (List.getElem?_eq_getElem hlt)
  unfold allocate_dist_step at h
  cases hn : st.1[k]? with
  | none => rw [hn] at h; cases h
  | some n =>
    rw [hn] at h
    simp only [derefGate, bind, Except.bind] at h
    have hklt : k < st.1.length := getElem?_lt_length _ _ _ hn
    -- a round that sets the distance of slot `k` to `d`
    have hset : ∀ (d m2 : Int) (and1 : aiger_and), c.is_model_and n.num = some and1 →
        1 ≤ d → d ≤ m2 + 1 → st.2 ≤ m2 →
        (2 ≤ and1.rhs0 → 2 ≤ and1.rhs1 → ∀ (a : Nat) (ga : Gate),
          (a = and1.rhs0 / 2 - 1 ∨ a = and1.rhs1 / 2 - 1) → st.1[a]? = some ga →
          ga.distance < d) →
        DistInv c T0 (k + 1) (st.1.set k { n with distance := d }, m2) := by
      intro d m2 and1 hrec hd1 hd2 hm hch
      refine ⟨le_trans i0 hm, by simp [i1], ?_, ?_⟩
      · intro j g0 g hg0 hg
        by_cases hj : k = j
        · subst hj
          rw [List.getElem?_set_self hklt] at hg
          cases hg
          have := (i2 k g0 n hg0 hn).1
          refine ⟨?_, by simp; omega, hd2⟩
          rw [this]
        · rw [List.getElem?_set_ne hj] at hg
          have := i2 j g0 g hg0 hg
          exact ⟨this.1, this.2.1, le_trans this.2.2 (by omega)⟩
      · intro j g and2 hjn hjk hg hrec2
        by_cases hj : k = j
        · subst hj
          rw [List.getElem?_set_self hklt] at hg
          cases hg
          have e : and2 = and1 := by
            have : c.is_model_and n.num = some and2 := hrec2
            rw [hrec] at this
            exact (Option.some.inj this).symm
          subst e
          refine ⟨hd1, ?_⟩
          intro h0 h1 a ga ha hga
          have hak : a < k := by
            have hs := aigOrdered_slot c htopo k and2 (by rw [← hnumst k n hn]; exact hrec)
            rw [if_pos h0, if_pos h1] at hs
            rcases ha with e | e <;> rw [e] <;> omega
          rw [List.getElem?_set_ne (by omega)] at hga
          exact hch h0 h1 a ga ha hga
        · rw [List.getElem?_set_ne hj] at hg
          have hjk2 : j < k := by omega
          obtain ⟨a1, a2⟩ := i3 j g and2 hjn hjk2 hg hrec2
          refine ⟨a1, ?_⟩
          intro h0 h1 a ga ha hga
          have haj : a < j := by
            have hs := aigOrdered_slot c htopo j and2 (by rw [← hnumst j g hg]; exact hrec2)
            rw [if_pos h0, if_pos h1] at hs
            rcases ha with e | e <;> rw [e] <;> omega
          rw [List.getElem?_set_ne (by omega)] at hga
          exact a2 h0 h1 a ga ha hga
    cases hrec : c.is_model_and n.num with
    | none =>
      rw [hrec] at h
      cases h
      refine ⟨i0, i1, i2, ?_⟩
      intro j g and2 hjn hjk hg hrec2
      by_cases hj : j = k
      · subst hj
        rw [hn] at hg
        cases hg
        rw [hrec] at hrec2
        cases hrec2
      · exact i3 j g and2 hjn (by omega) hg hrec2
    | some and1 =>
      rw [hrec] at h
      simp only at h
      split_ifs at h with hconst
      · cases h
        exact hset 1 st.2 and1 hrec le_rfl (by omega) le_rfl
          (fun h0 h1 => absurd hconst (by omega))
      · cases hl : st.1[and1.rhs0 / 2 - 1]? with
        | none => rw [hl] at h; cases h
        | some lg =>
          rw [hl] at h
          simp only at h
          cases hr : st.1[and1.rhs1 / 2 - 1]? with
          | none => rw [hr] at h; cases h
          | some rg =>
            rw [hr] at h
            cases h
            have bl := i2 _ _ lg (List.getElem?_eq_getElem
              (by rw [← i1]; exact getElem?_lt_length _ _ _ hl)) hl
            have br := i2 _ _ rg (List.getElem?_eq_getElem
              (by rw [← i1]; exact getElem?_lt_length _ _ _ hr)) hr
            refine hset _ _ and1 hrec (by split_ifs <;> omega) (by split_ifs <;> omega)
              (by split_ifs <;> omega) ?_
            intro _ _ a ga ha hga
            rcases ha with e | e
            · rw [e, hl] at hga
              cases hga
              split_ifs <;> omega
            · rw [e, hr] at hga
              cases hga
              split_ifs <;> omega

/-- The distance loop of `allocate_gates` over the slots `a, a + 1, ..`. -/
theorem allocate_dist_loop_inv (c : Circuit) (T0 : List Gate)
    (hnum : ∀ (j : Nat) (g0 : Gate), T0[j]? = some g0 → g0.num = 2 * ((j : Int) + 1))
    (htopo : AigOrdered c) (len : Nat) :
    ∀ (a : Nat) (st st2 : List Gate × Int), DistInv c T0 a st →
      (List.range' a len).foldlM (allocate_dist_step c) st = .ok st2 →
      DistInv c T0 (a + len) st2 := by
  induction len with
  | zero =>
    intro a st st2 hinv h
    simp only [List.range'_zero, List.foldlM_nil, pure, Except.pure, Except.ok.injEq] at h
    subst h
    exact hinv
  | succ len ih =>
    intro a st st2 hinv h
    rw [List.range'_succ, List.foldlM_cons] at h
    cases h1 : allocate_dist_step c st a with
    | error e => rw [h1] at h; cases h
    | ok s1 =>
      rw [h1, ok_bind] at h
      have := ih (a + 1) s1 st2 (allocate_dist_step_inv c T0 hnum htopo a st s1 hinv h1) h
      rw [show a + (len + 1) = a + 1 + len by omega]
      exact this

/-- One round of the inner re-levelling loop keeps the invariant, keeps the
levels that are set, and sets the level of its slot if the gate there has the
distance of the round. -/
theorem relevel_step_inv (NN : Nat) (L0 : Int) (T1 : List Gate) (h0 : 0 ≤ L0) (d : Int)
    (st st2 : List Gate × Int) (i : Nat) (hi : NN ≤ i) (hinv : RelevelInv NN L0 T1 st)
    (h : relevel_step d st i = .ok st2) :
    RelevelInv NN L0 T1 st2 ∧ LevelsStay st.1 st2.1 ∧
    ∀ (g1 g2 : Gate), T1[i]? = some g1 → g1.distance = d → st2.1[i]? = some g2 →
      g2.level ≠ 0 := by
  obtain ⟨i0, i1, i2, i3⟩ := hinv
  unfold relevel_step at h
  cases hn : st.1[i]? with
  | none => rw [hn] at h; cases h
  | some n =>
    rw [hn] at h
    simp only [derefGate, bind, Except.bind] at h
    have hilt : i < st.1.length := getElem?_lt_length _ _ _ hn
    have hbound : ∀ (j : Nat) (g : Gate), NN ≤ j → st.1[j]? = some g → g.level ≤ st.2 := by
      intro j g hj hg
      have hlt : j < T1.length := by rw [← i1]; exact getElem?_lt_length _ _ _ hg
      rcases (i2 j _ g (List.getElem?_eq_getElem hlt) hg).2.2 hj with e | e
      · rw [e]; omega
      · exact e.2
    split_ifs at h with hd
    · cases h
      refine ⟨⟨by simp only; omega, by simp [i1], ?_, ?_⟩, ?_, ?_⟩
      · intro j g1 g hg1 hg
        by_cases hj : i = j
        · subst hj
          rw [List.getElem?_set_self hilt] at hg
          cases hg
          have := (i2 i g1 n hg1 hn).1
          refine ⟨?_, fun hlt => absurd hlt (by omega), fun _ => Or.inr ?_⟩
          · rw [this]
            rfl
          · simp only [Gate.set_var_level]
            omega
        · rw [List.getElem?_set_ne hj] at hg
          have := i2 j g1 g hg1 hg
          refine ⟨this.1, this.2.1, fun hjn => ?_⟩
          rcases this.2.2 hjn with e | e
          · exact Or.inl e
          · exact Or.inr ⟨e.1, by simp only; omega⟩
      · intro a b ga gb ha hb hga hgb hlev hne
        by_cases hja : i = a
        · by_cases hjb : i = b
          · omega
          · subst hja
            rw [List.getElem?_set_self hilt] at hga
            cases hga
            rw [List.getElem?_set_ne hjb] at hgb
            have := hbound b gb hb hgb
            simp only [Gate.set_var_level] at hlev
            omega
        · rw [List.getElem?_set_ne hja] at hga
          by_cases hjb : i = b
          · subst hjb
            rw [List.getElem?_set_self hilt] at hgb
            cases hgb
            have := hbound a ga ha hga
            simp only [Gate.set_var_level] at hlev
            omega
          · rw [List.getElem?_set_ne hjb] at hgb
            exact i3 a b ga gb ha hb hga hgb hlev hne
      · intro j g g2 hg hg2 hne
        by_cases hj : i = j
        · subst hj
          rw [List.getElem?_set_self hilt] at hg2
          cases hg2
          simp only [Gate.set_var_level]
          omega
        · rw [List.getElem?_set_ne hj] at hg2
          rw [hg] at hg2
          cases hg2
          exact hne
      · intro g1 g2 _ _ hg2
        rw [List.getElem?_set_self hilt] at hg2
        cases hg2
        simp only [Gate.set_var_level]
        omega
    · cases h
      refine ⟨⟨i0, i1, i2, i3⟩, ?_, ?_⟩
      · intro j g g2 hg hg2 hne
        rw [hg] at hg2
        cases hg2
        exact hne
      · intro g1 g2 hg1 hdist hg2
        rw [hn] at hg2
        cases hg2
        have := (i2 i g1 n hg1 hn).1
        exact absurd (by rw [this]; exact hdist) hd

theorem levelsStay_trans (NN : Nat) (L0 : Int) (T1 : List Gate) (a b c : List Gate × Int)
    (hb : RelevelInv NN L0 T1 b) (ha : RelevelInv NN L0 T1 a)
    (h1 : LevelsStay a.1 b.1) (h2 : LevelsStay b.1 c.1) : LevelsStay a.1 c.1 := by
  intro j g g3 hg hg3 hne
  have hlt : j < b.1.length := by
    rw [hb.2.1, ← ha.2.1]
    exact getElem?_lt_length _ _ _ hg
  exact h2 j _ g3 (List.getElem?_eq_getElem hlt) hg3
    (h1 j g _ hg (List.getElem?_eq_getElem hlt) hne)

/-- The inner re-levelling loop for the distance `d` over slots from `NN` on. -/
theorem relevel_inner_inv (NN : Nat) (L0 : Int) (T1 : List Gate) (h0 : 0 ≤ L0) (d : Int)
    (l : List Nat) :
    ∀ (st st2 : List Gate × Int), (∀ i ∈ l, NN ≤ i) → RelevelInv NN L0 T1 st →
      l.foldlM (relevel_step d) st = .ok st2 →
      RelevelInv NN L0 T1 st2 ∧ LevelsStay st.1 st2.1 ∧
      ∀ i ∈ l, ∀ (g1 g2 : Gate), T1[i]? = some g1 → g1.distance = d →
        st2.1[i]? = some g2 → g2.level ≠ 0 := by
  induction l with
  | nil =>
    intro st st2 _ hinv h
    simp only [List.foldlM_nil, pure, Except.pure, Except.ok.injEq] at h
    subst h
    exact ⟨hinv, fun j g g2 hg hg2 hne => by rw [hg] at hg2; cases hg2; exact hne,
      fun i hi => absurd hi (List.not_mem_nil _)⟩
  | cons x l ih =>
    intro st st2 hl hinv h
    rw [List.foldlM_cons] at h
    cases h1 : relevel_step d st x with
    | error e => rw [h1] at h; cases h
    | ok s1 =>
      rw [h1, ok_bind] at h
      obtain ⟨a1, a2, a3⟩ := relevel_step_inv NN L0 T1 h0 d st s1 x
        (hl x (List.mem_cons_self _ _)) hinv h1
      obtain ⟨b1, b2, b3⟩ := ih s1 st2 (fun i hi => hl i (List.mem_cons_of_mem _ hi)) a1 h
      refine ⟨b1, levelsStay_trans NN L0 T1 st s1 st2 a1 hinv a2 b2, ?_⟩
      intro i hi g1 g2 hg1 hd hg2
      rcases List.mem_cons.1 hi with e | e
      · subst e
        have hlt : i < s1.1.length := by
          rw [a1.2.1]
          exact getElem?_lt_length _ _ _ hg1
        exact b2 i _ g2 (List.getElem?_eq_getElem hlt) hg2
          (a3 g1 _ hg1 hd (List.getElem?_eq_getElem hlt))
      · exact b3 i e g1 g2 hg1 hd hg2

/-- The re-levelling of `allocate_gates` for the distances of the list `ds`. -/
theorem relevel_outer_inv (NN : Nat) (L0 : Int) (T1 : List Gate) (h0 : 0 ≤ L0)
    (slots : List Nat) (hs : ∀ i ∈ slots, NN ≤ i) (ds : List Nat) :
    ∀ (st st2 : List Gate × Int), RelevelInv NN L0 T1 st →
      ds.foldlM (fun st (dist_it : Nat) => slots.foldlM (relevel_step dist_it) st) st = .ok st2 →
      RelevelInv NN L0 T1 st2 ∧ LevelsStay st.1 st2.1 ∧
      ∀ d ∈ ds, ∀ i ∈ slots, ∀ (g1 g2 : Gate), T1[i]? = some g1 → g1.distance = (d : Int) →
        st2.1[i]? = some g2 → g2.level ≠ 0 := by
  induction ds with
  | nil =>
    intro st st2 hinv h
    simp only [List.foldlM_nil, pure, Except.pure, Except.ok.injEq] at h
    subst h
    exact ⟨hinv, fun j g g2 hg hg2 hne => by rw [hg] at hg2; cases hg2; exact hne,
      fun d hd => absurd hd (List.not_mem_nil _)⟩
  | cons x ds ih =>
    intro st st2 hinv h
    rw [List.foldlM_cons] at h
    cases h1 : slots.foldlM (relevel_step x) st with
    | error e => rw [h1] at h; cases h
    | ok s1 =>
      rw [h1, ok_bind] at h
      obtain ⟨a1, a2, a3⟩ := relevel_inner_inv NN L0 T1 h0 x slots st s1 hs hinv h1
      obtain ⟨b1, b2, b3⟩ := ih s1 st2 a1 h
      refine ⟨b1, levelsStay_trans NN L0 T1 st s1 st2 a1 hinv a2 b2, ?_⟩
      intro d hd i hi g1 g2 hg1 hdist hg2
      rcases List.mem_cons.1 hd with e | e
      · subst e
        have hlt : i < s1.1.length := by
          rw [a1.2.1]
          exact getElem?_lt_length _ _ _ hg1
        exact b2 i _ g2 (List.getElem?_eq_getElem hlt) hg2
          (a3 i hi g1 _ hg1 hdist (List.getElem?_eq_getElem hlt))
      · exact b3 d e i hi g1 g2 hg1 hdist hg2

theorem indexOf_nat_lt (l : List Nat) (i : Nat) (h : i ∈ l) : l.indexOf i < l.length := by
  unfold List.indexOf
  apply List.findIdx_lt_length_of_exists
  exact ⟨i, h, by simp⟩

theorem indexOf_nat_inj (l : List Nat) (i j : Nat) (hi : i ∈ l) (hj : j ∈ l)
    (e : l.indexOf i = l.indexOf j) : i = j := by
  have h1 := indexOf_nat_lt l i hi
  have h2 := indexOf_nat_lt l j hj
  have a := @List.findIdx_getElem _ (fun x => x == i) l h1
  have b := @List.findIdx_getElem _ (fun x => x == j) l h2
  unfold List.indexOf at e
  simp only [beq_iff_eq] at a b
  rw [← a, ← b]
  congr 1

/-- The levels that `allocate_gates` assigns, for an ordered AIG, `max_dist`
not negative at entry and every input slot visited: among the inputs and AND
gates, two gates with the same level that is not 0 are in the same slot; and
the gate of a fan-in of an AND gate without constant fan-in has a level that is
not 0, if it is an input or has itself an AND record. -/
theorem allocate_gates_levels (c : Circuit) (mult_spec : Bool) (a_idx b_idx : List Nat)
    (max_dist : Int) (r : List Gate × Int) (hM : c.NN < c.M) (hmax : 0 ≤ max_dist)
    (htopo : AigOrdered c)
    (hord : ∀ i, i < c.NN → i ∈ (if mult_spec then a_idx ++ b_idx else List.range c.NN))
    (h : allocate_gates c mult_spec a_idx b_idx max_dist = .ok r) :
    (∀ (i j : Nat) (gi gj : Gate), i + 1 < c.M → j + 1 < c.M → r.1[i]? = some gi →
      r.1[j]? = some gj → gi.level = gj.level → gi.level ≠ 0 → i = j) ∧
    (∀ (j : Nat) (g : Gate) (and1 : aiger_and), c.NN ≤ j → j + 1 < c.M → r.1[j]? = some g →
      c.is_model_and g.num = some and1 → 2 ≤ and1.rhs0 → 2 ≤ and1.rhs1 →
      ∀ (a : Nat) (ga : Gate), (a = and1.rhs0 / 2 - 1 ∨ a = and1.rhs1 / 2 - 1) →
        r.1[a]? = some ga → (c.NN ≤ a → (c.is_model_and ga.num).isSome) → ga.level ≠ 0) := by
  unfold allocate_gates at h
  simp only [bind, Except.bind] at h
  split at h
  · cases h
  · rename_i st1 h1
    split at h
    · cases h
    · rename_i u hu
      split at h
      · cases h
      · rename_i st2 h2
        simp only [pure, Except.pure, Except.ok.injEq] at h
        subst h
        generalize hT0 : ((List.range c.NN).map (fun (i : Nat) =>
              Gate.create (2 * ((i : Int) + 1))
                (2 * (((if mult_spec = true then a_idx ++ b_idx
                  else List.range c.NN).indexOf i : Int) + 1)) true false) ++
              (List.range' c.NN (c.M - 1 - c.NN)).map (fun (i : Nat) =>
                Gate.create (2 * ((i : Int) + 1)) 0 false false)) = T0 at h1
        generalize hO : (if mult_spec = true then a_idx ++ b_idx else List.range c.NN) = order
          at hT0 h2 hord
        have hlen0 : T0.length = c.M - 1 := by
          rw [← hT0]
          simp
          omega
        have hin0 : ∀ (j : Nat) (g0 : Gate), j < c.NN → T0[j]? = some g0 →
            g0 = Gate.create (2 * ((j : Int) + 1)) (2 * ((order.indexOf j : Int) + 1))
              true false := by
          intro j g0 hj hg0
          rw [← hT0, List.getElem?_append_left (by simpa using hj)] at hg0
          simp [hj] at hg0
          exact hg0.symm
        have hand0 : ∀ (j : Nat) (g0 : Gate), c.NN ≤ j → T0[j]? = some g0 →
            g0 = Gate.create (2 * ((j : Int) + 1)) 0 false false := by
          intro j g0 hj hg0
          have hjlt : j < c.M - 1 := by rw [← hlen0]; exact getElem?_lt_length _ _ _ hg0
          rw [← hT0, List.getElem?_append_right (by simp; omega)] at hg0
          have e : j - c.NN < c.M - 1 - c.NN := by omega
          simp [List.getElem?_range', e] at hg0
          rw [← hg0]
          congr 2
          omega
        have hnum0 : ∀ (j : Nat) (g0 : Gate), T0[j]? = some g0 →
            g0.num = 2 * ((j : Int) + 1) := by
          intro j g0 hg0
          by_cases hj : j < c.NN
          · rw [hin0 j g0 hj hg0]; rfl
          · rw [hand0 j g0 (by omega) hg0]; rfl
        have hdist0 : ∀ (j : Nat) (g0 : Gate), T0[j]? = some g0 → g0.distance = 0 := by
          intro j g0 hg0
          by_cases hj : j < c.NN
          · rw [hin0 j g0 hj hg0]; rfl
          · rw [hand0 j g0 (by omega) hg0]; rfl
        -- the distance loop
        have d0 : DistInv c T0 c.NN (T0, max_dist) := by
          refine ⟨hmax, rfl, ?_, ?_⟩
          · intro j g0 g hg0 hg
            rw [hg0] at hg
            cases hg
            refine ⟨rfl, ?_, ?_⟩
            · rw [hdist0 j g0 hg0]
            · rw [hdist0 j g0 hg0]; omega
          · intro j g and1 hj1 hj2
            omega
        have d1 := allocate_dist_loop_inv c T0 hnum0 htopo (c.M - 1 - c.NN) c.NN _ st1 d0 h1
        rw [show c.NN + (c.M - 1 - c.NN) = c.M - 1 by omega] at d1
        obtain ⟨e0, e1, e2, e3⟩ := d1
        -- the re-levelling
        have hL0 : (0 : Int) ≤ 2 * (order.length : Int) := by omega
        have r0 : RelevelInv c.NN (2 * (order.length : Int)) st1.1
            (st1.1, 2 * (order.length : Int)) := by
          refine ⟨le_rfl, rfl, ?_, ?_⟩
          · intro j g1 g hg1 hg
            rw [hg1] at hg
            cases hg
            refine ⟨rfl, fun _ => rfl, fun hj => Or.inl ?_⟩
            have hlt : j < T0.length := by rw [← e1]; exact getElem?_lt_length _ _ _ hg1
            have := (e2 j _ g1 (List.getElem?_eq_getElem hlt) hg1).1
            rw [this, hand0 j (T0[j]) hj (List.getElem?_eq_getElem hlt)]
            rfl
          · intro i j gi gj hi hj hgi hgj hlev hne
            have hlt : i < T0.length := by rw [← e1]; exact getElem?_lt_length _ _ _ hgi
            have := (e2 i _ gi (List.getElem?_eq_getElem hlt) hgi).1
            exact absurd (by
              rw [this, hand0 i (T0[i]) hi (List.getElem?_eq_getElem hlt)]
              rfl) hne
        obtain ⟨f1, _, f3⟩ := relevel_outer_inv c.NN (2 * (order.length : Int)) st1.1 hL0
          (List.range' c.NN (c.M - 1 - c.NN))
          (fun i hi => (List.mem_range'_1.1 hi).1) (List.range' 1 st1.2.toNat) _ st2 r0 h2
        obtain ⟨g0', g1', g2', g3'⟩ := f1
        have hlen2 : st2.1.length = c.M - 1 := by rw [g1', e1, hlen0]
        -- a gate of the final table, the gate of its slot after the distance loop,
        -- and the gate of its slot at the start
        have hslot : ∀ (j : Nat) (g : Gate), j + 1 < c.M →
            (st2.1 ++ (List.range' (c.M - 1) c.MM).map (fun (i : Nat) =>
              Gate.create ((c.M : Int) - i - 1) (2 * ((i : Int) + 1)) false true))[j]? = some g →
            ∃ g1 g0 : Gate, st2.1[j]? = some g ∧ st1.1[j]? = some g1 ∧ T0[j]? = some g0 ∧
              g = { g1 with level := g.level } ∧ g1 = { g0 with distance := g1.distance } := by
          intro j g hj hg
          rw [List.getElem?_append_left (by rw [hlen2]; omega)] at hg
          have hl1 : j < st1.1.length := by rw [e1, hlen0]; omega
          have hl0 : j < T0.length := by rw [hlen0]; omega
          exact ⟨_, _, hg, List.getElem?_eq_getElem hl1, List.getElem?_eq_getElem hl0,
            (g2' j _ g (List.getElem?_eq_getElem hl1) hg).1,
            (e2 j _ _ (List.getElem?_eq_getElem hl0) (List.getElem?_eq_getElem hl1)).1⟩
        have hinlev : ∀ (j : Nat) (g : Gate), j < c.NN → st2.1[j]? = some g →
            g.level = 2 * ((order.indexOf j : Int) + 1) := by
          intro j g hj hg
          have hl1 : j < st1.1.length := by rw [e1, hlen0]; omega
          have hl0 : j < T0.length := by rw [hlen0]; omega
          have a := (g2' j _ g (List.getElem?_eq_getElem hl1) hg).2.1 hj
          have b := (e2 j _ _ (List.getElem?_eq_getElem hl0) (List.getElem?_eq_getElem hl1)).1
          rw [a, b, hin0 j (T0[j]) hj (List.getElem?_eq_getElem hl0)]
          rfl
        have handlev : ∀ (j : Nat) (g : Gate), c.NN ≤ j → st2.1[j]? = some g →
            g.level = 0 ∨ 2 * (order.length : Int) < g.level := by
          intro j g hj hg
          have hl1 : j < st1.1.length := by
            rw [← g1']; exact getElem?_lt_length _ _ _ hg
          rcases (g2' j _ g (List.getElem?_eq_getElem hl1) hg).2.2 hj with e | e
          · exact Or.inl e
          · exact Or.inr e.1
        refine ⟨?_, ?_⟩
        · intro i j gi gj hi hj hgi hgj hlev hne
          obtain ⟨_, _, hi2, _⟩ := hslot i gi hi hgi
          obtain ⟨_, _, hj2, _⟩ := hslot j gj hj hgj
          by_cases hin : i < c.NN
          · have li := hinlev i gi hin hi2
            have hio := indexOf_nat_lt order i (hord i hin)
            by_cases hjn : j < c.NN
            · have lj := hinlev j gj hjn hj2
              have hjo := indexOf_nat_lt order j (hord j hjn)
              exact indexOf_nat_inj order i j (hord i hin) (hord j hjn) (by omega)
            · rcases handlev j gj (by omega) hj2 with e | e <;> omega
          · by_cases hjn : j < c.NN
            · have lj := hinlev j gj hjn hj2
              have hjo := indexOf_nat_lt order j (hord j hjn)
              rcases handlev i gi (by omega) hi2 with e | e <;> omega
            · exact g3' i j gi gj (by omega) (by omega) hi2 hj2 hlev hne
        · intro j g and1 hjn hjM hg hrec h0 h1' a ga ha hga hreca
          obtain ⟨g1, g0, hj2, hj1, hj0, eg, eg1⟩ := hslot j g hjM hg
          have hnumj : g1.num = 2 * ((j : Int) + 1) := by rw [eg1]; exact hnum0 j g0 hj0
          have hgnum : g.num = g1.num := by rw [eg]
          have haj : a < j := by
            have hs := aigOrdered_slot c htopo j and1 (by rw [← hnumj, ← hgnum]; exact hrec)
            rw [if_pos h0, if_pos h1'] at hs
            rcases ha with e | e <;> rw [e] <;> omega
          obtain ⟨ga1, ga0, ha2, ha1, ha0, ega, ega1⟩ := hslot a ga (by omega) hga
          by_cases han : a < c.NN
          · rw [hinlev a ga han ha2]
            omega
          · have hanum : ga.num = ga1.num := by rw [ega]
            obtain ⟨reca, hreca2⟩ := Option.isSome_iff_exists.1 (hreca (by omega))
            have da := (e3 a ga1 reca (by omega) (by omega) ha1 (by rw [← hanum]; exact hreca2)).1
            have dj := (e3 j g1 and1 hjn (by omega) hj1 (by rw [← hgnum]; exact hrec)).2 h0 h1'
              a ga1 ha ha1
            have bj := (e2 j g0 g1 hj0 hj1).2.2
            refine f3 ga1.distance.toNat ?_ a ?_ ga1 ga ha1 ?_ ha2
            · rw [List.mem_range'_1]
              omega
            · rw [List.mem_range'_1]
              omega
            · omega

/-! ### What a completed `init_gates` tells about the fan-ins -/

theorem foldlM_unit_ok {α : Type} (f : Unit → α → Except Fault Unit) (l : List α)
    (h : l.foldlM f () = .ok ()) : ∀ x ∈ l, f () x = .ok () := by
  induction l with
  | nil => intro x hx; exact absurd hx (List.not_mem_nil _)
  | cons a l ih =>
    rw [List.foldlM_cons] at h
    cases h1 : f () a with
    | error e => rw [h1] at h; cases h
    | ok u =>
      rw [h1, ok_bind] at h
      intro x hx
      rcases List.mem_cons.1 hx with e | e
      · rw [e]; exact h1
      · exact ih h x e

/-- A call of `gen_gate_constraint` that returns for an AND gate without XOR
mark has found the AND record of the gate and the gates of its two fan-ins. -/
theorem gen_gate_constraint_fanins (c : Circuit) (i : Nat) (n : Gate) (p : Option Polynomial)
    (h : gen_gate_constraint c i = .ok p) (hn : c.gates[i]? = some n) (hi : i + 1 < c.M)
    (hx : n.xor_gate ≠ 1) :
    ∃ and1 lg rg, c.is_model_and n.num = some and1 ∧ gate c and1.rhs0 = some lg ∧
      gate c and1.rhs1 = some rg := by
  unfold gen_gate_constraint at h
  rw [hn] at h
  simp only [derefGate, ok_bind] at h
  rw [if_pos ⟨hi, Or.inl hx⟩] at h
  cases hrec : c.is_model_and n.num with
  | none =>
    rw [hrec] at h
    cases h
  | some and1 =>
    rw [hrec] at h
    simp only [derefAnd, ok_bind] at h
    cases hl : gate c and1.rhs0 with
    | none => rw [hl] at h; cases h
    | some lg =>
      rw [hl] at h
      simp only [ok_bind] at h
      cases hr : gate c and1.rhs1 with
      | none => rw [hr] at h; cases h
      | some rg => exact ⟨and1, lg, rg, rfl, hl, hr⟩

/-- When `init_gate_constraints` returns, the AND record and the gates of the
two fan-ins of every AND gate without XOR mark have been found. -/
theorem init_gate_constraints_fanins (c : Circuit) (h : init_gate_constraints c = .ok ())
    (i : Nat) (n : Gate) (hi1 : c.NN ≤ i) (hi2 : i + 1 < c.M) (hn : c.gates[i]? = some n)
    (hx : n.xor_gate ≠ 1) :
    ∃ and1 lg rg, c.is_model_and n.num = some and1 ∧ gate c and1.rhs0 = some lg ∧
      gate c and1.rhs1 = some rg := by
  unfold init_gate_constraints at h
  have hstep := foldlM_unit_ok _ _ h i (by
    rw [List.mem_append]
    left
    rw [List.mem_range'_1]
    omega)
  cases hg : gen_gate_constraint c i with
  | error e =>
    rw [hg] at hstep
    cases hstep
  | ok p => exact gen_gate_constraint_fanins c i n p hg hn hi2 hx

/-- The gate table that `init_gates` returns, compared with the table of
`allocate_gates`: the gates keep their numbers and levels, a gate with the XOR
mark 1 has the shape of an XOR root, and every AND gate has its AND record and
the gates of its two fan-ins. -/
theorem init_gates_xor_facts (aig : Circuit) (mult_spec : Bool) (a_idx b_idx : List Nat)
    (max_dist : Int) (c : Circuit) (md : Int) (hM : aig.NN < aig.M)
    (h : init_gates aig mult_spec a_idx b_idx max_dist = .ok (c, md)) :
    ∃ r, allocate_gates aig mult_spec a_idx b_idx max_dist = .ok r ∧
      SameAig aig c ∧ c.gates.length = r.1.length ∧
      (∀ (j : Nat) (g0 g : Gate), r.1[j]? = some g0 → c.gates[j]? = some g →
        g.level = g0.level ∧ g.num = g0.num) ∧
      (∀ (j : Nat) (g : Gate), c.gates[j]? = some g → g.xor_gate = 1 → XorRoot c g.num) ∧
      (∀ (i : Nat) (n : Gate), aig.NN ≤ i → i + 1 < aig.M → c.gates[i]? = some n →
        ∃ and1 lg rg, c.is_model_and n.num = some and1 ∧ gate c and1.rhs0 = some lg ∧
          gate c and1.rhs1 = some rg) := by
  have hfull := h
  unfold init_gates at h
  cases ha : allocate_gates aig mult_spec a_idx b_idx max_dist with
  | error e => rw [ha] at h; cases h
  | ok r =>
    rw [ha, ok_bind] at h
    cases hp : set_parents_and_children { aig with gates := r.1 } with
    | error e => rw [hp] at h; cases h
    | ok c1 =>
      rw [hp, ok_bind] at h
      cases hi : init_gate_constraints c1 with
      | error e => rw [hi] at h; cases h
      | ok u =>
        rw [hi, ok_bind] at h
        cases hx : set_xor c1 with
        | error e => rw [hx] at h; cases h
        | ok c2 =>
          rw [hx, ok_bind] at h
          cases hm : mark_xor_and c2 with
          | error e => rw [hm] at h; cases h
          | ok c3 =>
            rw [hm, ok_bind] at h
            simp only [pure, Except.pure, Except.ok.injEq, Prod.mk.injEq] at h
            obtain ⟨h3, _⟩ := h
            subst h3
            have t0 := allocate_gates_table aig mult_spec a_idx b_idx max_dist r hM ha
            have rp := set_parents_and_children_slotRel _ c1 hp
            have rx := set_xor_loop_slotRel _ c1 c2 hx
            have rm := mark_xor_and_loop_slotRel _ c2 c3 hm
            have kp := set_parents_and_children_keepsLevel _ c1 hp
            have kx := foldlM_invariant set_xor_step
              (fun a b => SlotRel (fun _ g g2 => KeepsLevel g g2) a b)
              slotRel_keepsLevel_refl (fun _ _ _ => slotRel_keepsLevel_trans)
              (fun a x b hh => set_xor_step_keepsLevel a b x hh) _ c1 c2 hx
            have km := foldlM_invariant mark_xor_and_step
              (fun a b => SlotRel (fun _ g g2 => KeepsLevel g g2) a b)
              slotRel_keepsLevel_refl (fun _ _ _ => slotRel_keepsLevel_trans)
              (fun a x b hh => mark_xor_and_step_keepsLevel a b x hh) _ c2 c3 hm
            have kall := slotRel_keepsLevel_trans kp (slotRel_keepsLevel_trans kx km)
            have rxm := slotRel_trans rx rm (T := fun _ g g2 => g2.num = g.num)
              (fun _ _ _ _ a b => b.1.trans a.1)
            have rall := slotRel_trans rp rxm (T := fun _ g g2 => g2.num = g.num)
              (fun _ _ _ _ a b => b.trans a.1)
            obtain ⟨c0, hs0, t0', rel⟩ :=
              init_gates_slotRel aig mult_spec a_idx b_idx max_dist c3 md hM hfull
            have hu : u = () := rfl
            subst hu
            refine ⟨r, rfl, kall.1, kall.2.1, ?_, ?_, ?_⟩
            · intro j g0 g hg0 hg
              exact ⟨(kall.2.2 j g0 g hg0 hg).1, rall.2.2 j g0 g hg0 hg⟩
            · intro j g hg hxg
              have hjlt : j < c0.gates.length := by
                rw [← rel.2.1]; exact getElem?_lt_length _ _ _ hg
              have rr := rel.2.2 j _ g (List.getElem?_eq_getElem hjlt) hg
              have tt := t0' j _ (List.getElem?_eq_getElem hjlt)
              rcases rr.2.2 hxg with e | e
              · rw [tt.2.1] at e; cases e
              · rw [xorRoot_slotRel rel, rr.1]; exact e
            · intro i n hi1 hi2 hn
              have rcc := slotRel_trans rx rm (T := fun _ g g2 => g2.num = g.num)
                (fun _ _ _ _ a b => b.1.trans a.1)
              have hilt : i < c1.gates.length := by
                rw [← rcc.2.1]; exact getElem?_lt_length _ _ _ hn
              have hilt0 : i < r.1.length := by
                have := rp.2.1
                simp only at this
                rw [← this]; exact hilt
              have hn1 := rcc.2.2 i _ n (List.getElem?_eq_getElem hilt) hn
              have hx1 := (rp.2.2 i _ _ (List.getElem?_eq_getElem hilt0)
                (List.getElem?_eq_getElem hilt)).2.1
              have hx0 := (t0.2 i _ (List.getElem?_eq_getElem hilt0)).2.1
              obtain ⟨and1, lg, rg, a1, a2, a3⟩ := init_gate_constraints_fanins c1 hi i _
                (by rw [rp.1.1]; exact hi1) (by rw [rp.1.2.1]; exact hi2)
                (List.getElem?_eq_getElem hilt) (by rw [hx1, hx0]; decide)
              have s2 : (gate c3 and1.rhs0).isSome := by
                rw [slotRel_gate_isSome rcc, a2]; rfl
              have s3 : (gate c3 and1.rhs1).isSome := by
                rw [slotRel_gate_isSome rcc, a3]; rfl
              obtain ⟨lg3, hl3⟩ := Option.isSome_iff_exists.1 s2
              obtain ⟨rg3, hr3⟩ := Option.isSome_iff_exists.1 s3
              refine ⟨and1, lg3, rg3, ?_, hl3, hr3⟩
              rw [rcc.1.2.2.2.1, hn1]
              exact a1

/-! ### The value of the XOR encoding -/

/-- The arithmetic of the XOR encoding: for Boolean values `A`, `B` of the
fan-ins of one child and `C`, `D` of the other, pairwise complementary, the root
`(1 - A * B) * (1 - C * D)` minus twice a child plus the fan-ins of that child
is 0. -/
theorem xor_encoding_value (A B C D : Int) (hC : C = 0 ∨ C = 1) (hD : D = 0 ∨ D = 1)
    (hp : (A = 1 - C ∧ B = 1 - D) ∨ (A = 1 - D ∧ B = 1 - C)) :
    -((1 - A * B) * (1 - C * D)) - 2 * (A * B) + A + B = 0 ∧
    -((1 - A * B) * (1 - C * D)) - 2 * (C * D) + C + D = 0 := by
  rcases hp with ⟨rfl, rfl⟩ | ⟨rfl, rfl⟩ <;> rcases hC with rfl | rfl <;>
    rcases hD with rfl | rfl <;> norm_num

theorem litLin_eval (σ : Var → Int) (c : Circuit) (a : Gate) (lit : Nat) (h2 : 2 ≤ lit)
    (ha : gate c lit = some a) : litLin (Term.eval σ) a lit = litValue σ c lit := by
  rw [gate_of_pos c lit h2] at ha
  have h0 : lit ≠ 0 := by omega
  have h1 : lit ≠ 1 := by omega
  unfold litLin litValue
  simp only [h0, h1, if_false, ha]
  simp [Term.eval]

theorem gate_one_none (c : Circuit) (x : Nat) (g : Gate) (h : gate c (x : Int) = some g) :
    x ≠ 1 := by
  intro h1
  subst h1
  simp [gate] at h

theorem aiger_not_pair (x y : Nat) (h : x = aiger_not y) (hx : x ≠ 1) (hy : y ≠ 1) :
    2 ≤ x ∧ 2 ≤ y := by
  unfold aiger_not at h
  rcases Nat.mod_two_eq_zero_or_one y with e | e
  · rw [xor_one_even y e] at h; omega
  · rw [xor_one_odd y e] at h; omega

/-- The four fan-in literals of two AND records with pairwise complementary
fan-ins are literals of gates when each of them has a gate. -/
theorem xor_pattern_lits (c : Circuit) (land rand : aiger_and) (hp : xor_pattern land rand)
    (g1 g2 g3 g4 : Gate) (h1 : gate c land.rhs0 = some g1) (h2 : gate c land.rhs1 = some g2)
    (h3 : gate c rand.rhs0 = some g3) (h4 : gate c rand.rhs1 = some g4) :
    2 ≤ land.rhs0 ∧ 2 ≤ land.rhs1 ∧ 2 ≤ rand.rhs0 ∧ 2 ≤ rand.rhs1 := by
  have n1 := gate_one_none c _ _ h1
  have n2 := gate_one_none c _ _ h2
  have n3 := gate_one_none c _ _ h3
  have n4 := gate_one_none c _ _ h4
  rcases hp with ⟨a, b⟩ | ⟨a, b⟩
  · have := aiger_not_pair _ _ a n1 n3
    have := aiger_not_pair _ _ b n2 n4
    omega
  · have := aiger_not_pair _ _ a n1 n4
    have := aiger_not_pair _ _ b n2 n3
    omega

theorem gen_xor_constraint_sound_core (aig : Circuit) (mult_spec : Bool)
    (a_idx b_idx : List Nat) (max_dist : Int) (c : Circuit) (md : Int) (hM : aig.NN < aig.M)
    (hrec : AigRecords aig) (htopo : AigOrdered aig) (hmax : 0 ≤ max_dist)
    (hord : ∀ i, i < aig.NN → i ∈ (if mult_spec then a_idx ++ b_idx else List.range aig.NN))
    (h : init_gates aig mult_spec a_idx b_idx max_dist = .ok (c, md)) :
    ∀ n ∈ c.gates, n.xor_gate = 1 →
      ∃ (p : Polynomial) (and1 smand1 : aiger_and) (l_gate r_gate gll glr : Gate),
        c.is_model_and n.num = some and1 ∧
        gate c and1.rhs0 = some l_gate ∧ gate c and1.rhs1 = some r_gate ∧
        c.is_model_and (if l_gate.level < r_gate.level then l_gate else r_gate).num
          = some smand1 ∧
        gate c smand1.rhs0 = some gll ∧ gate c smand1.rhs1 = some glr ∧
        gen_xor_constraint c n = .ok (some p) ∧
        p.deg = 1 ∧ (∀ m ∈ p.mon, m.term.length ≤ 1) ∧
        (∀ g : Term → Int, lin g p.mon
          = -g [n.get_var]
            - 2 * g [(if l_gate.level < r_gate.level then l_gate else r_gate).get_var]
            + litLin g gll smand1.rhs0 + litLin g glr smand1.rhs1) ∧
        ∀ σ : Var → Int, Consistent σ c → evalPoly σ (some p) = 0 := by
  obtain ⟨r, ha, hsame, hlen, hkeep, hxr, hfan⟩ :=
    init_gates_xor_facts aig mult_spec a_idx b_idx max_dist c md hM h
  have t0 := allocate_gates_table aig mult_spec a_idx b_idx max_dist r hM ha
  obtain ⟨lvA, lvB⟩ :=
    allocate_gates_levels aig mult_spec a_idx b_idx max_dist r hM hmax htopo hord ha
  have hisc : c.is_model_and = aig.is_model_and := hsame.2.2.2.1
  -- every slot of the table
  have slot : ∀ (j : Nat) (g : Gate), c.gates[j]? = some g →
      ∃ g0, r.1[j]? = some g0 ∧ g.level = g0.level ∧ g.num = g0.num ∧
        (j + 1 < aig.M → g.num = 2 * ((j : Int) + 1)) ∧ (aig.M ≤ j + 1 → g.num ≤ 0) := by
    intro j g hg
    have hlt : j < r.1.length := by rw [← hlen]; exact getElem?_lt_length _ _ _ hg
    have k := hkeep j _ g (List.getElem?_eq_getElem hlt) hg
    have t := t0.2 j _ (List.getElem?_eq_getElem hlt)
    exact ⟨_, List.getElem?_eq_getElem hlt, k.1, k.2, fun hh => by rw [k.2]; exact t.2.2.1 hh,
      fun hh => by rw [k.2]; exact t.2.2.2 hh⟩
  have pair : ∀ (x y : Gate), (∃ i, i + 1 < aig.M ∧ c.gates[i]? = some x) →
      (∃ i, i + 1 < aig.M ∧ c.gates[i]? = some y) → x.level = y.level →
      (x.level ≠ 0 ∨ y.level ≠ 0) → x = y := by
    rintro x y ⟨i, hi, hgi⟩ ⟨k, hk, hgk⟩ hl hnz
    obtain ⟨gi0, a1, a2, _⟩ := slot i x hgi
    obtain ⟨gk0, b1, b2, _⟩ := slot k y hgk
    have hnz2 : x.level ≠ 0 := by
      rcases hnz with e | e
      · exact e
      · rw [hl]; exact e
    have := lvA i k gi0 gk0 hi hk a1 b1 (by rw [← a2, ← b2]; exact hl)
      (by rw [← a2]; exact hnz2)
    subst this
    rw [hgi] at hgk
    exact Option.some.inj hgk
  -- a child of an XOR root
  have key : ∀ x : Nat, 2 * (aig.NN : Int) + 2 ≤ (aiger_strip x : Int) →
      (aiger_strip x : Int) < 2 * (aig.M : Int) →
      (gate c (aiger_strip x : Int)).isSome →
      ∃ d, gate c (x : Int) = some d ∧ c.gates[x / 2 - 1]? = some d ∧
        d.num = (aiger_strip x : Int) ∧ x / 2 - 1 + 1 < aig.M ∧ aig.NN ≤ x / 2 - 1 ∧
        2 ≤ x := by
    intro x hx1 hxM hsome
    have hx2 : 2 ≤ aiger_strip x := by omega
    have hx0 : 2 ≤ x := by unfold aiger_strip at hx2; omega
    rw [gate_of_pos c _ hx2, aiger_strip_div] at hsome
    rw [gate_of_pos c _ hx0]
    obtain ⟨d, hd⟩ := Option.isSome_iff_exists.1 hsome
    obtain ⟨d0, _, _, _, hnum1, _⟩ := slot _ d hd
    have hlt : x / 2 - 1 + 1 < aig.M := by unfold aiger_strip at hxM; omega
    refine ⟨d, hd, hd, ?_, hlt, ?_, hx0⟩
    · rw [hnum1 hlt]
      unfold aiger_strip
      omega
    · unfold aiger_strip at hx1
      omega
  intro n hn hx
  obtain ⟨j, hj⟩ := List.mem_iff_getElem?.mp hn
  obtain ⟨and1, land, rand, hr1, hs1, hs2, hl, hr, hp, hgl, hgr⟩ := hxr j n hj hx
  have b1 := hrec n.num and1 (by rw [← hisc]; exact hr1)
  have b2 := hrec _ land (by rw [← hisc]; exact hl)
  have b3 := hrec _ rand (by rw [← hisc]; exact hr)
  obtain ⟨n0, hn0, hnl, hnn, hnum1, hnum2⟩ := slot j n hj
  have hjM : j + 1 < aig.M := by
    by_contra hge
    have := hnum2 (by omega)
    omega
  have hjN : aig.NN ≤ j := by
    have := hnum1 hjM
    omega
  obtain ⟨l_gate, hlg, hlslot, hlnum, hlM, hlN, hl0⟩ := key and1.rhs0 b2.1 b2.2 hgl
  obtain ⟨r_gate, hrg, hrslot, hrnum, hrM, hrN, hr0⟩ := key and1.rhs1 b3.1 b3.2 hgr
  have hlrec : c.is_model_and l_gate.num = some land := by rw [hlnum]; exact hl
  have hrrec : c.is_model_and r_gate.num = some rand := by rw [hrnum]; exact hr
  -- the gates of the four grand-children
  obtain ⟨la, lg1, lg2, e1, hl1, hl2⟩ := hfan _ l_gate hlN hlM hlslot
  rw [hlrec] at e1
  cases e1
  obtain ⟨ra, rg1, rg2, e2, hr1g, hr2g⟩ := hfan _ r_gate hrN hrM hrslot
  rw [hrrec] at e2
  cases e2
  obtain ⟨q1, q2, q3, q4⟩ := xor_pattern_lits c land rand hp _ _ _ _ hl1 hl2 hr1g hr2g
  -- the smaller child
  obtain ⟨S, hS⟩ : ∃ S, S = (if l_gate.level < r_gate.level then l_gate else r_gate) :=
    ⟨_, rfl⟩
  have hSc : ∃ (sj : Nat) (smand1 : aiger_and) (gll glr : Gate), c.gates[sj]? = some S ∧
      (sj = and1.rhs0 / 2 - 1 ∨ sj = and1.rhs1 / 2 - 1) ∧ sj + 1 < aig.M ∧ aig.NN ≤ sj ∧
      c.is_model_and S.num = some smand1 ∧
      gate c smand1.rhs0 = some gll ∧ gate c smand1.rhs1 = some glr ∧
      2 ≤ smand1.rhs0 ∧ 2 ≤ smand1.rhs1 ∧
      ((S = l_gate ∧ smand1 = land) ∨ (S = r_gate ∧ smand1 = rand)) := by
    by_cases hlt : l_gate.level < r_gate.level
    · rw [if_pos hlt] at hS
      subst hS
      exact ⟨_, land, lg1, lg2, hlslot, Or.inl rfl, hlM, hlN, hlrec, hl1, hl2, q1, q2,
        Or.inl ⟨rfl, rfl⟩⟩
    · rw [if_neg hlt] at hS
      subst hS
      exact ⟨_, rand, rg1, rg2, hrslot, Or.inr rfl, hrM, hrN, hrrec, hr1g, hr2g, q3, q4,
        Or.inr ⟨rfl, rfl⟩⟩
  obtain ⟨sj, smand1, gll, glr, hSslot, hsj, hsM, hsN, hSrec, hll, hrr, f1, f2, hwhich⟩ := hSc
  have hSord := htopo S.num smand1 (by rw [← hisc]; exact hSrec)
  obtain ⟨S0, hS0, hSl, hSn, hSnum, _⟩ := slot sj S hSslot
  have hSnum2 := hSnum hsM
  have hllslot : c.gates[smand1.rhs0 / 2 - 1]? = some gll := by
    rw [← gate_of_pos c _ f1]; exact hll
  have hrrslot : c.gates[smand1.rhs1 / 2 - 1]? = some glr := by
    rw [← gate_of_pos c _ f2]; exact hrr
  have haM : smand1.rhs0 / 2 - 1 + 1 < aig.M := by omega
  have hbM : smand1.rhs1 / 2 - 1 + 1 < aig.M := by omega
  obtain ⟨a0, ha0, hal, han, _, _⟩ := slot _ gll hllslot
  obtain ⟨b0, hb0, hbl, hbn, _, _⟩ := slot _ glr hrrslot
  -- levels that are not 0
  have zS : S.level ≠ 0 := by
    rw [hSl]
    refine lvB j n0 and1 hjN hjM hn0 (by rw [← hnn, ← hisc]; exact hr1) hl0 hr0 sj S0 hsj hS0 ?_
    intro _
    rw [← hSn, ← hisc, hSrec]
    rfl
  have za : gll.level ≠ 0 := by
    rw [hal]
    refine lvB sj S0 smand1 hsN hsM hS0 (by rw [← hSn, ← hisc]; exact hSrec) f1 f2 _ a0
      (Or.inl rfl) ha0 ?_
    intro hge
    obtain ⟨x, _, _, e, _, _⟩ := hfan _ gll hge haM hllslot
    rw [← han, ← hisc, e]
    rfl
  have zb : glr.level ≠ 0 := by
    rw [hbl]
    refine lvB sj S0 smand1 hsN hsM hS0 (by rw [← hSn, ← hisc]; exact hSrec) f1 f2 _ b0
      (Or.inr rfl) hb0 ?_
    intro hge
    obtain ⟨x, _, _, e, _, _⟩ := hfan _ glr hge hbM hrrslot
    rw [← hbn, ← hisc, e]
    rfl
  have tn : ∃ i, i + 1 < aig.M ∧ c.gates[i]? = some n := ⟨j, hjM, hj⟩
  have tS : ∃ i, i + 1 < aig.M ∧ c.gates[i]? = some S := ⟨sj, hsM, hSslot⟩
  have ta : ∃ i, i + 1 < aig.M ∧ c.gates[i]? = some gll := ⟨_, haM, hllslot⟩
  have tb : ∃ i, i + 1 < aig.M ∧ c.gates[i]? = some glr := ⟨_, hbM, hrrslot⟩
  have hd : LevelsDistinct [n.get_var, S.get_var, gll.get_var, glr.get_var] := by
    intro v hv w hw hvw
    simp only [List.mem_cons, List.mem_singleton, List.not_mem_nil, or_false] at hv hw
    rcases hv with rfl | rfl | rfl | rfl <;> rcases hw with rfl | rfl | rfl | rfl <;>
      first
      | rfl
      | exact congrArg Gate.get_var
          (pair _ _ (by assumption) (by assumption) hvw (Or.inl (by assumption)))
      | exact congrArg Gate.get_var
          (pair _ _ (by assumption) (by assumption) hvw (Or.inr (by assumption)))
  subst hS
  obtain ⟨p, hp1, hp2, hp3, hp4⟩ :=
    gen_xor_constraint_eval c n l_gate r_gate gll glr and1 smand1 hr1 hlg hrg hSrec hll hrr hd
  refine ⟨p, and1, smand1, l_gate, r_gate, gll, glr, hr1, hlg, hrg, hSrec, hll, hrr, hp1, hp2,
    hp3, hp4, ?_⟩
  intro σ hσ
  have ev : evalPoly σ (some p) = lin (Term.eval σ) p.mon := evalMons_eq_lin σ p.mon
  rw [ev, hp4, litLin_eval σ c gll _ f1 hll, litLin_eval σ c glr _ f2 hrr]
  have en := hσ.2 n hn and1 hr1
  have el := hσ.2 l_gate (gate_mem c _ _ hlg) land hlrec
  have er := hσ.2 r_gate (gate_mem c _ _ hrg) rand hrrec
  have vl : litValue σ c and1.rhs0 = 1 - σ l_gate.get_var := by
    unfold litValue
    rw [if_neg (by omega), if_neg (by omega), hlslot]
    simp only [hs1, if_true]
  have vr : litValue σ c and1.rhs1 = 1 - σ r_gate.get_var := by
    unfold litValue
    rw [if_neg (by omega), if_neg (by omega), hrslot]
    simp only [hs2, if_true]
  have hpat : (litValue σ c land.rhs0 = 1 - litValue σ c rand.rhs0 ∧
        litValue σ c land.rhs1 = 1 - litValue σ c rand.rhs1) ∨
      (litValue σ c land.rhs0 = 1 - litValue σ c rand.rhs1 ∧
        litValue σ c land.rhs1 = 1 - litValue σ c rand.rhs0) := by
    rcases hp with ⟨a, b⟩ | ⟨a, b⟩
    · left; rw [a, b, litValue_not, litValue_not]; exact ⟨rfl, rfl⟩
    · right; rw [a, b, litValue_not, litValue_not]; exact ⟨rfl, rfl⟩
  have val := xor_encoding_value _ _ _ _ (litValue_bool σ hσ.1 c rand.rhs0)
    (litValue_bool σ hσ.1 c rand.rhs1) hpat
  have t1 : ∀ v : Var, Term.eval σ [v] = σ v := by intro v; simp [Term.eval]
  rw [t1, t1, en, vl, vr]
  rcases hwhich with ⟨e1, e2⟩ | ⟨e1, e2⟩
  · rw [e1, e2, el, er]
    exact val.1
  · rw [e1, e2, el, er]
    exact val.2

/-- C19: let `init_gates` build the gate table `c` for an AIG in AIGER order
(the AND records belong to the literals `2 * NN + 2 <= l < 2 * M` and have
smaller fan-in literals), started with `max_dist >= 0` and an input order that
visits every input. Then for every gate `n` that `set_xor` has marked as XOR
root (`xor_gate = 1`), `gen_xor_constraint(n)` returns a polynomial `p` with:
`p` is `-n - 2 * smaller + (literal polynomials of the two fan-ins of smaller)`,
where `smaller` is the child of `n` chosen by the level test and the literal
polynomial of a fan-in `a` is `a` or `1 - a` (stated for the image of `p`
under every linear functional `g` on terms); `p` has degree 1 and every term of
it has at most one variable; and `p` has the value 0 on every Boolean assignment
consistent with the AND gates of the AIG. -/
theorem gen_xor_constraint_sound (aig : Circuit) (mult_spec : Bool)
    (a_idx b_idx : List Nat) (max_dist : Int) (c : Circuit) (md : Int) (hM : aig.NN < aig.M)
    (hrec : AigRecords aig) (htopo : AigOrdered aig) (hmax : 0 ≤ max_dist)
    (hord : ∀ i, i < aig.NN → i ∈ (if mult_spec then a_idx ++ b_idx else List.range aig.NN))
    (h : init_gates aig mult_spec a_idx b_idx max_dist = .ok (c, md)) :
    ∀ n ∈ c.gates, n.xor_gate = 1 →
      ∃ (p : Polynomial) (and1 smand1 : aiger_and) (l_gate r_gate gll glr : Gate),
        c.is_model_and n.num = some and1 ∧
        gate c and1.rhs0 = some l_gate ∧ gate c and1.rhs1 = some r_gate ∧
        c.is_model_and (if l_gate.level < r_gate.level then l_gate else r_gate).num
          = some smand1 ∧
        gate c smand1.rhs0 = some gll ∧ gate c smand1.rhs1 = some glr ∧
        gen_xor_constraint c n = .ok (some p) ∧
        p.deg = 1 ∧ (∀ m ∈ p.mon, m.term.length ≤ 1) ∧
        (∀ g : Term → Int, lin g p.mon
          = -g [n.get_var]
            - 2 * g [(if l_gate.level < r_gate.level then l_gate else r_gate).get_var]
            + litLin g gll smand1.rhs0 + litLin g glr smand1.rhs1) ∧
        ∀ σ : Var → Int, Consistent σ c → evalPoly σ (some p) = 0 :=
  gen_xor_constraint_sound_core aig mult_spec a_idx b_idx max_dist c md hM hrec htopo hmax
    hord h

/-- C19 (witness): the XOR root 10 of `dupAndAig`, whose children are the gates
8 and 6 with the fan-ins 5, 3 and 4, 2. -/
theorem gen_xor_constraint_sound_witness :
    ∃ (p : Polynomial) (and1 smand1 : aiger_and) (l_gate r_gate gll glr : Gate),
      dupAndTable.is_model_and (Gate.mk 10 12 false false 1 false [8, 6] 2 [0] (some 12)).num
        = some and1 ∧
      gate dupAndTable and1.rhs0 = some l_gate ∧ gate dupAndTable and1.rhs1 = some r_gate ∧
      dupAndTable.is_model_and (if l_gate.level < r_gate.level then l_gate else r_gate).num
        = some smand1 ∧
      gate dupAndTable smand1.rhs0 = some gll ∧ gate dupAndTable smand1.rhs1 = some glr ∧
      gen_xor_constraint dupAndTable (Gate.mk 10 12 false false 1 false [8, 6] 2 [0] (some 12))
        = .ok (some p) ∧
      p.deg = 1 ∧ (∀ m ∈ p.mon, m.term.length ≤ 1) ∧
      (∀ g : Term → Int, lin g p.mon
        = -g [(Gate.mk 10 12 false false 1 false [8, 6] 2 [0] (some 12)).get_var]
          - 2 * g [(if l_gate.level < r_gate.level then l_gate else r_gate).get_var]
          + litLin g gll smand1.rhs0 + litLin g glr smand1.rhs1) ∧
      ∀ σ : Var → Int, Consistent σ dupAndTable → evalPoly σ (some p) = 0 :=
  gen_xor_constraint_sound dupAndAig false [] [] 0 dupAndTable 2 (by decide)
    (by
      intro l and1 h
      simp only [dupAndAig] at h ⊢
      split_ifs at h <;> first | (cases h; done) | (constructor <;> push_cast <;> omega))
    (by
      intro l and1 h
      simp only [dupAndAig] at h
      split_ifs at h <;> cases h <;> subst_vars <;> decide)
    (by decide)
    (by
      intro i hi
      simp only [dupAndAig] at hi
      simp only [dupAndAig, Bool.false_eq_true, if_false, List.mem_range]
      exact hi)
    rfl _ (by simp [dupAndTable]) rfl

end Talisman
